import Mathlib

/-!
# Trinity: query execution engine (exec.cpp) and postings codec (lucene_codec.cpp)

A shallow embedding of the query optimizer, compiler and interpreter of `exec.cpp`
and of the block codec, postings encoder and postings decoder of `lucene_codec.cpp`,
followed by the theorems proved about them.

Conventions of the embedding:
* machine integers are `Nat`; where the source relies on a fixed width the
  reduction `% 2^w` is written out;
* pointers into arrays are indices, mutable objects are explicit state records;
* `require(..)` / `std::abort()` are `none` results.
-/

namespace Trinity

/-! ## Constants -/

/-- The value of `UINT16_MAX`. -/
def UINT16_MAX : Nat := 65535

/-- The value of `UINT32_MAX`. -/
def UINT32_MAX : Nat := 4294967295

/-! ## Abstract query tree (the parser's `ast_node`, as used by exec.cpp) -/

/-- A term is a byte string. -/
abbrev str8_t := List Nat

/-- Session-local term id (`exec_term_id_t`, 16 bit, 0 is reserved). -/
abbrev exec_term_id_t := Nat

/-- The parser's `Trinity::phrase`: `size` is `terms.length`. -/
structure phrase where
  terms : List str8_t
  index : Nat
  rep : Nat
  flags : Nat
deriving DecidableEq, Repr

/-- The parser's `phrase::size`. -/
def phrase.size (p : phrase) : Nat := p.terms.length

/-- The parser's `Operator`. -/
inductive Operator where
  | NONE
  | AND
  | STRICT_AND
  | OR
  | NOT
deriving DecidableEq, Repr

/-- The parser's `ast_node`, one constructor per `ast_node::Type`. -/
inductive ast_node where
  | Token (p : phrase)
  | Phrase (p : phrase)
  | BinOp (op : Operator) (lhs rhs : ast_node)
  | UnaryOp (op : Operator) (expr : ast_node)
  | ConstTrueExpr (expr : ast_node)
  | ConstFalse
  | Dummy
deriving DecidableEq, Repr

/-! ## Index source and decoder interface -/

/-- One hit of a term in a document (`term_hit`). -/
structure term_hit where
  pos : Nat
  payloadLen : Nat
  payload : Nat
deriving DecidableEq, Repr

/-- One document of a posting list with its hits. -/
structure Posting where
  id : Nat
  hits : List term_hit
deriving DecidableEq, Repr

/-- Modelled from the spec: the `IndexSource` interface of section 6 (its class is
declared outside exec.cpp). `resolve_term` gives the index term id (0 if unknown),
`documents` is `term_ctx(id).documents`, and `postings` is the posting list that
`new_postings_decoder(term_ctx(id))` streams. -/
structure IndexSource where
  resolve_term : str8_t → Nat
  documents : Nat → Nat
  postings : Nat → List Posting

/-- Modelled from the spec: the `Decoder` interface of section 6 (codecs.h is not
part of exec.cpp). The state is the part of the posting list from the current
document on; the empty list is the exhausted stream. -/
structure Decoder where
  remaining : List Posting
deriving DecidableEq, Repr

/-- Modelled from the spec: `seek(docID)` advances to the first document `>= docID`
and answers whether it landed exactly on `docID`. -/
def Decoder.seek (d : Decoder) (did : Nat) : Bool × Decoder :=
  let r := d.remaining.dropWhile (fun p => decide (p.id < did))
  (match r with
   | [] => false
   | p :: _ => decide (p.id = did), { remaining := r })

/-- Modelled from the spec: `curDocument.freq` of the decoder. -/
def Decoder.freq (d : Decoder) : Nat :=
  match d.remaining with
  | [] => 0
  | p :: _ => p.hits.length

/-- Modelled from the spec: the hits `materialize_hits` writes to `out`. -/
def Decoder.hits (d : Decoder) : List term_hit :=
  match d.remaining with
  | [] => []
  | p :: _ => p.hits

/-- Modelled from the spec: `DocWordsSpace` (docwordspace.h), the set of
`(termID, position)` pairs set since the last reset. -/
structure DocWordsSpace where
  bits : List (Nat × Nat)
deriving DecidableEq, Repr

/-- Modelled from the spec: `DocWordsSpace::reset`. -/
def DocWordsSpace.reset (_ : DocWordsSpace) (_ : Nat) : DocWordsSpace := { bits := [] }

/-- Modelled from the spec: `DocWordsSpace::set`. -/
def DocWordsSpace.set (d : DocWordsSpace) (termID pos : Nat) : DocWordsSpace :=
  { bits := (termID, pos) :: d.bits }

/-- Modelled from the spec: `DocWordsSpace::test`. -/
def DocWordsSpace.test (d : DocWordsSpace) (termID pos : Nat) : Bool :=
  decide ((termID, pos) ∈ d.bits)

/-- Modelled from the spec: the effect of `Decoder::materialize_hits` on the
doc-words space, one bit per hit with a non-zero position. -/
def DocWordsSpace.set_hits (d : DocWordsSpace) (termID : Nat) : List term_hit → DocWordsSpace
  | [] => d
  | h :: hs => DocWordsSpace.set_hits (if h.pos ≠ 0 then d.set termID h.pos else d) termID hs

/-- Modelled from the spec: `materialize_hits(termID, dws, out)` of the `Decoder`
interface of section 6: the doc-words space with the bits of the hits of the current
document set, and the hits written to `out`. -/
def Decoder.materialize_hits (d : Decoder) (termID : Nat) (dws : DocWordsSpace) :
    DocWordsSpace × List term_hit :=
  (dws.set_hits termID d.hits, d.hits)

/-! ## Runtime context (exec.cpp, `runtime_ctx`) -/

/-- One occurrence of a term in the original query (`instance_struct`). -/
structure instance_struct where
  index : Nat
  rep : Nat
  flags : Nat
deriving DecidableEq, Repr

/-- The record `query_term_instances` (matches.h) built by `exec_query`. -/
structure query_term_instances where
  termId : Nat
  token : str8_t
  instances : List instance_struct
deriving DecidableEq, Repr

/-- The buffer `term_hits`: `docSeq` is the generation at which it was populated. -/
structure term_hits where
  docSeq : Nat
  freq : Nat
  all : List term_hit
deriving DecidableEq, Repr

/-- One entry of `matchedDocument.matchedTerms`: the pointer `queryTermInstances`
and the pointer `hits`, the latter named by the term id whose slot it points to. -/
structure matched_query_term where
  queryTermInstances : query_term_instances
  hits : Nat
deriving DecidableEq, Repr

/-- The per-document part of `runtime_ctx`. Arrays indexed by term id are functions.
`matchedTerms` is the live part `matchedTerms[0 .. matchedTermsCnt)` of the array,
so that `matchedTermsCnt` is its length and `matchedTermsCnt = 0` is the empty list. -/
structure runtime_ctx where
  curDocID : Nat
  curDocSeq : Nat
  originalQueryTermInstances : Nat → Option query_term_instances
  decoders : Nat → Decoder
  termHits : Nat → term_hits
  capacity : Nat
  docWordsSpace : DocWordsSpace
  termsDictSize : Nat
  curDocQueryTokensCaptured : Nat → Nat
  matchedTerms : List matched_query_term

/-- The field `matchedDocument.matchedTermsCnt`. -/
def runtime_ctx.matchedTermsCnt (c : runtime_ctx) : Nat := c.matchedTerms.length

/-- The term ids of the entries of `matchedDocument.matchedTerms`, in capture order. -/
def runtime_ctx.matchedTermIDs (c : runtime_ctx) : List Nat :=
  c.matchedTerms.map (fun m => m.hits)

/-- The body of `runtime_ctx::materialize_term_hits_impl`: the buffer of the term is
stamped with the generation, its frequency set, and the decoder's `materialize_hits` is
called on the doc-words space and the buffer. -/
def materialize_term_hits_impl (c : runtime_ctx) (termID : Nat) : runtime_ctx :=
  let dec := c.decoders termID
  let docHits := dec.freq
  let out := dec.materialize_hits termID c.docWordsSpace
  { c with
    termHits := Function.update c.termHits termID
      { docSeq := c.curDocSeq, freq := docHits, all := out.2 }
    docWordsSpace := out.1 }

/-- The body of `runtime_ctx::materialize_term_hits`: decode only if the buffer is stale. -/
def materialize_term_hits (c : runtime_ctx) (termID : Nat) : runtime_ctx :=
  if (c.termHits termID).docSeq ≠ c.curDocSeq then materialize_term_hits_impl c termID else c

/-- The body of `runtime_ctx::capture_matched_term`. -/
def capture_matched_term (c : runtime_ctx) (termID : Nat) : runtime_ctx :=
  match c.originalQueryTermInstances termID with
  | some qti =>
    if c.curDocQueryTokensCaptured termID ≠ c.curDocSeq then
      { c with
        matchedTerms := c.matchedTerms ++ [{ queryTermInstances := qti, hits := termID }]
        curDocQueryTokensCaptured := Function.update c.curDocQueryTokensCaptured termID c.curDocSeq }
    else c
  | none => c

/-- The body of `runtime_ctx::reset`. -/
def runtime_ctx.reset (c : runtime_ctx) (did : Nat) : runtime_ctx :=
  if c.curDocSeq = UINT16_MAX then
    { c with
      curDocID := did
      docWordsSpace := c.docWordsSpace.reset did
      matchedTerms := []
      curDocQueryTokensCaptured := fun t =>
        if t < c.termsDictSize + 1 then 0 else c.curDocQueryTokensCaptured t
      termHits := fun i =>
        if i < c.capacity then { c.termHits i with docSeq := 0 } else c.termHits i
      curDocSeq := 1 }
  else
    { c with
      curDocID := did
      docWordsSpace := c.docWordsSpace.reset did
      matchedTerms := []
      curDocSeq := c.curDocSeq + 1 }

/-- The call `rctx.decode_ctx.decoders[termID]->seek(did)` with its effect on the slot. -/
def seek_term (c : runtime_ctx) (termID did : Nat) : Bool × runtime_ctx :=
  let r := (c.decoders termID).seek did
  (r.1, { c with decoders := Function.update c.decoders termID r.2 })

/-! ## Execution nodes and interpreter -/

/-- The record `runtime_ctx::phrase` built by `register_phrase`. -/
structure exec_phrase where
  termIDs : List Nat
  rep : Nat
  index : Nat
  flags : Nat
deriving DecidableEq, Repr

/-- An `exec_node`: the function pointer `fp` is the constructor, the union payload is
its argument (a term id, a `termsrun`, a `binop_ctx`, a `unaryop_ctx` or a phrase). A
`termsrun` is the list of its `size` term ids, `size` being a `uint16_t`. -/
inductive exec_node where
  | noop_impl
  | matchterm_impl (termID : Nat)
  | matchphrase_impl (p : exec_phrase)
  | matchallterms_impl (run : List Nat)
  | matchanyterms_impl (run : List Nat)
  | unaryand_impl (expr : exec_node)
  | unarynot_impl (expr : exec_node)
  | consttrueexpr_impl (expr : exec_node)
  | logicaland_impl (lhs rhs : exec_node)
  | logicalnot_impl (lhs rhs : exec_node)
  | logicalor_impl (lhs rhs : exec_node)
deriving DecidableEq, Repr

/-- The loop of `matchallterms_impl` from index `i` on: the first term that is not on
the document ends it with `false`. The source is a do-while and so runs its body once
on an empty run; `compile` only builds runs of two or more terms. -/
def matchallterms_loop : List Nat → runtime_ctx → Bool × runtime_ctx
  | [], c => (true, c)
  | termID :: rest, c =>
    let r := seek_term c termID c.curDocID
    if r.1 then matchallterms_loop rest (capture_matched_term r.2 termID)
    else (false, r.2)

/-- The loop of `matchanyterms_impl` from index `i` on, `res` being the accumulator. -/
def matchanyterms_loop : List Nat → Bool → runtime_ctx → Bool × runtime_ctx
  | [], res, c => (res, c)
  | termID :: rest, res, c =>
    let r := seek_term c termID c.curDocID
    if r.1 then matchanyterms_loop rest true (capture_matched_term r.2 termID)
    else matchanyterms_loop rest res r.2

/-- The first loop of `matchphrase_impl`, over the phrase terms after the first: seek
each one and materialize its hits; `false` as soon as one is not on the document. -/
def matchphrase_seek_rest : List Nat → runtime_ctx → Bool × runtime_ctx
  | [], c => (true, c)
  | termID :: rest, c =>
    let r := seek_term c termID c.curDocID
    if r.1 then matchphrase_seek_rest rest (materialize_term_hits r.2 termID)
    else (false, r.2)

/-- The innermost loop of `matchphrase_impl` (`for (uint8_t k{1};; ++k)`): `rest` are the
term ids `termIDs[k ..]`; true when `k` reaches `n`. -/
def matchphrase_check (dws : DocWordsSpace) (pos : Nat) : Nat → List Nat → Bool
  | _, [] => true
  | k, termID :: rest =>
    if dws.test termID (pos + k) then matchphrase_check dws pos (k + 1) rest else false

/-- The scan of the first term's hits in `matchphrase_impl`: a hit whose position is 0
is skipped. -/
def matchphrase_scan (dws : DocWordsSpace) (rest : List Nat) : List term_hit → Bool
  | [] => false
  | h :: hs =>
    if h.pos ≠ 0 then
      if matchphrase_check dws h.pos 1 rest then true else matchphrase_scan dws rest hs
    else matchphrase_scan dws rest hs

/-- The body of `matchphrase_impl`. -/
def matchphrase (p : exec_phrase) (c : runtime_ctx) : Bool × runtime_ctx :=
  match p.termIDs with
  | [] => (false, c)
  | firstTermID :: rest =>
    let r := seek_term c firstTermID c.curDocID
    if r.1 then
      let r2 := matchphrase_seek_rest rest r.2
      if r2.1 then
        let c3 := materialize_term_hits r2.2 firstTermID
        let th := c3.termHits firstTermID
        if matchphrase_scan c3.docWordsSpace rest (th.all.take th.freq) then
          (true, p.termIDs.foldl capture_matched_term c3)
        else (false, c3)
      else (false, r2.2)
    else (false, r.2)

/-- The interpreter: `eval(node, ctx)` dispatches on the node's `fp`. -/
def eval : exec_node → runtime_ctx → Bool × runtime_ctx
  | .noop_impl, c => (false, c)
  | .matchterm_impl termID, c =>
    let r := seek_term c termID c.curDocID
    if r.1 then (true, capture_matched_term r.2 termID) else (false, r.2)
  | .matchphrase_impl p, c => matchphrase p c
  | .matchallterms_impl run, c => matchallterms_loop run c
  | .matchanyterms_impl run, c => matchanyterms_loop run false c
  | .unaryand_impl e, c => eval e c
  | .unarynot_impl e, c => let r := eval e c; (!r.1, r.2)
  | .consttrueexpr_impl e, c => let r := eval e c; (true, r.2)
  | .logicaland_impl l r, c =>
    let a := eval l c
    if a.1 then eval r a.2 else (false, a.2)
  | .logicalnot_impl l r, c =>
    let a := eval l c
    if a.1 then (let b := eval r a.2; (!b.1, b.2)) else (false, a.2)
  | .logicalor_impl l r, c =>
    let res1 := eval l c
    let res2 := eval r res1.2
    (res1.1 || res2.1, res2.2)

/-! ## Compiler (exec.cpp, `compile` and the `register_*` helpers) -/

/-- The dictionary `termsDict`: the distinct terms in the order they were first
resolved; the id of a term is its 1-based position. -/
abbrev TermsDict := List str8_t

/-- The lookup `termsDict[token]`: the id of a term of the dictionary, 0 if it is missing. -/
def TermsDict.lookup : TermsDict → str8_t → Nat
  | [], _ => 0
  | t :: ts, term =>
    if t = term then 1
    else if TermsDict.lookup ts term = 0 then 0 else TermsDict.lookup ts term + 1

/-- The body of `runtime_ctx::resolve_term`: a new term gets `termsDict.size()` after its
insertion as its id. The id is an `exec_term_id_t` of 16 bits, which holds the size while
the dictionary has at most `UINT16_MAX` terms. -/
def resolve_term (dict : TermsDict) (term : str8_t) : Nat × TermsDict :=
  if dict.lookup term = 0 then (dict.length + 1, dict ++ [term])
  else (dict.lookup term, dict)

/-- The body of `register_token`: the id of `p->terms[0]`. -/
def register_token (dict : TermsDict) (p : phrase) : Nat × TermsDict :=
  resolve_term dict (p.terms.headD [])

/-- The loop of `register_phrase`, resolving the terms in order. -/
def register_phrase_terms : List str8_t → TermsDict → List Nat × TermsDict
  | [], dict => ([], dict)
  | t :: ts, dict =>
    let r := resolve_term dict t
    let rs := register_phrase_terms ts r.2
    (r.1 :: rs.1, rs.2)

/-- The body of `register_phrase`. -/
def register_phrase (dict : TermsDict) (p : phrase) : exec_phrase × TermsDict :=
  let r := register_phrase_terms p.terms dict
  ({ termIDs := r.1, rep := p.rep, index := p.index, flags := p.flags }, r.2)

/-- The `Operator::AND` / `Operator::STRICT_AND` case of `compile`, on the compiled
children (`COMPILER_MATCHRUNS_SUPPORT` is defined): the four `register_termsrun`
overloads, else `logicaland_impl`. -/
def compile_and (lhs rhs : exec_node) : exec_node :=
  match lhs, rhs with
  | .matchterm_impl t1, .matchterm_impl t2 => .matchallterms_impl [t1, t2]
  | .matchterm_impl t, .matchallterms_impl run => .matchallterms_impl (t :: run)
  | .matchallterms_impl run, .matchterm_impl t => .matchallterms_impl (run ++ [t])
  | .matchallterms_impl run1, .matchallterms_impl run2 => .matchallterms_impl (run1 ++ run2)
  | l, r => .logicaland_impl l r

/-- The `Operator::OR` case of `compile`, on the compiled children: the four
`register_termsrun` overloads, else (line 973) `res.fp = logicaland_impl`. -/
def compile_or (lhs rhs : exec_node) : exec_node :=
  match lhs, rhs with
  | .matchterm_impl t1, .matchterm_impl t2 => .matchanyterms_impl [t1, t2]
  | .matchterm_impl t, .matchanyterms_impl run => .matchanyterms_impl (t :: run)
  | .matchanyterms_impl run, .matchterm_impl t => .matchanyterms_impl (run ++ [t])
  | .matchanyterms_impl run1, .matchanyterms_impl run2 => .matchanyterms_impl (run1 ++ run2)
  | l, r => .logicaland_impl l r

/-- The `switch (n->binop.op)` of the `BinOp` case of `compile`, on the compiled children
and the dictionary after both were compiled. -/
def compile_op (op : Operator) (l r : exec_node) (d : TermsDict) :
    Option (exec_node × TermsDict) :=
  match op with
  | .AND => some (compile_and l r, d)
  | .STRICT_AND => some (compile_and l r, d)
  | .OR => some (compile_or l r, d)
  | .NOT => some (.logicalnot_impl l r, d)
  | .NONE => none

/-- The function `compile`. `std::abort()` (a `Dummy` node, a binop with `Operator::NONE`,
a unary op that is neither AND, STRICT_AND nor NOT) is `none`. The two children of a
binop are compiled as the arguments of one call, `register_binop(compile(lhs),
compile(rhs))` (line 915), in an order the language leaves to the compiler: `rhsFirst`
says whether the right child is compiled, and its terms are resolved, before the left
one. -/
def compile (rhsFirst : Bool) : ast_node → TermsDict → Option (exec_node × TermsDict)
  | .Dummy, _ => none
  | .Token p, dict =>
    let r := register_token dict p
    some (.matchterm_impl r.1, r.2)
  | .Phrase p, dict =>
    if p.size = 1 then
      let r := register_token dict p
      some (.matchterm_impl r.1, r.2)
    else
      let r := register_phrase dict p
      some (.matchphrase_impl r.1, r.2)
  | .BinOp op lhs rhs, dict =>
    if rhsFirst then
      match compile rhsFirst rhs dict with
      | none => none
      | some (r, d1) =>
        match compile rhsFirst lhs d1 with
        | none => none
        | some (l, d2) => compile_op op l r d2
    else
      match compile rhsFirst lhs dict with
      | none => none
      | some (l, d1) =>
        match compile rhsFirst rhs d1 with
        | none => none
        | some (r, d2) => compile_op op l r d2
  | .ConstFalse, dict => some (.noop_impl, dict)
  | .UnaryOp op expr, dict =>
    match op with
    | .AND =>
      (match compile rhsFirst expr dict with
       | none => none
       | some (e, d) => some (.unaryand_impl e, d))
    | .STRICT_AND =>
      (match compile rhsFirst expr dict with
       | none => none
       | some (e, d) => some (.unaryand_impl e, d))
    | .NOT =>
      (match compile rhsFirst expr dict with
       | none => none
       | some (e, d) => some (.unarynot_impl e, d))
    | _ => none
  | .ConstTrueExpr expr, dict =>
    match compile rhsFirst expr dict with
    | none => none
    | some (e, d) => some (.consttrueexpr_impl e, d)

/-! ## Optimizer (exec.cpp, `optimize_binops_impl`, `reorder`, `optimize`) -/

/-- The body of `runtime_ctx::token_eval_cost`; `term_ctx(termID)` is the index source's
`term_ctx` at `toIndexSrcSpace[termID]`, which `resolve_term` set to
`idxsrc->resolve_term(term)`. -/
def token_eval_cost (src : IndexSource) (dict : TermsDict) (token : str8_t) : Nat × TermsDict :=
  let r := resolve_term dict token
  if r.1 = 0 then (UINT32_MAX, r.2)
  else
    let documents := src.documents (src.resolve_term token)
    if documents = 0 then (UINT32_MAX, r.2) else (documents, r.2)

/-- The loop of `runtime_ctx::phrase_eval_cost`, `sum` being the 32-bit accumulator. -/
def phrase_eval_cost_loop (src : IndexSource) : List str8_t → Nat → TermsDict → Nat × TermsDict
  | [], sum, dict => (sum, dict)
  | token :: rest, sum, dict =>
    let r := token_eval_cost src dict token
    if r.1 = UINT32_MAX then (UINT32_MAX, r.2)
    else phrase_eval_cost_loop src rest ((sum + r.1) % 2 ^ 32) r.2

/-- The body of `runtime_ctx::phrase_eval_cost`. -/
def phrase_eval_cost (src : IndexSource) (dict : TermsDict) (p : phrase) : Nat × TermsDict :=
  phrase_eval_cost_loop src p.terms 0 dict

/-- The result of one call of `optimize_binops_impl`: the node as it is left in place,
the `updates` flag, the dictionary, and the returned cost. -/
structure opt_result where
  node : ast_node
  updates : Bool
  dict : TermsDict
  cost : Nat
deriving DecidableEq, Repr

/-- The function `optimize_binops_impl`: the cost pass over a node, rewriting it in place. -/
def optimize_binops_impl (src : IndexSource) : ast_node → Bool → TermsDict → opt_result
  | .Token p, updates, dict =>
    let r := token_eval_cost src dict (p.terms.headD [])
    if r.1 = UINT32_MAX then
      { node := .ConstFalse, updates := true, dict := r.2, cost := UINT32_MAX }
    else { node := .Token p, updates := updates, dict := r.2, cost := r.1 }
  | .Phrase p, updates, dict =>
    let r := phrase_eval_cost src dict p
    if r.1 = UINT32_MAX then
      { node := .ConstFalse, updates := true, dict := r.2, cost := UINT32_MAX }
    else { node := .Phrase p, updates := updates, dict := r.2, cost := r.1 }
  | .BinOp op lhs rhs, updates, dict =>
    let l := optimize_binops_impl src lhs updates dict
    if l.cost = UINT32_MAX ∧ (op = .AND ∨ op = .STRICT_AND) then
      { node := .ConstFalse, updates := true, dict := l.dict, cost := UINT32_MAX }
    else
      let r := optimize_binops_impl src rhs l.updates l.dict
      if r.cost = UINT32_MAX ∧ l.cost = UINT32_MAX ∧ op = .OR then
        { node := .ConstFalse, updates := true, dict := r.dict, cost := UINT32_MAX }
      else
        { node := if r.cost < l.cost ∧ op ≠ .NOT then .BinOp op r.node l.node
                  else .BinOp op l.node r.node
          updates := r.updates
          dict := r.dict
          cost := (l.cost + r.cost) % 2 ^ 32 }
  | .ConstTrueExpr expr, updates, dict =>
    let e := optimize_binops_impl src expr updates dict
    if e.cost = UINT32_MAX then
      { node := .Dummy, updates := true, dict := e.dict, cost := 0 }
    else
      { node := .ConstTrueExpr e.node, updates := e.updates, dict := e.dict,
        cost := UINT32_MAX - 1 }
  | .UnaryOp op expr, updates, dict =>
    let e := optimize_binops_impl src expr updates dict
    if e.cost = UINT32_MAX then
      { node := .ConstFalse, updates := true, dict := e.dict, cost := UINT32_MAX }
    else { node := .UnaryOp op e.node, updates := e.updates, dict := e.dict, cost := e.cost }
  | .ConstFalse, updates, dict =>
    { node := .ConstFalse, updates := updates, dict := dict, cost := UINT32_MAX }
  | .Dummy, updates, dict =>
    { node := .Dummy, updates := updates, dict := dict, cost := 0 }

/-- Modelled from the spec: `ast_node::is_unary` (queries.h), true of the leaves
`Token` and `Phrase`. -/
def ast_node.is_unary : ast_node → Bool
  | .Token _ => true
  | .Phrase _ => true
  | _ => false

/-- True of a node whose `type` is `ast_node::Type::BinOp`. -/
def ast_node.is_binop : ast_node → Bool
  | .BinOp _ _ _ => true
  | _ => false

/-- The function `reorder`: the rewritten node and whether `ctx->dirty` was set. -/
def reorder : ast_node → ast_node × Bool
  | .BinOp op lhs0 rhs0 =>
    let l := reorder lhs0
    let r := reorder rhs0
    let lhs := l.1
    let rhs := r.1
    let dirty := l.2 || r.2
    if op = .AND ∨ op = .STRICT_AND then
      if lhs.is_binop ∧ rhs.is_unary then (.BinOp op rhs lhs, true)
      else (.BinOp op lhs rhs, dirty)
    else if op = .NOT then
      match lhs with
      | .BinOp lop llhs lrhs =>
        if rhs.is_unary ∧ llhs.is_unary ∧ lrhs.is_binop ∧ (lop = .AND ∨ lop = .STRICT_AND) then
          (.BinOp lop (.BinOp .NOT llhs rhs) lrhs, true)
        else (.BinOp op lhs rhs, dirty)
      | _ => (.BinOp op lhs rhs, dirty)
    else (.BinOp op lhs rhs, dirty)
  | n => (n, false)

/-- The do-while loop of `reorder_root`, bounded by `fuel` passes; `none` if the bound
is reached with `dirty` still set. -/
def reorder_root_loop : Nat → ast_node → Option ast_node
  | 0, _ => none
  | fuel + 1, r =>
    let p := reorder r
    if p.2 then reorder_root_loop fuel p.1 else some p.1

/-- Modelled from the spec: `normalize_root` (queries.cpp), which "removes
ConstFalse/Dummy nodes and collapses degenerate binops": a binop with a removed
operand becomes its other operand, except that a false operand of an AND and a false
left operand of a NOT make the whole binop false; a unary node over a removed node
is removed. -/
def normalize : ast_node → ast_node
  | .BinOp op lhs rhs =>
    let l := normalize lhs
    let r := normalize rhs
    match op with
    | .OR =>
      if l = .ConstFalse ∨ l = .Dummy then r
      else if r = .ConstFalse ∨ r = .Dummy then l
      else .BinOp op l r
    | .NOT =>
      if l = .ConstFalse ∨ l = .Dummy then l
      else if r = .ConstFalse ∨ r = .Dummy then l
      else .BinOp op l r
    | _ =>
      if l = .ConstFalse ∨ r = .ConstFalse then .ConstFalse
      else if l = .Dummy then r
      else if r = .Dummy then l
      else .BinOp op l r
  | .UnaryOp op expr =>
    let e := normalize expr
    if e = .ConstFalse ∨ e = .Dummy then e else .UnaryOp op e
  | .ConstTrueExpr expr =>
    let e := normalize expr
    if e = .ConstFalse ∨ e = .Dummy then .Dummy else .ConstTrueExpr e
  | n => n

/-- Modelled from the spec: `normalize_root` returns a null root when nothing is left. -/
def normalize_root (root : ast_node) : Option ast_node :=
  let r := normalize root
  if r = .ConstFalse ∨ r = .Dummy then none else some r

/-- The loop of `optimize_binops`, bounded by `fuel` passes: run the cost pass, and
normalize and repeat while it reports updates. The outer `none` is the bound being
reached, the inner one a null root. -/
def optimize_binops_loop (src : IndexSource) :
    Nat → Option ast_node → TermsDict → Option (Option ast_node × TermsDict)
  | _, none, dict => some (none, dict)
  | 0, some _, _ => none
  | fuel + 1, some root, dict =>
    let r := optimize_binops_impl src root false dict
    if r.updates then optimize_binops_loop src fuel (normalize_root r.node) r.dict
    else some (some r.node, r.dict)

/-- The function `optimize`: `reorder_root` then `optimize_binops`; the result is the
new `q.root` (null when nothing is left) and the dictionary. -/
def optimize (src : IndexSource) (fuel : Nat) (root : ast_node) (dict : TermsDict) :
    Option (Option ast_node × TermsDict) :=
  match reorder_root_loop fuel root with
  | none => none
  | some r => optimize_binops_loop src fuel (some r) dict

/-! ## The boolean value of a query on a document -/

/-- The ids of the documents of a term's posting list. -/
def IndexSource.docs (src : IndexSource) (token : str8_t) : List Nat :=
  (src.postings (src.resolve_term token)).map (fun p => p.id)

/-- The positions of a term's hits on a document (none if the document is not listed). -/
def IndexSource.positions (src : IndexSource) (token : str8_t) (did : Nat) : List Nat :=
  match (src.postings (src.resolve_term token)).find? (fun p => decide (p.id = did)) with
  | none => []
  | some p => p.hits.map (fun h => h.pos)

/-- A phrase is on a document when every term is and some non-zero position `pos` of
the first term has term `k` at `pos + k` for every later term. -/
def phrase_matches (src : IndexSource) (did : Nat) (p : phrase) : Bool :=
  match p.terms with
  | [] => false
  | first :: rest =>
    p.terms.all (fun t => decide (did ∈ src.docs t)) &&
    (src.positions first did).any (fun pos =>
      decide (pos ≠ 0) &&
      (List.range rest.length).all (fun k =>
        decide (pos + (k + 1) ∈ src.positions (rest.getD k []) did)))

/-- The boolean value of an abstract query tree on a document, in the words of the
specification: a token is true when the term's posting list contains the document,
AND and STRICT_AND are conjunction, OR is disjunction, binary NOT is `lhs and not rhs`,
unary NOT is negation, ConstTrueExpr is true, ConstFalse is false. -/
def ast_matches (src : IndexSource) (did : Nat) : ast_node → Bool
  | .Token p => decide (did ∈ src.docs (p.terms.headD []))
  | .Phrase p =>
    if p.size = 1 then decide (did ∈ src.docs (p.terms.headD [])) else phrase_matches src did p
  | .BinOp .AND lhs rhs => ast_matches src did lhs && ast_matches src did rhs
  | .BinOp .STRICT_AND lhs rhs => ast_matches src did lhs && ast_matches src did rhs
  | .BinOp .OR lhs rhs => ast_matches src did lhs || ast_matches src did rhs
  | .BinOp .NOT lhs rhs => ast_matches src did lhs && !ast_matches src did rhs
  | .BinOp .NONE _ _ => false
  | .UnaryOp .NOT expr => !ast_matches src did expr
  | .UnaryOp _ expr => ast_matches src did expr
  | .ConstTrueExpr _ => true
  | .ConstFalse => false
  | .Dummy => false

/-- The runtime context `exec_query` starts the driver loop with: one decoder per
dictionary term over the term's posting list, `curDocSeq = UINT16_MAX`, and the given
table of original query term instances. -/
def initial_ctx (src : IndexSource) (dict : TermsDict)
    (oqti : Nat → Option query_term_instances) : runtime_ctx :=
  { curDocID := 0
    curDocSeq := UINT16_MAX
    originalQueryTermInstances := oqti
    decoders := fun t =>
      if 1 ≤ t ∧ t ≤ dict.length then
        { remaining := src.postings (src.resolve_term (dict.getD (t - 1) [])) }
      else { remaining := [] }
    termHits := fun _ => { docSeq := 0, freq := 0, all := [] }
    capacity := dict.length + 8
    docWordsSpace := { bits := [] }
    termsDictSize := dict.length
    curDocQueryTokensCaptured := fun _ => 0
    matchedTerms := [] }

/-! ## Original query term instances (exec.cpp, `exec_query`, lines 1062-1119 and 1226-1283) -/

/-- The local record `query_term_instance` of `exec_query`. -/
structure query_term_instance where
  token : str8_t
  index : Nat
  rep : Nat
  flags : Nat
deriving DecidableEq, Repr

/-- The number of nodes of a tree, the bound on the iterations of the collection loop. -/
def ast_node.nodes : ast_node → Nat
  | .BinOp _ lhs rhs => lhs.nodes + rhs.nodes + 1
  | .UnaryOp _ expr => expr.nodes + 1
  | .ConstTrueExpr expr => expr.nodes + 1
  | _ => 1

/-- The do-while loop that collects the phrases of the original query (lines 1075-1109).
The head of `stack` is `stack.back()`; `none` when `fuel` iterations did not empty it. -/
def collect_loop : Nat → List ast_node → List phrase → Option (List phrase)
  | _, [], collected => some collected
  | 0, _ :: _, _ => none
  | fuel + 1, n :: stack, collected =>
    match n with
    | .Token p => collect_loop fuel stack (collected ++ [p])
    | .Phrase p => collect_loop fuel stack (collected ++ [p])
    | .UnaryOp op expr =>
      if op ≠ .NOT then collect_loop fuel (expr :: stack) collected
      else collect_loop fuel stack collected
    | .ConstTrueExpr expr => collect_loop fuel (expr :: stack) collected
    | .BinOp op lhs rhs =>
      if op = .AND ∨ op = .STRICT_AND ∨ op = .OR then
        collect_loop fuel (rhs :: lhs :: stack) collected
      else if op = .NOT then collect_loop fuel (lhs :: stack) collected
      else collect_loop fuel stack collected
    | _ => collect_loop fuel stack collected

/-- The collection of the phrases of a query: the loop started on `stack{q.root}`. -/
def collect_phrases (root : ast_node) : Option (List phrase) :=
  collect_loop root.nodes [root] []

/-- The inner loop of lines 1116-1117 over the terms of one phrase; `pos` is 16 bit. -/
def phrase_instances (rep flags : Nat) : List str8_t → Nat → List query_term_instance
  | [], _ => []
  | t :: ts, pos =>
    { token := t, index := pos, rep := rep, flags := flags } ::
      phrase_instances rep flags ts ((pos + 1) % 2 ^ 16)

/-- The loop of lines 1111-1118: the instances of all collected phrases. -/
def token_instances : List phrase → List query_term_instance
  | [] => []
  | it :: rest =>
    phrase_instances (if it.size = 1 then it.rep else 1) it.flags it.terms it.index ++
      token_instances rest

/-- The table `rctx.originalQueryTermInstances`, indexed by term id. -/
abbrev oqti_table := Nat → Option query_term_instances

/-- The do-while of the branch that builds an entry (lines 1247-1250): the instances from
`p` on that carry `token`, and what follows them. -/
def take_run (token : str8_t) : List query_term_instance →
    List query_term_instance × List query_term_instance
  | [] => ([], [])
  | x0 :: rest =>
    match rest with
    | [] => ([x0], [])
    | x1 :: _ =>
      if x1.token = token then
        let r := take_run token rest
        (x0 :: r.1, r.2)
      else ([x0], rest)

/-- The do-while of the branch for a token that is not in the dictionary
(lines 1277-1280): `do { ++p; } while (++p != e && p->token == token)`. The pointer is
incremented twice per round; `none` when it is moved past `e`. -/
def skip_unused (token : str8_t) : List query_term_instance → Option (List query_term_instance)
  | [] => none
  | [_] => none
  | [_, _] => some []
  | _ :: _ :: x2 :: rest =>
    if x2.token = token then skip_unused token (x2 :: rest) else some (x2 :: rest)

/-- The entry built for one term from its collected instances (lines 1252-1267); the
instances are sorted by `index`. -/
def make_instances (termID : Nat) (token : str8_t) (collected : List query_term_instance) :
    query_term_instances :=
  { termId := termID
    token := token
    instances :=
      (collected.insertionSort (fun a b => a.index ≤ b.index)).map
        (fun it => { index := it.index, rep := it.rep, flags := it.flags }) }

/-- The loop of lines 1238-1282 over the sorted instances, from `p` on; `none` when the
pointer leaves the array (or `fuel` rounds did not reach its end). -/
def build_loop (dict : TermsDict) :
    Nat → List query_term_instance → oqti_table → Option oqti_table
  | _, [], tbl => some tbl
  | 0, _ :: _, _ => none
  | fuel + 1, p :: rest, tbl =>
    let token := p.token
    let termID := dict.lookup token
    if termID ≠ 0 then
      let r := take_run token (p :: rest)
      build_loop dict fuel r.2 (Function.update tbl termID (some (make_instances termID token r.1)))
    else
      match skip_unused token (p :: rest) with
      | none => none
      | some rest2 => build_loop dict fuel rest2 tbl

/-- The construction of `rctx.originalQueryTermInstances` (lines 1234-1282): the table
is zeroed, the instances are sorted by token (`terms_cmp`, here the parameter `lt`),
and the loop runs over them. -/
def build_oqti (dict : TermsDict) (lt : str8_t → str8_t → Bool)
    (insts : List query_term_instance) : Option oqti_table :=
  build_loop dict insts.length
    (insts.insertionSort (fun a b => lt b.token a.token = false)) (fun _ => none)

/-- The table `exec_query` builds for the original query `root`, given the dictionary
left by the optimizer and the compiler. -/
def oqti_of_query (dict : TermsDict) (lt : str8_t → str8_t → Bool) (root : ast_node) :
    Option oqti_table :=
  match collect_phrases root with
  | none => none
  | some collected => build_oqti dict lt (token_instances collected)

/-- A term has an occurrence that is not beneath a NOT: it is a term of a `Token` or
`Phrase` leaf that is reached from the root without entering the right-hand side of a
binary NOT or the operand of a unary NOT. -/
def occurs_outside_not (t : str8_t) : ast_node → Bool
  | .Token p => decide (t ∈ p.terms)
  | .Phrase p => decide (t ∈ p.terms)
  | .BinOp .NOT lhs _ => occurs_outside_not t lhs
  | .BinOp _ lhs rhs => occurs_outside_not t lhs || occurs_outside_not t rhs
  | .UnaryOp .NOT _ => false
  | .UnaryOp _ expr => occurs_outside_not t expr
  | .ConstTrueExpr expr => occurs_outside_not t expr
  | .ConstFalse => false
  | .Dummy => false

/-! ## Fixtures: the three-document source of the specification's scenarios -/

/-- The term `apple`. -/
def apple : str8_t := [97]

/-- The term `banana`. -/
def banana : str8_t := [98]

/-- The term `phone`. -/
def phone : str8_t := [112]

/-- The term `pear`, unknown to the source. -/
def pear : str8_t := [114]

/-- A hit at a position, without payload. -/
def hit_at (pos : Nat) : term_hit := { pos := pos, payloadLen := 0, payload := 0 }

/-- The source with `d1 = {apple, phone}`, `d2 = {apple, banana}`, `d3 = {banana, phone}`. -/
def tiny_source : IndexSource :=
  { resolve_term := fun t =>
      if t = apple then 1 else if t = banana then 2 else if t = phone then 3 else 0
    documents := fun i => if i = 1 ∨ i = 2 ∨ i = 3 then 2 else 0
    postings := fun i =>
      if i = 1 then [{ id := 1, hits := [hit_at 1] }, { id := 2, hits := [hit_at 1] }]
      else if i = 2 then [{ id := 2, hits := [hit_at 2] }, { id := 3, hits := [hit_at 1] }]
      else if i = 3 then [{ id := 1, hits := [hit_at 2] }, { id := 3, hits := [hit_at 2] }]
      else [] }

/-- A `Token` node for a term. -/
def token_node (t : str8_t) (index : Nat) : ast_node :=
  .Token { terms := [t], index := index, rep := 1, flags := 0 }

/-- The query `apple OR (banana AND phone)`. -/
def query_or_and : ast_node :=
  .BinOp .OR (token_node apple 0) (.BinOp .AND (token_node banana 1) (token_node phone 2))

/-- The query `apple AND (NOT pear)`. -/
def query_and_not_absent : ast_node :=
  .BinOp .AND (token_node apple 0) (.UnaryOp .NOT (token_node pear 1))

/-- The query `apple NOT phone`. -/
def query_apple_not_phone : ast_node :=
  .BinOp .NOT (token_node apple 0) (token_node phone 1)

/-- The comparison of terms used in the fixtures: the lexicographic order. -/
def terms_lt (a b : str8_t) : Bool := decide (a < b)

/-- An entry of the table of original query term instances for a term id. -/
def some_instances (termID : Nat) (token : str8_t) : query_term_instances :=
  { termId := termID, token := token, instances := [{ index := 0, rep := 1, flags := 0 }] }

/-- The captured flag of a term is only set when the term has an entry in
`matchedTerms`: for every term id of the dictionary,
`curDocQueryTokensCaptured[termID] == curDocSeq` implies that the term was captured
for the current document. -/
def capture_consistent (c : runtime_ctx) : Prop :=
  ∀ t, t ≤ c.termsDictSize → c.curDocQueryTokensCaptured t = c.curDocSeq → t ∈ c.matchedTermIDs

/-- A runtime context over the three-document source in which `apple` (id 1) and
`banana` (id 2) have original query term instances and `phone` (id 3) has none. -/
def capture_fixture : runtime_ctx :=
  initial_ctx tiny_source [apple, banana, phone]
    (fun t => if t = 1 then some (some_instances 1 apple)
              else if t = 2 then some (some_instances 2 banana) else none)

/-! ## Postings codec (lucene_codec.cpp) -/

namespace Lucene

/-- The compile-time configuration of the codec, declared in lucene_codec.h, which is
not among the sources: `BLOCK_SIZE`, `SKIPLIST_STEP`, whether
`LUCENE_ENCODE_FREQ1_DOCDELTA` is defined, and the external block codec selected by
`LUCENE_USE_STREAMVBYTE` or `LUCENE_USE_MASKEDVBYTE`: `block_encode values` are the bytes
`streamvbyte_encode` / `vbyte_encode` write for the values, and `block_decode bytes n`
are the `n` values `streamvbyte_decode` / `masked_vbyte_decode` read from the bytes and
the number of bytes they consumed. -/
structure Config where
  BLOCK_SIZE : Nat
  SKIPLIST_STEP : Nat
  ENCODE_FREQ1_DOCDELTA : Bool
  block_encode : List Nat → List Nat
  block_decode : List Nat → Nat → List Nat × Nat

/-- The external block codec reads back a full block of 32-bit values it wrote,
whatever follows it, and consumes exactly the bytes written. -/
def Config.codec_ok (cfg : Config) : Prop :=
  ∀ (xs rest : List Nat), xs.length = cfg.BLOCK_SIZE → (∀ x ∈ xs, x < 2 ^ 32) →
    cfg.block_decode (cfg.block_encode xs ++ rest) cfg.BLOCK_SIZE =
      (xs, (cfg.block_encode xs).length)

/-- Modelled from the spec: the sentinel `DocIDsEND` of an exhausted iterator
(codecs.h), the largest document id. -/
def DocIDsEND : Nat := UINT32_MAX

/-! ### Byte-level helpers of the buffer library -/

/-- The loop of `IOBuffer::encode_varbyte32`, at most `fuel` continuation bytes. -/
def encode_varbyte32_loop : Nat → Nat → List Nat
  | 0, n => [n % 128]
  | fuel + 1, n =>
    if n < 128 then [n] else (n % 128 + 128) :: encode_varbyte32_loop fuel (n / 128)

/-- Modelled from the spec: `IOBuffer::encode_varbyte32` (the buffer library is not
among the sources), the variable-byte code of a 32-bit value: seven bits per byte, low
bits first, the high bit set on every byte but the last. -/
def encode_varbyte32 (n : Nat) : List Nat := encode_varbyte32_loop 4 (n % 2 ^ 32)

/-- Modelled from the spec: `varbyte_get32(p, v)`: the value read at the head of the
bytes and the number of bytes consumed. -/
def varbyte_get32 : List Nat → Nat × Nat
  | [] => (0, 0)
  | b :: rest =>
    if b < 128 then (b, 1)
    else
      let r := varbyte_get32 rest
      (b % 128 + 128 * r.1, r.2 + 1)

/-- The bytes `pack(uint32_t)` appends: little endian. -/
def pack_u32 (n : Nat) : List Nat :=
  [n % 256, n / 256 % 256, n / 65536 % 256, n / 16777216 % 256]

/-- The bytes `pack(uint16_t)` appends: little endian. -/
def pack_u16 (n : Nat) : List Nat := [n % 256, n / 256 % 256]

/-- The load `*(uint32_t *)(mem + p)`. -/
def read_u32 (mem : List Nat) (p : Nat) : Nat :=
  mem.getD p 0 + 256 * mem.getD (p + 1) 0 + 65536 * mem.getD (p + 2) 0 +
    16777216 * mem.getD (p + 3) 0

/-- The load `*(uint16_t *)(mem + p)`. -/
def read_u16 (mem : List Nat) (p : Nat) : Nat :=
  mem.getD p 0 + 256 * mem.getD (p + 1) 0

/-- The store `*(uint32_t *)(mem + p) = v` into a buffer that holds those four bytes. -/
def write_u32 (mem : List Nat) (p v : Nat) : List Nat :=
  mem.take p ++ pack_u32 v ++ mem.drop (p + 4)

/-- The store `*(uint16_t *)(mem + p) = v` into a buffer that holds those two bytes. -/
def write_u16 (mem : List Nat) (p v : Nat) : List Nat :=
  mem.take p ++ pack_u16 v ++ mem.drop (p + 2)

/-- The values `a[0 .. n)` of an array. -/
def array_first (a : Nat → Nat) (n : Nat) : List Nat := (List.range n).map a

/-- An array after its slots `[0 .. n)` were overwritten with the values of a list. -/
def array_fill (a : Nat → Nat) (n : Nat) (l : List Nat) : Nat → Nat :=
  fun i => if i < n then l.getD i 0 else a i

/-! ### Integer block codec -/

/-- The function `all_equal`: `values[0]` is read whatever `n` is. -/
def all_equal (values : Nat → Nat) (n : Nat) : Bool :=
  (List.range n).all (fun i => decide (i = 0 ∨ values i = values 0))

/-- The function `ints_encode` (the varbyte-stream variants): the bytes appended to `out`. -/
def ints_encode (cfg : Config) (values : Nat → Nat) (n : Nat) : List Nat :=
  if all_equal values n then 0 :: encode_varbyte32 (values 0)
  else 1 :: cfg.block_encode (array_first values n)

/-- The function `ints_decode` (the varbyte-stream variants) reading at `p` in `mem`:
the cursor it returns and the array `values` as it leaves it. -/
def ints_decode (cfg : Config) (mem : List Nat) (p : Nat) (values : Nat → Nat) :
    Nat × (Nat → Nat) :=
  let blockSize := mem.getD p 0
  if blockSize = 0 then
    let r := varbyte_get32 (mem.drop (p + 1))
    (p + 1 + r.2, fun i => if i < cfg.BLOCK_SIZE then r.1 % 2 ^ 32 else values i)
  else
    let r := cfg.block_decode (mem.drop (p + 1)) cfg.BLOCK_SIZE
    (p + 1 + r.2, array_fill values cfg.BLOCK_SIZE r.1)

/-! ### The masked-vbyte instance of the block codec -/

/-- The bytes `vbyte_encode` writes: the varbyte codes of the values one after another. -/
def vbyte_encode : List Nat → List Nat
  | [] => []
  | x :: xs => encode_varbyte32 x ++ vbyte_encode xs

/-- The values `masked_vbyte_decode` reads, `n` varbyte codes one after another, and the
number of bytes consumed. -/
def masked_vbyte_decode : List Nat → Nat → List Nat × Nat
  | _, 0 => ([], 0)
  | bytes, n + 1 =>
    let r := varbyte_get32 bytes
    let rs := masked_vbyte_decode (bytes.drop r.2) n
    (r.1 % 2 ^ 32 :: rs.1, r.2 + rs.2)

/-- The configuration with `LUCENE_USE_MASKEDVBYTE`, a block size, skip-list step 1 and
the packed freq-1 option as given. -/
def vbyte_config (blockSize : Nat) (freq1 : Bool) : Config :=
  { BLOCK_SIZE := blockSize
    SKIPLIST_STEP := 1
    ENCODE_FREQ1_DOCDELTA := freq1
    block_encode := vbyte_encode
    block_decode := masked_vbyte_decode }

end Lucene

namespace Lucene

/-! ### Postings encoder -/

/-- A skip-list entry (`skiplist_entry`); the decoder names the fifth field
`totalHitsSoFar`. -/
structure skiplist_entry where
  indexOffset : Nat
  lastDocID : Nat
  lastHitsBlockOffset : Nat
  totalDocumentsSoFar : Nat
  lastHitsBlockTotalHits : Nat
  curHitsBlockHits : Nat
deriving DecidableEq, Repr, Inhabited

/-- The record `term_index_ctx` that `end_term` fills: the number of documents and the
offset and size of the term's chunk in the index. -/
structure term_index_ctx where
  documents : Nat
  offset : Nat
  size : Nat
deriving DecidableEq, Repr

/-- The state of `Lucene::Encoder` together with the two output buffers of its session.
`indexOut` and `positionsOut` stand for the whole index and hits.data written so far
(what was flushed included), so the sizes `indexOut.size() + indexOutFlushed` and
`positionsOut.size() + positionsOutFlushed` of the source are their lengths. -/
structure Encoder where
  indexOut : List Nat
  positionsOut : List Nat
  lastDocID : Nat
  lastPosition : Nat
  totalHits : Nat
  sumHits : Nat
  buffered : Nat
  termDocuments : Nat
  termIndexOffset : Nat
  termPositionsOffset : Nat
  lastHitsBlockOffset : Nat
  lastHitsBlockTotalHits : Nat
  skiplistCountdown : Nat
  skiplist : List skiplist_entry
  cur_block : skiplist_entry
  docDeltas : Nat → Nat
  docFreqs : Nat → Nat
  hitPosDeltas : Nat → Nat
  hitPayloadSizes : Nat → Nat
  payloadsBuf : List Nat

/-- A new encoder on a session whose buffers hold `indexOut` and `positionsOut`. -/
def Encoder.fresh (indexOut positionsOut : List Nat) : Encoder :=
  { indexOut := indexOut
    positionsOut := positionsOut
    lastDocID := 0
    lastPosition := 0
    totalHits := 0
    sumHits := 0
    buffered := 0
    termDocuments := 0
    termIndexOffset := 0
    termPositionsOffset := 0
    lastHitsBlockOffset := 0
    lastHitsBlockTotalHits := 0
    skiplistCountdown := 0
    skiplist := []
    cur_block := { indexOffset := 0, lastDocID := 0, lastHitsBlockOffset := 0,
                   totalDocumentsSoFar := 0, lastHitsBlockTotalHits := 0, curHitsBlockHits := 0 }
    docDeltas := fun _ => 0
    docFreqs := fun _ => 0
    hitPosDeltas := fun _ => 0
    hitPayloadSizes := fun _ => 0
    payloadsBuf := [] }

/-- The body of `Encoder::begin_term`. -/
def Encoder.begin_term (cfg : Config) (e : Encoder) : Encoder :=
  { e with
    lastDocID := 0
    totalHits := 0
    sumHits := 0
    buffered := 0
    termDocuments := 0
    termIndexOffset := e.indexOut.length
    termPositionsOffset := e.positionsOut.length
    lastHitsBlockOffset := 0
    lastHitsBlockTotalHits := 0
    skiplistCountdown := cfg.SKIPLIST_STEP
    skiplist := []
    indexOut := e.indexOut ++
      (pack_u32 e.positionsOut.length ++ pack_u32 0 ++ pack_u32 0 ++ pack_u16 0) }

/-- The body of `Encoder::output_block`; `none` when `require(buffered == BLOCK_SIZE)`
fails. -/
def Encoder.output_block (cfg : Config) (e : Encoder) : Option Encoder :=
  if e.buffered ≠ cfg.BLOCK_SIZE then none
  else
    let e1 : Encoder :=
      if e.skiplistCountdown - 1 = 0 then
        { e with
          skiplist :=
            if e.skiplist.length < UINT16_MAX then e.skiplist ++ [e.cur_block] else e.skiplist
          skiplistCountdown := cfg.SKIPLIST_STEP }
      else { e with skiplistCountdown := e.skiplistCountdown - 1 }
    some { e1 with
      indexOut := e1.indexOut ++
        (ints_encode cfg e1.docDeltas e1.buffered ++ ints_encode cfg e1.docFreqs e1.buffered)
      buffered := 0 }

/-- The body of `Encoder::begin_document`; `none` when `require(documentID > lastDocID)`
fails. -/
def Encoder.begin_document (cfg : Config) (e : Encoder) (documentID : Nat) : Option Encoder :=
  if ¬ (documentID > e.lastDocID) then none
  else
    match (if e.buffered = cfg.BLOCK_SIZE then e.output_block cfg else some e) with
    | none => none
    | some e1 =>
      let e2 : Encoder :=
        if e1.buffered = 0 then
          { e1 with
            cur_block :=
              { indexOffset := e1.indexOut.length - e1.termIndexOffset
                lastDocID := e1.lastDocID
                totalDocumentsSoFar := e1.termDocuments
                lastHitsBlockOffset := e1.lastHitsBlockOffset
                lastHitsBlockTotalHits := e1.lastHitsBlockTotalHits
                curHitsBlockHits := e1.totalHits } }
        else e1
      some { e2 with
        docDeltas := Function.update e2.docDeltas e2.buffered (documentID - e2.lastDocID)
        docFreqs := Function.update e2.docFreqs e2.buffered 0
        termDocuments := e2.termDocuments + 1
        lastDocID := documentID
        lastPosition := 0 }

/-- The body of `Encoder::new_hit` for a position and payload bytes; `none` when a
`require` fails. -/
def Encoder.new_hit (cfg : Config) (e : Encoder) (pos : Nat) (payload : List Nat) :
    Option Encoder :=
  if pos = 0 ∧ payload = [] then some e
  else if ¬ (pos ≥ e.lastPosition) then none
  else if ¬ (payload.length ≤ 8) then none
  else
    let e1 : Encoder :=
      { e with
        docFreqs := Function.update e.docFreqs e.buffered (e.docFreqs e.buffered + 1)
        hitPosDeltas := Function.update e.hitPosDeltas e.totalHits (pos - e.lastPosition)
        hitPayloadSizes := Function.update e.hitPayloadSizes e.totalHits payload.length
        lastPosition := pos
        payloadsBuf := e.payloadsBuf ++ payload
        totalHits := e.totalHits + 1 }
    if e1.totalHits = cfg.BLOCK_SIZE then
      if (array_first e1.hitPayloadSizes e1.totalHits).sum ≠ e1.payloadsBuf.length then none
      else
        let positionsOut :=
          e1.positionsOut ++
            (ints_encode cfg e1.hitPosDeltas e1.totalHits ++
              ints_encode cfg e1.hitPayloadSizes e1.totalHits ++
              encode_varbyte32 e1.payloadsBuf.length ++ e1.payloadsBuf)
        some { e1 with
          sumHits := e1.sumHits + e1.totalHits
          positionsOut := positionsOut
          payloadsBuf := []
          lastHitsBlockTotalHits := e1.sumHits + e1.totalHits
          lastHitsBlockOffset := positionsOut.length - e1.termPositionsOffset
          totalHits := 0 }
    else some e1

/-- The body of `Encoder::end_document`. -/
def Encoder.end_document (e : Encoder) : Encoder := { e with buffered := e.buffered + 1 }

/-- The loop of `end_term` over the buffered documents `[i .. i + count)`: the trailing
block layout, with the frequency 1 packed into the low bit of the delta when
`LUCENE_ENCODE_FREQ1_DOCDELTA` is defined. -/
def tail_documents (freq1 : Bool) (docDeltas docFreqs : Nat → Nat) : Nat → Nat → List Nat
  | 0, _ => []
  | count + 1, i =>
    (if freq1 then
      if docFreqs i = 1 then encode_varbyte32 (docDeltas i * 2 % 2 ^ 32 + 1)
      else encode_varbyte32 (docDeltas i * 2 % 2 ^ 32) ++ encode_varbyte32 (docFreqs i)
    else encode_varbyte32 (docDeltas i) ++ encode_varbyte32 (docFreqs i)) ++
      tail_documents freq1 docDeltas docFreqs count (i + 1)

/-- The loop of `end_term` over the buffered hits `[i .. i + count)`: the trailing hit
block layout; `lastPayloadLen` is the 8-bit length of the previous hit's payload. -/
def tail_hits (hitPosDeltas hitPayloadSizes : Nat → Nat) : Nat → Nat → Nat → List Nat
  | 0, _, _ => []
  | count + 1, i, lastPayloadLen =>
    if hitPayloadSizes i ≠ lastPayloadLen then
      encode_varbyte32 (hitPosDeltas i * 2 % 2 ^ 32 + 1) ++ [hitPayloadSizes i % 256] ++
        tail_hits hitPosDeltas hitPayloadSizes count (i + 1) (hitPayloadSizes i % 256)
    else
      encode_varbyte32 (hitPosDeltas i * 2 % 2 ^ 32) ++
        tail_hits hitPosDeltas hitPayloadSizes count (i + 1) lastPayloadLen

/-- The bytes `pack(...)` appends for one skip-list entry: five 32-bit fields and one
16-bit field. -/
def pack_skiplist_entry (it : skiplist_entry) : List Nat :=
  pack_u32 it.indexOffset ++ pack_u32 it.lastDocID ++ pack_u32 it.lastHitsBlockOffset ++
    pack_u32 it.totalDocumentsSoFar ++ pack_u32 it.lastHitsBlockTotalHits ++
    pack_u16 it.curHitsBlockHits

/-- The serialized skip list. -/
def pack_skiplist : List skiplist_entry → List Nat
  | [] => []
  | it :: rest => pack_skiplist_entry it ++ pack_skiplist rest

/-- The body of `Encoder::end_term`: the encoder afterwards and the `term_index_ctx`
written to `out`; `none` when a `require` fails. The flush of hits.data to the file is
not part of the model. -/
def Encoder.end_term (cfg : Config) (e : Encoder) : Option (Encoder × term_index_ctx) :=
  let sumHits := e.sumHits + e.totalHits
  match (if e.buffered = cfg.BLOCK_SIZE then e.output_block cfg
         else some { e with
           indexOut := e.indexOut ++
             tail_documents cfg.ENCODE_FREQ1_DOCDELTA e.docDeltas e.docFreqs e.buffered 0 }) with
  | none => none
  | some e1 =>
    let index1 := write_u32 e1.indexOut (e1.termIndexOffset + 4) sumHits
    if e1.totalHits ≠ 0 ∧
        (array_first e1.hitPayloadSizes e1.totalHits).sum ≠ e1.payloadsBuf.length then none
    else
      let positionsOut :=
        if e1.totalHits ≠ 0 then
          e1.positionsOut ++
            (tail_hits e1.hitPosDeltas e1.hitPayloadSizes e1.totalHits 0 0 ++ e1.payloadsBuf)
        else e1.positionsOut
      let payloadsBuf := if e1.totalHits ≠ 0 then [] else e1.payloadsBuf
      let skiplistSize := e1.skiplist.length % 2 ^ 16
      let index2 := write_u32 index1 (e1.termIndexOffset + 8)
        (positionsOut.length - e1.termPositionsOffset)
      let index3 := write_u16 index2 (e1.termIndexOffset + 12) skiplistSize
      let index4 := if skiplistSize ≠ 0 then index3 ++ pack_skiplist e1.skiplist else index3
      let skiplist := if skiplistSize ≠ 0 then [] else e1.skiplist
      some ({ e1 with
              sumHits := sumHits
              indexOut := index4
              positionsOut := positionsOut
              payloadsBuf := payloadsBuf
              skiplist := skiplist },
            { documents := e1.termDocuments
              offset := e1.termIndexOffset
              size := (index4.length - e1.termIndexOffset) % 2 ^ 32 })

/-- One hit handed to `new_hit`: a position and the payload bytes. -/
structure hit_input where
  pos : Nat
  payload : List Nat
deriving DecidableEq, Repr

/-- One document handed to the encoder: its id and its hits. -/
structure doc_input where
  id : Nat
  hits : List hit_input
deriving DecidableEq, Repr

/-- The calls `new_hit(pos, payload)` for the hits of a document, in order. -/
def Encoder.new_hits (cfg : Config) : Encoder → List hit_input → Option Encoder
  | e, [] => some e
  | e, h :: hs =>
    match e.new_hit cfg h.pos h.payload with
    | none => none
    | some e1 => Encoder.new_hits cfg e1 hs

/-- The calls `begin_document(id)`, `new_hit` for each hit, `end_document()` for one
document. -/
def Encoder.add_document (cfg : Config) (e : Encoder) (d : doc_input) : Option Encoder :=
  match e.begin_document cfg d.id with
  | none => none
  | some e1 =>
    match Encoder.new_hits cfg e1 d.hits with
    | none => none
    | some e2 => some e2.end_document

/-- The calls for a list of documents, in order. -/
def Encoder.add_documents (cfg : Config) : Encoder → List doc_input → Option Encoder
  | e, [] => some e
  | e, d :: ds =>
    match e.add_document cfg d with
    | none => none
    | some e1 => Encoder.add_documents cfg e1 ds

/-- The whole call sequence for one term: `begin_term`, the documents, `end_term`. -/
def Encoder.write_term (cfg : Config) (e : Encoder) (docs : List doc_input) :
    Option (Encoder × term_index_ctx) :=
  match Encoder.add_documents cfg (e.begin_term cfg) docs with
  | none => none
  | some e1 => e1.end_term cfg

end Lucene

namespace Lucene

/-! ### Postings decoder and iterator -/

/-- The state of `Lucene::Decoder` after `init`: the mapped index and hits.data of the
access proxy, the offsets `postingListBase`, `chunkEnd` and `hitsBase` into them, the
totals, and the deserialized skip list (`skiplist.size` is its length). -/
structure Decoder where
  indexPtr : List Nat
  hitsDataPtr : List Nat
  postingListBase : Nat
  chunkEnd : Nat
  totalDocuments : Nat
  totalHits : Nat
  hitsBase : Nat
  skiplist : List skiplist_entry

/-- The loop of `Decoder::init_skiplist`: `size` entries of 22 bytes read from `sit` on. -/
def init_skiplist (mem : List Nat) : Nat → Nat → List skiplist_entry
  | 0, _ => []
  | size + 1, sit =>
    { indexOffset := read_u32 mem sit
      lastDocID := read_u32 mem (sit + 4)
      lastHitsBlockOffset := read_u32 mem (sit + 8)
      totalDocumentsSoFar := read_u32 mem (sit + 12)
      lastHitsBlockTotalHits := read_u32 mem (sit + 16)
      curHitsBlockHits := read_u16 mem (sit + 20) } :: init_skiplist mem size (sit + 22)

/-- The body of `Decoder::init` for a term's `term_index_ctx` and the access proxy's
index and hits.data; the skip list is deserialized at once. -/
def Decoder.init (tctx : term_index_ctx) (indexPtr hitsDataPtr : List Nat) : Decoder :=
  let ptr := tctx.offset
  let skiplistSize := read_u16 indexPtr (ptr + 12)
  let chunkEnd := if skiplistSize ≠ 0 then ptr + tctx.size - skiplistSize * 22
                  else ptr + tctx.size
  { indexPtr := indexPtr
    hitsDataPtr := hitsDataPtr
    postingListBase := ptr
    chunkEnd := chunkEnd
    totalDocuments := tctx.documents
    totalHits := read_u32 indexPtr (ptr + 4)
    hitsBase := read_u32 indexPtr ptr
    skiplist := if skiplistSize ≠ 0 then init_skiplist indexPtr skiplistSize chunkEnd else [] }

/-- The state of a `PostingsListIterator`; `p`, `hdp`, `payloadsIt` and `payloadsEnd` are
offsets into the decoder's index and hits.data. -/
structure PostingsListIterator where
  p : Nat
  hdp : Nat
  payloadsIt : Nat
  payloadsEnd : Nat
  lastDocID : Nat
  lastPosition : Nat
  docsLeft : Nat
  hitsLeft : Nat
  docsIndex : Nat
  hitsIndex : Nat
  bufferedDocs : Nat
  bufferedHits : Nat
  skippedHits : Nat
  skipListIdx : Nat
  docDeltas : Nat → Nat
  docFreqs : Nat → Nat
  hitsPositionDeltas : Nat → Nat
  hitsPayloadLengths : Nat → Nat
  curDocument_id : Nat
  freq : Nat

/-- The body of `Decoder::new_iterator`; the decoded arrays start zeroed. -/
def Decoder.new_iterator (dec : Decoder) : PostingsListIterator :=
  { p := dec.postingListBase + 14
    hdp := dec.hitsBase
    payloadsIt := 0
    payloadsEnd := 0
    lastDocID := 0
    lastPosition := 0
    docsLeft := dec.totalDocuments
    hitsLeft := dec.totalHits
    docsIndex := 0
    hitsIndex := 0
    bufferedDocs := 0
    bufferedHits := 0
    skippedHits := 0
    skipListIdx := 0
    docDeltas := fun _ => 0
    docFreqs := fun _ => 0
    hitsPositionDeltas := fun _ => 0
    hitsPayloadLengths := fun _ => 0
    curDocument_id := 0
    freq := 0 }

/-- Modelled from the spec: `update_curdoc` (lucene_codec.h), which publishes
`curDocument.id = lastDocID + docDeltas[docsIndex]` and `freq = docFreqs[docsIndex]`. -/
def update_curdoc (it : PostingsListIterator) : PostingsListIterator :=
  { it with
    curDocument_id := (it.lastDocID + it.docDeltas it.docsIndex) % 2 ^ 32
    freq := it.docFreqs it.docsIndex }

/-- Modelled from the spec: `finalize` (lucene_codec.h), which marks the iterator
exhausted by publishing the sentinel `DocIDsEND` as the current document. -/
def finalize (it : PostingsListIterator) : PostingsListIterator :=
  { it with curDocument_id := DocIDsEND }

/-- The loop of the trailing branch of `refill_hits` over the hits `[i .. i + count)`:
the cursor, the payload length carried over, the sum of payload lengths and the two
arrays. -/
def refill_hits_tail (mem : List Nat) :
    Nat → Nat → Nat → Nat → Nat → (Nat → Nat) → (Nat → Nat) →
      Nat × Nat × (Nat → Nat) × (Nat → Nat)
  | 0, _, hdp, _, chunkLength, deltas, lengths => (hdp, chunkLength, deltas, lengths)
  | count + 1, i, hdp, payloadLen, chunkLength, deltas, lengths =>
    let r := varbyte_get32 (mem.drop hdp)
    let v := r.1 % 2 ^ 32
    let hdp1 := hdp + r.2
    let payloadLen1 := if v % 2 = 1 then mem.getD hdp1 0 else payloadLen
    let hdp2 := if v % 2 = 1 then hdp1 + 1 else hdp1
    refill_hits_tail mem count (i + 1) hdp2 payloadLen1 ((chunkLength + payloadLen1) % 2 ^ 32)
      (Function.update deltas i (v / 2)) (Function.update lengths i payloadLen1)

/-- The body of `Decoder::refill_hits`. -/
def Decoder.refill_hits (cfg : Config) (dec : Decoder) (it : PostingsListIterator) :
    PostingsListIterator :=
  if it.hitsLeft ≥ cfg.BLOCK_SIZE then
    let r1 := ints_decode cfg dec.hitsDataPtr it.hdp it.hitsPositionDeltas
    let r2 := ints_decode cfg dec.hitsDataPtr r1.1 it.hitsPayloadLengths
    let r3 := varbyte_get32 (dec.hitsDataPtr.drop r2.1)
    let payloadsIt := r2.1 + r3.2
    { it with
      hitsPositionDeltas := r1.2
      hitsPayloadLengths := r2.2
      payloadsIt := payloadsIt
      hdp := payloadsIt + r3.1 % 2 ^ 32
      payloadsEnd := payloadsIt + r3.1 % 2 ^ 32
      bufferedHits := cfg.BLOCK_SIZE
      hitsLeft := it.hitsLeft - cfg.BLOCK_SIZE
      hitsIndex := 0 }
  else
    let r := refill_hits_tail dec.hitsDataPtr it.hitsLeft 0 it.hdp 0 0
      it.hitsPositionDeltas it.hitsPayloadLengths
    { it with
      hitsPositionDeltas := r.2.2.1
      hitsPayloadLengths := r.2.2.2
      payloadsIt := r.1
      hdp := r.1 + r.2.1
      payloadsEnd := r.1 + r.2.1
      bufferedHits := it.hitsLeft
      hitsLeft := 0
      hitsIndex := 0 }

/-- The sum of `hitsPayloadLengths[hitsIndex .. hitsIndex + step)`. -/
def payload_lengths_sum (lengths : Nat → Nat) (hitsIndex step : Nat) : Nat :=
  ((List.range step).map (fun i => lengths (hitsIndex + i))).sum

/-- The do-while loop of `Decoder::skip_hits` with `rem` hits still to skip. A round
that can skip nothing repeats for ever and is `none`; `fuel` bounds the rounds and
`rem` suffices. -/
def Decoder.skip_hits_loop (cfg : Config) (dec : Decoder) :
    Nat → PostingsListIterator → Nat → Option PostingsListIterator
  | 0, _, _ => none
  | fuel + 1, it, rem =>
    if it.hitsIndex + rem = it.bufferedHits then
      some { it with skippedHits := it.skippedHits - rem, hitsIndex := 0, bufferedHits := 0 }
    else
      let it1 := if it.hitsIndex = it.bufferedHits then dec.refill_hits cfg it else it
      let step := min rem (it1.bufferedHits - it1.hitsIndex)
      if step = 0 then none
      else
        let it2 : PostingsListIterator :=
          { it1 with
            payloadsIt := it1.payloadsIt + payload_lengths_sum it1.hitsPayloadLengths it1.hitsIndex step
            hitsIndex := it1.hitsIndex + step
            skippedHits := it1.skippedHits - step }
        if rem - step = 0 then some it2
        else Decoder.skip_hits_loop cfg dec fuel it2 (rem - step)

/-- The body of `Decoder::skip_hits(it, n)`. -/
def Decoder.skip_hits (cfg : Config) (dec : Decoder) (it : PostingsListIterator) (n : Nat) :
    Option PostingsListIterator :=
  if n = 0 then some it else dec.skip_hits_loop cfg n it n

/-- The loop of the trailing branch of `refill_documents` over the documents
`[i .. i + count)`: the cursor and the two arrays. -/
def refill_documents_tail (freq1 : Bool) (mem : List Nat) :
    Nat → Nat → Nat → (Nat → Nat) → (Nat → Nat) → Nat × (Nat → Nat) × (Nat → Nat)
  | 0, _, p, deltas, freqs => (p, deltas, freqs)
  | count + 1, i, p, deltas, freqs =>
    let r := varbyte_get32 (mem.drop p)
    let v := r.1 % 2 ^ 32
    let p1 := p + r.2
    if freq1 then
      if v % 2 = 1 then
        refill_documents_tail freq1 mem count (i + 1) p1
          (Function.update deltas i (v / 2)) (Function.update freqs i 1)
      else
        let r2 := varbyte_get32 (mem.drop p1)
        refill_documents_tail freq1 mem count (i + 1) (p1 + r2.2)
          (Function.update deltas i (v / 2)) (Function.update freqs i (r2.1 % 2 ^ 32))
    else
      let r2 := varbyte_get32 (mem.drop p1)
      refill_documents_tail freq1 mem count (i + 1) (p1 + r2.2)
        (Function.update deltas i v) (Function.update freqs i (r2.1 % 2 ^ 32))

/-- The body of `Decoder::refill_documents`. -/
def Decoder.refill_documents (cfg : Config) (dec : Decoder) (it : PostingsListIterator) :
    PostingsListIterator :=
  let it1 : PostingsListIterator :=
    if it.docsLeft ≥ cfg.BLOCK_SIZE then
      let r1 := ints_decode cfg dec.indexPtr it.p it.docDeltas
      let r2 := ints_decode cfg dec.indexPtr r1.1 it.docFreqs
      { it with
        docDeltas := r1.2
        docFreqs := r2.2
        p := r2.1
        bufferedDocs := cfg.BLOCK_SIZE
        docsLeft := it.docsLeft - cfg.BLOCK_SIZE }
    else
      let r := refill_documents_tail cfg.ENCODE_FREQ1_DOCDELTA dec.indexPtr it.docsLeft 0 it.p
        it.docDeltas it.docFreqs
      { it with
        docDeltas := r.2.1
        docFreqs := r.2.2
        p := r.1
        bufferedDocs := it.docsLeft
        docsLeft := 0 }
  update_curdoc { it1 with docsIndex := 0 }

/-- The body of `Decoder::decode_next_block`: drain the omitted hits, then refill the
documents. -/
def Decoder.decode_next_block (cfg : Config) (dec : Decoder) (it : PostingsListIterator) :
    Option PostingsListIterator :=
  match dec.skip_hits cfg it it.skippedHits with
  | none => none
  | some it1 => some (dec.refill_documents cfg it1)

/-- The body of `Decoder::next`. -/
def Decoder.next (cfg : Config) (dec : Decoder) (it : PostingsListIterator) :
    Option PostingsListIterator :=
  let idx := it.docsIndex + 1
  let it1 : PostingsListIterator :=
    { it with
      skippedHits := (it.skippedHits + it.docFreqs it.docsIndex) % 2 ^ 32
      lastDocID := (it.lastDocID + it.docDeltas it.docsIndex) % 2 ^ 32 }
  if idx ≥ it1.bufferedDocs then
    if it1.p ≠ dec.chunkEnd then
      match dec.decode_next_block cfg { it1 with docsIndex := idx } with
      | none => none
      | some it2 =>
        some { it2 with
          curDocument_id := (it2.lastDocID + it2.docDeltas it2.docsIndex) % 2 ^ 32
          freq := it2.docFreqs it2.docsIndex }
    else some { finalize it1 with docsIndex := idx }
  else
    some { it1 with
      curDocument_id := (it1.lastDocID + it1.docDeltas idx) % 2 ^ 32
      freq := it1.docFreqs idx
      docsIndex := idx }

/-- The `k`-th iterate of `next`. -/
def Decoder.next_iter (cfg : Config) (dec : Decoder) :
    Nat → PostingsListIterator → Option PostingsListIterator
  | 0, it => some it
  | k + 1, it =>
    match dec.next cfg it with
    | none => none
    | some it1 => Decoder.next_iter cfg dec k it1

/-- The loop of `Decoder::skiplist_search` (the branchless binary search): `data` is the
index of the candidate entry and `n` the size of the range still searched. -/
def skiplist_search_loop (skiplist : List skiplist_entry) (target : Nat) : Nat → Nat → Nat → Nat
  | 0, data, _ => data
  | fuel + 1, data, n =>
    if n / 2 = 0 then data
    else
      let m := data + n / 2
      skiplist_search_loop skiplist target fuel
        (if (skiplist.getD m default).lastDocID < target then m else data) (n - n / 2)

/-- The body of `Decoder::skiplist_search`: the index found, or `UINT32_MAX`. -/
def Decoder.skiplist_search (dec : Decoder) (it : PostingsListIterator) (target : Nat) : Nat :=
  let idx := it.skipListIdx
  let n := dec.skiplist.length - idx
  let data := skiplist_search_loop dec.skiplist target n idx n
  if target > (dec.skiplist.getD data default).lastDocID then data else UINT32_MAX

end Lucene

namespace Lucene

/-- The block at label `l10` of `Decoder::advance` with the local `docsIndex`: either
the iterator is returned (`none` as next index), or one document is stepped over and the
loop continues with the next `docsIndex`. -/
def advance_l10 (target : Nat) (it : PostingsListIterator) (docsIndex : Nat) :
    PostingsListIterator × Option Nat :=
  if it.curDocument_id = target then ({ it with docsIndex := docsIndex }, none)
  else if it.curDocument_id > target then ({ it with docsIndex := docsIndex }, none)
  else
    let lastDocID := (it.lastDocID + it.docDeltas docsIndex) % 2 ^ 32
    ({ it with
       skippedHits := (it.skippedHits + it.docFreqs docsIndex) % 2 ^ 32
       lastDocID := lastDocID
       curDocument_id := (lastDocID + it.docDeltas (docsIndex + 1)) % 2 ^ 32
       freq := it.docFreqs (docsIndex + 1) }, some (docsIndex + 1))

/-- The jump of `Decoder::advance` to the skip-list entry `index`: the iterator after
both blocks were refilled and the queued hits of the current hits block were skipped. -/
def Decoder.skiplist_jump (cfg : Config) (dec : Decoder) (it : PostingsListIterator)
    (index : Nat) : Option PostingsListIterator :=
  let r := dec.skiplist.getD index default
  let it1 : PostingsListIterator :=
    { it with
      skipListIdx := index + 1
      p := dec.postingListBase + r.indexOffset
      hdp := dec.hitsBase + r.lastHitsBlockOffset
      lastDocID := r.lastDocID
      docsLeft := dec.totalDocuments - r.totalDocumentsSoFar
      hitsLeft := dec.totalHits - r.lastHitsBlockTotalHits
      skippedHits := 0
      bufferedHits := 0 }
  let it2 := update_curdoc (dec.refill_hits cfg (dec.refill_documents cfg it1))
  dec.skip_hits cfg { it2 with skippedHits := r.curHitsBlockHits } r.curHitsBlockHits

/-- The loop of `Decoder::advance` (neither `LUCENE_SKIPLIST_SEEK_EARLY` nor a lazy
skip list) with the locals `localBufferedDocs` and `docsIndex`; `none` when a hit skip
does not end or `fuel` rounds did not reach a return. -/
def Decoder.advance_loop (cfg : Config) (dec : Decoder) (target : Nat) :
    Nat → PostingsListIterator → Nat → Nat → Option PostingsListIterator
  | 0, _, _, _ => none
  | fuel + 1, it, localBufferedDocs, docsIndex =>
    if docsIndex = localBufferedDocs then
      if it.p = dec.chunkEnd then some { finalize it with docsIndex := docsIndex }
      else
        let index :=
          if it.skipListIdx ≠ dec.skiplist.length then dec.skiplist_search it target
          else UINT32_MAX
        if index ≠ UINT32_MAX then
          match dec.skiplist_jump cfg it index with
          | none => none
          | some it1 =>
            match advance_l10 target it1 it1.docsIndex with
            | (it2, none) => some it2
            | (it2, some docsIndex2) =>
              Decoder.advance_loop cfg dec target fuel it2 it1.bufferedDocs docsIndex2
        else
          match dec.decode_next_block cfg it with
          | none => none
          | some it1 =>
            Decoder.advance_loop cfg dec target fuel it1 it1.bufferedDocs it1.docsIndex
    else
      match advance_l10 target it docsIndex with
      | (it2, none) => some it2
      | (it2, some docsIndex2) =>
        Decoder.advance_loop cfg dec target fuel it2 localBufferedDocs docsIndex2

/-- The body of `Decoder::advance(it, target)`, its loop bounded by `fuel` rounds. -/
def Decoder.advance (cfg : Config) (dec : Decoder) (fuel : Nat) (it : PostingsListIterator)
    (target : Nat) : Option PostingsListIterator :=
  dec.advance_loop cfg target fuel it it.bufferedDocs it.docsIndex

/-- The bytes `memcpy(&payload, payloadsIt, pl)` leaves in the 64-bit `payload`. -/
def read_payload (mem : List Nat) (p : Nat) : Nat → Nat
  | 0 => 0
  | pl + 1 => mem.getD p 0 + 256 * read_payload mem (p + 1) pl

/-- The inner loop of `Decoder::materialize_hits` over `count` buffered hits: the hits
index, the 16-bit running position, the payload cursor, and the hits written. -/
def materialize_run (mem : List Nat) (deltas lengths : Nat → Nat) :
    Nat → Nat → Nat → Nat → Nat × Nat × Nat × List term_hit
  | 0, hitsIndex, pos, payloadsIt => (hitsIndex, pos, payloadsIt, [])
  | count + 1, hitsIndex, pos, payloadsIt =>
    let pl := lengths hitsIndex
    let pos1 := (pos + deltas hitsIndex) % 2 ^ 16
    let r := materialize_run mem deltas lengths count (hitsIndex + 1) pos1 (payloadsIt + pl)
    (r.1, r.2.1, r.2.2.1,
      { pos := pos1, payloadLen := pl, payload := read_payload mem payloadsIt pl } :: r.2.2.2)

/-- The `for (;;)` loop of the slow path of `Decoder::materialize_hits` with `freq` hits
still to write; `none` when it does not end (`fuel` bounds the rounds). -/
def Decoder.materialize_slow (cfg : Config) (dec : Decoder) :
    Nat → PostingsListIterator → Nat → Nat → Nat → Option (PostingsListIterator × Nat × List term_hit)
  | 0, _, _, _, _ => none
  | fuel + 1, it, hitsIndex, pos, freq =>
    let n := min (it.bufferedHits - hitsIndex) freq
    let r := materialize_run dec.hitsDataPtr it.hitsPositionDeltas it.hitsPayloadLengths n
      hitsIndex pos it.payloadsIt
    let it1 : PostingsListIterator := { it with payloadsIt := r.2.2.1 }
    if freq - n ≠ 0 then
      let it2 := dec.refill_hits cfg { it1 with hitsIndex := r.1 }
      match Decoder.materialize_slow cfg dec fuel it2 it2.hitsIndex r.2.1 (freq - n) with
      | none => none
      | some (it3, hitsIndex3, out) => some (it3, hitsIndex3, r.2.2.2 ++ out)
    else some (it1, r.1, r.2.2.2)

/-- The body of `Decoder::materialize_hits`: the iterator afterwards and the hits written
to `out`; the bits set in the doc-words space are those of the hits written. -/
def Decoder.materialize_hits (cfg : Config) (dec : Decoder) (it : PostingsListIterator) :
    Option (PostingsListIterator × List term_hit) :=
  let freq := it.docFreqs it.docsIndex
  match dec.skip_hits cfg it it.skippedHits with
  | none => none
  | some it1 =>
    if it1.hitsIndex + freq ≤ it1.bufferedHits then
      let r := materialize_run dec.hitsDataPtr it1.hitsPositionDeltas it1.hitsPayloadLengths
        freq it1.hitsIndex 0 it1.payloadsIt
      some ({ it1 with
              payloadsIt := r.2.2.1
              hitsIndex := r.1
              docFreqs := Function.update it1.docFreqs it1.docsIndex 0 }, r.2.2.2)
    else
      match dec.materialize_slow cfg (2 * freq + 2) it1 it1.hitsIndex 0 freq with
      | none => none
      | some (it2, hitsIndex2, out) =>
        some ({ it2 with
                hitsIndex := hitsIndex2
                docFreqs := Function.update it2.docFreqs it2.docsIndex 0 }, out)

end Lucene

namespace Lucene

/-! ### The posting list written by a call sequence, and the layout of its chunk -/

/-- The hits of a document that `new_hit` records: all but the placeholders
`(0, empty payload)`. -/
def real_hits (d : doc_input) : List hit_input :=
  d.hits.filter (fun h => !decide (h.pos = 0 ∧ h.payload = []))

/-- The id of the `i`-th document of a list (0 beyond its end). -/
def doc_id (docs : List doc_input) (i : Nat) : Nat := ((docs.map (fun d => d.id)).getD i 0)

/-- The id of the document before the `i`-th, 0 for the first. -/
def prev_id (docs : List doc_input) (i : Nat) : Nat := if i = 0 then 0 else doc_id docs (i - 1)

/-- The delta of the `i`-th document: its id minus the id before. -/
def doc_delta (docs : List doc_input) (i : Nat) : Nat := doc_id docs i - prev_id docs i

/-- The frequency of the `i`-th document: the number of its recorded hits. -/
def doc_freq (docs : List doc_input) (i : Nat) : Nat :=
  ((docs.map (fun d => (real_hits d).length)).getD i 0)

/-- The number of recorded hits of the first `k` documents. -/
def hits_before (docs : List doc_input) : Nat → Nat
  | 0 => 0
  | k + 1 => hits_before docs k + doc_freq docs k

/-- The bytes of the full document block `j`: the deltas, then the frequencies. -/
def block_bytes (cfg : Config) (docs : List doc_input) (j : Nat) : List Nat :=
  ints_encode cfg (fun i => doc_delta docs (j * cfg.BLOCK_SIZE + i)) cfg.BLOCK_SIZE ++
    ints_encode cfg (fun i => doc_freq docs (j * cfg.BLOCK_SIZE + i)) cfg.BLOCK_SIZE

/-- The bytes of the first `q` full document blocks. -/
def blocks_bytes (cfg : Config) (docs : List doc_input) : Nat → List Nat
  | 0 => []
  | q + 1 => blocks_bytes cfg docs q ++ block_bytes cfg docs q

/-- The bytes of the trailing document block: the documents after the last full block. -/
def tail_bytes (cfg : Config) (docs : List doc_input) : List Nat :=
  tail_documents cfg.ENCODE_FREQ1_DOCDELTA
    (fun i => doc_delta docs (docs.length / cfg.BLOCK_SIZE * cfg.BLOCK_SIZE + i))
    (fun i => doc_freq docs (docs.length / cfg.BLOCK_SIZE * cfg.BLOCK_SIZE + i))
    (docs.length % cfg.BLOCK_SIZE) 0

/-- The 14-byte header of a term's chunk. -/
def header_bytes (hitsDataOffset sumHits positionsChunkSize skiplistSize : Nat) : List Nat :=
  pack_u32 hitsDataOffset ++ pack_u32 sumHits ++ pack_u32 positionsChunkSize ++
    pack_u16 skiplistSize

/-- The skip-list entry of the document block `j`, as far as the document stream is
concerned: where the block starts in the chunk, the id before its first document, the
number of documents before it, and how the hits before it split into whole hit blocks
and hits of the current hit block. -/
def block_entry_ok (cfg : Config) (docs : List doc_input) (j : Nat) (s : skiplist_entry) : Prop :=
  s.indexOffset = 14 + (blocks_bytes cfg docs j).length ∧
    s.lastDocID = prev_id docs (j * cfg.BLOCK_SIZE) ∧
    s.totalDocumentsSoFar = j * cfg.BLOCK_SIZE ∧
    s.lastHitsBlockTotalHits =
      hits_before docs (j * cfg.BLOCK_SIZE) / cfg.BLOCK_SIZE * cfg.BLOCK_SIZE ∧
    s.curHitsBlockHits = hits_before docs (j * cfg.BLOCK_SIZE) % cfg.BLOCK_SIZE

/-- The skip list holds entries of document blocks below `q`, in increasing order of
block: `blocks` names the block of each entry. -/
def skiplist_ok (cfg : Config) (docs : List doc_input) (q : Nat) (skiplist : List skiplist_entry)
    (blocks : List Nat) : Prop :=
  blocks.length = skiplist.length ∧ blocks.Sorted (· < ·) ∧ (∀ j ∈ blocks, j < q) ∧
    ∀ i < skiplist.length,
      block_entry_ok cfg docs (blocks.getD i 0) (skiplist.getD i default)

/-- The state of the encoder after the first `m` documents of `docs` were added to a
term begun on a session holding `pre` and `ppre`, as far as the document stream is
concerned. `(m - 1) / BLOCK_SIZE` blocks were written, the rest is buffered. -/
structure enc_docs_inv (cfg : Config) (pre ppre : List Nat) (docs : List doc_input) (m : Nat)
    (e : Encoder) : Prop where
  buffered_eq : e.buffered = m - (m - 1) / cfg.BLOCK_SIZE * cfg.BLOCK_SIZE
  index_eq : e.indexOut = pre ++ header_bytes ppre.length 0 0 0 ++
    blocks_bytes cfg docs ((m - 1) / cfg.BLOCK_SIZE)
  deltas_eq : ∀ i < e.buffered,
    e.docDeltas i = doc_delta docs ((m - 1) / cfg.BLOCK_SIZE * cfg.BLOCK_SIZE + i)
  freqs_eq : ∀ i < e.buffered,
    e.docFreqs i = doc_freq docs ((m - 1) / cfg.BLOCK_SIZE * cfg.BLOCK_SIZE + i)
  lastDocID_eq : e.lastDocID = prev_id docs m
  termDocuments_eq : e.termDocuments = m
  termIndexOffset_eq : e.termIndexOffset = pre.length
  termPositionsOffset_eq : e.termPositionsOffset = ppre.length
  totalHits_eq : e.totalHits = hits_before docs m % cfg.BLOCK_SIZE
  sumHits_eq : e.sumHits = hits_before docs m / cfg.BLOCK_SIZE * cfg.BLOCK_SIZE
  lastHitsBlockTotalHits_eq : e.lastHitsBlockTotalHits = e.sumHits
  countdown_pos : 1 ≤ e.skiplistCountdown
  skiplist_len : e.skiplist.length ≤ UINT16_MAX
  skiplist_valid : ∃ blocks, skiplist_ok cfg docs ((m - 1) / cfg.BLOCK_SIZE) e.skiplist blocks
  cur_block_ok : 1 ≤ m → block_entry_ok cfg docs ((m - 1) / cfg.BLOCK_SIZE) e.cur_block
  ids_sorted : ∀ i < m, prev_id docs i < doc_id docs i

end Lucene

namespace Lucene

/-- The state of the encoder inside document `m` (0-based) of `docs`, after
`begin_document` and the recording of `t` hits, as far as the document stream and the
hit counts are concerned. -/
structure enc_mid_inv (cfg : Config) (pre ppre : List Nat) (docs : List doc_input) (m t : Nat)
    (e : Encoder) : Prop where
  buffered_eq : e.buffered = m % cfg.BLOCK_SIZE
  index_eq : e.indexOut = pre ++ header_bytes ppre.length 0 0 0 ++
    blocks_bytes cfg docs (m / cfg.BLOCK_SIZE)
  deltas_eq : ∀ i ≤ e.buffered,
    e.docDeltas i = doc_delta docs (m / cfg.BLOCK_SIZE * cfg.BLOCK_SIZE + i)
  freqs_eq : ∀ i < e.buffered,
    e.docFreqs i = doc_freq docs (m / cfg.BLOCK_SIZE * cfg.BLOCK_SIZE + i)
  cur_freq : e.docFreqs e.buffered = t
  lastDocID_eq : e.lastDocID = doc_id docs m
  termDocuments_eq : e.termDocuments = m + 1
  termIndexOffset_eq : e.termIndexOffset = pre.length
  termPositionsOffset_eq : e.termPositionsOffset = ppre.length
  totalHits_eq : e.totalHits = (hits_before docs m + t) % cfg.BLOCK_SIZE
  sumHits_eq : e.sumHits = (hits_before docs m + t) / cfg.BLOCK_SIZE * cfg.BLOCK_SIZE
  lastHitsBlockTotalHits_eq : e.lastHitsBlockTotalHits = e.sumHits
  countdown_pos : 1 ≤ e.skiplistCountdown
  skiplist_len : e.skiplist.length ≤ UINT16_MAX
  skiplist_valid : ∃ blocks, skiplist_ok cfg docs (m / cfg.BLOCK_SIZE) e.skiplist blocks
  cur_block_ok : block_entry_ok cfg docs (m / cfg.BLOCK_SIZE) e.cur_block
  ids_sorted : ∀ i < m + 1, prev_id docs i < doc_id docs i

end Lucene

namespace Lucene

/-- A skip-list entry as it is read back from its 22 bytes. -/
def trunc_entry (s : skiplist_entry) : skiplist_entry :=
  { indexOffset := s.indexOffset % 2 ^ 32
    lastDocID := s.lastDocID % 2 ^ 32
    lastHitsBlockOffset := s.lastHitsBlockOffset % 2 ^ 32
    totalDocumentsSoFar := s.totalDocumentsSoFar % 2 ^ 32
    lastHitsBlockTotalHits := s.lastHitsBlockTotalHits % 2 ^ 32
    curHitsBlockHits := s.curHitsBlockHits % 2 ^ 16 }

/-- The decoder was initialized on the chunk of the posting list `docs`: after the
14-byte header the index holds the full document blocks, the trailing block and then
(from `chunkEnd` on) other bytes; the totals are those of the list; every skip-list entry
describes the start of a document block; the ids are strictly increasing 32-bit values. -/
structure chunk_layout (cfg : Config) (docs : List doc_input) (dec : Decoder) : Prop where
  mem_eq : ∃ pre skip, dec.indexPtr =
      pre ++ (blocks_bytes cfg docs (docs.length / cfg.BLOCK_SIZE) ++ tail_bytes cfg docs ++ skip) ∧
    pre.length = dec.postingListBase + 14
  chunkEnd_eq : dec.chunkEnd = dec.postingListBase + 14 +
    (blocks_bytes cfg docs (docs.length / cfg.BLOCK_SIZE)).length + (tail_bytes cfg docs).length
  totalDocuments_eq : dec.totalDocuments = docs.length
  totalHits_eq : dec.totalHits = hits_before docs docs.length
  totalHits_lt : hits_before docs docs.length < 2 ^ 32
  skiplist_valid : ∃ blocks,
    skiplist_ok cfg docs (docs.length / cfg.BLOCK_SIZE) dec.skiplist blocks
  ids_sorted : ∀ i < docs.length, prev_id docs i ≤ doc_id docs i
  ids_bound : ∀ i < docs.length, doc_id docs i < 2 ^ 32

end Lucene

namespace Lucene

/-- The fields of an iterator that belong to the document stream. -/
structure docs_view where
  p : Nat
  lastDocID : Nat
  docsLeft : Nat
  docsIndex : Nat
  bufferedDocs : Nat
  docDeltas : Nat → Nat
  docFreqs : Nat → Nat
  curDocument_id : Nat
  freq : Nat
  skipListIdx : Nat

/-- The document-stream part of an iterator. -/
def PostingsListIterator.docs_view (it : PostingsListIterator) : docs_view :=
  { p := it.p
    lastDocID := it.lastDocID
    docsLeft := it.docsLeft
    docsIndex := it.docsIndex
    bufferedDocs := it.bufferedDocs
    docDeltas := it.docDeltas
    docFreqs := it.docFreqs
    curDocument_id := it.curDocument_id
    freq := it.freq
    skipListIdx := it.skipListIdx }

/-- The offset in the index at which the document block `j` of the chunk starts. -/
def block_start (cfg : Config) (docs : List doc_input) (dec : Decoder) (j : Nat) : Nat :=
  dec.postingListBase + 14 + (blocks_bytes cfg docs j).length

/-- With the packed freq-1 option the deltas of the trailing block fit in 31 bits, so
that `delta << 1` does not overflow. -/
def tail_deltas_ok (cfg : Config) (docs : List doc_input) : Prop :=
  cfg.ENCODE_FREQ1_DOCDELTA = true →
    ∀ i, docs.length / cfg.BLOCK_SIZE * cfg.BLOCK_SIZE ≤ i → i < docs.length →
      doc_delta docs i < 2 ^ 31

/-- The hit counters of an iterator are consistent with `h` recorded hits lying before
its position: the hits not yet taken from the hits stream, plus `h`, are the total plus
the hits queued in `skippedHits`. -/
def hits_count_ok (dec : Decoder) (it : PostingsListIterator) (h : Nat) : Prop :=
  it.hitsIndex ≤ it.bufferedHits ∧
    (it.bufferedHits - it.hitsIndex) + it.hitsLeft + h = dec.totalHits + it.skippedHits ∧
    it.skippedHits ≤ h ∧ h ≤ dec.totalHits

/-- The iterator is positioned on document `k` of the list: the document block of `k`
is decoded, `docsIndex` is the place of `k` in it, the cursor is behind the block, and
the published id and frequency are those of `k`. The frequencies are those of the list
from `docsIndex` on: the entry of a document behind the iterator may have been zeroed by
`materialize_hits`. -/
structure on_doc (cfg : Config) (docs : List doc_input) (dec : Decoder) (v : docs_view)
    (k : Nat) : Prop where
  k_lt : k < docs.length
  docsIndex_eq : v.docsIndex = k % cfg.BLOCK_SIZE
  bufferedDocs_eq : v.bufferedDocs =
    min cfg.BLOCK_SIZE (docs.length - k / cfg.BLOCK_SIZE * cfg.BLOCK_SIZE)
  deltas_eq : ∀ i < v.bufferedDocs,
    v.docDeltas i = doc_delta docs (k / cfg.BLOCK_SIZE * cfg.BLOCK_SIZE + i)
  freqs_eq : ∀ i, v.docsIndex ≤ i → i < v.bufferedDocs →
    v.docFreqs i = doc_freq docs (k / cfg.BLOCK_SIZE * cfg.BLOCK_SIZE + i)
  lastDocID_eq : v.lastDocID = prev_id docs k
  p_eq : v.p = if k / cfg.BLOCK_SIZE < docs.length / cfg.BLOCK_SIZE
    then block_start cfg docs dec (k / cfg.BLOCK_SIZE + 1) else dec.chunkEnd
  docsLeft_eq : v.docsLeft = docs.length - k / cfg.BLOCK_SIZE * cfg.BLOCK_SIZE - v.bufferedDocs
  cur_eq : v.curDocument_id = doc_id docs k
  freq_eq : v.freq = doc_freq docs k

/-- The iterator stands between document blocks with `m` documents behind it (`m` a
multiple of the block size, or all documents): the cursor is at the start of the next
block, and the last id is the id of the last document passed. This is the state of a
new iterator (`m = 0`) and the state in which `advance` looks for the next block. -/
structure at_gap (cfg : Config) (docs : List doc_input) (dec : Decoder) (v : docs_view)
    (m : Nat) : Prop where
  m_le : m ≤ docs.length
  m_block : m % cfg.BLOCK_SIZE = 0 ∨ m = docs.length
  lastDocID_eq : v.lastDocID = prev_id docs m
  p_eq : v.p = if m = docs.length then dec.chunkEnd
    else block_start cfg docs dec (m / cfg.BLOCK_SIZE)
  docsLeft_eq : v.docsLeft = docs.length - m

end Lucene

namespace Lucene

/-- The fields of an iterator that belong to the hits stream. -/
structure hits_view where
  hdp : Nat
  payloadsIt : Nat
  payloadsEnd : Nat
  lastPosition : Nat
  hitsLeft : Nat
  hitsIndex : Nat
  bufferedHits : Nat
  skippedHits : Nat
  hitsPositionDeltas : Nat → Nat
  hitsPayloadLengths : Nat → Nat

/-- The hits-stream part of an iterator. -/
def PostingsListIterator.hits_view (it : PostingsListIterator) : hits_view :=
  { hdp := it.hdp
    payloadsIt := it.payloadsIt
    payloadsEnd := it.payloadsEnd
    lastPosition := it.lastPosition
    hitsLeft := it.hitsLeft
    hitsIndex := it.hitsIndex
    bufferedHits := it.bufferedHits
    skippedHits := it.skippedHits
    hitsPositionDeltas := it.hitsPositionDeltas
    hitsPayloadLengths := it.hitsPayloadLengths }

end Lucene

namespace Lucene

/-- The iterator is exhausted: the cursor is at the end of the chunk, no buffered
document is left, and the sentinel `DocIDsEND` is published. -/
def exhausted (dec : Decoder) (it : PostingsListIterator) : Prop :=
  it.p = dec.chunkEnd ∧ it.curDocument_id = DocIDsEND ∧ it.bufferedDocs ≤ it.docsIndex

end Lucene

namespace Lucene

/-- The decoder of a term written by `write_term` on a new session: `Decoder::init` on
the `term_index_ctx` and the buffers the encoder left. -/
def written_decoder (cfg : Config) (docs : List doc_input) : Option Decoder :=
  match Encoder.write_term cfg (Encoder.fresh [] []) docs with
  | none => none
  | some (e, tctx) => some (Decoder.init tctx e.indexOut e.positionsOut)

/-- The pairs `(curDocument.id, freq)` published by `count` consecutive calls of `next`. -/
def next_ids (cfg : Config) (dec : Decoder) : Nat → PostingsListIterator → List (Nat × Nat)
  | 0, _ => []
  | count + 1, it =>
    match dec.next cfg it with
    | none => []
    | some it1 => (it1.curDocument_id, it1.freq) :: next_ids cfg dec count it1

/-- A hit at a position, without payload. -/
def plain_hit (pos : Nat) : hit_input := { pos := pos, payload := [] }

/-- Five documents: with `BLOCK_SIZE = 2` two full blocks and a trailing block. -/
def five_docs : List doc_input :=
  [ { id := 3, hits := [plain_hit 1, plain_hit 4] },
    { id := 7, hits := [plain_hit 2] },
    { id := 8, hits := [plain_hit 1, plain_hit 2, plain_hit 9] },
    { id := 20, hits := [plain_hit 5] },
    { id := 21, hits := [plain_hit 3, plain_hit 6] } ]

end Lucene

namespace Lucene

/-- Every one of the first `k` ids of the list is below the target. -/
def ids_below (docs : List doc_input) (target k : Nat) : Prop :=
  ∀ j < k, doc_id docs j < target

/-- What a seek for `target` that started with `k0` documents behind the iterator has to
return: an iterator on a document whose id is at least `target`, or an exhausted iterator;
and when the ids of the documents that were behind the iterator are below `target`, so
are the ids of all documents now behind it. -/
def seek_result (cfg : Config) (docs : List doc_input) (dec : Decoder) (target k0 : Nat)
    (r : Option PostingsListIterator) : Prop :=
  ∃ it1, r = some it1 ∧ it1.skipListIdx ≤ dec.skiplist.length ∧
    ((∃ k, on_doc cfg docs dec it1.docs_view k ∧ hits_count_ok dec it1 (hits_before docs k) ∧
        target ≤ doc_id docs k ∧ (ids_below docs target k0 → ids_below docs target k)) ∨
     (exhausted dec it1 ∧ (ids_below docs target k0 → ids_below docs target docs.length)))

end Lucene

namespace Lucene

/-- The iterator states reached from a new iterator by calls of `next` and of `advance`
with 32-bit targets. -/
inductive reachable (cfg : Config) (dec : Decoder) : PostingsListIterator → Prop
  | fresh : reachable cfg dec dec.new_iterator
  | next (it it1 : PostingsListIterator) :
      reachable cfg dec it → dec.next cfg it = some it1 → reachable cfg dec it1
  | advance (it it1 : PostingsListIterator) (fuel target : Nat) :
      reachable cfg dec it → target < 2 ^ 32 → dec.advance cfg fuel it target = some it1 →
      reachable cfg dec it1

/-- The three kinds of state of an iterator on the posting list `docs`: new, on a
document with consistent hit counters, or exhausted. -/
def iter_ok (cfg : Config) (docs : List doc_input) (dec : Decoder) (it : PostingsListIterator) :
    Prop :=
  it.skipListIdx ≤ dec.skiplist.length ∧
    (it = dec.new_iterator ∨
     (∃ k, on_doc cfg docs dec it.docs_view k ∧ hits_count_ok dec it (hits_before docs k)) ∨
     exhausted dec it)

end Lucene

namespace Lucene

/-! ### The hits stream written by a call sequence, and the iterator's place in it -/

/-- The position deltas and payloads `new_hit` stores for the recorded hits of one
document, `last` being the position of the hit before. -/
def stored_hits_of : List hit_input → Nat → List (Nat × List Nat)
  | [], _ => []
  | h :: hs, last => (h.pos - last, h.payload) :: stored_hits_of hs h.pos

/-- The position deltas and payloads stored for the recorded hits of a document. -/
def doc_stored (d : doc_input) : List (Nat × List Nat) := stored_hits_of (real_hits d) 0

/-- The position deltas and payloads stored for all recorded hits of a posting list, in
the order of recording. -/
def stored_hits : List doc_input → List (Nat × List Nat)
  | [] => []
  | d :: ds => doc_stored d ++ stored_hits ds

/-- The position delta of the `g`-th recorded hit of the list. -/
def hit_delta (docs : List doc_input) (g : Nat) : Nat := ((stored_hits docs).getD g (0, [])).1

/-- The payload bytes of the `g`-th recorded hit of the list. -/
def hit_payload (docs : List doc_input) (g : Nat) : List Nat :=
  ((stored_hits docs).getD g (0, [])).2

/-- The payload length of the `g`-th recorded hit of the list. -/
def hit_plen (docs : List doc_input) (g : Nat) : Nat := (hit_payload docs g).length

/-- The payload bytes of the hits `[start .. start + count)`, one after another. -/
def payloads_range (docs : List doc_input) (start : Nat) : Nat → List Nat
  | 0 => []
  | count + 1 => payloads_range docs start count ++ hit_payload docs (start + count)

/-- The bytes of the full hits block `b`: the position deltas, the payload lengths, the
size of the payloads chunk, and the payloads. -/
def hits_block_bytes (cfg : Config) (docs : List doc_input) (b : Nat) : List Nat :=
  ints_encode cfg (fun i => hit_delta docs (b * cfg.BLOCK_SIZE + i)) cfg.BLOCK_SIZE ++
    ints_encode cfg (fun i => hit_plen docs (b * cfg.BLOCK_SIZE + i)) cfg.BLOCK_SIZE ++
    encode_varbyte32 (payloads_range docs (b * cfg.BLOCK_SIZE) cfg.BLOCK_SIZE).length ++
    payloads_range docs (b * cfg.BLOCK_SIZE) cfg.BLOCK_SIZE

/-- The bytes of the first `q` full hits blocks. -/
def hits_blocks_bytes (cfg : Config) (docs : List doc_input) : Nat → List Nat
  | 0 => []
  | q + 1 => hits_blocks_bytes cfg docs q ++ hits_block_bytes cfg docs q

/-- The number of recorded hits of the whole list. -/
def hits_total (docs : List doc_input) : Nat := hits_before docs docs.length

/-- The varbyte part of the trailing hits block: the hits after the last full block. -/
def hits_tail_head (cfg : Config) (docs : List doc_input) : List Nat :=
  tail_hits
    (fun i => hit_delta docs (hits_total docs / cfg.BLOCK_SIZE * cfg.BLOCK_SIZE + i))
    (fun i => hit_plen docs (hits_total docs / cfg.BLOCK_SIZE * cfg.BLOCK_SIZE + i))
    (hits_total docs % cfg.BLOCK_SIZE) 0 0

/-- The bytes of the trailing hits block: its varbyte part and its payloads. -/
def hits_tail_bytes (cfg : Config) (docs : List doc_input) : List Nat :=
  hits_tail_head cfg docs ++
    payloads_range docs (hits_total docs / cfg.BLOCK_SIZE * cfg.BLOCK_SIZE)
      (hits_total docs % cfg.BLOCK_SIZE)

/-- The hits fields of a skip-list entry agree: the offset is where the hits block of
`lastHitsBlockTotalHits` starts. -/
def entry_hits_ok (cfg : Config) (docs : List doc_input) (s : skiplist_entry) : Prop :=
  s.lastHitsBlockOffset =
    (hits_blocks_bytes cfg docs (s.lastHitsBlockTotalHits / cfg.BLOCK_SIZE)).length

/-- The state of the encoder after `g` hits of `docs` were recorded in a term begun on a
session whose hits buffer held `ppre`, as far as the hits stream is concerned. -/
structure enc_hits_inv (cfg : Config) (ppre : List Nat) (docs : List doc_input) (g : Nat)
    (e : Encoder) : Prop where
  positions_eq : e.positionsOut = ppre ++ hits_blocks_bytes cfg docs (g / cfg.BLOCK_SIZE)
  deltas_eq : ∀ i < g % cfg.BLOCK_SIZE,
    e.hitPosDeltas i = hit_delta docs (g / cfg.BLOCK_SIZE * cfg.BLOCK_SIZE + i)
  sizes_eq : ∀ i < g % cfg.BLOCK_SIZE,
    e.hitPayloadSizes i = hit_plen docs (g / cfg.BLOCK_SIZE * cfg.BLOCK_SIZE + i)
  payloads_eq : e.payloadsBuf =
    payloads_range docs (g / cfg.BLOCK_SIZE * cfg.BLOCK_SIZE) (g % cfg.BLOCK_SIZE)
  offset_eq : e.lastHitsBlockOffset =
    (hits_blocks_bytes cfg docs (g / cfg.BLOCK_SIZE)).length
  skiplist_hits : ∀ s ∈ e.skiplist, entry_hits_ok cfg docs s
  cur_block_hits : e.termDocuments ≠ 0 → entry_hits_ok cfg docs e.cur_block
  plen_le : ∀ i < g, hit_plen docs i ≤ 8

/-- Where the hits block `b` starts in hits.data. -/
def hits_start (cfg : Config) (docs : List doc_input) (dec : Decoder) (b : Nat) : Nat :=
  dec.hitsBase + (hits_blocks_bytes cfg docs b).length

/-- Where the hits of the term end in hits.data. -/
def hits_end (cfg : Config) (docs : List doc_input) (dec : Decoder) : Nat :=
  hits_start cfg docs dec (hits_total docs / cfg.BLOCK_SIZE) + (hits_tail_bytes cfg docs).length

/-- Where the payloads of the hits block `b` start in hits.data. -/
def pay_start (cfg : Config) (docs : List doc_input) (dec : Decoder) (b : Nat) : Nat :=
  if b < hits_total docs / cfg.BLOCK_SIZE then
    hits_start cfg docs dec b +
      (ints_encode cfg (fun i => hit_delta docs (b * cfg.BLOCK_SIZE + i))
        cfg.BLOCK_SIZE).length +
      (ints_encode cfg (fun i => hit_plen docs (b * cfg.BLOCK_SIZE + i))
        cfg.BLOCK_SIZE).length +
      (encode_varbyte32
        (payloads_range docs (b * cfg.BLOCK_SIZE) cfg.BLOCK_SIZE).length).length
  else
    hits_start cfg docs dec (hits_total docs / cfg.BLOCK_SIZE) + (hits_tail_head cfg docs).length

/-- Where the payload of the `g`-th recorded hit starts in hits.data. -/
def pay_off (cfg : Config) (docs : List doc_input) (dec : Decoder) (g : Nat) : Nat :=
  pay_start cfg docs dec (g / cfg.BLOCK_SIZE) +
    (payloads_range docs (g / cfg.BLOCK_SIZE * cfg.BLOCK_SIZE) (g % cfg.BLOCK_SIZE)).length

/-- The decoder reads the hits stream of `docs`: from `hitsBase` on hits.data holds the
full hits blocks and the trailing block; the hits fields of every skip-list entry agree;
the position deltas fit in 31 bits and no payload is longer than 8 bytes. -/
structure hits_layout (cfg : Config) (docs : List doc_input) (dec : Decoder) : Prop where
  mem_eq : ∃ ppre rest, dec.hitsDataPtr =
      ppre ++ (hits_blocks_bytes cfg docs (hits_total docs / cfg.BLOCK_SIZE) ++
        hits_tail_bytes cfg docs ++ rest) ∧
    ppre.length = dec.hitsBase
  entries : ∀ s ∈ dec.skiplist, entry_hits_ok cfg docs s
  deltas_lt : ∀ g, hit_delta docs g < 2 ^ 31
  plen_le : ∀ g, hit_plen docs g ≤ 8

/-- The hits cursor stands between two hits blocks with `c` hits behind it. -/
structure at_hits_gap (cfg : Config) (docs : List doc_input) (dec : Decoder) (v : hits_view)
    (c : Nat) : Prop where
  c_le : c ≤ hits_total docs
  c_block : c % cfg.BLOCK_SIZE = 0 ∨ c = hits_total docs
  hdp_eq : v.hdp = if c = hits_total docs then hits_end cfg docs dec
    else hits_start cfg docs dec (c / cfg.BLOCK_SIZE)
  hitsLeft_eq : v.hitsLeft = hits_total docs - c

/-- The hits block that starts at the hit `base` is decoded: the arrays hold its deltas
and payload lengths, the payload cursor stands at the payload of the hit
`base + hitsIndex`, and the hits cursor stands behind the block. -/
structure hits_loaded (cfg : Config) (docs : List doc_input) (dec : Decoder) (v : hits_view)
    (base : Nat) : Prop where
  base_block : base % cfg.BLOCK_SIZE = 0
  base_lt : base < hits_total docs
  index_le : v.hitsIndex ≤ v.bufferedHits
  buffered_eq : v.bufferedHits = min cfg.BLOCK_SIZE (hits_total docs - base)
  hitsLeft_eq : v.hitsLeft = hits_total docs - base - v.bufferedHits
  deltas_eq : ∀ i < v.bufferedHits, v.hitsPositionDeltas i = hit_delta docs (base + i)
  lengths_eq : ∀ i < v.bufferedHits, v.hitsPayloadLengths i = hit_plen docs (base + i)
  payloadsIt_eq : v.payloadsIt = pay_start cfg docs dec (base / cfg.BLOCK_SIZE) +
    (payloads_range docs base v.hitsIndex).length
  hdp_eq : v.hdp = if base / cfg.BLOCK_SIZE < hits_total docs / cfg.BLOCK_SIZE
    then hits_start cfg docs dec (base / cfg.BLOCK_SIZE + 1) else hits_end cfg docs dec

/-- The hits part of an iterator has taken `c` hits from the stream: either no block is
buffered and the cursor stands at the block of the hit `c`, or the block of the hit
`c - hitsIndex` is decoded. -/
def hits_ok (cfg : Config) (docs : List doc_input) (dec : Decoder) (v : hits_view) (c : Nat) :
    Prop :=
  (at_hits_gap cfg docs dec v c ∧ v.hitsIndex = 0 ∧ v.bufferedHits = 0) ∨
    ∃ base, c = base + v.hitsIndex ∧ hits_loaded cfg docs dec v base

/-- The hits part of an iterator is consistent with `h` recorded hits lying before its
document: the hits taken from the stream and the hits queued in `skippedHits` are `h`. -/
def hits_state_ok (cfg : Config) (docs : List doc_input) (dec : Decoder)
    (it : PostingsListIterator) (h : Nat) : Prop :=
  h ≤ hits_total docs ∧ ∃ c, c + it.skippedHits = h ∧ hits_ok cfg docs dec it.hits_view c

/-- The hits `materialize_hits` has to write for `count` recorded hits from the `g`-th
on, `pos` being the 16-bit position of the hit before. -/
def expected_run (cfg : Config) (docs : List doc_input) (dec : Decoder) :
    Nat → Nat → Nat → List term_hit
  | 0, _, _ => []
  | count + 1, g, pos =>
    { pos := (pos + hit_delta docs g) % 2 ^ 16
      payloadLen := hit_plen docs g
      payload := read_payload dec.hitsDataPtr (pay_off cfg docs dec g) (hit_plen docs g) } ::
      expected_run cfg docs dec count (g + 1) ((pos + hit_delta docs g) % 2 ^ 16)

/-- The hits of the document `k` as `materialize_hits` writes them. -/
def doc_hits (cfg : Config) (docs : List doc_input) (dec : Decoder) (k : Nat) : List term_hit :=
  expected_run cfg docs dec (doc_freq docs k) (hits_before docs k) 0

end Lucene

namespace Lucene

/-- The 16-bit position `materialize_hits` has reached after `count` recorded hits from
the `g`-th on, `pos` being the position before. -/
def run_pos (docs : List doc_input) : Nat → Nat → Nat → Nat
  | 0, _, pos => pos
  | count + 1, g, pos => run_pos docs count (g + 1) ((pos + hit_delta docs g) % 2 ^ 16)

end Lucene

namespace Lucene

/-- Where a seek for `target` leaves an iterator: on the first document whose id is at
least `target`, with the hits part standing at its hits, or exhausted with every id
below `target`. -/
def seek_state (cfg : Config) (docs : List doc_input) (dec : Decoder) (target : Nat)
    (r : PostingsListIterator) : Prop :=
  (∃ k, on_doc cfg docs dec r.docs_view k ∧
      hits_state_ok cfg docs dec r (hits_before docs k) ∧
      target ≤ doc_id docs k ∧ ids_below docs target k) ∨
    (exhausted dec r ∧ ids_below docs target docs.length)

end Lucene

namespace Lucene

/-! ### The documents as the decoder reads them back -/

/-- The delta of the `i`-th document as `refill_documents` reads it: with
`LUCENE_ENCODE_FREQ1_DOCDELTA` a delta of the trailing block was written as
`delta << 1` in 32 bits and comes back without its bit 31. -/
def read_delta (cfg : Config) (docs : List doc_input) (i : Nat) : Nat :=
  if cfg.ENCODE_FREQ1_DOCDELTA = true ∧ docs.length / cfg.BLOCK_SIZE * cfg.BLOCK_SIZE ≤ i then
    doc_delta docs i % 2 ^ 31
  else doc_delta docs i

/-- The id of the `i`-th document as the iterator publishes it: the sum of the deltas
read up to it. -/
def read_id (cfg : Config) (docs : List doc_input) : Nat → Nat
  | 0 => read_delta cfg docs 0
  | i + 1 => read_id cfg docs i + read_delta cfg docs (i + 1)

/-- The posting list as the decoder reads it back: the hits of `docs` under the ids
read. -/
def read_docs (cfg : Config) (docs : List doc_input) : List doc_input :=
  (List.range docs.length).map
    (fun i => { id := read_id cfg docs i, hits := (docs.getD i { id := 0, hits := [] }).hits })

end Lucene

/-- The query `(pear AND apple) OR banana`: `pear` is unknown to the source, so the cost
pass folds the AND without looking at `apple`. -/
def query_pruned_and_or : ast_node :=
  .BinOp .OR (.BinOp .AND (token_node pear 0) (token_node apple 1)) (token_node banana 2)

/-! ## Driver loop (exec.cpp, `exec_query`, lines 1298-1385) -/

/-- Modelled from the spec: `next()` of the `Decoder` interface of section 6, which
advances one document and answers false when the stream is exhausted. -/
def Decoder.next (d : Decoder) : Bool × Decoder :=
  (!d.remaining.tail.isEmpty, { remaining := d.remaining.tail })

/-- Modelled from the spec: the field `curDocument.id` of the `Decoder` interface of
section 6; an exhausted decoder publishes the largest id. After `begin()` the decoder
stands on its first document, which is the state `remaining = postings`. -/
def Decoder.curDocument_id (d : Decoder) : Nat :=
  match d.remaining with
  | [] => UINT32_MAX
  | p :: _ => p.id

/-- The answer of `MatchedIndexDocumentsFilter::consider`. -/
inductive ConsiderResponse where
  | Continue
  | Abort
deriving DecidableEq, Repr

/-- Modelled from the spec: the `MatchesFilter` of section 6, an object outside
exec.cpp: it answers from the ids of the documents it was offered before and the id of
the document offered now. -/
abbrev MatchesFilter := List Nat → Nat → ConsiderResponse

/-- The state of the driver loop of `exec_query`: the runtime context, the term ids of
`leaderDecoders[0 .. leaderDecodersCnt)`, the ids passed to `consider` with the answers
it gave, in order, and the counter `matchedDocuments`. -/
structure driver_state where
  ctx : runtime_ctx
  leaders : List Nat
  considered : List Nat
  responses : List ConsiderResponse
  matchedDocuments : Nat

/-- The loop that selects the document (lines 1306-1319) from the leader `i` on:
`docID`, the array `toAdvance`, whose slots are `uint16_t`, and the counter
`toAdvanceCnt`, a `uint8_t`: `toAdvance[toAdvanceCnt++] = i` takes the counter from 255
to 0. -/
def select_leaders (c : runtime_ctx) :
    List Nat → Nat → Nat → (Nat → Nat) → Nat → Nat × (Nat → Nat) × Nat
  | [], _, docID, toAdvance, toAdvanceCnt => (docID, toAdvance, toAdvanceCnt)
  | t :: rest, i, docID, toAdvance, toAdvanceCnt =>
    let did := (c.decoders t).curDocument_id
    if did < docID then
      select_leaders c rest (i + 1) did (Function.update toAdvance 0 (i % 2 ^ 16)) 1
    else if did = docID then
      select_leaders c rest (i + 1) docID
        (Function.update toAdvance toAdvanceCnt (i % 2 ^ 16)) ((toAdvanceCnt + 1) % 2 ^ 8)
    else select_leaders c rest (i + 1) docID toAdvance toAdvanceCnt

/-- The selection of a driver iteration over the leaders `t0 :: rest` (lines 1301-1319):
`docID` starts as the current id of the first leader, `toAdvance[0] = 0` and
`toAdvanceCnt = 1`. The array is a local that is not initialised; its other slots are
taken to hold 0, and what they hold changes neither the document selected nor the indices
the do-while reads. -/
def select_round (c : runtime_ctx) (t0 : Nat) (rest : List Nat) : Nat × (Nat → Nat) × Nat :=
  select_leaders c rest 1 (c.decoders t0).curDocument_id (fun _ => 0) 1

/-- The indices `idx = toAdvance[--toAdvanceCnt]` that the do-while advancing the leaders
(lines 1367-1382) reads, in the order it reads them, as long as it is not left through
`goto l1`: the counter is decremented in 8 bits before the read and tested after the
body, so that a counter of 0 reads the slots 255 down to 0. -/
def advance_order (toAdvance : Nat → Nat) (toAdvanceCnt : Nat) : List Nat :=
  ((List.range (if toAdvanceCnt = 0 then 256 else toAdvanceCnt)).map toAdvance).reverse

/-- The selection loop with `toAdvance[0 .. toAdvanceCnt)` kept as a list and the counter
as its length: what `select_leaders` computes while the counter does not wrap. -/
def select_list (c : runtime_ctx) : List Nat → Nat → Nat → List Nat → Nat × List Nat
  | [], _, docID, toAdvance => (docID, toAdvance)
  | t :: rest, i, docID, toAdvance =>
    let did := (c.decoders t).curDocument_id
    if did < docID then select_list c rest (i + 1) did [i]
    else if did = docID then select_list c rest (i + 1) docID (toAdvance ++ [i])
    else select_list c rest (i + 1) docID toAdvance

/-- The do-while that advances the leaders (lines 1367-1381) over the indices still to
advance, last first: the context, the leaders left, and whether `goto l1` was taken. -/
def advance_leaders : List Nat → runtime_ctx → List Nat → runtime_ctx × List Nat × Bool
  | [], c, leaders => (c, leaders, false)
  | idx :: rest, c, leaders =>
    let t := leaders.getD idx 0
    let r := (c.decoders t).next
    let c1 := { c with decoders := Function.update c.decoders t r.2 }
    if r.1 then advance_leaders rest c1 leaders
    else if leaders.length - 1 = 0 then (c1, [], true)
    else advance_leaders rest c1 (leaders.eraseIdx idx)

/-- One round of the driver loop up to the advance of the leaders (lines 1300-1365) for
the selected document: the evaluation of the root node and, on a match, the
materialization of the hits of the captured terms and the call of `consider`, whose
answer is compared with `Abort` by an `if` with an empty body. -/
def driver_consider (root : exec_node) (masked : Nat → Bool) (filter : MatchesFilter)
    (s : driver_state) (docID : Nat) : driver_state :=
  if masked docID then s
  else
    let r := eval root (s.ctx.reset docID)
    if r.1 then
      { s with
        ctx := r.2.matchedTerms.foldl
          (fun c m => materialize_term_hits c m.queryTermInstances.termId) r.2
        considered := s.considered ++ [docID]
        responses := s.responses ++ [filter s.considered docID]
        matchedDocuments := s.matchedDocuments + 1 }
    else { s with ctx := r.2 }

/-- The driver loop `for (;;)` of `exec_query`, which ends at `l1` when the last leader
is exhausted; `none` when `fuel` rounds did not end it (or no leader was given, which
`require(leaderTokensDecoders.size())` excludes). -/
def driver_loop (root : exec_node) (masked : Nat → Bool) (filter : MatchesFilter) :
    Nat → driver_state → Option driver_state
  | 0, _ => none
  | fuel + 1, s =>
    match s.leaders with
    | [] => none
    | t0 :: rest =>
      let sel := select_round s.ctx t0 rest
      let s1 := driver_consider root masked filter s sel.1
      let a := advance_leaders (advance_order sel.2.1 sel.2.2) s1.ctx s1.leaders
      if a.2.2 then some { s1 with ctx := a.1, leaders := a.2.1 }
      else driver_loop root masked filter fuel { s1 with ctx := a.1, leaders := a.2.1 }

/-- The driver state `exec_query` enters the loop with. -/
def driver_init (c : runtime_ctx) (leaders : List Nat) : driver_state :=
  { ctx := c, leaders := leaders, considered := [], responses := [], matchedDocuments := 0 }

/-! ## Phrase matching: the materialized hits of a term -/

/-- The hits buffer and the doc-words space of a term agree with its decoder: either the
buffer is stale and no bit of the term is set, or the buffer was filled for the current
document and holds the hits of the decoder sought to it, with one bit per hit whose
position is not 0. -/
def term_hits_ok (c : runtime_ctx) (t : Nat) : Prop :=
  if (c.termHits t).docSeq = c.curDocSeq then
    (c.termHits t).freq = ((c.decoders t).seek c.curDocID).2.hits.length ∧
    (c.termHits t).all = ((c.decoders t).seek c.curDocID).2.hits ∧
    ∀ pos, c.docWordsSpace.test t pos =
      decide (pos ≠ 0 ∧ ∃ h ∈ ((c.decoders t).seek c.curDocID).2.hits, h.pos = pos)
  else ∀ pos, c.docWordsSpace.test t pos = false

/-- The decoder of a term stands where a seek to the current document leaves it. -/
def positioned (c : runtime_ctx) (t : Nat) : Prop :=
  ((c.decoders t).seek c.curDocID).2 = c.decoders t

/-- What the steps of `matchphrase_impl` before the scan keep of a context `c`: the
document, the generation, where a seek leaves each decoder, the agreement of the hits
buffers, and the buffers already filled. -/
structure phrase_inv (c c1 : runtime_ctx) : Prop where
  curDocID_eq : c1.curDocID = c.curDocID
  curDocSeq_eq : c1.curDocSeq = c.curDocSeq
  seek_eq : ∀ u, (c1.decoders u).seek c.curDocID = (c.decoders u).seek c.curDocID
  hits_ok : ∀ u, term_hits_ok c u → term_hits_ok c1 u
  filled : ∀ u, (c.termHits u).docSeq = c.curDocSeq → (c1.termHits u).docSeq = c.curDocSeq
  positioned_ok : ∀ u, positioned c u → positioned c1 u
  matched_eq : c1.matchedTerms = c.matchedTerms
  captured_eq : c1.curDocQueryTokensCaptured = c.curDocQueryTokensCaptured

/-- The source with the single document `d1`, in which `apple` has a hit at position 0
(with a payload) and `phone` a hit at position 1. -/
def zero_source : IndexSource :=
  { resolve_term := fun t => if t = apple then 1 else if t = phone then 2 else 0
    documents := fun i => if i = 1 ∨ i = 2 then 1 else 0
    postings := fun i =>
      if i = 1 then [{ id := 1, hits := [{ pos := 0, payloadLen := 1, payload := 7 }] }]
      else if i = 2 then [{ id := 1, hits := [hit_at 1] }]
      else [] }

/-- The phrase `"apple phone"` as `register_phrase` builds it over the dictionary
`[apple, phone]`. -/
def apple_phone : exec_phrase := { termIDs := [1, 2], rep := 1, index := 0, flags := 0 }

namespace Lucene

/-- A decoder over six bytes of hits.data that read as a full hits block (with
`BLOCK_SIZE = 2`) whose payload chunk length is 200. -/
def corrupt_hits_decoder : Decoder :=
  { indexPtr := []
    hitsDataPtr := [0, 1, 0, 0, 200, 1]
    postingListBase := 0
    chunkEnd := 0
    totalDocuments := 0
    totalHits := 2
    hitsBase := 0
    skiplist := [] }

end Lucene

namespace Lucene

/-! ### Trailing blocks on their own -/

/-- The payload bytes of a list of hits `(posDelta, payload)`, one payload after another:
what `new_hit` leaves in `payloadsBuf`. -/
def hits_payloads : List (Nat × List Nat) → List Nat
  | [] => []
  | h :: hs => h.2 ++ hits_payloads hs

/-- A decoder over the bytes `end_term` writes, with the packed freq-1 option, for the
single buffered document with delta `2^31` and frequency 1. -/
def packed_tail_decoder : Decoder :=
  { indexPtr := tail_documents true (fun _ => 2 ^ 31) (fun _ => 1) 1 0
    hitsDataPtr := []
    postingListBase := 0
    chunkEnd := 1
    totalDocuments := 1
    totalHits := 1
    hitsBase := 0
    skiplist := [] }

/-- A decoder over the bytes `end_term` writes for the single buffered hit with position
delta `2^31` and no payload. -/
def wide_hit_decoder : Decoder :=
  { indexPtr := []
    hitsDataPtr := tail_hits (fun _ => 2 ^ 31) (fun _ => 0) 1 0 0
    postingListBase := 0
    chunkEnd := 0
    totalDocuments := 1
    totalHits := 1
    hitsBase := 0
    skiplist := [] }

/-- A decoder over an index that holds, behind two other bytes, the bytes `end_term`
writes with the packed freq-1 option for the buffered documents `(7, 1)` and `(5, 3)`. -/
def tail_pairs_decoder : Decoder :=
  { indexPtr := [9, 9] ++ (tail_documents true (fun i => ([(7, 1), (5, 3)].getD i (0, 0)).1)
      (fun i => ([(7, 1), (5, 3)].getD i (0, 0)).2) 2 0 ++ [8])
    hitsDataPtr := []
    postingListBase := 0
    chunkEnd := 0
    totalDocuments := 2
    totalHits := 4
    hitsBase := 0
    skiplist := [] }

/-- A decoder over hits.data that holds, behind two other bytes, the bytes `end_term`
writes for the buffered hits `(3, [1, 2])`, `(0, [])` and `(4, [5])` and their payloads. -/
def tail_hits_decoder : Decoder :=
  { indexPtr := []
    hitsDataPtr := [9, 9] ++
      (tail_hits (fun i => ([(3, [1, 2]), (0, []), (4, [5])].getD i (0, [])).1)
        (fun i => ([(3, [1, 2]), (0, []), (4, [5])].getD i (0, [])).2.length) 3 0 0 ++
        (hits_payloads [(3, [1, 2]), (0, []), (4, [5])] ++ [8]))
    postingListBase := 0
    chunkEnd := 0
    totalDocuments := 1
    totalHits := 3
    hitsBase := 2
    skiplist := [] }

end Lucene

/-- The query `(apple AND banana) OR phone`. -/
def query_run_or_term : ast_node :=
  .BinOp .OR (.BinOp .AND (token_node apple 0) (token_node banana 1)) (token_node phone 2)

/-! ## Sequences of `resolve_term` calls and trees of tokens -/

/-- A sequence of calls of `resolve_term`, one per term of the list in order: the ids
handed out and the dictionary after the last call. -/
def resolve_terms : List str8_t → TermsDict → List Nat × TermsDict
  | [], dict => ([], dict)
  | t :: ts, dict =>
    let r := resolve_term dict t
    let rs := resolve_terms ts r.2
    (r.1 :: rs.1, rs.2)

/-- The calls `decoder->seek(did)` of the loop of `matchallterms_impl`, in order: the
term whose decoder is sought and the document sought. -/
def matchallterms_seeks : List Nat → runtime_ctx → List (Nat × Nat)
  | [], _ => []
  | termID :: rest, c =>
    let r := seek_term c termID c.curDocID
    if r.1 then
      (termID, c.curDocID) :: matchallterms_seeks rest (capture_matched_term r.2 termID)
    else [(termID, c.curDocID)]

/-- The calls `decoder->seek(did)` of the loop of `matchanyterms_impl`, in order. -/
def matchanyterms_seeks : List Nat → runtime_ctx → List (Nat × Nat)
  | [], _ => []
  | termID :: rest, c =>
    let r := seek_term c termID c.curDocID
    (termID, c.curDocID) ::
      matchanyterms_seeks rest (if r.1 then capture_matched_term r.2 termID else r.2)

/-- The calls `decoder->seek(did)` of the first loop of `matchphrase_impl`, in order. -/
def matchphrase_seek_rest_seeks : List Nat → runtime_ctx → List (Nat × Nat)
  | [], _ => []
  | termID :: rest, c =>
    let r := seek_term c termID c.curDocID
    if r.1 then
      (termID, c.curDocID) :: matchphrase_seek_rest_seeks rest (materialize_term_hits r.2 termID)
    else [(termID, c.curDocID)]

/-- The calls `decoder->seek(did)` of `matchphrase_impl`, in order. -/
def matchphrase_seeks (p : exec_phrase) (c : runtime_ctx) : List (Nat × Nat) :=
  match p.termIDs with
  | [] => []
  | firstTermID :: rest =>
    let r := seek_term c firstTermID c.curDocID
    if r.1 then (firstTermID, c.curDocID) :: matchphrase_seek_rest_seeks rest r.2
    else [(firstTermID, c.curDocID)]

/-- The calls `decoder->seek(did)` that `eval(node, ctx)` performs, in order, each as the
term whose decoder is sought and the document sought: the interpreter `eval` with the
seeks written down instead of the result. -/
def eval_seeks : exec_node → runtime_ctx → List (Nat × Nat)
  | .noop_impl, _ => []
  | .matchterm_impl termID, c => [(termID, c.curDocID)]
  | .matchphrase_impl p, c => matchphrase_seeks p c
  | .matchallterms_impl run, c => matchallterms_seeks run c
  | .matchanyterms_impl run, c => matchanyterms_seeks run c
  | .unaryand_impl e, c => eval_seeks e c
  | .unarynot_impl e, c => eval_seeks e c
  | .consttrueexpr_impl e, c => eval_seeks e c
  | .logicaland_impl l r, c =>
    let a := eval l c
    if a.1 then eval_seeks l c ++ eval_seeks r a.2 else eval_seeks l c
  | .logicalnot_impl l r, c =>
    let a := eval l c
    if a.1 then eval_seeks l c ++ eval_seeks r a.2 else eval_seeks l c
  | .logicalor_impl l r, c =>
    let res1 := eval l c
    eval_seeks l c ++ eval_seeks r res1.2

/-- An execution tree of `matchterm_impl` leaves joined by `logicaland_impl` only. -/
def and_term_tree : exec_node → Bool
  | .matchterm_impl _ => true
  | .logicaland_impl l r => and_term_tree l && and_term_tree r
  | _ => false

/-- An execution tree of `matchterm_impl` leaves joined by `logicalor_impl` only. -/
def or_term_tree : exec_node → Bool
  | .matchterm_impl _ => true
  | .logicalor_impl l r => or_term_tree l && or_term_tree r
  | _ => false

/-- The term ids of the `matchterm_impl` leaves of a tree of `logicaland_impl` and
`logicalor_impl` nodes, from left to right: the run their fusion builds. -/
def fused_run : exec_node → List Nat
  | .matchterm_impl termID => [termID]
  | .logicaland_impl l r => fused_run l ++ fused_run r
  | .logicalor_impl l r => fused_run l ++ fused_run r
  | _ => []

/-! ## Truth value of a query tree under an assignment to its leaves -/

/-- The boolean value of an abstract query tree under an assignment `v` of truth values
to its leaves (the `Token` and `Phrase` nodes), in the words of the specification: AND
and STRICT_AND are conjunction, OR is disjunction, binary NOT is `lhs and not rhs`,
unary NOT is negation, ConstTrueExpr is true, ConstFalse is false. -/
def ast_truth (v : ast_node → Bool) : ast_node → Bool
  | .Token p => v (.Token p)
  | .Phrase p => v (.Phrase p)
  | .BinOp .AND lhs rhs => ast_truth v lhs && ast_truth v rhs
  | .BinOp .STRICT_AND lhs rhs => ast_truth v lhs && ast_truth v rhs
  | .BinOp .OR lhs rhs => ast_truth v lhs || ast_truth v rhs
  | .BinOp .NOT lhs rhs => ast_truth v lhs && !ast_truth v rhs
  | .BinOp .NONE _ _ => false
  | .UnaryOp .NOT expr => !ast_truth v expr
  | .UnaryOp _ expr => ast_truth v expr
  | .ConstTrueExpr _ => true
  | .ConstFalse => false
  | .Dummy => false

/-- Whether `reorder` rewrites a binop with operator `op` whose operands, after their own
reordering, are `lhs` and `rhs`: the condition of its AND rule or of its NOT rule. -/
def reorder_fires (op : Operator) (lhs rhs : ast_node) : Bool :=
  if op = .AND ∨ op = .STRICT_AND then lhs.is_binop && rhs.is_unary
  else if op = .NOT then
    match lhs with
    | .BinOp lop llhs lrhs =>
      rhs.is_unary && llhs.is_unary && lrhs.is_binop && decide (lop = .AND ∨ lop = .STRICT_AND)
    | _ => false
  else false

/-- A tree on which no rule of `reorder` fires at any binop. -/
def reordered : ast_node → Bool
  | .BinOp op lhs rhs => reordered lhs && reordered rhs && !reorder_fires op lhs rhs
  | _ => true

/-- The query `(apple AND (banana OR phone)) NOT pear`, the shape of the NOT rule. -/
def query_not_over_and : ast_node :=
  .BinOp .NOT
    (.BinOp .AND (token_node apple 0) (.BinOp .OR (token_node banana 1) (token_node phone 2)))
    (token_node pear 3)

/-- An assignment of truth values to leaves: true of the tokens `apple` and `phone`. -/
def leaf_assignment : ast_node → Bool
  | .Token p => decide (p.terms = [apple]) || decide (p.terms = [phone])
  | _ => false

namespace Lucene

/-- A skip-list entry whose `lastDocID` is `id`, the other fields being 0. -/
def skip_entry (id : Nat) : skiplist_entry :=
  { indexOffset := 0, lastDocID := id, lastHitsBlockOffset := 0, totalDocumentsSoFar := 0,
    lastHitsBlockTotalHits := 0, curHitsBlockHits := 0 }

/-- A decoder whose skip list has the last ids 10, 20, 30, 40, 50. -/
def skiplist_decoder : Decoder :=
  { indexPtr := [], hitsDataPtr := [], postingListBase := 0, chunkEnd := 0,
    totalDocuments := 0, totalHits := 0, hitsBase := 0,
    skiplist := [skip_entry 10, skip_entry 20, skip_entry 30, skip_entry 40, skip_entry 50] }

end Lucene

/-- The driver state at the start of a query whose leaders are `apple`, `banana` and
`phone` over the three-document source. -/
def driver_fixture : driver_state :=
  driver_init (initial_ctx tiny_source [apple, banana, phone] (fun _ => none)) [1, 2, 3]

/-- A sequence of `n` calls of `materialize_term_hits(termID)`: the context after the
last call and the number of the calls that ran `materialize_term_hits_impl`, that is, the
decoder's `materialize_hits`. -/
def materialize_repeat (termID : Nat) : Nat → runtime_ctx → runtime_ctx × Nat
  | 0, c => (c, 0)
  | n + 1, c =>
    let r := materialize_repeat termID n (materialize_term_hits c termID)
    (r.1, r.2 + (if (c.termHits termID).docSeq ≠ c.curDocSeq then 1 else 0))

/-- A source in which `apple` is in the documents 1 to 2147483648 (at position 1) and
`banana` in the documents 1 to 2147483647 (at position 2). -/
def huge_source : IndexSource :=
  { resolve_term := fun t => if t = apple then 1 else if t = banana then 2 else 0
    documents := fun i => if i = 1 then 2147483648 else if i = 2 then 2147483647 else 0
    postings := fun i =>
      if i = 1 then (List.range 2147483648).map (fun k => { id := k + 1, hits := [hit_at 1] })
      else if i = 2 then
        (List.range 2147483647).map (fun k => { id := k + 1, hits := [hit_at 2] })
      else [] }

/-- The phrase `"apple banana"`. -/
def apple_banana : phrase :=
  { terms := [apple, banana], index := 0, rep := 1, flags := 0 }

/-- The query `apple AND pear`, `pear` being unknown to the source. -/
def query_and_absent_rhs : ast_node :=
  .BinOp .AND (token_node apple 0) (token_node pear 1)

/-- The query `<apple> AND banana`: a `ConstTrueExpr` on the left of an AND. -/
def query_consttrue_lhs : ast_node :=
  .BinOp .AND (.ConstTrueExpr (token_node apple 0)) (token_node banana 1)

/-- The query `banana AND <apple>`: a `ConstTrueExpr` on the right of an AND. -/
def query_consttrue_rhs : ast_node :=
  .BinOp .AND (token_node banana 0) (.ConstTrueExpr (token_node apple 1))

/-- The query `pear OR <apple>`, `pear` being unknown to the source: a `ConstTrueExpr` on
the right of an OR whose left child is an absent term. -/
def query_absent_or_consttrue : ast_node :=
  .BinOp .OR (token_node pear 0) (.ConstTrueExpr (token_node apple 1))

/-- A driver state with 257 leaders, the terms 1 to 257 of a dictionary of 257 terms, the
decoder of each standing on document 1 with document 2 to follow. -/
def crowded_fixture : driver_state :=
  driver_init
    { initial_ctx tiny_source [] (fun _ => none) with
      decoders := fun _ => { remaining := [{ id := 1, hits := [] }, { id := 2, hits := [] }] }
      termsDictSize := 257
      capacity := 257 + 8 }
    ((List.range 257).map (fun i => i + 1))

/-! ## Driver loop: the documents selected and the indices used -/

/-- The documents selected by the successive iterations of the driver loop of
`exec_query` (line 1303 and the loop after it), at most `fuel` of them: the driver loop
with the selected `docID` written down. -/
def driver_selected (root : exec_node) (masked : Nat → Bool) (filter : MatchesFilter) :
    Nat → driver_state → List Nat
  | 0, _ => []
  | fuel + 1, s =>
    match s.leaders with
    | [] => []
    | t0 :: rest =>
      let sel := select_round s.ctx t0 rest
      let s1 := driver_consider root masked filter s sel.1
      let a := advance_leaders (advance_order sel.2.1 sel.2.2) s1.ctx s1.leaders
      if a.2.2 then [sel.1]
      else sel.1 :: driver_selected root masked filter fuel { s1 with ctx := a.1, leaders := a.2.1 }

/-- Whether every index `idx = toAdvance[--toAdvanceCnt]` that the do-while advancing the
leaders (lines 1367-1381) uses is below `leaderDecodersCnt` when it is used: the loop
`advance_leaders` with the bound of `leaderDecoders[idx]` checked. -/
def advance_leaders_in_bounds : List Nat → runtime_ctx → List Nat → Bool
  | [], _, _ => true
  | idx :: rest, c, leaders =>
    let t := leaders.getD idx 0
    let r := (c.decoders t).next
    let c1 := { c with decoders := Function.update c.decoders t r.2 }
    decide (idx < leaders.length) &&
      (if r.1 then advance_leaders_in_bounds rest c1 leaders
       else if leaders.length - 1 = 0 then true
       else advance_leaders_in_bounds rest c1 (leaders.eraseIdx idx))

/-- A context `c1` reached from `c` by seeks to the current document only: the document
is the same and each decoder is either as it was or where a seek to the document leaves
it. -/
def sought (c c1 : runtime_ctx) : Prop :=
  c1.curDocID = c.curDocID ∧
    ∀ u, c1.decoders u = c.decoders u ∨ c1.decoders u = ((c.decoders u).seek c.curDocID).2

/-- The invariant of the driver loop on its leaders: no term is a leader twice, and the
posting list each leader decoder still has to stream has strictly increasing ids. -/
def leaders_ok (s : driver_state) : Prop :=
  s.leaders.Nodup ∧
    ∀ t ∈ s.leaders, ((s.ctx.decoders t).remaining.map (fun p => p.id)).Sorted (· < ·)

/-- The documents the leader decoders of a driver state still have to stream, with one
more per leader for the call of `next()` that finds it exhausted. -/
def leaders_left (s : driver_state) : Nat :=
  (s.leaders.map (fun t => (s.ctx.decoders t).remaining.length + 1)).sum

/-- Whether the advance of the leaders removes the leader `u`: it is one of the leaders at
the indices `idxs` of `toAdvance`, and `next()` on its decoder answers false. -/
def leader_removed (c : runtime_ctx) (leaders idxs : List Nat) (u : Nat) : Bool :=
  decide (u ∈ idxs.map (fun i => leaders.getD i 0)) && !((c.decoders u).next).1

/-- One iteration of the driver loop on a state whose leaders are `t0 :: rest`: the
selected document, the state after the advance of the leaders, and whether `goto l1` was
taken. -/
def driver_round (root : exec_node) (masked : Nat → Bool) (filter : MatchesFilter)
    (s : driver_state) (t0 : Nat) (rest : List Nat) : Nat × driver_state × Bool :=
  let sel := select_round s.ctx t0 rest
  let s1 := driver_consider root masked filter s sel.1
  let a := advance_leaders (advance_order sel.2.1 sel.2.2) s1.ctx s1.leaders
  (sel.1, { s1 with ctx := a.1, leaders := a.2.1 }, a.2.2)

namespace Lucene

/-! ### Merge of posting lists (`IndexSession::merge`) -/

/-- One `merge_participant`: the `term_index_ctx` of the term in the participant, the
index and hits.data of its access proxy (`ap->indexPtr`, `ap->hitsDataPtr`), and the test
of its masked-documents registry (`maskedDocsReg->test(id)`), which is taken as a
function of the document id. -/
structure merge_participant where
  tctx : term_index_ctx
  indexPtr : List Nat
  hitsDataPtr : List Nat
  maskedDocsReg : Nat → Bool

/-- The local `struct candidate` of `IndexSession::merge`. The pointers `index_chunk.p`,
`index_chunk.e`, `positions_chunk.p`, `positions_chunk.e`, `payloadsIt` and `payloadsEnd`
are offsets into `indexPtr` and `hitsDataPtr`, the index and hits.data of the participant's
access proxy; `cur_block.i` and `cur_block.size` are 8-bit, `bufferedHits` and `hitsIndex`
16-bit, the other counters 32-bit. -/
structure candidate where
  lastDocID : Nat
  docDeltas : Nat → Nat
  docFreqs : Nat → Nat
  hitsPayloadLengths : Nat → Nat
  hitsPositionDeltas : Nat → Nat
  maskedDocsReg : Nat → Bool
  documentsLeft : Nat
  hitsLeft : Nat
  skippedHits : Nat
  bufferedHits : Nat
  hitsIndex : Nat
  index_chunk_p : Nat
  index_chunk_e : Nat
  positions_chunk_p : Nat
  positions_chunk_e : Nat
  cur_block_i : Nat
  cur_block_size : Nat
  payloadsIt : Nat
  payloadsEnd : Nat
  indexPtr : List Nat
  hitsDataPtr : List Nat

/-- The body of `candidate::refill_hits`; `none` when
`require(hitsIndex == 0 || hitsIndex == BLOCK_SIZE)` fails. The two branches are those of
`Decoder::refill_hits`. -/
def candidate.refill_hits (cfg : Config) (c : candidate) : Option candidate :=
  if ¬ (c.hitsIndex = 0 ∨ c.hitsIndex = cfg.BLOCK_SIZE) then none
  else if c.hitsLeft ≥ cfg.BLOCK_SIZE then
    let r1 := ints_decode cfg c.hitsDataPtr c.positions_chunk_p c.hitsPositionDeltas
    let r2 := ints_decode cfg c.hitsDataPtr r1.1 c.hitsPayloadLengths
    let r3 := varbyte_get32 (c.hitsDataPtr.drop r2.1)
    let payloadsIt := r2.1 + r3.2
    some { c with
      hitsPositionDeltas := r1.2
      hitsPayloadLengths := r2.2
      payloadsIt := payloadsIt
      positions_chunk_p := payloadsIt + r3.1 % 2 ^ 32
      payloadsEnd := payloadsIt + r3.1 % 2 ^ 32
      bufferedHits := cfg.BLOCK_SIZE % 2 ^ 16
      hitsLeft := c.hitsLeft - cfg.BLOCK_SIZE
      hitsIndex := 0 }
  else
    let r := refill_hits_tail c.hitsDataPtr c.hitsLeft 0 c.positions_chunk_p 0 0
      c.hitsPositionDeltas c.hitsPayloadLengths
    some { c with
      hitsPositionDeltas := r.2.2.1
      hitsPayloadLengths := r.2.2.2
      payloadsIt := r.1
      positions_chunk_p := r.1 + r.2.1
      payloadsEnd := r.1 + r.2.1
      bufferedHits := c.hitsLeft % 2 ^ 16
      hitsLeft := 0
      hitsIndex := 0 }

/-- The body of `candidate::refill_documents`; the two branches are those of
`Decoder::refill_documents`. -/
def candidate.refill_documents (cfg : Config) (c : candidate) : candidate :=
  let c1 : candidate :=
    if c.documentsLeft ≥ cfg.BLOCK_SIZE then
      let r1 := ints_decode cfg c.indexPtr c.index_chunk_p c.docDeltas
      let r2 := ints_decode cfg c.indexPtr r1.1 c.docFreqs
      { c with
        docDeltas := r1.2
        docFreqs := r2.2
        index_chunk_p := r2.1
        cur_block_size := cfg.BLOCK_SIZE % 2 ^ 8
        documentsLeft := c.documentsLeft - cfg.BLOCK_SIZE }
    else
      let r := refill_documents_tail cfg.ENCODE_FREQ1_DOCDELTA c.indexPtr c.documentsLeft 0
        c.index_chunk_p c.docDeltas c.docFreqs
      { c with
        docDeltas := r.2.1
        docFreqs := r.2.2
        index_chunk_p := r.1
        cur_block_size := c.documentsLeft % 2 ^ 8
        documentsLeft := 0 }
  { c1 with cur_block_i := 0 }

/-- The do-while loop of `candidate::skip_ommitted_hits`. A round that can skip nothing
repeats for ever and is `none`, as is a failed `require` of `refill_hits`; `fuel` bounds
the rounds and `skippedHits` suffices. -/
def candidate.skip_loop (cfg : Config) : Nat → candidate → Option candidate
  | 0, _ => none
  | fuel + 1, c =>
    match (if c.hitsIndex = c.bufferedHits then c.refill_hits cfg else some c) with
    | none => none
    | some c1 =>
      let step := min c1.skippedHits (c1.bufferedHits - c1.hitsIndex)
      if step = 0 then none
      else
        let c2 : candidate :=
          { c1 with
            payloadsIt := c1.payloadsIt +
              payload_lengths_sum c1.hitsPayloadLengths c1.hitsIndex step
            hitsIndex := c1.hitsIndex + step
            skippedHits := c1.skippedHits - step }
        if c2.skippedHits ≠ 0 then candidate.skip_loop cfg fuel c2 else some c2

/-- The body of `candidate::skip_ommitted_hits`. -/
def candidate.skip_ommitted_hits (cfg : Config) (c : candidate) : Option candidate :=
  if c.skippedHits = 0 then some c else candidate.skip_loop cfg c.skippedHits c

/-- The inner while loop of `candidate::output_hits` over `count` buffered hits: the hits
index, the 16-bit running position (`tokenpos_t`), the payload cursor, and the calls
`enc->new_hit(pos, payload)` made, each with its position and payload bytes (the `pl`
bytes at the payload cursor; `pl` is at most 8 in a block the encoder wrote). -/
def output_run (mem : List Nat) (deltas lengths : Nat → Nat) :
    Nat → Nat → Nat → Nat → Nat × Nat × Nat × List hit_input
  | 0, hitsIndex, pos, payloadsIt => (hitsIndex, pos, payloadsIt, [])
  | count + 1, hitsIndex, pos, payloadsIt =>
    let pl := lengths hitsIndex
    let pos1 := (pos + deltas hitsIndex) % 2 ^ 16
    let r := output_run mem deltas lengths count (hitsIndex + 1) pos1 (payloadsIt + pl)
    (r.1, r.2.1, r.2.2.1, { pos := pos1, payload := (mem.drop payloadsIt).take pl } :: r.2.2.2)

/-- The `for (;;)` loop of the slow path of `candidate::output_hits` with `freq` hits
still to hand to the encoder; `none` when a `require` of `refill_hits` fails or the loop
does not end (`fuel` bounds the rounds). -/
def candidate.output_slow (cfg : Config) :
    Nat → candidate → Nat → Nat → Option (candidate × List hit_input)
  | 0, _, _, _ => none
  | fuel + 1, c, pos, freq =>
    let n := min (c.bufferedHits - c.hitsIndex) freq
    let r := output_run c.hitsDataPtr c.hitsPositionDeltas c.hitsPayloadLengths n
      c.hitsIndex pos c.payloadsIt
    let c1 : candidate := { c with payloadsIt := r.2.2.1, hitsIndex := r.1 }
    if freq - n ≠ 0 then
      match c1.refill_hits cfg with
      | none => none
      | some c2 =>
        match candidate.output_slow cfg fuel c2 r.2.1 (freq - n) with
        | none => none
        | some (c3, out) => some (c3, r.2.2.2 ++ out)
    else some (c1, r.2.2.2)

/-- The body of `candidate::output_hits`: the candidate afterwards and the calls of
`enc->new_hit` made, in order. -/
def candidate.output_hits (cfg : Config) (c : candidate) :
    Option (candidate × List hit_input) :=
  let freq := c.docFreqs c.cur_block_i
  match c.skip_ommitted_hits cfg with
  | none => none
  | some c1 =>
    if c1.hitsIndex + freq ≤ c1.bufferedHits then
      let r := output_run c1.hitsDataPtr c1.hitsPositionDeltas c1.hitsPayloadLengths freq
        c1.hitsIndex 0 c1.payloadsIt
      some ({ c1 with
              payloadsIt := r.2.2.1
              hitsIndex := r.1
              docFreqs := Function.update c1.docFreqs c1.cur_block_i 0 }, r.2.2.2)
    else
      match candidate.output_slow cfg (2 * freq + 2) c1 0 freq with
      | none => none
      | some (c2, out) =>
        some ({ c2 with docFreqs := Function.update c2.docFreqs c2.cur_block_i 0 }, out)

/-- The body of `candidate::next`: the answer and the candidate afterwards. -/
def candidate.next (cfg : Config) (c : candidate) : Option (Bool × candidate) :=
  let c1 : candidate :=
    { c with
      skippedHits := (c.skippedHits + c.docFreqs c.cur_block_i) % 2 ^ 32
      lastDocID := (c.lastDocID + c.docDeltas c.cur_block_i) % 2 ^ 32
      cur_block_i := (c.cur_block_i + 1) % 2 ^ 8 }
  if c1.cur_block_i = c1.cur_block_size then
    if c1.documentsLeft = 0 then some (false, c1)
    else
      match c1.skip_ommitted_hits cfg with
      | none => none
      | some c2 => some (true, c2.refill_documents cfg)
  else some (true, c1)

/-- The body of `candidate::current`. -/
def candidate.current (c : candidate) : Nat :=
  (c.lastDocID + c.docDeltas c.cur_block_i) % 2 ^ 32

/-- The body of `candidate::current_freq`. -/
def candidate.current_freq (c : candidate) : Nat := c.docFreqs c.cur_block_i

/-- The body of the first loop of `IndexSession::merge` for one participant: the
candidate set up on the participant's chunk, `c0` being the storage before (the array
`candidates` is not initialized). -/
def merge_candidate (cfg : Config) (c0 : candidate) (part : merge_participant) : candidate :=
  let p := part.tctx.offset
  let hitsDataOffset := read_u32 part.indexPtr p
  let sumHits := read_u32 part.indexPtr (p + 4)
  let posChunkSize := read_u32 part.indexPtr (p + 8)
  let skiplistSize := read_u16 part.indexPtr (p + 12)
  let c : candidate :=
    { c0 with
      index_chunk_e :=
        if skiplistSize ≠ 0 then p + part.tctx.size - skiplistSize * 22
        else p + part.tctx.size
      maskedDocsReg := part.maskedDocsReg
      documentsLeft := part.tctx.documents
      lastDocID := 0
      skippedHits := 0
      hitsIndex := 0
      bufferedHits := 0
      payloadsIt := 0
      payloadsEnd := 0
      index_chunk_p := p + 14
      positions_chunk_p := hitsDataOffset
      positions_chunk_e := hitsDataOffset + posChunkSize
      hitsLeft := sumHits
      indexPtr := part.indexPtr
      hitsDataPtr := part.hitsDataPtr }
  c.refill_documents cfg

/-- The selection loop of `IndexSession::merge` over the candidates from index `i` on:
the smallest current id `did` and the indices `toAdvance` of the candidates standing at
it, in increasing order. -/
def merge_select : List candidate → Nat → Nat → List Nat → Nat × List Nat
  | [], _, did, toAdvance => (did, toAdvance)
  | c :: rest, i, did, toAdvance =>
    if c.current = did then merge_select rest (i + 1) did (toAdvance ++ [i])
    else if c.current < did then merge_select rest (i + 1) c.current [i]
    else merge_select rest (i + 1) did toAdvance

/-- The do-while loop of `IndexSession::merge` that advances the candidates of
`toAdvance`, taken from its last element to its first (the list given is `toAdvance`
reversed): the candidates left, and whether the last one was exhausted (`goto l1`). -/
def merge_advance (cfg : Config) : List Nat → List candidate → Option (List candidate × Bool)
  | [], cs => some (cs, false)
  | idx :: rest, cs =>
    match cs[idx]? with
    | none => none
    | some c =>
      match c.next cfg with
      | none => none
      | some (true, c1) => merge_advance cfg rest (cs.set idx c1)
      | some (false, _) =>
        if cs.length - 1 = 0 then some ([], true)
        else merge_advance cfg rest (cs.eraseIdx idx)

/-- The state of the main loop of `IndexSession::merge`: the first `rem` candidates, the
local `prev`, and the documents handed to the encoder so far, each with its id
(`begin_document`) and the calls of `new_hit` made before its `end_document`. -/
structure merge_state where
  candidates : List candidate
  prev : Nat
  out : List doc_input

/-- One round of the main loop of `IndexSession::merge`: the state afterwards and
whether the loop was left (`goto l1`); `none` when a `require` fails. -/
def merge_round (cfg : Config) (s : merge_state) : Option (merge_state × Bool) :=
  match s.candidates with
  | [] => none
  | c0 :: rest =>
    let sel := merge_select rest 1 c0.current [0]
    if ¬ (sel.1 > s.prev) then none
    else
      match s.candidates[sel.2.headD 0]? with
      | none => none
      | some c =>
        match (if c.maskedDocsReg sel.1 = false then
                match c.output_hits cfg with
                | none => none
                | some (c1, hits) =>
                  some (s.candidates.set (sel.2.headD 0) c1,
                    s.out ++ [({ id := sel.1, hits := hits } : doc_input)])
               else some (s.candidates, s.out)) with
        | none => none
        | some (cs1, out1) =>
          match merge_advance cfg sel.2.reverse cs1 with
          | none => none
          | some (cs2, done) => some ({ candidates := cs2, prev := sel.1, out := out1 }, done)

/-- The main loop of `IndexSession::merge`, bounded by `fuel` rounds: the documents
handed to the encoder. -/
def merge_loop (cfg : Config) : Nat → merge_state → Option (List doc_input)
  | 0, _ => none
  | fuel + 1, s =>
    match merge_round cfg s with
    | none => none
    | some (s1, true) => some s1.out
    | some (s1, false) => merge_loop cfg fuel s1

/-- The state of the main loop after `n` rounds, none of which left the loop. -/
def merge_rounds (cfg : Config) : Nat → merge_state → Option merge_state
  | 0, s => some s
  | n + 1, s =>
    match merge_round cfg s with
    | some (s1, false) => merge_rounds cfg n s1
    | _ => none

/-- The state in which the main loop of `IndexSession::merge` starts. -/
def merge_start (cfg : Config) (c0 : candidate) (participants : List merge_participant) :
    merge_state :=
  { candidates := participants.map (merge_candidate cfg c0), prev := 0, out := [] }

/-- The body of `IndexSession::merge(participants, participantsCnt, enc)`: the documents
handed to the encoder `enc`, in order. The list stands for the `participantsCnt`
participants, a 16-bit count, so it has fewer than 2^16 elements; with no participant the
result is `none` (the source reads the first candidate unconditionally). -/
def IndexSession.merge (cfg : Config) (fuel : Nat) (c0 : candidate)
    (participants : List merge_participant) : Option (List doc_input) :=
  merge_loop cfg fuel (merge_start cfg c0 participants)

/-- The iterator that has the fields of a candidate: `index_chunk.p` as `p`,
`positions_chunk.p` as `hdp`, `cur_block` as `docsIndex` and `bufferedDocs`,
`current()` and `current_freq()` as the published document. -/
def candidate.iter (c : candidate) : PostingsListIterator :=
  { p := c.index_chunk_p
    hdp := c.positions_chunk_p
    payloadsIt := c.payloadsIt
    payloadsEnd := c.payloadsEnd
    lastDocID := c.lastDocID
    lastPosition := 0
    docsLeft := c.documentsLeft
    hitsLeft := c.hitsLeft
    docsIndex := c.cur_block_i
    hitsIndex := c.hitsIndex
    bufferedDocs := c.cur_block_size
    bufferedHits := c.bufferedHits
    skippedHits := c.skippedHits
    skipListIdx := 0
    docDeltas := c.docDeltas
    docFreqs := c.docFreqs
    hitsPositionDeltas := c.hitsPositionDeltas
    hitsPayloadLengths := c.hitsPayloadLengths
    curDocument_id := c.current
    freq := c.current_freq }

/-- The decoder of a participant's term. -/
def merge_participant.decoder (part : merge_participant) : Decoder :=
  Decoder.init part.tctx part.indexPtr part.hitsDataPtr

end Lucene

namespace Lucene

/-- The calls of `new_hit` that `output_hits` has to make for `count` recorded hits from
the `g`-th on, `pos` being the 16-bit position of the hit before: the running position
and the payload bytes of each hit. -/
def emitted_run (docs : List doc_input) : Nat → Nat → Nat → List hit_input
  | 0, _, _ => []
  | count + 1, g, pos =>
    { pos := (pos + hit_delta docs g) % 2 ^ 16, payload := hit_payload docs g } ::
      emitted_run docs count (g + 1) ((pos + hit_delta docs g) % 2 ^ 16)

end Lucene

namespace Lucene

/-- Two candidates agree on the document stream and on the participant, but for the
buffered frequencies. -/
structure same_docs (a b : candidate) : Prop where
  lastDocID_eq : a.lastDocID = b.lastDocID
  docDeltas_eq : a.docDeltas = b.docDeltas
  documentsLeft_eq : a.documentsLeft = b.documentsLeft
  index_chunk_p_eq : a.index_chunk_p = b.index_chunk_p
  cur_block_i_eq : a.cur_block_i = b.cur_block_i
  cur_block_size_eq : a.cur_block_size = b.cur_block_size
  maskedDocsReg_eq : a.maskedDocsReg = b.maskedDocsReg
  indexPtr_eq : a.indexPtr = b.indexPtr
  hitsDataPtr_eq : a.hitsDataPtr = b.hitsDataPtr

end Lucene

namespace Lucene

/-- The candidate stands on the document `k` of the posting list `docs` that the decoder
`dec` reads: its document part is that of an iterator on `k` (but for the frequency of
`k`, which `output_hits` zeroes), and its hits part has taken or queued the hits recorded
before `k`, and those of `k` when they were handed to the encoder. -/
def cand_ok (cfg : Config) (docs : List doc_input) (dec : Decoder) (c : candidate) (k : Nat) :
    Prop :=
  c.indexPtr = dec.indexPtr ∧ c.hitsDataPtr = dec.hitsDataPtr ∧
    on_doc cfg docs dec
      { c.iter.docs_view with
        docFreqs := Function.update c.docFreqs c.cur_block_i (doc_freq docs k)
        freq := doc_freq docs k } k ∧
    ∃ h, h + c.docFreqs c.cur_block_i = hits_before docs (k + 1) ∧
      hits_state_ok cfg docs dec c.iter h

end Lucene

namespace Lucene

/-- The calls of `new_hit` made for stored position deltas and payloads, `pos` being the
16-bit position before. -/
def emit_list : List (Nat × List Nat) → Nat → List hit_input
  | [], _ => []
  | x :: r, pos =>
    { pos := (pos + x.1) % 2 ^ 16, payload := x.2 } :: emit_list r ((pos + x.1) % 2 ^ 16)

/-- The participant holds the posting list `docs`: its chunk and its hits are laid out
as the decoder reads them, the list is not empty, the ids are strictly increasing (the
first above 0), and the positions of the recorded hits of a document are non-decreasing
16-bit values (`tokenpos_t`). -/
structure participant_ok (cfg : Config) (part : merge_participant) (docs : List doc_input) :
    Prop where
  layout : chunk_layout cfg docs part.decoder
  hits : hits_layout cfg docs part.decoder
  tail : tail_deltas_ok cfg docs
  nonempty : docs ≠ []
  ids_increasing : ∀ i < docs.length, prev_id docs i < doc_id docs i
  positions_lt : ∀ d ∈ docs, ∀ h ∈ real_hits d, h.pos < 2 ^ 16
  positions_sorted : ∀ d ∈ docs, ((real_hits d).map (fun h => h.pos)).Sorted (· ≤ ·)

end Lucene

namespace Lucene

/-- The id of the document at the place `(i, k)`: the `k`-th document of the posting list
of the `i`-th participant (0 when there is no such participant). -/
def place_id (pl : List (merge_participant × List doc_input)) (a : Nat × Nat) : Nat :=
  match pl[a.1]? with
  | some x => doc_id x.2 a.2
  | none => 0

/-- The number of documents of the `i`-th participant from the `k`-th on, for the place
`(i, k)`. -/
def place_left (pl : List (merge_participant × List doc_input)) (a : Nat × Nat) : Nat :=
  match pl[a.1]? with
  | some x => x.2.length - a.2
  | none => 0

/-- The place after a round that selected the id `did`: a place at `did` moves to the
next document of its participant, or goes when there is none; the others stay. -/
def place_next (pl : List (merge_participant × List doc_input)) (did : Nat) (a : Nat × Nat) :
    Option (Nat × Nat) :=
  if place_id pl a = did then
    if 1 < place_left pl a then some (a.1, a.2 + 1) else none
  else some a

/-- The candidate `c` stands at the place `a = (i, k)`: it reads the `i`-th participant
and is on the `k`-th document of its posting list. -/
def cand_on (cfg : Config) (pl : List (merge_participant × List doc_input)) (c : candidate)
    (a : Nat × Nat) : Prop :=
  ∃ x, pl[a.1]? = some x ∧ cand_ok cfg x.2 x.1.decoder c a.2 ∧
    c.maskedDocsReg = x.1.maskedDocsReg

/-- The hits of the document the candidate stands at were not handed to the encoder:
its buffered frequency is that of the document. -/
def cand_fresh (pl : List (merge_participant × List doc_input)) (c : candidate)
    (a : Nat × Nat) : Prop :=
  ∀ x, pl[a.1]? = some x → c.docFreqs c.cur_block_i = doc_freq x.2 a.2

end Lucene

namespace Lucene

/-- The participant `i` is the lowest-index participant whose posting list contains the
document id `d`. -/
def lowest_holder (pl : List (merge_participant × List doc_input)) (d i : Nat) : Prop :=
  (∃ x, pl[i]? = some x ∧ d ∈ x.2.map (fun o => o.id)) ∧
    ∀ j y, j < i → pl[j]? = some y → d ∉ y.2.map (fun o => o.id)

/-- The places `A` of the candidates left in the main loop, `prev` being the last id
selected: the participants of `A` are in increasing order, each stands on a document
above `prev` with all its earlier documents at or below `prev`, and a participant that
is not in `A` has all its documents at or below `prev`. -/
structure places_ok (pl : List (merge_participant × List doc_input)) (prev : Nat)
    (A : List (Nat × Nat)) : Prop where
  sorted : (A.map Prod.fst).Pairwise (· < ·)
  alive : ∀ a ∈ A, ∃ x, pl[a.1]? = some x ∧ a.2 < x.2.length ∧
    (∀ k, k < a.2 → doc_id x.2 k ≤ prev) ∧ prev < doc_id x.2 a.2
  dead : ∀ i x, pl[i]? = some x → i ∉ A.map Prod.fst →
    ∀ k, k < x.2.length → doc_id x.2 k ≤ prev

/-- The number of documents that the candidates at the places `A` have not passed. -/
def places_left (pl : List (merge_participant × List doc_input)) (A : List (Nat × Nat)) :
    Nat :=
  (A.map (place_left pl)).sum

end Lucene

namespace Lucene

/-- The invariant of the main loop of `IndexSession::merge` over the participants `pl`
(each with its posting list): `Z` pairs the candidates left with their places, the
places are in order for `prev`, and the documents handed to the encoder so far have
strictly increasing ids up to `prev`, are the ids up to `prev` whose lowest-index
holder does not mask them, and carry the hits recorded by that holder. -/
structure merge_inv (cfg : Config) (pl : List (merge_participant × List doc_input))
    (s : merge_state) (Z : List (candidate × (Nat × Nat))) : Prop where
  cands : s.candidates = Z.map Prod.fst
  on_places : ∀ z ∈ Z, cand_on cfg pl z.1 z.2 ∧ cand_fresh pl z.1 z.2
  places : places_ok pl s.prev (Z.map Prod.snd)
  out_sorted : (s.out.map (fun o => o.id)).Pairwise (· < ·)
  out_le : ∀ o ∈ s.out, o.id ≤ s.prev
  out_iff : ∀ d, d ≤ s.prev → (d ∈ s.out.map (fun o => o.id) ↔
    ∃ i x, lowest_holder pl d i ∧ pl[i]? = some x ∧ x.1.maskedDocsReg d = false)
  out_hits : ∀ o ∈ s.out, ∀ i x, lowest_holder pl o.id i → pl[i]? = some x →
    ∀ y ∈ x.2, y.id = o.id → o.hits = real_hits y

end Lucene

namespace Lucene

/-- The candidates set up for the participants `pl`, each paired with its place: the
first document of its participant. -/
def merge_places (cfg : Config) (c0 : candidate)
    (pl : List (merge_participant × List doc_input)) : List (candidate × (Nat × Nat)) :=
  pl.enum.map (fun p => (merge_candidate cfg c0 p.2.1, (p.1, 0)))

end Lucene

/-! # Theorems -/

/-! ## The compiler on a non-fusable OR -/

/-- C1 (the code at the failing input). The query `apple OR (banana AND phone)` is
true on document 1 (which holds `apple`), but `compile` lowers its OR, whose children
are a term and an AND-run, to `logicaland_impl`, and the compiled tree evaluates to
false on document 1. This is so whichever child of a binop is compiled first: the order
only changes the ids the terms get. -/
theorem compile_or_of_term_and_run_evaluates_as_and :
    compile false query_or_and [] =
        some (.logicaland_impl (.matchterm_impl 1) (.matchallterms_impl [2, 3]),
              [apple, banana, phone]) ∧
      ast_matches tiny_source 1 query_or_and = true ∧
      (eval (.logicaland_impl (.matchterm_impl 1) (.matchallterms_impl [2, 3]))
        ((initial_ctx tiny_source [apple, banana, phone] (fun _ => none)).reset 1)).1 = false ∧
      compile true query_or_and [] =
        some (.logicaland_impl (.matchterm_impl 3) (.matchallterms_impl [2, 1]),
              [phone, banana, apple]) ∧
      (eval (.logicaland_impl (.matchterm_impl 3) (.matchallterms_impl [2, 1]))
        ((initial_ctx tiny_source [phone, banana, apple] (fun _ => none)).reset 1)).1 = false := by
  refine ⟨by decide, by decide, by decide, by decide, by decide⟩

/-! ## The cost pass on a unary NOT over an absent term -/

/-- C2 (the code at the failing input). The query `apple AND (NOT pear)`, `pear` being
unknown to the source, is true on document 1; the cost pass rewrites the unary NOT to
`ConstFalse`, leaving `apple AND ConstFalse`, which is false on document 1, and
`optimize` ends with a null root. -/
theorem optimize_folds_unary_not_of_absent_term :
    ast_matches tiny_source 1 query_and_not_absent = true ∧
      (optimize_binops_impl tiny_source query_and_not_absent false []).node =
        .BinOp .AND (token_node apple 0) .ConstFalse ∧
      ast_matches tiny_source 1 (.BinOp .AND (token_node apple 0) .ConstFalse) = false ∧
      optimize tiny_source 8 query_and_not_absent [] = some (none, [apple, pear]) := by
  refine ⟨by decide, by decide, by decide, by decide⟩

/-! ## Capture of matched terms -/

theorem capture_oqti (c : runtime_ctx) (t : Nat) :
    (capture_matched_term c t).originalQueryTermInstances = c.originalQueryTermInstances := by
  unfold capture_matched_term
  split
  · split <;> rfl
  · rfl

theorem capture_curDocSeq (c : runtime_ctx) (t : Nat) :
    (capture_matched_term c t).curDocSeq = c.curDocSeq := by
  unfold capture_matched_term
  split
  · split <;> rfl
  · rfl

theorem capture_curDocID (c : runtime_ctx) (t : Nat) :
    (capture_matched_term c t).curDocID = c.curDocID := by
  unfold capture_matched_term
  split
  · split <;> rfl
  · rfl

theorem capture_termsDictSize (c : runtime_ctx) (t : Nat) :
    (capture_matched_term c t).termsDictSize = c.termsDictSize := by
  unfold capture_matched_term
  split
  · split <;> rfl
  · rfl

theorem capture_decoders (c : runtime_ctx) (t : Nat) :
    (capture_matched_term c t).decoders = c.decoders := by
  unfold capture_matched_term
  split
  · split <;> rfl
  · rfl

theorem capture_of_none (c : runtime_ctx) (t : Nat)
    (h : c.originalQueryTermInstances t = none) : capture_matched_term c t = c := by
  unfold capture_matched_term
  rw [h]

theorem capture_of_flag (c : runtime_ctx) (t : Nat)
    (h : c.curDocQueryTokensCaptured t = c.curDocSeq) : capture_matched_term c t = c := by
  unfold capture_matched_term
  split
  · rw [if_neg (by simpa using h)]
  · rfl

theorem capture_of_new (c : runtime_ctx) (t : Nat) (qti : query_term_instances)
    (h : c.originalQueryTermInstances t = some qti)
    (hf : c.curDocQueryTokensCaptured t ≠ c.curDocSeq) :
    (capture_matched_term c t).matchedTermIDs = c.matchedTermIDs ++ [t] ∧
      (capture_matched_term c t).curDocQueryTokensCaptured =
        Function.update c.curDocQueryTokensCaptured t c.curDocSeq := by
  unfold capture_matched_term
  rw [h]
  constructor
  · simp [if_pos hf, runtime_ctx.matchedTermIDs]
  · simp [if_pos hf]

theorem capture_matched_mono (c : runtime_ctx) (t u : Nat) (h : u ∈ c.matchedTermIDs) :
    u ∈ (capture_matched_term c t).matchedTermIDs := by
  cases hq : c.originalQueryTermInstances t with
  | none => rw [capture_of_none c t hq]; exact h
  | some qti =>
    by_cases hf : c.curDocQueryTokensCaptured t = c.curDocSeq
    · rw [capture_of_flag c t hf]; exact h
    · rw [(capture_of_new c t qti hq hf).1]
      exact List.mem_append_left _ h

theorem reset_matchedTermIDs (c : runtime_ctx) (did : Nat) : (c.reset did).matchedTermIDs = [] := by
  unfold runtime_ctx.reset
  split <;> rfl

theorem reset_oqti (c : runtime_ctx) (did : Nat) :
    (c.reset did).originalQueryTermInstances = c.originalQueryTermInstances := by
  unfold runtime_ctx.reset
  split <;> rfl

theorem reset_termsDictSize (c : runtime_ctx) (did : Nat) :
    (c.reset did).termsDictSize = c.termsDictSize := by
  unfold runtime_ctx.reset
  split <;> rfl

theorem reset_curDocSeq_bounds (c : runtime_ctx) (did : Nat) (hseq : c.curDocSeq ≤ UINT16_MAX) :
    1 ≤ (c.reset did).curDocSeq ∧ (c.reset did).curDocSeq ≤ UINT16_MAX := by
  unfold runtime_ctx.reset
  split
  · simp [UINT16_MAX]
  · rename_i h
    simp only
    omega

theorem reset_flags_stale (c : runtime_ctx) (did : Nat)
    (hwf : ∀ t, t ≤ c.termsDictSize → c.curDocQueryTokensCaptured t ≤ c.curDocSeq) :
    ∀ t, t ≤ c.termsDictSize →
      (c.reset did).curDocQueryTokensCaptured t < (c.reset did).curDocSeq := by
  intro t ht
  unfold runtime_ctx.reset
  split
  · simp only
    rw [if_pos (by omega)]
    omega
  · simp only
    have := hwf t ht
    omega

theorem foldl_capture_inv (c0 : runtime_ctx)
    (hstale : ∀ t, t ≤ c0.termsDictSize → c0.curDocQueryTokensCaptured t < c0.curDocSeq)
    (hempty : c0.matchedTermIDs = [])
    (calls : List Nat) (hcalls : ∀ t ∈ calls, t ≤ c0.termsDictSize) :
    (calls.foldl capture_matched_term c0).originalQueryTermInstances = c0.originalQueryTermInstances ∧
    (calls.foldl capture_matched_term c0).curDocSeq = c0.curDocSeq ∧
    (calls.foldl capture_matched_term c0).termsDictSize = c0.termsDictSize ∧
    (calls.foldl capture_matched_term c0).matchedTermIDs.Nodup ∧
    (∀ t, t ≤ c0.termsDictSize →
      ((calls.foldl capture_matched_term c0).curDocQueryTokensCaptured t = c0.curDocSeq ↔
        t ∈ (calls.foldl capture_matched_term c0).matchedTermIDs)) ∧
    (∀ t, t ≤ c0.termsDictSize →
      (calls.foldl capture_matched_term c0).curDocQueryTokensCaptured t ≤ c0.curDocSeq) ∧
    (∀ t, t ∈ (calls.foldl capture_matched_term c0).matchedTermIDs ↔
      t ∈ calls ∧ (c0.originalQueryTermInstances t).isSome = true) := by
  induction calls using List.reverseRecOn with
  | nil =>
    refine ⟨rfl, rfl, rfl, ?_, ?_, ?_, ?_⟩
    · simp [hempty]
    · intro t ht
      simp only [List.foldl_nil, hempty, List.not_mem_nil, iff_false]
      have := hstale t ht
      omega
    · intro t ht
      have := hstale t ht
      simp only [List.foldl_nil]
      omega
    · intro t
      simp [hempty]
  | append_singleton init u ih =>
    have hinit : ∀ t ∈ init, t ≤ c0.termsDictSize := fun t ht => hcalls t (by simp [ht])
    have hu : u ≤ c0.termsDictSize := hcalls u (by simp)
    obtain ⟨h1, h2, h3, h4, h5, h6, h7⟩ := ih hinit
    rw [List.foldl_append, List.foldl_cons, List.foldl_nil]
    generalize List.foldl capture_matched_term c0 init = c at *
    cases hq : c.originalQueryTermInstances u with
    | none =>
      rw [capture_of_none c u hq]
      refine ⟨h1, h2, h3, h4, h5, h6, ?_⟩
      intro t
      rw [h7 t]
      constructor
      · rintro ⟨a, b⟩
        exact ⟨by simp [a], b⟩
      · rintro ⟨a, b⟩
        refine ⟨?_, b⟩
        rcases List.mem_append.1 a with a | a
        · exact a
        · have : t = u := by simpa using a
          subst this
          rw [← h1, hq] at b
          simp at b
    | some qti =>
      by_cases hf : c.curDocQueryTokensCaptured u = c.curDocSeq
      · rw [capture_of_flag c u hf]
        refine ⟨h1, h2, h3, h4, h5, h6, ?_⟩
        intro t
        rw [h7 t]
        constructor
        · rintro ⟨a, b⟩
          exact ⟨by simp [a], b⟩
        · rintro ⟨a, b⟩
          refine ⟨?_, b⟩
          rcases List.mem_append.1 a with a | a
          · exact a
          · have : t = u := by simpa using a
            subst this
            have := (h5 t hu).1 (by rw [hf, h2])
            exact ((h7 t).1 this).1
      · obtain ⟨e1, e2⟩ := capture_of_new c u qti hq hf
        have hnot : u ∉ c.matchedTermIDs := fun hm => hf (by rw [h2]; exact (h5 u hu).2 hm)
        refine ⟨by rw [capture_oqti, h1], by rw [capture_curDocSeq, h2],
          by rw [capture_termsDictSize, h3], ?_, ?_, ?_, ?_⟩
        · rw [e1]
          exact List.Nodup.append h4 (List.nodup_singleton u) (by simpa using hnot)
        · intro t ht
          rw [e1, e2, h2]
          by_cases htu : t = u
          · subst htu
            simp
          · rw [Function.update_noteq htu]
            rw [h5 t ht]
            simp [htu]
        · intro t ht
          rw [e2, h2]
          by_cases htu : t = u
          · subst htu
            simp
          · rw [Function.update_noteq htu]
            exact h6 t ht
        · intro t
          rw [e1, List.mem_append, h7 t]
          constructor
          · rintro (⟨a, b⟩ | a)
            · exact ⟨by simp [a], b⟩
            · have : t = u := by simpa using a
              subst this
              refine ⟨by simp, ?_⟩
              rw [← h1, hq]
              rfl
          · rintro ⟨a, b⟩
            rcases List.mem_append.1 a with a | a
            · exact Or.inl ⟨a, b⟩
            · exact Or.inr a

theorem seek_idem (d : Decoder) (did : Nat) : (d.seek did).2.seek did = d.seek did := by
  simp [Decoder.seek, List.dropWhile_idempotent]

theorem capture_consistent_capture (c : runtime_ctx) (t : Nat) (h : capture_consistent c) :
    capture_consistent (capture_matched_term c t) := by
  cases hq : c.originalQueryTermInstances t with
  | none => rw [capture_of_none c t hq]; exact h
  | some qti =>
    by_cases hf : c.curDocQueryTokensCaptured t = c.curDocSeq
    · rw [capture_of_flag c t hf]; exact h
    · obtain ⟨e1, e2⟩ := capture_of_new c t qti hq hf
      intro u hu hflag
      rw [capture_termsDictSize] at hu
      rw [capture_curDocSeq, e2] at hflag
      rw [e1]
      by_cases hut : u = t
      · subst hut; simp
      · rw [Function.update_noteq hut] at hflag
        exact List.mem_append_left _ (h u hu hflag)

theorem capture_present (c : runtime_ctx) (t : Nat) (h : capture_consistent c)
    (ht : t ≤ c.termsDictSize) (hq : (c.originalQueryTermInstances t).isSome = true) :
    t ∈ (capture_matched_term c t).matchedTermIDs := by
  cases hq2 : c.originalQueryTermInstances t with
  | none => rw [hq2] at hq; simp at hq
  | some qti =>
    by_cases hf : c.curDocQueryTokensCaptured t = c.curDocSeq
    · rw [capture_of_flag c t hf]; exact h t ht hf
    · rw [(capture_of_new c t qti hq2 hf).1]; simp

theorem seek_term_consistent (c : runtime_ctx) (t did : Nat) (h : capture_consistent c) :
    capture_consistent (seek_term c t did).2 := h

theorem matchanyterms_loop_spec (run : List Nat) :
    ∀ (res : Bool) (c : runtime_ctx), capture_consistent c →
      (∀ t ∈ run, t ≤ c.termsDictSize) →
      (matchanyterms_loop run res c).1 =
          (res || run.any (fun t => ((c.decoders t).seek c.curDocID).1)) ∧
        (∀ t, (matchanyterms_loop run res c).2.decoders t =
          if t ∈ run then ((c.decoders t).seek c.curDocID).2 else c.decoders t) ∧
        (∀ t ∈ c.matchedTermIDs, t ∈ (matchanyterms_loop run res c).2.matchedTermIDs) ∧
        (∀ t ∈ run, ((c.decoders t).seek c.curDocID).1 = true →
          (c.originalQueryTermInstances t).isSome = true →
          t ∈ (matchanyterms_loop run res c).2.matchedTermIDs) := by
  induction run with
  | nil =>
    intro res c _ _
    simp [matchanyterms_loop]
  | cons u rest ih =>
    intro res c hc hrun
    have hu : u ≤ c.termsDictSize := hrun u (by simp)
    have hrest : ∀ t ∈ rest, t ≤ c.termsDictSize := fun t ht => hrun t (by simp [ht])
    -- the state after the seek, and after the capture
    have hdec : ∀ (c1 : runtime_ctx), c1.decoders = Function.update c.decoders u
        ((c.decoders u).seek c.curDocID).2 → c1.curDocID = c.curDocID →
        ∀ t, ((c1.decoders t).seek c1.curDocID) = ((c.decoders t).seek c.curDocID) := by
      intro c1 h1 h2 t
      rw [h1, h2]
      by_cases htu : t = u
      · subst htu
        rw [Function.update_same, seek_idem]
      · rw [Function.update_noteq htu]
    have hdec2 : ∀ (c1 : runtime_ctx), c1.decoders = Function.update c.decoders u
        ((c.decoders u).seek c.curDocID).2 →
        ∀ t, (if t ∈ rest then ((c.decoders t).seek c.curDocID).2 else c1.decoders t) =
          if t ∈ u :: rest then ((c.decoders t).seek c.curDocID).2 else c.decoders t := by
      intro c1 h1 t
      rw [h1]
      by_cases htu : t = u
      · subst htu
        simp
      · simp [htu, Function.update_noteq htu]
    by_cases hs : ((c.decoders u).seek c.curDocID).1 = true
    · have hstep : matchanyterms_loop (u :: rest) res c =
          matchanyterms_loop rest true (capture_matched_term (seek_term c u c.curDocID).2 u) := by
        simp [matchanyterms_loop, seek_term, hs]
      rw [hstep]
      set c1 := capture_matched_term (seek_term c u c.curDocID).2 u with hc1
      have hc1c : capture_consistent c1 :=
        capture_consistent_capture _ _ (seek_term_consistent c u _ hc)
      have h1 : c1.decoders = Function.update c.decoders u ((c.decoders u).seek c.curDocID).2 := by
        rw [hc1, capture_decoders]; rfl
      have h2 : c1.curDocID = c.curDocID := by rw [hc1, capture_curDocID]; rfl
      have h3 : c1.termsDictSize = c.termsDictSize := by rw [hc1, capture_termsDictSize]; rfl
      have h4 : c1.originalQueryTermInstances = c.originalQueryTermInstances := by
        rw [hc1, capture_oqti]; rfl
      obtain ⟨i1, i2, i3, i4⟩ := ih true c1 hc1c (by rw [h3]; exact hrest)
      have hmono : ∀ t ∈ c.matchedTermIDs, t ∈ c1.matchedTermIDs := by
        intro t ht
        rw [hc1]
        exact capture_matched_mono _ _ _ ht
      refine ⟨?_, ?_, ?_, ?_⟩
      · rw [i1]; simp [hs]
      · intro t
        rw [i2 t, (hdec c1 h1 h2 t)]
        exact hdec2 c1 h1 t
      · intro t ht
        exact i3 t (hmono t ht)
      · intro t ht hst hq
        rcases List.mem_cons.1 ht with htu | htr
        · subst htu
          apply i3
          rw [hc1]
          exact capture_present _ _ (seek_term_consistent c t _ hc) hu hq
        · exact i4 t htr (by rw [hdec c1 h1 h2 t]; exact hst) (by rw [h4]; exact hq)
    · have hstep : matchanyterms_loop (u :: rest) res c =
          matchanyterms_loop rest res (seek_term c u c.curDocID).2 := by
        simp [matchanyterms_loop, seek_term, hs]
      rw [hstep]
      set c1 := (seek_term c u c.curDocID).2 with hc1
      have h1 : c1.decoders = Function.update c.decoders u ((c.decoders u).seek c.curDocID).2 := rfl
      have h2 : c1.curDocID = c.curDocID := rfl
      obtain ⟨i1, i2, i3, i4⟩ := ih res c1 (seek_term_consistent c u _ hc) hrest
      refine ⟨?_, ?_, ?_, ?_⟩
      · rw [i1]
        have hfun : (fun t => ((c1.decoders t).seek c1.curDocID).1) =
            (fun t => ((c.decoders t).seek c.curDocID).1) := by
          funext t; rw [hdec c1 h1 h2 t]
        rw [hfun]
        simp [hs]
      · intro t
        rw [i2 t, (hdec c1 h1 h2 t)]
        exact hdec2 c1 h1 t
      · intro t ht
        exact i3 t ht
      · intro t ht hst hq
        rcases List.mem_cons.1 ht with htu | htr
        · subst htu
          exact absurd hst hs
        · exact i4 t htr (by rw [hdec c1 h1 h2 t]; exact hst) hq

/-! ## Capture uniqueness -/

/-- C8. Capture uniqueness. From a context whose captured flags are not ahead of
`curDocSeq` (as they are from the start of `exec_query` on), after `reset(did)` and any
sequence `calls` of `capture_matched_term` calls on term ids of the dictionary:
`matchedTerms` holds at most one entry per term id; a term id has an entry exactly when
it was captured and has an `originalQueryTermInstances` entry; `matchedTermsCnt` is the
number of distinct such term ids and does not exceed the number of distinct query terms;
and the flags are again not ahead of `curDocSeq`, so the same holds after the next reset. -/
theorem capture_uniqueness (c : runtime_ctx) (did : Nat) (calls : List Nat)
    (hwf : ∀ t, t ≤ c.termsDictSize → c.curDocQueryTokensCaptured t ≤ c.curDocSeq)
    (hseq : c.curDocSeq ≤ UINT16_MAX)
    (hcalls : ∀ t ∈ calls, 1 ≤ t ∧ t ≤ c.termsDictSize) :
    (calls.foldl capture_matched_term (c.reset did)).matchedTermIDs.Nodup ∧
      (∀ t, t ∈ (calls.foldl capture_matched_term (c.reset did)).matchedTermIDs ↔
        t ∈ calls ∧ (c.originalQueryTermInstances t).isSome = true) ∧
      (calls.foldl capture_matched_term (c.reset did)).matchedTermsCnt =
        ((calls.filter (fun t => (c.originalQueryTermInstances t).isSome)).dedup).length ∧
      (calls.foldl capture_matched_term (c.reset did)).matchedTermsCnt ≤ c.termsDictSize ∧
      (∀ t, t ≤ c.termsDictSize →
        (calls.foldl capture_matched_term (c.reset did)).curDocQueryTokensCaptured t ≤
          (calls.foldl capture_matched_term (c.reset did)).curDocSeq) ∧
      (calls.foldl capture_matched_term (c.reset did)).curDocSeq ≤ UINT16_MAX := by
  have hst := reset_flags_stale c did hwf
  have hsz := reset_termsDictSize c did
  have hb := reset_curDocSeq_bounds c did hseq
  obtain ⟨h1, h2, h3, h4, h5, h6, h7⟩ := foldl_capture_inv (c.reset did)
    (by rw [hsz]; exact hst) (reset_matchedTermIDs c did) calls
    (by rw [hsz]; exact fun t ht => (hcalls t ht).2)
  rw [reset_oqti] at h7
  have hmem : ∀ t, t ∈ (calls.foldl capture_matched_term (c.reset did)).matchedTermIDs ↔
      t ∈ (calls.filter (fun t => (c.originalQueryTermInstances t).isSome)).dedup := by
    intro t
    rw [h7 t, List.mem_dedup, List.mem_filter]
  have hperm := (List.perm_ext_iff_of_nodup h4 (List.nodup_dedup _)).2 hmem
  have hlen : (calls.foldl capture_matched_term (c.reset did)).matchedTermsCnt =
      (calls.foldl capture_matched_term (c.reset did)).matchedTermIDs.length := by
    simp [runtime_ctx.matchedTermsCnt, runtime_ctx.matchedTermIDs]
  refine ⟨h4, h7, ?_, ?_, ?_, ?_⟩
  · rw [hlen]; exact hperm.length_eq
  · rw [hlen]
    have hsub : (calls.foldl capture_matched_term (c.reset did)).matchedTermIDs.toFinset ⊆
        Finset.Icc 1 c.termsDictSize := by
      intro t ht
      rw [List.mem_toFinset, h7 t] at ht
      exact Finset.mem_Icc.2 (hcalls t ht.1)
    have := Finset.card_le_card hsub
    rw [List.toFinset_card_of_nodup h4] at this
    simpa using this
  · intro t ht
    rw [h2]
    exact h6 t (by rw [hsz]; exact ht)
  · rw [h2]; exact hb.2

theorem capture_uniqueness_witness :
    (([1, 3, 2, 1, 2].foldl capture_matched_term (capture_fixture.reset 2)).matchedTermIDs.Nodup ∧
      (∀ t, t ∈ ([1, 3, 2, 1, 2].foldl capture_matched_term (capture_fixture.reset 2)).matchedTermIDs ↔
        t ∈ [1, 3, 2, 1, 2] ∧ (capture_fixture.originalQueryTermInstances t).isSome = true) ∧
      ([1, 3, 2, 1, 2].foldl capture_matched_term (capture_fixture.reset 2)).matchedTermsCnt =
        (([1, 3, 2, 1, 2].filter
          (fun t => (capture_fixture.originalQueryTermInstances t).isSome)).dedup).length ∧
      ([1, 3, 2, 1, 2].foldl capture_matched_term (capture_fixture.reset 2)).matchedTermsCnt ≤
        capture_fixture.termsDictSize ∧
      (∀ t, t ≤ capture_fixture.termsDictSize →
        ([1, 3, 2, 1, 2].foldl capture_matched_term
            (capture_fixture.reset 2)).curDocQueryTokensCaptured t ≤
          ([1, 3, 2, 1, 2].foldl capture_matched_term (capture_fixture.reset 2)).curDocSeq) ∧
      ([1, 3, 2, 1, 2].foldl capture_matched_term (capture_fixture.reset 2)).curDocSeq ≤
        UINT16_MAX) ∧
    ([1, 3, 2, 1, 2].foldl capture_matched_term (capture_fixture.reset 2)).matchedTermIDs = [1, 2] :=
  ⟨capture_uniqueness capture_fixture 2 [1, 3, 2, 1, 2]
    (by intro t _; simp [capture_fixture, initial_ctx])
    (by simp [capture_fixture, initial_ctx])
    (by decide), by decide⟩

theorem matchanyterms_loop_res (run : List Nat) : ∀ (res : Bool) (c : runtime_ctx),
    matchanyterms_loop run res c =
      (res || (matchanyterms_loop run false c).1, (matchanyterms_loop run false c).2) := by
  induction run with
  | nil => intro res c; simp [matchanyterms_loop]
  | cons u rest ih =>
    intro res c
    simp only [matchanyterms_loop]
    split
    · rw [ih true]; simp
    · rw [ih res]

theorem matchanyterms_loop_append (a b : List Nat) : ∀ (res : Bool) (c : runtime_ctx),
    matchanyterms_loop (a ++ b) res c =
      matchanyterms_loop b (matchanyterms_loop a res c).1 (matchanyterms_loop a res c).2 := by
  induction a with
  | nil => intro res c; simp [matchanyterms_loop]
  | cons u rest ih =>
    intro res c
    simp only [List.cons_append, matchanyterms_loop]
    split
    · exact ih true _
    · exact ih res _

theorem eval_matchterm_eq_loop (t : Nat) (c : runtime_ctx) :
    eval (.matchterm_impl t) c = matchanyterms_loop [t] false c := by
  simp only [eval, matchanyterms_loop]

theorem eval_matchanyterms_eq_loop (run : List Nat) (c : runtime_ctx) :
    eval (.matchanyterms_impl run) c = matchanyterms_loop run false c := rfl

/-- Every OR that `compile` fuses evaluates as its two operands in sequence. -/
theorem eval_compile_or (l r : exec_node) (c : runtime_ctx)
    (h1 : (eval l c).1 = true) (h2 : (eval r (eval l c).2).1 = true) :
    eval (compile_or l r) c = (true, (eval r (eval l c).2).2) := by
  unfold compile_or
  split
  · rename_i t1 t2
    simp only [eval_matchterm_eq_loop] at h1 h2 ⊢
    rw [eval_matchanyterms_eq_loop]
    show matchanyterms_loop ([t1] ++ [t2]) false c = _
    rw [matchanyterms_loop_append, matchanyterms_loop_res [t2], h2]
    simp
  · rename_i t run
    simp only [eval_matchterm_eq_loop, eval_matchanyterms_eq_loop] at h1 h2 ⊢
    show matchanyterms_loop ([t] ++ run) false c = _
    rw [matchanyterms_loop_append, matchanyterms_loop_res run, h2]
    simp
  · rename_i run t
    simp only [eval_matchterm_eq_loop, eval_matchanyterms_eq_loop] at h1 h2 ⊢
    rw [matchanyterms_loop_append, matchanyterms_loop_res [t], h2]
    simp
  · rename_i run1 run2
    simp only [eval_matchanyterms_eq_loop] at h1 h2 ⊢
    rw [matchanyterms_loop_append, matchanyterms_loop_res run2, h2]
    simp
  · simp only [eval, h1, if_true]
    rw [← h2]

theorem foldl_capture_mono (l : List Nat) : ∀ (c : runtime_ctx) (t : Nat),
    t ∈ c.matchedTermIDs → t ∈ (l.foldl capture_matched_term c).matchedTermIDs := by
  induction l with
  | nil => intro c t h; exact h
  | cons u rest ih =>
    intro c t h
    exact ih _ t (capture_matched_mono c u t h)

theorem materialize_matched (c : runtime_ctx) (t : Nat) :
    (materialize_term_hits c t).matchedTermIDs = c.matchedTermIDs := by
  unfold materialize_term_hits
  split <;> rfl

theorem matchphrase_seek_rest_matched (l : List Nat) : ∀ (c : runtime_ctx),
    (matchphrase_seek_rest l c).2.matchedTermIDs = c.matchedTermIDs := by
  induction l with
  | nil => intro c; rfl
  | cons u rest ih =>
    intro c
    simp only [matchphrase_seek_rest]
    split
    · rw [ih, materialize_matched]; rfl
    · rfl

theorem matchallterms_loop_mono (l : List Nat) : ∀ (c : runtime_ctx) (t : Nat),
    t ∈ c.matchedTermIDs → t ∈ (matchallterms_loop l c).2.matchedTermIDs := by
  induction l with
  | nil => intro c t h; exact h
  | cons u rest ih =>
    intro c t h
    simp only [matchallterms_loop]
    split
    · exact ih _ t (capture_matched_mono _ u t h)
    · exact h

theorem matchanyterms_loop_mono (l : List Nat) : ∀ (res : Bool) (c : runtime_ctx) (t : Nat),
    t ∈ c.matchedTermIDs → t ∈ (matchanyterms_loop l res c).2.matchedTermIDs := by
  induction l with
  | nil => intro res c t h; exact h
  | cons u rest ih =>
    intro res c t h
    simp only [matchanyterms_loop]
    split
    · exact ih _ _ t (capture_matched_mono _ u t h)
    · exact ih _ _ t h

theorem matchphrase_mono (p : exec_phrase) (c : runtime_ctx) (t : Nat)
    (h : t ∈ c.matchedTermIDs) : t ∈ (matchphrase p c).2.matchedTermIDs := by
  unfold matchphrase
  split
  · exact h
  · rename_i first rest _
    have h1 : t ∈ (seek_term c first c.curDocID).2.matchedTermIDs := h
    have h2 : t ∈ (matchphrase_seek_rest rest (seek_term c first c.curDocID).2).2.matchedTermIDs := by
      rw [matchphrase_seek_rest_matched]; exact h1
    have h3 : t ∈ (materialize_term_hits
        (matchphrase_seek_rest rest (seek_term c first c.curDocID).2).2 first).matchedTermIDs := by
      rw [materialize_matched]; exact h2
    simp only
    split
    · split
      · split
        · exact foldl_capture_mono _ _ t h3
        · exact h3
      · exact h2
    · exact h1

/-- Evaluation never removes an entry of `matchedTerms`. -/
theorem eval_matched_mono (n : exec_node) : ∀ (c : runtime_ctx) (t : Nat),
    t ∈ c.matchedTermIDs → t ∈ (eval n c).2.matchedTermIDs := by
  induction n with
  | noop_impl => intro c t h; exact h
  | matchterm_impl u =>
    intro c t h
    simp only [eval]
    split
    · exact capture_matched_mono _ u t h
    · exact h
  | matchphrase_impl p => intro c t h; exact matchphrase_mono p c t h
  | matchallterms_impl run => intro c t h; exact matchallterms_loop_mono run c t h
  | matchanyterms_impl run => intro c t h; exact matchanyterms_loop_mono run false c t h
  | unaryand_impl e ih => intro c t h; exact ih c t h
  | unarynot_impl e ih => intro c t h; exact ih c t h
  | consttrueexpr_impl e ih => intro c t h; exact ih c t h
  | logicaland_impl l r ihl ihr =>
    intro c t h
    simp only [eval]
    split
    · exact ihr _ t (ihl c t h)
    · exact ihl c t h
  | logicalnot_impl l r ihl ihr =>
    intro c t h
    simp only [eval]
    split
    · exact ihr _ t (ihl c t h)
    · exact ihl c t h
  | logicalor_impl l r ihl ihr =>
    intro c t h
    exact ihr _ t (ihl c t h)

/-! ## OR collects both sides -/

/-- C9. OR collects both sides. For the node `compile` builds for an OR from its
compiled operands `l` and `r` (a fused `MatchAnyTerms` run or the non-fused binop): on a
document where `l` evaluates true and `r`, evaluated after it, evaluates true, the node
evaluates to true and leaves exactly the state of evaluating `l` and then `r`, so both
were evaluated, and every term `l` captured is still in `matchedTerms` next to those of
`r`. For a `MatchAnyTerms` run (flags consistent, term ids of the dictionary): the result
is true iff some term of the run is on the document, every term of the run has been
seeked, and every term of the run that is on the document and has an
`originalQueryTermInstances` entry is in `matchedTerms`. -/
theorem or_collects_both_sides :
    (∀ (l r : exec_node) (c : runtime_ctx),
      (eval l c).1 = true → (eval r (eval l c).2).1 = true →
        eval (compile_or l r) c = (true, (eval r (eval l c).2).2) ∧
        (∀ t ∈ (eval l c).2.matchedTermIDs, t ∈ (eval (compile_or l r) c).2.matchedTermIDs)) ∧
    (∀ (run : List Nat) (c : runtime_ctx), capture_consistent c →
      (∀ t ∈ run, t ≤ c.termsDictSize) →
        ((eval (.matchanyterms_impl run) c).1 = true ↔
          ∃ t ∈ run, ((c.decoders t).seek c.curDocID).1 = true) ∧
        (∀ t ∈ run, (eval (.matchanyterms_impl run) c).2.decoders t =
          ((c.decoders t).seek c.curDocID).2) ∧
        (∀ t ∈ run, ((c.decoders t).seek c.curDocID).1 = true →
          (c.originalQueryTermInstances t).isSome = true →
          t ∈ (eval (.matchanyterms_impl run) c).2.matchedTermIDs)) := by
  constructor
  · intro l r c h1 h2
    have h := eval_compile_or l r c h1 h2
    refine ⟨h, ?_⟩
    intro t ht
    rw [h]
    exact eval_matched_mono r _ t ht
  · intro run c hc hrun
    obtain ⟨i1, i2, _, i4⟩ := matchanyterms_loop_spec run false c hc hrun
    refine ⟨?_, ?_, ?_⟩
    · show (matchanyterms_loop run false c).1 = true ↔ _
      rw [i1]
      simp
    · intro t ht
      show (matchanyterms_loop run false c).2.decoders t = _
      rw [i2 t, if_pos ht]
    · intro t ht hs hq
      exact i4 t ht hs hq

theorem or_collects_both_sides_witness :
    (eval (compile_or (.matchterm_impl 1) (.matchallterms_impl [2, 1]))
        (capture_fixture.reset 2)).1 = true ∧
      2 ∈ (eval (.matchanyterms_impl [1, 2, 3]) (capture_fixture.reset 2)).2.matchedTermIDs :=
  ⟨by
    rw [(or_collects_both_sides.1 (.matchterm_impl 1) (.matchallterms_impl [2, 1])
      (capture_fixture.reset 2) (by decide) (by decide)).1],
   (or_collects_both_sides.2 [1, 2, 3] (capture_fixture.reset 2)
      (by
        intro t ht hflag
        have h3 : t ≤ 3 := ht
        have h0 : (capture_fixture.reset 2).curDocQueryTokensCaptured t = 0 := by
          simp only [capture_fixture, initial_ctx, runtime_ctx.reset, if_true]
          split <;> rfl
        rw [h0] at hflag
        exact absurd hflag (by decide))
      (by decide)).2.2 2 (by decide) (by decide) (by decide)⟩

theorem lookup_inj (dict : TermsDict) (a b : str8_t)
    (h : dict.lookup a = dict.lookup b) (h0 : dict.lookup a ≠ 0) : a = b := by
  induction dict with
  | nil => simp [TermsDict.lookup] at h0
  | cons t ts ih =>
    simp only [TermsDict.lookup] at h h0
    by_cases hta : t = a
    · by_cases htb : t = b
      · rw [← hta, ← htb]
      · rw [if_pos hta, if_neg htb] at h
        split at h <;> omega
    · by_cases htb : t = b
      · rw [if_neg hta, if_pos htb] at h
        split at h <;> omega
      · rw [if_neg hta] at h h0
        rw [if_neg htb] at h
        by_cases ha0 : TermsDict.lookup ts a = 0
        · rw [if_pos ha0] at h0
          exact absurd rfl h0
        · rw [if_neg ha0] at h
          by_cases hb0 : TermsDict.lookup ts b = 0
          · rw [if_pos hb0] at h
            omega
          · rw [if_neg hb0] at h
            exact ih (by omega) ha0

theorem collect_loop_sound (T : str8_t) : ∀ (fuel : Nat) (stack : List ast_node)
    (acc r : List phrase), collect_loop fuel stack acc = some r →
    ∀ p ∈ r, T ∈ p.terms →
      (∃ q ∈ acc, T ∈ q.terms) ∨ ∃ n ∈ stack, occurs_outside_not T n = true := by
  intro fuel
  induction fuel with
  | zero =>
    intro stack acc r h p hp hT
    cases stack with
    | nil =>
      simp only [collect_loop, Option.some.injEq] at h
      subst h
      exact Or.inl ⟨p, hp, hT⟩
    | cons n s => simp [collect_loop] at h
  | succ fuel ih =>
    intro stack acc r h p hp hT
    cases stack with
    | nil =>
      simp only [collect_loop, Option.some.injEq] at h
      subst h
      exact Or.inl ⟨p, hp, hT⟩
    | cons n s =>
      cases n with
      | Token q =>
        simp only [collect_loop] at h
        rcases ih _ _ _ h p hp hT with ⟨q1, hq1, hq1T⟩ | ⟨n, hn, hnT⟩
        · rcases List.mem_append.1 hq1 with hq1 | hq1
          · exact Or.inl ⟨q1, hq1, hq1T⟩
          · have : q1 = q := by simpa using hq1
            subst this
            exact Or.inr ⟨.Token q1, by simp, by simp [occurs_outside_not, hq1T]⟩
        · exact Or.inr ⟨n, by simp [hn], hnT⟩
      | Phrase q =>
        simp only [collect_loop] at h
        rcases ih _ _ _ h p hp hT with ⟨q1, hq1, hq1T⟩ | ⟨n, hn, hnT⟩
        · rcases List.mem_append.1 hq1 with hq1 | hq1
          · exact Or.inl ⟨q1, hq1, hq1T⟩
          · have : q1 = q := by simpa using hq1
            subst this
            exact Or.inr ⟨.Phrase q1, by simp, by simp [occurs_outside_not, hq1T]⟩
        · exact Or.inr ⟨n, by simp [hn], hnT⟩
      | BinOp op lhs rhs =>
        simp only [collect_loop] at h
        split at h
        · rename_i hop
          rcases ih _ _ _ h p hp hT with hacc | ⟨n, hn, hnT⟩
          · exact Or.inl hacc
          · rcases List.mem_cons.1 hn with hn | hn
            · subst hn
              refine Or.inr ⟨.BinOp op lhs n, by simp, ?_⟩
              rcases hop with hop | hop | hop <;> subst hop <;> simp [occurs_outside_not, hnT]
            · rcases List.mem_cons.1 hn with hn | hn
              · subst hn
                refine Or.inr ⟨.BinOp op n rhs, by simp, ?_⟩
                rcases hop with hop | hop | hop <;> subst hop <;> simp [occurs_outside_not, hnT]
              · exact Or.inr ⟨n, by simp [hn], hnT⟩
        · split at h
          · rename_i hop
            subst hop
            rcases ih _ _ _ h p hp hT with hacc | ⟨n, hn, hnT⟩
            · exact Or.inl hacc
            · rcases List.mem_cons.1 hn with hn | hn
              · subst hn
                exact Or.inr ⟨.BinOp .NOT n rhs, by simp, by simp [occurs_outside_not, hnT]⟩
              · exact Or.inr ⟨n, by simp [hn], hnT⟩
          · rcases ih _ _ _ h p hp hT with hacc | ⟨n, hn, hnT⟩
            · exact Or.inl hacc
            · exact Or.inr ⟨n, by simp [hn], hnT⟩
      | UnaryOp op expr =>
        simp only [collect_loop] at h
        split at h
        · rename_i hop
          rcases ih _ _ _ h p hp hT with hacc | ⟨n, hn, hnT⟩
          · exact Or.inl hacc
          · rcases List.mem_cons.1 hn with hn | hn
            · subst hn
              refine Or.inr ⟨.UnaryOp op n, by simp, ?_⟩
              cases op <;> simp_all [occurs_outside_not]
            · exact Or.inr ⟨n, by simp [hn], hnT⟩
        · rcases ih _ _ _ h p hp hT with hacc | ⟨n, hn, hnT⟩
          · exact Or.inl hacc
          · exact Or.inr ⟨n, by simp [hn], hnT⟩
      | ConstTrueExpr expr =>
        simp only [collect_loop] at h
        rcases ih _ _ _ h p hp hT with hacc | ⟨n, hn, hnT⟩
        · exact Or.inl hacc
        · rcases List.mem_cons.1 hn with hn | hn
          · subst hn
            exact Or.inr ⟨.ConstTrueExpr n, by simp, by simp [occurs_outside_not, hnT]⟩
          · exact Or.inr ⟨n, by simp [hn], hnT⟩
      | ConstFalse =>
        simp only [collect_loop] at h
        rcases ih _ _ _ h p hp hT with hacc | ⟨n, hn, hnT⟩
        · exact Or.inl hacc
        · exact Or.inr ⟨n, by simp [hn], hnT⟩
      | Dummy =>
        simp only [collect_loop] at h
        rcases ih _ _ _ h p hp hT with hacc | ⟨n, hn, hnT⟩
        · exact Or.inl hacc
        · exact Or.inr ⟨n, by simp [hn], hnT⟩

theorem phrase_instances_token (rep flags : Nat) (terms : List str8_t) : ∀ (pos : Nat),
    ∀ i ∈ phrase_instances rep flags terms pos, i.token ∈ terms := by
  induction terms with
  | nil => intro pos i hi; simp [phrase_instances] at hi
  | cons t ts ih =>
    intro pos i hi
    simp only [phrase_instances, List.mem_cons] at hi
    rcases hi with hi | hi
    · subst hi; simp
    · exact List.mem_cons_of_mem _ (ih _ i hi)

theorem token_instances_token (collected : List phrase) :
    ∀ i ∈ token_instances collected, ∃ p ∈ collected, i.token ∈ p.terms := by
  induction collected with
  | nil => intro i hi; simp [token_instances] at hi
  | cons it rest ih =>
    intro i hi
    simp only [token_instances, List.mem_append] at hi
    rcases hi with hi | hi
    · exact ⟨it, by simp, phrase_instances_token _ _ _ _ i hi⟩
    · obtain ⟨p, hp, hpt⟩ := ih i hi
      exact ⟨p, by simp [hp], hpt⟩

theorem take_run_rest_subset (token : str8_t) (l : List query_term_instance) :
    ∀ i ∈ (take_run token l).2, i ∈ l := by
  induction l with
  | nil => intro i hi; simp [take_run] at hi
  | cons x0 rest ih =>
    intro i hi
    cases rest with
    | nil => simp [take_run] at hi
    | cons x1 rest2 =>
      simp only [take_run] at hi
      split at hi
      · exact List.mem_cons_of_mem _ (ih i hi)
      · exact List.mem_cons_of_mem _ hi

theorem skip_unused_subset (token : str8_t) : ∀ (n : Nat) (l r : List query_term_instance),
    l.length ≤ n → skip_unused token l = some r → ∀ i ∈ r, i ∈ l := by
  intro n
  induction n with
  | zero =>
    intro l r hl h i hi
    cases l with
    | nil => simp [skip_unused] at h
    | cons a l => simp at hl
  | succ n ih =>
    intro l r hl h i hi
    match l, h with
    | [], h => simp [skip_unused] at h
    | [_], h => simp [skip_unused] at h
    | [_, _], h =>
      simp only [skip_unused, Option.some.injEq] at h
      subst h
      simp at hi
    | a :: b :: x2 :: rest, h =>
      simp only [skip_unused] at h
      split at h
      · have := ih (x2 :: rest) r (by simp at hl ⊢; omega) h i hi
        exact List.mem_cons_of_mem _ (List.mem_cons_of_mem _ this)
      · simp only [Option.some.injEq] at h
        subst h
        exact List.mem_cons_of_mem _ (List.mem_cons_of_mem _ hi)

theorem build_loop_sound (dict : TermsDict) : ∀ (fuel : Nat) (l : List query_term_instance)
    (tbl tbl2 : oqti_table), build_loop dict fuel l tbl = some tbl2 →
    ∀ id, tbl2 id ≠ tbl id → ∃ i ∈ l, dict.lookup i.token = id ∧ id ≠ 0 := by
  intro fuel
  induction fuel with
  | zero =>
    intro l tbl tbl2 h id hne
    cases l with
    | nil =>
      simp only [build_loop, Option.some.injEq] at h
      subst h
      exact absurd rfl hne
    | cons p rest => simp [build_loop] at h
  | succ fuel ih =>
    intro l tbl tbl2 h id hne
    cases l with
    | nil =>
      simp only [build_loop, Option.some.injEq] at h
      subst h
      exact absurd rfl hne
    | cons p rest =>
      simp only [build_loop] at h
      split at h
      · rename_i hid
        by_cases hidp : id = dict.lookup p.token
        · exact ⟨p, by simp, hidp.symm, by rw [hidp]; exact hid⟩
        · have hne2 : tbl2 id ≠ (Function.update tbl (dict.lookup p.token)
              (some (make_instances (dict.lookup p.token) p.token
                (take_run p.token (p :: rest)).1))) id := by
            rw [Function.update_noteq hidp]; exact hne
          obtain ⟨i, hi, hil, hi0⟩ := ih _ _ _ h id hne2
          exact ⟨i, take_run_rest_subset _ _ i hi, hil, hi0⟩
      · split at h
        · simp at h
        · rename_i rest2 hskip
          obtain ⟨i, hi, hil, hi0⟩ := ih _ _ _ h id hne
          exact ⟨i, skip_unused_subset _ _ _ _ (le_refl _) hskip i hi, hil, hi0⟩
theorem nodes_pos (n : ast_node) : 1 ≤ n.nodes := by
  cases n <;> simp [ast_node.nodes]

theorem collect_loop_total : ∀ (fuel : Nat) (stack : List ast_node) (acc : List phrase),
    (stack.map ast_node.nodes).sum ≤ fuel → (collect_loop fuel stack acc).isSome = true := by
  intro fuel
  induction fuel with
  | zero =>
    intro stack acc h
    cases stack with
    | nil => simp [collect_loop]
    | cons n s =>
      have := nodes_pos n
      simp at h
      omega
  | succ fuel ih =>
    intro stack acc h
    cases stack with
    | nil => simp [collect_loop]
    | cons n s =>
      simp only [List.map_cons, List.sum_cons] at h
      cases n with
      | Token q => simp only [collect_loop]; exact ih _ _ (by simp [ast_node.nodes] at h; omega)
      | Phrase q => simp only [collect_loop]; exact ih _ _ (by simp [ast_node.nodes] at h; omega)
      | BinOp op lhs rhs =>
        simp only [collect_loop]
        simp only [ast_node.nodes] at h
        have h1 := nodes_pos lhs
        have h2 := nodes_pos rhs
        split
        · exact ih _ _ (by simp; omega)
        · split
          · exact ih _ _ (by simp; omega)
          · exact ih _ _ (by omega)
      | UnaryOp op expr =>
        simp only [collect_loop]
        simp only [ast_node.nodes] at h
        split
        · exact ih _ _ (by simp; omega)
        · exact ih _ _ (by omega)
      | ConstTrueExpr expr =>
        simp only [collect_loop]
        simp only [ast_node.nodes] at h
        exact ih _ _ (by simp; omega)
      | ConstFalse => simp only [collect_loop]; exact ih _ _ (by simp [ast_node.nodes] at h; omega)
      | Dummy => simp only [collect_loop]; exact ih _ _ (by simp [ast_node.nodes] at h; omega)

/-- The collection loop always empties its stack within `root.nodes` iterations. -/
theorem collect_phrases_total (root : ast_node) : (collect_phrases root).isSome = true :=
  collect_loop_total _ _ _ (by simp)

/-! ## NOT suppresses capture -/

/-- C10. NOT suppresses capture. If every occurrence of the term `T` in the query lies
beneath the right-hand side of a binary NOT or beneath a unary NOT, then no phrase that
the collection pass collects contains `T`, the table of original query term instances
that `exec_query` builds has a null entry at the id of `T`, and `capture_matched_term` on
that id leaves the runtime context, and so `matchedDocument`, unchanged. -/
theorem not_suppresses_capture (root : ast_node) (dict : TermsDict)
    (lt : str8_t → str8_t → Bool) (T : str8_t) (tbl : oqti_table)
    (hT : occurs_outside_not T root = false)
    (hb : oqti_of_query dict lt root = some tbl) :
    (∃ collected, collect_phrases root = some collected ∧ ∀ p ∈ collected, T ∉ p.terms) ∧
      tbl (dict.lookup T) = none ∧
      ∀ c : runtime_ctx, c.originalQueryTermInstances = tbl →
        capture_matched_term c (dict.lookup T) = c := by
  unfold oqti_of_query at hb
  cases hc : collect_phrases root with
  | none => rw [hc] at hb; simp at hb
  | some collected =>
    rw [hc] at hb
    simp only at hb
    have hnot : ∀ p ∈ collected, T ∉ p.terms := by
      intro p hp hTp
      rcases collect_loop_sound T _ _ _ _ hc p hp hTp with ⟨q, hq, _⟩ | ⟨n, hn, hnT⟩
      · simp at hq
      · have : n = root := by simpa using hn
        subst this
        rw [hT] at hnT
        exact absurd hnT (by decide)
    have hnone : tbl (dict.lookup T) = none := by
      by_contra hne
      obtain ⟨i, hi, hil, hi0⟩ := build_loop_sound dict _ _ _ _ hb (dict.lookup T) hne
      have hi2 : i ∈ token_instances collected := (List.perm_insertionSort _ _).mem_iff.1 hi
      obtain ⟨p, hp, hpt⟩ := token_instances_token collected i hi2
      have : i.token = T := lookup_inj dict _ _ hil (by rw [hil]; exact hi0)
      rw [this] at hpt
      exact hnot p hp hpt
    refine ⟨⟨collected, rfl, hnot⟩, hnone, ?_⟩
    intro c hctbl
    exact capture_of_none c _ (by rw [hctbl]; exact hnone)

theorem not_suppresses_capture_witness :
    occurs_outside_not phone query_apple_not_phone = false ∧
      (oqti_of_query [apple, phone] terms_lt query_apple_not_phone).isSome = true ∧
      ∀ tbl, oqti_of_query [apple, phone] terms_lt query_apple_not_phone = some tbl →
        tbl (TermsDict.lookup [apple, phone] phone) = none :=
  ⟨by decide, by decide, fun tbl h =>
    (not_suppresses_capture query_apple_not_phone [apple, phone] terms_lt phone tbl
      (by decide) h).2.1⟩

/-! ## Integer block codec -/

namespace Lucene

theorem getD_append_cons (pre : List Nat) (x : Nat) (t : List Nat) :
    (pre ++ x :: t).getD pre.length 0 = x := by
  rw [List.getD_eq_getElem?_getD, List.getElem?_append_right (le_refl _)]
  simp

theorem drop_append_cons (pre : List Nat) (x : Nat) (t : List Nat) :
    (pre ++ x :: t).drop (pre.length + 1) = t := by
  rw [← List.drop_drop, List.drop_left]
  simp

theorem varbyte_loop_round_trip (rest : List Nat) : ∀ (fuel n : Nat), n < 128 ^ (fuel + 1) →
    varbyte_get32 (encode_varbyte32_loop fuel n ++ rest) =
      (n, (encode_varbyte32_loop fuel n).length) := by
  intro fuel
  induction fuel with
  | zero =>
    intro n hn
    have h : n < 128 := by simpa using hn
    simp [encode_varbyte32_loop, varbyte_get32, Nat.mod_eq_of_lt h, h]
  | succ fuel ih =>
    intro n hn
    simp only [encode_varbyte32_loop]
    by_cases h : n < 128
    · simp [h, varbyte_get32]
    · rw [if_neg h]
      have hdiv : n / 128 < 128 ^ (fuel + 1) := by
        rw [Nat.div_lt_iff_lt_mul (by norm_num)]
        calc n < 128 ^ (fuel + 1 + 1) := hn
          _ = 128 ^ (fuel + 1) * 128 := by ring
      have hb : ¬ (n % 128 + 128 < 128) := by omega
      show varbyte_get32 ((n % 128 + 128) :: (encode_varbyte32_loop fuel (n / 128) ++ rest)) = _
      rw [varbyte_get32, if_neg hb, ih _ hdiv]
      simp only [List.length_cons, Prod.mk.injEq, and_true]
      omega

theorem varbyte_round_trip (v : Nat) (rest : List Nat) :
    varbyte_get32 (encode_varbyte32 v ++ rest) = (v % 2 ^ 32, (encode_varbyte32 v).length) := by
  unfold encode_varbyte32
  exact varbyte_loop_round_trip rest 4 _ (lt_of_lt_of_le (Nat.mod_lt _ (by norm_num)) (by norm_num))

theorem encode_varbyte32_length_pos (v : Nat) : 0 < (encode_varbyte32 v).length := by
  unfold encode_varbyte32 encode_varbyte32_loop
  split <;> simp

theorem vbyte_round_trip (rest : List Nat) : ∀ (xs : List Nat), (∀ x ∈ xs, x < 2 ^ 32) →
    masked_vbyte_decode (vbyte_encode xs ++ rest) xs.length = (xs, (vbyte_encode xs).length) := by
  intro xs
  induction xs with
  | nil => intro _; simp [masked_vbyte_decode, vbyte_encode]
  | cons x xs ih =>
    intro h
    have hx : x < 2 ^ 32 := h x (by simp)
    have hxs : ∀ y ∈ xs, y < 2 ^ 32 := fun y hy => h y (by simp [hy])
    simp only [vbyte_encode, List.length_cons, masked_vbyte_decode, List.append_assoc,
      varbyte_round_trip, List.drop_left, ih hxs, List.length_append, Nat.mod_mod]
    rw [Nat.mod_eq_of_lt hx]

theorem vbyte_config_codec_ok (blockSize : Nat) (freq1 : Bool) :
    (vbyte_config blockSize freq1).codec_ok := by
  intro xs rest hlen h32
  have := vbyte_round_trip rest xs h32
  simp only [vbyte_config] at hlen ⊢
  rw [← hlen]
  exact this

theorem all_equal_spec (values : Nat → Nat) (n : Nat) (h : all_equal values n = true) :
    ∀ i < n, values i = values 0 := by
  intro i hi
  unfold all_equal at h
  rw [List.all_eq_true] at h
  have := h i (List.mem_range.2 hi)
  rcases of_decide_eq_true this with h0 | h0
  · rw [h0]
  · exact h0

theorem array_first_length (a : Nat → Nat) (n : Nat) : (array_first a n).length = n := by
  simp [array_first]

theorem array_first_getD (a : Nat → Nat) (n i : Nat) (h : i < n) :
    (array_first a n).getD i 0 = a i := by
  simp [array_first, List.getD_eq_getElem?_getD, h]

/-- C3 (amended). Integer block codec round trip for the lengths the encoder passes.
Given an external block codec that reads back a full block, for `n = BLOCK_SIZE` and
every array `xs` of 32-bit values, and for every `n <= BLOCK_SIZE` when the `n` values
are all equal, `ints_decode` applied (at any offset of a buffer, whatever follows) to the
bytes written by `ints_encode(xs, n)` returns a cursor advanced by exactly the number of
bytes written, reproduces `xs` in the first `n` output slots, and writes no slot at or
beyond `BLOCK_SIZE`. -/
theorem ints_round_trip (cfg : Config) (hok : cfg.codec_ok) (xs : Nat → Nat) (n : Nat)
    (h32 : ∀ i < n, xs i < 2 ^ 32)
    (hn : n = cfg.BLOCK_SIZE ∨ (n ≤ cfg.BLOCK_SIZE ∧ all_equal xs n = true))
    (pre rest : List Nat) (vals : Nat → Nat) :
    (ints_decode cfg (pre ++ ints_encode cfg xs n ++ rest) pre.length vals).1 =
        pre.length + (ints_encode cfg xs n).length ∧
      (∀ i < n, (ints_decode cfg (pre ++ ints_encode cfg xs n ++ rest) pre.length vals).2 i =
        xs i) ∧
      (∀ i, cfg.BLOCK_SIZE ≤ i →
        (ints_decode cfg (pre ++ ints_encode cfg xs n ++ rest) pre.length vals).2 i = vals i) := by
  by_cases heq : all_equal xs n = true
  · have hle : n ≤ cfg.BLOCK_SIZE := by
      rcases hn with hn | hn
      · omega
      · exact hn.1
    have henc : ints_encode cfg xs n = 0 :: encode_varbyte32 (xs 0) := by
      simp [ints_encode, heq]
    have hmem : pre ++ ints_encode cfg xs n ++ rest =
        pre ++ (0 :: (encode_varbyte32 (xs 0) ++ rest)) := by
      rw [henc]; simp
    have hget : (pre ++ (0 :: (encode_varbyte32 (xs 0) ++ rest))).getD pre.length 0 = 0 :=
      getD_append_cons _ _ _
    have hdrop : (pre ++ (0 :: (encode_varbyte32 (xs 0) ++ rest))).drop (pre.length + 1) =
        encode_varbyte32 (xs 0) ++ rest := drop_append_cons _ _ _
    rw [hmem]
    unfold ints_decode
    simp only [hget, if_true, hdrop, varbyte_round_trip]
    refine ⟨?_, ?_, ?_⟩
    · rw [henc]; simp; omega
    · intro i hi
      rw [if_pos (by omega)]
      rw [all_equal_spec xs n heq i hi]
      simp only [Nat.mod_mod]
      have h0 : xs 0 < 2 ^ 32 := by
        have := h32 i hi
        rwa [all_equal_spec xs n heq i hi] at this
      exact Nat.mod_eq_of_lt h0
    · intro i hi
      rw [if_neg (by omega)]
  · have hnB : n = cfg.BLOCK_SIZE := by
      rcases hn with hn | hn
      · exact hn
      · exact absurd hn.2 heq
    have henc : ints_encode cfg xs n = 1 :: cfg.block_encode (array_first xs n) := by
      simp [ints_encode, heq]
    have hmem : pre ++ ints_encode cfg xs n ++ rest =
        pre ++ (1 :: (cfg.block_encode (array_first xs n) ++ rest)) := by
      rw [henc]; simp
    have hget : (pre ++ (1 :: (cfg.block_encode (array_first xs n) ++ rest))).getD pre.length 0
        = 1 := getD_append_cons _ _ _
    have hdrop : (pre ++ (1 :: (cfg.block_encode (array_first xs n) ++ rest))).drop
        (pre.length + 1) = cfg.block_encode (array_first xs n) ++ rest :=
      drop_append_cons _ _ _
    have hcodec := hok (array_first xs n) rest (by rw [array_first_length, hnB])
      (by
        intro x hx
        simp only [array_first, List.mem_map, List.mem_range] at hx
        obtain ⟨i, hi, hix⟩ := hx
        rw [← hix]
        exact h32 i hi)
    rw [hmem]
    unfold ints_decode
    simp only [hget, one_ne_zero, if_false, hdrop, hcodec]
    refine ⟨?_, ?_, ?_⟩
    · rw [henc]; simp; omega
    · intro i hi
      simp only [array_fill]
      rw [if_pos (by omega)]
      exact array_first_getD xs n i hi
    · intro i hi
      simp only [array_fill]
      rw [if_neg (by omega)]


theorem ints_round_trip_witness :
    (vbyte_config 4 false).codec_ok ∧
      (ints_decode (vbyte_config 4 false)
        ([9] ++ ints_encode (vbyte_config 4 false) (fun i => 300 + i) 4 ++ [1, 2]) 1
        (fun _ => 0)).1 = 1 + (ints_encode (vbyte_config 4 false) (fun i => 300 + i) 4).length :=
  ⟨vbyte_config_codec_ok 4 false,
   (ints_round_trip (vbyte_config 4 false) (vbyte_config_codec_ok 4 false) (fun i => 300 + i) 4
      (by intro i hi; simp only; omega) (Or.inl rfl) [9] [1, 2] (fun _ => 0)).1⟩

set_option maxRecDepth 100000 in
/-- C3 (counterexample). With the masked-vbyte block codec and `BLOCK_SIZE = 128`, the
two values 0, 1 are written by `ints_encode` as the three bytes `1, 0, 1`; `ints_decode`
on those bytes followed by further bytes of the buffer returns the cursor 129, not 3. -/
theorem ints_decode_short_block_overruns :
    (vbyte_config 128 false).codec_ok ∧
      2 ≤ (vbyte_config 128 false).BLOCK_SIZE ∧
      ints_encode (vbyte_config 128 false) (fun i => i) 2 = [1, 0, 1] ∧
      (ints_decode (vbyte_config 128 false) ([1, 0, 1] ++ List.replicate 200 7) 0
        (fun _ => 0)).1 = 129 := by
  refine ⟨vbyte_config_codec_ok 128 false, by decide, by decide, by decide⟩

end Lucene

namespace Lucene

theorem div_pred_of_dvd (m B : Nat) (hB : 0 < B) (hm : 0 < m) (h : m % B = 0) :
    (m - 1) / B = m / B - 1 ∧ 1 ≤ m / B ∧ m / B * B = m := by
  have h1 : B * (m / B) + m % B = m := Nat.div_add_mod m B
  rw [h, Nat.add_zero] at h1
  have hq : 1 ≤ m / B := by
    by_contra hlt
    have : m / B = 0 := Nat.lt_one_iff.1 (not_le.1 hlt)
    rw [this] at h1
    omega
  refine ⟨?_, hq, by rw [Nat.mul_comm]; exact h1⟩
  apply Nat.div_eq_of_lt_le
  · have : (m / B - 1) * B + B = m := by
      have : (m / B - 1 + 1) * B = m := by
        rw [Nat.sub_add_cancel hq, Nat.mul_comm]; exact h1
      rw [Nat.add_mul, Nat.one_mul] at this
      exact this
    omega
  · rw [Nat.sub_add_cancel hq, Nat.mul_comm, h1]
    omega

theorem div_pred_of_not_dvd (m B : Nat) (hB : 0 < B) (h : m % B ≠ 0) :
    (m - 1) / B = m / B := by
  have h1 : B * (m / B) + m % B = m := Nat.div_add_mod m B
  have h2 := Nat.mod_lt m hB
  generalize m / B = q at h1 ⊢
  apply Nat.div_eq_of_lt_le
  · rw [Nat.mul_comm]; omega
  · rw [Nat.add_mul, Nat.one_mul, Nat.mul_comm]
    omega

theorem mod_eq_sub_div_mul (m B : Nat) : m % B = m - m / B * B := by
  have h1 : B * (m / B) + m % B = m := Nat.div_add_mod m B
  rw [Nat.mul_comm] at h1
  omega

theorem div_mul_add_mod (m B : Nat) : m / B * B + m % B = m := by
  have h1 : B * (m / B) + m % B = m := Nat.div_add_mod m B
  rw [Nat.mul_comm] at h1
  exact h1

theorem all_equal_congr (a b : Nat → Nat) (n : Nat) (h : ∀ i < n, a i = b i) (hn : 0 < n) :
    all_equal a n = all_equal b n := by
  unfold all_equal
  rw [Bool.eq_iff_iff, List.all_eq_true, List.all_eq_true]
  constructor
  · intro hh i hi
    have hi2 : i < n := List.mem_range.1 hi
    have := hh i hi
    rw [h i hi2, h 0 hn] at this
    exact this
  · intro hh i hi
    have hi2 : i < n := List.mem_range.1 hi
    have := hh i hi
    rw [h i hi2, h 0 hn]
    exact this

theorem array_first_congr (a b : Nat → Nat) (n : Nat) (h : ∀ i < n, a i = b i) :
    array_first a n = array_first b n := by
  unfold array_first
  apply List.map_congr_left
  intro i hi
  exact h i (List.mem_range.1 hi)

theorem ints_encode_congr (cfg : Config) (a b : Nat → Nat) (n : Nat) (h : ∀ i < n, a i = b i)
    (hn : 0 < n) : ints_encode cfg a n = ints_encode cfg b n := by
  unfold ints_encode
  rw [all_equal_congr a b n h hn, array_first_congr a b n h, h 0 hn]

end Lucene

namespace Lucene

theorem header_bytes_length (a b c d : Nat) : (header_bytes a b c d).length = 14 := by
  simp [header_bytes, pack_u32, pack_u16]

theorem begin_term_inv (cfg : Config) (hstep : 1 ≤ cfg.SKIPLIST_STEP) (pre ppre : List Nat)
    (docs : List doc_input) (e : Encoder) (h1 : e.indexOut = pre) (h2 : e.positionsOut = ppre) :
    enc_docs_inv cfg pre ppre docs 0 (e.begin_term cfg) := by
  refine
    { buffered_eq := by simp [Encoder.begin_term]
      index_eq := by simp [Encoder.begin_term, header_bytes, blocks_bytes, h1, h2]
      deltas_eq := by intro i hi; simp [Encoder.begin_term] at hi
      freqs_eq := by intro i hi; simp [Encoder.begin_term] at hi
      lastDocID_eq := by simp [Encoder.begin_term, prev_id]
      termDocuments_eq := rfl
      termIndexOffset_eq := by simp [Encoder.begin_term, h1]
      termPositionsOffset_eq := by simp [Encoder.begin_term, h2]
      totalHits_eq := by simp [Encoder.begin_term, hits_before]
      sumHits_eq := by simp [Encoder.begin_term, hits_before]
      lastHitsBlockTotalHits_eq := rfl
      countdown_pos := hstep
      skiplist_len := by simp [Encoder.begin_term]
      skiplist_valid := ⟨[], by simp [skiplist_ok, Encoder.begin_term]⟩
      cur_block_ok := by intro h; omega
      ids_sorted := by intro i hi; omega }

theorem skiplist_ok_mono (cfg : Config) (docs : List doc_input) (q q2 : Nat) (hq : q ≤ q2)
    (sl : List skiplist_entry) (blocks : List Nat) (h : skiplist_ok cfg docs q sl blocks) :
    skiplist_ok cfg docs q2 sl blocks :=
  ⟨h.1, h.2.1, fun j hj => lt_of_lt_of_le (h.2.2.1 j hj) hq, h.2.2.2⟩

theorem skiplist_ok_push (cfg : Config) (docs : List doc_input) (q : Nat)
    (sl : List skiplist_entry) (blocks : List Nat) (s : skiplist_entry)
    (h : skiplist_ok cfg docs q sl blocks) (hs : block_entry_ok cfg docs q s) :
    skiplist_ok cfg docs (q + 1) (sl ++ [s]) (blocks ++ [q]) := by
  obtain ⟨h1, h2, h3, h4⟩ := h
  refine ⟨by simp [h1], ?_, ?_, ?_⟩
  · rw [List.Sorted, List.pairwise_append]
    refine ⟨h2, List.pairwise_singleton _ _, ?_⟩
    intro a ha b hb
    have : b = q := by simpa using hb
    rw [this]
    exact h3 a ha
  · intro j hj
    rcases List.mem_append.1 hj with hj | hj
    · exact Nat.lt_succ_of_lt (h3 j hj)
    · have : j = q := by simpa using hj
      omega
  · intro i hi
    simp only [List.length_append, List.length_singleton] at hi
    by_cases hlt : i < sl.length
    · have e1 : (blocks ++ [q]).getD i 0 = blocks.getD i 0 := by
        simp [List.getD_eq_getElem?_getD, List.getElem?_append_left (by omega : i < blocks.length)]
      have e2 : (sl ++ [s]).getD i default = sl.getD i default := by
        simp [List.getD_eq_getElem?_getD, List.getElem?_append_left hlt]
      rw [e1, e2]
      exact h4 i hlt
    · have hi2 : i = sl.length := by omega
      have e1 : (blocks ++ [q]).getD i 0 = q := by
        rw [hi2, ← h1]
        simp [List.getD_eq_getElem?_getD]
      have e2 : (sl ++ [s]).getD i default = s := by
        rw [hi2]
        simp [List.getD_eq_getElem?_getD]
      rw [e1, e2]
      exact hs

end Lucene
namespace Lucene

theorem output_block_spec (cfg : Config) (hstep : 1 ≤ cfg.SKIPLIST_STEP) (e : Encoder)
    (h : e.buffered = cfg.BLOCK_SIZE) (hcd : 1 ≤ e.skiplistCountdown) :
    ∃ sl cd, e.output_block cfg = some { e with
        skiplist := sl
        skiplistCountdown := cd
        indexOut := e.indexOut ++
          (ints_encode cfg e.docDeltas cfg.BLOCK_SIZE ++ ints_encode cfg e.docFreqs cfg.BLOCK_SIZE)
        buffered := 0 } ∧
      1 ≤ cd ∧
      (sl = e.skiplist ∨ (sl = e.skiplist ++ [e.cur_block] ∧ e.skiplist.length < UINT16_MAX)) := by
  unfold Encoder.output_block
  rw [if_neg (by simpa using h)]
  by_cases hc : e.skiplistCountdown - 1 = 0
  · by_cases hl : e.skiplist.length < UINT16_MAX
    · refine ⟨e.skiplist ++ [e.cur_block], cfg.SKIPLIST_STEP, ?_, hstep, Or.inr ⟨rfl, hl⟩⟩
      simp [hc, hl, h]
    · refine ⟨e.skiplist, cfg.SKIPLIST_STEP, ?_, hstep, Or.inl rfl⟩
      simp [hc, hl, h]
  · refine ⟨e.skiplist, e.skiplistCountdown - 1, ?_, by omega, Or.inl rfl⟩
    simp [hc, h]

theorem blocks_bytes_succ_of_arrays (cfg : Config) (hB : 0 < cfg.BLOCK_SIZE)
    (docs : List doc_input) (q : Nat) (deltas freqs : Nat → Nat)
    (hd : ∀ i < cfg.BLOCK_SIZE, deltas i = doc_delta docs (q * cfg.BLOCK_SIZE + i))
    (hf : ∀ i < cfg.BLOCK_SIZE, freqs i = doc_freq docs (q * cfg.BLOCK_SIZE + i)) :
    blocks_bytes cfg docs q ++
        (ints_encode cfg deltas cfg.BLOCK_SIZE ++ ints_encode cfg freqs cfg.BLOCK_SIZE) =
      blocks_bytes cfg docs (q + 1) := by
  simp only [blocks_bytes, block_bytes]
  rw [ints_encode_congr cfg deltas _ _ hd hB, ints_encode_congr cfg freqs _ _ hf hB]

theorem begin_document_inv (cfg : Config) (hB : 0 < cfg.BLOCK_SIZE) (hstep : 1 ≤ cfg.SKIPLIST_STEP)
    (pre ppre : List Nat) (docs : List doc_input) (m : Nat) (e e1 : Encoder)
    (hinv : enc_docs_inv cfg pre ppre docs m e)
    (hb : e.begin_document cfg (doc_id docs m) = some e1) :
    enc_mid_inv cfg pre ppre docs m 0 e1 ∧ e1.positionsOut = e.positionsOut ∧
      e1.hitPosDeltas = e.hitPosDeltas ∧ e1.hitPayloadSizes = e.hitPayloadSizes ∧
      e1.payloadsBuf = e.payloadsBuf ∧ e1.lastHitsBlockOffset = e.lastHitsBlockOffset ∧
      e1.lastPosition = 0 := by
  unfold Encoder.begin_document at hb
  by_cases hgt : doc_id docs m > e.lastDocID
  swap
  · rw [if_pos hgt] at hb
    simp at hb
  rw [if_neg (by simpa using hgt)] at hb
  have hsorted : ∀ i < m + 1, prev_id docs i < doc_id docs i := by
    intro i hi
    by_cases him : i < m
    · exact hinv.ids_sorted i him
    · have : i = m := by omega
      subst this
      rw [← hinv.lastDocID_eq]
      exact hgt
  have hdelta : doc_id docs m - e.lastDocID = doc_delta docs m := by
    rw [hinv.lastDocID_eq]; rfl
  by_cases hfull : e.buffered = cfg.BLOCK_SIZE
  · -- the buffered block is written first
    have hbuf := hinv.buffered_eq
    rw [hfull] at hbuf
    have hm : 0 < m := by
      by_contra hm0
      have : m = 0 := by omega
      subst this
      simp at hbuf
      omega
    have hmod : m % cfg.BLOCK_SIZE = 0 := by
      have : m = ((m - 1) / cfg.BLOCK_SIZE + 1) * cfg.BLOCK_SIZE := by
        rw [Nat.add_mul, Nat.one_mul]
        have hle : (m - 1) / cfg.BLOCK_SIZE * cfg.BLOCK_SIZE ≤ m - 1 := Nat.div_mul_le_self _ _
        omega
      rw [this]
      exact Nat.mul_mod_left _ _
    obtain ⟨hq1, hq2, hq3⟩ := div_pred_of_dvd m cfg.BLOCK_SIZE hB hm hmod
    have hqq : m / cfg.BLOCK_SIZE = (m - 1) / cfg.BLOCK_SIZE + 1 := by omega
    obtain ⟨sl, cd, hob, hcd, hsl⟩ := output_block_spec cfg hstep e hfull hinv.countdown_pos
    rw [if_pos hfull, hob] at hb
    simp only [if_true, Option.some.injEq] at hb
    subst hb
    have hidx : e.indexOut ++ (ints_encode cfg e.docDeltas cfg.BLOCK_SIZE ++
        ints_encode cfg e.docFreqs cfg.BLOCK_SIZE) =
        pre ++ header_bytes ppre.length 0 0 0 ++ blocks_bytes cfg docs (m / cfg.BLOCK_SIZE) := by
      rw [hinv.index_eq, hqq, List.append_assoc, blocks_bytes_succ_of_arrays cfg hB docs _ _ _
        (fun i hi => hinv.deltas_eq i (by rw [hfull]; exact hi))
        (fun i hi => hinv.freqs_eq i (by rw [hfull]; exact hi))]
    obtain ⟨blocks, hblocks⟩ := hinv.skiplist_valid
    have hcur := hinv.cur_block_ok hm
    refine ⟨?_, rfl, rfl, rfl, rfl, rfl, rfl⟩
    refine
      { buffered_eq := by simp [hmod]
        index_eq := hidx
        deltas_eq := ?_
        freqs_eq := by intro i hi; simp at hi
        cur_freq := by simp
        lastDocID_eq := rfl
        termDocuments_eq := by simp [hinv.termDocuments_eq]
        termIndexOffset_eq := hinv.termIndexOffset_eq
        termPositionsOffset_eq := hinv.termPositionsOffset_eq
        totalHits_eq := by simp [hinv.totalHits_eq]
        sumHits_eq := by simp [hinv.sumHits_eq]
        lastHitsBlockTotalHits_eq := hinv.lastHitsBlockTotalHits_eq
        countdown_pos := hcd
        skiplist_len := ?_
        skiplist_valid := ?_
        cur_block_ok := ?_
        ids_sorted := hsorted }
    · intro i hi
      have hi0 : i = 0 := by simpa using hi
      subst hi0
      simp only [Function.update_same, Nat.add_zero, hq3]
      exact hdelta
    · rcases hsl with hsl | ⟨hsl, hlen⟩
      · simp only [hsl]; exact hinv.skiplist_len
      · simp only [hsl, List.length_append, List.length_singleton]
        omega
    · rcases hsl with hsl | ⟨hsl, _⟩
      · exact ⟨blocks, by simp only [hsl]; exact skiplist_ok_mono cfg docs _ _ (by omega) _ _ hblocks⟩
      · refine ⟨blocks ++ [(m - 1) / cfg.BLOCK_SIZE], ?_⟩
        simp only [hsl, hqq]
        exact skiplist_ok_push cfg docs _ _ _ _ hblocks hcur
    · refine ⟨?_, ?_, ?_, ?_, ?_⟩
      · simp only [hidx, hinv.termIndexOffset_eq, List.length_append, header_bytes_length]
        omega
      · simp only [hq3]; exact hinv.lastDocID_eq
      · simp only [hq3]; exact hinv.termDocuments_eq
      · simp only [hq3, hinv.lastHitsBlockTotalHits_eq, hinv.sumHits_eq]
      · simp only [hq3, hinv.totalHits_eq]
  · -- no block is written
    rw [if_neg hfull] at hb
    have hdiv : (m - 1) / cfg.BLOCK_SIZE = m / cfg.BLOCK_SIZE := by
      by_cases hm0 : m = 0
      · subst hm0; rfl
      · apply div_pred_of_not_dvd m cfg.BLOCK_SIZE hB
        intro hmod
        obtain ⟨hq1, hq2, hq3⟩ := div_pred_of_dvd m cfg.BLOCK_SIZE hB (by omega) hmod
        apply hfull
        rw [hinv.buffered_eq, hq1, Nat.sub_mul, Nat.one_mul, hq3]
        have : cfg.BLOCK_SIZE ≤ m := by
          rw [← hq3]; exact Nat.le_mul_of_pos_left _ (by omega)
        omega
    have hbufm : e.buffered = m % cfg.BLOCK_SIZE := by
      rw [hinv.buffered_eq, hdiv, mod_eq_sub_div_mul]
    have hsum : m / cfg.BLOCK_SIZE * cfg.BLOCK_SIZE + e.buffered = m := by
      rw [hbufm]; exact div_mul_add_mod m cfg.BLOCK_SIZE
    obtain ⟨blocks, hblocks⟩ := hinv.skiplist_valid
    by_cases hzero : e.buffered = 0
    · have hm0 : m = 0 := by
        by_contra hne
        have hmod : m % cfg.BLOCK_SIZE = 0 := by rw [← hbufm]; exact hzero
        obtain ⟨hq1, hq2, hq3⟩ := div_pred_of_dvd m cfg.BLOCK_SIZE hB (by omega) hmod
        omega
      simp only [hzero, if_true, Option.some.injEq] at hb
      subst hb
      subst hm0
      refine ⟨?_, rfl, rfl, rfl, rfl, rfl, rfl⟩
      refine
        { buffered_eq := by simp [hzero]
          index_eq := by simpa using hinv.index_eq
          deltas_eq := ?_
          freqs_eq := by intro i hi; simp [hzero] at hi
          cur_freq := by simp [hzero]
          lastDocID_eq := rfl
          termDocuments_eq := by simp [hinv.termDocuments_eq]
          termIndexOffset_eq := hinv.termIndexOffset_eq
          termPositionsOffset_eq := hinv.termPositionsOffset_eq
          totalHits_eq := by simp [hinv.totalHits_eq]
          sumHits_eq := by simp [hinv.sumHits_eq]
          lastHitsBlockTotalHits_eq := hinv.lastHitsBlockTotalHits_eq
          countdown_pos := hinv.countdown_pos
          skiplist_len := hinv.skiplist_len
          skiplist_valid := ⟨blocks, by simpa using hblocks⟩
          cur_block_ok := ?_
          ids_sorted := hsorted }
      · intro i hi
        have hi0 : i = 0 := by simpa [hzero] using hi
        subst hi0
        simp only [hzero, Function.update_same]
        simpa using hdelta
      · refine ⟨?_, ?_, ?_, ?_, ?_⟩
        · simp only [hinv.index_eq, hinv.termIndexOffset_eq, List.length_append,
            header_bytes_length]
          simp [blocks_bytes]
        · simpa using hinv.lastDocID_eq
        · simpa using hinv.termDocuments_eq
        · simp [hinv.lastHitsBlockTotalHits_eq, hinv.sumHits_eq]
        · simp [hinv.totalHits_eq]
    · have hm1 : 1 ≤ m := by
        by_contra hne
        have : m = 0 := by omega
        subst this
        simp at hbufm
        exact hzero hbufm
      simp only [hzero, if_false, Option.some.injEq] at hb
      subst hb
      refine ⟨?_, rfl, rfl, rfl, rfl, rfl, rfl⟩
      refine
        { buffered_eq := hbufm
          index_eq := by rw [← hdiv]; exact hinv.index_eq
          deltas_eq := ?_
          freqs_eq := ?_
          cur_freq := by simp
          lastDocID_eq := rfl
          termDocuments_eq := by simp [hinv.termDocuments_eq]
          termIndexOffset_eq := hinv.termIndexOffset_eq
          termPositionsOffset_eq := hinv.termPositionsOffset_eq
          totalHits_eq := by simp [hinv.totalHits_eq]
          sumHits_eq := by simp [hinv.sumHits_eq]
          lastHitsBlockTotalHits_eq := hinv.lastHitsBlockTotalHits_eq
          countdown_pos := hinv.countdown_pos
          skiplist_len := hinv.skiplist_len
          skiplist_valid := ⟨blocks, by rw [← hdiv]; exact hblocks⟩
          cur_block_ok := by rw [← hdiv]; exact hinv.cur_block_ok hm1
          ids_sorted := hsorted }
      · intro i hi
        simp only at hi ⊢
        by_cases hie : i = e.buffered
        · subst hie
          rw [Function.update_same, hsum]
          exact hdelta
        · rw [Function.update_noteq hie, ← hdiv]
          exact hinv.deltas_eq i (by omega)
      · intro i hi
        simp only at hi ⊢
        rw [Function.update_noteq (by omega), ← hdiv]
        exact hinv.freqs_eq i hi

end Lucene

namespace Lucene

theorem succ_mod_div (x B : Nat) (hB : 0 < B) :
    (x % B + 1 = B → (x + 1) % B = 0 ∧ (x + 1) / B * B = x / B * B + B) ∧
    (x % B + 1 ≠ B → (x + 1) % B = x % B + 1 ∧ (x + 1) / B = x / B) := by
  have h1 : x / B * B + x % B = x := div_mul_add_mod x B
  have h2 := Nat.mod_lt x hB
  constructor
  · intro h
    have hx : x + 1 = (x / B + 1) * B := by
      rw [Nat.add_mul, Nat.one_mul]; omega
    constructor
    · rw [hx]; exact Nat.mul_mod_left _ _
    · rw [hx, Nat.mul_div_cancel _ hB, Nat.add_mul, Nat.one_mul]
  · intro h
    have hdiv : (x + 1) / B = x / B := by
      apply Nat.div_eq_of_lt_le
      · omega
      · rw [Nat.add_mul, Nat.one_mul]; omega
    refine ⟨?_, hdiv⟩
    have h3 : (x + 1) / B * B + (x + 1) % B = x + 1 := div_mul_add_mod (x + 1) B
    rw [hdiv] at h3
    omega

theorem new_hit_inv (cfg : Config) (hB : 0 < cfg.BLOCK_SIZE) (pre ppre : List Nat)
    (docs : List doc_input) (m t : Nat) (e e1 : Encoder) (pos : Nat) (payload : List Nat)
    (hinv : enc_mid_inv cfg pre ppre docs m t e)
    (hn : e.new_hit cfg pos payload = some e1) :
    enc_mid_inv cfg pre ppre docs m (if pos = 0 ∧ payload = [] then t else t + 1) e1 := by
  unfold Encoder.new_hit at hn
  by_cases hph : pos = 0 ∧ payload = []
  · rw [if_pos hph] at hn
    rw [if_pos hph]
    simp only [Option.some.injEq] at hn
    subst hn
    exact hinv
  · rw [if_neg hph] at hn
    rw [if_neg hph]
    split at hn
    · simp at hn
    split at hn
    · simp at hn
    have harith := succ_mod_div (hits_before docs m + t) cfg.BLOCK_SIZE hB
    have hbufB : e.buffered < cfg.BLOCK_SIZE := by
      rw [hinv.buffered_eq]; exact Nat.mod_lt _ hB
    simp only at hn
    by_cases hfull : e.totalHits + 1 = cfg.BLOCK_SIZE
    · rw [if_pos hfull] at hn
      split at hn
      · simp at hn
      simp only [Option.some.injEq] at hn
      subst hn
      have hx : (hits_before docs m + t) % cfg.BLOCK_SIZE + 1 = cfg.BLOCK_SIZE := by
        rw [← hinv.totalHits_eq]; exact hfull
      obtain ⟨a1, a2⟩ := harith.1 hx
      refine
        { buffered_eq := hinv.buffered_eq
          index_eq := hinv.index_eq
          deltas_eq := hinv.deltas_eq
          freqs_eq := ?_
          cur_freq := by simp [hinv.cur_freq]
          lastDocID_eq := hinv.lastDocID_eq
          termDocuments_eq := hinv.termDocuments_eq
          termIndexOffset_eq := hinv.termIndexOffset_eq
          termPositionsOffset_eq := hinv.termPositionsOffset_eq
          totalHits_eq := by simp only; rw [← Nat.add_assoc, a1]
          sumHits_eq := by
            simp only
            rw [← Nat.add_assoc (hits_before docs m), a2, hinv.sumHits_eq, hfull]
          lastHitsBlockTotalHits_eq := rfl
          countdown_pos := hinv.countdown_pos
          skiplist_len := hinv.skiplist_len
          skiplist_valid := hinv.skiplist_valid
          cur_block_ok := hinv.cur_block_ok
          ids_sorted := hinv.ids_sorted }
      intro i hi
      simp only at hi ⊢
      rw [Function.update_noteq (by omega)]
      exact hinv.freqs_eq i hi
    · rw [if_neg hfull] at hn
      simp only [Option.some.injEq] at hn
      subst hn
      have hx : (hits_before docs m + t) % cfg.BLOCK_SIZE + 1 ≠ cfg.BLOCK_SIZE := by
        rw [← hinv.totalHits_eq]; exact hfull
      obtain ⟨a1, a2⟩ := harith.2 hx
      refine
        { buffered_eq := hinv.buffered_eq
          index_eq := hinv.index_eq
          deltas_eq := hinv.deltas_eq
          freqs_eq := ?_
          cur_freq := by simp [hinv.cur_freq]
          lastDocID_eq := hinv.lastDocID_eq
          termDocuments_eq := hinv.termDocuments_eq
          termIndexOffset_eq := hinv.termIndexOffset_eq
          termPositionsOffset_eq := hinv.termPositionsOffset_eq
          totalHits_eq := by simp only; rw [← Nat.add_assoc, a1, hinv.totalHits_eq]
          sumHits_eq := by simp only; rw [← Nat.add_assoc, a2, hinv.sumHits_eq]
          lastHitsBlockTotalHits_eq := hinv.lastHitsBlockTotalHits_eq
          countdown_pos := hinv.countdown_pos
          skiplist_len := hinv.skiplist_len
          skiplist_valid := hinv.skiplist_valid
          cur_block_ok := hinv.cur_block_ok
          ids_sorted := hinv.ids_sorted }
      intro i hi
      simp only at hi ⊢
      rw [Function.update_noteq (by omega)]
      exact hinv.freqs_eq i hi

theorem new_hits_inv (cfg : Config) (hB : 0 < cfg.BLOCK_SIZE) (pre ppre : List Nat)
    (docs : List doc_input) (m : Nat) (hits : List hit_input) :
    ∀ (t : Nat) (e e1 : Encoder), enc_mid_inv cfg pre ppre docs m t e →
      Encoder.new_hits cfg e hits = some e1 →
      enc_mid_inv cfg pre ppre docs m
        (t + (hits.filter (fun h => !decide (h.pos = 0 ∧ h.payload = []))).length) e1 := by
  induction hits with
  | nil =>
    intro t e e1 hinv h
    simp only [Encoder.new_hits, Option.some.injEq] at h
    subst h
    simpa using hinv
  | cons h hs ih =>
    intro t e e1 hinv hn
    simp only [Encoder.new_hits] at hn
    cases hh : e.new_hit cfg h.pos h.payload with
    | none => rw [hh] at hn; simp at hn
    | some e2 =>
      rw [hh] at hn
      simp only at hn
      have h2 := new_hit_inv cfg hB pre ppre docs m t e e2 h.pos h.payload hinv hh
      have h3 := ih _ e2 e1 h2 hn
      by_cases hph : h.pos = 0 ∧ h.payload = []
      · rw [if_pos hph] at h3
        simpa [List.filter, hph] using h3
      · rw [if_neg hph] at h3
        have : (List.filter (fun h => !decide (h.pos = 0 ∧ h.payload = [])) (h :: hs)).length =
            (List.filter (fun h => !decide (h.pos = 0 ∧ h.payload = [])) hs).length + 1 := by
          simp [List.filter, hph]
        rw [this]
        have e3 : t + ((List.filter (fun h => !decide (h.pos = 0 ∧ h.payload = [])) hs).length + 1)
            = t + 1 + (List.filter (fun h => !decide (h.pos = 0 ∧ h.payload = [])) hs).length := by
          omega
        rw [e3]
        exact h3

theorem end_document_inv (cfg : Config) (pre ppre : List Nat)
    (docs : List doc_input) (m : Nat) (e : Encoder)
    (hinv : enc_mid_inv cfg pre ppre docs m (doc_freq docs m) e) :
    enc_docs_inv cfg pre ppre docs (m + 1) e.end_document := by
  have hsum : m / cfg.BLOCK_SIZE * cfg.BLOCK_SIZE + m % cfg.BLOCK_SIZE = m :=
    div_mul_add_mod m cfg.BLOCK_SIZE
  refine
    { buffered_eq := by
        simp only [Encoder.end_document, Nat.add_sub_cancel, hinv.buffered_eq]
        omega
      index_eq := by simpa [Encoder.end_document] using hinv.index_eq
      deltas_eq := by
        intro i hi
        simp only [Encoder.end_document, Nat.add_sub_cancel] at hi ⊢
        exact hinv.deltas_eq i (by omega)
      freqs_eq := by
        intro i hi
        simp only [Encoder.end_document, Nat.add_sub_cancel] at hi ⊢
        by_cases hie : i = e.buffered
        · rw [hie, hinv.cur_freq, hinv.buffered_eq, hsum]
        · exact hinv.freqs_eq i (by omega)
      lastDocID_eq := by
        simp only [Encoder.end_document, prev_id, Nat.add_sub_cancel]
        rw [if_neg (by omega)]
        exact hinv.lastDocID_eq
      termDocuments_eq := hinv.termDocuments_eq
      termIndexOffset_eq := hinv.termIndexOffset_eq
      termPositionsOffset_eq := hinv.termPositionsOffset_eq
      totalHits_eq := by simpa [Encoder.end_document, hits_before] using hinv.totalHits_eq
      sumHits_eq := by simpa [Encoder.end_document, hits_before] using hinv.sumHits_eq
      lastHitsBlockTotalHits_eq := hinv.lastHitsBlockTotalHits_eq
      countdown_pos := hinv.countdown_pos
      skiplist_len := hinv.skiplist_len
      skiplist_valid := by simpa [Encoder.end_document] using hinv.skiplist_valid
      cur_block_ok := by
        intro _
        simpa [Encoder.end_document] using hinv.cur_block_ok
      ids_sorted := hinv.ids_sorted }

theorem doc_id_getElem (docs : List doc_input) (m : Nat) (h : m < docs.length) :
    doc_id docs m = docs[m].id := by
  simp [doc_id, List.getD_eq_getElem?_getD, h]

theorem doc_freq_getElem (docs : List doc_input) (m : Nat) (h : m < docs.length) :
    doc_freq docs m = (real_hits docs[m]).length := by
  simp [doc_freq, List.getD_eq_getElem?_getD, h]

theorem add_document_inv (cfg : Config) (hB : 0 < cfg.BLOCK_SIZE) (hstep : 1 ≤ cfg.SKIPLIST_STEP)
    (pre ppre : List Nat) (docs : List doc_input) (m : Nat) (hm : m < docs.length)
    (e e1 : Encoder) (hinv : enc_docs_inv cfg pre ppre docs m e)
    (ha : e.add_document cfg docs[m] = some e1) :
    enc_docs_inv cfg pre ppre docs (m + 1) e1 := by
  unfold Encoder.add_document at ha
  cases hb : e.begin_document cfg docs[m].id with
  | none => rw [hb] at ha; simp at ha
  | some e2 =>
    rw [hb] at ha
    simp only at ha
    cases hn : Encoder.new_hits cfg e2 docs[m].hits with
    | none => rw [hn] at ha; simp at ha
    | some e3 =>
      rw [hn] at ha
      simp only [Option.some.injEq] at ha
      subst ha
      rw [← doc_id_getElem docs m hm] at hb
      have h2 := (begin_document_inv cfg hB hstep pre ppre docs m e e2 hinv hb).1
      have h3 := new_hits_inv cfg hB pre ppre docs m _ 0 e2 e3 h2 hn
      rw [Nat.zero_add] at h3
      have hf : doc_freq docs m = (List.filter (fun h => !decide (h.pos = 0 ∧ h.payload = []))
          docs[m].hits).length := by
        rw [doc_freq_getElem docs m hm]; rfl
      rw [← hf] at h3
      exact end_document_inv cfg pre ppre docs m e3 h3

theorem add_documents_inv (cfg : Config) (hB : 0 < cfg.BLOCK_SIZE) (hstep : 1 ≤ cfg.SKIPLIST_STEP)
    (pre ppre : List Nat) (docs : List doc_input) :
    ∀ (k m : Nat) (e e1 : Encoder), m + k = docs.length →
      enc_docs_inv cfg pre ppre docs m e →
      Encoder.add_documents cfg e (docs.drop m) = some e1 →
      enc_docs_inv cfg pre ppre docs docs.length e1 := by
  intro k
  induction k with
  | zero =>
    intro m e e1 hmk hinv ha
    have hm : m = docs.length := by omega
    subst hm
    simp only [List.drop_length, Encoder.add_documents, Option.some.injEq] at ha
    subst ha
    exact hinv
  | succ k ih =>
    intro m e e1 hmk hinv ha
    have hm : m < docs.length := by omega
    rw [List.drop_eq_getElem_cons hm] at ha
    simp only [Encoder.add_documents] at ha
    cases h1 : e.add_document cfg docs[m] with
    | none => rw [h1] at ha; simp at ha
    | some e2 =>
      rw [h1] at ha
      simp only at ha
      exact ih (m + 1) e2 e1 (by omega)
        (add_document_inv cfg hB hstep pre ppre docs m hm e e2 hinv h1) ha

end Lucene

namespace Lucene

theorem getD_append_add (a l : List Nat) (i : Nat) :
    (a ++ l).getD (a.length + i) 0 = l.getD i 0 := by
  rw [List.getD_eq_getElem?_getD, List.getD_eq_getElem?_getD,
    List.getElem?_append_right (by omega)]
  simp

theorem read_u32_pack (a b : List Nat) (v : Nat) :
    read_u32 (a ++ (pack_u32 v ++ b)) a.length = v % 2 ^ 32 := by
  unfold read_u32
  have h0 := getD_append_add a (pack_u32 v ++ b) 0
  rw [Nat.add_zero] at h0
  rw [h0, getD_append_add, getD_append_add, getD_append_add]
  simp only [pack_u32, List.cons_append, List.getD_cons_zero, List.getD_cons_succ]
  omega

theorem read_u16_pack (a b : List Nat) (v : Nat) :
    read_u16 (a ++ (pack_u16 v ++ b)) a.length = v % 2 ^ 16 := by
  unfold read_u16
  have h0 := getD_append_add a (pack_u16 v ++ b) 0
  rw [Nat.add_zero] at h0
  rw [h0, getD_append_add]
  simp only [pack_u16, List.cons_append, List.getD_cons_zero, List.getD_cons_succ]
  omega

theorem pack_u32_length (v : Nat) : (pack_u32 v).length = 4 := rfl

theorem pack_u16_length (v : Nat) : (pack_u16 v).length = 2 := rfl

theorem write_u32_spec (a old b : List Nat) (v : Nat) (h : old.length = 4) :
    write_u32 (a ++ (old ++ b)) a.length v = a ++ (pack_u32 v ++ b) := by
  unfold write_u32
  rw [List.take_left, ← List.drop_drop, List.drop_left, ← h, List.drop_left, List.append_assoc]

theorem write_u16_spec (a old b : List Nat) (v : Nat) (h : old.length = 2) :
    write_u16 (a ++ (old ++ b)) a.length v = a ++ (pack_u16 v ++ b) := by
  unfold write_u16
  rw [List.take_left, ← List.drop_drop, List.drop_left, ← h, List.drop_left, List.append_assoc]

theorem tail_documents_congr (freq1 : Bool) (a b c d : Nat → Nat) :
    ∀ (count i : Nat), (∀ k, i ≤ k → k < i + count → a k = c k ∧ b k = d k) →
      tail_documents freq1 a b count i = tail_documents freq1 c d count i := by
  intro count
  induction count with
  | zero => intro i _; rfl
  | succ count ih =>
    intro i h
    simp only [tail_documents]
    rw [(h i (le_refl _) (by omega)).1, (h i (le_refl _) (by omega)).2,
      ih (i + 1) (fun k hk1 hk2 => h k (by omega) (by omega))]

end Lucene

namespace Lucene

theorem pack_skiplist_entry_length (s : skiplist_entry) : (pack_skiplist_entry s).length = 22 := rfl

theorem pack_skiplist_length (sl : List skiplist_entry) :
    (pack_skiplist sl).length = 22 * sl.length := by
  induction sl with
  | nil => rfl
  | cons s rest ih =>
    simp only [pack_skiplist, List.length_append, pack_skiplist_entry_length, ih, List.length_cons]
    omega

theorem read_u32_at (a x y b : List Nat) (v p : Nat) (hp : p = a.length + x.length) :
    read_u32 (a ++ (x ++ (pack_u32 v ++ y) ++ b)) p = v % 2 ^ 32 := by
  have : a ++ (x ++ (pack_u32 v ++ y) ++ b) = (a ++ x) ++ (pack_u32 v ++ (y ++ b)) := by
    simp [List.append_assoc]
  rw [this, hp, ← List.length_append]
  exact read_u32_pack _ _ _

theorem read_u16_at (a x y b : List Nat) (v p : Nat) (hp : p = a.length + x.length) :
    read_u16 (a ++ (x ++ (pack_u16 v ++ y) ++ b)) p = v % 2 ^ 16 := by
  have : a ++ (x ++ (pack_u16 v ++ y) ++ b) = (a ++ x) ++ (pack_u16 v ++ (y ++ b)) := by
    simp [List.append_assoc]
  rw [this, hp, ← List.length_append]
  exact read_u16_pack _ _ _

theorem init_skiplist_pack (b : List Nat) : ∀ (sl : List skiplist_entry) (a : List Nat),
    init_skiplist (a ++ (pack_skiplist sl ++ b)) sl.length a.length = sl.map trunc_entry := by
  intro sl
  induction sl with
  | nil => intro a; rfl
  | cons s rest ih =>
    intro a
    simp only [List.length_cons, init_skiplist, List.map_cons, pack_skiplist]
    have hrest : a ++ (pack_skiplist_entry s ++ pack_skiplist rest ++ b) =
        (a ++ pack_skiplist_entry s) ++ (pack_skiplist rest ++ b) := by
      simp [List.append_assoc]
    have hlen : a.length + 22 = (a ++ pack_skiplist_entry s).length := by
      simp [pack_skiplist_entry_length]
    congr 1
    · simp only [trunc_entry, pack_skiplist_entry]
      have e0 := read_u32_at a [] (pack_u32 s.lastDocID ++ pack_u32 s.lastHitsBlockOffset ++
        pack_u32 s.totalDocumentsSoFar ++ pack_u32 s.lastHitsBlockTotalHits ++
        pack_u16 s.curHitsBlockHits) (pack_skiplist rest ++ b) s.indexOffset a.length (by simp)
      have e1 := read_u32_at a (pack_u32 s.indexOffset) (pack_u32 s.lastHitsBlockOffset ++
        pack_u32 s.totalDocumentsSoFar ++ pack_u32 s.lastHitsBlockTotalHits ++
        pack_u16 s.curHitsBlockHits) (pack_skiplist rest ++ b) s.lastDocID (a.length + 4)
        (by simp [pack_u32_length])
      have e2 := read_u32_at a (pack_u32 s.indexOffset ++ pack_u32 s.lastDocID)
        (pack_u32 s.totalDocumentsSoFar ++ pack_u32 s.lastHitsBlockTotalHits ++
        pack_u16 s.curHitsBlockHits) (pack_skiplist rest ++ b) s.lastHitsBlockOffset
        (a.length + 8) (by simp [pack_u32_length])
      have e3 := read_u32_at a (pack_u32 s.indexOffset ++ pack_u32 s.lastDocID ++
        pack_u32 s.lastHitsBlockOffset)
        (pack_u32 s.lastHitsBlockTotalHits ++ pack_u16 s.curHitsBlockHits)
        (pack_skiplist rest ++ b) s.totalDocumentsSoFar
        (a.length + 12) (by simp [pack_u32_length])
      have e4 := read_u32_at a (pack_u32 s.indexOffset ++ pack_u32 s.lastDocID ++
        pack_u32 s.lastHitsBlockOffset ++ pack_u32 s.totalDocumentsSoFar)
        (pack_u16 s.curHitsBlockHits)
        (pack_skiplist rest ++ b) s.lastHitsBlockTotalHits
        (a.length + 16) (by simp [pack_u32_length])
      have e5 := read_u16_at a (pack_u32 s.indexOffset ++ pack_u32 s.lastDocID ++
        pack_u32 s.lastHitsBlockOffset ++ pack_u32 s.totalDocumentsSoFar ++
        pack_u32 s.lastHitsBlockTotalHits) []
        (pack_skiplist rest ++ b) s.curHitsBlockHits
        (a.length + 20) (by simp [pack_u32_length])
      simp only [List.append_assoc, List.nil_append, List.append_nil] at e0 e1 e2 e3 e4 e5 ⊢
      rw [e0, e1, e2, e3, e4, e5]
    · rw [hrest, hlen]
      exact ih _

end Lucene

namespace Lucene

theorem blocks_bytes_length_mono (cfg : Config) (docs : List doc_input) (j : Nat) :
    ∀ q, j ≤ q → (blocks_bytes cfg docs j).length ≤ (blocks_bytes cfg docs q).length := by
  intro q
  induction q with
  | zero => intro h; have : j = 0 := by omega
            subst this; exact le_refl _
  | succ q ih =>
    intro h
    by_cases hj : j = q + 1
    · subst hj; exact le_refl _
    · have := ih (by omega)
      simp only [blocks_bytes, List.length_append]
      omega

theorem hits_before_mono (docs : List doc_input) (a : Nat) :
    ∀ b, a ≤ b → hits_before docs a ≤ hits_before docs b := by
  intro b
  induction b with
  | zero => intro h; have : a = 0 := by omega
            subst this; exact le_refl _
  | succ b ih =>
    intro h
    by_cases ha : a = b + 1
    · subst ha; exact le_refl _
    · have := ih (by omega)
      simp only [hits_before]
      omega

theorem doc_id_ge (docs : List doc_input) (n : Nat)
    (h : ∀ i < n, prev_id docs i < doc_id docs i) : ∀ i < n, i + 1 ≤ doc_id docs i := by
  intro i
  induction i with
  | zero =>
    intro hi
    have := h 0 hi
    omega
  | succ i ih =>
    intro hi
    have h1 := h (i + 1) hi
    have h2 := ih (by omega)
    simp only [prev_id, Nat.add_sub_cancel] at h1
    rw [if_neg (by omega)] at h1
    omega

theorem prev_id_lt (docs : List doc_input) (n : Nat)
    (hb : ∀ i < n, doc_id docs i < 2 ^ 32) (i : Nat) (hi : i ≤ n) : prev_id docs i < 2 ^ 32 := by
  unfold prev_id
  split
  · norm_num
  · exact hb (i - 1) (by omega)

theorem skiplist_ok_trunc (cfg : Config) (hB16 : cfg.BLOCK_SIZE ≤ 2 ^ 16) (hB : 0 < cfg.BLOCK_SIZE)
    (docs : List doc_input)
    (q : Nat) (sl : List skiplist_entry) (blocks : List Nat)
    (h : skiplist_ok cfg docs q sl blocks)
    (hq : q * cfg.BLOCK_SIZE ≤ docs.length)
    (hidx : 14 + (blocks_bytes cfg docs q).length < 2 ^ 32)
    (hids : ∀ i < docs.length, doc_id docs i < 2 ^ 32)
    (hsorted : ∀ i < docs.length, prev_id docs i < doc_id docs i)
    (hhits : hits_before docs docs.length < 2 ^ 32) :
    skiplist_ok cfg docs q (sl.map trunc_entry) blocks := by
  obtain ⟨h1, h2, h3, h4⟩ := h
  refine ⟨by simp [h1], h2, h3, ?_⟩
  intro i hi
  simp only [List.length_map] at hi
  have hget : (sl.map trunc_entry).getD i default = trunc_entry (sl.getD i default) := by
    simp [List.getD_eq_getElem?_getD, hi]
  rw [hget]
  have hj : blocks.getD i 0 < q := by
    apply h3
    rw [List.getD_eq_getElem?_getD, List.getElem?_eq_getElem (by omega)]
    simp
  obtain ⟨a1, a2, a3, a4, a5⟩ := h4 i hi
  generalize blocks.getD i 0 = j at *
  generalize sl.getD i default = s at *
  have hjB : j * cfg.BLOCK_SIZE ≤ docs.length :=
    le_trans (Nat.mul_le_mul_right _ (by omega)) hq
  have hn : docs.length < 2 ^ 32 := by
    by_cases hn0 : docs.length = 0
    · rw [hn0]; norm_num
    · have := doc_id_ge docs docs.length hsorted (docs.length - 1) (by omega)
      have := hids (docs.length - 1) (by omega)
      omega
  have b1 : s.indexOffset < 2 ^ 32 := by
    rw [a1]
    have := blocks_bytes_length_mono cfg docs j q (by omega)
    omega
  have b2 : s.lastDocID < 2 ^ 32 := by
    rw [a2]; exact prev_id_lt docs docs.length hids _ hjB
  have b3 : s.totalDocumentsSoFar < 2 ^ 32 := by rw [a3]; omega
  have b4 : s.lastHitsBlockTotalHits < 2 ^ 32 := by
    rw [a4]
    have := hits_before_mono docs (j * cfg.BLOCK_SIZE) docs.length hjB
    have := Nat.div_mul_le_self (hits_before docs (j * cfg.BLOCK_SIZE)) cfg.BLOCK_SIZE
    omega
  have b5 : s.curHitsBlockHits < 2 ^ 16 := by
    rw [a5]
    have := Nat.mod_lt (hits_before docs (j * cfg.BLOCK_SIZE)) hB
    omega
  refine ⟨?_, ?_, ?_, ?_, ?_⟩
  · simp only [trunc_entry]; rw [Nat.mod_eq_of_lt b1]; exact a1
  · simp only [trunc_entry]; rw [Nat.mod_eq_of_lt b2]; exact a2
  · simp only [trunc_entry]; rw [Nat.mod_eq_of_lt b3]; exact a3
  · simp only [trunc_entry]; rw [Nat.mod_eq_of_lt b4]; exact a4
  · simp only [trunc_entry]; rw [Nat.mod_eq_of_lt b5]; exact a5

end Lucene

namespace Lucene

/-- The first step of `end_term`: the documents still buffered are written. -/
theorem end_term_flush (cfg : Config) (hB : 0 < cfg.BLOCK_SIZE) (hstep : 1 ≤ cfg.SKIPLIST_STEP)
    (pre ppre : List Nat) (docs : List doc_input) (e : Encoder)
    (hinv : enc_docs_inv cfg pre ppre docs docs.length e) :
    ∃ e1 : Encoder,
      (if e.buffered = cfg.BLOCK_SIZE then e.output_block cfg
       else some { e with
         indexOut := e.indexOut ++
           tail_documents cfg.ENCODE_FREQ1_DOCDELTA e.docDeltas e.docFreqs e.buffered 0 }) =
        some e1 ∧
      e1.indexOut = pre ++ header_bytes ppre.length 0 0 0 ++
        (blocks_bytes cfg docs (docs.length / cfg.BLOCK_SIZE) ++ tail_bytes cfg docs) ∧
      (∃ blocks, skiplist_ok cfg docs (docs.length / cfg.BLOCK_SIZE) e1.skiplist blocks) ∧
      e1.skiplist.length ≤ UINT16_MAX ∧
      e1.termIndexOffset = e.termIndexOffset ∧ e1.termPositionsOffset = e.termPositionsOffset ∧
      e1.termDocuments = e.termDocuments ∧ e1.positionsOut = e.positionsOut ∧
      e1.totalHits = e.totalHits ∧ e1.sumHits = e.sumHits ∧
      e1.hitPosDeltas = e.hitPosDeltas ∧ e1.hitPayloadSizes = e.hitPayloadSizes ∧
      e1.payloadsBuf = e.payloadsBuf ∧
      (∀ s ∈ e1.skiplist, s ∈ e.skiplist ∨ s = e.cur_block) := by
  obtain ⟨blocks, hblocks⟩ := hinv.skiplist_valid
  by_cases hfull : e.buffered = cfg.BLOCK_SIZE
  · have hbuf := hinv.buffered_eq
    rw [hfull] at hbuf
    have hm : 0 < docs.length := by
      by_contra hm0
      have h0 : docs.length = 0 := by omega
      rw [h0] at hbuf
      simp at hbuf
      omega
    have hmod : docs.length % cfg.BLOCK_SIZE = 0 := by
      have : docs.length = ((docs.length - 1) / cfg.BLOCK_SIZE + 1) * cfg.BLOCK_SIZE := by
        rw [Nat.add_mul, Nat.one_mul]
        have hle : (docs.length - 1) / cfg.BLOCK_SIZE * cfg.BLOCK_SIZE ≤ docs.length - 1 :=
          Nat.div_mul_le_self _ _
        omega
      rw [this]
      exact Nat.mul_mod_left _ _
    obtain ⟨hq1, hq2, hq3⟩ := div_pred_of_dvd docs.length cfg.BLOCK_SIZE hB hm hmod
    have hqq : docs.length / cfg.BLOCK_SIZE = (docs.length - 1) / cfg.BLOCK_SIZE + 1 := by omega
    obtain ⟨sl, cd, hob, hcd, hsl⟩ := output_block_spec cfg hstep e hfull hinv.countdown_pos
    rw [if_pos hfull, hob]
    refine ⟨_, rfl, ?_, ?_, ?_, rfl, rfl, rfl, rfl, rfl, rfl, rfl, rfl, rfl, ?_⟩
    · simp only
      have htail : tail_bytes cfg docs = [] := by
        simp [tail_bytes, hmod, tail_documents]
      rw [htail, List.append_nil, hinv.index_eq, hqq, List.append_assoc,
        blocks_bytes_succ_of_arrays cfg hB docs _ _ _
          (fun i hi => hinv.deltas_eq i (by rw [hfull]; exact hi))
          (fun i hi => hinv.freqs_eq i (by rw [hfull]; exact hi))]
    · rcases hsl with hsl | ⟨hsl, _⟩
      · exact ⟨blocks, by simp only [hsl]; exact skiplist_ok_mono cfg docs _ _ (by omega) _ _ hblocks⟩
      · refine ⟨blocks ++ [(docs.length - 1) / cfg.BLOCK_SIZE], ?_⟩
        simp only [hsl, hqq]
        exact skiplist_ok_push cfg docs _ _ _ _ hblocks (hinv.cur_block_ok hm)
    · rcases hsl with hsl | ⟨hsl, hlen⟩
      · simp only [hsl]; exact hinv.skiplist_len
      · simp only [hsl, List.length_append, List.length_singleton]
        omega
    · intro s hs
      rcases hsl with hsl | ⟨hsl, _⟩
      · rw [hsl] at hs
        exact Or.inl hs
      · rw [hsl] at hs
        rcases List.mem_append.1 hs with h1 | h1
        · exact Or.inl h1
        · exact Or.inr (List.mem_singleton.1 h1)
  · rw [if_neg hfull]
    have hdiv : (docs.length - 1) / cfg.BLOCK_SIZE = docs.length / cfg.BLOCK_SIZE := by
      by_cases hm0 : docs.length = 0
      · rw [hm0]
      · apply div_pred_of_not_dvd docs.length cfg.BLOCK_SIZE hB
        intro hmod
        obtain ⟨hq1, hq2, hq3⟩ := div_pred_of_dvd docs.length cfg.BLOCK_SIZE hB (by omega) hmod
        apply hfull
        rw [hinv.buffered_eq, hq1, Nat.sub_mul, Nat.one_mul, hq3]
        have : cfg.BLOCK_SIZE ≤ docs.length := by
          rw [← hq3]; exact Nat.le_mul_of_pos_left _ (by omega)
        omega
    have hbufm : e.buffered = docs.length % cfg.BLOCK_SIZE := by
      rw [hinv.buffered_eq, hdiv, mod_eq_sub_div_mul]
    refine ⟨_, rfl, ?_, ?_, hinv.skiplist_len, rfl, rfl, rfl, rfl, rfl, rfl, rfl, rfl, rfl,
      fun s hs => Or.inl hs⟩
    · simp only
      rw [hinv.index_eq, hdiv, List.append_assoc, List.append_assoc, List.append_assoc]
      congr 3
      unfold tail_bytes
      rw [← hbufm]
      apply tail_documents_congr
      intro k _ hk
      rw [Nat.zero_add] at hk
      rw [← hdiv]
      exact ⟨hinv.deltas_eq k hk, hinv.freqs_eq k hk⟩
    · exact ⟨blocks, by rw [← hdiv]; exact hblocks⟩

end Lucene

namespace Lucene

theorem header_patch (pre body : List Nat) (a b c d b2 c2 d2 : Nat) :
    write_u16 (write_u32 (write_u32 (pre ++ header_bytes a b c d ++ body) (pre.length + 4) b2)
      (pre.length + 8) c2) (pre.length + 12) d2 = pre ++ header_bytes a b2 c2 d2 ++ body := by
  have e1 : pre ++ header_bytes a b c d ++ body =
      (pre ++ pack_u32 a) ++ (pack_u32 b ++ (pack_u32 c ++ pack_u16 d ++ body)) := by
    simp [header_bytes, List.append_assoc]
  have l1 : pre.length + 4 = (pre ++ pack_u32 a).length := by simp [pack_u32_length]
  rw [e1, l1, write_u32_spec _ _ _ _ (pack_u32_length b)]
  have e2 : (pre ++ pack_u32 a) ++ (pack_u32 b2 ++ (pack_u32 c ++ pack_u16 d ++ body)) =
      (pre ++ pack_u32 a ++ pack_u32 b2) ++ (pack_u32 c ++ (pack_u16 d ++ body)) := by
    simp [List.append_assoc]
  have l2 : pre.length + 8 = (pre ++ pack_u32 a ++ pack_u32 b2).length := by
    simp [pack_u32_length]
  rw [e2, l2, write_u32_spec _ _ _ _ (pack_u32_length c)]
  have e3 : (pre ++ pack_u32 a ++ pack_u32 b2) ++ (pack_u32 c2 ++ (pack_u16 d ++ body)) =
      (pre ++ pack_u32 a ++ pack_u32 b2 ++ pack_u32 c2) ++ (pack_u16 d ++ body) := by
    simp [List.append_assoc]
  have l3 : pre.length + 12 = (pre ++ pack_u32 a ++ pack_u32 b2 ++ pack_u32 c2).length := by
    simp [pack_u32_length]
  rw [e3, l3, write_u16_spec _ _ _ _ (pack_u16_length d)]
  simp [header_bytes, List.append_assoc]

/-- The chunk `end_term` leaves in the index, and the `term_index_ctx` it reports. -/
theorem end_term_spec (cfg : Config) (hB : 0 < cfg.BLOCK_SIZE) (hstep : 1 ≤ cfg.SKIPLIST_STEP)
    (pre ppre : List Nat) (docs : List doc_input) (e e2 : Encoder) (tctx : term_index_ctx)
    (hinv : enc_docs_inv cfg pre ppre docs docs.length e)
    (he : e.end_term cfg = some (e2, tctx)) :
    ∃ (sl : List skiplist_entry) (psize : Nat),
      e2.indexOut = pre ++ header_bytes ppre.length (hits_before docs docs.length) psize sl.length ++
        (blocks_bytes cfg docs (docs.length / cfg.BLOCK_SIZE) ++ tail_bytes cfg docs) ++
        pack_skiplist sl ∧
      (∃ blocks, skiplist_ok cfg docs (docs.length / cfg.BLOCK_SIZE) sl blocks) ∧
      sl.length ≤ UINT16_MAX ∧
      tctx.documents = docs.length ∧ tctx.offset = pre.length ∧
      tctx.size = (e2.indexOut.length - pre.length) % 2 ^ 32 ∧
      (∀ s ∈ sl, s ∈ e.skiplist ∨ s = e.cur_block) ∧
      e2.positionsOut = (if e.totalHits ≠ 0 then
        e.positionsOut ++
          (tail_hits e.hitPosDeltas e.hitPayloadSizes e.totalHits 0 0 ++ e.payloadsBuf)
        else e.positionsOut) := by
  obtain ⟨e1, hflush, hidx, hsl, hlen, h1, h2, h3, h4, h5, h6, h7, h8, h9, h10⟩ :=
    end_term_flush cfg hB hstep pre ppre docs e hinv
  unfold Encoder.end_term at he
  simp only at he
  rw [hflush] at he
  simp only at he
  split at he
  · simp at he
  simp only [Option.some.injEq, Prod.mk.injEq] at he
  obtain ⟨he2, htctx⟩ := he
  have hsum : e.sumHits + e.totalHits = hits_before docs docs.length := by
    rw [hinv.sumHits_eq, hinv.totalHits_eq]
    exact div_mul_add_mod _ _
  have hmodlen : e1.skiplist.length % 2 ^ 16 = e1.skiplist.length := by
    apply Nat.mod_eq_of_lt
    have : UINT16_MAX = 65535 := rfl
    omega
  have hpatch := header_patch pre
    (blocks_bytes cfg docs (docs.length / cfg.BLOCK_SIZE) ++ tail_bytes cfg docs)
    ppre.length 0 0 0 (e.sumHits + e.totalHits)
    ((if e1.totalHits ≠ 0 then
        e1.positionsOut ++
          (tail_hits e1.hitPosDeltas e1.hitPayloadSizes e1.totalHits 0 0 ++ e1.payloadsBuf)
      else e1.positionsOut).length - e1.termPositionsOffset) (e1.skiplist.length % 2 ^ 16)
  rw [← hidx, ← hinv.termIndexOffset_eq, ← h1] at hpatch
  have hindex : e2.indexOut = pre ++ header_bytes ppre.length (e.sumHits + e.totalHits)
      ((if e1.totalHits ≠ 0 then
        e1.positionsOut ++
          (tail_hits e1.hitPosDeltas e1.hitPayloadSizes e1.totalHits 0 0 ++ e1.payloadsBuf)
      else e1.positionsOut).length - e1.termPositionsOffset) (e1.skiplist.length % 2 ^ 16) ++
      (blocks_bytes cfg docs (docs.length / cfg.BLOCK_SIZE) ++ tail_bytes cfg docs) ++
      pack_skiplist e1.skiplist := by
    rw [← he2]
    simp only
    rw [hpatch]
    by_cases hz : e1.skiplist.length % 2 ^ 16 = 0
    · have hnil : e1.skiplist = [] := by
        rw [hmodlen] at hz
        exact List.length_eq_zero.1 hz
      rw [if_neg (not_not.2 hz), hnil]
      simp [pack_skiplist]
    · rw [if_pos hz]
  refine ⟨e1.skiplist, (if e1.totalHits ≠ 0 then
        e1.positionsOut ++
          (tail_hits e1.hitPosDeltas e1.hitPayloadSizes e1.totalHits 0 0 ++ e1.payloadsBuf)
      else e1.positionsOut).length - e1.termPositionsOffset, ?_, hsl, hlen, ?_, ?_, ?_, h10, ?_⟩
  · rw [hindex, hmodlen, hsum]
  · rw [← htctx]; simp only; rw [h3]; exact hinv.termDocuments_eq
  · rw [← htctx]; simp only; rw [h1]; exact hinv.termIndexOffset_eq
  · rw [← htctx, ← he2]
    simp only
    rw [h1, hinv.termIndexOffset_eq]
  · rw [← he2]
    simp only
    rw [h4, h5, h7, h8, h9]

end Lucene

namespace Lucene

theorem init_layout (cfg : Config) (hB : 0 < cfg.BLOCK_SIZE) (hB16 : cfg.BLOCK_SIZE ≤ 2 ^ 16)
    (docs : List doc_input) (pre : List Nat) (hdr0 psize : Nat) (sl : List skiplist_entry)
    (index hitsData : List Nat) (tctx : term_index_ctx)
    (hindex : index = pre ++ header_bytes hdr0 (hits_before docs docs.length) psize sl.length ++
      (blocks_bytes cfg docs (docs.length / cfg.BLOCK_SIZE) ++ tail_bytes cfg docs) ++
      pack_skiplist sl)
    (hsl : ∃ blocks, skiplist_ok cfg docs (docs.length / cfg.BLOCK_SIZE) sl blocks)
    (hlen : sl.length ≤ UINT16_MAX)
    (hdocs : tctx.documents = docs.length) (hoff : tctx.offset = pre.length)
    (hsize : tctx.size = (index.length - pre.length) % 2 ^ 32)
    (hsz : index.length < 2 ^ 32)
    (hhits : hits_before docs docs.length < 2 ^ 32)
    (hids : ∀ i < docs.length, doc_id docs i < 2 ^ 32)
    (hsorted : ∀ i < docs.length, prev_id docs i < doc_id docs i) :
    chunk_layout cfg docs (Decoder.init tctx index hitsData) ∧
      (Decoder.init tctx index hitsData).hitsBase = hdr0 % 2 ^ 32 ∧
      (Decoder.init tctx index hitsData).hitsDataPtr = hitsData ∧
      (Decoder.init tctx index hitsData).skiplist = sl.map trunc_entry := by
  have hlenidx : index.length = pre.length + 14 +
      ((blocks_bytes cfg docs (docs.length / cfg.BLOCK_SIZE)).length +
        (tail_bytes cfg docs).length) + 22 * sl.length := by
    rw [hindex]
    simp only [List.length_append, header_bytes_length, pack_skiplist_length]
  have hsize2 : tctx.size = 14 + ((blocks_bytes cfg docs (docs.length / cfg.BLOCK_SIZE)).length +
        (tail_bytes cfg docs).length) + 22 * sl.length := by
    rw [hsize, Nat.mod_eq_of_lt (by omega)]
    omega
  have hsk : read_u16 index (tctx.offset + 12) = sl.length := by
    have := read_u16_at pre (pack_u32 hdr0 ++ pack_u32 (hits_before docs docs.length) ++
      pack_u32 psize) [] ((blocks_bytes cfg docs (docs.length / cfg.BLOCK_SIZE) ++
      tail_bytes cfg docs) ++ pack_skiplist sl) sl.length (pre.length + 12)
      (by simp [pack_u32_length])
    have hidx2 : index = pre ++ (pack_u32 hdr0 ++ pack_u32 (hits_before docs docs.length) ++
        pack_u32 psize ++ (pack_u16 sl.length ++ []) ++
        (blocks_bytes cfg docs (docs.length / cfg.BLOCK_SIZE) ++ tail_bytes cfg docs ++
        pack_skiplist sl)) := by
      rw [hindex]; simp [header_bytes, List.append_assoc]
    rw [hoff, hidx2, this]
    apply Nat.mod_eq_of_lt
    have : UINT16_MAX = 65535 := rfl
    omega
  have htot : read_u32 index (tctx.offset + 4) = hits_before docs docs.length := by
    have := read_u32_at pre (pack_u32 hdr0) (pack_u32 psize ++ pack_u16 sl.length)
      ((blocks_bytes cfg docs (docs.length / cfg.BLOCK_SIZE) ++
      tail_bytes cfg docs) ++ pack_skiplist sl) (hits_before docs docs.length) (pre.length + 4)
      (by simp [pack_u32_length])
    have hidx2 : index = pre ++ (pack_u32 hdr0 ++ (pack_u32 (hits_before docs docs.length) ++
        (pack_u32 psize ++ pack_u16 sl.length)) ++
        (blocks_bytes cfg docs (docs.length / cfg.BLOCK_SIZE) ++ tail_bytes cfg docs ++
        pack_skiplist sl)) := by
      rw [hindex]; simp [header_bytes, List.append_assoc]
    rw [hoff, hidx2, this]
    exact Nat.mod_eq_of_lt hhits
  have hbase : read_u32 index tctx.offset = hdr0 % 2 ^ 32 := by
    have := read_u32_at pre [] (pack_u32 (hits_before docs docs.length) ++ pack_u32 psize ++
      pack_u16 sl.length) ((blocks_bytes cfg docs (docs.length / cfg.BLOCK_SIZE) ++
      tail_bytes cfg docs) ++ pack_skiplist sl) hdr0 pre.length (by simp)
    have hidx2 : index = pre ++ ([] ++ (pack_u32 hdr0 ++ (pack_u32 (hits_before docs docs.length) ++
        pack_u32 psize ++ pack_u16 sl.length)) ++
        (blocks_bytes cfg docs (docs.length / cfg.BLOCK_SIZE) ++ tail_bytes cfg docs ++
        pack_skiplist sl)) := by
      rw [hindex]; simp [header_bytes, List.append_assoc]
    rw [hoff, hidx2, this]
  have hce : (if read_u16 index (tctx.offset + 12) ≠ 0 then
        tctx.offset + tctx.size - read_u16 index (tctx.offset + 12) * 22
      else tctx.offset + tctx.size) = pre.length + 14 +
        (blocks_bytes cfg docs (docs.length / cfg.BLOCK_SIZE)).length +
        (tail_bytes cfg docs).length := by
    rw [hsk, hoff, hsize2]
    split <;> omega
  have hskl : (if read_u16 index (tctx.offset + 12) ≠ 0 then
        init_skiplist index (read_u16 index (tctx.offset + 12))
          (if read_u16 index (tctx.offset + 12) ≠ 0 then
            tctx.offset + tctx.size - read_u16 index (tctx.offset + 12) * 22
          else tctx.offset + tctx.size)
      else []) = sl.map trunc_entry := by
    rw [hce, hsk]
    have hpk := init_skiplist_pack [] sl (pre ++ header_bytes hdr0 (hits_before docs docs.length)
      psize sl.length ++ (blocks_bytes cfg docs (docs.length / cfg.BLOCK_SIZE) ++
      tail_bytes cfg docs))
    rw [List.append_nil, ← hindex] at hpk
    simp only [List.length_append, header_bytes_length] at hpk
    by_cases hz : sl.length = 0
    · have : sl = [] := List.length_eq_zero.1 hz
      subst this
      simp
    · rw [if_pos hz]
      rw [← hpk]
      congr 1
      omega
  obtain ⟨blocks, hblocks⟩ := hsl
  have hidxlt : 14 + (blocks_bytes cfg docs (docs.length / cfg.BLOCK_SIZE)).length < 2 ^ 32 := by
    omega
  refine ⟨?_, ?_, rfl, ?_⟩
  · refine
      { mem_eq := ⟨pre ++ header_bytes hdr0 (hits_before docs docs.length) psize sl.length,
          pack_skiplist sl, ?_, ?_⟩
        chunkEnd_eq := ?_
        totalDocuments_eq := hdocs
        totalHits_eq := htot
        totalHits_lt := hhits
        skiplist_valid := ⟨blocks, ?_⟩
        ids_sorted := fun i hi => le_of_lt (hsorted i hi)
        ids_bound := hids }
    · show index = _
      rw [hindex]; simp [List.append_assoc]
    · show _ = tctx.offset + 14
      simp [header_bytes_length, hoff]
    · show (if read_u16 index (tctx.offset + 12) ≠ 0 then _ else _) = tctx.offset + 14 + _ + _
      rw [hce, hoff]
    · show skiplist_ok cfg docs _ (if read_u16 index (tctx.offset + 12) ≠ 0 then _ else _) blocks
      rw [hskl]
      exact skiplist_ok_trunc cfg hB16 hB docs _ sl blocks hblocks (Nat.div_mul_le_self _ _)
        hidxlt hids hsorted hhits
  · exact hbase
  · exact hskl

end Lucene

namespace Lucene

theorem blocks_bytes_split (cfg : Config) (docs : List doc_input) (j : Nat) :
    ∀ q, j ≤ q → ∃ rest, blocks_bytes cfg docs q = blocks_bytes cfg docs j ++ rest := by
  intro q
  induction q with
  | zero =>
    intro h
    have : j = 0 := by omega
    subst this
    exact ⟨[], by simp⟩
  | succ q ih =>
    intro h
    by_cases hj : j = q + 1
    · subst hj; exact ⟨[], by simp⟩
    · obtain ⟨rest, hrest⟩ := ih (by omega)
      exact ⟨rest ++ block_bytes cfg docs q, by simp [blocks_bytes, hrest]⟩

theorem ints_encode_length_pos (cfg : Config) (a : Nat → Nat) (n : Nat) :
    0 < (ints_encode cfg a n).length := by
  unfold ints_encode
  split <;> simp

theorem doc_delta_lt (docs : List doc_input) (i : Nat)
    (hids : ∀ i < docs.length, doc_id docs i < 2 ^ 32) : doc_delta docs i < 2 ^ 32 := by
  unfold doc_delta
  by_cases hi : i < docs.length
  · have := hids i hi
    omega
  · have : doc_id docs i = 0 := by
      simp [doc_id, List.getD_eq_getElem?_getD, List.getElem?_eq_none (by simpa using hi)]
    rw [this]
    norm_num

theorem doc_freq_le_hits (docs : List doc_input) (i n : Nat) (hi : i < n) :
    doc_freq docs i ≤ hits_before docs n := by
  have h1 := hits_before_mono docs (i + 1) n hi
  simp only [hits_before] at h1
  omega

theorem doc_delta_add (docs : List doc_input) (k : Nat)
    (h : prev_id docs k ≤ doc_id docs k) : prev_id docs k + doc_delta docs k = doc_id docs k := by
  unfold doc_delta
  omega

/-- The index read at the start of the full block `j`. -/
theorem mem_at_block (cfg : Config) (docs : List doc_input) (dec : Decoder)
    (hl : chunk_layout cfg docs dec) (j : Nat) (hj : j < docs.length / cfg.BLOCK_SIZE) :
    ∃ a rest, dec.indexPtr = a ++ (ints_encode cfg
        (fun i => doc_delta docs (j * cfg.BLOCK_SIZE + i)) cfg.BLOCK_SIZE ++
        (ints_encode cfg (fun i => doc_freq docs (j * cfg.BLOCK_SIZE + i)) cfg.BLOCK_SIZE ++
          rest)) ∧
      a.length = block_start cfg docs dec j := by
  obtain ⟨pre, skip, hmem, hpre⟩ := hl.mem_eq
  obtain ⟨rest, hrest⟩ := blocks_bytes_split cfg docs (j + 1) (docs.length / cfg.BLOCK_SIZE) hj
  refine ⟨pre ++ blocks_bytes cfg docs j, rest ++ (tail_bytes cfg docs ++ skip), ?_, ?_⟩
  · rw [hmem, hrest]
    simp [blocks_bytes, block_bytes, List.append_assoc]
  · simp [block_start, hpre]

/-- The index read at the start of the trailing block. -/
theorem mem_at_tail (cfg : Config) (docs : List doc_input) (dec : Decoder)
    (hl : chunk_layout cfg docs dec) :
    ∃ a rest, dec.indexPtr = a ++ (tail_bytes cfg docs ++ rest) ∧
      a.length = block_start cfg docs dec (docs.length / cfg.BLOCK_SIZE) := by
  obtain ⟨pre, skip, hmem, hpre⟩ := hl.mem_eq
  refine ⟨pre ++ blocks_bytes cfg docs (docs.length / cfg.BLOCK_SIZE), skip, ?_, ?_⟩
  · rw [hmem]; simp [List.append_assoc]
  · simp [block_start, hpre]

theorem block_start_succ (cfg : Config) (docs : List doc_input) (dec : Decoder) (j : Nat) :
    block_start cfg docs dec (j + 1) = block_start cfg docs dec j +
      (ints_encode cfg (fun i => doc_delta docs (j * cfg.BLOCK_SIZE + i)) cfg.BLOCK_SIZE).length +
      (ints_encode cfg (fun i => doc_freq docs (j * cfg.BLOCK_SIZE + i)) cfg.BLOCK_SIZE).length := by
  simp only [block_start, blocks_bytes, block_bytes, List.length_append]
  omega

theorem drop_append_length (a b : List Nat) : (a ++ b).drop a.length = b := List.drop_left a b

/-- The trailing block is read back by the loop of `refill_documents`. -/
theorem refill_documents_tail_spec (freq1 : Bool) (δ f : Nat → Nat) :
    ∀ (count i : Nat) (a rest : List Nat) (deltas freqs : Nat → Nat),
      (∀ k, i ≤ k → k < i + count → δ k < 2 ^ 32 ∧ f k < 2 ^ 32 ∧
        (freq1 = true → δ k < 2 ^ 31)) →
      (refill_documents_tail freq1 (a ++ (tail_documents freq1 δ f count i ++ rest)) count i
          a.length deltas freqs).1 = a.length + (tail_documents freq1 δ f count i).length ∧
      (∀ k, i ≤ k → k < i + count →
        (refill_documents_tail freq1 (a ++ (tail_documents freq1 δ f count i ++ rest)) count i
          a.length deltas freqs).2.1 k = δ k ∧
        (refill_documents_tail freq1 (a ++ (tail_documents freq1 δ f count i ++ rest)) count i
          a.length deltas freqs).2.2 k = f k) ∧
      (∀ k, k < i →
        (refill_documents_tail freq1 (a ++ (tail_documents freq1 δ f count i ++ rest)) count i
          a.length deltas freqs).2.1 k = deltas k ∧
        (refill_documents_tail freq1 (a ++ (tail_documents freq1 δ f count i ++ rest)) count i
          a.length deltas freqs).2.2 k = freqs k) := by
  intro count
  induction count with
  | zero =>
    intro i a rest deltas freqs _
    simp only [refill_documents_tail, tail_documents, List.length_nil, Nat.add_zero]
    exact ⟨trivial, fun k h1 h2 => by omega, fun k _ => ⟨trivial, trivial⟩⟩
  | succ count ih =>
    intro i a rest deltas freqs hb
    obtain ⟨hd, hf, h31⟩ := hb i (le_refl _) (by omega)
    have hb2 : ∀ k, i + 1 ≤ k → k < i + 1 + count → δ k < 2 ^ 32 ∧ f k < 2 ^ 32 ∧
        (freq1 = true → δ k < 2 ^ 31) := fun k h1 h2 => hb k (by omega) (by omega)
    cases freq1 with
    | false =>
      have hmem : a ++ (tail_documents false δ f (count + 1) i ++ rest) =
          (a ++ encode_varbyte32 (δ i) ++ encode_varbyte32 (f i)) ++
            (tail_documents false δ f count (i + 1) ++ rest) := by
        simp [tail_documents, List.append_assoc]
      have hmem1 : a ++ (tail_documents false δ f (count + 1) i ++ rest) =
          a ++ (encode_varbyte32 (δ i) ++ (encode_varbyte32 (f i) ++
            (tail_documents false δ f count (i + 1) ++ rest))) := by
        simp [tail_documents, List.append_assoc]
      have hmem2 : a ++ (tail_documents false δ f (count + 1) i ++ rest) =
          (a ++ encode_varbyte32 (δ i)) ++ (encode_varbyte32 (f i) ++
            (tail_documents false δ f count (i + 1) ++ rest)) := by
        simp [tail_documents, List.append_assoc]
      have r1 : varbyte_get32 ((a ++ (tail_documents false δ f (count + 1) i ++ rest)).drop
          a.length) = (δ i % 2 ^ 32, (encode_varbyte32 (δ i)).length) := by
        rw [hmem1, drop_append_length, varbyte_round_trip]
      have r2 : varbyte_get32 ((a ++ (tail_documents false δ f (count + 1) i ++ rest)).drop
          (a.length + (encode_varbyte32 (δ i)).length)) =
          (f i % 2 ^ 32, (encode_varbyte32 (f i)).length) := by
        rw [hmem2, ← List.length_append, drop_append_length, varbyte_round_trip]
      have hstep : refill_documents_tail false
          (a ++ (tail_documents false δ f (count + 1) i ++ rest)) (count + 1) i a.length
          deltas freqs =
          refill_documents_tail false
            ((a ++ encode_varbyte32 (δ i) ++ encode_varbyte32 (f i)) ++
              (tail_documents false δ f count (i + 1) ++ rest)) count (i + 1)
            (a ++ encode_varbyte32 (δ i) ++ encode_varbyte32 (f i)).length
            (Function.update deltas i (δ i)) (Function.update freqs i (f i)) := by
        rw [refill_documents_tail]
        simp only [r1, r2, Bool.false_eq_true, if_false, Nat.mod_mod]
        rw [Nat.mod_eq_of_lt hd, Nat.mod_eq_of_lt hf, ← hmem]
        simp only [List.length_append]
      rw [hstep]
      obtain ⟨i1, i2, i3⟩ := ih (i + 1) (a ++ encode_varbyte32 (δ i) ++ encode_varbyte32 (f i))
        rest (Function.update deltas i (δ i)) (Function.update freqs i (f i)) hb2
      refine ⟨?_, ?_, ?_⟩
      · rw [i1]
        simp only [tail_documents, List.length_append, Bool.false_eq_true, if_false]
        omega
      · intro k hk1 hk2
        by_cases hki : k = i
        · subst hki
          have := i3 k (by omega)
          simp only [Function.update_same] at this
          exact this
        · exact i2 k (by omega) (by omega)
      · intro k hk
        have := i3 k (by omega)
        rw [Function.update_noteq (by omega), Function.update_noteq (by omega)] at this
        exact this
    | true =>
      have h31' : δ i < 2 ^ 31 := h31 rfl
      have hshift : δ i * 2 % 2 ^ 32 = δ i * 2 := Nat.mod_eq_of_lt (by omega)
      have hshift2 : δ i * 2 % 4294967296 = δ i * 2 := hshift
      by_cases hone : f i = 1
      · have hmem : a ++ (tail_documents true δ f (count + 1) i ++ rest) =
            (a ++ encode_varbyte32 (δ i * 2 + 1)) ++
              (tail_documents true δ f count (i + 1) ++ rest) := by
          simp [tail_documents, List.append_assoc, hone, hshift, hshift2]
        have hmem1 : a ++ (tail_documents true δ f (count + 1) i ++ rest) =
            a ++ (encode_varbyte32 (δ i * 2 + 1) ++
              (tail_documents true δ f count (i + 1) ++ rest)) := by
          simp [tail_documents, List.append_assoc, hone, hshift, hshift2]
        have r1 : varbyte_get32 ((a ++ (tail_documents true δ f (count + 1) i ++ rest)).drop
            a.length) = ((δ i * 2 + 1) % 2 ^ 32, (encode_varbyte32 (δ i * 2 + 1)).length) := by
          rw [hmem1, drop_append_length, varbyte_round_trip]
        have hv : (δ i * 2 + 1) % 2 ^ 32 = δ i * 2 + 1 := Nat.mod_eq_of_lt (by omega)
        have hstep : refill_documents_tail true
            (a ++ (tail_documents true δ f (count + 1) i ++ rest)) (count + 1) i a.length
            deltas freqs =
            refill_documents_tail true
              ((a ++ encode_varbyte32 (δ i * 2 + 1)) ++
                (tail_documents true δ f count (i + 1) ++ rest)) count (i + 1)
              (a ++ encode_varbyte32 (δ i * 2 + 1)).length
              (Function.update deltas i (δ i)) (Function.update freqs i (f i)) := by
          rw [refill_documents_tail]
          simp only [r1, if_true, Nat.mod_mod, hv]
          have hodd : (δ i * 2 + 1) % 2 = 1 := by omega
          have hhalf : (δ i * 2 + 1) / 2 = δ i := by omega
          rw [if_pos hodd, hhalf, ← hmem, hone]
          simp only [List.length_append]
        rw [hstep]
        obtain ⟨i1, i2, i3⟩ := ih (i + 1) (a ++ encode_varbyte32 (δ i * 2 + 1))
          rest (Function.update deltas i (δ i)) (Function.update freqs i (f i)) hb2
        refine ⟨?_, ?_, ?_⟩
        · rw [i1]
          simp only [tail_documents, List.length_append, if_true, hone, hshift, hshift2]
          omega
        · intro k hk1 hk2
          by_cases hki : k = i
          · subst hki
            have := i3 k (by omega)
            simp only [Function.update_same] at this
            exact this
          · exact i2 k (by omega) (by omega)
        · intro k hk
          have := i3 k (by omega)
          rw [Function.update_noteq (by omega), Function.update_noteq (by omega)] at this
          exact this
      · have hmem : a ++ (tail_documents true δ f (count + 1) i ++ rest) =
            (a ++ encode_varbyte32 (δ i * 2) ++ encode_varbyte32 (f i)) ++
              (tail_documents true δ f count (i + 1) ++ rest) := by
          simp [tail_documents, List.append_assoc, hone, hshift, hshift2]
        have hmem1 : a ++ (tail_documents true δ f (count + 1) i ++ rest) =
            a ++ (encode_varbyte32 (δ i * 2) ++ (encode_varbyte32 (f i) ++
              (tail_documents true δ f count (i + 1) ++ rest))) := by
          simp [tail_documents, List.append_assoc, hone, hshift, hshift2]
        have hmem2 : a ++ (tail_documents true δ f (count + 1) i ++ rest) =
            (a ++ encode_varbyte32 (δ i * 2)) ++ (encode_varbyte32 (f i) ++
              (tail_documents true δ f count (i + 1) ++ rest)) := by
          simp [tail_documents, List.append_assoc, hone, hshift, hshift2]
        have r1 : varbyte_get32 ((a ++ (tail_documents true δ f (count + 1) i ++ rest)).drop
            a.length) = ((δ i * 2) % 2 ^ 32, (encode_varbyte32 (δ i * 2)).length) := by
          rw [hmem1, drop_append_length, varbyte_round_trip]
        have r2 : varbyte_get32 ((a ++ (tail_documents true δ f (count + 1) i ++ rest)).drop
            (a.length + (encode_varbyte32 (δ i * 2)).length)) =
            (f i % 2 ^ 32, (encode_varbyte32 (f i)).length) := by
          rw [hmem2, ← List.length_append, drop_append_length, varbyte_round_trip]
        have hstep : refill_documents_tail true
            (a ++ (tail_documents true δ f (count + 1) i ++ rest)) (count + 1) i a.length
            deltas freqs =
            refill_documents_tail true
              ((a ++ encode_varbyte32 (δ i * 2) ++ encode_varbyte32 (f i)) ++
                (tail_documents true δ f count (i + 1) ++ rest)) count (i + 1)
              (a ++ encode_varbyte32 (δ i * 2) ++ encode_varbyte32 (f i)).length
              (Function.update deltas i (δ i)) (Function.update freqs i (f i)) := by
          rw [refill_documents_tail]
          simp only [r1, r2, if_true, Nat.mod_mod, hshift]
          have hodd : ¬ ((δ i * 2) % 2 = 1) := by omega
          have hhalf : (δ i * 2) / 2 = δ i := by omega
          rw [if_neg hodd, hhalf, ← hmem, Nat.mod_eq_of_lt hf]
          simp only [List.length_append]
        rw [hstep]
        obtain ⟨i1, i2, i3⟩ := ih (i + 1)
          (a ++ encode_varbyte32 (δ i * 2) ++ encode_varbyte32 (f i))
          rest (Function.update deltas i (δ i)) (Function.update freqs i (f i)) hb2
        refine ⟨?_, ?_, ?_⟩
        · rw [i1]
          simp only [tail_documents, List.length_append, if_true, hone, hshift, hshift2, if_false]
          omega
        · intro k hk1 hk2
          by_cases hki : k = i
          · subst hki
            have := i3 k (by omega)
            simp only [Function.update_same] at this
            exact this
          · exact i2 k (by omega) (by omega)
        · intro k hk
          have := i3 k (by omega)
          rw [Function.update_noteq (by omega), Function.update_noteq (by omega)] at this
          exact this

end Lucene

namespace Lucene

theorem refill_documents_hits_view (cfg : Config) (dec : Decoder) (it : PostingsListIterator) :
    (dec.refill_documents cfg it).hits_view = it.hits_view := by
  unfold Decoder.refill_documents
  by_cases h : it.docsLeft ≥ cfg.BLOCK_SIZE
  · simp only [if_pos h]; rfl
  · simp only [if_neg h]; rfl

theorem refill_documents_skipListIdx (cfg : Config) (dec : Decoder) (it : PostingsListIterator) :
    (dec.refill_documents cfg it).skipListIdx = it.skipListIdx := by
  unfold Decoder.refill_documents
  by_cases h : it.docsLeft ≥ cfg.BLOCK_SIZE
  · simp only [if_pos h]; rfl
  · simp only [if_neg h]; rfl

/-- Refilling the documents between two blocks decodes the next block and publishes its
first document. -/
theorem refill_documents_spec (cfg : Config) (hok : cfg.codec_ok) (hB : 0 < cfg.BLOCK_SIZE)
    (docs : List doc_input) (dec : Decoder) (hl : chunk_layout cfg docs dec)
    (htail : tail_deltas_ok cfg docs) (it : PostingsListIterator) (m : Nat)
    (hg : at_gap cfg docs dec it.docs_view m) (hm : m < docs.length) :
    on_doc cfg docs dec (dec.refill_documents cfg it).docs_view m := by
  have hmod : m % cfg.BLOCK_SIZE = 0 := by
    rcases hg.m_block with h | h
    · exact h
    · omega
  have hmB : m / cfg.BLOCK_SIZE * cfg.BLOCK_SIZE = m :=
    Nat.div_mul_cancel (Nat.dvd_of_mod_eq_zero hmod)
  have hnB := div_mul_add_mod docs.length cfg.BLOCK_SIZE
  have hp : it.p = block_start cfg docs dec (m / cfg.BLOCK_SIZE) := by
    have := hg.p_eq
    rw [if_neg (by omega)] at this
    exact this
  have hleft : it.docsLeft = docs.length - m := hg.docsLeft_eq
  have hlast : it.lastDocID = prev_id docs m := hg.lastDocID_eq
  have hcur : (prev_id docs m + doc_delta docs m) % 2 ^ 32 = doc_id docs m := by
    rw [doc_delta_add docs m (hl.ids_sorted m hm)]
    exact Nat.mod_eq_of_lt (hl.ids_bound m hm)
  have hf32 : ∀ i, doc_freq docs i < 2 ^ 32 := by
    intro i
    by_cases hi : i < docs.length
    · have := doc_freq_le_hits docs i docs.length hi
      have := hl.totalHits_lt
      omega
    · simp [doc_freq, List.getD_eq_getElem?_getD, List.getElem?_eq_none (by simpa using hi)]
  by_cases hfull : it.docsLeft ≥ cfg.BLOCK_SIZE
  · have hjq : m / cfg.BLOCK_SIZE < docs.length / cfg.BLOCK_SIZE := by
      have h1 : (m + cfg.BLOCK_SIZE) / cfg.BLOCK_SIZE ≤ docs.length / cfg.BLOCK_SIZE :=
        Nat.div_le_div_right (by omega)
      rw [Nat.add_div_right _ hB] at h1
      omega
    obtain ⟨a, rest, hmem, ha⟩ := mem_at_block cfg docs dec hl _ hjq
    have r1 := ints_round_trip cfg hok
      (fun i => doc_delta docs (m / cfg.BLOCK_SIZE * cfg.BLOCK_SIZE + i)) cfg.BLOCK_SIZE
      (fun i _ => doc_delta_lt docs _ hl.ids_bound) (Or.inl rfl) a
      (ints_encode cfg (fun i => doc_freq docs (m / cfg.BLOCK_SIZE * cfg.BLOCK_SIZE + i))
        cfg.BLOCK_SIZE ++ rest) it.docDeltas
    have r2 := ints_round_trip cfg hok
      (fun i => doc_freq docs (m / cfg.BLOCK_SIZE * cfg.BLOCK_SIZE + i)) cfg.BLOCK_SIZE
      (fun i _ => hf32 _) (Or.inl rfl)
      (a ++ ints_encode cfg (fun i => doc_delta docs (m / cfg.BLOCK_SIZE * cfg.BLOCK_SIZE + i))
        cfg.BLOCK_SIZE) rest it.docFreqs
    have hmem1 : dec.indexPtr = a ++ ints_encode cfg
        (fun i => doc_delta docs (m / cfg.BLOCK_SIZE * cfg.BLOCK_SIZE + i)) cfg.BLOCK_SIZE ++
        (ints_encode cfg (fun i => doc_freq docs (m / cfg.BLOCK_SIZE * cfg.BLOCK_SIZE + i))
          cfg.BLOCK_SIZE ++ rest) := by
      rw [hmem]; simp [List.append_assoc]
    have hmem2 : dec.indexPtr = a ++ ints_encode cfg
        (fun i => doc_delta docs (m / cfg.BLOCK_SIZE * cfg.BLOCK_SIZE + i)) cfg.BLOCK_SIZE ++
        ints_encode cfg (fun i => doc_freq docs (m / cfg.BLOCK_SIZE * cfg.BLOCK_SIZE + i))
          cfg.BLOCK_SIZE ++ rest := by
      rw [hmem]; simp [List.append_assoc]
    rw [← hmem1, ha, ← hp] at r1
    rw [← hmem2, List.length_append, ha, ← hp] at r2
    obtain ⟨r1p, r1v, _⟩ := r1
    obtain ⟨r2p, r2v, _⟩ := r2
    rw [← r1p] at r2p r2v
    have hsucc := block_start_succ cfg docs dec (m / cfg.BLOCK_SIZE)
    have hmin : min cfg.BLOCK_SIZE (docs.length - m) = cfg.BLOCK_SIZE := by
      rw [hleft] at hfull; omega
    unfold Decoder.refill_documents
    simp only [if_pos hfull]
    constructor
    · exact hm
    · show 0 = m % cfg.BLOCK_SIZE
      omega
    · show cfg.BLOCK_SIZE = min cfg.BLOCK_SIZE (docs.length - m / cfg.BLOCK_SIZE * cfg.BLOCK_SIZE)
      rw [hmB, hmin]
    · intro i hi
      exact r1v i hi
    · intro i _ hi
      exact r2v i hi
    · exact hlast
    · show (ints_decode cfg dec.indexPtr (ints_decode cfg dec.indexPtr it.p it.docDeltas).1
          it.docFreqs).1 = _
      rw [if_pos hjq, r2p, hsucc]
      omega
    · show it.docsLeft - cfg.BLOCK_SIZE =
        docs.length - m / cfg.BLOCK_SIZE * cfg.BLOCK_SIZE - cfg.BLOCK_SIZE
      rw [hmB, hleft]
    · show (it.lastDocID + (ints_decode cfg dec.indexPtr it.p it.docDeltas).2 0) % 2 ^ 32 = _
      rw [r1v 0 hB, hlast, Nat.add_zero, hmB]
      exact hcur
    · show (ints_decode cfg dec.indexPtr (ints_decode cfg dec.indexPtr it.p it.docDeltas).1
          it.docFreqs).2 0 = _
      rw [r2v 0 hB, Nat.add_zero, hmB]
  · have hjq : m / cfg.BLOCK_SIZE = docs.length / cfg.BLOCK_SIZE := by
      have h1 : m / cfg.BLOCK_SIZE ≤ docs.length / cfg.BLOCK_SIZE :=
        Nat.div_le_div_right (by omega)
      have h2 : docs.length / cfg.BLOCK_SIZE < m / cfg.BLOCK_SIZE + 1 := by
        rw [Nat.div_lt_iff_lt_mul hB, Nat.add_mul, hmB]
        omega
      omega
    have hcount : docs.length - m = docs.length % cfg.BLOCK_SIZE := by
      rw [← hjq, hmB] at hnB
      omega
    obtain ⟨a, rest, hmem, ha⟩ := mem_at_tail cfg docs dec hl
    have hb : ∀ k, 0 ≤ k → k < 0 + docs.length % cfg.BLOCK_SIZE →
        doc_delta docs (docs.length / cfg.BLOCK_SIZE * cfg.BLOCK_SIZE + k) < 2 ^ 32 ∧
        doc_freq docs (docs.length / cfg.BLOCK_SIZE * cfg.BLOCK_SIZE + k) < 2 ^ 32 ∧
        (cfg.ENCODE_FREQ1_DOCDELTA = true →
          doc_delta docs (docs.length / cfg.BLOCK_SIZE * cfg.BLOCK_SIZE + k) < 2 ^ 31) := by
      intro k _ hk
      refine ⟨doc_delta_lt docs _ hl.ids_bound, hf32 _, fun h1 => htail h1 _ (by omega) ?_⟩
      omega
    have r := refill_documents_tail_spec cfg.ENCODE_FREQ1_DOCDELTA
      (fun i => doc_delta docs (docs.length / cfg.BLOCK_SIZE * cfg.BLOCK_SIZE + i))
      (fun i => doc_freq docs (docs.length / cfg.BLOCK_SIZE * cfg.BLOCK_SIZE + i))
      (docs.length % cfg.BLOCK_SIZE) 0 a rest it.docDeltas it.docFreqs hb
    have htb : tail_documents cfg.ENCODE_FREQ1_DOCDELTA
      (fun i => doc_delta docs (docs.length / cfg.BLOCK_SIZE * cfg.BLOCK_SIZE + i))
      (fun i => doc_freq docs (docs.length / cfg.BLOCK_SIZE * cfg.BLOCK_SIZE + i))
      (docs.length % cfg.BLOCK_SIZE) 0 = tail_bytes cfg docs := rfl
    rw [htb, ← hmem, ha, ← hjq, ← hp, ← hcount, ← hleft] at r
    obtain ⟨rp, rv, _⟩ := r
    have hmin : min cfg.BLOCK_SIZE (docs.length - m) = docs.length - m := by
      rw [hleft] at hfull; omega
    have hpos : 0 < it.docsLeft := by omega
    unfold Decoder.refill_documents
    simp only [if_neg hfull]
    constructor
    · exact hm
    · show 0 = m % cfg.BLOCK_SIZE
      omega
    · show it.docsLeft = min cfg.BLOCK_SIZE (docs.length - m / cfg.BLOCK_SIZE * cfg.BLOCK_SIZE)
      rw [hmB, hmin, hleft]
    · intro i hi
      exact (rv i (Nat.zero_le _) (by simpa using hi)).1
    · intro i _ hi
      exact (rv i (Nat.zero_le _) (by simpa using hi)).2
    · exact hlast
    · show (refill_documents_tail cfg.ENCODE_FREQ1_DOCDELTA dec.indexPtr it.docsLeft 0 it.p
          it.docDeltas it.docFreqs).1 = _
      rw [if_neg (by omega), rp, hp, hl.chunkEnd_eq, hjq]
      simp only [block_start]
    · show 0 = docs.length - m / cfg.BLOCK_SIZE * cfg.BLOCK_SIZE - it.docsLeft
      rw [hmB]; omega
    · show (it.lastDocID + (refill_documents_tail cfg.ENCODE_FREQ1_DOCDELTA dec.indexPtr
          it.docsLeft 0 it.p it.docDeltas it.docFreqs).2.1 0) % 2 ^ 32 = _
      have h0 := (rv 0 (Nat.zero_le _) (by simpa using hpos)).1
      simp only [Nat.add_zero, ← hjq, hmB] at h0
      rw [h0, hlast]
      exact hcur
    · show (refill_documents_tail cfg.ENCODE_FREQ1_DOCDELTA dec.indexPtr
          it.docsLeft 0 it.p it.docDeltas it.docFreqs).2.2 0 = _
      have h0 := (rv 0 (Nat.zero_le _) (by simpa using hpos)).2
      simp only [Nat.add_zero, ← hjq, hmB] at h0
      exact h0

end Lucene

namespace Lucene

theorem refill_hits_docs_view (cfg : Config) (dec : Decoder) (it : PostingsListIterator) :
    (dec.refill_hits cfg it).docs_view = it.docs_view := by
  unfold Decoder.refill_hits
  by_cases h : it.hitsLeft ≥ cfg.BLOCK_SIZE
  · simp only [if_pos h]; rfl
  · simp only [if_neg h]; rfl

theorem refill_hits_counts (cfg : Config) (dec : Decoder) (it : PostingsListIterator) :
    (dec.refill_hits cfg it).hitsIndex = 0 ∧
      (dec.refill_hits cfg it).bufferedHits = min cfg.BLOCK_SIZE it.hitsLeft ∧
      (dec.refill_hits cfg it).hitsLeft = it.hitsLeft - min cfg.BLOCK_SIZE it.hitsLeft ∧
      (dec.refill_hits cfg it).skippedHits = it.skippedHits := by
  unfold Decoder.refill_hits
  by_cases h : it.hitsLeft ≥ cfg.BLOCK_SIZE
  · simp only [if_pos h]
    refine ⟨trivial, ?_, ?_, trivial⟩
    · show cfg.BLOCK_SIZE = _
      omega
    · show it.hitsLeft - cfg.BLOCK_SIZE = _
      omega
  · simp only [if_neg h]
    refine ⟨trivial, ?_, ?_, trivial⟩
    · show it.hitsLeft = _
      omega
    · show 0 = _
      omega

/-- The loop of `skip_hits` ends when it is asked to skip no more than the queued hits,
and leaves the counters consistent. -/
theorem skip_hits_loop_count (cfg : Config) (hB : 0 < cfg.BLOCK_SIZE) (dec : Decoder)
    (h : Nat) : ∀ (fuel : Nat) (it : PostingsListIterator) (rem : Nat), 0 < rem → rem ≤ fuel →
      rem ≤ it.skippedHits → hits_count_ok dec it h →
      ∃ it1, dec.skip_hits_loop cfg fuel it rem = some it1 ∧ hits_count_ok dec it1 h ∧
        it1.skippedHits = it.skippedHits - rem ∧ it1.docs_view = it.docs_view := by
  intro fuel
  induction fuel with
  | zero => intro it rem h1 h2; omega
  | succ fuel ih =>
    intro it rem hrem hfuel hsk hc
    obtain ⟨c1, c2, c3, c4⟩ := hc
    rw [Decoder.skip_hits_loop]
    by_cases hfast : it.hitsIndex + rem = it.bufferedHits
    · rw [if_pos hfast]
      refine ⟨_, rfl, ⟨?_, ?_, ?_, ?_⟩, rfl, rfl⟩
      · show (0 : Nat) ≤ 0
        omega
      · show (0 - 0) + it.hitsLeft + h = dec.totalHits + (it.skippedHits - rem)
        omega
      · show it.skippedHits - rem ≤ h
        omega
      · exact c4
    · rw [if_neg hfast]
      obtain ⟨q1, q2, q3, q4⟩ := refill_hits_counts cfg dec it
      have hv := refill_hits_docs_view cfg dec it
      generalize hit1 : (if it.hitsIndex = it.bufferedHits then dec.refill_hits cfg it else it)
        = it1
      have hk : it1.hitsIndex ≤ it1.bufferedHits ∧
          (it1.bufferedHits - it1.hitsIndex) + it1.hitsLeft + h =
            dec.totalHits + it1.skippedHits ∧ it1.skippedHits = it.skippedHits ∧
          it1.hitsIndex < it1.bufferedHits ∧ it1.docs_view = it.docs_view := by
        by_cases he : it.hitsIndex = it.bufferedHits
        · rw [if_pos he] at hit1
          subst hit1
          rw [q1, q2, q3, q4]
          refine ⟨Nat.zero_le _, ?_, rfl, ?_, hv⟩
          · omega
          · have : 0 < it.hitsLeft := by omega
            omega
        · rw [if_neg he] at hit1
          subst hit1
          exact ⟨c1, c2, rfl, by omega, rfl⟩
      obtain ⟨k1, k2, k3, k4, k5⟩ := hk
      have hstep : min rem (it1.bufferedHits - it1.hitsIndex) ≠ 0 := by omega
      simp only [if_neg hstep]
      by_cases hdone : rem - min rem (it1.bufferedHits - it1.hitsIndex) = 0
      · rw [if_pos hdone]
        refine ⟨_, rfl, ⟨?_, ?_, ?_, ?_⟩, ?_, k5⟩
        · show it1.hitsIndex + min rem (it1.bufferedHits - it1.hitsIndex) ≤ it1.bufferedHits
          omega
        · show (it1.bufferedHits - (it1.hitsIndex + min rem (it1.bufferedHits - it1.hitsIndex)))
            + it1.hitsLeft + h = dec.totalHits +
              (it1.skippedHits - min rem (it1.bufferedHits - it1.hitsIndex))
          omega
        · show it1.skippedHits - min rem (it1.bufferedHits - it1.hitsIndex) ≤ h
          omega
        · exact c4
        · show it1.skippedHits - min rem (it1.bufferedHits - it1.hitsIndex) = _
          omega
      · rw [if_neg hdone]
        obtain ⟨it2, e1, e2, e3, e4⟩ := ih
          { it1 with
            payloadsIt := it1.payloadsIt + payload_lengths_sum it1.hitsPayloadLengths
              it1.hitsIndex (min rem (it1.bufferedHits - it1.hitsIndex))
            hitsIndex := it1.hitsIndex + min rem (it1.bufferedHits - it1.hitsIndex)
            skippedHits := it1.skippedHits - min rem (it1.bufferedHits - it1.hitsIndex) }
          (rem - min rem (it1.bufferedHits - it1.hitsIndex)) (by omega) (by omega)
          (by show _ ≤ it1.skippedHits - min rem (it1.bufferedHits - it1.hitsIndex); omega)
          ⟨by show it1.hitsIndex + min rem (it1.bufferedHits - it1.hitsIndex) ≤ it1.bufferedHits
              omega,
           by show (it1.bufferedHits - (it1.hitsIndex +
                min rem (it1.bufferedHits - it1.hitsIndex))) + it1.hitsLeft + h =
                dec.totalHits + (it1.skippedHits - min rem (it1.bufferedHits - it1.hitsIndex))
              omega,
           by show it1.skippedHits - min rem (it1.bufferedHits - it1.hitsIndex) ≤ h
              omega, c4⟩
        refine ⟨it2, e1, e2, ?_, ?_⟩
        · rw [e3]
          show it1.skippedHits - min rem (it1.bufferedHits - it1.hitsIndex) - _ = _
          omega
        · rw [e4]
          exact k5

/-- Draining the queued hits: `skip_hits(it, it.skippedHits)` ends, empties the queue, and
does not touch the document stream. -/
theorem skip_hits_count (cfg : Config) (hB : 0 < cfg.BLOCK_SIZE) (dec : Decoder) (h : Nat)
    (it : PostingsListIterator) (hc : hits_count_ok dec it h) :
    ∃ it1, dec.skip_hits cfg it it.skippedHits = some it1 ∧ hits_count_ok dec it1 h ∧
      it1.skippedHits = 0 ∧ it1.docs_view = it.docs_view := by
  unfold Decoder.skip_hits
  by_cases h0 : it.skippedHits = 0
  · rw [if_pos h0]
    exact ⟨it, rfl, hc, h0, rfl⟩
  · rw [if_neg h0]
    obtain ⟨it1, e1, e2, e3, e4⟩ := skip_hits_loop_count cfg hB dec h it.skippedHits it
      it.skippedHits (by omega) (le_refl _) (le_refl _) hc
    exact ⟨it1, e1, e2, by omega, e4⟩

end Lucene

namespace Lucene

theorem prev_id_succ (docs : List doc_input) (k : Nat) : prev_id docs (k + 1) = doc_id docs k := by
  simp [prev_id]

theorem tail_documents_length_pos (freq1 : Bool) (δ f : Nat → Nat) (count i : Nat)
    (h : 0 < count) : 0 < (tail_documents freq1 δ f count i).length := by
  cases count with
  | zero => omega
  | succ c =>
    rw [tail_documents, List.length_append]
    have h1 := encode_varbyte32_length_pos (δ i * 2 % 2 ^ 32 + 1)
    have h2 := encode_varbyte32_length_pos (δ i * 2 % 2 ^ 32)
    have h3 := encode_varbyte32_length_pos (δ i)
    split
    · split
      · omega
      · rw [List.length_append]; omega
    · rw [List.length_append]; omega

theorem block_start_lt (cfg : Config) (docs : List doc_input) (dec : Decoder) (j : Nat) :
    block_start cfg docs dec j < block_start cfg docs dec (j + 1) := by
  rw [block_start_succ]
  have := ints_encode_length_pos cfg (fun i => doc_delta docs (j * cfg.BLOCK_SIZE + i))
    cfg.BLOCK_SIZE
  omega

theorem block_start_mono (cfg : Config) (docs : List doc_input) (dec : Decoder) (j q : Nat)
    (h : j ≤ q) : block_start cfg docs dec j ≤ block_start cfg docs dec q := by
  have := blocks_bytes_length_mono cfg docs j q h
  simp only [block_start]
  omega

/-- Between two blocks the cursor is at the end of the chunk exactly when every document
is behind it. -/
theorem at_gap_p (cfg : Config) (docs : List doc_input)
    (dec : Decoder) (hl : chunk_layout cfg docs dec) (v : docs_view) (m : Nat)
    (hg : at_gap cfg docs dec v m) : v.p = dec.chunkEnd ↔ m = docs.length := by
  have hp := hg.p_eq
  constructor
  · intro h
    by_contra hne
    rw [if_neg hne, h, hl.chunkEnd_eq] at hp
    have hmod : m % cfg.BLOCK_SIZE = 0 := by
      rcases hg.m_block with h1 | h1
      · exact h1
      · exact absurd h1 hne
    have hmB : m / cfg.BLOCK_SIZE * cfg.BLOCK_SIZE = m :=
      Nat.div_mul_cancel (Nat.dvd_of_mod_eq_zero hmod)
    have hnB := div_mul_add_mod docs.length cfg.BLOCK_SIZE
    have hle : m / cfg.BLOCK_SIZE ≤ docs.length / cfg.BLOCK_SIZE :=
      Nat.div_le_div_right hg.m_le
    have hlt : m < docs.length := lt_of_le_of_ne hg.m_le hne
    by_cases hq : m / cfg.BLOCK_SIZE = docs.length / cfg.BLOCK_SIZE
    · have hR : 0 < docs.length % cfg.BLOCK_SIZE := by
        rw [← hq, hmB] at hnB
        omega
      have := tail_documents_length_pos cfg.ENCODE_FREQ1_DOCDELTA
        (fun i => doc_delta docs (docs.length / cfg.BLOCK_SIZE * cfg.BLOCK_SIZE + i))
        (fun i => doc_freq docs (docs.length / cfg.BLOCK_SIZE * cfg.BLOCK_SIZE + i))
        (docs.length % cfg.BLOCK_SIZE) 0 hR
      rw [hq] at hp
      simp only [block_start, tail_bytes] at hp this ⊢
      omega
    · have h1 := block_start_lt cfg docs dec (m / cfg.BLOCK_SIZE)
      have h2 := block_start_mono cfg docs dec (m / cfg.BLOCK_SIZE + 1)
        (docs.length / cfg.BLOCK_SIZE) (by omega)
      simp only [block_start] at hp h1 h2
      omega
  · intro h
    rw [if_pos h] at hp
    exact hp

theorem tail_bytes_nil (cfg : Config) (docs : List doc_input)
    (h : docs.length % cfg.BLOCK_SIZE = 0) : tail_bytes cfg docs = [] := by
  simp [tail_bytes, h, tail_documents]

/-- Stepping over the document `k` inside its block leads to the document `k + 1`. -/
theorem on_doc_succ (cfg : Config) (hB : 0 < cfg.BLOCK_SIZE) (docs : List doc_input)
    (dec : Decoder) (hl : chunk_layout cfg docs dec) (v w : docs_view) (k : Nat)
    (ho : on_doc cfg docs dec v k) (hin : v.docsIndex + 1 < v.bufferedDocs)
    (h1 : w.lastDocID = (v.lastDocID + v.docDeltas v.docsIndex) % 2 ^ 32)
    (h2 : w.docsIndex = v.docsIndex + 1) (h3 : w.bufferedDocs = v.bufferedDocs)
    (h4 : w.docDeltas = v.docDeltas) (h5 : w.docFreqs = v.docFreqs) (h6 : w.p = v.p)
    (h7 : w.docsLeft = v.docsLeft)
    (h8 : w.curDocument_id = (w.lastDocID + v.docDeltas (v.docsIndex + 1)) % 2 ^ 32)
    (h9 : w.freq = v.docFreqs (v.docsIndex + 1)) :
    on_doc cfg docs dec w (k + 1) := by
  have hk := div_mul_add_mod k cfg.BLOCK_SIZE
  have hr := Nat.mod_lt k hB
  have hidx := ho.docsIndex_eq
  have hbuf := ho.bufferedDocs_eq
  have hne : k % cfg.BLOCK_SIZE + 1 ≠ cfg.BLOCK_SIZE := by omega
  obtain ⟨hm1, hd1⟩ := (succ_mod_div k cfg.BLOCK_SIZE hB).2 hne
  have hk1 : k + 1 < docs.length := by omega
  have hd := ho.deltas_eq v.docsIndex (by omega)
  rw [hidx, hk] at hd
  have hlast : w.lastDocID = doc_id docs k := by
    rw [h1, ho.lastDocID_eq, hidx, hd, doc_delta_add docs k (hl.ids_sorted k ho.k_lt)]
    exact Nat.mod_eq_of_lt (hl.ids_bound k ho.k_lt)
  have hidx1 : k / cfg.BLOCK_SIZE * cfg.BLOCK_SIZE + (v.docsIndex + 1) = k + 1 := by omega
  constructor
  · exact hk1
  · rw [h2, hm1, hidx]
  · rw [h3, hd1]; exact hbuf
  · intro i hi
    rw [h4, hd1]
    exact ho.deltas_eq i (by omega)
  · intro i hle hi
    rw [h5, hd1]
    exact ho.freqs_eq i (by omega) (by omega)
  · rw [hlast, prev_id_succ]
  · rw [h6, hd1]; exact ho.p_eq
  · rw [h7, h3, hd1]; exact ho.docsLeft_eq
  · rw [h8, hlast, ho.deltas_eq _ hin, hidx1]
    have := doc_delta_add docs (k + 1) (hl.ids_sorted (k + 1) hk1)
    rw [prev_id_succ] at this
    rw [this]
    exact Nat.mod_eq_of_lt (hl.ids_bound (k + 1) hk1)
  · rw [h9, ho.freqs_eq _ (Nat.le_succ _) hin, hidx1]

/-- Stepping over the last document of a block leads between the blocks. -/
theorem on_doc_gap (cfg : Config) (hB : 0 < cfg.BLOCK_SIZE) (docs : List doc_input)
    (dec : Decoder) (hl : chunk_layout cfg docs dec) (v w : docs_view) (k : Nat)
    (ho : on_doc cfg docs dec v k) (hin : ¬ (v.docsIndex + 1 < v.bufferedDocs))
    (h1 : w.lastDocID = (v.lastDocID + v.docDeltas v.docsIndex) % 2 ^ 32)
    (h6 : w.p = v.p) (h7 : w.docsLeft = v.docsLeft) :
    at_gap cfg docs dec w (k + 1) := by
  have hk := div_mul_add_mod k cfg.BLOCK_SIZE
  have hn := div_mul_add_mod docs.length cfg.BLOCK_SIZE
  have hr := Nat.mod_lt k hB
  have hR := Nat.mod_lt docs.length hB
  have hidx := ho.docsIndex_eq
  have hbuf := ho.bufferedDocs_eq
  have hklt := ho.k_lt
  have hqle : k / cfg.BLOCK_SIZE ≤ docs.length / cfg.BLOCK_SIZE :=
    Nat.div_le_div_right (le_of_lt hklt)
  have hbpos : v.docsIndex < v.bufferedDocs := by
    rw [hbuf, hidx]
    omega
  have hd := ho.deltas_eq v.docsIndex hbpos
  rw [hidx, hk] at hd
  have hlast : w.lastDocID = doc_id docs k := by
    rw [h1, ho.lastDocID_eq, hidx, hd, doc_delta_add docs k (hl.ids_sorted k ho.k_lt)]
    exact Nat.mod_eq_of_lt (hl.ids_bound k ho.k_lt)
  have hsm := succ_mod_div k cfg.BLOCK_SIZE hB
  by_cases hq : k / cfg.BLOCK_SIZE < docs.length / cfg.BLOCK_SIZE
  · have hmul : (k / cfg.BLOCK_SIZE + 1) * cfg.BLOCK_SIZE ≤
        docs.length / cfg.BLOCK_SIZE * cfg.BLOCK_SIZE := Nat.mul_le_mul_right _ hq
    rw [Nat.add_mul, Nat.one_mul] at hmul
    have hfullb : v.bufferedDocs = cfg.BLOCK_SIZE := by omega
    have hend : k % cfg.BLOCK_SIZE + 1 = cfg.BLOCK_SIZE := by omega
    obtain ⟨hm1, hd1⟩ := hsm.1 hend
    have hdiv : (k + 1) / cfg.BLOCK_SIZE = k / cfg.BLOCK_SIZE + 1 := by
      have : k + 1 = (k / cfg.BLOCK_SIZE + 1) * cfg.BLOCK_SIZE := by
        rw [Nat.add_mul, Nat.one_mul]; omega
      rw [this, Nat.mul_div_cancel _ hB]
    constructor
    · omega
    · exact Or.inl hm1
    · rw [hlast, prev_id_succ]
    · rw [h6, ho.p_eq, if_pos hq, hdiv]
      by_cases hlastb : k + 1 = docs.length
      · rw [if_pos hlastb, hl.chunkEnd_eq]
        have hR0 : docs.length % cfg.BLOCK_SIZE = 0 := by rw [← hlastb]; exact hm1
        have hQ : docs.length / cfg.BLOCK_SIZE = k / cfg.BLOCK_SIZE + 1 := by
          rw [← hlastb]; exact hdiv
        rw [tail_bytes_nil cfg docs hR0, hQ]
        simp [block_start]
      · rw [if_neg hlastb]
    · rw [h7, ho.docsLeft_eq, hfullb]
      omega
  · have hqe : k / cfg.BLOCK_SIZE = docs.length / cfg.BLOCK_SIZE := by omega
    have hkn : k + 1 = docs.length := by
      rw [hqe] at hbuf hk
      omega
    constructor
    · omega
    · exact Or.inr hkn
    · rw [hlast, prev_id_succ]
    · rw [h6, ho.p_eq, if_neg hq, if_pos hkn]
    · rw [h7, ho.docsLeft_eq, hbuf, hqe]
      omega

end Lucene

namespace Lucene

/-- The state `next` works on once the current document is stepped over. -/
theorem next_eq_in_block (cfg : Config) (dec : Decoder) (it : PostingsListIterator)
    (h : it.docsIndex + 1 < it.bufferedDocs) :
    dec.next cfg it = some { it with
      skippedHits := (it.skippedHits + it.docFreqs it.docsIndex) % 2 ^ 32
      lastDocID := (it.lastDocID + it.docDeltas it.docsIndex) % 2 ^ 32
      curDocument_id := ((it.lastDocID + it.docDeltas it.docsIndex) % 2 ^ 32 +
        it.docDeltas (it.docsIndex + 1)) % 2 ^ 32
      freq := it.docFreqs (it.docsIndex + 1)
      docsIndex := it.docsIndex + 1 } := by
  unfold Decoder.next
  have h1 : ¬ (it.docsIndex + 1 ≥ it.bufferedDocs) := by omega
  simp only [if_neg h1]

theorem next_eq_end (cfg : Config) (dec : Decoder) (it : PostingsListIterator)
    (h : ¬ (it.docsIndex + 1 < it.bufferedDocs)) (hp : it.p = dec.chunkEnd) :
    dec.next cfg it = some { it with
      skippedHits := (it.skippedHits + it.docFreqs it.docsIndex) % 2 ^ 32
      lastDocID := (it.lastDocID + it.docDeltas it.docsIndex) % 2 ^ 32
      curDocument_id := DocIDsEND
      docsIndex := it.docsIndex + 1 } := by
  unfold Decoder.next
  have h1 : it.docsIndex + 1 ≥ it.bufferedDocs := by omega
  simp only [if_pos h1, if_neg (not_not.2 hp)]
  rfl

theorem next_eq_gap (cfg : Config) (dec : Decoder) (it : PostingsListIterator)
    (h : ¬ (it.docsIndex + 1 < it.bufferedDocs)) (hp : it.p ≠ dec.chunkEnd) :
    dec.next cfg it =
      match dec.decode_next_block cfg { it with
        skippedHits := (it.skippedHits + it.docFreqs it.docsIndex) % 2 ^ 32
        lastDocID := (it.lastDocID + it.docDeltas it.docsIndex) % 2 ^ 32
        docsIndex := it.docsIndex + 1 } with
      | none => none
      | some it2 =>
        some { it2 with
          curDocument_id := (it2.lastDocID + it2.docDeltas it2.docsIndex) % 2 ^ 32
          freq := it2.docFreqs it2.docsIndex } := by
  unfold Decoder.next
  have h1 : it.docsIndex + 1 ≥ it.bufferedDocs := by omega
  simp only [if_pos h1, if_pos hp]

end Lucene

namespace Lucene

theorem hits_count_ok_of_view (dec : Decoder) (a b : PostingsListIterator) (h : Nat)
    (hv : a.hits_view = b.hits_view) (hc : hits_count_ok dec b h) : hits_count_ok dec a h := by
  have e1 : a.hitsIndex = b.hitsIndex := congrArg hits_view.hitsIndex hv
  have e2 : a.bufferedHits = b.bufferedHits := congrArg hits_view.bufferedHits hv
  have e3 : a.hitsLeft = b.hitsLeft := congrArg hits_view.hitsLeft hv
  have e4 : a.skippedHits = b.skippedHits := congrArg hits_view.skippedHits hv
  unfold hits_count_ok at hc ⊢
  rw [e1, e2, e3, e4]
  exact hc

theorem new_iterator_gap (cfg : Config) (docs : List doc_input) (dec : Decoder)
    (hl : chunk_layout cfg docs dec) : at_gap cfg docs dec dec.new_iterator.docs_view 0 := by
  constructor
  · exact Nat.zero_le _
  · exact Or.inl (Nat.zero_mod _)
  · rfl
  · show dec.postingListBase + 14 = _
    by_cases h : 0 = docs.length
    · rw [if_pos h, hl.chunkEnd_eq]
      have h1 : docs.length / cfg.BLOCK_SIZE = 0 := by rw [← h]; exact Nat.zero_div _
      have h2 : docs.length % cfg.BLOCK_SIZE = 0 := by rw [← h]; exact Nat.zero_mod _
      rw [tail_bytes_nil cfg docs h2, h1]
      simp [blocks_bytes]
    · rw [if_neg h, Nat.zero_div]
      simp [block_start, blocks_bytes]
  · show dec.totalDocuments = _
    rw [hl.totalDocuments_eq]
    rfl

theorem new_iterator_count (dec : Decoder) : hits_count_ok dec dec.new_iterator 0 := by
  refine ⟨le_refl _, ?_, le_refl _, Nat.zero_le _⟩
  show (0 - 0) + dec.totalHits + 0 = dec.totalHits + 0
  omega

/-- Between two blocks with documents left, `decode_next_block` drains the queued hits
and decodes the next block. -/
theorem decode_next_block_gap (cfg : Config) (hok : cfg.codec_ok) (hB : 0 < cfg.BLOCK_SIZE)
    (docs : List doc_input) (dec : Decoder) (hl : chunk_layout cfg docs dec)
    (htail : tail_deltas_ok cfg docs) (it : PostingsListIterator) (m h : Nat)
    (hg : at_gap cfg docs dec it.docs_view m) (hm : m < docs.length)
    (hc : hits_count_ok dec it h) :
    ∃ it1, dec.decode_next_block cfg it = some it1 ∧ on_doc cfg docs dec it1.docs_view m ∧
      hits_count_ok dec it1 h ∧ it1.skippedHits = 0 ∧ it1.skipListIdx = it.skipListIdx := by
  obtain ⟨it0, e1, e2, e3, e4⟩ := skip_hits_count cfg hB dec h it hc
  unfold Decoder.decode_next_block
  rw [e1]
  refine ⟨_, rfl, ?_, ?_, ?_, ?_⟩
  · exact refill_documents_spec cfg hok hB docs dec hl htail it0 m (by rw [e4]; exact hg) hm
  · exact hits_count_ok_of_view dec _ it0 h (refill_documents_hits_view cfg dec it0) e2
  · have := congrArg hits_view.skippedHits (refill_documents_hits_view cfg dec it0)
    exact this.trans e3
  · rw [refill_documents_skipListIdx]
    exact congrArg docs_view.skipListIdx e4

theorem on_doc_index_lt (cfg : Config) (hB : 0 < cfg.BLOCK_SIZE) (docs : List doc_input)
    (dec : Decoder) (v : docs_view) (k : Nat) (ho : on_doc cfg docs dec v k) :
    v.docsIndex < v.bufferedDocs := by
  have hk := div_mul_add_mod k cfg.BLOCK_SIZE
  have hr := Nat.mod_lt k hB
  have := ho.k_lt
  rw [ho.bufferedDocs_eq, ho.docsIndex_eq]
  omega

theorem on_doc_cur (cfg : Config) (hB : 0 < cfg.BLOCK_SIZE) (docs : List doc_input)
    (dec : Decoder) (hl : chunk_layout cfg docs dec) (v : docs_view) (k : Nat)
    (ho : on_doc cfg docs dec v k) :
    (v.lastDocID + v.docDeltas v.docsIndex) % 2 ^ 32 = doc_id docs k ∧
      v.docFreqs v.docsIndex = doc_freq docs k := by
  have hk := div_mul_add_mod k cfg.BLOCK_SIZE
  have hlt := on_doc_index_lt cfg hB docs dec v k ho
  have hd := ho.deltas_eq v.docsIndex hlt
  have hf := ho.freqs_eq v.docsIndex (Nat.le_refl _) hlt
  rw [ho.docsIndex_eq, hk] at hd hf
  rw [ho.docsIndex_eq]
  constructor
  · rw [ho.lastDocID_eq, hd, doc_delta_add docs k (hl.ids_sorted k ho.k_lt)]
    exact Nat.mod_eq_of_lt (hl.ids_bound k ho.k_lt)
  · exact hf

theorem hits_count_step (docs : List doc_input) (dec : Decoder) (it : PostingsListIterator)
    (k : Nat) (hk : k < docs.length) (htot : dec.totalHits = hits_before docs docs.length)
    (h32 : hits_before docs docs.length < 2 ^ 32)
    (hc : hits_count_ok dec it (hits_before docs k)) :
    it.hitsIndex ≤ it.bufferedHits ∧
      (it.bufferedHits - it.hitsIndex) + it.hitsLeft + hits_before docs (k + 1) =
        dec.totalHits + (it.skippedHits + doc_freq docs k) % 2 ^ 32 ∧
      (it.skippedHits + doc_freq docs k) % 2 ^ 32 ≤ hits_before docs (k + 1) ∧
      hits_before docs (k + 1) ≤ dec.totalHits := by
  obtain ⟨c1, c2, c3, c4⟩ := hc
  have hm := hits_before_mono docs (k + 1) docs.length hk
  have hs : hits_before docs (k + 1) = hits_before docs k + doc_freq docs k := rfl
  have hlt : it.skippedHits + doc_freq docs k < 2 ^ 32 := by omega
  rw [Nat.mod_eq_of_lt hlt]
  refine ⟨c1, ?_, ?_, ?_⟩ <;> omega

/-- The call `next` in a state whose current block is used up and whose cursor, once the
current document is stepped over, stands between two blocks. -/
theorem next_at_gap (cfg : Config) (hok : cfg.codec_ok) (hB : 0 < cfg.BLOCK_SIZE)
    (docs : List doc_input) (dec : Decoder) (hl : chunk_layout cfg docs dec)
    (htail : tail_deltas_ok cfg docs) (it : PostingsListIterator) (w : docs_view) (m h : Nat)
    (hin : ¬ (it.docsIndex + 1 < it.bufferedDocs))
    (hg : at_gap cfg docs dec w m)
    (h1 : w.lastDocID = (it.lastDocID + it.docDeltas it.docsIndex) % 2 ^ 32)
    (h2 : w.p = it.p) (h3 : w.docsLeft = it.docsLeft)
    (hc : it.hitsIndex ≤ it.bufferedHits ∧
      (it.bufferedHits - it.hitsIndex) + it.hitsLeft + h =
        dec.totalHits + (it.skippedHits + it.docFreqs it.docsIndex) % 2 ^ 32 ∧
      (it.skippedHits + it.docFreqs it.docsIndex) % 2 ^ 32 ≤ h ∧ h ≤ dec.totalHits) :
    ∃ it1, dec.next cfg it = some it1 ∧
      ((m < docs.length ∧ on_doc cfg docs dec it1.docs_view m ∧ hits_count_ok dec it1 h ∧
          it1.skipListIdx = it.skipListIdx) ∨
       (m = docs.length ∧ exhausted dec it1)) := by
  have hp := at_gap_p cfg docs dec hl w m hg
  rw [h2] at hp
  by_cases hpe : it.p = dec.chunkEnd
  · rw [next_eq_end cfg dec it hin hpe]
    exact ⟨_, rfl, Or.inr ⟨hp.1 hpe, hpe, rfl, by show it.bufferedDocs ≤ it.docsIndex + 1; omega⟩⟩
  · have hm : m < docs.length := lt_of_le_of_ne hg.m_le (fun e => hpe (hp.2 e))
    rw [next_eq_gap cfg dec it hin hpe]
    obtain ⟨it1, e1, e2, e3, e4, e5⟩ := decode_next_block_gap cfg hok hB docs dec hl htail
      { it with
        skippedHits := (it.skippedHits + it.docFreqs it.docsIndex) % 2 ^ 32
        lastDocID := (it.lastDocID + it.docDeltas it.docsIndex) % 2 ^ 32
        docsIndex := it.docsIndex + 1 } m h
      ⟨hg.m_le, hg.m_block, h1 ▸ hg.lastDocID_eq, h2 ▸ hg.p_eq, h3 ▸ hg.docsLeft_eq⟩ hm hc
    rw [e1]
    obtain ⟨hcur, hfr⟩ := on_doc_cur cfg hB docs dec hl _ m e2
    refine ⟨_, rfl, Or.inl ⟨hm, ?_, e3, e5⟩⟩
    exact ⟨e2.k_lt, e2.docsIndex_eq, e2.bufferedDocs_eq, e2.deltas_eq, e2.freqs_eq,
      e2.lastDocID_eq, e2.p_eq, e2.docsLeft_eq, hcur, hfr⟩

/-- The first `next` of a new iterator. -/
theorem next_new_iterator (cfg : Config) (hok : cfg.codec_ok) (hB : 0 < cfg.BLOCK_SIZE)
    (docs : List doc_input) (dec : Decoder) (hl : chunk_layout cfg docs dec)
    (htail : tail_deltas_ok cfg docs) :
    ∃ it1, dec.next cfg dec.new_iterator = some it1 ∧
      ((0 < docs.length ∧ on_doc cfg docs dec it1.docs_view 0 ∧ hits_count_ok dec it1 0 ∧
          it1.skipListIdx = 0) ∨
       (0 = docs.length ∧ exhausted dec it1)) :=
  next_at_gap cfg hok hB docs dec hl htail dec.new_iterator dec.new_iterator.docs_view 0 0
    (by show ¬ (0 + 1 < 0); omega) (new_iterator_gap cfg docs dec hl) rfl rfl rfl
    (new_iterator_count dec)

/-- The call `next` on the document `k`. -/
theorem next_on_doc (cfg : Config) (hok : cfg.codec_ok) (hB : 0 < cfg.BLOCK_SIZE)
    (docs : List doc_input) (dec : Decoder) (hl : chunk_layout cfg docs dec)
    (htail : tail_deltas_ok cfg docs) (it : PostingsListIterator) (k : Nat)
    (ho : on_doc cfg docs dec it.docs_view k)
    (hc : hits_count_ok dec it (hits_before docs k)) :
    ∃ it1, dec.next cfg it = some it1 ∧
      ((k + 1 < docs.length ∧ on_doc cfg docs dec it1.docs_view (k + 1) ∧
          hits_count_ok dec it1 (hits_before docs (k + 1)) ∧
          it1.skipListIdx = it.skipListIdx) ∨
       (k + 1 = docs.length ∧ exhausted dec it1)) := by
  obtain ⟨hcur, hfr⟩ := on_doc_cur cfg hB docs dec hl _ k ho
  have hfr1 : it.docFreqs it.docsIndex = doc_freq docs k := hfr
  have hstep := hits_count_step docs dec it k ho.k_lt hl.totalHits_eq hl.totalHits_lt hc
  rw [← hfr1] at hstep
  by_cases hin : it.docsIndex + 1 < it.bufferedDocs
  · rw [next_eq_in_block cfg dec it hin]
    have ho1 := on_doc_succ cfg hB docs dec hl it.docs_view
      ({ it with
        skippedHits := (it.skippedHits + it.docFreqs it.docsIndex) % 2 ^ 32
        lastDocID := (it.lastDocID + it.docDeltas it.docsIndex) % 2 ^ 32
        curDocument_id := ((it.lastDocID + it.docDeltas it.docsIndex) % 2 ^ 32 +
          it.docDeltas (it.docsIndex + 1)) % 2 ^ 32
        freq := it.docFreqs (it.docsIndex + 1)
        docsIndex := it.docsIndex + 1 } : PostingsListIterator).docs_view k ho hin
      rfl rfl rfl rfl rfl rfl rfl rfl rfl
    exact ⟨_, rfl, Or.inl ⟨ho1.k_lt, ho1, hstep, rfl⟩⟩
  · have hg := on_doc_gap cfg hB docs dec hl it.docs_view
      ({ it with
        lastDocID := (it.lastDocID + it.docDeltas it.docsIndex) % 2 ^ 32 } :
        PostingsListIterator).docs_view k ho hin rfl rfl rfl
    exact next_at_gap cfg hok hB docs dec hl htail it _ (k + 1) (hits_before docs (k + 1)) hin
      hg rfl rfl rfl hstep

end Lucene

namespace Lucene

/-- A term written by the encoder is laid out as the decoder reads it. -/
theorem write_term_layout (cfg : Config) (hB : 0 < cfg.BLOCK_SIZE)
    (hB16 : cfg.BLOCK_SIZE ≤ 2 ^ 16) (hstep : 1 ≤ cfg.SKIPLIST_STEP) (e0 e : Encoder)
    (docs : List doc_input) (tctx : term_index_ctx)
    (hw : Encoder.write_term cfg e0 docs = some (e, tctx))
    (hsz : e.indexOut.length < 2 ^ 32) (hhits : hits_before docs docs.length < 2 ^ 32)
    (hids : ∀ i < docs.length, doc_id docs i < 2 ^ 32) (hitsData : List Nat) :
    chunk_layout cfg docs (Decoder.init tctx e.indexOut hitsData) := by
  unfold Encoder.write_term at hw
  cases hadd : Encoder.add_documents cfg (e0.begin_term cfg) docs with
  | none => rw [hadd] at hw; exact absurd hw (by simp)
  | some e1 =>
    rw [hadd] at hw
    have hinv0 := begin_term_inv cfg hstep e0.indexOut e0.positionsOut docs e0 rfl rfl
    have hinv := add_documents_inv cfg hB hstep e0.indexOut e0.positionsOut docs docs.length 0
      (e0.begin_term cfg) e1 (by omega) hinv0 (by simpa using hadd)
    obtain ⟨sl, psize, h1, h2, h3, h4, h5, h6, _, _⟩ := end_term_spec cfg hB hstep e0.indexOut
      e0.positionsOut docs e1 e tctx hinv hw
    exact (init_layout cfg hB hB16 docs e0.indexOut e0.positionsOut.length psize sl e.indexOut
      hitsData tctx h1 h2 h3 h4 h5 h6 hsz hhits hids hinv.ids_sorted).1

/-- The ids of a term the encoder accepted are strictly increasing, the first above 0. -/
theorem write_term_sorted (cfg : Config) (hB : 0 < cfg.BLOCK_SIZE)
    (hstep : 1 ≤ cfg.SKIPLIST_STEP) (e0 e : Encoder) (docs : List doc_input)
    (tctx : term_index_ctx) (hw : Encoder.write_term cfg e0 docs = some (e, tctx)) :
    ∀ i < docs.length, prev_id docs i < doc_id docs i := by
  unfold Encoder.write_term at hw
  cases hadd : Encoder.add_documents cfg (e0.begin_term cfg) docs with
  | none => rw [hadd] at hw; exact absurd hw (by simp)
  | some e1 =>
    have hinv0 := begin_term_inv cfg hstep e0.indexOut e0.positionsOut docs e0 rfl rfl
    have hinv := add_documents_inv cfg hB hstep e0.indexOut e0.positionsOut docs docs.length 0
      (e0.begin_term cfg) e1 (by omega) hinv0 (by simpa using hadd)
    exact hinv.ids_sorted

/-- Iterating `next` from the document `k`. -/
theorem next_iter_on_doc (cfg : Config) (hok : cfg.codec_ok) (hB : 0 < cfg.BLOCK_SIZE)
    (docs : List doc_input) (dec : Decoder) (hl : chunk_layout cfg docs dec)
    (htail : tail_deltas_ok cfg docs) : ∀ (j : Nat) (it : PostingsListIterator) (k : Nat),
      on_doc cfg docs dec it.docs_view k → hits_count_ok dec it (hits_before docs k) →
      k + j < docs.length →
      ∃ it1, dec.next_iter cfg j it = some it1 ∧ on_doc cfg docs dec it1.docs_view (k + j) ∧
        hits_count_ok dec it1 (hits_before docs (k + j)) := by
  intro j
  induction j with
  | zero => intro it k ho hc _; exact ⟨it, rfl, ho, hc⟩
  | succ j ih =>
    intro it k ho hc hk
    obtain ⟨it1, e1, e2⟩ := next_on_doc cfg hok hB docs dec hl htail it k ho hc
    rcases e2 with ⟨_, ho1, hc1, _⟩ | ⟨hlast, _⟩
    · obtain ⟨it2, f1, f2, f3⟩ := ih it1 (k + 1) ho1 hc1 (by omega)
      refine ⟨it2, ?_, ?_, ?_⟩
      · rw [Decoder.next_iter, e1]; exact f1
      · rw [← Nat.add_assoc, Nat.add_right_comm]; exact f2
      · rw [← Nat.add_assoc, Nat.add_right_comm]; exact f3
    · omega

theorem next_iter_succ (cfg : Config) (dec : Decoder) : ∀ (j : Nat) (it it1 : PostingsListIterator),
    dec.next_iter cfg j it = some it1 →
    dec.next_iter cfg (j + 1) it = dec.next cfg it1 := by
  intro j
  induction j with
  | zero =>
    intro it it1 h
    simp only [Decoder.next_iter, Option.some.injEq] at h
    subst h
    simp only [Decoder.next_iter]
    cases dec.next cfg it <;> rfl
  | succ j ih =>
    intro it it1 h
    rw [Decoder.next_iter] at h ⊢
    cases hn : dec.next cfg it with
    | none => rw [hn] at h; exact absurd h (by simp)
    | some it0 =>
      rw [hn] at h
      exact ih it0 it1 h

/-- Iterating `next` from a new iterator: `k + 1` calls lead to the document `k`. -/
theorem next_iter_new_iterator (cfg : Config) (hok : cfg.codec_ok) (hB : 0 < cfg.BLOCK_SIZE)
    (docs : List doc_input) (dec : Decoder) (hl : chunk_layout cfg docs dec)
    (htail : tail_deltas_ok cfg docs) (k : Nat) (hk : k < docs.length) :
    ∃ it1, dec.next_iter cfg (k + 1) dec.new_iterator = some it1 ∧
      on_doc cfg docs dec it1.docs_view k ∧ hits_count_ok dec it1 (hits_before docs k) := by
  obtain ⟨it0, e1, e2⟩ := next_new_iterator cfg hok hB docs dec hl htail
  rcases e2 with ⟨_, ho, hc, _⟩ | ⟨h0, _⟩
  · obtain ⟨it1, f1, f2, f3⟩ := next_iter_on_doc cfg hok hB docs dec hl htail k it0 0 ho hc
      (by omega)
    rw [Nat.zero_add] at f2 f3
    refine ⟨it1, ?_, f2, f3⟩
    rw [Decoder.next_iter, e1]
    exact f1
  · omega

end Lucene

namespace Lucene

/-- C4 (amended). Posting-list round trip through `next`. Let the call sequence
`begin_term`, then `begin_document` / `new_hit` / `end_document` for each document of
`docs`, then `end_term` be accepted by the encoder (so the ids are strictly increasing
and the first is above 0). Let the block codec read back a full block, let
`1 <= BLOCK_SIZE <= 65536` and `1 <= SKIPLIST_STEP`, let the index written, the ids and
the number of recorded hits fit in 32 bits, and, when the packed freq-1 option is on, let
the deltas of the trailing block be below `2^31`. Then on the decoder of the term
written, for every `k < n` the `(k + 1)`-th call of `next` on a new iterator returns and
publishes the id of the document `k` (0-based) and the number of its recorded hits, and
the `(n + 1)`-th call returns and publishes `DocIDsEND`. -/
theorem posting_list_round_trip (cfg : Config) (hok : cfg.codec_ok) (hB : 0 < cfg.BLOCK_SIZE)
    (hB16 : cfg.BLOCK_SIZE ≤ 2 ^ 16) (hstep : 1 ≤ cfg.SKIPLIST_STEP) (e0 e : Encoder)
    (docs : List doc_input) (tctx : term_index_ctx)
    (hw : Encoder.write_term cfg e0 docs = some (e, tctx))
    (hsz : e.indexOut.length < 2 ^ 32) (hhits : hits_before docs docs.length < 2 ^ 32)
    (hids : ∀ i < docs.length, doc_id docs i < 2 ^ 32) (htail : tail_deltas_ok cfg docs)
    (hitsData : List Nat) :
    (∀ k < docs.length, ∃ it,
      (Decoder.init tctx e.indexOut hitsData).next_iter cfg (k + 1)
        (Decoder.init tctx e.indexOut hitsData).new_iterator = some it ∧
      it.curDocument_id = doc_id docs k ∧ it.freq = doc_freq docs k) ∧
    (∃ it,
      (Decoder.init tctx e.indexOut hitsData).next_iter cfg (docs.length + 1)
        (Decoder.init tctx e.indexOut hitsData).new_iterator = some it ∧
      it.curDocument_id = DocIDsEND) := by
  have hl := write_term_layout cfg hB hB16 hstep e0 e docs tctx hw hsz hhits hids hitsData
  have hall := next_iter_new_iterator cfg hok hB docs _ hl htail
  constructor
  · intro k hk
    obtain ⟨it, e1, e2, _⟩ := hall k hk
    exact ⟨it, e1, e2.cur_eq, e2.freq_eq⟩
  · by_cases hn : docs.length = 0
    · obtain ⟨it0, e1, e2⟩ := next_new_iterator cfg hok hB docs _ hl htail
      rcases e2 with ⟨h0, _⟩ | ⟨_, hex⟩
      · omega
      · refine ⟨it0, ?_, hex.2.1⟩
        rw [hn, Decoder.next_iter, e1]
        rfl
    · obtain ⟨it, e1, e2, e3⟩ := hall (docs.length - 1) (by omega)
      have hpred : docs.length - 1 + 1 = docs.length := by omega
      rw [hpred] at e1
      obtain ⟨it1, f1, f2⟩ := next_on_doc cfg hok hB docs _ hl htail it _ e2 e3
      rcases f2 with ⟨h0, _⟩ | ⟨_, hex⟩
      · omega
      · refine ⟨it1, ?_, hex.2.1⟩
        rw [next_iter_succ cfg _ _ _ it e1]
        exact f1

theorem tail_deltas_ok_five_docs : tail_deltas_ok (vbyte_config 2 true) five_docs := by
  intro _ i h1 h2
  have h3 : i < 5 := h2
  have h4 : 4 ≤ i := h1
  have : i = 4 := by omega
  subst this
  decide

set_option maxRecDepth 100000 in
theorem posting_list_round_trip_witness :
    ∃ e tctx,
      Encoder.write_term (vbyte_config 2 true) (Encoder.fresh [] []) five_docs = some (e, tctx) ∧
      ∃ it, (Decoder.init tctx e.indexOut e.positionsOut).next_iter (vbyte_config 2 true) 3
          (Decoder.init tctx e.indexOut e.positionsOut).new_iterator = some it ∧
        it.curDocument_id = 8 ∧ it.freq = 3 := by
  cases hw : Encoder.write_term (vbyte_config 2 true) (Encoder.fresh [] []) five_docs with
  | none =>
    have h1 : (Encoder.write_term (vbyte_config 2 true) (Encoder.fresh [] []) five_docs).isSome
        = true := by decide
    rw [hw] at h1
    exact absurd h1 (by decide)
  | some r =>
    obtain ⟨e, tctx⟩ := r
    have h1 : (Encoder.write_term (vbyte_config 2 true) (Encoder.fresh [] []) five_docs).map
        (fun r => r.1.indexOut.length) = some 72 := by decide
    rw [hw] at h1
    have hlen : e.indexOut.length = 72 := by simpa using h1
    exact ⟨e, tctx, rfl,
      (posting_list_round_trip (vbyte_config 2 true) (vbyte_config_codec_ok 2 true) (by decide)
        (by decide) (by decide) (Encoder.fresh [] []) e five_docs tctx hw
        (by rw [hlen]; decide) (by decide) (by decide) tail_deltas_ok_five_docs
        e.positionsOut).1 2 (by decide)⟩

set_option maxRecDepth 100000 in
/-- C4 (counterexample). With the packed freq-1 option on, the single document with id
`2^31` and one hit is accepted by the encoder, whose trailing block packs the delta as
`(delta << 1) | 1` in 32 bits, which is 1; the first `next` of a new iterator on the
term written publishes the id 0, not `2^31`. -/
theorem next_loses_packed_delta_high_bit :
    (written_decoder (vbyte_config 128 true)
        [{ id := 2147483648, hits := [plain_hit 1] }]).map
      (fun dec => next_ids (vbyte_config 128 true) dec 1 dec.new_iterator) = some [(0, 1)] := by
  decide

end Lucene

namespace Lucene

theorem begin_document_delta (cfg : Config) (e e1 : Encoder) (id : Nat)
    (h : e.begin_document cfg id = some e1) :
    e.lastDocID < id ∧ e1.docDeltas e1.buffered = id - e.lastDocID ∧ e1.lastDocID = id := by
  unfold Encoder.begin_document at h
  by_cases hgt : id > e.lastDocID
  · rw [if_neg (not_not.2 hgt)] at h
    have hob : ∀ e0 : Encoder, e.output_block cfg = some e0 → e0.lastDocID = e.lastDocID := by
      intro e0 h0
      unfold Encoder.output_block at h0
      split at h0
      · exact absurd h0 (by simp)
      · simp only [Option.some.injEq] at h0
        subst h0
        split <;> rfl
    cases hm : (if e.buffered = cfg.BLOCK_SIZE then e.output_block cfg else some e) with
    | none => rw [hm] at h; exact absurd h (by simp)
    | some e0 =>
      rw [hm] at h
      have hlast : e0.lastDocID = e.lastDocID := by
        by_cases hb : e.buffered = cfg.BLOCK_SIZE
        · rw [if_pos hb] at hm
          exact hob e0 hm
        · rw [if_neg hb] at hm
          simp only [Option.some.injEq] at hm
          rw [← hm]
      simp only [Option.some.injEq] at h
      subst h
      refine ⟨hgt, ?_, rfl⟩
      by_cases hz : e0.buffered = 0
      · simp only [if_pos hz, Function.update_same, hlast]
      · simp only [if_neg hz, Function.update_same, hlast]
  · rw [if_pos hgt] at h
    exact absurd h (by simp)

/-- C5 (amended). Posting monotonicity. `begin_document(id)` is accepted only when
`id > lastDocID`, and the delta it stores for the document is `id - lastDocID`, at least
1. For a term whose call sequence the encoder accepted, given a block codec that reads
back a full block, `1 <= BLOCK_SIZE <= 65536`, `1 <= SKIPLIST_STEP`, an index, ids and a
number of recorded hits that fit in 32 bits, and, when the packed freq-1 option is on,
deltas of the trailing block below `2^31`: whenever `k + 1 < n`, the `(k + 1)`-th and the
`(k + 2)`-th call of `next` on a new iterator both return, and the id published by the
second is strictly greater than the id published by the first. -/
theorem posting_monotonicity (cfg : Config) :
    (∀ (e e1 : Encoder) (id : Nat), e.begin_document cfg id = some e1 →
      e.lastDocID < id ∧ e1.docDeltas e1.buffered = id - e.lastDocID ∧
        1 ≤ e1.docDeltas e1.buffered) ∧
    (∀ (e0 e : Encoder) (docs : List doc_input) (tctx : term_index_ctx) (hitsData : List Nat),
      cfg.codec_ok → 0 < cfg.BLOCK_SIZE → cfg.BLOCK_SIZE ≤ 2 ^ 16 → 1 ≤ cfg.SKIPLIST_STEP →
      Encoder.write_term cfg e0 docs = some (e, tctx) →
      e.indexOut.length < 2 ^ 32 → hits_before docs docs.length < 2 ^ 32 →
      (∀ i < docs.length, doc_id docs i < 2 ^ 32) → tail_deltas_ok cfg docs →
      ∀ k, k + 1 < docs.length → ∃ it1 it2,
        (Decoder.init tctx e.indexOut hitsData).next_iter cfg (k + 1)
          (Decoder.init tctx e.indexOut hitsData).new_iterator = some it1 ∧
        (Decoder.init tctx e.indexOut hitsData).next cfg it1 = some it2 ∧
        it1.curDocument_id < it2.curDocument_id) := by
  constructor
  · intro e e1 id h
    obtain ⟨h1, h2, _⟩ := begin_document_delta cfg e e1 id h
    refine ⟨h1, h2, ?_⟩
    rw [h2]
    omega
  · intro e0 e docs tctx hitsData hok hB hB16 hstep hw hsz hhits hids htail k hk
    have hl := write_term_layout cfg hB hB16 hstep e0 e docs tctx hw hsz hhits hids hitsData
    obtain ⟨it1, e1, e2, e3⟩ := next_iter_new_iterator cfg hok hB docs _ hl htail k (by omega)
    obtain ⟨it2, f1, f2⟩ := next_on_doc cfg hok hB docs _ hl htail it1 k e2 e3
    rcases f2 with ⟨_, ho, _, _⟩ | ⟨hlast, _⟩
    · refine ⟨it1, it2, e1, f1, ?_⟩
      have hc1 : it1.curDocument_id = doc_id docs k := e2.cur_eq
      have hc2 : it2.curDocument_id = doc_id docs (k + 1) := ho.cur_eq
      have := write_term_sorted cfg hB hstep e0 e docs tctx hw (k + 1) hk
      rw [prev_id_succ] at this
      rw [hc1, hc2]
      exact this
    · omega

set_option maxRecDepth 100000 in
theorem posting_monotonicity_witness :
    ∃ e tctx,
      Encoder.write_term (vbyte_config 2 true) (Encoder.fresh [] []) five_docs = some (e, tctx) ∧
      ∃ it1 it2, (Decoder.init tctx e.indexOut e.positionsOut).next_iter (vbyte_config 2 true) 2
          (Decoder.init tctx e.indexOut e.positionsOut).new_iterator = some it1 ∧
        (Decoder.init tctx e.indexOut e.positionsOut).next (vbyte_config 2 true) it1 = some it2 ∧
        it1.curDocument_id < it2.curDocument_id := by
  cases hw : Encoder.write_term (vbyte_config 2 true) (Encoder.fresh [] []) five_docs with
  | none =>
    have h1 : (Encoder.write_term (vbyte_config 2 true) (Encoder.fresh [] []) five_docs).isSome
        = true := by decide
    rw [hw] at h1
    exact absurd h1 (by decide)
  | some r =>
    obtain ⟨e, tctx⟩ := r
    have h1 : (Encoder.write_term (vbyte_config 2 true) (Encoder.fresh [] []) five_docs).map
        (fun r => r.1.indexOut.length) = some 72 := by decide
    rw [hw] at h1
    have hlen : e.indexOut.length = 72 := by simpa using h1
    exact ⟨e, tctx, rfl,
      (posting_monotonicity (vbyte_config 2 true)).2 (Encoder.fresh [] []) e five_docs tctx
        e.positionsOut (vbyte_config_codec_ok 2 true) (by decide) (by decide) (by decide) hw
        (by rw [hlen]; decide) (by decide) (by decide) tail_deltas_ok_five_docs 1 (by decide)⟩

set_option maxRecDepth 100000 in
/-- C5 (counterexample). With the packed freq-1 option on, the documents with ids 1 and
`2^31 + 1`, one hit each, are accepted by the encoder; the delta `2^31` of the second is
packed as `(delta << 1) | 1` in 32 bits, which is 1, and two calls of `next` on a new
iterator publish the ids 1 and 1: the second is not greater than the first. -/
theorem next_repeats_id_on_packed_delta :
    (written_decoder (vbyte_config 128 true)
        [{ id := 1, hits := [plain_hit 1] }, { id := 2147483649, hits := [plain_hit 1] }]).map
      (fun dec => next_ids (vbyte_config 128 true) dec 2 dec.new_iterator) =
      some [(1, 1), (1, 1)] := by
  decide

end Lucene

namespace Lucene

theorem skiplist_search_loop_bounds (sl : List skiplist_entry) (target : Nat) :
    ∀ (fuel data n : Nat), 1 ≤ n →
      data ≤ skiplist_search_loop sl target fuel data n ∧
        skiplist_search_loop sl target fuel data n + 1 ≤ data + n := by
  intro fuel
  induction fuel with
  | zero => intro data n hn; simp only [skiplist_search_loop]; omega
  | succ fuel ih =>
    intro data n hn
    rw [skiplist_search_loop]
    by_cases h : n / 2 = 0
    · rw [if_pos h]; omega
    · rw [if_neg h]
      have hhalf : n / 2 ≤ n := Nat.div_le_self n 2
      have hn2 : 1 ≤ n - n / 2 := by omega
      by_cases hc : (sl.getD (data + n / 2) default).lastDocID < target
      · simp only [if_pos hc]
        have := ih (data + n / 2) (n - n / 2) hn2
        omega
      · simp only [if_neg hc]
        have := ih data (n - n / 2) hn2
        omega

/-- A skip-list search that finds an entry finds one at or after `skipListIdx` whose
last id is below the target. -/
theorem skiplist_search_spec (dec : Decoder) (it : PostingsListIterator) (target : Nat)
    (hidx : it.skipListIdx < dec.skiplist.length)
    (h : dec.skiplist_search it target ≠ UINT32_MAX) :
    it.skipListIdx ≤ dec.skiplist_search it target ∧
      dec.skiplist_search it target < dec.skiplist.length ∧
      (dec.skiplist.getD (dec.skiplist_search it target) default).lastDocID < target := by
  unfold Decoder.skiplist_search at h ⊢
  simp only at h ⊢
  have hb := skiplist_search_loop_bounds dec.skiplist target
    (dec.skiplist.length - it.skipListIdx) it.skipListIdx
    (dec.skiplist.length - it.skipListIdx) (by omega)
  by_cases hc : target > (dec.skiplist.getD (skiplist_search_loop dec.skiplist target
      (dec.skiplist.length - it.skipListIdx) it.skipListIdx
      (dec.skiplist.length - it.skipListIdx)) default).lastDocID
  · rw [if_pos hc]
    exact ⟨hb.1, by omega, hc⟩
  · rw [if_neg hc] at h
    exact absurd rfl h

theorem skiplist_entry_block (cfg : Config) (docs : List doc_input) (dec : Decoder)
    (hl : chunk_layout cfg docs dec) (index : Nat) (h : index < dec.skiplist.length) :
    ∃ j, j < docs.length / cfg.BLOCK_SIZE ∧
      block_entry_ok cfg docs j (dec.skiplist.getD index default) := by
  obtain ⟨blocks, h1, _, h3, h4⟩ := hl.skiplist_valid
  refine ⟨blocks.getD index 0, ?_, h4 index h⟩
  apply h3
  rw [List.getD_eq_getElem?_getD, List.getElem?_eq_getElem (by omega)]
  exact List.getElem_mem _

end Lucene

namespace Lucene

theorem update_curdoc_hits_view (it : PostingsListIterator) :
    (update_curdoc it).hits_view = it.hits_view := rfl

/-- The jump of `advance` to a skip-list entry lands on the first document of the entry's
block, with consistent hit counters. -/
theorem skiplist_jump_entry (cfg : Config) (hok : cfg.codec_ok) (hB : 0 < cfg.BLOCK_SIZE)
    (docs : List doc_input) (dec : Decoder) (hl : chunk_layout cfg docs dec)
    (htail : tail_deltas_ok cfg docs) (it : PostingsListIterator) (index : Nat)
    (hidx : index < dec.skiplist.length) :
    ∃ it1 j, dec.skiplist_jump cfg it index = some it1 ∧
      j < docs.length / cfg.BLOCK_SIZE ∧
      (dec.skiplist.getD index default).lastDocID = prev_id docs (j * cfg.BLOCK_SIZE) ∧
      on_doc cfg docs dec it1.docs_view (j * cfg.BLOCK_SIZE) ∧
      hits_count_ok dec it1 (hits_before docs (j * cfg.BLOCK_SIZE)) ∧
      it1.skipListIdx = index + 1 ∧
      block_entry_ok cfg docs j (dec.skiplist.getD index default) := by
  obtain ⟨j, hj, b1, b2, b3, b4, b5⟩ := skiplist_entry_block cfg docs dec hl index hidx
  have hnB := div_mul_add_mod docs.length cfg.BLOCK_SIZE
  have hjB : j * cfg.BLOCK_SIZE + cfg.BLOCK_SIZE ≤
      docs.length / cfg.BLOCK_SIZE * cfg.BLOCK_SIZE := by
    have := Nat.mul_le_mul_right cfg.BLOCK_SIZE (Nat.succ_le_of_lt hj)
    rw [Nat.succ_mul] at this
    exact this
  have hlt : j * cfg.BLOCK_SIZE < docs.length := by omega
  have hgap : at_gap cfg docs dec
      ({ it with
        skipListIdx := index + 1
        p := dec.postingListBase + (dec.skiplist.getD index default).indexOffset
        hdp := dec.hitsBase + (dec.skiplist.getD index default).lastHitsBlockOffset
        lastDocID := (dec.skiplist.getD index default).lastDocID
        docsLeft := dec.totalDocuments - (dec.skiplist.getD index default).totalDocumentsSoFar
        hitsLeft := dec.totalHits - (dec.skiplist.getD index default).lastHitsBlockTotalHits
        skippedHits := 0
        bufferedHits := 0 } : PostingsListIterator).docs_view (j * cfg.BLOCK_SIZE) := by
    constructor
    · omega
    · exact Or.inl (Nat.mul_mod_left _ _)
    · exact b2
    · show dec.postingListBase + (dec.skiplist.getD index default).indexOffset = _
      rw [if_neg (by omega), Nat.mul_div_cancel _ hB, b1]
      simp only [block_start]
      omega
    · show dec.totalDocuments - (dec.skiplist.getD index default).totalDocumentsSoFar = _
      rw [hl.totalDocuments_eq, b3]
  have ho := refill_documents_spec cfg hok hB docs dec hl htail _ _ hgap hlt
  have hv := refill_documents_hits_view cfg dec
    ({ it with
        skipListIdx := index + 1
        p := dec.postingListBase + (dec.skiplist.getD index default).indexOffset
        hdp := dec.hitsBase + (dec.skiplist.getD index default).lastHitsBlockOffset
        lastDocID := (dec.skiplist.getD index default).lastDocID
        docsLeft := dec.totalDocuments - (dec.skiplist.getD index default).totalDocumentsSoFar
        hitsLeft := dec.totalHits - (dec.skiplist.getD index default).lastHitsBlockTotalHits
        skippedHits := 0
        bufferedHits := 0 } : PostingsListIterator)
  have hsk := refill_documents_skipListIdx cfg dec
    ({ it with
        skipListIdx := index + 1
        p := dec.postingListBase + (dec.skiplist.getD index default).indexOffset
        hdp := dec.hitsBase + (dec.skiplist.getD index default).lastHitsBlockOffset
        lastDocID := (dec.skiplist.getD index default).lastDocID
        docsLeft := dec.totalDocuments - (dec.skiplist.getD index default).totalDocumentsSoFar
        hitsLeft := dec.totalHits - (dec.skiplist.getD index default).lastHitsBlockTotalHits
        skippedHits := 0
        bufferedHits := 0 } : PostingsListIterator)
  generalize hX : dec.refill_documents cfg
    ({ it with
        skipListIdx := index + 1
        p := dec.postingListBase + (dec.skiplist.getD index default).indexOffset
        hdp := dec.hitsBase + (dec.skiplist.getD index default).lastHitsBlockOffset
        lastDocID := (dec.skiplist.getD index default).lastDocID
        docsLeft := dec.totalDocuments - (dec.skiplist.getD index default).totalDocumentsSoFar
        hitsLeft := dec.totalHits - (dec.skiplist.getD index default).lastHitsBlockTotalHits
        skippedHits := 0
        bufferedHits := 0 } : PostingsListIterator) = X at ho hv hsk
  have hXleft : X.hitsLeft =
      dec.totalHits - (dec.skiplist.getD index default).lastHitsBlockTotalHits :=
    congrArg hits_view.hitsLeft hv
  obtain ⟨q1, q2, q3, _⟩ := refill_hits_counts cfg dec X
  have hdv := refill_hits_docs_view cfg dec X
  have hmono := hits_before_mono docs (j * cfg.BLOCK_SIZE) docs.length (le_of_lt hlt)
  have hhb := div_mul_add_mod (hits_before docs (j * cfg.BLOCK_SIZE)) cfg.BLOCK_SIZE
  have htot := hl.totalHits_eq
  have hc : hits_count_ok dec
      ({ update_curdoc (dec.refill_hits cfg X) with
        skippedHits := (dec.skiplist.getD index default).curHitsBlockHits } :
        PostingsListIterator) (hits_before docs (j * cfg.BLOCK_SIZE)) := by
    refine ⟨?_, ?_, ?_, ?_⟩
    · show (dec.refill_hits cfg X).hitsIndex ≤ (dec.refill_hits cfg X).bufferedHits
      rw [q1]; exact Nat.zero_le _
    · show ((dec.refill_hits cfg X).bufferedHits - (dec.refill_hits cfg X).hitsIndex) +
        (dec.refill_hits cfg X).hitsLeft + _ = dec.totalHits +
          (dec.skiplist.getD index default).curHitsBlockHits
      rw [q1, q2, q3, hXleft, b4, b5]
      omega
    · show (dec.skiplist.getD index default).curHitsBlockHits ≤ _
      rw [b5]
      exact Nat.mod_le _ _
    · rw [htot]; exact hmono
  obtain ⟨it3, e1, e2, e3, e4⟩ := skip_hits_count cfg hB dec _ _ hc
  have hod : on_doc cfg docs dec (dec.refill_hits cfg X).docs_view (j * cfg.BLOCK_SIZE) := by
    rw [hdv]; exact ho
  obtain ⟨hcur, hfr⟩ := on_doc_cur cfg hB docs dec hl _ _ hod
  have hskip : it3.skipListIdx = index + 1 := by
    have h1 : it3.skipListIdx = (dec.refill_hits cfg X).skipListIdx :=
      congrArg docs_view.skipListIdx e4
    have h2 : (dec.refill_hits cfg X).skipListIdx = X.skipListIdx :=
      congrArg docs_view.skipListIdx hdv
    rw [h1, h2, hsk]
  have hon : on_doc cfg docs dec it3.docs_view (j * cfg.BLOCK_SIZE) := by
    rw [e4]
    exact ⟨hod.k_lt, hod.docsIndex_eq, hod.bufferedDocs_eq, hod.deltas_eq, hod.freqs_eq,
      hod.lastDocID_eq, hod.p_eq, hod.docsLeft_eq, hcur, hfr⟩
  subst hX
  exact ⟨it3, j, e1, hj, b2, hon, e2, hskip, b1, b2, b3, b4, b5⟩

theorem skiplist_jump_spec (cfg : Config) (hok : cfg.codec_ok) (hB : 0 < cfg.BLOCK_SIZE)
    (docs : List doc_input) (dec : Decoder) (hl : chunk_layout cfg docs dec)
    (htail : tail_deltas_ok cfg docs) (it : PostingsListIterator) (index : Nat)
    (hidx : index < dec.skiplist.length) :
    ∃ it1 j, dec.skiplist_jump cfg it index = some it1 ∧
      j < docs.length / cfg.BLOCK_SIZE ∧
      (dec.skiplist.getD index default).lastDocID = prev_id docs (j * cfg.BLOCK_SIZE) ∧
      on_doc cfg docs dec it1.docs_view (j * cfg.BLOCK_SIZE) ∧
      hits_count_ok dec it1 (hits_before docs (j * cfg.BLOCK_SIZE)) ∧
      it1.skipListIdx = index + 1 := by
  obtain ⟨it1, j, a1, a2, a3, a4, a5, a6, _⟩ :=
    skiplist_jump_entry cfg hok hB docs dec hl htail it index hidx
  exact ⟨it1, j, a1, a2, a3, a4, a5, a6⟩

end Lucene

namespace Lucene

theorem advance_l10_done (target : Nat) (it : PostingsListIterator) (li : Nat)
    (h : target ≤ it.curDocument_id) :
    advance_l10 target it li = ({ it with docsIndex := li }, none) := by
  unfold advance_l10
  by_cases h1 : it.curDocument_id = target
  · rw [if_pos h1]
  · rw [if_neg h1, if_pos (by omega)]

theorem advance_l10_step (target : Nat) (it : PostingsListIterator) (li : Nat)
    (h : it.curDocument_id < target) :
    advance_l10 target it li =
      ({ it with
         skippedHits := (it.skippedHits + it.docFreqs li) % 2 ^ 32
         lastDocID := (it.lastDocID + it.docDeltas li) % 2 ^ 32
         curDocument_id := ((it.lastDocID + it.docDeltas li) % 2 ^ 32 +
           it.docDeltas (li + 1)) % 2 ^ 32
         freq := it.docFreqs (li + 1) }, some (li + 1)) := by
  unfold advance_l10
  rw [if_neg (by omega), if_neg (by omega)]

theorem advance_loop_eq_l10 (cfg : Config) (dec : Decoder) (target fuel : Nat)
    (it : PostingsListIterator) (lb li : Nat) (h : li ≠ lb) :
    dec.advance_loop cfg target (fuel + 1) it lb li =
      match advance_l10 target it li with
      | (it2, none) => some it2
      | (it2, some docsIndex2) => dec.advance_loop cfg target fuel it2 lb docsIndex2 := by
  rw [Decoder.advance_loop, if_neg h]

theorem advance_loop_eq_end (cfg : Config) (dec : Decoder) (target fuel : Nat)
    (it : PostingsListIterator) (lb li : Nat) (h : li = lb) (hp : it.p = dec.chunkEnd) :
    dec.advance_loop cfg target (fuel + 1) it lb li =
      some { finalize it with docsIndex := li } := by
  rw [Decoder.advance_loop, if_pos h, if_pos hp]

theorem advance_loop_eq_jump (cfg : Config) (dec : Decoder) (target fuel : Nat)
    (it : PostingsListIterator) (lb li : Nat) (h : li = lb) (hp : it.p ≠ dec.chunkEnd)
    (hs : it.skipListIdx ≠ dec.skiplist.length)
    (hi : dec.skiplist_search it target ≠ UINT32_MAX) :
    dec.advance_loop cfg target (fuel + 1) it lb li =
      match dec.skiplist_jump cfg it (dec.skiplist_search it target) with
      | none => none
      | some it1 =>
        match advance_l10 target it1 it1.docsIndex with
        | (it2, none) => some it2
        | (it2, some docsIndex2) =>
          dec.advance_loop cfg target fuel it2 it1.bufferedDocs docsIndex2 := by
  rw [Decoder.advance_loop, if_pos h, if_neg hp]
  simp only [if_pos hs, if_pos hi]

theorem advance_loop_eq_decode (cfg : Config) (dec : Decoder) (target fuel : Nat)
    (it : PostingsListIterator) (lb li : Nat) (h : li = lb) (hp : it.p ≠ dec.chunkEnd)
    (hs : it.skipListIdx = dec.skiplist.length ∨
      dec.skiplist_search it target = UINT32_MAX) :
    dec.advance_loop cfg target (fuel + 1) it lb li =
      match dec.decode_next_block cfg it with
      | none => none
      | some it1 => dec.advance_loop cfg target fuel it1 it1.bufferedDocs it1.docsIndex := by
  rw [Decoder.advance_loop, if_pos h, if_neg hp]
  have hidx : (if it.skipListIdx ≠ dec.skiplist.length then dec.skiplist_search it target
      else UINT32_MAX) = UINT32_MAX := by
    by_cases h1 : it.skipListIdx = dec.skiplist.length
    · rw [if_neg (not_not.2 h1)]
    · rw [if_pos h1]
      rcases hs with h2 | h2
      · exact absurd h2 h1
      · exact h2
  simp only [hidx, ne_eq, not_true_eq_false, if_false]

end Lucene

namespace Lucene

theorem doc_id_mono (docs : List doc_input) (n : Nat)
    (h : ∀ i < n, prev_id docs i ≤ doc_id docs i) (i : Nat) :
    ∀ k, i ≤ k → k < n → doc_id docs i ≤ doc_id docs k := by
  intro k
  induction k with
  | zero => intro h1 _; have : i = 0 := by omega
            subst this; exact le_refl _
  | succ k ih =>
    intro h1 h2
    by_cases he : i = k + 1
    · subst he; exact le_refl _
    · have h3 := ih (by omega) (by omega)
      have h4 := h (k + 1) h2
      rw [prev_id_succ] at h4
      omega

theorem ids_below_of_prev (docs : List doc_input) (target k : Nat) (hk : k ≤ docs.length)
    (hs : ∀ i < docs.length, prev_id docs i ≤ doc_id docs i)
    (h : prev_id docs k < target) : ids_below docs target k := by
  intro j hj
  have h1 := doc_id_mono docs docs.length hs j (k - 1) (by omega) (by omega)
  have h2 : prev_id docs k = doc_id docs (k - 1) := by
    unfold prev_id
    rw [if_neg (by omega)]
  omega

theorem ids_below_succ (docs : List doc_input) (target k : Nat)
    (h : ids_below docs target k) (hk : doc_id docs k < target) :
    ids_below docs target (k + 1) := by
  intro j hj
  by_cases he : j = k
  · subst he; exact hk
  · exact h j (by omega)

theorem seek_result_mono (cfg : Config) (docs : List doc_input) (dec : Decoder)
    (target k0 k1 : Nat) (r : Option PostingsListIterator)
    (hm : ids_below docs target k0 → ids_below docs target k1)
    (h : seek_result cfg docs dec target k1 r) : seek_result cfg docs dec target k0 r := by
  obtain ⟨it1, e1, e2, e3⟩ := h
  refine ⟨it1, e1, e2, ?_⟩
  rcases e3 with ⟨k, a1, a2, a3, a4⟩ | ⟨a1, a2⟩
  · exact Or.inl ⟨k, a1, a2, a3, fun hb => a4 (hm hb)⟩
  · exact Or.inr ⟨a1, fun hb => a2 (hm hb)⟩

theorem measure_jump (L idx index C : Nat) (h1 : idx ≤ index) (h2 : index < L) :
    (L - (index + 1)) * C + C ≤ (L - idx) * C := by
  have h3 : L - (index + 1) + 1 ≤ L - idx := by omega
  have h4 := Nat.mul_le_mul_right C h3
  rw [Nat.add_mul, Nat.one_mul] at h4
  exact h4

/-- The block at `l10` on the document `k`: it returns when the id of `k` reaches the
target, and otherwise steps to the document `k + 1` or to the end of the block. -/
theorem advance_l10_spec (cfg : Config) (hB : 0 < cfg.BLOCK_SIZE) (docs : List doc_input)
    (dec : Decoder) (hl : chunk_layout cfg docs dec) (target : Nat)
    (it : PostingsListIterator) (li k : Nat)
    (ho : on_doc cfg docs dec { it.docs_view with docsIndex := li } k)
    (hc : hits_count_ok dec it (hits_before docs k)) :
    (target ≤ doc_id docs k ∧ ∃ it1, advance_l10 target it li = (it1, none) ∧
      on_doc cfg docs dec it1.docs_view k ∧ hits_count_ok dec it1 (hits_before docs k) ∧
      it1.skipListIdx = it.skipListIdx) ∨
    (doc_id docs k < target ∧ ∃ it2, advance_l10 target it li = (it2, some (li + 1)) ∧
      it2.skipListIdx = it.skipListIdx ∧ it2.bufferedDocs = it.bufferedDocs ∧
      hits_count_ok dec it2 (hits_before docs (k + 1)) ∧
      ((li + 1 < it.bufferedDocs ∧
          on_doc cfg docs dec { it2.docs_view with docsIndex := li + 1 } (k + 1)) ∨
       (li + 1 = it.bufferedDocs ∧ at_gap cfg docs dec it2.docs_view (k + 1)))) := by
  have hcur : it.curDocument_id = doc_id docs k := ho.cur_eq
  have hlt : li < it.bufferedDocs := on_doc_index_lt cfg hB docs dec _ k ho
  by_cases hT : target ≤ doc_id docs k
  · refine Or.inl ⟨hT, _, advance_l10_done target it li (by rw [hcur]; exact hT), ho, hc, rfl⟩
  · have hT1 : doc_id docs k < target := by omega
    obtain ⟨_, hfr⟩ := on_doc_cur cfg hB docs dec hl _ k ho
    have hfr1 : it.docFreqs li = doc_freq docs k := hfr
    have hstep := hits_count_step docs dec it k ho.k_lt hl.totalHits_eq hl.totalHits_lt hc
    rw [← hfr1] at hstep
    refine Or.inr ⟨hT1, _, advance_l10_step target it li (by rw [hcur]; exact hT1), rfl, rfl,
      hstep, ?_⟩
    by_cases hin : li + 1 < it.bufferedDocs
    · refine Or.inl ⟨hin, ?_⟩
      exact on_doc_succ cfg hB docs dec hl { it.docs_view with docsIndex := li } _ k ho hin
        rfl rfl rfl rfl rfl rfl rfl rfl rfl
    · refine Or.inr ⟨by omega, ?_⟩
      exact on_doc_gap cfg hB docs dec hl { it.docs_view with docsIndex := li } _ k ho hin
        rfl rfl rfl

end Lucene

namespace Lucene

/-- The loop of `advance`, from a document or from between two blocks: with enough fuel it
returns an iterator on the first document at or after the position whose id reaches the
target, or an exhausted iterator. -/
theorem advance_loop_spec (cfg : Config) (hok : cfg.codec_ok) (hB : 0 < cfg.BLOCK_SIZE)
    (docs : List doc_input) (dec : Decoder) (hl : chunk_layout cfg docs dec)
    (htail : tail_deltas_ok cfg docs) (target : Nat) : ∀ fuel : Nat,
    (∀ (it : PostingsListIterator) (lb li k : Nat),
      it.skipListIdx ≤ dec.skiplist.length →
      on_doc cfg docs dec { it.docs_view with docsIndex := li } k →
      lb = it.bufferedDocs → hits_count_ok dec it (hits_before docs k) →
      (dec.skiplist.length - it.skipListIdx) * (2 * docs.length + 2) +
        2 * (docs.length - k) < fuel →
      seek_result cfg docs dec target k (dec.advance_loop cfg target fuel it lb li)) ∧
    (∀ (it : PostingsListIterator) (lb li m : Nat),
      it.skipListIdx ≤ dec.skiplist.length → li = lb → lb = it.bufferedDocs →
      at_gap cfg docs dec it.docs_view m → hits_count_ok dec it (hits_before docs m) →
      (dec.skiplist.length - it.skipListIdx) * (2 * docs.length + 2) +
        2 * (docs.length - m) + 1 < fuel →
      seek_result cfg docs dec target m (dec.advance_loop cfg target fuel it lb li)) := by
  intro fuel
  induction fuel with
  | zero =>
    exact ⟨fun _ _ _ _ _ _ _ _ h => absurd h (Nat.not_lt_zero _),
      fun _ _ _ _ _ _ _ _ _ h => absurd h (Nat.not_lt_zero _)⟩
  | succ fuel ih =>
    have hstep1 : ∀ (it : PostingsListIterator) (lb li k : Nat),
        it.skipListIdx ≤ dec.skiplist.length →
        on_doc cfg docs dec { it.docs_view with docsIndex := li } k →
        lb = it.bufferedDocs → hits_count_ok dec it (hits_before docs k) →
        (dec.skiplist.length - it.skipListIdx) * (2 * docs.length + 2) +
          2 * (docs.length - k) < fuel + 1 →
        seek_result cfg docs dec target k
          (match advance_l10 target it li with
            | (it2, none) => some it2
            | (it2, some docsIndex2) => dec.advance_loop cfg target fuel it2 lb docsIndex2) := by
      intro it lb li k hidx ho hlb hc hfuel
      have hk := ho.k_lt
      rcases advance_l10_spec cfg hB docs dec hl target it li k ho hc with
        ⟨hT, it1, e1, e2, e3, e4⟩ | ⟨hT, it2, e1, e2, e3, e4, e5⟩
      · rw [e1]
        exact ⟨it1, rfl, by rw [e4]; exact hidx, Or.inl ⟨k, e2, e3, hT, id⟩⟩
      · rw [e1]
        apply seek_result_mono cfg docs dec target k (k + 1) _
          (fun hb => ids_below_succ docs target k hb hT)
        rcases e5 with ⟨hin, ho2⟩ | ⟨hin, hg2⟩
        · exact ih.1 it2 lb (li + 1) (k + 1) (by rw [e2]; exact hidx) ho2
            (by rw [e3]; exact hlb) e4 (by rw [e2]; omega)
        · exact ih.2 it2 lb (li + 1) (k + 1) (by rw [e2]; exact hidx) (by omega)
            (by rw [e3]; exact hlb) hg2 e4 (by rw [e2]; omega)
    constructor
    · intro it lb li k hidx ho hlb hc hfuel
      have hlt : li < it.bufferedDocs := on_doc_index_lt cfg hB docs dec _ k ho
      rw [advance_loop_eq_l10 cfg dec target fuel it lb li (by omega)]
      exact hstep1 it lb li k hidx ho hlb hc hfuel
    · intro it lb li m hidx hli hlb hg hc hfuel
      have hp := at_gap_p cfg docs dec hl _ m hg
      by_cases hpe : it.p = dec.chunkEnd
      · rw [advance_loop_eq_end cfg dec target fuel it lb li hli hpe]
        have hm : m = docs.length := hp.1 hpe
        refine ⟨_, rfl, hidx, Or.inr ⟨⟨hpe, rfl, ?_⟩, ?_⟩⟩
        · show it.bufferedDocs ≤ li
          omega
        · rw [hm]; exact id
      · have hm : m < docs.length := lt_of_le_of_ne hg.m_le (fun e => hpe (hp.2 e))
        by_cases hj : it.skipListIdx ≠ dec.skiplist.length ∧
            dec.skiplist_search it target ≠ UINT32_MAX
        · obtain ⟨hj1, hj2⟩ := hj
          rw [advance_loop_eq_jump cfg dec target fuel it lb li hli hpe hj1 hj2]
          obtain ⟨s1, s2, s3⟩ := skiplist_search_spec dec it target (by omega) hj2
          obtain ⟨it1, j, e1, e2, e3, e4, e5, e6⟩ := skiplist_jump_spec cfg hok hB docs dec hl
            htail it _ s2
          rw [e1]
          have hbelow : ids_below docs target (j * cfg.BLOCK_SIZE) :=
            ids_below_of_prev docs target _ (le_of_lt e4.k_lt) hl.ids_sorted (by rw [← e3]; exact s3)
          apply seek_result_mono cfg docs dec target m (j * cfg.BLOCK_SIZE) _ (fun _ => hbelow)
          have hmj := measure_jump dec.skiplist.length it.skipListIdx
            (dec.skiplist_search it target) (2 * docs.length + 2) s1 s2
          exact hstep1 it1 it1.bufferedDocs it1.docsIndex (j * cfg.BLOCK_SIZE)
            (by rw [e6]; omega) e4 rfl e5 (by rw [e6]; omega)
        · have hj1 : it.skipListIdx = dec.skiplist.length ∨
              dec.skiplist_search it target = UINT32_MAX := by
            by_cases h1 : it.skipListIdx = dec.skiplist.length
            · exact Or.inl h1
            · by_cases h2 : dec.skiplist_search it target = UINT32_MAX
              · exact Or.inr h2
              · exact absurd ⟨h1, h2⟩ hj
          rw [advance_loop_eq_decode cfg dec target fuel it lb li hli hpe hj1]
          obtain ⟨it1, e1, e2, e3, _, e5⟩ := decode_next_block_gap cfg hok hB docs dec hl htail
            it m _ hg hm hc
          rw [e1]
          exact ih.1 it1 it1.bufferedDocs it1.docsIndex m (by rw [e5]; exact hidx) e2 rfl e3
            (by rw [e5]; omega)

end Lucene

namespace Lucene

theorem skip_hits_loop_docs_view (cfg : Config) (dec : Decoder) :
    ∀ (fuel : Nat) (it it1 : PostingsListIterator) (rem : Nat),
      dec.skip_hits_loop cfg fuel it rem = some it1 → it1.docs_view = it.docs_view := by
  intro fuel
  induction fuel with
  | zero => intro it it1 rem h; simp [Decoder.skip_hits_loop] at h
  | succ fuel ih =>
    intro it it1 rem h
    rw [Decoder.skip_hits_loop] at h
    by_cases hfast : it.hitsIndex + rem = it.bufferedHits
    · rw [if_pos hfast] at h
      simp only [Option.some.injEq] at h
      rw [← h]
      rfl
    · rw [if_neg hfast] at h
      have hv : (if it.hitsIndex = it.bufferedHits then dec.refill_hits cfg it else it).docs_view
          = it.docs_view := by
        split
        · exact refill_hits_docs_view cfg dec it
        · rfl
      generalize (if it.hitsIndex = it.bufferedHits then dec.refill_hits cfg it else it) = x
        at h hv
      simp only at h
      by_cases hz : min rem (x.bufferedHits - x.hitsIndex) = 0
      · rw [if_pos hz] at h
        exact absurd h (by simp)
      · rw [if_neg hz] at h
        by_cases hd : rem - min rem (x.bufferedHits - x.hitsIndex) = 0
        · rw [if_pos hd] at h
          simp only [Option.some.injEq] at h
          rw [← h, ← hv]
          rfl
        · rw [if_neg hd] at h
          rw [ih _ it1 _ h, ← hv]
          rfl

theorem skip_hits_docs_view (cfg : Config) (dec : Decoder) (it it1 : PostingsListIterator)
    (n : Nat) (h : dec.skip_hits cfg it n = some it1) : it1.docs_view = it.docs_view := by
  unfold Decoder.skip_hits at h
  by_cases h0 : n = 0
  · rw [if_pos h0] at h
    simp only [Option.some.injEq] at h
    rw [h]
  · rw [if_neg h0] at h
    exact skip_hits_loop_docs_view cfg dec n it it1 n h

theorem decode_next_block_skipListIdx (cfg : Config) (dec : Decoder)
    (it it1 : PostingsListIterator) (h : dec.decode_next_block cfg it = some it1) :
    it1.skipListIdx = it.skipListIdx := by
  unfold Decoder.decode_next_block at h
  cases hs : dec.skip_hits cfg it it.skippedHits with
  | none => rw [hs] at h; exact absurd h (by simp)
  | some it0 =>
    rw [hs] at h
    simp only [Option.some.injEq] at h
    rw [← h, refill_documents_skipListIdx]
    exact congrArg docs_view.skipListIdx (skip_hits_docs_view cfg dec it it0 _ hs)

theorem next_skipListIdx (cfg : Config) (dec : Decoder) (it it1 : PostingsListIterator)
    (h : dec.next cfg it = some it1) : it1.skipListIdx = it.skipListIdx := by
  by_cases hin : it.docsIndex + 1 < it.bufferedDocs
  · rw [next_eq_in_block cfg dec it hin] at h
    simp only [Option.some.injEq] at h
    rw [← h]
  · by_cases hp : it.p = dec.chunkEnd
    · rw [next_eq_end cfg dec it hin hp] at h
      simp only [Option.some.injEq] at h
      rw [← h]
    · rw [next_eq_gap cfg dec it hin hp] at h
      cases hd : dec.decode_next_block cfg { it with
          skippedHits := (it.skippedHits + it.docFreqs it.docsIndex) % 2 ^ 32
          lastDocID := (it.lastDocID + it.docDeltas it.docsIndex) % 2 ^ 32
          docsIndex := it.docsIndex + 1 } with
      | none => rw [hd] at h; exact absurd h (by simp)
      | some it2 =>
        rw [hd] at h
        simp only [Option.some.injEq] at h
        rw [← h]
        exact (decode_next_block_skipListIdx cfg dec _ it2 hd).trans rfl

/-- More fuel does not change what the loop of `advance` returns. -/
theorem advance_loop_fuel_mono (cfg : Config) (dec : Decoder) (target : Nat) :
    ∀ (fuel : Nat) (it : PostingsListIterator) (lb li : Nat) (r : PostingsListIterator),
      dec.advance_loop cfg target fuel it lb li = some r →
      ∀ fuel1, fuel ≤ fuel1 → dec.advance_loop cfg target fuel1 it lb li = some r := by
  intro fuel
  induction fuel with
  | zero => intro it lb li r h; simp [Decoder.advance_loop] at h
  | succ fuel ih =>
    intro it lb li r h fuel1 hf
    obtain ⟨f, rfl⟩ : ∃ f, fuel1 = f + 1 := ⟨fuel1 - 1, by omega⟩
    have hff : fuel ≤ f := by omega
    have hl10 : ∀ (x : PostingsListIterator) (b d : Nat),
        (match advance_l10 target x d with
          | (it2, none) => some it2
          | (it2, some docsIndex2) => dec.advance_loop cfg target fuel it2 b docsIndex2) = some r →
        (match advance_l10 target x d with
          | (it2, none) => some it2
          | (it2, some docsIndex2) => dec.advance_loop cfg target f it2 b docsIndex2) = some r := by
      intro x b d hx
      rcases hr : advance_l10 target x d with ⟨it2, o⟩
      rw [hr] at hx
      cases o with
      | none => exact hx
      | some d2 => exact ih it2 b d2 r hx f hff
    by_cases h1 : li = lb
    · by_cases hp : it.p = dec.chunkEnd
      · rw [advance_loop_eq_end cfg dec target _ it lb li h1 hp] at h ⊢
        exact h
      · by_cases hj : it.skipListIdx ≠ dec.skiplist.length ∧
            dec.skiplist_search it target ≠ UINT32_MAX
        · rw [advance_loop_eq_jump cfg dec target _ it lb li h1 hp hj.1 hj.2] at h ⊢
          cases hjump : dec.skiplist_jump cfg it (dec.skiplist_search it target) with
          | none => rw [hjump] at h; exact absurd h (by simp)
          | some it1 =>
            rw [hjump] at h
            exact hl10 it1 it1.bufferedDocs it1.docsIndex h
        · have hj1 : it.skipListIdx = dec.skiplist.length ∨
              dec.skiplist_search it target = UINT32_MAX := by
            by_cases h2 : it.skipListIdx = dec.skiplist.length
            · exact Or.inl h2
            · by_cases h3 : dec.skiplist_search it target = UINT32_MAX
              · exact Or.inr h3
              · exact absurd ⟨h2, h3⟩ hj
          rw [advance_loop_eq_decode cfg dec target _ it lb li h1 hp hj1] at h ⊢
          cases hd : dec.decode_next_block cfg it with
          | none => rw [hd] at h; exact absurd h (by simp)
          | some it1 =>
            rw [hd] at h
            exact ih it1 _ _ r h f hff
    · rw [advance_loop_eq_l10 cfg dec target _ it lb li h1] at h ⊢
      exact hl10 it lb li h

end Lucene

namespace Lucene

theorem measure_bound (L idx n k : Nat) :
    (L - idx) * (2 * n + 2) + 2 * (n - k) + 1 < (L + 1) * (2 * n + 2) := by
  have h1 : (L - idx) * (2 * n + 2) ≤ L * (2 * n + 2) := Nat.mul_le_mul_right _ (Nat.sub_le _ _)
  rw [Nat.add_mul, Nat.one_mul]
  omega

/-- The call `advance` on a document. -/
theorem advance_on_doc (cfg : Config) (hok : cfg.codec_ok) (hB : 0 < cfg.BLOCK_SIZE)
    (docs : List doc_input) (dec : Decoder) (hl : chunk_layout cfg docs dec)
    (htail : tail_deltas_ok cfg docs) (target : Nat) (it : PostingsListIterator) (k : Nat)
    (hidx : it.skipListIdx ≤ dec.skiplist.length)
    (ho : on_doc cfg docs dec it.docs_view k)
    (hc : hits_count_ok dec it (hits_before docs k)) (fuel : Nat)
    (hfuel : (dec.skiplist.length + 1) * (2 * docs.length + 2) ≤ fuel) :
    seek_result cfg docs dec target k (dec.advance cfg fuel it target) := by
  have hm := measure_bound dec.skiplist.length it.skipListIdx docs.length k
  exact (advance_loop_spec cfg hok hB docs dec hl htail target fuel).1 it it.bufferedDocs
    it.docsIndex k hidx ho rfl hc (by omega)

/-- The call `advance` on a new iterator. -/
theorem advance_new_iterator (cfg : Config) (hok : cfg.codec_ok) (hB : 0 < cfg.BLOCK_SIZE)
    (docs : List doc_input) (dec : Decoder) (hl : chunk_layout cfg docs dec)
    (htail : tail_deltas_ok cfg docs) (target fuel : Nat)
    (hfuel : (dec.skiplist.length + 1) * (2 * docs.length + 2) ≤ fuel) :
    seek_result cfg docs dec target 0 (dec.advance cfg fuel dec.new_iterator target) := by
  have hm := measure_bound dec.skiplist.length dec.new_iterator.skipListIdx docs.length 0
  exact (advance_loop_spec cfg hok hB docs dec hl htail target fuel).2 dec.new_iterator
    dec.new_iterator.bufferedDocs dec.new_iterator.docsIndex 0 (Nat.zero_le _) rfl rfl
    (new_iterator_gap cfg docs dec hl) (new_iterator_count dec) (by omega)

/-- The call `advance` on an exhausted iterator leaves it exhausted. -/
theorem advance_exhausted (cfg : Config) (dec : Decoder) (target : Nat)
    (hT : target < 2 ^ 32) (it : PostingsListIterator) (hex : exhausted dec it) (fuel : Nat)
    (hfuel : 1 ≤ fuel) :
    ∃ it1, dec.advance cfg fuel it target = some it1 ∧ exhausted dec it1 ∧
      it1.skipListIdx = it.skipListIdx := by
  obtain ⟨f, rfl⟩ : ∃ f, fuel = f + 1 := ⟨fuel - 1, by omega⟩
  obtain ⟨h1, h2, h3⟩ := hex
  unfold Decoder.advance
  by_cases he : it.docsIndex = it.bufferedDocs
  · rw [advance_loop_eq_end cfg dec target f it _ _ he h1]
    exact ⟨_, rfl, ⟨h1, rfl, h3⟩, rfl⟩
  · rw [advance_loop_eq_l10 cfg dec target f it _ _ he,
      advance_l10_done target it it.docsIndex (by rw [h2]; simp only [DocIDsEND, UINT32_MAX]; omega)]
    exact ⟨_, rfl, ⟨h1, h2, h3⟩, rfl⟩

theorem seek_result_ok (cfg : Config) (docs : List doc_input) (dec : Decoder)
    (target k0 : Nat) (it1 : PostingsListIterator)
    (h : seek_result cfg docs dec target k0 (some it1)) : iter_ok cfg docs dec it1 := by
  obtain ⟨it2, e1, e2, e3⟩ := h
  simp only [Option.some.injEq] at e1
  subst e1
  refine ⟨e2, ?_⟩
  rcases e3 with ⟨k, a1, a2, _, _⟩ | ⟨a1, _⟩
  · exact Or.inr (Or.inl ⟨k, a1, a2⟩)
  · exact Or.inr (Or.inr a1)

/-- Every state reached by `next` and `advance` is a new iterator, an iterator on a
document, or an exhausted iterator. -/
theorem reachable_ok (cfg : Config) (hok : cfg.codec_ok) (hB : 0 < cfg.BLOCK_SIZE)
    (docs : List doc_input) (dec : Decoder) (hl : chunk_layout cfg docs dec)
    (htail : tail_deltas_ok cfg docs) (it : PostingsListIterator)
    (hr : reachable cfg dec it) : iter_ok cfg docs dec it := by
  induction hr with
  | fresh => exact ⟨Nat.zero_le _, Or.inl rfl⟩
  | next it it1 _ hn ih =>
    obtain ⟨hidx, hst⟩ := ih
    have hsk := next_skipListIdx cfg dec it it1 hn
    refine ⟨by rw [hsk]; exact hidx, ?_⟩
    rcases hst with hnew | ⟨k, ho, hc⟩ | hex
    · subst hnew
      obtain ⟨it2, e1, e2⟩ := next_new_iterator cfg hok hB docs dec hl htail
      rw [hn] at e1
      simp only [Option.some.injEq] at e1
      subst e1
      rcases e2 with ⟨_, a1, a2, _⟩ | ⟨_, a1⟩
      · exact Or.inr (Or.inl ⟨0, a1, a2⟩)
      · exact Or.inr (Or.inr a1)
    · obtain ⟨it2, e1, e2⟩ := next_on_doc cfg hok hB docs dec hl htail it k ho hc
      rw [hn] at e1
      simp only [Option.some.injEq] at e1
      subst e1
      rcases e2 with ⟨_, a1, a2, _⟩ | ⟨_, a1⟩
      · exact Or.inr (Or.inl ⟨k + 1, a1, a2⟩)
      · exact Or.inr (Or.inr a1)
    · obtain ⟨h1, h2, h3⟩ := hex
      rw [next_eq_end cfg dec it (by omega) h1] at hn
      simp only [Option.some.injEq] at hn
      subst hn
      exact Or.inr (Or.inr ⟨h1, rfl, by show it.bufferedDocs ≤ it.docsIndex + 1; omega⟩)
  | advance it it1 fuel target _ hT ha ih =>
    obtain ⟨hidx, hst⟩ := ih
    have hbig : ∀ F, fuel ≤ F → dec.advance cfg F it target = some it1 := fun F hF =>
      advance_loop_fuel_mono cfg dec target fuel it _ _ it1 ha F hF
    rcases hst with hnew | ⟨k, ho, hc⟩ | hex
    · subst hnew
      have h1 := advance_new_iterator cfg hok hB docs dec hl htail target
        (fuel + (dec.skiplist.length + 1) * (2 * docs.length + 2)) (by omega)
      rw [hbig _ (by omega)] at h1
      exact seek_result_ok cfg docs dec target 0 it1 h1
    · have h1 := advance_on_doc cfg hok hB docs dec hl htail target it k hidx ho hc
        (fuel + (dec.skiplist.length + 1) * (2 * docs.length + 2)) (by omega)
      rw [hbig _ (by omega)] at h1
      exact seek_result_ok cfg docs dec target k it1 h1
    · obtain ⟨it2, e1, e2, e3⟩ := advance_exhausted cfg dec target hT it hex (fuel + 1)
        (by omega)
      rw [hbig _ (by omega)] at e1
      simp only [Option.some.injEq] at e1
      subst e1
      exact ⟨by rw [e3]; exact hidx, Or.inr (Or.inr e2)⟩

end Lucene

namespace Lucene

/-- C6 (amended). Seek correctness. Let the encoder accept the call sequence for `docs`
(under the conditions of the posting-list round trip: a block codec that reads back a
full block, `1 <= BLOCK_SIZE <= 65536`, `1 <= SKIPLIST_STEP`, index, ids and number of
recorded hits within 32 bits, and with the packed freq-1 option deltas of the trailing
block below `2^31`). Let `it` be any state reached from a new iterator by calls of `next`
and `advance`, and `target` a 32-bit value GREATER than `lastDocID`, the id of the
document before the current one (or `lastDocID = 0`: there is none). Then `advance`
returns (given fuel for its loop), and afterwards either the iterator is on a document
`k` whose id is at least `target` while all ids before `k` are below `target` (so it is
the least id `>= target`), or it publishes `DocIDsEND` and either it was exhausted before
or every id is below `target`. Moreover when the skip-list search of that call finds an
entry, the jump to it lands on a document before which all ids are below `target`. -/
theorem advance_seek_correct (cfg : Config) (hok : cfg.codec_ok) (hB : 0 < cfg.BLOCK_SIZE)
    (hB16 : cfg.BLOCK_SIZE ≤ 2 ^ 16) (hstep : 1 ≤ cfg.SKIPLIST_STEP) (e0 e : Encoder)
    (docs : List doc_input) (tctx : term_index_ctx)
    (hw : Encoder.write_term cfg e0 docs = some (e, tctx))
    (hsz : e.indexOut.length < 2 ^ 32) (hhits : hits_before docs docs.length < 2 ^ 32)
    (hids : ∀ i < docs.length, doc_id docs i < 2 ^ 32) (htail : tail_deltas_ok cfg docs)
    (hitsData : List Nat) (it : PostingsListIterator)
    (hr : reachable cfg (Decoder.init tctx e.indexOut hitsData) it)
    (target : Nat) (hT : target < 2 ^ 32)
    (hpred : it.lastDocID < target ∨ it.lastDocID = 0) (fuel : Nat)
    (hfuel : ((Decoder.init tctx e.indexOut hitsData).skiplist.length + 1) *
      (2 * docs.length + 2) ≤ fuel) :
    (∃ it1, (Decoder.init tctx e.indexOut hitsData).advance cfg fuel it target = some it1 ∧
      ((∃ k, k < docs.length ∧ it1.curDocument_id = doc_id docs k ∧
          it1.freq = doc_freq docs k ∧ target ≤ doc_id docs k ∧
          ∀ j < k, doc_id docs j < target) ∨
       (it1.curDocument_id = DocIDsEND ∧
          (exhausted (Decoder.init tctx e.indexOut hitsData) it ∨
           ∀ j < docs.length, doc_id docs j < target)))) ∧
    (it.skipListIdx < (Decoder.init tctx e.indexOut hitsData).skiplist.length →
      (Decoder.init tctx e.indexOut hitsData).skiplist_search it target ≠ UINT32_MAX →
      ∃ it1 k, (Decoder.init tctx e.indexOut hitsData).skiplist_jump cfg it
          ((Decoder.init tctx e.indexOut hitsData).skiplist_search it target) = some it1 ∧
        it1.curDocument_id = doc_id docs k ∧ ∀ j < k, doc_id docs j < target) := by
  have hl := write_term_layout cfg hB hB16 hstep e0 e docs tctx hw hsz hhits hids hitsData
  have hstrict := write_term_sorted cfg hB hstep e0 e docs tctx hw
  generalize Decoder.init tctx e.indexOut hitsData = dec at hl hr hfuel ⊢
  obtain ⟨hidx, hst⟩ := reachable_ok cfg hok hB docs dec hl htail it hr
  have hfin : ∀ k0, ids_below docs target k0 →
      seek_result cfg docs dec target k0 (dec.advance cfg fuel it target) →
      ∃ it1, dec.advance cfg fuel it target = some it1 ∧
        ((∃ k, k < docs.length ∧ it1.curDocument_id = doc_id docs k ∧
            it1.freq = doc_freq docs k ∧ target ≤ doc_id docs k ∧
            ∀ j < k, doc_id docs j < target) ∨
         (it1.curDocument_id = DocIDsEND ∧
            (exhausted dec it ∨ ∀ j < docs.length, doc_id docs j < target))) := by
    intro k0 hb hres
    obtain ⟨it1, e1, _, e3⟩ := hres
    refine ⟨it1, e1, ?_⟩
    rcases e3 with ⟨k, a1, _, a3, a4⟩ | ⟨a1, a2⟩
    · exact Or.inl ⟨k, a1.k_lt, a1.cur_eq, a1.freq_eq, a3, a4 hb⟩
    · exact Or.inr ⟨a1.2.1, Or.inr (a2 hb)⟩
  constructor
  · rcases hst with hnew | ⟨k, ho, hc⟩ | hex
    · subst hnew
      exact hfin 0 (fun j hj => absurd hj (Nat.not_lt_zero _))
        (advance_new_iterator cfg hok hB docs dec hl htail target fuel hfuel)
    · have hlast : it.lastDocID = prev_id docs k := ho.lastDocID_eq
      have hb : ids_below docs target k := by
        rcases hpred with h1 | h1
        · exact ids_below_of_prev docs target k (le_of_lt ho.k_lt) hl.ids_sorted
            (by rw [← hlast]; exact h1)
        · have hk0 : k = 0 := by
            by_contra hne
            have h2 := doc_id_ge docs docs.length hstrict (k - 1)
              (by have := ho.k_lt; omega)
            have h3 : prev_id docs k = doc_id docs (k - 1) := by
              unfold prev_id
              rw [if_neg hne]
            omega
          rw [hk0]
          exact fun j hj => absurd hj (Nat.not_lt_zero _)
      exact hfin k hb (advance_on_doc cfg hok hB docs dec hl htail target it k hidx ho hc fuel
        hfuel)
    · have hpos : 1 ≤ fuel := by
        have : 1 * (2 * docs.length + 2) ≤ (dec.skiplist.length + 1) * (2 * docs.length + 2) :=
          Nat.mul_le_mul_right _ (by omega)
        omega
      obtain ⟨it1, e1, e2, _⟩ := advance_exhausted cfg dec target hT it hex fuel hpos
      exact ⟨it1, e1, Or.inr ⟨e2.2.1, Or.inl hex⟩⟩
  · intro hlt hfound
    obtain ⟨_, s2, s3⟩ := skiplist_search_spec dec it target hlt hfound
    obtain ⟨it1, j, e1, _, e3, e4, _, _⟩ := skiplist_jump_spec cfg hok hB docs dec hl htail it
      _ s2
    exact ⟨it1, j * cfg.BLOCK_SIZE, e1, e4.cur_eq,
      ids_below_of_prev docs target _ (le_of_lt e4.k_lt) hl.ids_sorted (by rw [← e3]; exact s3)⟩

set_option maxRecDepth 100000 in
theorem advance_seek_correct_witness :
    ∃ e tctx,
      Encoder.write_term (vbyte_config 2 true) (Encoder.fresh [] []) five_docs = some (e, tctx) ∧
      ∃ it1, (Decoder.init tctx e.indexOut e.positionsOut).advance (vbyte_config 2 true) 100
          (Decoder.init tctx e.indexOut e.positionsOut).new_iterator 8 = some it1 ∧
        ((∃ k, k < five_docs.length ∧ it1.curDocument_id = doc_id five_docs k ∧
            it1.freq = doc_freq five_docs k ∧ 8 ≤ doc_id five_docs k ∧
            ∀ j < k, doc_id five_docs j < 8) ∨
         (it1.curDocument_id = DocIDsEND ∧
            (exhausted (Decoder.init tctx e.indexOut e.positionsOut)
                (Decoder.init tctx e.indexOut e.positionsOut).new_iterator ∨
             ∀ j < five_docs.length, doc_id five_docs j < 8))) := by
  cases hw : Encoder.write_term (vbyte_config 2 true) (Encoder.fresh [] []) five_docs with
  | none =>
    have h1 : (Encoder.write_term (vbyte_config 2 true) (Encoder.fresh [] []) five_docs).isSome
        = true := by decide
    rw [hw] at h1
    exact absurd h1 (by decide)
  | some r =>
    obtain ⟨e, tctx⟩ := r
    have h1 : (Encoder.write_term (vbyte_config 2 true) (Encoder.fresh [] []) five_docs).map
        (fun r => r.1.indexOut.length) = some 72 := by decide
    have h2 : (Encoder.write_term (vbyte_config 2 true) (Encoder.fresh [] []) five_docs).map
        (fun r => (Decoder.init r.2 r.1.indexOut r.1.positionsOut).skiplist.length) = some 2 := by
      decide
    rw [hw] at h1 h2
    have hlen : e.indexOut.length = 72 := by simpa using h1
    have hsl : (Decoder.init tctx e.indexOut e.positionsOut).skiplist.length = 2 := by
      simpa using h2
    exact ⟨e, tctx, rfl,
      (advance_seek_correct (vbyte_config 2 true) (vbyte_config_codec_ok 2 true) (by decide)
        (by decide) (by decide) (Encoder.fresh [] []) e five_docs tctx hw
        (by rw [hlen]; decide) (by decide) (by decide) tail_deltas_ok_five_docs
        e.positionsOut _ (reachable.fresh) 8 (by decide) (Or.inr rfl) 100
        (by rw [hsl]; decide)).1⟩

set_option maxRecDepth 100000 in
/-- C6 (counterexample). The documents 1 and 2 are written; two calls of `next` leave a
new iterator on the document 2, whose predecessor is 1 (`lastDocID = 1`). The target 1 is
not smaller than that predecessor, and the least id `>= 1` of the list is 1, but
`advance(1)` leaves the iterator on the document 2. -/
theorem advance_keeps_document_for_target_at_predecessor :
    (written_decoder (vbyte_config 128 false)
        [{ id := 1, hits := [plain_hit 1] }, { id := 2, hits := [plain_hit 1] }]).bind
      (fun dec => (dec.next_iter (vbyte_config 128 false) 2 dec.new_iterator).bind
        (fun it => (dec.advance (vbyte_config 128 false) 16 it 1).map
          (fun it1 => (it.curDocument_id, it.lastDocID, it1.curDocument_id)))) =
      some (2, 1, 2) := by
  decide

end Lucene

namespace Lucene

theorem stored_hits_of_length (hs : List hit_input) : ∀ last,
    (stored_hits_of hs last).length = hs.length := by
  induction hs with
  | nil => intro last; rfl
  | cons h hs ih => intro last; simp [stored_hits_of, ih]

theorem doc_stored_length (d : doc_input) : (doc_stored d).length = (real_hits d).length :=
  stored_hits_of_length _ 0

theorem doc_freq_cons_zero (d : doc_input) (ds : List doc_input) :
    doc_freq (d :: ds) 0 = (real_hits d).length := by
  simp [doc_freq]

theorem doc_freq_cons_succ (d : doc_input) (ds : List doc_input) (i : Nat) :
    doc_freq (d :: ds) (i + 1) = doc_freq ds i := by
  simp [doc_freq]

theorem hits_before_cons (d : doc_input) (ds : List doc_input) : ∀ m,
    hits_before (d :: ds) (m + 1) = (real_hits d).length + hits_before ds m := by
  intro m
  induction m with
  | zero => simp [hits_before, doc_freq_cons_zero]
  | succ m ih =>
    rw [hits_before, ih, doc_freq_cons_succ, hits_before]
    omega

/-- The `t`-th stored hit of the document `m` is the stored hit of the list with the
number `hits_before m + t`. -/
theorem stored_hits_getD (x : Nat × List Nat) : ∀ (docs : List doc_input) (m t : Nat)
    (hm : m < docs.length), t < (real_hits docs[m]).length →
    (stored_hits docs).getD (hits_before docs m + t) x = (doc_stored docs[m]).getD t x := by
  intro docs
  induction docs with
  | nil => intro m t hm; simp at hm
  | cons d ds ih =>
    intro m t hm ht
    cases m with
    | zero =>
      simp only [hits_before, Nat.zero_add, stored_hits, List.getElem_cons_zero] at ht ⊢
      rw [List.getD_eq_getElem?_getD, List.getD_eq_getElem?_getD,
        List.getElem?_append_left (by rw [doc_stored_length]; exact ht)]
    | succ m =>
      simp only [List.getElem_cons_succ] at ht ⊢
      have hm1 : m < ds.length := by simpa using hm
      rw [hits_before_cons, stored_hits, List.getD_eq_getElem?_getD,
        List.getElem?_append_right (by rw [doc_stored_length]; omega), doc_stored_length]
      have : (real_hits d).length + hits_before ds m + t - (real_hits d).length =
          hits_before ds m + t := by omega
      rw [this, ← List.getD_eq_getElem?_getD]
      exact ih m t hm1 ht

theorem hits_blocks_bytes_succ (cfg : Config) (docs : List doc_input) (q : Nat) :
    hits_blocks_bytes cfg docs (q + 1) =
      hits_blocks_bytes cfg docs q ++ hits_block_bytes cfg docs q := rfl

theorem payloads_range_succ (docs : List doc_input) (start count : Nat) :
    payloads_range docs start (count + 1) =
      payloads_range docs start count ++ hit_payload docs (start + count) := rfl

theorem succ_div_of_mod (x B : Nat) (hB : 0 < B) (h : x % B + 1 = B) :
    (x + 1) / B = x / B + 1 := by
  have h1 := div_mul_add_mod x B
  have : x + 1 = (x / B + 1) * B := by
    rw [Nat.add_mul, Nat.one_mul]; omega
  rw [this, Nat.mul_div_cancel _ hB]

/-- The call `new_hit` for the `g`-th recorded hit of the list. -/
theorem new_hit_hits (cfg : Config) (hB : 0 < cfg.BLOCK_SIZE) (ppre : List Nat)
    (docs : List doc_input) (g : Nat) (e e1 : Encoder) (pos : Nat) (payload : List Nat)
    (htot : e.totalHits = g % cfg.BLOCK_SIZE)
    (htpo : e.termPositionsOffset = ppre.length)
    (hinv : enc_hits_inv cfg ppre docs g e)
    (hreal : ¬ (pos = 0 ∧ payload = []))
    (hd : hit_delta docs g = pos - e.lastPosition) (hp : hit_payload docs g = payload)
    (hn : e.new_hit cfg pos payload = some e1) :
    enc_hits_inv cfg ppre docs (g + 1) e1 ∧ e1.lastPosition = pos := by
  have hk := div_mul_add_mod g cfg.BLOCK_SIZE
  have hr := Nat.mod_lt g hB
  have hsm := succ_mod_div g cfg.BLOCK_SIZE hB
  unfold Encoder.new_hit at hn
  rw [if_neg hreal] at hn
  by_cases h1 : pos ≥ e.lastPosition
  · rw [if_neg (not_not.2 h1)] at hn
    by_cases h2 : payload.length ≤ 8
    · rw [if_neg (not_not.2 h2)] at hn
      simp only at hn
      have hdl : ∀ i < g % cfg.BLOCK_SIZE + 1,
          Function.update e.hitPosDeltas e.totalHits (pos - e.lastPosition) i =
            hit_delta docs (g / cfg.BLOCK_SIZE * cfg.BLOCK_SIZE + i) := by
        intro i hi
        by_cases hig : i = g % cfg.BLOCK_SIZE
        · rw [hig, ← htot, Function.update_same, htot, hk, hd]
        · rw [Function.update_noteq (by rw [htot]; exact hig)]
          exact hinv.deltas_eq i (by omega)
      have hsz : ∀ i < g % cfg.BLOCK_SIZE + 1,
          Function.update e.hitPayloadSizes e.totalHits payload.length i =
            hit_plen docs (g / cfg.BLOCK_SIZE * cfg.BLOCK_SIZE + i) := by
        intro i hi
        by_cases hig : i = g % cfg.BLOCK_SIZE
        · rw [hig, ← htot, Function.update_same, htot, hk, hit_plen, hp]
        · rw [Function.update_noteq (by rw [htot]; exact hig)]
          exact hinv.sizes_eq i (by omega)
      have hpl : e.payloadsBuf ++ payload =
          payloads_range docs (g / cfg.BLOCK_SIZE * cfg.BLOCK_SIZE) (g % cfg.BLOCK_SIZE + 1) := by
        rw [payloads_range_succ, hk, hp, hinv.payloads_eq]
      have hple : ∀ i < g + 1, hit_plen docs i ≤ 8 := by
        intro i hi
        by_cases hig : i = g
        · rw [hig, hit_plen, hp]; exact h2
        · exact hinv.plen_le i (by omega)
      by_cases hfl : e.totalHits + 1 = cfg.BLOCK_SIZE
      · rw [if_pos hfl] at hn
        split at hn
        · exact absurd hn (by simp)
        · simp only [Option.some.injEq] at hn
          subst hn
          have hend : g % cfg.BLOCK_SIZE + 1 = cfg.BLOCK_SIZE := by rw [← htot]; exact hfl
          obtain ⟨hm1, hd1⟩ := hsm.1 hend
          have hq1 := succ_div_of_mod g cfg.BLOCK_SIZE hB hend
          have hblock : ints_encode cfg
              (Function.update e.hitPosDeltas e.totalHits (pos - e.lastPosition))
              (e.totalHits + 1) ++
              ints_encode cfg (Function.update e.hitPayloadSizes e.totalHits payload.length)
                (e.totalHits + 1) ++
              encode_varbyte32 (e.payloadsBuf ++ payload).length ++ (e.payloadsBuf ++ payload) =
              hits_block_bytes cfg docs (g / cfg.BLOCK_SIZE) := by
            rw [hfl, hpl, hend]
            unfold hits_block_bytes
            rw [ints_encode_congr cfg _ _ _ (fun i hi => hdl i (by omega)) hB,
              ints_encode_congr cfg _ _ _ (fun i hi => hsz i (by omega)) hB]
          refine ⟨⟨?_, ?_, ?_, ?_, ?_, hinv.skiplist_hits, hinv.cur_block_hits, hple⟩, rfl⟩
          · show e.positionsOut ++ _ = _
            rw [hblock, hq1, hits_blocks_bytes_succ, hinv.positions_eq, List.append_assoc]
          · intro i hi; omega
          · intro i hi; omega
          · show ([] : List Nat) = _
            rw [hm1]; rfl
          · show (e.positionsOut ++ _).length - e.termPositionsOffset = _
            rw [hblock, hq1, hits_blocks_bytes_succ, hinv.positions_eq, htpo]
            simp only [List.length_append]
            omega
      · rw [if_neg hfl] at hn
        simp only [Option.some.injEq] at hn
        subst hn
        have hne : g % cfg.BLOCK_SIZE + 1 ≠ cfg.BLOCK_SIZE := by rw [← htot]; exact hfl
        obtain ⟨hm1, hd1⟩ := hsm.2 hne
        refine ⟨⟨?_, ?_, ?_, ?_, ?_, hinv.skiplist_hits, hinv.cur_block_hits, hple⟩, rfl⟩
        · rw [hd1]; exact hinv.positions_eq
        · intro i hi
          rw [hd1]
          exact hdl i (by omega)
        · intro i hi
          rw [hd1]
          exact hsz i (by omega)
        · rw [hd1, hm1]; exact hpl
        · rw [hd1]; exact hinv.offset_eq
    · rw [if_pos h2] at hn
      exact absurd hn (by simp)
  · rw [if_pos h1] at hn
    exact absurd hn (by simp)

theorem new_hit_placeholder (cfg : Config) (e : Encoder) (pos : Nat) (payload : List Nat)
    (h : pos = 0 ∧ payload = []) : e.new_hit cfg pos payload = some e := by
  unfold Encoder.new_hit
  rw [if_pos h]

end Lucene

namespace Lucene

theorem drop_eq_cons {α : Type} (d : α) : ∀ (l : List α) (t : Nat) (x : α) (xs : List α),
    l.drop t = x :: xs → t < l.length ∧ l.getD t d = x ∧ l.drop (t + 1) = xs := by
  intro l
  induction l with
  | nil => intro t x xs h; simp at h
  | cons a l ih =>
    intro t x xs h
    cases t with
    | zero =>
      simp only [List.drop_zero, List.cons.injEq] at h
      refine ⟨by simp, ?_, ?_⟩
      · simp [h.1]
      · simp [h.2]
    | succ t =>
      simp only [List.drop_succ_cons] at h
      obtain ⟨h1, h2, h3⟩ := ih t x xs h
      refine ⟨by simp; omega, ?_, ?_⟩
      · simpa using h2
      · simpa using h3

/-- The calls `new_hit` for the remaining hits of the document `m`. -/
theorem new_hits_hits (cfg : Config) (hB : 0 < cfg.BLOCK_SIZE) (pre ppre : List Nat)
    (docs : List doc_input) (m : Nat) (hm : m < docs.length) :
    ∀ (hits : List hit_input) (t : Nat) (e e1 : Encoder),
      enc_mid_inv cfg pre ppre docs m t e →
      enc_hits_inv cfg ppre docs (hits_before docs m + t) e →
      (doc_stored docs[m]).drop t =
        stored_hits_of (hits.filter (fun h => !decide (h.pos = 0 ∧ h.payload = [])))
          e.lastPosition →
      Encoder.new_hits cfg e hits = some e1 →
      enc_hits_inv cfg ppre docs (hits_before docs m +
        (t + (hits.filter (fun h => !decide (h.pos = 0 ∧ h.payload = []))).length)) e1 := by
  intro hits
  induction hits with
  | nil =>
    intro t e e1 hmid hinv _ h
    simp only [Encoder.new_hits, Option.some.injEq] at h
    subst h
    simpa using hinv
  | cons h hs ih =>
    intro t e e1 hmid hinv hlink hn
    simp only [Encoder.new_hits] at hn
    cases hh : e.new_hit cfg h.pos h.payload with
    | none => rw [hh] at hn; simp at hn
    | some e2 =>
      rw [hh] at hn
      simp only at hn
      have hmid2 := new_hit_inv cfg hB pre ppre docs m t e e2 h.pos h.payload hmid hh
      by_cases hph : h.pos = 0 ∧ h.payload = []
      · rw [if_pos hph] at hmid2
        rw [new_hit_placeholder cfg e h.pos h.payload hph] at hh
        simp only [Option.some.injEq] at hh
        subst hh
        have hf : List.filter (fun h => !decide (h.pos = 0 ∧ h.payload = [])) (h :: hs) =
            List.filter (fun h => !decide (h.pos = 0 ∧ h.payload = [])) hs := by
          simp [List.filter, hph]
        rw [hf] at hlink ⊢
        exact ih t e e1 hmid2 hinv hlink hn
      · rw [if_neg hph] at hmid2
        have hf : List.filter (fun h => !decide (h.pos = 0 ∧ h.payload = [])) (h :: hs) =
            h :: List.filter (fun h => !decide (h.pos = 0 ∧ h.payload = [])) hs := by
          simp [List.filter, hph]
        rw [hf] at hlink ⊢
        rw [stored_hits_of] at hlink
        obtain ⟨l1, l2, l3⟩ := drop_eq_cons ((0 : Nat), ([] : List Nat)) _ _ _ _ hlink
        rw [doc_stored_length] at l1
        have hg := stored_hits_getD (0, []) docs m t hm l1
        rw [l2] at hg
        have hd : hit_delta docs (hits_before docs m + t) = h.pos - e.lastPosition := by
          unfold hit_delta; rw [hg]
        have hp : hit_payload docs (hits_before docs m + t) = h.payload := by
          unfold hit_payload; rw [hg]
        obtain ⟨hinv2, hlast⟩ := new_hit_hits cfg hB ppre docs _ e e2 h.pos h.payload
          hmid.totalHits_eq hmid.termPositionsOffset_eq hinv hph hd hp hh
        have h3 := ih (t + 1) e2 e1 hmid2 (by rw [← Nat.add_assoc]; exact hinv2)
          (by rw [hlast]; exact l3) hn
        have e3 : t + (h :: List.filter (fun h => !decide (h.pos = 0 ∧ h.payload = [])) hs).length
            = t + 1 + (List.filter (fun h => !decide (h.pos = 0 ∧ h.payload = [])) hs).length := by
          simp only [List.length_cons]; omega
        rw [e3]
        exact h3

/-- The call `begin_document` leaves the hits stream alone, and the skip-list entry it
starts records where the current hits block begins. -/
theorem begin_document_hits (cfg : Config) (hB : 0 < cfg.BLOCK_SIZE)
    (hstep : 1 ≤ cfg.SKIPLIST_STEP) (pre ppre : List Nat) (docs : List doc_input) (m : Nat)
    (e e1 : Encoder) (id : Nat) (hinv : enc_docs_inv cfg pre ppre docs m e)
    (hh : enc_hits_inv cfg ppre docs (hits_before docs m) e)
    (hb : e.begin_document cfg id = some e1) :
    enc_hits_inv cfg ppre docs (hits_before docs m) e1 ∧ e1.lastPosition = 0 := by
  have hnew : e.lastHitsBlockOffset = (hits_blocks_bytes cfg docs
      (e.lastHitsBlockTotalHits / cfg.BLOCK_SIZE)).length := by
    rw [hinv.lastHitsBlockTotalHits_eq, hinv.sumHits_eq, Nat.mul_div_cancel _ hB]
    exact hh.offset_eq
  have hm0 : e.buffered ≠ 0 → e.termDocuments ≠ 0 := by
    intro h1
    rw [hinv.termDocuments_eq]
    intro h2
    apply h1
    rw [hinv.buffered_eq, h2]
    simp
  unfold Encoder.begin_document at hb
  by_cases hgt : id > e.lastDocID
  · rw [if_neg (not_not.2 hgt)] at hb
    by_cases hfull : e.buffered = cfg.BLOCK_SIZE
    · obtain ⟨sl, cd, hob, _, hsl⟩ := output_block_spec cfg hstep e hfull hinv.countdown_pos
      rw [if_pos hfull, hob] at hb
      simp only [if_true, Option.some.injEq] at hb
      subst hb
      refine ⟨⟨hh.positions_eq, hh.deltas_eq, hh.sizes_eq, hh.payloads_eq, hh.offset_eq, ?_,
        fun _ => hnew, hh.plen_le⟩, rfl⟩
      intro s hs
      have hs1 : s ∈ sl := hs
      rcases hsl with hsl | ⟨hsl, _⟩
      · rw [hsl] at hs1
        exact hh.skiplist_hits s hs1
      · rw [hsl] at hs1
        rcases List.mem_append.1 hs1 with h1 | h1
        · exact hh.skiplist_hits s h1
        · rw [List.mem_singleton.1 h1]
          exact hh.cur_block_hits (hm0 (by omega))
    · rw [if_neg hfull] at hb
      simp only [Option.some.injEq] at hb
      subst hb
      by_cases hz : e.buffered = 0
      · simp only [if_pos hz]
        exact ⟨⟨hh.positions_eq, hh.deltas_eq, hh.sizes_eq, hh.payloads_eq, hh.offset_eq,
          hh.skiplist_hits, fun _ => hnew, hh.plen_le⟩, trivial⟩
      · simp only [if_neg hz]
        exact ⟨⟨hh.positions_eq, hh.deltas_eq, hh.sizes_eq, hh.payloads_eq, hh.offset_eq,
          hh.skiplist_hits, fun _ => hh.cur_block_hits (hm0 hz), hh.plen_le⟩, trivial⟩
  · rw [if_pos hgt] at hb
    exact absurd hb (by simp)

end Lucene

namespace Lucene

theorem add_document_hits (cfg : Config) (hB : 0 < cfg.BLOCK_SIZE)
    (hstep : 1 ≤ cfg.SKIPLIST_STEP) (pre ppre : List Nat) (docs : List doc_input) (m : Nat)
    (hm : m < docs.length) (e e1 : Encoder) (hinv : enc_docs_inv cfg pre ppre docs m e)
    (hh : enc_hits_inv cfg ppre docs (hits_before docs m) e)
    (ha : e.add_document cfg docs[m] = some e1) :
    enc_hits_inv cfg ppre docs (hits_before docs (m + 1)) e1 := by
  unfold Encoder.add_document at ha
  cases hb : e.begin_document cfg docs[m].id with
  | none => rw [hb] at ha; simp at ha
  | some e2 =>
    rw [hb] at ha
    simp only at ha
    cases hn : Encoder.new_hits cfg e2 docs[m].hits with
    | none => rw [hn] at ha; simp at ha
    | some e3 =>
      rw [hn] at ha
      simp only [Option.some.injEq] at ha
      subst ha
      obtain ⟨hh2, hlast⟩ := begin_document_hits cfg hB hstep pre ppre docs m e e2 _ hinv hh hb
      rw [← doc_id_getElem docs m hm] at hb
      have h2 := (begin_document_inv cfg hB hstep pre ppre docs m e e2 hinv hb).1
      have h3 := new_hits_hits cfg hB pre ppre docs m hm docs[m].hits 0 e2 e3 h2
        (by rw [Nat.add_zero]; exact hh2) (by rw [hlast]; rfl) hn
      rw [Nat.zero_add] at h3
      have hf : doc_freq docs m = (List.filter (fun h => !decide (h.pos = 0 ∧ h.payload = []))
          docs[m].hits).length := by
        rw [doc_freq_getElem docs m hm]; rfl
      rw [← hf] at h3
      exact ⟨h3.positions_eq, h3.deltas_eq, h3.sizes_eq, h3.payloads_eq, h3.offset_eq,
        h3.skiplist_hits, h3.cur_block_hits, h3.plen_le⟩

theorem add_documents_hits (cfg : Config) (hB : 0 < cfg.BLOCK_SIZE)
    (hstep : 1 ≤ cfg.SKIPLIST_STEP) (pre ppre : List Nat) (docs : List doc_input) :
    ∀ (k m : Nat) (e e1 : Encoder), m + k = docs.length →
      enc_docs_inv cfg pre ppre docs m e →
      enc_hits_inv cfg ppre docs (hits_before docs m) e →
      Encoder.add_documents cfg e (docs.drop m) = some e1 →
      enc_hits_inv cfg ppre docs (hits_before docs docs.length) e1 := by
  intro k
  induction k with
  | zero =>
    intro m e e1 hmk hinv hh ha
    have hm : m = docs.length := by omega
    subst hm
    simp only [List.drop_length, Encoder.add_documents, Option.some.injEq] at ha
    subst ha
    exact hh
  | succ k ih =>
    intro m e e1 hmk hinv hh ha
    have hm : m < docs.length := by omega
    rw [List.drop_eq_getElem_cons hm] at ha
    simp only [Encoder.add_documents] at ha
    cases h1 : e.add_document cfg docs[m] with
    | none => rw [h1] at ha; simp at ha
    | some e2 =>
      rw [h1] at ha
      simp only at ha
      exact ih (m + 1) e2 e1 (by omega)
        (add_document_inv cfg hB hstep pre ppre docs m hm e e2 hinv h1)
        (add_document_hits cfg hB hstep pre ppre docs m hm e e2 hinv hh h1) ha

theorem begin_term_hits (cfg : Config) (ppre : List Nat) (docs : List doc_input) (e : Encoder)
    (h1 : e.positionsOut = ppre) (h2 : e.payloadsBuf = []) :
    enc_hits_inv cfg ppre docs 0 (e.begin_term cfg) := by
  refine ⟨?_, ?_, ?_, ?_, ?_, ?_, ?_, ?_⟩
  · show e.positionsOut = _
    rw [h1, Nat.zero_div]
    simp [hits_blocks_bytes]
  · intro i hi; rw [Nat.zero_mod] at hi; omega
  · intro i hi; rw [Nat.zero_mod] at hi; omega
  · show e.payloadsBuf = _
    rw [h2, Nat.zero_mod]
    rfl
  · show (0 : Nat) = _
    rw [Nat.zero_div]
    rfl
  · intro s hs
    exact absurd hs (List.not_mem_nil s)
  · intro h
    exact absurd rfl h
  · intro i hi; omega

theorem stored_hits_length : ∀ docs : List doc_input,
    (stored_hits docs).length = hits_before docs docs.length := by
  intro docs
  induction docs with
  | nil => rfl
  | cons d ds ih =>
    rw [stored_hits, List.length_append, doc_stored_length, ih, List.length_cons,
      hits_before_cons]

theorem hit_plen_beyond (docs : List doc_input) (g : Nat) (h : hits_total docs ≤ g) :
    hit_plen docs g = 0 := by
  unfold hit_plen hit_payload
  rw [List.getD_eq_getElem?_getD, List.getElem?_eq_none (by rw [stored_hits_length]; exact h)]
  rfl

theorem stored_hits_of_delta_lt (bound : Nat) : ∀ (hs : List hit_input) (last : Nat),
    (∀ h ∈ hs, h.pos < bound) → ∀ x ∈ stored_hits_of hs last, x.1 < bound := by
  intro hs
  induction hs with
  | nil => intro last _ x hx; simp [stored_hits_of] at hx
  | cons h hs ih =>
    intro last hb x hx
    rw [stored_hits_of] at hx
    rcases List.mem_cons.1 hx with h1 | h1
    · rw [h1]
      have := hb h (List.mem_cons_self _ _)
      show h.pos - last < bound
      omega
    · exact ih h.pos (fun y hy => hb y (List.mem_cons_of_mem _ hy)) x h1

theorem hit_delta_lt (docs : List doc_input) (bound : Nat) (hb0 : 0 < bound)
    (hpos : ∀ d ∈ docs, ∀ h ∈ d.hits, h.pos < bound) (g : Nat) : hit_delta docs g < bound := by
  have hall : ∀ ds : List doc_input, (∀ d ∈ ds, ∀ h ∈ d.hits, h.pos < bound) →
      ∀ x ∈ stored_hits ds, x.1 < bound := by
    intro ds
    induction ds with
    | nil => intro _ x hx; simp [stored_hits] at hx
    | cons d ds ih =>
      intro hb x hx
      rw [stored_hits] at hx
      rcases List.mem_append.1 hx with h1 | h1
      · apply stored_hits_of_delta_lt bound (real_hits d) 0 _ x h1
        intro h hh
        exact hb d (List.mem_cons_self _ _) h (List.mem_of_mem_filter hh)
      · exact ih (fun y hy => hb y (List.mem_cons_of_mem _ hy)) x h1
  unfold hit_delta
  by_cases hg : g < (stored_hits docs).length
  · rw [List.getD_eq_getElem?_getD, List.getElem?_eq_getElem hg]
    exact hall docs hpos _ (List.getElem_mem _)
  · rw [List.getD_eq_getElem?_getD, List.getElem?_eq_none (by omega)]
    exact hb0

theorem tail_hits_congr (a b c d : Nat → Nat) :
    ∀ (count i l : Nat), (∀ k, i ≤ k → k < i + count → a k = c k ∧ b k = d k) →
      tail_hits a b count i l = tail_hits c d count i l := by
  intro count
  induction count with
  | zero => intro i l _; rfl
  | succ count ih =>
    intro i l h
    obtain ⟨h1, h2⟩ := h i (le_refl _) (by omega)
    rw [tail_hits, tail_hits, h1, h2,
      ih (i + 1) (d i % 256) (fun k hk1 hk2 => h k (by omega) (by omega)),
      ih (i + 1) l (fun k hk1 hk2 => h k (by omega) (by omega))]

theorem hits_blocks_bytes_length_mono (cfg : Config) (docs : List doc_input) (j : Nat) :
    ∀ q, j ≤ q → (hits_blocks_bytes cfg docs j).length ≤ (hits_blocks_bytes cfg docs q).length := by
  intro q
  induction q with
  | zero => intro h; have : j = 0 := by omega
            subst this; exact le_refl _
  | succ q ih =>
    intro h
    by_cases hj : j = q + 1
    · subst hj; exact le_refl _
    · have := ih (by omega)
      rw [hits_blocks_bytes_succ, List.length_append]
      omega

end Lucene

namespace Lucene

/-- The hits stream of a term written by the encoder is laid out as the decoder reads it. -/
theorem write_term_hits_layout (cfg : Config) (hB : 0 < cfg.BLOCK_SIZE)
    (hB16 : cfg.BLOCK_SIZE ≤ 2 ^ 16) (hstep : 1 ≤ cfg.SKIPLIST_STEP) (e0 e : Encoder)
    (docs : List doc_input) (tctx : term_index_ctx)
    (hw : Encoder.write_term cfg e0 docs = some (e, tctx))
    (hsz : e.indexOut.length < 2 ^ 32) (hpsz : e.positionsOut.length < 2 ^ 32)
    (hhits : hits_before docs docs.length < 2 ^ 32)
    (hids : ∀ i < docs.length, doc_id docs i < 2 ^ 32) (hbuf : e0.payloadsBuf = [])
    (hpos : ∀ d ∈ docs, ∀ h ∈ d.hits, h.pos < 2 ^ 31) :
    hits_layout cfg docs (Decoder.init tctx e.indexOut e.positionsOut) := by
  unfold Encoder.write_term at hw
  cases hadd : Encoder.add_documents cfg (e0.begin_term cfg) docs with
  | none => rw [hadd] at hw; exact absurd hw (by simp)
  | some e1 =>
    rw [hadd] at hw
    have hinv0 := begin_term_inv cfg hstep e0.indexOut e0.positionsOut docs e0 rfl rfl
    have hinv := add_documents_inv cfg hB hstep e0.indexOut e0.positionsOut docs docs.length 0
      (e0.begin_term cfg) e1 (by omega) hinv0 (by simpa using hadd)
    have hh0 := begin_term_hits cfg e0.positionsOut docs e0 rfl hbuf
    have hh := add_documents_hits cfg hB hstep e0.indexOut e0.positionsOut docs docs.length 0
      (e0.begin_term cfg) e1 (by omega) hinv0 hh0 (by simpa using hadd)
    obtain ⟨sl, psize, h1, h2, h3, h4, h5, h6, h7, h8⟩ := end_term_spec cfg hB hstep
      e0.indexOut e0.positionsOut docs e1 e tctx hinv hw
    obtain ⟨hl, hbase, hdata, hskip⟩ := init_layout cfg hB hB16 docs e0.indexOut
      e0.positionsOut.length psize sl e.indexOut e.positionsOut tctx h1 h2 h3 h4 h5 h6 hsz
      hhits hids hinv.ids_sorted
    have htot : e1.totalHits = hits_total docs % cfg.BLOCK_SIZE := hinv.totalHits_eq
    have hpo : e.positionsOut = e0.positionsOut ++
        (hits_blocks_bytes cfg docs (hits_total docs / cfg.BLOCK_SIZE) ++
          hits_tail_bytes cfg docs ++ []) := by
      rw [h8, List.append_nil]
      have hp := hh.positions_eq
      have hpl := hh.payloads_eq
      by_cases hz : e1.totalHits ≠ 0
      · rw [if_pos hz, hp, hpl, htot]
        unfold hits_tail_bytes hits_tail_head
        rw [tail_hits_congr e1.hitPosDeltas e1.hitPayloadSizes
          (fun i => hit_delta docs (hits_total docs / cfg.BLOCK_SIZE * cfg.BLOCK_SIZE + i))
          (fun i => hit_plen docs (hits_total docs / cfg.BLOCK_SIZE * cfg.BLOCK_SIZE + i))
          (hits_total docs % cfg.BLOCK_SIZE) 0 0
          (fun k _ hk => ⟨hh.deltas_eq k (by simpa using hk), hh.sizes_eq k (by simpa using hk)⟩)]
        simp only [hits_total, List.append_assoc]
      · rw [if_neg hz, hp]
        have hz0 : hits_total docs % cfg.BLOCK_SIZE = 0 := by
          rw [← htot]; exact not_not.1 hz
        unfold hits_tail_bytes hits_tail_head
        rw [hz0]
        simp [tail_hits, payloads_range, hits_total]
    have hppre : e0.positionsOut.length < 2 ^ 32 := by
      have := congrArg List.length hpo
      rw [List.length_append] at this
      omega
    have hblen : (hits_blocks_bytes cfg docs (hits_total docs / cfg.BLOCK_SIZE)).length <
        2 ^ 32 := by
      have := congrArg List.length hpo
      simp only [List.length_append] at this
      omega
    refine ⟨⟨e0.positionsOut, [], ?_, ?_⟩, ?_, hit_delta_lt docs (2 ^ 31) (by norm_num) hpos, ?_⟩
    · rw [hdata]; exact hpo
    · rw [hbase, Nat.mod_eq_of_lt hppre]
    · intro s hs
      rw [hskip] at hs
      obtain ⟨s0, hs0, rfl⟩ := List.mem_map.1 hs
      obtain ⟨blocks, b1, b2, b3, b4⟩ := h2
      obtain ⟨i, hi, hget⟩ := List.getElem_of_mem hs0
      have hbe := b4 i hi
      have hjlt : blocks.getD i 0 < docs.length / cfg.BLOCK_SIZE := by
        apply b3
        rw [List.getD_eq_getElem?_getD, List.getElem?_eq_getElem (by omega)]
        exact List.getElem_mem _
      have hsl0 : sl.getD i default = s0 := by
        rw [List.getD_eq_getElem?_getD, List.getElem?_eq_getElem hi, Option.getD_some, hget]
      rw [hsl0] at hbe
      generalize blocks.getD i 0 = j at hbe hjlt
      have hn0 : docs.length ≠ 0 := by
        intro h0
        rw [h0, Nat.zero_div] at hjlt
        omega
      have hok0 : entry_hits_ok cfg docs s0 := by
        rcases h7 s0 hs0 with h9 | h9
        · exact hh.skiplist_hits s0 h9
        · rw [h9]
          exact hh.cur_block_hits (by rw [hinv.termDocuments_eq]; exact hn0)
      obtain ⟨_, _, _, c4, _⟩ := hbe
      have hnB := div_mul_add_mod docs.length cfg.BLOCK_SIZE
      have hjB : j * cfg.BLOCK_SIZE ≤ docs.length := by
        have := Nat.mul_le_mul_right cfg.BLOCK_SIZE (le_of_lt hjlt)
        omega
      have hmono := hits_before_mono docs _ docs.length hjB
      have hdm := Nat.div_mul_le_self (hits_before docs (j * cfg.BLOCK_SIZE))
        cfg.BLOCK_SIZE
      have hT : s0.lastHitsBlockTotalHits ≤ hits_total docs := by
        rw [c4]
        unfold hits_total
        omega
      have hT32 : s0.lastHitsBlockTotalHits < 2 ^ 32 := by
        unfold hits_total at hT
        omega
      have hO : s0.lastHitsBlockOffset < 2 ^ 32 := by
        rw [hok0]
        have := hits_blocks_bytes_length_mono cfg docs
          (s0.lastHitsBlockTotalHits / cfg.BLOCK_SIZE) (hits_total docs / cfg.BLOCK_SIZE)
          (Nat.div_le_div_right hT)
        omega
      show (trunc_entry s0).lastHitsBlockOffset = (hits_blocks_bytes cfg docs
        ((trunc_entry s0).lastHitsBlockTotalHits / cfg.BLOCK_SIZE)).length
      simp only [trunc_entry]
      rw [Nat.mod_eq_of_lt hO, Nat.mod_eq_of_lt hT32]
      exact hok0
    · intro g
      by_cases hg : g < hits_total docs
      · exact hh.plen_le g hg
      · rw [hit_plen_beyond docs g (by omega)]
        omega

end Lucene

namespace Lucene

theorem hits_blocks_bytes_split (cfg : Config) (docs : List doc_input) (j : Nat) :
    ∀ q, j ≤ q → ∃ rest, hits_blocks_bytes cfg docs q = hits_blocks_bytes cfg docs j ++ rest := by
  intro q
  induction q with
  | zero =>
    intro h
    have : j = 0 := by omega
    subst this
    exact ⟨[], by simp⟩
  | succ q ih =>
    intro h
    by_cases hj : j = q + 1
    · subst hj; exact ⟨[], by simp⟩
    · obtain ⟨rest, hrest⟩ := ih (by omega)
      exact ⟨rest ++ hits_block_bytes cfg docs q, by simp [hits_blocks_bytes, hrest]⟩

/-- The hits data read at the start of the full hits block `b`. -/
theorem hits_mem_at_block (cfg : Config) (docs : List doc_input) (dec : Decoder)
    (hh : hits_layout cfg docs dec) (b : Nat) (hb : b < hits_total docs / cfg.BLOCK_SIZE) :
    ∃ a rest, dec.hitsDataPtr = a ++ (ints_encode cfg
        (fun i => hit_delta docs (b * cfg.BLOCK_SIZE + i)) cfg.BLOCK_SIZE ++
        (ints_encode cfg (fun i => hit_plen docs (b * cfg.BLOCK_SIZE + i)) cfg.BLOCK_SIZE ++
          (encode_varbyte32 (payloads_range docs (b * cfg.BLOCK_SIZE) cfg.BLOCK_SIZE).length ++
            rest))) ∧
      a.length = hits_start cfg docs dec b := by
  obtain ⟨ppre, tl, hmem, hpre⟩ := hh.mem_eq
  obtain ⟨rest, hrest⟩ := hits_blocks_bytes_split cfg docs (b + 1) _ hb
  refine ⟨ppre ++ hits_blocks_bytes cfg docs b,
    payloads_range docs (b * cfg.BLOCK_SIZE) cfg.BLOCK_SIZE ++
      (rest ++ (hits_tail_bytes cfg docs ++ tl)), ?_, ?_⟩
  · rw [hmem, hrest]
    simp [hits_blocks_bytes, hits_block_bytes, List.append_assoc]
  · simp [hits_start, hpre]

/-- The hits data read at the start of the trailing hits block. -/
theorem hits_mem_at_tail (cfg : Config) (docs : List doc_input) (dec : Decoder)
    (hh : hits_layout cfg docs dec) :
    ∃ a rest, dec.hitsDataPtr = a ++ (hits_tail_head cfg docs ++ rest) ∧
      a.length = hits_start cfg docs dec (hits_total docs / cfg.BLOCK_SIZE) := by
  obtain ⟨ppre, tl, hmem, hpre⟩ := hh.mem_eq
  refine ⟨ppre ++ hits_blocks_bytes cfg docs (hits_total docs / cfg.BLOCK_SIZE),
    payloads_range docs (hits_total docs / cfg.BLOCK_SIZE * cfg.BLOCK_SIZE)
      (hits_total docs % cfg.BLOCK_SIZE) ++ tl, ?_, ?_⟩
  · rw [hmem]
    simp [hits_tail_bytes, List.append_assoc]
  · simp [hits_start, hpre]

theorem payload_lengths_sum_zero (f : Nat → Nat) (i : Nat) : payload_lengths_sum f i 0 = 0 := rfl

theorem payload_lengths_sum_succ (f : Nat → Nat) (i n : Nat) :
    payload_lengths_sum f i (n + 1) = payload_lengths_sum f i n + f (i + n) := by
  simp [payload_lengths_sum, List.range_succ]

theorem payload_lengths_sum_head (f : Nat → Nat) (i : Nat) : ∀ n,
    payload_lengths_sum f i (n + 1) = f i + payload_lengths_sum f (i + 1) n := by
  intro n
  induction n with
  | zero => simp [payload_lengths_sum, List.range_succ]
  | succ n ih =>
    rw [payload_lengths_sum_succ, ih, payload_lengths_sum_succ]
    have : i + 1 + n = i + (n + 1) := by omega
    rw [this]
    omega

theorem payload_lengths_sum_add (f : Nat → Nat) (i a : Nat) : ∀ b,
    payload_lengths_sum f i (a + b) = payload_lengths_sum f i a +
      payload_lengths_sum f (i + a) b := by
  intro b
  induction b with
  | zero => simp [payload_lengths_sum]
  | succ b ih =>
    rw [← Nat.add_assoc, payload_lengths_sum_succ, ih, payload_lengths_sum_succ]
    have : i + a + b = i + (a + b) := by omega
    rw [this]
    omega

theorem payload_lengths_sum_congr (f g : Nat → Nat) (i n : Nat)
    (h : ∀ k < n, f (i + k) = g (i + k)) :
    payload_lengths_sum f i n = payload_lengths_sum g i n := by
  induction n with
  | zero => rfl
  | succ n ih =>
    rw [payload_lengths_sum_succ, payload_lengths_sum_succ, ih (fun k hk => h k (by omega)),
      h n (by omega)]

theorem payload_lengths_sum_le (f : Nat → Nat) (bound i n : Nat) (h : ∀ k, f k ≤ bound) :
    payload_lengths_sum f i n ≤ bound * n := by
  induction n with
  | zero => simp [payload_lengths_sum]
  | succ n ih =>
    rw [payload_lengths_sum_succ, Nat.mul_succ]
    have := h (i + n)
    omega

theorem payloads_range_length (docs : List doc_input) (start : Nat) : ∀ count,
    (payloads_range docs start count).length =
      payload_lengths_sum (hit_plen docs) start count := by
  intro count
  induction count with
  | zero => rfl
  | succ count ih =>
    rw [payloads_range_succ, List.length_append, ih, payload_lengths_sum_succ]
    rfl

/-- The trailing hits block is read back by the loop of `refill_hits`. -/
theorem refill_hits_tail_spec (δ σ : Nat → Nat) :
    ∀ (count i last chunk : Nat) (a rest : List Nat) (deltas lengths : Nat → Nat),
      (∀ k, i ≤ k → k < i + count → δ k < 2 ^ 31 ∧ σ k < 256) →
      chunk + payload_lengths_sum σ i count < 2 ^ 32 →
      (refill_hits_tail (a ++ (tail_hits δ σ count i last ++ rest)) count i a.length last chunk
          deltas lengths).1 = a.length + (tail_hits δ σ count i last).length ∧
      (refill_hits_tail (a ++ (tail_hits δ σ count i last ++ rest)) count i a.length last chunk
          deltas lengths).2.1 = chunk + payload_lengths_sum σ i count ∧
      (∀ k, i ≤ k → k < i + count →
        (refill_hits_tail (a ++ (tail_hits δ σ count i last ++ rest)) count i a.length last
          chunk deltas lengths).2.2.1 k = δ k ∧
        (refill_hits_tail (a ++ (tail_hits δ σ count i last ++ rest)) count i a.length last
          chunk deltas lengths).2.2.2 k = σ k) ∧
      (∀ k, k < i →
        (refill_hits_tail (a ++ (tail_hits δ σ count i last ++ rest)) count i a.length last
          chunk deltas lengths).2.2.1 k = deltas k ∧
        (refill_hits_tail (a ++ (tail_hits δ σ count i last ++ rest)) count i a.length last
          chunk deltas lengths).2.2.2 k = lengths k) := by
  intro count
  induction count with
  | zero =>
    intro i last chunk a rest deltas lengths _ _
    simp only [refill_hits_tail, tail_hits, List.length_nil, Nat.add_zero,
      payload_lengths_sum_zero]
    exact ⟨trivial, trivial, fun k h1 h2 => by omega, fun k _ => ⟨trivial, trivial⟩⟩
  | succ count ih =>
    intro i last chunk a rest deltas lengths hb hchunk
    obtain ⟨hd, hs⟩ := hb i (le_refl _) (by omega)
    have hb2 : ∀ k, i + 1 ≤ k → k < i + 1 + count → δ k < 2 ^ 31 ∧ σ k < 256 :=
      fun k h1 h2 => hb k (by omega) (by omega)
    rw [payload_lengths_sum_head] at hchunk ⊢
    have hshift : δ i * 2 % 2 ^ 32 = δ i * 2 := Nat.mod_eq_of_lt (by omega)
    have hsmod : σ i % 256 = σ i := Nat.mod_eq_of_lt hs
    have hcm : (chunk + σ i) % 2 ^ 32 = chunk + σ i := Nat.mod_eq_of_lt (by omega)
    have hch2 : chunk + σ i + payload_lengths_sum σ (i + 1) count < 2 ^ 32 := by omega
    by_cases hne : σ i ≠ last
    · have hmem : a ++ (tail_hits δ σ (count + 1) i last ++ rest) =
          (a ++ encode_varbyte32 (δ i * 2 + 1) ++ [σ i]) ++
            (tail_hits δ σ count (i + 1) (σ i) ++ rest) := by
        rw [tail_hits, if_pos hne, hshift, hsmod]
        simp [List.append_assoc]
      have hmem1 : a ++ (tail_hits δ σ (count + 1) i last ++ rest) =
          a ++ (encode_varbyte32 (δ i * 2 + 1) ++
            (σ i :: (tail_hits δ σ count (i + 1) (σ i) ++ rest))) := by
        rw [hmem]; simp [List.append_assoc]
      have hmem2 : a ++ (tail_hits δ σ (count + 1) i last ++ rest) =
          (a ++ encode_varbyte32 (δ i * 2 + 1)) ++
            (σ i :: (tail_hits δ σ count (i + 1) (σ i) ++ rest)) := by
        rw [hmem]; simp [List.append_assoc]
      have r1 : varbyte_get32 ((a ++ (tail_hits δ σ (count + 1) i last ++ rest)).drop a.length) =
          ((δ i * 2 + 1) % 2 ^ 32, (encode_varbyte32 (δ i * 2 + 1)).length) := by
        rw [hmem1, drop_append_length, varbyte_round_trip]
      have hv : (δ i * 2 + 1) % 2 ^ 32 = δ i * 2 + 1 := Nat.mod_eq_of_lt (by omega)
      have hg : (a ++ (tail_hits δ σ (count + 1) i last ++ rest)).getD
          (a.length + (encode_varbyte32 (δ i * 2 + 1)).length) 0 = σ i := by
        rw [hmem2, ← List.length_append, getD_append_cons]
      have hstep : refill_hits_tail (a ++ (tail_hits δ σ (count + 1) i last ++ rest))
          (count + 1) i a.length last chunk deltas lengths =
          refill_hits_tail ((a ++ encode_varbyte32 (δ i * 2 + 1) ++ [σ i]) ++
              (tail_hits δ σ count (i + 1) (σ i) ++ rest)) count (i + 1)
            (a ++ encode_varbyte32 (δ i * 2 + 1) ++ [σ i]).length (σ i) (chunk + σ i)
            (Function.update deltas i (δ i)) (Function.update lengths i (σ i)) := by
        rw [refill_hits_tail]
        simp only [r1, Nat.mod_mod, hv]
        have hodd : (δ i * 2 + 1) % 2 = 1 := by omega
        have hhalf : (δ i * 2 + 1) / 2 = δ i := by omega
        simp only [if_pos hodd, hhalf, hg, hcm]
        rw [← hmem]
        simp only [List.length_append, List.length_singleton]
      rw [hstep]
      obtain ⟨i1, i2, i3, i4⟩ := ih (i + 1) (σ i) (chunk + σ i)
        (a ++ encode_varbyte32 (δ i * 2 + 1) ++ [σ i]) rest (Function.update deltas i (δ i))
        (Function.update lengths i (σ i)) hb2 hch2
      refine ⟨?_, ?_, ?_, ?_⟩
      · rw [i1, tail_hits, if_pos hne, hshift, hsmod]
        simp only [List.length_append, List.length_singleton]
        omega
      · rw [i2]; omega
      · intro k hk1 hk2
        by_cases hki : k = i
        · subst hki
          have := i4 k (by omega)
          simp only [Function.update_same] at this
          exact this
        · exact i3 k (by omega) (by omega)
      · intro k hk
        have := i4 k (by omega)
        rw [Function.update_noteq (by omega), Function.update_noteq (by omega)] at this
        exact this
    · have heq : σ i = last := not_not.1 hne
      have hmem : a ++ (tail_hits δ σ (count + 1) i last ++ rest) =
          (a ++ encode_varbyte32 (δ i * 2)) ++ (tail_hits δ σ count (i + 1) last ++ rest) := by
        rw [tail_hits, if_neg hne, hshift]
        simp [List.append_assoc]
      have hmem1 : a ++ (tail_hits δ σ (count + 1) i last ++ rest) =
          a ++ (encode_varbyte32 (δ i * 2) ++ (tail_hits δ σ count (i + 1) last ++ rest)) := by
        rw [hmem]; simp [List.append_assoc]
      have r1 : varbyte_get32 ((a ++ (tail_hits δ σ (count + 1) i last ++ rest)).drop a.length) =
          ((δ i * 2) % 2 ^ 32, (encode_varbyte32 (δ i * 2)).length) := by
        rw [hmem1, drop_append_length, varbyte_round_trip]
      have hstep : refill_hits_tail (a ++ (tail_hits δ σ (count + 1) i last ++ rest))
          (count + 1) i a.length last chunk deltas lengths =
          refill_hits_tail ((a ++ encode_varbyte32 (δ i * 2)) ++
              (tail_hits δ σ count (i + 1) last ++ rest)) count (i + 1)
            (a ++ encode_varbyte32 (δ i * 2)).length last (chunk + σ i)
            (Function.update deltas i (δ i)) (Function.update lengths i (σ i)) := by
        rw [refill_hits_tail]
        simp only [r1, Nat.mod_mod, hshift]
        have hodd : ¬ ((δ i * 2) % 2 = 1) := by omega
        have hhalf : (δ i * 2) / 2 = δ i := by omega
        simp only [if_neg hodd, hhalf]
        rw [← hmem, ← heq, hcm]
        simp only [List.length_append]
      rw [hstep]
      obtain ⟨i1, i2, i3, i4⟩ := ih (i + 1) last (chunk + σ i)
        (a ++ encode_varbyte32 (δ i * 2)) rest (Function.update deltas i (δ i))
        (Function.update lengths i (σ i)) hb2 hch2
      refine ⟨?_, ?_, ?_, ?_⟩
      · rw [i1, tail_hits, if_neg hne, hshift]
        simp only [List.length_append]
        omega
      · rw [i2]; omega
      · intro k hk1 hk2
        by_cases hki : k = i
        · subst hki
          have := i4 k (by omega)
          simp only [Function.update_same] at this
          exact this
        · exact i3 k (by omega) (by omega)
      · intro k hk
        have := i4 k (by omega)
        rw [Function.update_noteq (by omega), Function.update_noteq (by omega)] at this
        exact this

end Lucene

namespace Lucene

theorem payload_lengths_sum_shift (f : Nat → Nat) (s n : Nat) :
    payload_lengths_sum (fun k => f (s + k)) 0 n = payload_lengths_sum f s n := by
  simp [payload_lengths_sum]

theorem hits_start_succ (cfg : Config) (docs : List doc_input) (dec : Decoder) (b : Nat) :
    hits_start cfg docs dec (b + 1) = hits_start cfg docs dec b +
      (ints_encode cfg (fun i => hit_delta docs (b * cfg.BLOCK_SIZE + i)) cfg.BLOCK_SIZE).length +
      (ints_encode cfg (fun i => hit_plen docs (b * cfg.BLOCK_SIZE + i)) cfg.BLOCK_SIZE).length +
      (encode_varbyte32 (payloads_range docs (b * cfg.BLOCK_SIZE) cfg.BLOCK_SIZE).length).length +
      (payloads_range docs (b * cfg.BLOCK_SIZE) cfg.BLOCK_SIZE).length := by
  simp only [hits_start, hits_blocks_bytes, hits_block_bytes, List.length_append]
  omega

theorem refill_hits_hits_view (cfg : Config) (dec : Decoder) (it : PostingsListIterator) :
    (dec.refill_hits cfg it).skippedHits = it.skippedHits ∧
      (dec.refill_hits cfg it).lastPosition = it.lastPosition := by
  unfold Decoder.refill_hits
  by_cases h : it.hitsLeft ≥ cfg.BLOCK_SIZE
  · simp only [if_pos h]; exact ⟨trivial, trivial⟩
  · simp only [if_neg h]; exact ⟨trivial, trivial⟩

/-- Refilling the hits between two hits blocks decodes the next block, or finds none
left. -/
theorem refill_hits_spec (cfg : Config) (hok : cfg.codec_ok) (hB : 0 < cfg.BLOCK_SIZE)
    (hB16 : cfg.BLOCK_SIZE ≤ 2 ^ 16) (docs : List doc_input) (dec : Decoder)
    (hh : hits_layout cfg docs dec) (it : PostingsListIterator) (c : Nat)
    (hg : at_hits_gap cfg docs dec it.hits_view c) :
    (dec.refill_hits cfg it).hitsIndex = 0 ∧
    (c < hits_total docs → hits_loaded cfg docs dec (dec.refill_hits cfg it).hits_view c) ∧
    (c = hits_total docs → at_hits_gap cfg docs dec (dec.refill_hits cfg it).hits_view c ∧
      (dec.refill_hits cfg it).bufferedHits = 0) := by
  have hleft : it.hitsLeft = hits_total docs - c := hg.hitsLeft_eq
  have hhdp : it.hdp = if c = hits_total docs then hits_end cfg docs dec
    else hits_start cfg docs dec (c / cfg.BLOCK_SIZE) := hg.hdp_eq
  have hcle := hg.c_le
  have hHB := div_mul_add_mod (hits_total docs) cfg.BLOCK_SIZE
  have hHR := Nat.mod_lt (hits_total docs) hB
  have hd32 : ∀ g, hit_delta docs g < 2 ^ 32 := fun g => by
    have := hh.deltas_lt g; omega
  have hs32 : ∀ g, hit_plen docs g < 2 ^ 32 := fun g => by
    have := hh.plen_le g; omega
  have hs256 : ∀ g, hit_plen docs g < 256 := fun g => by
    have := hh.plen_le g; omega
  by_cases hfull : it.hitsLeft ≥ cfg.BLOCK_SIZE
  · have hne : c ≠ hits_total docs := by omega
    have hmod : c % cfg.BLOCK_SIZE = 0 := by
      rcases hg.c_block with h | h
      · exact h
      · exact absurd h hne
    have hcB : c / cfg.BLOCK_SIZE * cfg.BLOCK_SIZE = c :=
      Nat.div_mul_cancel (Nat.dvd_of_mod_eq_zero hmod)
    have hbq : c / cfg.BLOCK_SIZE < hits_total docs / cfg.BLOCK_SIZE := by
      have h1 : (c + cfg.BLOCK_SIZE) / cfg.BLOCK_SIZE ≤ hits_total docs / cfg.BLOCK_SIZE :=
        Nat.div_le_div_right (by omega)
      rw [Nat.add_div_right _ hB] at h1
      omega
    rw [if_neg hne] at hhdp
    obtain ⟨a, rest, hmem, ha⟩ := hits_mem_at_block cfg docs dec hh _ hbq
    have hP : (payloads_range docs (c / cfg.BLOCK_SIZE * cfg.BLOCK_SIZE) cfg.BLOCK_SIZE).length
        < 2 ^ 32 := by
      rw [payloads_range_length]
      have := payload_lengths_sum_le (hit_plen docs) 8
        (c / cfg.BLOCK_SIZE * cfg.BLOCK_SIZE) cfg.BLOCK_SIZE hh.plen_le
      omega
    have r1 := ints_round_trip cfg hok
      (fun i => hit_delta docs (c / cfg.BLOCK_SIZE * cfg.BLOCK_SIZE + i)) cfg.BLOCK_SIZE
      (fun i _ => hd32 _) (Or.inl rfl) a
      (ints_encode cfg (fun i => hit_plen docs (c / cfg.BLOCK_SIZE * cfg.BLOCK_SIZE + i))
        cfg.BLOCK_SIZE ++
        (encode_varbyte32
          (payloads_range docs (c / cfg.BLOCK_SIZE * cfg.BLOCK_SIZE) cfg.BLOCK_SIZE).length ++
          rest)) it.hitsPositionDeltas
    have r2 := ints_round_trip cfg hok
      (fun i => hit_plen docs (c / cfg.BLOCK_SIZE * cfg.BLOCK_SIZE + i)) cfg.BLOCK_SIZE
      (fun i _ => hs32 _) (Or.inl rfl)
      (a ++ ints_encode cfg (fun i => hit_delta docs (c / cfg.BLOCK_SIZE * cfg.BLOCK_SIZE + i))
        cfg.BLOCK_SIZE)
      (encode_varbyte32
          (payloads_range docs (c / cfg.BLOCK_SIZE * cfg.BLOCK_SIZE) cfg.BLOCK_SIZE).length ++
          rest) it.hitsPayloadLengths
    have hmem1 : dec.hitsDataPtr = a ++ ints_encode cfg
        (fun i => hit_delta docs (c / cfg.BLOCK_SIZE * cfg.BLOCK_SIZE + i)) cfg.BLOCK_SIZE ++
        (ints_encode cfg (fun i => hit_plen docs (c / cfg.BLOCK_SIZE * cfg.BLOCK_SIZE + i))
          cfg.BLOCK_SIZE ++
          (encode_varbyte32
            (payloads_range docs (c / cfg.BLOCK_SIZE * cfg.BLOCK_SIZE) cfg.BLOCK_SIZE).length ++
            rest)) := by
      rw [hmem]; simp [List.append_assoc]
    have hmem2 : dec.hitsDataPtr = a ++ ints_encode cfg
        (fun i => hit_delta docs (c / cfg.BLOCK_SIZE * cfg.BLOCK_SIZE + i)) cfg.BLOCK_SIZE ++
        ints_encode cfg (fun i => hit_plen docs (c / cfg.BLOCK_SIZE * cfg.BLOCK_SIZE + i))
          cfg.BLOCK_SIZE ++
          (encode_varbyte32
            (payloads_range docs (c / cfg.BLOCK_SIZE * cfg.BLOCK_SIZE) cfg.BLOCK_SIZE).length ++
            rest) := by
      rw [hmem]; simp [List.append_assoc]
    rw [← hmem1, ha, ← hhdp] at r1
    rw [← hmem2, List.length_append, ha, ← hhdp] at r2
    obtain ⟨r1p, r1v, _⟩ := r1
    obtain ⟨r2p, r2v, _⟩ := r2
    rw [← r1p] at r2p r2v
    have r3 : varbyte_get32 (dec.hitsDataPtr.drop
        (ints_decode cfg dec.hitsDataPtr (ints_decode cfg dec.hitsDataPtr it.hdp
          it.hitsPositionDeltas).1 it.hitsPayloadLengths).1) =
        ((payloads_range docs (c / cfg.BLOCK_SIZE * cfg.BLOCK_SIZE) cfg.BLOCK_SIZE).length,
          (encode_varbyte32 (payloads_range docs (c / cfg.BLOCK_SIZE * cfg.BLOCK_SIZE)
            cfg.BLOCK_SIZE).length).length) := by
      rw [r2p, r1p, hhdp, ← ha]
      have hmem3 : dec.hitsDataPtr = (a ++ ints_encode cfg
          (fun i => hit_delta docs (c / cfg.BLOCK_SIZE * cfg.BLOCK_SIZE + i)) cfg.BLOCK_SIZE ++
          ints_encode cfg (fun i => hit_plen docs (c / cfg.BLOCK_SIZE * cfg.BLOCK_SIZE + i))
            cfg.BLOCK_SIZE) ++
            (encode_varbyte32
              (payloads_range docs (c / cfg.BLOCK_SIZE * cfg.BLOCK_SIZE) cfg.BLOCK_SIZE).length
              ++ rest) := hmem2
      have hlen3 : a.length + (ints_encode cfg
          (fun i => hit_delta docs (c / cfg.BLOCK_SIZE * cfg.BLOCK_SIZE + i))
            cfg.BLOCK_SIZE).length +
          (ints_encode cfg (fun i => hit_plen docs (c / cfg.BLOCK_SIZE * cfg.BLOCK_SIZE + i))
            cfg.BLOCK_SIZE).length = (a ++ ints_encode cfg
          (fun i => hit_delta docs (c / cfg.BLOCK_SIZE * cfg.BLOCK_SIZE + i)) cfg.BLOCK_SIZE ++
          ints_encode cfg (fun i => hit_plen docs (c / cfg.BLOCK_SIZE * cfg.BLOCK_SIZE + i))
            cfg.BLOCK_SIZE).length := by
        simp only [List.length_append]
      rw [hlen3]
      conv_lhs => rw [hmem3]
      rw [drop_append_length, varbyte_round_trip, Nat.mod_eq_of_lt hP]
    have hsucc := hits_start_succ cfg docs dec (c / cfg.BLOCK_SIZE)
    have hmin : min cfg.BLOCK_SIZE (hits_total docs - c) = cfg.BLOCK_SIZE := by omega
    unfold Decoder.refill_hits
    simp only [if_pos hfull]
    refine ⟨trivial, fun _ => ?_, fun h => absurd h hne⟩
    constructor
    · exact hmod
    · omega
    · exact Nat.zero_le _
    · show cfg.BLOCK_SIZE = _
      rw [hmin]
    · show it.hitsLeft - cfg.BLOCK_SIZE = hits_total docs - c - cfg.BLOCK_SIZE
      rw [hleft]
    · intro i hi
      have := r1v i hi
      rw [hcB] at this
      exact this
    · intro i hi
      have := r2v i hi
      rw [hcB] at this
      exact this
    · show (ints_decode cfg dec.hitsDataPtr (ints_decode cfg dec.hitsDataPtr it.hdp
          it.hitsPositionDeltas).1 it.hitsPayloadLengths).1 + (varbyte_get32 _).2 = _
      rw [r3, r2p, r1p, hhdp]
      unfold pay_start
      rw [if_pos hbq]
      simp only [payloads_range, List.length_nil, Nat.add_zero]
    · show (ints_decode cfg dec.hitsDataPtr (ints_decode cfg dec.hitsDataPtr it.hdp
          it.hitsPositionDeltas).1 it.hitsPayloadLengths).1 + (varbyte_get32 _).2 +
          (varbyte_get32 _).1 % 2 ^ 32 = _
      rw [r3, r2p, r1p, hhdp, if_pos hbq, hsucc, Nat.mod_eq_of_lt hP]
  · by_cases hce : c = hits_total docs
    · have hz : it.hitsLeft = 0 := by omega
      rw [if_pos hce] at hhdp
      unfold Decoder.refill_hits
      simp only [if_neg hfull]
      refine ⟨trivial, fun h => absurd hce (by omega), fun _ => ⟨?_, ?_⟩⟩
      · constructor
        · exact hcle
        · exact Or.inr hce
        · show (refill_hits_tail dec.hitsDataPtr it.hitsLeft 0 it.hdp 0 0 it.hitsPositionDeltas
            it.hitsPayloadLengths).1 + (refill_hits_tail dec.hitsDataPtr it.hitsLeft 0 it.hdp 0 0
            it.hitsPositionDeltas it.hitsPayloadLengths).2.1 = _
          rw [hz, if_pos hce]
          simp only [refill_hits_tail, Nat.add_zero]
          exact hhdp
        · show (0 : Nat) = _
          omega
      · show it.hitsLeft = 0
        exact hz
    · have hclt : c < hits_total docs := by omega
      have hmod : c % cfg.BLOCK_SIZE = 0 := by
        rcases hg.c_block with h | h
        · exact h
        · exact absurd h hce
      have hcB : c / cfg.BLOCK_SIZE * cfg.BLOCK_SIZE = c :=
        Nat.div_mul_cancel (Nat.dvd_of_mod_eq_zero hmod)
      have hbq : c / cfg.BLOCK_SIZE = hits_total docs / cfg.BLOCK_SIZE := by
        have h1 : c / cfg.BLOCK_SIZE ≤ hits_total docs / cfg.BLOCK_SIZE :=
          Nat.div_le_div_right hcle
        have h2 : hits_total docs / cfg.BLOCK_SIZE < c / cfg.BLOCK_SIZE + 1 := by
          rw [Nat.div_lt_iff_lt_mul hB, Nat.add_mul, hcB]
          omega
        omega
      have hcount : hits_total docs - c = hits_total docs % cfg.BLOCK_SIZE := by
        rw [← hbq, hcB] at hHB
        omega
      have hcH : hits_total docs / cfg.BLOCK_SIZE * cfg.BLOCK_SIZE = c := by
        rw [← hbq]; exact hcB
      rw [if_neg hce, hbq] at hhdp
      obtain ⟨a, rest, hmem, ha⟩ := hits_mem_at_tail cfg docs dec hh
      have hsum : payload_lengths_sum
          (fun i => hit_plen docs (hits_total docs / cfg.BLOCK_SIZE * cfg.BLOCK_SIZE + i)) 0
          (hits_total docs % cfg.BLOCK_SIZE) =
          (payloads_range docs (hits_total docs / cfg.BLOCK_SIZE * cfg.BLOCK_SIZE)
            (hits_total docs % cfg.BLOCK_SIZE)).length := by
        rw [payloads_range_length, payload_lengths_sum_shift]
      have hsumle := payload_lengths_sum_le (hit_plen docs) 8
        (hits_total docs / cfg.BLOCK_SIZE * cfg.BLOCK_SIZE) (hits_total docs % cfg.BLOCK_SIZE)
        hh.plen_le
      rw [← payloads_range_length] at hsumle
      have r := refill_hits_tail_spec
        (fun i => hit_delta docs (hits_total docs / cfg.BLOCK_SIZE * cfg.BLOCK_SIZE + i))
        (fun i => hit_plen docs (hits_total docs / cfg.BLOCK_SIZE * cfg.BLOCK_SIZE + i))
        (hits_total docs % cfg.BLOCK_SIZE) 0 0 0 a rest it.hitsPositionDeltas
        it.hitsPayloadLengths
        (fun k _ _ => ⟨hh.deltas_lt _, hs256 _⟩)
        (by rw [hsum]; omega)
      have htb : tail_hits
        (fun i => hit_delta docs (hits_total docs / cfg.BLOCK_SIZE * cfg.BLOCK_SIZE + i))
        (fun i => hit_plen docs (hits_total docs / cfg.BLOCK_SIZE * cfg.BLOCK_SIZE + i))
        (hits_total docs % cfg.BLOCK_SIZE) 0 0 = hits_tail_head cfg docs := rfl
      rw [htb, ← hmem, ha, ← hhdp, ← hcount, ← hleft] at r
      obtain ⟨rp, rc, rv, _⟩ := r
      have hsum2 : payload_lengths_sum
          (fun i => hit_plen docs (hits_total docs / cfg.BLOCK_SIZE * cfg.BLOCK_SIZE + i)) 0
          it.hitsLeft =
          (payloads_range docs (hits_total docs / cfg.BLOCK_SIZE * cfg.BLOCK_SIZE)
            (hits_total docs % cfg.BLOCK_SIZE)).length := by
        rw [hleft, hcount]; exact hsum
      rw [hsum2] at rc
      have hmin : min cfg.BLOCK_SIZE (hits_total docs - c) = hits_total docs - c := by omega
      unfold Decoder.refill_hits
      simp only [if_neg hfull]
      refine ⟨trivial, fun _ => ?_, fun h => absurd h hce⟩
      constructor
      · exact hmod
      · exact hclt
      · exact Nat.zero_le _
      · show it.hitsLeft = _
        rw [hmin, hleft]
      · show (0 : Nat) = hits_total docs - c - it.hitsLeft
        omega
      · intro i hi
        have := (rv i (Nat.zero_le _) (by simpa using hi)).1
        simp only [hcH] at this
        exact this
      · intro i hi
        have := (rv i (Nat.zero_le _) (by simpa using hi)).2
        simp only [hcH] at this
        exact this
      · show (refill_hits_tail dec.hitsDataPtr it.hitsLeft 0 it.hdp 0 0 it.hitsPositionDeltas
          it.hitsPayloadLengths).1 = _
        rw [rp, hhdp]
        unfold pay_start
        rw [if_neg (by omega)]
        simp only [payloads_range, List.length_nil, Nat.add_zero]
      · show (refill_hits_tail dec.hitsDataPtr it.hitsLeft 0 it.hdp 0 0 it.hitsPositionDeltas
          it.hitsPayloadLengths).1 + (refill_hits_tail dec.hitsDataPtr it.hitsLeft 0 it.hdp 0 0
          it.hitsPositionDeltas it.hitsPayloadLengths).2.1 = _
        rw [rp, rc, hhdp, if_neg (by omega)]
        unfold hits_end hits_tail_bytes
        rw [List.length_append]
        omega

end Lucene

namespace Lucene

theorem hits_end_eq_start (cfg : Config) (docs : List doc_input) (dec : Decoder)
    (h : hits_total docs % cfg.BLOCK_SIZE = 0) :
    hits_end cfg docs dec = hits_start cfg docs dec (hits_total docs / cfg.BLOCK_SIZE) := by
  unfold hits_end hits_tail_bytes hits_tail_head
  rw [h]
  simp [tail_hits, payloads_range]

/-- From a decoded hits block whose hits are used up the cursor stands between two
blocks. -/
theorem loaded_end_gap (cfg : Config) (hB : 0 < cfg.BLOCK_SIZE) (docs : List doc_input)
    (dec : Decoder) (v w : hits_view) (base : Nat) (hl : hits_loaded cfg docs dec v base)
    (h1 : w.hdp = v.hdp) (h2 : w.hitsLeft = v.hitsLeft) :
    at_hits_gap cfg docs dec w (base + v.bufferedHits) := by
  have hHB := div_mul_add_mod (hits_total docs) cfg.BLOCK_SIZE
  have hHR := Nat.mod_lt (hits_total docs) hB
  have hbB : base / cfg.BLOCK_SIZE * cfg.BLOCK_SIZE = base :=
    Nat.div_mul_cancel (Nat.dvd_of_mod_eq_zero hl.base_block)
  have hlt := hl.base_lt
  have hbuf := hl.buffered_eq
  have hle : base / cfg.BLOCK_SIZE ≤ hits_total docs / cfg.BLOCK_SIZE :=
    Nat.div_le_div_right (le_of_lt hlt)
  by_cases hfull : cfg.BLOCK_SIZE ≤ hits_total docs - base
  · have hb : v.bufferedHits = cfg.BLOCK_SIZE := by omega
    have hbq : base / cfg.BLOCK_SIZE < hits_total docs / cfg.BLOCK_SIZE := by
      have h3 : (base + cfg.BLOCK_SIZE) / cfg.BLOCK_SIZE ≤ hits_total docs / cfg.BLOCK_SIZE :=
        Nat.div_le_div_right (by omega)
      rw [Nat.add_div_right _ hB] at h3
      omega
    have hdiv : (base + cfg.BLOCK_SIZE) / cfg.BLOCK_SIZE = base / cfg.BLOCK_SIZE + 1 :=
      Nat.add_div_right _ hB
    rw [hb]
    constructor
    · omega
    · left
      rw [Nat.add_mod_right]
      exact hl.base_block
    · rw [h1, hl.hdp_eq, if_pos hbq, hdiv]
      by_cases he : base + cfg.BLOCK_SIZE = hits_total docs
      · rw [if_pos he]
        have hm : hits_total docs % cfg.BLOCK_SIZE = 0 := by
          rw [← he, Nat.add_mod_right]
          exact hl.base_block
        rw [hits_end_eq_start cfg docs dec hm, ← he, hdiv]
      · rw [if_neg he]
    · rw [h2, hl.hitsLeft_eq, hb]
      omega
  · have hb : v.bufferedHits = hits_total docs - base := by omega
    have hbq : base / cfg.BLOCK_SIZE = hits_total docs / cfg.BLOCK_SIZE := by
      have h4 : hits_total docs / cfg.BLOCK_SIZE < base / cfg.BLOCK_SIZE + 1 := by
        rw [Nat.div_lt_iff_lt_mul hB, Nat.add_mul, hbB]
        omega
      omega
    have he : base + v.bufferedHits = hits_total docs := by omega
    rw [he]
    constructor
    · exact le_refl _
    · exact Or.inr rfl
    · rw [h1, hl.hdp_eq, if_neg (by omega), if_pos rfl]
    · rw [h2, hl.hitsLeft_eq, hb]
      omega

/-- Stepping over `step` buffered hits keeps the block decoded. -/
theorem loaded_advance (cfg : Config) (docs : List doc_input) (dec : Decoder)
    (v w : hits_view) (base step : Nat) (hl : hits_loaded cfg docs dec v base)
    (hs : v.hitsIndex + step ≤ v.bufferedHits)
    (h1 : w.hitsIndex = v.hitsIndex + step) (h2 : w.bufferedHits = v.bufferedHits)
    (h3 : w.hitsLeft = v.hitsLeft) (h4 : w.hitsPositionDeltas = v.hitsPositionDeltas)
    (h5 : w.hitsPayloadLengths = v.hitsPayloadLengths) (h6 : w.hdp = v.hdp)
    (h7 : w.payloadsIt = v.payloadsIt +
      payload_lengths_sum v.hitsPayloadLengths v.hitsIndex step) :
    hits_loaded cfg docs dec w base := by
  constructor
  · exact hl.base_block
  · exact hl.base_lt
  · rw [h1, h2]; exact hs
  · rw [h2]; exact hl.buffered_eq
  · rw [h3, h2]; exact hl.hitsLeft_eq
  · intro i hi
    rw [h4]
    exact hl.deltas_eq i (by rw [← h2]; exact hi)
  · intro i hi
    rw [h5]
    exact hl.lengths_eq i (by rw [← h2]; exact hi)
  · rw [h7, hl.payloadsIt_eq, h1, payloads_range_length, payloads_range_length,
      payload_lengths_sum_add, Nat.add_assoc]
    congr 2
    have e1 : payload_lengths_sum v.hitsPayloadLengths v.hitsIndex step =
        payload_lengths_sum (fun i => hit_plen docs (base + i)) v.hitsIndex step :=
      payload_lengths_sum_congr _ _ _ _ (fun k hk => hl.lengths_eq _ (by omega))
    rw [e1]
    simp [payload_lengths_sum, Nat.add_assoc]
  · rw [h6]; exact hl.hdp_eq

/-- The loop of `skip_hits`, when it ends, has taken `rem` hits from the stream. -/
theorem skip_hits_loop_hits (cfg : Config) (hok : cfg.codec_ok) (hB : 0 < cfg.BLOCK_SIZE)
    (hB16 : cfg.BLOCK_SIZE ≤ 2 ^ 16) (docs : List doc_input) (dec : Decoder)
    (hh : hits_layout cfg docs dec) :
    ∀ (fuel : Nat) (it it1 : PostingsListIterator) (rem c : Nat),
      dec.skip_hits_loop cfg fuel it rem = some it1 → 0 < rem →
      c + rem ≤ hits_total docs → hits_ok cfg docs dec it.hits_view c →
      hits_ok cfg docs dec it1.hits_view (c + rem) := by
  intro fuel
  induction fuel with
  | zero => intro it it1 rem c h; simp [Decoder.skip_hits_loop] at h
  | succ fuel ih =>
    intro it it1 rem c h hrem hcr hok1
    rw [Decoder.skip_hits_loop] at h
    by_cases hfast : it.hitsIndex + rem = it.bufferedHits
    · rw [if_pos hfast] at h
      simp only [Option.some.injEq] at h
      subst h
      rcases hok1 with ⟨_, g2, g3⟩ | ⟨base, hc, hl⟩
      · have e2 : it.hitsIndex = 0 := g2
        have e3 : it.bufferedHits = 0 := g3
        omega
      · left
        have hi : it.hits_view.hitsIndex = it.hitsIndex := rfl
        have hb : it.hits_view.bufferedHits = it.bufferedHits := rfl
        have hg := loaded_end_gap cfg hB docs dec it.hits_view
          ({ it with skippedHits := it.skippedHits - rem, hitsIndex := 0, bufferedHits := 0 } :
            PostingsListIterator).hits_view base hl rfl rfl
        rw [hb] at hg
        rw [hi] at hc
        have hcc : c + rem = base + it.bufferedHits := by omega
        rw [hcc]
        exact ⟨hg, rfl, rfl⟩
    · rw [if_neg hfast] at h
      have hload : ∃ base, c = base + (if it.hitsIndex = it.bufferedHits then
          dec.refill_hits cfg it else it).hitsIndex ∧
          hits_loaded cfg docs dec (if it.hitsIndex = it.bufferedHits then
            dec.refill_hits cfg it else it).hits_view base ∧
          (if it.hitsIndex = it.bufferedHits then dec.refill_hits cfg it else it).hitsIndex <
            (if it.hitsIndex = it.bufferedHits then dec.refill_hits cfg it else it).bufferedHits
          := by
        by_cases he : it.hitsIndex = it.bufferedHits
        · rw [if_pos he]
          have hgap : at_hits_gap cfg docs dec it.hits_view c := by
            rcases hok1 with ⟨g1, _, _⟩ | ⟨base, hc, hl⟩
            · exact g1
            · have hi : it.hits_view.hitsIndex = it.hitsIndex := rfl
              have hb : it.hits_view.bufferedHits = it.bufferedHits := rfl
              have := loaded_end_gap cfg hB docs dec it.hits_view it.hits_view base hl rfl rfl
              rw [hb, ← he, ← hi, ← hc] at this
              exact this
          obtain ⟨r1, r2, _⟩ := refill_hits_spec cfg hok hB hB16 docs dec hh it c hgap
          have hl := r2 (by omega)
          refine ⟨c, by rw [r1, Nat.add_zero], hl, ?_⟩
          rw [r1]
          have hb : (dec.refill_hits cfg it).bufferedHits =
              min cfg.BLOCK_SIZE (hits_total docs - c) := hl.buffered_eq
          omega
        · rw [if_neg he]
          rcases hok1 with ⟨_, g2, g3⟩ | ⟨base, hc, hl⟩
          · have e2 : it.hitsIndex = 0 := g2
            have e3 : it.bufferedHits = 0 := g3
            omega
          · have hle : it.hitsIndex ≤ it.bufferedHits := hl.index_le
            exact ⟨base, hc, hl, by omega⟩
      generalize (if it.hitsIndex = it.bufferedHits then dec.refill_hits cfg it else it) = x
        at h hload
      obtain ⟨base, hc, hl, hlt⟩ := hload
      simp only at h
      have hstep : min rem (x.bufferedHits - x.hitsIndex) ≠ 0 := by omega
      rw [if_neg hstep] at h
      have hl2 := loaded_advance cfg docs dec x.hits_view
        ({ x with
            payloadsIt := x.payloadsIt + payload_lengths_sum x.hitsPayloadLengths x.hitsIndex
              (min rem (x.bufferedHits - x.hitsIndex))
            hitsIndex := x.hitsIndex + min rem (x.bufferedHits - x.hitsIndex)
            skippedHits := x.skippedHits - min rem (x.bufferedHits - x.hitsIndex) } :
          PostingsListIterator).hits_view base (min rem (x.bufferedHits - x.hitsIndex)) hl
        (by show x.hitsIndex + _ ≤ x.bufferedHits; omega) rfl rfl rfl rfl rfl rfl rfl
      have hok2 : hits_ok cfg docs dec
          ({ x with
            payloadsIt := x.payloadsIt + payload_lengths_sum x.hitsPayloadLengths x.hitsIndex
              (min rem (x.bufferedHits - x.hitsIndex))
            hitsIndex := x.hitsIndex + min rem (x.bufferedHits - x.hitsIndex)
            skippedHits := x.skippedHits - min rem (x.bufferedHits - x.hitsIndex) } :
            PostingsListIterator).hits_view
          (c + min rem (x.bufferedHits - x.hitsIndex)) :=
        Or.inr ⟨base, by show _ = base + (x.hitsIndex + _); omega, hl2⟩
      by_cases hd : rem - min rem (x.bufferedHits - x.hitsIndex) = 0
      · rw [if_pos hd] at h
        simp only [Option.some.injEq] at h
        subst h
        have e : c + rem = c + min rem (x.bufferedHits - x.hitsIndex) := by omega
        rw [e]
        exact hok2
      · rw [if_neg hd] at h
        have := ih _ it1 _ (c + min rem (x.bufferedHits - x.hitsIndex)) h (by omega) (by omega)
          hok2
        have e : c + min rem (x.bufferedHits - x.hitsIndex) +
            (rem - min rem (x.bufferedHits - x.hitsIndex)) = c + rem := by omega
        rw [e] at this
        exact this

end Lucene

namespace Lucene

theorem expected_run_append (cfg : Config) (docs : List doc_input) (dec : Decoder) :
    ∀ (a b g pos : Nat), expected_run cfg docs dec (a + b) g pos =
      expected_run cfg docs dec a g pos ++
        expected_run cfg docs dec b (g + a) (run_pos docs a g pos) := by
  intro a
  induction a with
  | zero => intro b g pos; simp [expected_run, run_pos]
  | succ a ih =>
    intro b g pos
    have e : a + 1 + b = (a + b) + 1 := by omega
    rw [e, expected_run, expected_run, run_pos, ih]
    have e2 : g + 1 + a = g + (a + 1) := by omega
    rw [e2]
    rfl

theorem hits_state_count (cfg : Config) (docs : List doc_input) (dec : Decoder)
    (hl : chunk_layout cfg docs dec) (it : PostingsListIterator) (h : Nat)
    (hs : hits_state_ok cfg docs dec it h) : hits_count_ok dec it h := by
  obtain ⟨hle, c, hc, hok⟩ := hs
  have htot : dec.totalHits = hits_total docs := hl.totalHits_eq
  rcases hok with ⟨g1, g2, g3⟩ | ⟨base, hb, hld⟩
  · have e1 : it.hitsLeft = hits_total docs - c := g1.hitsLeft_eq
    have e2 : it.hitsIndex = 0 := g2
    have e3 : it.bufferedHits = 0 := g3
    have := g1.c_le
    refine ⟨by omega, by omega, by omega, by omega⟩
  · have e1 : it.hitsLeft = hits_total docs - base - it.bufferedHits := hld.hitsLeft_eq
    have e2 : it.bufferedHits = min cfg.BLOCK_SIZE (hits_total docs - base) := hld.buffered_eq
    have e3 : it.hitsIndex ≤ it.bufferedHits := hld.index_le
    have e4 : c = base + it.hitsIndex := hb
    have := hld.base_lt
    refine ⟨e3, by omega, by omega, by omega⟩

/-- Draining the queued hits takes them from the stream. -/
theorem skip_hits_state (cfg : Config) (hok : cfg.codec_ok) (hB : 0 < cfg.BLOCK_SIZE)
    (hB16 : cfg.BLOCK_SIZE ≤ 2 ^ 16) (docs : List doc_input) (dec : Decoder)
    (hl : chunk_layout cfg docs dec) (hh : hits_layout cfg docs dec)
    (it : PostingsListIterator) (h : Nat) (hs : hits_state_ok cfg docs dec it h) :
    ∃ it1, dec.skip_hits cfg it it.skippedHits = some it1 ∧
      hits_ok cfg docs dec it1.hits_view h ∧ it1.skippedHits = 0 ∧
      it1.docs_view = it.docs_view := by
  obtain ⟨it1, e1, _, e3, e4⟩ := skip_hits_count cfg hB dec h it
    (hits_state_count cfg docs dec hl it h hs)
  refine ⟨it1, e1, ?_, e3, e4⟩
  obtain ⟨hle, c, hc, hok1⟩ := hs
  unfold Decoder.skip_hits at e1
  by_cases h0 : it.skippedHits = 0
  · rw [if_pos h0] at e1
    simp only [Option.some.injEq] at e1
    subst e1
    have : c = h := by omega
    rw [← this]
    exact hok1
  · rw [if_neg h0] at e1
    have := skip_hits_loop_hits cfg hok hB hB16 docs dec hh it.skippedHits it it1
      it.skippedHits c e1 (by omega) (by omega) hok1
    rw [hc] at this
    exact this

theorem pay_off_loaded (cfg : Config) (docs : List doc_input)
    (dec : Decoder) (base idx : Nat) (hb : base % cfg.BLOCK_SIZE = 0)
    (hi : idx < cfg.BLOCK_SIZE) :
    pay_off cfg docs dec (base + idx) = pay_start cfg docs dec (base / cfg.BLOCK_SIZE) +
      (payloads_range docs base idx).length := by
  have hbB : base / cfg.BLOCK_SIZE * cfg.BLOCK_SIZE = base :=
    Nat.div_mul_cancel (Nat.dvd_of_mod_eq_zero hb)
  have hd : (base + idx) / cfg.BLOCK_SIZE = base / cfg.BLOCK_SIZE := by
    apply Nat.div_eq_of_lt_le
    · rw [hbB]; omega
    · rw [Nat.add_mul, Nat.one_mul, hbB]; omega
  have hm : (base + idx) % cfg.BLOCK_SIZE = idx := by
    rw [Nat.add_mod, hb, Nat.zero_add, Nat.mod_mod, Nat.mod_eq_of_lt hi]
  unfold pay_off
  rw [hd, hm, hbB]

/-- The inner loop of `materialize_hits` over buffered hits of a decoded block. -/
theorem materialize_run_loaded (cfg : Config)
    (docs : List doc_input) (dec : Decoder) (δ σ : Nat → Nat) (base buffered : Nat)
    (hb : base % cfg.BLOCK_SIZE = 0) (hbuf : buffered ≤ cfg.BLOCK_SIZE)
    (hd : ∀ i < buffered, δ i = hit_delta docs (base + i))
    (hs : ∀ i < buffered, σ i = hit_plen docs (base + i)) :
    ∀ (n idx pos : Nat), idx + n ≤ buffered →
      materialize_run dec.hitsDataPtr δ σ n idx pos
        (pay_start cfg docs dec (base / cfg.BLOCK_SIZE) +
          (payloads_range docs base idx).length) =
      (idx + n, run_pos docs n (base + idx) pos,
        pay_start cfg docs dec (base / cfg.BLOCK_SIZE) +
          (payloads_range docs base (idx + n)).length,
        expected_run cfg docs dec n (base + idx) pos) := by
  intro n
  induction n with
  | zero => intro idx pos _; rfl
  | succ n ih =>
    intro idx pos hle
    have hidx : idx < buffered := by omega
    rw [materialize_run]
    have hnext : pay_start cfg docs dec (base / cfg.BLOCK_SIZE) +
        (payloads_range docs base idx).length + σ idx =
        pay_start cfg docs dec (base / cfg.BLOCK_SIZE) +
          (payloads_range docs base (idx + 1)).length := by
      rw [payloads_range_succ, List.length_append, hs idx hidx]
      unfold hit_plen
      omega
    rw [hnext, ih (idx + 1) _ (by omega), hd idx hidx, hs idx hidx,
      ← pay_off_loaded cfg docs dec base idx hb (by omega)]
    have e1 : idx + 1 + n = idx + (n + 1) := by omega
    have e2 : base + (idx + 1) = base + idx + 1 := by omega
    rw [e1, e2]
    rfl

end Lucene

namespace Lucene

/-- The slow path of `materialize_hits`: with enough fuel it writes the next `freq` hits of
the stream. -/
theorem materialize_slow_spec (cfg : Config) (hok : cfg.codec_ok) (hB : 0 < cfg.BLOCK_SIZE)
    (hB16 : cfg.BLOCK_SIZE ≤ 2 ^ 16) (docs : List doc_input) (dec : Decoder)
    (hh : hits_layout cfg docs dec) :
    ∀ (fuel : Nat) (it : PostingsListIterator) (pos freq c : Nat),
      hits_ok cfg docs dec it.hits_view c → c + freq ≤ hits_total docs →
      2 * freq + (if it.hitsIndex < it.bufferedHits then 0 else 1) < fuel →
      ∃ it1 idx1, dec.materialize_slow cfg fuel it it.hitsIndex pos freq =
        some (it1, idx1, expected_run cfg docs dec freq c pos) := by
  intro fuel
  induction fuel with
  | zero => intro it pos freq c _ _ h; omega
  | succ fuel ih =>
    intro it pos freq c hok1 hcf hfuel
    have hrun : materialize_run dec.hitsDataPtr it.hitsPositionDeltas it.hitsPayloadLengths
        (min (it.bufferedHits - it.hitsIndex) freq) it.hitsIndex pos it.payloadsIt =
        (it.hitsIndex + min (it.bufferedHits - it.hitsIndex) freq,
          run_pos docs (min (it.bufferedHits - it.hitsIndex) freq) c pos,
          (materialize_run dec.hitsDataPtr it.hitsPositionDeltas it.hitsPayloadLengths
            (min (it.bufferedHits - it.hitsIndex) freq) it.hitsIndex pos it.payloadsIt).2.2.1,
          expected_run cfg docs dec (min (it.bufferedHits - it.hitsIndex) freq) c pos) ∧
        (freq - min (it.bufferedHits - it.hitsIndex) freq ≠ 0 →
          ∀ w : hits_view, w.hdp = it.hdp → w.hitsLeft = it.hitsLeft →
            at_hits_gap cfg docs dec w (c + min (it.bufferedHits - it.hitsIndex) freq)) := by
      rcases hok1 with ⟨g1, g2, g3⟩ | ⟨base, hc, hld⟩
      · have e2 : it.hitsIndex = 0 := g2
        have e3 : it.bufferedHits = 0 := g3
        have hn : min (it.bufferedHits - it.hitsIndex) freq = 0 := by omega
        rw [hn]
        refine ⟨by simp only [materialize_run, Nat.add_zero, expected_run, run_pos], ?_⟩
        intro _ w h1 h2
        rw [Nat.add_zero]
        exact ⟨g1.c_le, g1.c_block, by rw [h1]; exact g1.hdp_eq, by rw [h2]; exact g1.hitsLeft_eq⟩
      · have hc1 : c = base + it.hitsIndex := hc
        have hle : it.hitsIndex ≤ it.bufferedHits := hld.index_le
        have hbuf : it.bufferedHits ≤ cfg.BLOCK_SIZE := by
          have : it.bufferedHits = min cfg.BLOCK_SIZE (hits_total docs - base) := hld.buffered_eq
          omega
        have hp : it.payloadsIt = pay_start cfg docs dec (base / cfg.BLOCK_SIZE) +
            (payloads_range docs base it.hitsIndex).length := hld.payloadsIt_eq
        have hr := materialize_run_loaded cfg docs dec it.hitsPositionDeltas
          it.hitsPayloadLengths base it.bufferedHits hld.base_block hbuf hld.deltas_eq
          hld.lengths_eq (min (it.bufferedHits - it.hitsIndex) freq) it.hitsIndex pos (by omega)
        rw [← hp, ← hc1] at hr
        refine ⟨?_, ?_⟩
        · rw [hr]
        · intro hmore w h1 h2
          have hn : min (it.bufferedHits - it.hitsIndex) freq = it.bufferedHits - it.hitsIndex := by
            omega
          have := loaded_end_gap cfg hB docs dec it.hits_view w base hld h1 h2
          have hb : it.hits_view.bufferedHits = it.bufferedHits := rfl
          rw [hb] at this
          have e : c + min (it.bufferedHits - it.hitsIndex) freq = base + it.bufferedHits := by
            omega
          rw [e]
          exact this
    obtain ⟨hr, hgap⟩ := hrun
    rw [Decoder.materialize_slow]
    simp only
    by_cases hmore : freq - min (it.bufferedHits - it.hitsIndex) freq ≠ 0
    · rw [if_pos hmore]
      have hg := hgap hmore
        ({ ({ it with payloadsIt := (materialize_run dec.hitsDataPtr it.hitsPositionDeltas
              it.hitsPayloadLengths (min (it.bufferedHits - it.hitsIndex) freq) it.hitsIndex pos
              it.payloadsIt).2.2.1 } : PostingsListIterator) with
            hitsIndex := (materialize_run dec.hitsDataPtr it.hitsPositionDeltas
              it.hitsPayloadLengths (min (it.bufferedHits - it.hitsIndex) freq) it.hitsIndex pos
              it.payloadsIt).1 } : PostingsListIterator).hits_view rfl rfl
      obtain ⟨r1, r2, _⟩ := refill_hits_spec cfg hok hB hB16 docs dec hh _ _ hg
      have hld2 := r2 (by omega)
      have hbpos : (dec.refill_hits cfg
          ({ ({ it with payloadsIt := (materialize_run dec.hitsDataPtr it.hitsPositionDeltas
              it.hitsPayloadLengths (min (it.bufferedHits - it.hitsIndex) freq) it.hitsIndex pos
              it.payloadsIt).2.2.1 } : PostingsListIterator) with
            hitsIndex := (materialize_run dec.hitsDataPtr it.hitsPositionDeltas
              it.hitsPayloadLengths (min (it.bufferedHits - it.hitsIndex) freq) it.hitsIndex pos
              it.payloadsIt).1 } : PostingsListIterator)).hitsIndex <
          (dec.refill_hits cfg
          ({ ({ it with payloadsIt := (materialize_run dec.hitsDataPtr it.hitsPositionDeltas
              it.hitsPayloadLengths (min (it.bufferedHits - it.hitsIndex) freq) it.hitsIndex pos
              it.payloadsIt).2.2.1 } : PostingsListIterator) with
            hitsIndex := (materialize_run dec.hitsDataPtr it.hitsPositionDeltas
              it.hitsPayloadLengths (min (it.bufferedHits - it.hitsIndex) freq) it.hitsIndex pos
              it.payloadsIt).1 } : PostingsListIterator)).bufferedHits := by
        rw [r1]
        have := hld2.buffered_eq
        have h3 : (dec.refill_hits cfg _).bufferedHits =
          min cfg.BLOCK_SIZE (hits_total docs -
            (c + min (it.bufferedHits - it.hitsIndex) freq)) := this
        omega
      obtain ⟨it3, idx3, e3⟩ := ih _ (materialize_run dec.hitsDataPtr it.hitsPositionDeltas
          it.hitsPayloadLengths (min (it.bufferedHits - it.hitsIndex) freq) it.hitsIndex pos
          it.payloadsIt).2.1 (freq - min (it.bufferedHits - it.hitsIndex) freq)
        (c + min (it.bufferedHits - it.hitsIndex) freq)
        (Or.inr ⟨_, by rw [show (dec.refill_hits cfg _).hits_view.hitsIndex =
          (dec.refill_hits cfg _).hitsIndex from rfl, r1, Nat.add_zero], hld2⟩)
        (by omega)
        (by
          rw [if_pos hbpos]
          split at hfuel <;> omega)
      rw [e3]
      refine ⟨it3, idx3, ?_⟩
      simp only [Option.some.injEq, Prod.mk.injEq, true_and]
      have hx : (materialize_run dec.hitsDataPtr it.hitsPositionDeltas it.hitsPayloadLengths
          (min (it.bufferedHits - it.hitsIndex) freq) it.hitsIndex pos it.payloadsIt).2.2.2 =
          expected_run cfg docs dec (min (it.bufferedHits - it.hitsIndex) freq) c pos := by
        rw [hr]
      have hy : (materialize_run dec.hitsDataPtr it.hitsPositionDeltas it.hitsPayloadLengths
          (min (it.bufferedHits - it.hitsIndex) freq) it.hitsIndex pos it.payloadsIt).2.1 =
          run_pos docs (min (it.bufferedHits - it.hitsIndex) freq) c pos := by
        rw [hr]
      rw [hx, hy, ← expected_run_append]
      congr 1
      omega
    · rw [if_neg hmore]
      have hx : (materialize_run dec.hitsDataPtr it.hitsPositionDeltas it.hitsPayloadLengths
          (min (it.bufferedHits - it.hitsIndex) freq) it.hitsIndex pos it.payloadsIt).2.2.2 =
          expected_run cfg docs dec (min (it.bufferedHits - it.hitsIndex) freq) c pos := by
        rw [hr]
      have hmin : expected_run cfg docs dec (min (it.bufferedHits - it.hitsIndex) freq) c pos =
          expected_run cfg docs dec freq c pos := by
        have : min (it.bufferedHits - it.hitsIndex) freq = freq := by omega
        rw [this]
      rw [hx, hmin]
      exact ⟨_, _, rfl⟩

end Lucene

namespace Lucene

/-- On a document, `materialize_hits` returns and writes the hits of the document. -/
theorem materialize_hits_spec (cfg : Config) (hok : cfg.codec_ok) (hB : 0 < cfg.BLOCK_SIZE)
    (hB16 : cfg.BLOCK_SIZE ≤ 2 ^ 16) (docs : List doc_input) (dec : Decoder)
    (hl : chunk_layout cfg docs dec) (hh : hits_layout cfg docs dec)
    (it : PostingsListIterator) (k : Nat) (ho : on_doc cfg docs dec it.docs_view k)
    (hs : hits_state_ok cfg docs dec it (hits_before docs k)) :
    ∃ it1, dec.materialize_hits cfg it = some (it1, doc_hits cfg docs dec k) := by
  obtain ⟨_, hfr⟩ := on_doc_cur cfg hB docs dec hl _ k ho
  have hfr1 : it.docFreqs it.docsIndex = doc_freq docs k := hfr
  have hcf : hits_before docs k + doc_freq docs k ≤ hits_total docs :=
    hits_before_mono docs (k + 1) docs.length ho.k_lt
  obtain ⟨it1, e1, e2, _, _⟩ := skip_hits_state cfg hok hB hB16 docs dec hl hh it _ hs
  unfold Decoder.materialize_hits
  simp only [e1, hfr1]
  by_cases hfast : it1.hitsIndex + doc_freq docs k ≤ it1.bufferedHits
  · rw [if_pos hfast]
    rcases e2 with ⟨_, g2, g3⟩ | ⟨base, hc, hld⟩
    · have a2 : it1.hitsIndex = 0 := g2
      have a3 : it1.bufferedHits = 0 := g3
      have hz : doc_freq docs k = 0 := by omega
      have hx : (materialize_run dec.hitsDataPtr it1.hitsPositionDeltas it1.hitsPayloadLengths
          (doc_freq docs k) it1.hitsIndex 0 it1.payloadsIt).2.2.2 = doc_hits cfg docs dec k := by
        unfold doc_hits
        rw [hz]
        rfl
      rw [hx]
      exact ⟨_, rfl⟩
    · have hc1 : hits_before docs k = base + it1.hitsIndex := hc
      have hbuf : it1.bufferedHits ≤ cfg.BLOCK_SIZE := by
        have : it1.bufferedHits = min cfg.BLOCK_SIZE (hits_total docs - base) := hld.buffered_eq
        omega
      have hp : it1.payloadsIt = pay_start cfg docs dec (base / cfg.BLOCK_SIZE) +
          (payloads_range docs base it1.hitsIndex).length := hld.payloadsIt_eq
      have hr := materialize_run_loaded cfg docs dec it1.hitsPositionDeltas
        it1.hitsPayloadLengths base it1.bufferedHits hld.base_block hbuf hld.deltas_eq
        hld.lengths_eq (doc_freq docs k) it1.hitsIndex 0 hfast
      rw [← hp, ← hc1] at hr
      have hx : (materialize_run dec.hitsDataPtr it1.hitsPositionDeltas it1.hitsPayloadLengths
          (doc_freq docs k) it1.hitsIndex 0 it1.payloadsIt).2.2.2 = doc_hits cfg docs dec k := by
        rw [hr]
        rfl
      rw [hx]
      exact ⟨_, rfl⟩
  · rw [if_neg hfast]
    obtain ⟨it2, idx2, e3⟩ := materialize_slow_spec cfg hok hB hB16 docs dec hh
      (2 * doc_freq docs k + 2) it1 0 (doc_freq docs k) (hits_before docs k) e2 hcf
      (by split <;> omega)
    rw [e3]
    exact ⟨_, rfl⟩

end Lucene

namespace Lucene

theorem hits_ok_of_fields (cfg : Config) (docs : List doc_input) (dec : Decoder)
    (v w : hits_view) (c : Nat) (h1 : w.hdp = v.hdp) (h2 : w.hitsLeft = v.hitsLeft)
    (h3 : w.hitsIndex = v.hitsIndex) (h4 : w.bufferedHits = v.bufferedHits)
    (h5 : w.hitsPositionDeltas = v.hitsPositionDeltas)
    (h6 : w.hitsPayloadLengths = v.hitsPayloadLengths) (h7 : w.payloadsIt = v.payloadsIt)
    (hv : hits_ok cfg docs dec v c) : hits_ok cfg docs dec w c := by
  rcases hv with ⟨g1, g2, g3⟩ | ⟨base, hc, hld⟩
  · exact Or.inl ⟨⟨g1.c_le, g1.c_block, by rw [h1]; exact g1.hdp_eq,
      by rw [h2]; exact g1.hitsLeft_eq⟩, by rw [h3]; exact g2, by rw [h4]; exact g3⟩
  · refine Or.inr ⟨base, by rw [h3]; exact hc, ?_⟩
    exact ⟨hld.base_block, hld.base_lt, by rw [h3, h4]; exact hld.index_le,
      by rw [h4]; exact hld.buffered_eq, by rw [h2, h4]; exact hld.hitsLeft_eq,
      fun i hi => by rw [h5]; exact hld.deltas_eq i (by rw [← h4]; exact hi),
      fun i hi => by rw [h6]; exact hld.lengths_eq i (by rw [← h4]; exact hi),
      by rw [h7, h3]; exact hld.payloadsIt_eq, by rw [h1]; exact hld.hdp_eq⟩

theorem hits_state_ok_of_view (cfg : Config) (docs : List doc_input) (dec : Decoder)
    (a b : PostingsListIterator) (h : Nat) (hv : a.hits_view = b.hits_view)
    (hs : hits_state_ok cfg docs dec b h) : hits_state_ok cfg docs dec a h := by
  obtain ⟨h1, c, h2, h3⟩ := hs
  have e : a.skippedHits = b.skippedHits := congrArg hits_view.skippedHits hv
  exact ⟨h1, c, by rw [e]; exact h2, by rw [hv]; exact h3⟩

/-- Queueing the hits of the document `k` for skipping. -/
theorem hits_state_step (cfg : Config) (docs : List doc_input) (dec : Decoder)
    (it it2 : PostingsListIterator) (k : Nat) (hk : k < docs.length)
    (h32 : hits_total docs < 2 ^ 32)
    (hs : hits_state_ok cfg docs dec it (hits_before docs k))
    (h1 : it2.hdp = it.hdp) (h2 : it2.hitsLeft = it.hitsLeft)
    (h3 : it2.hitsIndex = it.hitsIndex) (h4 : it2.bufferedHits = it.bufferedHits)
    (h5 : it2.hitsPositionDeltas = it.hitsPositionDeltas)
    (h6 : it2.hitsPayloadLengths = it.hitsPayloadLengths) (h7 : it2.payloadsIt = it.payloadsIt)
    (h8 : it2.skippedHits = (it.skippedHits + doc_freq docs k) % 2 ^ 32) :
    hits_state_ok cfg docs dec it2 (hits_before docs (k + 1)) := by
  obtain ⟨hle, c, hc, hok⟩ := hs
  have hm : hits_before docs (k + 1) ≤ hits_total docs := hits_before_mono docs (k + 1) _ hk
  have hsucc : hits_before docs (k + 1) = hits_before docs k + doc_freq docs k := rfl
  refine ⟨hm, c, ?_, hits_ok_of_fields cfg docs dec it.hits_view it2.hits_view c h1 h2 h3 h4 h5
    h6 h7 hok⟩
  rw [h8, Nat.mod_eq_of_lt (by omega)]
  omega

theorem new_iterator_hits_state (cfg : Config) (docs : List doc_input) (dec : Decoder)
    (hl : chunk_layout cfg docs dec) :
    hits_state_ok cfg docs dec dec.new_iterator (hits_before docs 0) := by
  refine ⟨Nat.zero_le _, 0, rfl, Or.inl ⟨⟨Nat.zero_le _, Or.inl (Nat.zero_mod _), ?_, ?_⟩,
    rfl, rfl⟩⟩
  · show dec.hitsBase = _
    by_cases h : 0 = hits_total docs
    · rw [if_pos h]
      have hm : hits_total docs % cfg.BLOCK_SIZE = 0 := by rw [← h]; exact Nat.zero_mod _
      rw [hits_end_eq_start cfg docs dec hm, ← h, Nat.zero_div]
      simp [hits_start, hits_blocks_bytes]
    · rw [if_neg h, Nat.zero_div]
      simp [hits_start, hits_blocks_bytes]
  · show dec.totalHits = _
    rw [hl.totalHits_eq]
    rfl

/-- Between two blocks, `decode_next_block` keeps the hits part consistent. -/
theorem decode_next_block_hits (cfg : Config) (hok : cfg.codec_ok) (hB : 0 < cfg.BLOCK_SIZE)
    (hB16 : cfg.BLOCK_SIZE ≤ 2 ^ 16) (docs : List doc_input) (dec : Decoder)
    (hl : chunk_layout cfg docs dec) (hh : hits_layout cfg docs dec)
    (it it1 : PostingsListIterator) (h : Nat) (hs : hits_state_ok cfg docs dec it h)
    (hd : dec.decode_next_block cfg it = some it1) : hits_state_ok cfg docs dec it1 h := by
  obtain ⟨it0, e1, e2, e3, _⟩ := skip_hits_state cfg hok hB hB16 docs dec hl hh it h hs
  unfold Decoder.decode_next_block at hd
  rw [e1] at hd
  simp only [Option.some.injEq] at hd
  subst hd
  apply hits_state_ok_of_view cfg docs dec _ it0 h (refill_documents_hits_view cfg dec it0)
  exact ⟨hs.1, h, by rw [e3, Nat.add_zero], e2⟩

theorem on_doc_unique (cfg : Config) (docs : List doc_input) (dec : Decoder)
    (v : docs_view) (k1 k2 : Nat)
    (h1 : on_doc cfg docs dec v k1) (h2 : on_doc cfg docs dec v k2) : k1 = k2 := by
  have a1 := div_mul_add_mod k1 cfg.BLOCK_SIZE
  have a2 := div_mul_add_mod k2 cfg.BLOCK_SIZE
  have b1 := h1.k_lt
  have b2 := h2.k_lt
  have c1 := h1.docsIndex_eq
  have c2 := h2.docsIndex_eq
  have d1 := h1.bufferedDocs_eq
  have d2 := h2.bufferedDocs_eq
  have e1 := h1.docsLeft_eq
  have e2 := h2.docsLeft_eq
  omega

end Lucene

namespace Lucene

/-- The jump of `advance` to a skip-list entry leaves the hits part standing at the
first hit of the entry's block of documents. -/
theorem skiplist_jump_hits (cfg : Config) (hok : cfg.codec_ok) (hB : 0 < cfg.BLOCK_SIZE)
    (hB16 : cfg.BLOCK_SIZE ≤ 2 ^ 16) (docs : List doc_input) (dec : Decoder)
    (hl : chunk_layout cfg docs dec) (hh : hits_layout cfg docs dec)
    (it it1 : PostingsListIterator) (index j : Nat) (hidx : index < dec.skiplist.length)
    (hj : j * cfg.BLOCK_SIZE ≤ docs.length)
    (hb : block_entry_ok cfg docs j (dec.skiplist.getD index default))
    (e : dec.skiplist_jump cfg it index = some it1) :
    hits_state_ok cfg docs dec it1 (hits_before docs (j * cfg.BLOCK_SIZE)) := by
  obtain ⟨_, _, _, b4, b5⟩ := hb
  have hmem : dec.skiplist.getD index default ∈ dec.skiplist := by
    rw [List.getD_eq_getElem?_getD, List.getElem?_eq_getElem hidx]
    exact List.getElem_mem _
  have hent : (dec.skiplist.getD index default).lastHitsBlockOffset =
      (hits_blocks_bytes cfg docs
        ((dec.skiplist.getD index default).lastHitsBlockTotalHits / cfg.BLOCK_SIZE)).length :=
    hh.entries _ hmem
  have hmono : hits_before docs (j * cfg.BLOCK_SIZE) ≤ hits_total docs :=
    hits_before_mono docs (j * cfg.BLOCK_SIZE) docs.length hj
  have hhb := div_mul_add_mod (hits_before docs (j * cfg.BLOCK_SIZE)) cfg.BLOCK_SIZE
  have hc0 : hits_before docs (j * cfg.BLOCK_SIZE) / cfg.BLOCK_SIZE * cfg.BLOCK_SIZE ≤
      hits_total docs := by omega
  have hgap : at_hits_gap cfg docs dec
      ({ it with
        skipListIdx := index + 1
        p := dec.postingListBase + (dec.skiplist.getD index default).indexOffset
        hdp := dec.hitsBase + (dec.skiplist.getD index default).lastHitsBlockOffset
        lastDocID := (dec.skiplist.getD index default).lastDocID
        docsLeft := dec.totalDocuments - (dec.skiplist.getD index default).totalDocumentsSoFar
        hitsLeft := dec.totalHits - (dec.skiplist.getD index default).lastHitsBlockTotalHits
        skippedHits := 0
        bufferedHits := 0 } : PostingsListIterator).hits_view
      (hits_before docs (j * cfg.BLOCK_SIZE) / cfg.BLOCK_SIZE * cfg.BLOCK_SIZE) := by
    refine ⟨hc0, Or.inl (Nat.mul_mod_left _ _), ?_, ?_⟩
    · show dec.hitsBase + (dec.skiplist.getD index default).lastHitsBlockOffset = _
      rw [hent, b4, Nat.mul_div_cancel _ hB]
      by_cases hc : hits_before docs (j * cfg.BLOCK_SIZE) / cfg.BLOCK_SIZE * cfg.BLOCK_SIZE =
          hits_total docs
      · rw [if_pos hc]
        have hm : hits_total docs % cfg.BLOCK_SIZE = 0 := by
          rw [← hc]; exact Nat.mul_mod_left _ _
        rw [hits_end_eq_start cfg docs dec hm, ← hc, Nat.mul_div_cancel _ hB]
        rfl
      · rw [if_neg hc]
        rfl
    · show dec.totalHits - (dec.skiplist.getD index default).lastHitsBlockTotalHits = _
      rw [hl.totalHits_eq, b4]
      rfl
  have hv := refill_documents_hits_view cfg dec
    ({ it with
        skipListIdx := index + 1
        p := dec.postingListBase + (dec.skiplist.getD index default).indexOffset
        hdp := dec.hitsBase + (dec.skiplist.getD index default).lastHitsBlockOffset
        lastDocID := (dec.skiplist.getD index default).lastDocID
        docsLeft := dec.totalDocuments - (dec.skiplist.getD index default).totalDocumentsSoFar
        hitsLeft := dec.totalHits - (dec.skiplist.getD index default).lastHitsBlockTotalHits
        skippedHits := 0
        bufferedHits := 0 } : PostingsListIterator)
  have e0 : dec.skiplist_jump cfg it index = dec.skip_hits cfg
      ({ update_curdoc (dec.refill_hits cfg (dec.refill_documents cfg
        ({ it with
        skipListIdx := index + 1
        p := dec.postingListBase + (dec.skiplist.getD index default).indexOffset
        hdp := dec.hitsBase + (dec.skiplist.getD index default).lastHitsBlockOffset
        lastDocID := (dec.skiplist.getD index default).lastDocID
        docsLeft := dec.totalDocuments - (dec.skiplist.getD index default).totalDocumentsSoFar
        hitsLeft := dec.totalHits - (dec.skiplist.getD index default).lastHitsBlockTotalHits
        skippedHits := 0
        bufferedHits := 0 } : PostingsListIterator))) with
        skippedHits := (dec.skiplist.getD index default).curHitsBlockHits } :
        PostingsListIterator) (dec.skiplist.getD index default).curHitsBlockHits := rfl
  rw [e0] at e
  generalize hX : dec.refill_documents cfg
    ({ it with
        skipListIdx := index + 1
        p := dec.postingListBase + (dec.skiplist.getD index default).indexOffset
        hdp := dec.hitsBase + (dec.skiplist.getD index default).lastHitsBlockOffset
        lastDocID := (dec.skiplist.getD index default).lastDocID
        docsLeft := dec.totalDocuments - (dec.skiplist.getD index default).totalDocumentsSoFar
        hitsLeft := dec.totalHits - (dec.skiplist.getD index default).lastHitsBlockTotalHits
        skippedHits := 0
        bufferedHits := 0 } : PostingsListIterator) = X at hv e
  rw [← hv] at hgap
  obtain ⟨r1, r2, r3⟩ := refill_hits_spec cfg hok hB hB16 docs dec hh X _ hgap
  have hY : hits_ok cfg docs dec (dec.refill_hits cfg X).hits_view
      (hits_before docs (j * cfg.BLOCK_SIZE) / cfg.BLOCK_SIZE * cfg.BLOCK_SIZE) := by
    rcases Nat.lt_or_ge
      (hits_before docs (j * cfg.BLOCK_SIZE) / cfg.BLOCK_SIZE * cfg.BLOCK_SIZE)
      (hits_total docs) with hlt | hge
    · exact Or.inr ⟨_, by show _ = _ + (dec.refill_hits cfg X).hitsIndex; rw [r1, Nat.add_zero],
        r2 hlt⟩
    · have heq := le_antisymm hc0 hge
      exact Or.inl ⟨(r3 heq).1, r1, (r3 heq).2⟩
  have hZ : hits_state_ok cfg docs dec
      ({ update_curdoc (dec.refill_hits cfg X) with
        skippedHits := (dec.skiplist.getD index default).curHitsBlockHits } :
        PostingsListIterator) (hits_before docs (j * cfg.BLOCK_SIZE)) := by
    refine ⟨hmono, _, ?_, hits_ok_of_fields cfg docs dec (dec.refill_hits cfg X).hits_view _ _
      rfl rfl rfl rfl rfl rfl rfl hY⟩
    show _ + (dec.skiplist.getD index default).curHitsBlockHits = _
    rw [b5]
    exact hhb
  obtain ⟨it3, e1, e2, e3, _⟩ := skip_hits_state cfg hok hB hB16 docs dec hl hh _ _ hZ
  have e1b : dec.skip_hits cfg
      ({ update_curdoc (dec.refill_hits cfg X) with
        skippedHits := (dec.skiplist.getD index default).curHitsBlockHits } :
        PostingsListIterator) (dec.skiplist.getD index default).curHitsBlockHits = some it3 := e1
  rw [e1b] at e
  simp only [Option.some.injEq] at e
  subst e
  exact ⟨hmono, _, by rw [e3, Nat.add_zero], e2⟩

end Lucene

namespace Lucene

/-- The loop of `advance` keeps the hits part consistent: when it returns on a document,
the hits taken from the stream and the queued hits are the hits recorded before it. -/
theorem advance_loop_hits (cfg : Config) (hok : cfg.codec_ok) (hB : 0 < cfg.BLOCK_SIZE)
    (hB16 : cfg.BLOCK_SIZE ≤ 2 ^ 16) (docs : List doc_input) (dec : Decoder)
    (hl : chunk_layout cfg docs dec) (hh : hits_layout cfg docs dec)
    (htail : tail_deltas_ok cfg docs) (target : Nat) : ∀ fuel : Nat,
    (∀ (it r : PostingsListIterator) (lb li k : Nat),
      it.skipListIdx ≤ dec.skiplist.length →
      on_doc cfg docs dec { it.docs_view with docsIndex := li } k →
      lb = it.bufferedDocs → hits_state_ok cfg docs dec it (hits_before docs k) →
      dec.advance_loop cfg target fuel it lb li = some r →
      ∀ k1, on_doc cfg docs dec r.docs_view k1 →
        hits_state_ok cfg docs dec r (hits_before docs k1)) ∧
    (∀ (it r : PostingsListIterator) (lb li m : Nat),
      it.skipListIdx ≤ dec.skiplist.length → li = lb → lb = it.bufferedDocs →
      at_gap cfg docs dec it.docs_view m →
      hits_state_ok cfg docs dec it (hits_before docs m) →
      dec.advance_loop cfg target fuel it lb li = some r →
      ∀ k1, on_doc cfg docs dec r.docs_view k1 →
        hits_state_ok cfg docs dec r (hits_before docs k1)) := by
  intro fuel
  induction fuel with
  | zero =>
    exact ⟨fun _ _ _ _ _ _ _ _ _ h => by simp [Decoder.advance_loop] at h,
      fun _ _ _ _ _ _ _ _ _ _ h => by simp [Decoder.advance_loop] at h⟩
  | succ fuel ih =>
    have hstep1 : ∀ (it r : PostingsListIterator) (lb li k : Nat),
        it.skipListIdx ≤ dec.skiplist.length →
        on_doc cfg docs dec { it.docs_view with docsIndex := li } k →
        lb = it.bufferedDocs → hits_state_ok cfg docs dec it (hits_before docs k) →
        (match advance_l10 target it li with
          | (it2, none) => some it2
          | (it2, some docsIndex2) => dec.advance_loop cfg target fuel it2 lb docsIndex2)
          = some r →
        ∀ k1, on_doc cfg docs dec r.docs_view k1 →
          hits_state_ok cfg docs dec r (hits_before docs k1) := by
      intro it r lb li k hidx ho hlb hs h k1 hk1
      have hc := hits_state_count cfg docs dec hl it _ hs
      have hcur : it.curDocument_id = doc_id docs k := ho.cur_eq
      rcases advance_l10_spec cfg hB docs dec hl target it li k ho hc with
        ⟨hT, it1, e1, e2, _, _⟩ | ⟨hT, it2, e1, e2, e3, _, e5⟩
      · rw [e1] at h
        simp only [Option.some.injEq] at h
        subst h
        rw [advance_l10_done target it li (by rw [hcur]; exact hT)] at e1
        obtain ⟨e1a, _⟩ := Prod.mk.inj e1
        subst e1a
        have hkk : k1 = k := on_doc_unique cfg docs dec _ k1 k hk1 ho
        subst hkk
        exact hits_state_ok_of_view cfg docs dec _ it _ rfl hs
      · rw [e1] at h
        simp only at h
        have e1b := e1
        rw [advance_l10_step target it li (by rw [hcur]; exact hT)] at e1b
        obtain ⟨e1a, _⟩ := Prod.mk.inj e1b
        obtain ⟨_, hfr⟩ := on_doc_cur cfg hB docs dec hl _ k ho
        have hfr1 : it.docFreqs li = doc_freq docs k := hfr
        have hs2 : hits_state_ok cfg docs dec it2 (hits_before docs (k + 1)) := by
          rw [← e1a]
          exact hits_state_step cfg docs dec it _ k ho.k_lt hl.totalHits_lt hs rfl rfl rfl rfl
            rfl rfl rfl (by rw [← hfr1])
        rcases e5 with ⟨hin, ho2⟩ | ⟨hin, hg2⟩
        · exact ih.1 it2 r lb (li + 1) (k + 1) (by rw [e2]; exact hidx) ho2
            (by rw [e3]; exact hlb) hs2 h k1 hk1
        · exact ih.2 it2 r lb (li + 1) (k + 1) (by rw [e2]; exact hidx) (by omega)
            (by rw [e3]; exact hlb) hg2 hs2 h k1 hk1
    constructor
    · intro it r lb li k hidx ho hlb hs h
      have hlt : li < it.bufferedDocs := on_doc_index_lt cfg hB docs dec _ k ho
      rw [advance_loop_eq_l10 cfg dec target fuel it lb li (by omega)] at h
      exact hstep1 it r lb li k hidx ho hlb hs h
    · intro it r lb li m hidx hli hlb hg hs h k1 hk1
      have hc := hits_state_count cfg docs dec hl it _ hs
      have hp := at_gap_p cfg docs dec hl _ m hg
      by_cases hpe : it.p = dec.chunkEnd
      · rw [advance_loop_eq_end cfg dec target fuel it lb li hli hpe] at h
        simp only [Option.some.injEq] at h
        subst h
        have hlt := on_doc_index_lt cfg hB docs dec _ k1 hk1
        have hlt2 : li < it.bufferedDocs := hlt
        omega
      · have hm : m < docs.length := lt_of_le_of_ne hg.m_le (fun e => hpe (hp.2 e))
        by_cases hj : it.skipListIdx ≠ dec.skiplist.length ∧
            dec.skiplist_search it target ≠ UINT32_MAX
        · obtain ⟨hj1, hj2⟩ := hj
          rw [advance_loop_eq_jump cfg dec target fuel it lb li hli hpe hj1 hj2] at h
          obtain ⟨s1, s2, s3⟩ := skiplist_search_spec dec it target (by omega) hj2
          obtain ⟨it1, j, e1, e2, e3, e4, e5, e6, e7⟩ := skiplist_jump_entry cfg hok hB docs dec
            hl htail it _ s2
          rw [e1] at h
          simp only at h
          have hs1 := skiplist_jump_hits cfg hok hB hB16 docs dec hl hh it it1 _ j s2
            (le_of_lt e4.k_lt) e7 e1
          exact hstep1 it1 r it1.bufferedDocs it1.docsIndex (j * cfg.BLOCK_SIZE)
            (by rw [e6]; omega) e4 rfl hs1 h k1 hk1
        · have hj1 : it.skipListIdx = dec.skiplist.length ∨
              dec.skiplist_search it target = UINT32_MAX := by
            by_cases h1 : it.skipListIdx = dec.skiplist.length
            · exact Or.inl h1
            · by_cases h2 : dec.skiplist_search it target = UINT32_MAX
              · exact Or.inr h2
              · exact absurd ⟨h1, h2⟩ hj
          rw [advance_loop_eq_decode cfg dec target fuel it lb li hli hpe hj1] at h
          obtain ⟨it1, e1, e2, _, _, e5⟩ := decode_next_block_gap cfg hok hB docs dec hl htail
            it m _ hg hm hc
          rw [e1] at h
          simp only at h
          have hs1 := decode_next_block_hits cfg hok hB hB16 docs dec hl hh it it1 _ hs e1
          exact ih.1 it1 r it1.bufferedDocs it1.docsIndex m (by rw [e5]; exact hidx) e2 rfl hs1
            h k1 hk1

end Lucene

namespace Lucene

theorem seek_state_unique (cfg : Config) (docs : List doc_input) (dec : Decoder)
    (target : Nat) (a b : PostingsListIterator)
    (ha : seek_state cfg docs dec target a) (hb : seek_state cfg docs dec target b) :
    (∃ k, on_doc cfg docs dec a.docs_view k ∧ on_doc cfg docs dec b.docs_view k ∧
      hits_state_ok cfg docs dec a (hits_before docs k) ∧
      hits_state_ok cfg docs dec b (hits_before docs k)) ∨
    (exhausted dec a ∧ exhausted dec b) := by
  rcases ha with ⟨k2, a1, a2, a3, a4⟩ | ⟨a1, a2⟩
  · rcases hb with ⟨k3, b1, b2, b3, b4⟩ | ⟨b1, b2⟩
    · have hk : k2 = k3 := by
        by_contra hne
        rcases Nat.lt_or_gt_of_ne hne with h | h
        · have := b4 k2 h
          omega
        · have := a4 k3 h
          omega
      subst hk
      exact Or.inl ⟨k2, a1, b1, a2, b2⟩
    · have := b2 k2 a1.k_lt
      omega
  · rcases hb with ⟨k3, b1, b2, b3, b4⟩ | ⟨b1, b2⟩
    · have := a2 k3 b1.k_lt
      omega
    · exact Or.inr ⟨a1, b1⟩

/-- The call `advance(target)` on a new iterator returns in the seek state of `target`. -/
theorem advance_new_iterator_state (cfg : Config) (hok : cfg.codec_ok)
    (hB : 0 < cfg.BLOCK_SIZE) (hB16 : cfg.BLOCK_SIZE ≤ 2 ^ 16) (docs : List doc_input)
    (dec : Decoder) (hl : chunk_layout cfg docs dec) (hh : hits_layout cfg docs dec)
    (htail : tail_deltas_ok cfg docs) (target fuel : Nat)
    (hfuel : (dec.skiplist.length + 1) * (2 * docs.length + 2) ≤ fuel) :
    ∃ r, dec.advance cfg fuel dec.new_iterator target = some r ∧
      r.skipListIdx ≤ dec.skiplist.length ∧ seek_state cfg docs dec target r := by
  obtain ⟨r, e1, e2, e3⟩ := advance_new_iterator cfg hok hB docs dec hl htail target fuel hfuel
  have hz : ids_below docs target 0 := fun j hj => absurd hj (Nat.not_lt_zero _)
  refine ⟨r, e1, e2, ?_⟩
  rcases e3 with ⟨k, a1, _, a3, a4⟩ | ⟨a1, a2⟩
  · refine Or.inl ⟨k, a1, ?_, a3, a4 hz⟩
    exact (advance_loop_hits cfg hok hB hB16 docs dec hl hh htail target fuel).2
      dec.new_iterator r dec.new_iterator.bufferedDocs dec.new_iterator.docsIndex 0
      (Nat.zero_le _) rfl rfl (new_iterator_gap cfg docs dec hl)
      (new_iterator_hits_state cfg docs dec hl) e1 k a1
  · exact Or.inr ⟨a1, a2 hz⟩

/-- The call `advance(target)` on an iterator in the seek state of a target that is not
larger returns in the seek state of `target`. -/
theorem advance_seek_state (cfg : Config) (hok : cfg.codec_ok)
    (hB : 0 < cfg.BLOCK_SIZE) (hB16 : cfg.BLOCK_SIZE ≤ 2 ^ 16) (docs : List doc_input)
    (dec : Decoder) (hl : chunk_layout cfg docs dec) (hh : hits_layout cfg docs dec)
    (htail : tail_deltas_ok cfg docs) (t0 target fuel : Nat) (ht : t0 ≤ target)
    (hT : target < 2 ^ 32) (it : PostingsListIterator)
    (hidx : it.skipListIdx ≤ dec.skiplist.length)
    (hs : seek_state cfg docs dec t0 it)
    (hfuel : (dec.skiplist.length + 1) * (2 * docs.length + 2) ≤ fuel) :
    ∃ r, dec.advance cfg fuel it target = some r ∧
      r.skipListIdx ≤ dec.skiplist.length ∧ seek_state cfg docs dec target r := by
  rcases hs with ⟨k0, o1, o2, _, o4⟩ | ⟨x1, x2⟩
  · have hz : ids_below docs target k0 := fun j hj => lt_of_lt_of_le (o4 j hj) ht
    obtain ⟨r, e1, e2, e3⟩ := advance_on_doc cfg hok hB docs dec hl htail target it k0 hidx o1
      (hits_state_count cfg docs dec hl it _ o2) fuel hfuel
    refine ⟨r, e1, e2, ?_⟩
    rcases e3 with ⟨k, a1, _, a3, a4⟩ | ⟨a1, a2⟩
    · refine Or.inl ⟨k, a1, ?_, a3, a4 hz⟩
      exact (advance_loop_hits cfg hok hB hB16 docs dec hl hh htail target fuel).1
        it r it.bufferedDocs it.docsIndex k0 hidx o1 rfl o2 e1 k a1
    · exact Or.inr ⟨a1, a2 hz⟩
  · have hpos : 1 ≤ fuel := by
      have : 1 * (2 * docs.length + 2) ≤ (dec.skiplist.length + 1) * (2 * docs.length + 2) :=
        Nat.mul_le_mul_right _ (by omega)
      omega
    obtain ⟨r, e1, e2, e3⟩ := advance_exhausted cfg dec target hT it x1 fuel hpos
    exact ⟨r, e1, by rw [e3]; exact hidx,
      Or.inr ⟨e2, fun j hj => lt_of_lt_of_le (x2 j hj) ht⟩⟩

/-- Two seeks in a row on a new iterator end where the second alone ends, and a
following `materialize_hits` writes the hits of that document. -/
theorem advance_twice (cfg : Config) (hok : cfg.codec_ok)
    (hB : 0 < cfg.BLOCK_SIZE) (hB16 : cfg.BLOCK_SIZE ≤ 2 ^ 16) (docs : List doc_input)
    (dec : Decoder) (hl : chunk_layout cfg docs dec) (hh : hits_layout cfg docs dec)
    (htail : tail_deltas_ok cfg docs) (t0 target fuel : Nat) (ht : t0 ≤ target)
    (hT : target < 2 ^ 32)
    (hfuel : (dec.skiplist.length + 1) * (2 * docs.length + 2) ≤ fuel) :
    ∃ a1 a2 b, dec.advance cfg fuel dec.new_iterator t0 = some a1 ∧
      dec.advance cfg fuel a1 target = some a2 ∧
      dec.advance cfg fuel dec.new_iterator target = some b ∧
      ((∃ k, on_doc cfg docs dec a2.docs_view k ∧ on_doc cfg docs dec b.docs_view k ∧
          (∃ ia, dec.materialize_hits cfg a2 = some (ia, doc_hits cfg docs dec k)) ∧
          (∃ ib, dec.materialize_hits cfg b = some (ib, doc_hits cfg docs dec k))) ∨
       (exhausted dec a2 ∧ exhausted dec b)) := by
  obtain ⟨a1, e1, e2, e3⟩ := advance_new_iterator_state cfg hok hB hB16 docs dec hl hh htail t0
    fuel hfuel
  obtain ⟨a2, f1, _, f3⟩ := advance_seek_state cfg hok hB hB16 docs dec hl hh htail t0 target
    fuel ht hT a1 e2 e3 hfuel
  obtain ⟨b, g1, _, g3⟩ := advance_new_iterator_state cfg hok hB hB16 docs dec hl hh htail
    target fuel hfuel
  refine ⟨a1, a2, b, e1, f1, g1, ?_⟩
  rcases seek_state_unique cfg docs dec target a2 b f3 g3 with ⟨k, h1, h2, h3, h4⟩ | h
  · exact Or.inl ⟨k, h1, h2,
      materialize_hits_spec cfg hok hB hB16 docs dec hl hh a2 k h1 h3,
      materialize_hits_spec cfg hok hB hB16 docs dec hl hh b k h2 h4⟩
  · exact Or.inr h

end Lucene

namespace Lucene

theorem read_docs_length (cfg : Config) (docs : List doc_input) :
    (read_docs cfg docs).length = docs.length := by
  simp [read_docs]

theorem read_docs_hits (cfg : Config) (docs : List doc_input) :
    (read_docs cfg docs).map (fun d => d.hits) = docs.map (fun d => d.hits) := by
  apply List.ext_getElem
  · simp [read_docs]
  · intro i h1 h2
    have hi : i < docs.length := by simpa using h2
    simp [read_docs, List.getD_eq_getElem?_getD, List.getElem?_eq_getElem hi]

theorem stored_hits_of_hits : ∀ (a b : List doc_input),
    a.map (fun d => d.hits) = b.map (fun d => d.hits) → stored_hits a = stored_hits b := by
  intro a
  induction a with
  | nil =>
    intro b h
    cases b with
    | nil => rfl
    | cons y ys => simp at h
  | cons x xs ih =>
    intro b h
    cases b with
    | nil => simp at h
    | cons y ys =>
      simp only [List.map_cons, List.cons.injEq] at h
      simp only [stored_hits, doc_stored, real_hits, h.1, ih ys h.2]

theorem doc_freq_of_hits (a b : List doc_input)
    (h : a.map (fun d => d.hits) = b.map (fun d => d.hits)) (i : Nat) :
    doc_freq a i = doc_freq b i := by
  have e : ∀ l : List doc_input, l.map (fun d => (real_hits d).length) =
      (l.map (fun d => d.hits)).map
        (fun hs => (hs.filter (fun h => !decide (h.pos = 0 ∧ h.payload = []))).length) := by
    intro l
    rw [List.map_map]
    rfl
  unfold doc_freq
  rw [e a, e b, h]

theorem hits_before_congr (a b : List doc_input) (hF : ∀ i, doc_freq a i = doc_freq b i) :
    ∀ k, hits_before a k = hits_before b k := by
  intro k
  induction k with
  | zero => rfl
  | succ k ih => simp only [hits_before, ih, hF k]

theorem hit_delta_congr (a b : List doc_input) (hS : stored_hits a = stored_hits b) :
    hit_delta a = hit_delta b := by
  funext g
  simp only [hit_delta, hS]

theorem hit_payload_congr (a b : List doc_input) (hS : stored_hits a = stored_hits b) :
    hit_payload a = hit_payload b := by
  funext g
  simp only [hit_payload, hS]

theorem hit_plen_congr (a b : List doc_input) (hS : stored_hits a = stored_hits b) :
    hit_plen a = hit_plen b := by
  funext g
  simp only [hit_plen, hit_payload_congr a b hS]

theorem payloads_range_congr (a b : List doc_input) (hS : stored_hits a = stored_hits b) :
    payloads_range a = payloads_range b := by
  funext s c
  induction c with
  | zero => rfl
  | succ c ih => simp only [payloads_range, ih, hit_payload_congr a b hS]

theorem hits_block_bytes_congr (cfg : Config) (a b : List doc_input)
    (hS : stored_hits a = stored_hits b) : hits_block_bytes cfg a = hits_block_bytes cfg b := by
  funext j
  simp only [hits_block_bytes, hit_delta_congr a b hS, hit_plen_congr a b hS,
    payloads_range_congr a b hS]

theorem hits_blocks_bytes_congr (cfg : Config) (a b : List doc_input)
    (hS : stored_hits a = stored_hits b) :
    hits_blocks_bytes cfg a = hits_blocks_bytes cfg b := by
  funext q
  induction q with
  | zero => rfl
  | succ q ih => simp only [hits_blocks_bytes, ih, hits_block_bytes_congr cfg a b hS]

theorem hits_total_congr (a b : List doc_input) (hF : ∀ i, doc_freq a i = doc_freq b i)
    (hL : a.length = b.length) : hits_total a = hits_total b := by
  unfold hits_total
  rw [hL]
  exact hits_before_congr a b hF _

theorem hits_tail_head_congr (cfg : Config) (a b : List doc_input)
    (hS : stored_hits a = stored_hits b) (hF : ∀ i, doc_freq a i = doc_freq b i)
    (hL : a.length = b.length) : hits_tail_head cfg a = hits_tail_head cfg b := by
  simp only [hits_tail_head, hit_delta_congr a b hS, hit_plen_congr a b hS,
    hits_total_congr a b hF hL]

theorem hits_tail_bytes_congr (cfg : Config) (a b : List doc_input)
    (hS : stored_hits a = stored_hits b) (hF : ∀ i, doc_freq a i = doc_freq b i)
    (hL : a.length = b.length) : hits_tail_bytes cfg a = hits_tail_bytes cfg b := by
  simp only [hits_tail_bytes, hits_tail_head_congr cfg a b hS hF hL,
    payloads_range_congr a b hS, hits_total_congr a b hF hL]

theorem pay_off_congr (cfg : Config) (a b : List doc_input) (dec : Decoder)
    (hS : stored_hits a = stored_hits b) (hF : ∀ i, doc_freq a i = doc_freq b i)
    (hL : a.length = b.length) : pay_off cfg a dec = pay_off cfg b dec := by
  funext g
  simp only [pay_off, pay_start, hits_start, hits_blocks_bytes_congr cfg a b hS,
    hit_delta_congr a b hS, hit_plen_congr a b hS, payloads_range_congr a b hS,
    hits_total_congr a b hF hL, hits_tail_head_congr cfg a b hS hF hL]

theorem expected_run_congr (cfg : Config) (a b : List doc_input) (dec : Decoder)
    (hS : stored_hits a = stored_hits b) (hF : ∀ i, doc_freq a i = doc_freq b i)
    (hL : a.length = b.length) :
    ∀ count g pos, expected_run cfg a dec count g pos = expected_run cfg b dec count g pos := by
  intro count
  induction count with
  | zero => intro g pos; rfl
  | succ count ih =>
    intro g pos
    simp only [expected_run, ih, hit_delta_congr a b hS, hit_plen_congr a b hS,
      pay_off_congr cfg a b dec hS hF hL]

theorem doc_hits_congr (cfg : Config) (a b : List doc_input) (dec : Decoder)
    (hS : stored_hits a = stored_hits b) (hF : ∀ i, doc_freq a i = doc_freq b i)
    (hL : a.length = b.length) (k : Nat) : doc_hits cfg a dec k = doc_hits cfg b dec k := by
  unfold doc_hits
  rw [expected_run_congr cfg a b dec hS hF hL, hF k, hits_before_congr a b hF k]

/-- The hits layout depends on the recorded hits only. -/
theorem hits_layout_congr (cfg : Config) (a b : List doc_input) (dec : Decoder)
    (hS : stored_hits a = stored_hits b) (hF : ∀ i, doc_freq a i = doc_freq b i)
    (hL : a.length = b.length) (h : hits_layout cfg a dec) : hits_layout cfg b dec := by
  obtain ⟨h1, h2, h3, h4⟩ := h
  refine ⟨?_, ?_, ?_, ?_⟩
  · rw [← hits_blocks_bytes_congr cfg a b hS, ← hits_tail_bytes_congr cfg a b hS hF hL,
      ← hits_total_congr a b hF hL]
    exact h1
  · intro s hs
    have := h2 s hs
    unfold entry_hits_ok at this ⊢
    rw [← hits_blocks_bytes_congr cfg a b hS]
    exact this
  · rw [← hit_delta_congr a b hS]
    exact h3
  · rw [← hit_plen_congr a b hS]
    exact h4

end Lucene

namespace Lucene

theorem read_delta_full (cfg : Config) (docs : List doc_input) (i : Nat)
    (hi : i < docs.length / cfg.BLOCK_SIZE * cfg.BLOCK_SIZE) :
    read_delta cfg docs i = doc_delta docs i := by
  unfold read_delta
  rw [if_neg (by omega)]

theorem read_delta_le (cfg : Config) (docs : List doc_input) (i : Nat) :
    read_delta cfg docs i ≤ doc_delta docs i := by
  unfold read_delta
  split
  · exact Nat.mod_le _ _
  · exact le_refl _

theorem read_id_full (cfg : Config) (docs : List doc_input)
    (hs : ∀ i < docs.length, prev_id docs i ≤ doc_id docs i) :
    ∀ i, i < docs.length / cfg.BLOCK_SIZE * cfg.BLOCK_SIZE → read_id cfg docs i = doc_id docs i := by
  have hq := Nat.div_mul_le_self docs.length cfg.BLOCK_SIZE
  intro i
  induction i with
  | zero =>
    intro hi
    rw [read_id, read_delta_full cfg docs 0 hi]
    simp [doc_delta, prev_id]
  | succ i ih =>
    intro hi
    rw [read_id, ih (by omega), read_delta_full cfg docs (i + 1) hi]
    have := doc_delta_add docs (i + 1) (hs (i + 1) (by omega))
    rw [prev_id_succ] at this
    exact this

theorem read_id_le (cfg : Config) (docs : List doc_input)
    (hs : ∀ i < docs.length, prev_id docs i ≤ doc_id docs i) :
    ∀ i, i < docs.length → read_id cfg docs i ≤ doc_id docs i := by
  intro i
  induction i with
  | zero =>
    intro _
    have := read_delta_le cfg docs 0
    rw [read_id]
    simp only [doc_delta, prev_id, if_true, Nat.sub_zero] at this
    exact this
  | succ i ih =>
    intro hi
    have h1 := ih (by omega)
    have h2 := read_delta_le cfg docs (i + 1)
    have h3 := doc_delta_add docs (i + 1) (hs (i + 1) hi)
    rw [prev_id_succ] at h3
    rw [read_id]
    omega

theorem doc_id_read_docs (cfg : Config) (docs : List doc_input) (i : Nat)
    (hi : i < docs.length) : doc_id (read_docs cfg docs) i = read_id cfg docs i := by
  simp [doc_id, read_docs, List.getD_eq_getElem?_getD, hi]

theorem doc_delta_read_docs (cfg : Config) (docs : List doc_input) (i : Nat)
    (hi : i < docs.length) : doc_delta (read_docs cfg docs) i = read_delta cfg docs i := by
  unfold doc_delta
  rw [doc_id_read_docs cfg docs i hi]
  cases i with
  | zero => simp [prev_id, read_id]
  | succ i =>
    rw [prev_id_succ, doc_id_read_docs cfg docs i (by omega), read_id]
    omega

theorem prev_id_read_docs (cfg : Config) (docs : List doc_input)
    (hs : ∀ i < docs.length, prev_id docs i ≤ doc_id docs i) (i : Nat)
    (hi : i ≤ docs.length / cfg.BLOCK_SIZE * cfg.BLOCK_SIZE) :
    prev_id (read_docs cfg docs) i = prev_id docs i := by
  have hq := Nat.div_mul_le_self docs.length cfg.BLOCK_SIZE
  cases i with
  | zero => rfl
  | succ i =>
    rw [prev_id_succ, prev_id_succ, doc_id_read_docs cfg docs i (by omega)]
    exact read_id_full cfg docs hs i (by omega)

theorem read_docs_freq (cfg : Config) (docs : List doc_input) (i : Nat) :
    doc_freq (read_docs cfg docs) i = doc_freq docs i :=
  doc_freq_of_hits _ _ (read_docs_hits cfg docs) i

theorem blocks_bytes_read_docs (cfg : Config) (hB : 0 < cfg.BLOCK_SIZE)
    (docs : List doc_input) :
    ∀ j, j ≤ docs.length / cfg.BLOCK_SIZE →
      blocks_bytes cfg (read_docs cfg docs) j = blocks_bytes cfg docs j := by
  have hq := Nat.div_mul_le_self docs.length cfg.BLOCK_SIZE
  intro j
  induction j with
  | zero => intro _; rfl
  | succ j ih =>
    intro hj
    have hjB : j * cfg.BLOCK_SIZE + cfg.BLOCK_SIZE ≤
        docs.length / cfg.BLOCK_SIZE * cfg.BLOCK_SIZE := by
      have := Nat.mul_le_mul_right cfg.BLOCK_SIZE hj
      rw [Nat.succ_mul] at this
      exact this
    rw [blocks_bytes, blocks_bytes, ih (by omega)]
    congr 1
    unfold block_bytes
    rw [ints_encode_congr cfg (fun i => doc_delta (read_docs cfg docs) (j * cfg.BLOCK_SIZE + i))
        (fun i => doc_delta docs (j * cfg.BLOCK_SIZE + i)) _
        (fun i hi => by
          show doc_delta (read_docs cfg docs) (j * cfg.BLOCK_SIZE + i) = _
          rw [doc_delta_read_docs cfg docs _ (by omega),
            read_delta_full cfg docs _ (by omega)]) hB,
      ints_encode_congr cfg (fun i => doc_freq (read_docs cfg docs) (j * cfg.BLOCK_SIZE + i))
        (fun i => doc_freq docs (j * cfg.BLOCK_SIZE + i)) _
        (fun i _ => read_docs_freq cfg docs _) hB]

theorem tail_documents_packed (a b c d : Nat → Nat) :
    ∀ (count i : Nat), (∀ k, i ≤ k → k < i + count → a k = c k % 2 ^ 31 ∧ b k = d k) →
      tail_documents true a b count i = tail_documents true c d count i := by
  intro count
  induction count with
  | zero => intro i _; rfl
  | succ count ih =>
    intro i h
    obtain ⟨h1, h2⟩ := h i (le_refl _) (by omega)
    have e : a i * 2 % 2 ^ 32 = c i * 2 % 2 ^ 32 := by
      rw [h1]
      omega
    simp only [tail_documents, if_true]
    rw [e, h2, ih (i + 1) (fun k hk1 hk2 => h k (by omega) (by omega))]

theorem tail_bytes_read_docs (cfg : Config) (docs : List doc_input) :
    tail_bytes cfg (read_docs cfg docs) = tail_bytes cfg docs := by
  have hnB := div_mul_add_mod docs.length cfg.BLOCK_SIZE
  unfold tail_bytes
  rw [read_docs_length]
  cases hp : cfg.ENCODE_FREQ1_DOCDELTA with
  | false =>
    apply tail_documents_congr
    intro k _ hk
    refine ⟨?_, read_docs_freq cfg docs _⟩
    show doc_delta (read_docs cfg docs) _ = _
    rw [doc_delta_read_docs cfg docs _ (by omega)]
    unfold read_delta
    rw [if_neg (by simp [hp])]
  | true =>
    apply tail_documents_packed
    intro k _ hk
    refine ⟨?_, read_docs_freq cfg docs _⟩
    show doc_delta (read_docs cfg docs) _ = _
    rw [doc_delta_read_docs cfg docs _ (by omega)]
    unfold read_delta
    rw [if_pos ⟨hp, by omega⟩]

/-- The decoder that reads the chunk of `docs` reads the chunk of the documents read
back, whose trailing deltas fit the packed layout. -/
theorem chunk_layout_read_docs (cfg : Config) (hB : 0 < cfg.BLOCK_SIZE)
    (docs : List doc_input) (dec : Decoder) (hl : chunk_layout cfg docs dec) :
    chunk_layout cfg (read_docs cfg docs) dec ∧ tail_deltas_ok cfg (read_docs cfg docs) := by
  have hq := Nat.div_mul_le_self docs.length cfg.BLOCK_SIZE
  have hF := read_docs_freq cfg docs
  have hL := read_docs_length cfg docs
  constructor
  · refine
      { mem_eq := ?_
        chunkEnd_eq := ?_
        totalDocuments_eq := ?_
        totalHits_eq := ?_
        totalHits_lt := ?_
        skiplist_valid := ?_
        ids_sorted := ?_
        ids_bound := ?_ }
    · rw [hL, blocks_bytes_read_docs cfg hB docs _ (le_refl _), tail_bytes_read_docs]
      exact hl.mem_eq
    · rw [hL, blocks_bytes_read_docs cfg hB docs _ (le_refl _), tail_bytes_read_docs]
      exact hl.chunkEnd_eq
    · rw [hL]; exact hl.totalDocuments_eq
    · rw [hL, hits_before_congr _ _ hF]; exact hl.totalHits_eq
    · rw [hL, hits_before_congr _ _ hF]; exact hl.totalHits_lt
    · obtain ⟨blocks, b1, b2, b3, b4⟩ := hl.skiplist_valid
      refine ⟨blocks, b1, b2, by rw [hL]; exact b3, ?_⟩
      intro i hi
      obtain ⟨c1, c2, c3, c4, c5⟩ := b4 i hi
      have hj : blocks.getD i 0 < docs.length / cfg.BLOCK_SIZE := by
        apply b3
        rw [List.getD_eq_getElem?_getD, List.getElem?_eq_getElem (by omega)]
        exact List.getElem_mem _
      have hjB : blocks.getD i 0 * cfg.BLOCK_SIZE ≤
          docs.length / cfg.BLOCK_SIZE * cfg.BLOCK_SIZE :=
        Nat.mul_le_mul_right _ (le_of_lt hj)
      refine ⟨?_, ?_, c3, ?_, ?_⟩
      · rw [blocks_bytes_read_docs cfg hB docs _ (le_of_lt hj)]; exact c1
      · rw [prev_id_read_docs cfg docs hl.ids_sorted _ hjB]; exact c2
      · rw [hits_before_congr _ _ hF]; exact c4
      · rw [hits_before_congr _ _ hF]; exact c5
    · intro i hi
      rw [hL] at hi
      rw [doc_id_read_docs cfg docs i hi]
      cases i with
      | zero => exact Nat.zero_le _
      | succ i =>
        rw [prev_id_succ, doc_id_read_docs cfg docs i (by omega), read_id]
        exact Nat.le_add_right _ _
    · intro i hi
      rw [hL] at hi
      rw [doc_id_read_docs cfg docs i hi]
      exact lt_of_le_of_lt (read_id_le cfg docs hl.ids_sorted i hi) (hl.ids_bound i hi)
  · intro hp i h1 h2
    rw [hL] at h1 h2
    rw [doc_delta_read_docs cfg docs i h2]
    unfold read_delta
    rw [if_pos ⟨hp, h1⟩]
    exact Nat.mod_lt _ (by norm_num)

end Lucene

namespace Lucene

/-- C7. Seek composition. A term is written by an encoder whose payload buffer was
empty (block codec that reads back a full block, `1 ≤ BLOCK_SIZE ≤ 65536`,
`SKIPLIST_STEP ≥ 1`; the index and the hits written, the ids and the number of recorded
hits within 32 bits, positions within 31 bits), and read by a decoder on the index and
the hits written. For targets `T ≤ T' < 2^32`, on a new iterator `advance(T)` and then
`advance(T')` return, and so does the single `advance(T')` on a new iterator (given fuel
for the loops); both iterators publish the same `curDocument.id`, and either both stand
on the same document `k` of the list, with `freq` the number of its recorded hits, and a
following `materialize_hits` returns on both and writes the same hits, those of the
document `k`; or both are exhausted and publish `DocIDsEND`. -/
theorem advance_composition (cfg : Config) (hok : cfg.codec_ok) (hB : 0 < cfg.BLOCK_SIZE)
    (hB16 : cfg.BLOCK_SIZE ≤ 2 ^ 16) (hstep : 1 ≤ cfg.SKIPLIST_STEP) (e0 e : Encoder)
    (docs : List doc_input) (tctx : term_index_ctx)
    (hw : Encoder.write_term cfg e0 docs = some (e, tctx))
    (hsz : e.indexOut.length < 2 ^ 32) (hpsz : e.positionsOut.length < 2 ^ 32)
    (hhits : hits_before docs docs.length < 2 ^ 32)
    (hids : ∀ i < docs.length, doc_id docs i < 2 ^ 32) (hbuf : e0.payloadsBuf = [])
    (hpos : ∀ d ∈ docs, ∀ h ∈ d.hits, h.pos < 2 ^ 31)
    (t0 target : Nat) (ht : t0 ≤ target) (hT : target < 2 ^ 32) (fuel : Nat)
    (hfuel : ((Decoder.init tctx e.indexOut e.positionsOut).skiplist.length + 1) *
      (2 * docs.length + 2) ≤ fuel) :
    ∃ a1 a2 b,
      (Decoder.init tctx e.indexOut e.positionsOut).advance cfg fuel
        (Decoder.init tctx e.indexOut e.positionsOut).new_iterator t0 = some a1 ∧
      (Decoder.init tctx e.indexOut e.positionsOut).advance cfg fuel a1 target = some a2 ∧
      (Decoder.init tctx e.indexOut e.positionsOut).advance cfg fuel
        (Decoder.init tctx e.indexOut e.positionsOut).new_iterator target = some b ∧
      a2.curDocument_id = b.curDocument_id ∧
      ((∃ k, k < docs.length ∧ a2.freq = doc_freq docs k ∧ b.freq = doc_freq docs k ∧
          (∃ ia, (Decoder.init tctx e.indexOut e.positionsOut).materialize_hits cfg a2 =
            some (ia, doc_hits cfg docs (Decoder.init tctx e.indexOut e.positionsOut) k)) ∧
          (∃ ib, (Decoder.init tctx e.indexOut e.positionsOut).materialize_hits cfg b =
            some (ib, doc_hits cfg docs (Decoder.init tctx e.indexOut e.positionsOut) k))) ∨
       (a2.curDocument_id = DocIDsEND ∧
          exhausted (Decoder.init tctx e.indexOut e.positionsOut) a2 ∧
          exhausted (Decoder.init tctx e.indexOut e.positionsOut) b)) := by
  have hl := write_term_layout cfg hB hB16 hstep e0 e docs tctx hw hsz hhits hids
    e.positionsOut
  have hh := write_term_hits_layout cfg hB hB16 hstep e0 e docs tctx hw hsz hpsz hhits hids
    hbuf hpos
  generalize Decoder.init tctx e.indexOut e.positionsOut = dec at hl hh hfuel ⊢
  obtain ⟨hl1, htail1⟩ := chunk_layout_read_docs cfg hB docs dec hl
  have hS := stored_hits_of_hits _ _ (read_docs_hits cfg docs)
  have hF := read_docs_freq cfg docs
  have hL := read_docs_length cfg docs
  have hh1 := hits_layout_congr cfg docs (read_docs cfg docs) dec hS.symm
    (fun i => (hF i).symm) hL.symm hh
  obtain ⟨a1, a2, b, e1, e2, e3, e4⟩ := advance_twice cfg hok hB hB16 (read_docs cfg docs) dec
    hl1 hh1 htail1 t0 target fuel ht hT (by rw [hL]; exact hfuel)
  refine ⟨a1, a2, b, e1, e2, e3, ?_⟩
  rcases e4 with ⟨k, o1, o2, m1, m2⟩ | ⟨x1, x2⟩
  · have c1 : a2.curDocument_id = doc_id (read_docs cfg docs) k := o1.cur_eq
    have c2 : b.curDocument_id = doc_id (read_docs cfg docs) k := o2.cur_eq
    have f1 : a2.freq = doc_freq (read_docs cfg docs) k := o1.freq_eq
    have f2 : b.freq = doc_freq (read_docs cfg docs) k := o2.freq_eq
    have hk := o1.k_lt
    rw [hL] at hk
    rw [doc_hits_congr cfg _ docs dec hS hF hL k] at m1 m2
    exact ⟨by rw [c1, c2], Or.inl ⟨k, hk, by rw [f1, hF], by rw [f2, hF], m1, m2⟩⟩
  · exact ⟨by rw [x1.2.1, x2.2.1], Or.inr ⟨x1.2.1, x1, x2⟩⟩

set_option maxRecDepth 100000 in
theorem advance_composition_witness :
    ∃ e tctx,
      Encoder.write_term (vbyte_config 2 true) (Encoder.fresh [] []) five_docs = some (e, tctx) ∧
      ∃ a1 a2 b,
        (Decoder.init tctx e.indexOut e.positionsOut).advance (vbyte_config 2 true) 100
          (Decoder.init tctx e.indexOut e.positionsOut).new_iterator 4 = some a1 ∧
        (Decoder.init tctx e.indexOut e.positionsOut).advance (vbyte_config 2 true) 100 a1 8 =
          some a2 ∧
        (Decoder.init tctx e.indexOut e.positionsOut).advance (vbyte_config 2 true) 100
          (Decoder.init tctx e.indexOut e.positionsOut).new_iterator 8 = some b ∧
        a2.curDocument_id = b.curDocument_id ∧
        ((∃ k, k < five_docs.length ∧ a2.freq = doc_freq five_docs k ∧
            b.freq = doc_freq five_docs k ∧
            (∃ ia, (Decoder.init tctx e.indexOut e.positionsOut).materialize_hits
              (vbyte_config 2 true) a2 = some (ia, doc_hits (vbyte_config 2 true) five_docs
                (Decoder.init tctx e.indexOut e.positionsOut) k)) ∧
            (∃ ib, (Decoder.init tctx e.indexOut e.positionsOut).materialize_hits
              (vbyte_config 2 true) b = some (ib, doc_hits (vbyte_config 2 true) five_docs
                (Decoder.init tctx e.indexOut e.positionsOut) k))) ∨
         (a2.curDocument_id = DocIDsEND ∧
            exhausted (Decoder.init tctx e.indexOut e.positionsOut) a2 ∧
            exhausted (Decoder.init tctx e.indexOut e.positionsOut) b)) := by
  cases hw : Encoder.write_term (vbyte_config 2 true) (Encoder.fresh [] []) five_docs with
  | none =>
    have h1 : (Encoder.write_term (vbyte_config 2 true) (Encoder.fresh [] []) five_docs).isSome
        = true := by decide
    rw [hw] at h1
    exact absurd h1 (by decide)
  | some r =>
    obtain ⟨e, tctx⟩ := r
    have h1 : (Encoder.write_term (vbyte_config 2 true) (Encoder.fresh [] []) five_docs).map
        (fun r => r.1.indexOut.length) = some 72 := by decide
    have h2 : (Encoder.write_term (vbyte_config 2 true) (Encoder.fresh [] []) five_docs).map
        (fun r => (Decoder.init r.2 r.1.indexOut r.1.positionsOut).skiplist.length) = some 2 := by
      decide
    have h3 : (Encoder.write_term (vbyte_config 2 true) (Encoder.fresh [] []) five_docs).map
        (fun r => decide (r.1.positionsOut.length < 100)) = some true := by decide
    rw [hw] at h1 h2 h3
    have hlen : e.indexOut.length = 72 := by simpa using h1
    have hsl : (Decoder.init tctx e.indexOut e.positionsOut).skiplist.length = 2 := by
      simpa using h2
    have hpl : e.positionsOut.length < 100 := by simpa using h3
    exact ⟨e, tctx, rfl,
      advance_composition (vbyte_config 2 true) (vbyte_config_codec_ok 2 true) (by decide)
        (by decide) (by decide) (Encoder.fresh [] []) e five_docs tctx hw
        (by rw [hlen]; decide) (lt_trans hpl (by decide)) (by decide) (by decide) rfl
        (by decide) 4 8 (by decide) (by decide) 100 (by rw [hsl]; decide)⟩

end Lucene

/-! ## Original query term instances of a term that follows an unresolved one -/

/-- C11 (the code at the failing input). For the query `(pear AND apple) OR banana` the
optimizer leaves `banana` and the dictionary `[pear, banana]`: `apple` was pruned before
it was resolved. `banana` occurs outside NOT and is the term of the compiled query, but
the table of original query term instances has a null entry at its id 2: the loop that
skips the instances of `apple` moves the pointer twice and so steps over the instance of
`banana`. On document 2 the compiled query matches and captures nothing. -/
theorem oqti_skips_term_after_unresolved_term :
    optimize tiny_source 8 query_pruned_and_or [] =
        some (some (token_node banana 2), [pear, banana]) ∧
      compile false (token_node banana 2) [pear, banana] =
        some (.matchterm_impl 2, [pear, banana]) ∧
      compile true (token_node banana 2) [pear, banana] =
        some (.matchterm_impl 2, [pear, banana]) ∧
      occurs_outside_not banana query_pruned_and_or = true ∧
      (collect_phrases query_pruned_and_or).map token_instances =
        some [{ token := banana, index := 2, rep := 1, flags := 0 },
              { token := apple, index := 1, rep := 1, flags := 0 },
              { token := pear, index := 0, rep := 1, flags := 0 }] ∧
      (oqti_of_query [pear, banana] terms_lt query_pruned_and_or).map (fun tbl => tbl 2) =
        some none ∧
      (oqti_of_query [pear, banana] terms_lt query_pruned_and_or).map
        (fun tbl => ((eval (.matchterm_impl 2)
          ((initial_ctx tiny_source [pear, banana] tbl).reset 2)).1,
          (eval (.matchterm_impl 2)
            ((initial_ctx tiny_source [pear, banana] tbl).reset 2)).2.matchedTermIDs)) =
        some (true, []) := by
  refine ⟨by decide, by decide, by decide, by decide, by decide, by decide, by decide⟩

/-! ## The driver loop after an `Abort` -/

set_option maxRecDepth 100000 in
/-- C12 (the code at the failing input). The query `apple` runs over the three-document
source with a filter that answers `Abort` to every document. The answer to document 1 is
`Abort`, and the driver goes on: document 2 is evaluated and offered to `consider` too,
and the loop only ends when the leader is exhausted. -/
theorem driver_goes_on_after_abort :
    compile false (token_node apple 0) [] = some (.matchterm_impl 1, [apple]) ∧
      compile true (token_node apple 0) [] = some (.matchterm_impl 1, [apple]) ∧
      (driver_loop (.matchterm_impl 1) (fun _ => false) (fun _ _ => .Abort) 8
        (driver_init (initial_ctx tiny_source [apple] (fun _ => none)) [1])).map
        (fun s => (s.considered, s.responses, s.matchedDocuments, s.leaders)) =
        some ([1, 2], [.Abort, .Abort], 2, []) := by
  refine ⟨by decide, by decide, by decide⟩

/-! ## Phrase matching -/

theorem seek_sorted (did : Nat) : ∀ (l : List Posting),
    (l.map (fun p => p.id)).Sorted (· < ·) →
    (((Decoder.mk l).seek did).1 = true ↔ ∃ d ∈ l, d.id = did) ∧
      ∀ d ∈ l, d.id = did → ((Decoder.mk l).seek did).2.hits = d.hits := by
  intro l
  induction l with
  | nil =>
    intro _
    simp [Decoder.seek]
  | cons a l ih =>
    intro hs
    rw [List.map_cons, List.sorted_cons] at hs
    obtain ⟨ha, hl⟩ := hs
    have hgt : ∀ d ∈ l, a.id < d.id := fun d hd => ha d.id (List.mem_map_of_mem _ hd)
    by_cases hlt : a.id < did
    · have e : (Decoder.mk (a :: l)).seek did = (Decoder.mk l).seek did := by
        simp [Decoder.seek, List.dropWhile_cons, hlt]
      rw [e]
      obtain ⟨h1, h2⟩ := ih hl
      constructor
      · rw [h1]
        constructor
        · rintro ⟨d, hd, hid⟩
          exact ⟨d, List.mem_cons_of_mem _ hd, hid⟩
        · rintro ⟨d, hd, hid⟩
          rcases List.mem_cons.1 hd with rfl | hd
          · omega
          · exact ⟨d, hd, hid⟩
      · intro d hd hid
        rcases List.mem_cons.1 hd with rfl | hd
        · omega
        · exact h2 d hd hid
    · have e : (Decoder.mk (a :: l)).seek did = (decide (a.id = did), Decoder.mk (a :: l)) := by
        simp [Decoder.seek, List.dropWhile_cons, hlt]
      rw [e]
      constructor
      · simp only [decide_eq_true_eq]
        constructor
        · intro h
          exact ⟨a, List.mem_cons_self _ _, h⟩
        · rintro ⟨d, hd, hid⟩
          rcases List.mem_cons.1 hd with rfl | hd
          · exact hid
          · have := hgt d hd
            omega
      · intro d hd hid
        rcases List.mem_cons.1 hd with rfl | hd
        · rfl
        · have := hgt d hd
          omega

theorem set_hits_test (t u pos : Nat) : ∀ (hs : List term_hit) (d : DocWordsSpace),
    ((d.set_hits t hs).test u pos = true ↔
      d.test u pos = true ∨ (u = t ∧ pos ≠ 0 ∧ ∃ h ∈ hs, h.pos = pos)) := by
  intro hs
  induction hs with
  | nil => intro d; simp [DocWordsSpace.set_hits]
  | cons h hs ih =>
    intro d
    rw [DocWordsSpace.set_hits, ih, List.exists_mem_cons_iff]
    by_cases hp : h.pos ≠ 0
    · rw [if_pos hp]
      have e : (d.set t h.pos).test u pos = true ↔ (u = t ∧ pos = h.pos) ∨ d.test u pos = true := by
        simp [DocWordsSpace.test, DocWordsSpace.set]
      rw [e]
      constructor
      · rintro ((⟨h1, h2⟩ | h1) | ⟨h1, h2, h3⟩)
        · exact Or.inr ⟨h1, by omega, Or.inl h2.symm⟩
        · exact Or.inl h1
        · exact Or.inr ⟨h1, h2, Or.inr h3⟩
      · rintro (h1 | ⟨h1, h2, h3 | h3⟩)
        · exact Or.inl (Or.inr h1)
        · exact Or.inl (Or.inl ⟨h1, h3.symm⟩)
        · exact Or.inr ⟨h1, h2, h3⟩
    · rw [if_neg hp]
      have hz : h.pos = 0 := by omega
      constructor
      · rintro (h1 | ⟨h1, h2, h3⟩)
        · exact Or.inl h1
        · exact Or.inr ⟨h1, h2, Or.inr h3⟩
      · rintro (h1 | ⟨h1, h2, h3 | h3⟩)
        · exact Or.inl h1
        · omega
        · exact Or.inr ⟨h1, h2, h3⟩

theorem decoder_freq_hits (d : Decoder) : d.freq = d.hits.length := by
  unfold Decoder.freq Decoder.hits
  cases d.remaining <;> rfl

theorem phrase_inv_refl (c : runtime_ctx) : phrase_inv c c :=
  ⟨rfl, rfl, fun _ => rfl, fun _ h => h, fun _ h => h, fun _ h => h, rfl, rfl⟩

theorem phrase_inv_trans (c c1 c2 : runtime_ctx) (h1 : phrase_inv c c1)
    (h2 : phrase_inv c1 c2) : phrase_inv c c2 := by
  refine ⟨h2.curDocID_eq.trans h1.curDocID_eq, h2.curDocSeq_eq.trans h1.curDocSeq_eq, ?_,
    fun u h => h2.hits_ok u (h1.hits_ok u h), ?_, fun u h => h2.positioned_ok u (h1.positioned_ok u h),
    h2.matched_eq.trans h1.matched_eq, h2.captured_eq.trans h1.captured_eq⟩
  · intro u
    have := h2.seek_eq u
    rw [h1.curDocID_eq] at this
    rw [this, h1.seek_eq u]
  · intro u h
    have := h2.filled u (by rw [h1.curDocSeq_eq]; exact h1.filled u h)
    rw [h1.curDocSeq_eq] at this
    exact this

/-- A seek of a term to the current document keeps the invariant and positions the
decoder of the term. -/
theorem seek_term_inv (c : runtime_ctx) (t : Nat) :
    phrase_inv c (seek_term c t c.curDocID).2 ∧
      positioned (seek_term c t c.curDocID).2 t ∧
      (seek_term c t c.curDocID).1 = ((c.decoders t).seek c.curDocID).1 := by
  have hseek : ∀ u, (((seek_term c t c.curDocID).2).decoders u).seek c.curDocID =
      (c.decoders u).seek c.curDocID := by
    intro u
    show (Function.update c.decoders t ((c.decoders t).seek c.curDocID).2 u).seek c.curDocID = _
    by_cases hu : u = t
    · subst hu
      rw [Function.update_same]
      exact seek_idem _ _
    · rw [Function.update_noteq hu]
  refine ⟨⟨rfl, rfl, hseek, ?_, fun _ h => h, ?_, rfl, rfl⟩, ?_, rfl⟩
  · intro u h
    unfold term_hits_ok at h ⊢
    show (if (c.termHits u).docSeq = c.curDocSeq then _ else _)
    have e := hseek u
    simp only [show (seek_term c t c.curDocID).2.curDocID = c.curDocID from rfl,
      show (seek_term c t c.curDocID).2.docWordsSpace = c.docWordsSpace from rfl, e]
    exact h
  · intro u h
    unfold positioned at h ⊢
    show (((seek_term c t c.curDocID).2.decoders u).seek c.curDocID).2 = _
    rw [hseek u]
    show _ = Function.update c.decoders t ((c.decoders t).seek c.curDocID).2 u
    by_cases hu : u = t
    · subst hu
      rw [Function.update_same]
    · rw [Function.update_noteq hu]
      exact h
  · unfold positioned
    show (((seek_term c t c.curDocID).2.decoders t).seek c.curDocID).2 = _
    rw [hseek t]
    show _ = Function.update c.decoders t ((c.decoders t).seek c.curDocID).2 t
    rw [Function.update_same]

/-- Filling the hits buffer of a positioned term keeps the invariant, and the buffer is
filled afterwards. -/
theorem materialize_inv (c : runtime_ctx) (t : Nat) (hpos : positioned c t)
    (hok : term_hits_ok c t) :
    phrase_inv c (materialize_term_hits c t) ∧
      ((materialize_term_hits c t).termHits t).docSeq = c.curDocSeq := by
  unfold materialize_term_hits
  by_cases hst : (c.termHits t).docSeq ≠ c.curDocSeq
  · rw [if_pos hst]
    unfold term_hits_ok at hok
    rw [if_neg hst] at hok
    have hdec : ((c.decoders t).seek c.curDocID).2.hits = (c.decoders t).hits := by
      rw [hpos]
    refine ⟨⟨rfl, rfl, fun _ => rfl, ?_, ?_, fun _ h => h, rfl, rfl⟩, ?_⟩
    · intro u hu
      unfold term_hits_ok at hu ⊢
      by_cases hut : u = t
      · subst hut
        have e1 : ((materialize_term_hits_impl c u).termHits u) =
            { docSeq := c.curDocSeq, freq := (c.decoders u).freq, all := (c.decoders u).hits } := by
          show Function.update c.termHits u _ u = _
          rw [Function.update_same]
          rfl
        rw [e1]
        show (if c.curDocSeq = c.curDocSeq then _ else _)
        rw [if_pos rfl]
        refine ⟨?_, ?_, ?_⟩
        · show (c.decoders u).freq = (((c.decoders u).seek c.curDocID).2.hits).length
          rw [hdec, decoder_freq_hits]
        · show (c.decoders u).hits = ((c.decoders u).seek c.curDocID).2.hits
          rw [hdec]
        · intro pos
          show (c.docWordsSpace.set_hits u (c.decoders u).hits).test u pos =
            decide (pos ≠ 0 ∧ ∃ h ∈ ((c.decoders u).seek c.curDocID).2.hits, h.pos = pos)
          rw [hdec]
          have hs := set_hits_test u u pos (c.decoders u).hits c.docWordsSpace
          rw [hok pos] at hs
          rw [Bool.eq_iff_iff, hs]
          simp
      · have e1 : ((materialize_term_hits_impl c t).termHits u) = c.termHits u := by
          show Function.update c.termHits t _ u = _
          rw [Function.update_noteq hut]
        have e2 : ∀ pos, (materialize_term_hits_impl c t).docWordsSpace.test u pos =
            c.docWordsSpace.test u pos := by
          intro pos
          show (c.docWordsSpace.set_hits t (c.decoders t).hits).test u pos = _
          have hs := set_hits_test t u pos (c.decoders t).hits c.docWordsSpace
          rw [Bool.eq_iff_iff, hs]
          constructor
          · rintro (h | ⟨h, _⟩)
            · exact h
            · exact absurd h hut
          · exact Or.inl
        rw [e1]
        show (if (c.termHits u).docSeq = c.curDocSeq then _ else _)
        simp only [e2]
        exact hu
    · intro u hu
      by_cases hut : u = t
      · subst hut
        exact absurd hu hst
      · show (Function.update c.termHits t _ u).docSeq = _
        rw [Function.update_noteq hut]
        exact hu
    · show (Function.update c.termHits t _ t).docSeq = _
      rw [Function.update_same]
  · rw [if_neg hst]
    exact ⟨phrase_inv_refl c, not_not.1 hst⟩

/-- The first loop of `matchphrase_impl`: it answers true exactly when every term is on
the current document, keeps the invariant, and has then filled the buffer of every term. -/
theorem matchphrase_seek_rest_spec (rest : List Nat) : ∀ (c : runtime_ctx),
    (∀ t ∈ rest, term_hits_ok c t) →
    ((matchphrase_seek_rest rest c).1 = true ↔
        ∀ t ∈ rest, ((c.decoders t).seek c.curDocID).1 = true) ∧
      phrase_inv c (matchphrase_seek_rest rest c).2 ∧
      ((matchphrase_seek_rest rest c).1 = true →
        ∀ t ∈ rest, (((matchphrase_seek_rest rest c).2).termHits t).docSeq = c.curDocSeq) := by
  induction rest with
  | nil =>
    intro c _
    exact ⟨by simp [matchphrase_seek_rest], phrase_inv_refl c, by simp⟩
  | cons t rest ih =>
    intro c hok
    obtain ⟨hinv1, hpos1, hres1⟩ := seek_term_inv c t
    by_cases hs : (seek_term c t c.curDocID).1 = true
    · have e : matchphrase_seek_rest (t :: rest) c =
          matchphrase_seek_rest rest (materialize_term_hits (seek_term c t c.curDocID).2 t) := by
        rw [matchphrase_seek_rest]
        exact if_pos hs
      rw [e]
      have hok1 : term_hits_ok (seek_term c t c.curDocID).2 t :=
        hinv1.hits_ok t (hok t (List.mem_cons_self _ _))
      obtain ⟨hinv2, hfilled⟩ := materialize_inv (seek_term c t c.curDocID).2 t hpos1 hok1
      have hinv12 := phrase_inv_trans c _ _ hinv1 hinv2
      have hok2 : ∀ u ∈ rest, term_hits_ok
          (materialize_term_hits (seek_term c t c.curDocID).2 t) u :=
        fun u hu => hinv12.hits_ok u (hok u (List.mem_cons_of_mem _ hu))
      obtain ⟨h1, h2, h3⟩ := ih _ hok2
      have hall := phrase_inv_trans c _ _ hinv12 h2
      refine ⟨?_, hall, ?_⟩
      · rw [h1]
        constructor
        · intro h u hu
          rcases List.mem_cons.1 hu with rfl | hu
          · rw [← hres1]; exact hs
          · have := h u hu
            rw [hinv12.curDocID_eq, hinv12.seek_eq u] at this
            exact this
        · intro h u hu
          rw [hinv12.curDocID_eq, hinv12.seek_eq u]
          exact h u (List.mem_cons_of_mem _ hu)
      · intro hr u hu
        rcases List.mem_cons.1 hu with rfl | hu
        · have : ((materialize_term_hits (seek_term c u c.curDocID).2 u).termHits u).docSeq =
              (materialize_term_hits (seek_term c u c.curDocID).2 u).curDocSeq := by
            rw [hfilled, hinv2.curDocSeq_eq]
          have := h2.filled u this
          rw [this, hinv12.curDocSeq_eq]
        · have := h3 hr u hu
          rw [this, hinv12.curDocSeq_eq]
    · have e : matchphrase_seek_rest (t :: rest) c = (false, (seek_term c t c.curDocID).2) := by
        rw [matchphrase_seek_rest]
        exact if_neg hs
      rw [e]
      refine ⟨?_, hinv1, by simp⟩
      constructor
      · intro h
        exact absurd h (by simp)
      · intro h
        exact absurd (by rw [hres1]; exact h t (List.mem_cons_self _ _)) hs

theorem matchphrase_check_iff (dws : DocWordsSpace) (pos : Nat) : ∀ (rest : List Nat) (k : Nat),
    (matchphrase_check dws pos k rest = true ↔
      ∀ j < rest.length, dws.test (rest.getD j 0) (pos + (k + j)) = true) := by
  intro rest
  induction rest with
  | nil => intro k; simp [matchphrase_check]
  | cons t rest ih =>
    intro k
    rw [matchphrase_check]
    by_cases ht : dws.test t (pos + k) = true
    · rw [if_pos ht, ih (k + 1)]
      constructor
      · intro h j hj
        cases j with
        | zero => simpa using ht
        | succ j =>
          have := h j (by simpa using hj)
          simp only [List.getD_cons_succ]
          rw [show k + (j + 1) = k + 1 + j by omega]
          exact this
      · intro h j hj
        have := h (j + 1) (by simpa using hj)
        simp only [List.getD_cons_succ] at this
        rw [show k + (j + 1) = k + 1 + j by omega] at this
        exact this
    · rw [if_neg ht]
      simp only [Bool.false_eq_true, false_iff, not_forall]
      exact ⟨0, by simp, by simpa using ht⟩

theorem matchphrase_scan_iff (dws : DocWordsSpace) (rest : List Nat) : ∀ (hits : List term_hit),
    (matchphrase_scan dws rest hits = true ↔
      ∃ h ∈ hits, h.pos ≠ 0 ∧ matchphrase_check dws h.pos 1 rest = true) := by
  intro hits
  induction hits with
  | nil => simp [matchphrase_scan]
  | cons h hits ih =>
    rw [matchphrase_scan, List.exists_mem_cons_iff]
    by_cases hp : h.pos ≠ 0
    · rw [if_pos hp]
      by_cases hc : matchphrase_check dws h.pos 1 rest = true
      · rw [if_pos hc]
        simp only [true_iff]
        exact Or.inl ⟨hp, hc⟩
      · rw [if_neg hc, ih]
        constructor
        · exact Or.inr
        · rintro (⟨_, h2⟩ | h2)
          · exact absurd h2 hc
          · exact h2
    · rw [if_neg hp, ih]
      constructor
      · exact Or.inr
      · rintro (⟨h1, _⟩ | h2)
        · exact absurd h1 hp
        · exact h2

theorem matchphrase_cons (p : exec_phrase) (c : runtime_ctx) (first : Nat) (rest : List Nat)
    (hp : p.termIDs = first :: rest) :
    matchphrase p c =
      if (seek_term c first c.curDocID).1 = true then
        if (matchphrase_seek_rest rest (seek_term c first c.curDocID).2).1 = true then
          if matchphrase_scan
              (materialize_term_hits
                (matchphrase_seek_rest rest (seek_term c first c.curDocID).2).2 first).docWordsSpace
              rest
              (((materialize_term_hits
                (matchphrase_seek_rest rest (seek_term c first c.curDocID).2).2
                  first).termHits first).all.take
                ((materialize_term_hits
                  (matchphrase_seek_rest rest (seek_term c first c.curDocID).2).2
                    first).termHits first).freq) = true then
            (true, (first :: rest).foldl capture_matched_term
              (materialize_term_hits
                (matchphrase_seek_rest rest (seek_term c first c.curDocID).2).2 first))
          else (false, materialize_term_hits
            (matchphrase_seek_rest rest (seek_term c first c.curDocID).2).2 first)
        else (false, (matchphrase_seek_rest rest (seek_term c first c.curDocID).2).2)
      else (false, (seek_term c first c.curDocID).2) := by
  unfold matchphrase
  rw [hp]

theorem term_hits_filled (c : runtime_ctx) (t : Nat) (hok : term_hits_ok c t)
    (hf : (c.termHits t).docSeq = c.curDocSeq) :
    (c.termHits t).all.take (c.termHits t).freq = ((c.decoders t).seek c.curDocID).2.hits ∧
      ∀ pos, (c.docWordsSpace.test t pos = true ↔
        pos ≠ 0 ∧ ∃ h ∈ ((c.decoders t).seek c.curDocID).2.hits, h.pos = pos) := by
  unfold term_hits_ok at hok
  rw [if_pos hf] at hok
  obtain ⟨h1, h2, h3⟩ := hok
  refine ⟨by rw [h1, h2, List.take_length], fun pos => ?_⟩
  rw [h3 pos]
  simp

/-- The result of `matchphrase_impl` in terms of the decoders sought to the current
document. -/
theorem matchphrase_seek_iff (p : exec_phrase) (c : runtime_ctx) (first : Nat)
    (rest : List Nat) (hp : p.termIDs = first :: rest)
    (hok : ∀ t ∈ p.termIDs, term_hits_ok c t) :
    ((matchphrase p c).1 = true ↔
      (∀ t ∈ p.termIDs, ((c.decoders t).seek c.curDocID).1 = true) ∧
      ∃ h ∈ ((c.decoders first).seek c.curDocID).2.hits, h.pos ≠ 0 ∧
        ∀ j < rest.length,
          ∃ g ∈ ((c.decoders (rest.getD j 0)).seek c.curDocID).2.hits,
            g.pos = h.pos + (j + 1)) := by
  rw [hp] at hok
  rw [matchphrase_cons p c first rest hp, hp]
  obtain ⟨hinv1, hpos1, hres1⟩ := seek_term_inv c first
  by_cases h1 : (seek_term c first c.curDocID).1 = true
  · rw [if_pos h1]
    have hok1 : ∀ t ∈ rest, term_hits_ok (seek_term c first c.curDocID).2 t :=
      fun t ht => hinv1.hits_ok t (hok t (List.mem_cons_of_mem _ ht))
    obtain ⟨g1, g2, g3⟩ := matchphrase_seek_rest_spec rest _ hok1
    by_cases h2 : (matchphrase_seek_rest rest (seek_term c first c.curDocID).2).1 = true
    · rw [if_pos h2]
      have hpos2 := g2.positioned_ok first hpos1
      have hok2 := g2.hits_ok first (hinv1.hits_ok first (hok first (List.mem_cons_self _ _)))
      obtain ⟨m1, m2⟩ := materialize_inv _ first hpos2 hok2
      have hI := phrase_inv_trans c _ _ (phrase_inv_trans c _ _ hinv1 g2) m1
      generalize materialize_term_hits
        (matchphrase_seek_rest rest (seek_term c first c.curDocID).2).2 first = c3 at m1 m2 hI ⊢
      have hseq3 : c3.curDocSeq = (seek_term c first c.curDocID).2.curDocSeq := by
        rw [hI.curDocSeq_eq]; rfl
      have hfill : ∀ t ∈ first :: rest, (c3.termHits t).docSeq = c3.curDocSeq := by
        intro t ht
        rcases List.mem_cons.1 ht with rfl | ht
        · rw [m2, m1.curDocSeq_eq]
        · have := g3 h2 t ht
          have := m1.filled t (by rw [this, g2.curDocSeq_eq])
          rw [this, m1.curDocSeq_eq]
      have hfacts : ∀ t ∈ first :: rest,
          (c3.termHits t).all.take (c3.termHits t).freq =
            ((c.decoders t).seek c.curDocID).2.hits ∧
          ∀ pos, (c3.docWordsSpace.test t pos = true ↔
            pos ≠ 0 ∧ ∃ h ∈ ((c.decoders t).seek c.curDocID).2.hits, h.pos = pos) := by
        intro t ht
        have := term_hits_filled c3 t (hI.hits_ok t (hok t ht)) (hfill t ht)
        rw [hI.curDocID_eq, hI.seek_eq t] at this
        exact this
      have hall : ∀ t ∈ first :: rest, ((c.decoders t).seek c.curDocID).1 = true := by
        intro t ht
        rcases List.mem_cons.1 ht with rfl | ht
        · rw [← hres1]; exact h1
        · have := g1.1 h2 t ht
          rw [hinv1.curDocID_eq, hinv1.seek_eq t] at this
          exact this
      have hscan : (matchphrase_scan c3.docWordsSpace rest
            ((c3.termHits first).all.take (c3.termHits first).freq) = true ↔
          ∃ h ∈ ((c.decoders first).seek c.curDocID).2.hits, h.pos ≠ 0 ∧
            ∀ j < rest.length,
              ∃ g ∈ ((c.decoders (rest.getD j 0)).seek c.curDocID).2.hits,
                g.pos = h.pos + (j + 1)) := by
        rw [(hfacts first (List.mem_cons_self _ _)).1, matchphrase_scan_iff]
        constructor
        · rintro ⟨h, hh, hp0, hc⟩
          refine ⟨h, hh, hp0, fun j hj => ?_⟩
          have ht := (matchphrase_check_iff c3.docWordsSpace h.pos rest 1).1 hc j hj
          have hmem : rest.getD j 0 ∈ first :: rest := by
            rw [List.getD_eq_getElem?_getD, List.getElem?_eq_getElem hj]
            exact List.mem_cons_of_mem _ (List.getElem_mem _)
          obtain ⟨_, g, hg, hgp⟩ := ((hfacts _ hmem).2 _).1 ht
          exact ⟨g, hg, by omega⟩
        · rintro ⟨h, hh, hp0, hc⟩
          refine ⟨h, hh, hp0, (matchphrase_check_iff c3.docWordsSpace h.pos rest 1).2 ?_⟩
          intro j hj
          have hmem : rest.getD j 0 ∈ first :: rest := by
            rw [List.getD_eq_getElem?_getD, List.getElem?_eq_getElem hj]
            exact List.mem_cons_of_mem _ (List.getElem_mem _)
          obtain ⟨g, hg, hgp⟩ := hc j hj
          exact ((hfacts _ hmem).2 _).2 ⟨by omega, g, hg, by omega⟩
      by_cases h3 : matchphrase_scan c3.docWordsSpace rest
          ((c3.termHits first).all.take (c3.termHits first).freq) = true
      · rw [if_pos h3]
        exact ⟨fun _ => ⟨hall, hscan.1 h3⟩, fun _ => rfl⟩
      · rw [if_neg h3]
        constructor
        · intro h
          exact absurd h (by simp)
        · rintro ⟨_, h⟩
          exact absurd (hscan.2 h) h3
    · rw [if_neg h2]
      constructor
      · intro h
        exact absurd h (by simp)
      · rintro ⟨h, _⟩
        refine absurd (g1.2 ?_) h2
        intro t ht
        rw [hinv1.curDocID_eq, hinv1.seek_eq t]
        exact h t (List.mem_cons_of_mem _ ht)
  · rw [if_neg h1]
    constructor
    · intro h
      exact absurd h (by simp)
    · rintro ⟨h, _⟩
      exact absurd (by rw [hres1]; exact h first (List.mem_cons_self _ _)) h1

/-- C13 (amended). Phrase matching. For a phrase node with the term ids
`first :: rest`, a runtime context whose decoders hold posting lists with strictly
increasing ids and whose hits buffers agree with the doc-words space (as they do after
`reset`): `matchphrase_impl` returns true iff every phrase term's posting list contains
the current document and the first term has a hit on it at a position `pos` other than 0
such that the `k`-th later term has a hit at `pos + k` for every `k = 1 .. n - 1`. -/
theorem phrase_match_iff (p : exec_phrase) (c : runtime_ctx) (first : Nat) (rest : List Nat)
    (hp : p.termIDs = first :: rest)
    (hsorted : ∀ t ∈ p.termIDs, ((c.decoders t).remaining.map (fun d => d.id)).Sorted (· < ·))
    (hok : ∀ t ∈ p.termIDs, term_hits_ok c t) :
    ((matchphrase p c).1 = true ↔
      (∀ t ∈ p.termIDs, ∃ d ∈ (c.decoders t).remaining, d.id = c.curDocID) ∧
      ∃ d ∈ (c.decoders first).remaining, d.id = c.curDocID ∧
        ∃ h ∈ d.hits, h.pos ≠ 0 ∧
          ∀ k < rest.length,
            ∃ e ∈ (c.decoders (rest.getD k 0)).remaining, e.id = c.curDocID ∧
              ∃ g ∈ e.hits, g.pos = h.pos + (k + 1)) := by
  rw [matchphrase_seek_iff p c first rest hp hok]
  have hs : ∀ t ∈ p.termIDs,
      (((c.decoders t).seek c.curDocID).1 = true ↔
        ∃ d ∈ (c.decoders t).remaining, d.id = c.curDocID) ∧
      ∀ d ∈ (c.decoders t).remaining, d.id = c.curDocID →
        ((c.decoders t).seek c.curDocID).2.hits = d.hits :=
    fun t ht => seek_sorted c.curDocID (c.decoders t).remaining (hsorted t ht)
  have hfirst : first ∈ p.termIDs := by rw [hp]; exact List.mem_cons_self _ _
  have hrest : ∀ k < rest.length, rest.getD k 0 ∈ p.termIDs := by
    intro k hk
    rw [hp, List.getD_eq_getElem?_getD, List.getElem?_eq_getElem hk]
    exact List.mem_cons_of_mem _ (List.getElem_mem _)
  constructor
  · rintro ⟨hall, h, hh, hp0, hk⟩
    have hall2 : ∀ t ∈ p.termIDs, ∃ d ∈ (c.decoders t).remaining, d.id = c.curDocID :=
      fun t ht => ((hs t ht).1).1 (hall t ht)
    refine ⟨hall2, ?_⟩
    obtain ⟨d, hd, hid⟩ := hall2 first hfirst
    refine ⟨d, hd, hid, h, by rw [← (hs first hfirst).2 d hd hid]; exact hh, hp0, ?_⟩
    intro k hlt
    obtain ⟨e, he, hie⟩ := hall2 _ (hrest k hlt)
    obtain ⟨g, hg, hgp⟩ := hk k hlt
    exact ⟨e, he, hie, g, by rw [← (hs _ (hrest k hlt)).2 e he hie]; exact hg, hgp⟩
  · rintro ⟨hall, d, hd, hid, h, hh, hp0, hk⟩
    refine ⟨fun t ht => ((hs t ht).1).2 (hall t ht), h,
      by rw [(hs first hfirst).2 d hd hid]; exact hh, hp0, ?_⟩
    intro k hlt
    obtain ⟨e, he, hie, g, hg, hgp⟩ := hk k hlt
    exact ⟨g, by rw [(hs _ (hrest k hlt)).2 e he hie]; exact hg, hgp⟩

/-- The phrase `"apple phone"` over the three-document source, where document 1 holds
`apple` at position 1 and `phone` at position 2, matches document 1. -/
theorem phrase_match_iff_witness :
    (matchphrase { termIDs := [1, 2], rep := 1, index := 0, flags := 0 }
      ((initial_ctx tiny_source [apple, phone] (fun _ => none)).reset 1)).1 = true :=
  (phrase_match_iff { termIDs := [1, 2], rep := 1, index := 0, flags := 0 }
    ((initial_ctx tiny_source [apple, phone] (fun _ => none)).reset 1) 1 [2] rfl
    (by decide)
    (by
      intro t _
      unfold term_hits_ok
      rw [if_neg (by
        show ¬ (((initial_ctx tiny_source [apple, phone] (fun _ => none)).reset 1).termHits t).docSeq
          = 1
        simp [runtime_ctx.reset, initial_ctx, UINT16_MAX])]
      intro pos
      rfl)).2 ⟨by decide, by decide⟩

/-- C13 (counterexample). Document 1 holds `apple` at position 0 and `phone` at
position 1: both posting lists contain the document and `phone` has a hit at `0 + 1`,
but `matchphrase_impl` returns false for the phrase `"apple phone"`, because a hit of the
first term at position 0 is passed over. -/
theorem phrase_at_position_zero_does_not_match :
    (∀ t ∈ apple_phone.termIDs,
        ∃ d ∈ (((initial_ctx zero_source [apple, phone] (fun _ => none)).reset 1).decoders
          t).remaining, d.id = 1) ∧
      (∃ d ∈ (((initial_ctx zero_source [apple, phone] (fun _ => none)).reset 1).decoders
          1).remaining, d.id = 1 ∧
        ∃ h ∈ d.hits, h.pos = 0 ∧
          ∃ e ∈ (((initial_ctx zero_source [apple, phone] (fun _ => none)).reset 1).decoders
            2).remaining, e.id = 1 ∧ ∃ g ∈ e.hits, g.pos = h.pos + 1) ∧
      (matchphrase apple_phone
        ((initial_ctx zero_source [apple, phone] (fun _ => none)).reset 1)).1 = false := by
  refine ⟨by decide, by decide, by decide⟩

/-! ## Phrase captures -/

theorem materialize_frame (c : runtime_ctx) (t : Nat) :
    (materialize_term_hits c t).matchedTerms = c.matchedTerms ∧
      (materialize_term_hits c t).curDocQueryTokensCaptured = c.curDocQueryTokensCaptured := by
  unfold materialize_term_hits
  split
  · exact ⟨rfl, rfl⟩
  · exact ⟨rfl, rfl⟩

theorem matchphrase_seek_rest_frame (l : List Nat) : ∀ (c : runtime_ctx),
    (matchphrase_seek_rest l c).2.matchedTerms = c.matchedTerms ∧
      (matchphrase_seek_rest l c).2.curDocQueryTokensCaptured = c.curDocQueryTokensCaptured := by
  induction l with
  | nil => intro c; exact ⟨rfl, rfl⟩
  | cons u rest ih =>
    intro c
    rw [matchphrase_seek_rest]
    by_cases hs : (seek_term c u c.curDocID).1 = true
    · simp only [hs, if_true]
      obtain ⟨h1, h2⟩ := ih (materialize_term_hits (seek_term c u c.curDocID).2 u)
      obtain ⟨m1, m2⟩ := materialize_frame (seek_term c u c.curDocID).2 u
      exact ⟨h1.trans m1, h2.trans m2⟩
    · simp only [hs]
      exact ⟨rfl, rfl⟩

/-- C14. Phrase captures only on match. When `matchphrase_impl` returns false, the
entries of `matchedDocument.matchedTerms` (and so `matchedTermsCnt`) and the captured
flags are those it was called with; when it returns true, its result is
`capture_matched_term` applied to every term of the phrase, in order, from a context
whose matched terms and captured flags are those it was called with. -/
theorem phrase_captures_only_on_match (p : exec_phrase) (c : runtime_ctx) :
    ((matchphrase p c).1 = false →
      (matchphrase p c).2.matchedTerms = c.matchedTerms ∧
      (matchphrase p c).2.matchedTermsCnt = c.matchedTermsCnt ∧
      (matchphrase p c).2.curDocQueryTokensCaptured = c.curDocQueryTokensCaptured) ∧
    ((matchphrase p c).1 = true →
      ∃ c3 : runtime_ctx, c3.matchedTerms = c.matchedTerms ∧
        c3.curDocQueryTokensCaptured = c.curDocQueryTokensCaptured ∧
        (matchphrase p c).2 = p.termIDs.foldl capture_matched_term c3) := by
  cases hp : p.termIDs with
  | nil =>
    have e : matchphrase p c = (false, c) := by
      unfold matchphrase
      rw [hp]
    rw [e]
    exact ⟨fun _ => ⟨rfl, rfl, rfl⟩, fun h => absurd h (by simp)⟩
  | cons first rest =>
    rw [matchphrase_cons p c first rest hp]
    obtain ⟨r1, r2⟩ := matchphrase_seek_rest_frame rest (seek_term c first c.curDocID).2
    obtain ⟨m1, m2⟩ := materialize_frame
      (matchphrase_seek_rest rest (seek_term c first c.curDocID).2).2 first
    have s1 : (seek_term c first c.curDocID).2.matchedTerms = c.matchedTerms := rfl
    have s2 : (seek_term c first c.curDocID).2.curDocQueryTokensCaptured =
        c.curDocQueryTokensCaptured := rfl
    by_cases h1 : (seek_term c first c.curDocID).1 = true
    · rw [if_pos h1]
      by_cases h2 : (matchphrase_seek_rest rest (seek_term c first c.curDocID).2).1 = true
      · rw [if_pos h2]
        generalize materialize_term_hits
          (matchphrase_seek_rest rest (seek_term c first c.curDocID).2).2 first = c3 at m1 m2 ⊢
        by_cases h3 : matchphrase_scan c3.docWordsSpace rest
            ((c3.termHits first).all.take (c3.termHits first).freq) = true
        · rw [if_pos h3]
          exact ⟨fun h => absurd h (by simp),
            fun _ => ⟨c3, m1.trans (r1.trans s1), m2.trans (r2.trans s2), rfl⟩⟩
        · rw [if_neg h3]
          refine ⟨fun _ => ⟨m1.trans (r1.trans s1), ?_, m2.trans (r2.trans s2)⟩,
            fun h => absurd h (by simp)⟩
          show c3.matchedTerms.length = c.matchedTerms.length
          rw [m1, r1, s1]
      · rw [if_neg h2]
        refine ⟨fun _ => ⟨r1.trans s1, ?_, r2.trans s2⟩, fun h => absurd h (by simp)⟩
        show (matchphrase_seek_rest rest (seek_term c first c.curDocID).2).2.matchedTerms.length
          = c.matchedTerms.length
        rw [r1, s1]
    · rw [if_neg h1]
      exact ⟨fun _ => ⟨rfl, rfl, rfl⟩, fun h => absurd h (by simp)⟩

/-- The phrase `"apple banana"` on the three-document source: on document 1 it does not
match and nothing is captured; on document 2 it matches and the result is the capture of
both terms. -/
theorem phrase_captures_only_on_match_witness :
    ((matchphrase { termIDs := [1, 2], rep := 1, index := 0, flags := 0 }
        (capture_fixture.reset 1)).1 = false ∧
      (matchphrase { termIDs := [1, 2], rep := 1, index := 0, flags := 0 }
        (capture_fixture.reset 1)).2.matchedTerms = (capture_fixture.reset 1).matchedTerms) ∧
    ((matchphrase { termIDs := [1, 2], rep := 1, index := 0, flags := 0 }
        (capture_fixture.reset 2)).1 = true ∧
      ∃ c3 : runtime_ctx, c3.matchedTerms = (capture_fixture.reset 2).matchedTerms ∧
        c3.curDocQueryTokensCaptured = (capture_fixture.reset 2).curDocQueryTokensCaptured ∧
        (matchphrase { termIDs := [1, 2], rep := 1, index := 0, flags := 0 }
          (capture_fixture.reset 2)).2 = [1, 2].foldl capture_matched_term c3) :=
  ⟨⟨by decide,
    ((phrase_captures_only_on_match { termIDs := [1, 2], rep := 1, index := 0, flags := 0 }
      (capture_fixture.reset 1)).1 (by decide)).1⟩,
   ⟨by decide,
    (phrase_captures_only_on_match { termIDs := [1, 2], rep := 1, index := 0, flags := 0 }
      (capture_fixture.reset 2)).2 (by decide)⟩⟩

namespace Lucene

/-! ### Corrupt blocks -/

/-- C15 (amended). The decoder makes no check on a block. Whatever the bytes of the chunk
are, `ints_decode` returns a cursor behind the tag byte, and `refill_hits` and
`refill_documents` return with a block buffered: `bufferedHits` (`bufferedDocs`) is the
smaller of `BLOCK_SIZE` and the hits (documents) left, the index is 0, and `hdp` and
`payloadsEnd` are `payloadsIt` plus the payload chunk length, which for a full block is
the varbyte read behind the two integer blocks; neither the end of the data nor the sum
of the decoded payload lengths is consulted. -/
theorem refill_is_unchecked (cfg : Config) (dec : Decoder) (it : PostingsListIterator) :
    (∀ (mem : List Nat) (p : Nat) (values : Nat → Nat), p < (ints_decode cfg mem p values).1) ∧
    ((dec.refill_hits cfg it).bufferedHits = min it.hitsLeft cfg.BLOCK_SIZE ∧
      (dec.refill_hits cfg it).hitsLeft = it.hitsLeft - min it.hitsLeft cfg.BLOCK_SIZE ∧
      (dec.refill_hits cfg it).hitsIndex = 0 ∧
      (dec.refill_hits cfg it).hdp = (dec.refill_hits cfg it).payloadsEnd ∧
      (dec.refill_hits cfg it).payloadsIt ≤ (dec.refill_hits cfg it).payloadsEnd ∧
      (cfg.BLOCK_SIZE ≤ it.hitsLeft →
        (dec.refill_hits cfg it).payloadsEnd = (dec.refill_hits cfg it).payloadsIt +
          (varbyte_get32 (dec.hitsDataPtr.drop
            (ints_decode cfg dec.hitsDataPtr
              (ints_decode cfg dec.hitsDataPtr it.hdp it.hitsPositionDeltas).1
              it.hitsPayloadLengths).1)).1 % 2 ^ 32)) ∧
    ((dec.refill_documents cfg it).bufferedDocs = min it.docsLeft cfg.BLOCK_SIZE ∧
      (dec.refill_documents cfg it).docsLeft = it.docsLeft - min it.docsLeft cfg.BLOCK_SIZE ∧
      (dec.refill_documents cfg it).docsIndex = 0) := by
  refine ⟨?_, ?_, ?_⟩
  · intro mem p values
    unfold ints_decode
    simp only
    split <;> simp only <;> omega
  · unfold Decoder.refill_hits
    by_cases h : it.hitsLeft ≥ cfg.BLOCK_SIZE
    · rw [if_pos h]
      refine ⟨?_, ?_, rfl, rfl, ?_, fun _ => rfl⟩
      · show cfg.BLOCK_SIZE = _
        omega
      · show it.hitsLeft - cfg.BLOCK_SIZE = _
        rw [Nat.min_eq_right h]
      · exact Nat.le_add_right _ _
    · rw [if_neg h]
      refine ⟨?_, ?_, rfl, rfl, ?_, fun h1 => absurd h1 h⟩
      · show it.hitsLeft = _
        omega
      · show 0 = _
        omega
      · exact Nat.le_add_right _ _
  · unfold Decoder.refill_documents
    by_cases h : it.docsLeft ≥ cfg.BLOCK_SIZE
    · simp only [if_pos h]
      refine ⟨?_, ?_, rfl⟩
      · show cfg.BLOCK_SIZE = _
        omega
      · show it.docsLeft - cfg.BLOCK_SIZE = _
        rw [Nat.min_eq_right h]
    · simp only [if_neg h]
      refine ⟨?_, ?_, rfl⟩
      · show it.docsLeft = _
        omega
      · show 0 = _
        omega

set_option maxRecDepth 100000 in
/-- C15 (counterexample). With `BLOCK_SIZE = 2` the six bytes `0, 1, 0, 0, 200, 1` are a
full hits block of two hits with delta 1 and payload length 0 whose payload chunk length
is 200: larger than the bytes that remain (none) and different from the sum of the
decoded payload lengths (0). `refill_hits` returns with two hits buffered and the cursor
`hdp` at 206, past the end of the six bytes. -/
theorem refill_hits_runs_past_corrupt_block :
    (corrupt_hits_decoder.refill_hits (vbyte_config 2 true)
        corrupt_hits_decoder.new_iterator).hdp = 206 ∧
      (corrupt_hits_decoder.refill_hits (vbyte_config 2 true)
        corrupt_hits_decoder.new_iterator).bufferedHits = 2 ∧
      payload_lengths_sum
        (corrupt_hits_decoder.refill_hits (vbyte_config 2 true)
          corrupt_hits_decoder.new_iterator).hitsPayloadLengths 0 2 = 0 ∧
      corrupt_hits_decoder.hitsDataPtr.length = 6 := by
  refine ⟨by decide, by decide, by decide, by decide⟩

end Lucene

namespace Lucene

/-! ### Empty and constant blocks -/

/-- C16 (amended). `ints_encode` with `n == 0`: `all_equal` answers true after reading
`values[0]`, and the bytes written are the tag byte 0 followed by the varbyte of
`values[0]`; they depend on the first slot of the array and on nothing else. -/
theorem ints_encode_empty (cfg : Config) (values : Nat → Nat) :
    all_equal values 0 = true ∧
      ints_encode cfg values 0 = 0 :: encode_varbyte32 (values 0) ∧
      ∀ w : Nat → Nat, w 0 = values 0 → ints_encode cfg w 0 = ints_encode cfg values 0 := by
  have h : ∀ w : Nat → Nat, ints_encode cfg w 0 = 0 :: encode_varbyte32 (w 0) := by
    intro w
    unfold ints_encode
    rw [if_pos (show all_equal w 0 = true from rfl)]
  refine ⟨rfl, h values, fun w hw => ?_⟩
  rw [h w, h values, hw]

/-- C16 (counterexample). With `n == 0` the bytes `ints_encode` writes for an array whose
first slot holds 0 and for one whose first slot holds 5 differ. -/
theorem ints_encode_empty_reads_first_slot :
    ints_encode (vbyte_config 128 true) (fun _ => 0) 0 = [0, 0] ∧
      ints_encode (vbyte_config 128 true) (fun _ => 5) 0 = [0, 5] ∧
      ints_encode (vbyte_config 128 true) (fun _ => 0) 0 ≠
        ints_encode (vbyte_config 128 true) (fun _ => 5) 0 := by
  refine ⟨by decide, by decide, by decide⟩

/-- C17. Constant blocks (the varbyte-stream variants of the codec, which tag a block
that is not constant with 1). For a 32-bit value `v` and `n ≥ 1` slots that all hold `v`,
`ints_encode` writes the tag byte 0 followed by the varbyte of `v`; `ints_decode` at
those bytes, wherever they lie in the buffer, fills the `BLOCK_SIZE` slots of its output
with `v` and returns the cursor just past the varbyte; and whenever the first byte
`ints_encode` writes is 0, all the `n` values it was given are equal. -/
theorem constant_blocks (cfg : Config) (v n : Nat) (hv : v < 2 ^ 32) (hn : 1 ≤ n)
    (values : Nat → Nat) (hc : ∀ i < n, values i = v) :
    ints_encode cfg values n = 0 :: encode_varbyte32 v ∧
      (∀ (pre rest : List Nat) (out : Nat → Nat),
        ints_decode cfg (pre ++ ints_encode cfg values n ++ rest) pre.length out =
          (pre.length + 1 + (encode_varbyte32 v).length,
            fun i => if i < cfg.BLOCK_SIZE then v else out i)) ∧
      (∀ (w : Nat → Nat) (m : Nat), (ints_encode cfg w m).head? = some 0 →
        ∀ i < m, w i = w 0) := by
  have h0 : values 0 = v := hc 0 (by omega)
  have hall : all_equal values n = true := by
    unfold all_equal
    rw [List.all_eq_true]
    intro i hi
    have := hc i (List.mem_range.1 hi)
    exact decide_eq_true (Or.inr (by rw [this, h0]))
  have henc : ints_encode cfg values n = 0 :: encode_varbyte32 v := by
    unfold ints_encode
    rw [if_pos hall, h0]
  refine ⟨henc, ?_, ?_⟩
  · intro pre rest out
    rw [henc]
    have hmem : pre ++ 0 :: encode_varbyte32 v ++ rest =
        pre ++ 0 :: (encode_varbyte32 v ++ rest) := by simp
    rw [hmem]
    unfold ints_decode
    simp only [getD_append_cons, if_true, drop_append_cons, varbyte_round_trip]
    rw [Nat.mod_mod, Nat.mod_eq_of_lt hv]
  · intro w m hw i hi
    by_cases ha : all_equal w m = true
    · exact all_equal_spec w m ha i hi
    · unfold ints_encode at hw
      rw [if_neg ha] at hw
      simp at hw

theorem constant_blocks_witness :
    ints_encode (vbyte_config 4 true) (fun _ => 7) 3 = 0 :: encode_varbyte32 7 ∧
      (ints_decode (vbyte_config 4 true)
        ([9, 9] ++ ints_encode (vbyte_config 4 true) (fun _ => 7) 3 ++ [8]) 2 (fun _ => 0)).1 =
        2 + 1 + (encode_varbyte32 7).length :=
  ⟨(constant_blocks (vbyte_config 4 true) 7 3 (by decide) (by decide) (fun _ => 7)
      (fun _ _ => rfl)).1,
    congrArg Prod.fst ((constant_blocks (vbyte_config 4 true) 7 3 (by decide) (by decide)
      (fun _ => 7) (fun _ _ => rfl)).2.1 [9, 9] [8] (fun _ => 0))⟩

end Lucene

namespace Lucene

/-! ### Trailing block round trips -/

/-- C18 (amended). Trailing document block round trip. For `m < BLOCK_SIZE` pairs
`(delta, freq)` of 32-bit values, the deltas below `2^31` when the packed freq-1 option is
enabled: `refill_documents` with `docsLeft = m`, at the bytes the loop of `end_term`
writes for the pairs (wherever they lie in the index), leaves `docDeltas[i] = delta_i`
and `docFreqs[i] = freq_i` for all `i < m`, `bufferedDocs = m`, `docsLeft = 0`, and the
cursor just past the bytes written. -/
theorem tail_documents_round_trip (cfg : Config) (pairs : List (Nat × Nat))
    (hm : pairs.length < cfg.BLOCK_SIZE)
    (hb : ∀ x ∈ pairs, x.1 < 2 ^ 32 ∧ x.2 < 2 ^ 32 ∧
      (cfg.ENCODE_FREQ1_DOCDELTA = true → x.1 < 2 ^ 31))
    (dec : Decoder) (it : PostingsListIterator) (a rest : List Nat)
    (hmem : dec.indexPtr = a ++ (tail_documents cfg.ENCODE_FREQ1_DOCDELTA
      (fun i => (pairs.getD i (0, 0)).1) (fun i => (pairs.getD i (0, 0)).2) pairs.length 0 ++
        rest))
    (hp : it.p = a.length) (hleft : it.docsLeft = pairs.length) :
    (∀ i < pairs.length,
        (dec.refill_documents cfg it).docDeltas i = (pairs.getD i (0, 0)).1 ∧
        (dec.refill_documents cfg it).docFreqs i = (pairs.getD i (0, 0)).2) ∧
      (dec.refill_documents cfg it).bufferedDocs = pairs.length ∧
      (dec.refill_documents cfg it).docsLeft = 0 ∧
      (dec.refill_documents cfg it).p = a.length + (tail_documents cfg.ENCODE_FREQ1_DOCDELTA
        (fun i => (pairs.getD i (0, 0)).1) (fun i => (pairs.getD i (0, 0)).2)
        pairs.length 0).length := by
  have hbk : ∀ k, 0 ≤ k → k < 0 + pairs.length →
      (pairs.getD k (0, 0)).1 < 2 ^ 32 ∧ (pairs.getD k (0, 0)).2 < 2 ^ 32 ∧
        (cfg.ENCODE_FREQ1_DOCDELTA = true → (pairs.getD k (0, 0)).1 < 2 ^ 31) := by
    intro k _ hk
    have hk2 : k < pairs.length := by omega
    rw [List.getD_eq_getElem?_getD, List.getElem?_eq_getElem hk2]
    exact hb _ (List.getElem_mem _)
  obtain ⟨s1, s2, _⟩ := refill_documents_tail_spec cfg.ENCODE_FREQ1_DOCDELTA
    (fun i => (pairs.getD i (0, 0)).1) (fun i => (pairs.getD i (0, 0)).2) pairs.length 0 a rest
    it.docDeltas it.docFreqs hbk
  have hnot : ¬ pairs.length ≥ cfg.BLOCK_SIZE := by omega
  unfold Decoder.refill_documents
  simp only [hmem, hp, hleft, if_neg hnot]
  refine ⟨fun i hi => ?_, rfl, rfl, ?_⟩
  · exact s2 i (Nat.zero_le _) (by omega)
  · exact s1

set_option maxRecDepth 100000 in
theorem tail_documents_round_trip_witness :
    (∀ i < 2,
        (tail_pairs_decoder.refill_documents (vbyte_config 4 true)
          { tail_pairs_decoder.new_iterator with p := 2, docsLeft := 2 }).docDeltas i =
            ([(7, 1), (5, 3)].getD i (0, 0)).1 ∧
        (tail_pairs_decoder.refill_documents (vbyte_config 4 true)
          { tail_pairs_decoder.new_iterator with p := 2, docsLeft := 2 }).docFreqs i =
            ([(7, 1), (5, 3)].getD i (0, 0)).2) ∧
      (tail_pairs_decoder.refill_documents (vbyte_config 4 true)
        { tail_pairs_decoder.new_iterator with p := 2, docsLeft := 2 }).bufferedDocs = 2 :=
  ⟨(tail_documents_round_trip (vbyte_config 4 true) [(7, 1), (5, 3)] (by decide) (by decide)
      tail_pairs_decoder { tail_pairs_decoder.new_iterator with p := 2, docsLeft := 2 }
      [9, 9] [8] rfl rfl rfl).1,
    (tail_documents_round_trip (vbyte_config 4 true) [(7, 1), (5, 3)] (by decide) (by decide)
      tail_pairs_decoder { tail_pairs_decoder.new_iterator with p := 2, docsLeft := 2 }
      [9, 9] [8] rfl rfl rfl).2.1⟩

set_option maxRecDepth 100000 in
/-- C18 (counterexample). With the packed freq-1 option the single buffered document
with delta `2^31` and frequency 1 is written by `end_term` as the byte 1, and
`refill_documents` with `docsLeft = 1` reads the delta 0 from it. -/
theorem packed_tail_block_loses_delta_high_bit :
    packed_tail_decoder.indexPtr = [1] ∧
      (packed_tail_decoder.refill_documents (vbyte_config 4 true)
        { packed_tail_decoder.new_iterator with p := 0, docsLeft := 1 }).docDeltas 0 = 0 ∧
      (packed_tail_decoder.refill_documents (vbyte_config 4 true)
        { packed_tail_decoder.new_iterator with p := 0, docsLeft := 1 }).docFreqs 0 = 1 ∧
      (packed_tail_decoder.refill_documents (vbyte_config 4 true)
        { packed_tail_decoder.new_iterator with p := 0, docsLeft := 1 }).bufferedDocs = 1 := by
  refine ⟨by decide, by decide, by decide, by decide⟩

end Lucene

namespace Lucene

theorem hits_payloads_length : ∀ (hits : List (Nat × List Nat)),
    payload_lengths_sum (fun i => (hits.getD i (0, [])).2.length) 0 hits.length =
      (hits_payloads hits).length := by
  intro hits
  induction hits with
  | nil => rfl
  | cons h hs ih =>
    rw [List.length_cons, payload_lengths_sum_head, hits_payloads, List.length_append, ← ih,
      ← payload_lengths_sum_shift _ (0 + 1) hs.length]
    have e : ∀ k, ((h :: hs).getD (0 + 1 + k) (0, [])) = hs.getD k (0, []) := by
      intro k
      rw [show 0 + 1 + k = k + 1 by omega]
      rfl
    simp only [e]
    rfl

/-- C19 (amended). Trailing hit block round trip. For `m < BLOCK_SIZE ≤ 65536` hits
`(posDelta, payload)` with position deltas below `2^31` and payloads of at most 8 bytes:
`refill_hits` with `hitsLeft = m`, at the bytes the loop of `end_term` writes for the hits
followed by their payloads (wherever they lie in hits.data), leaves
`hitsPositionDeltas[i] = posDelta_i` and `hitsPayloadLengths[i] = len(payload_i)` for all
`i < m`, `bufferedHits = m`, `hitsLeft = 0`, `hitsIndex = 0`, and the payload cursor
range `[payloadsIt, payloadsEnd)` holds exactly the payloads, one after another. -/
theorem tail_hits_round_trip (cfg : Config) (hB16 : cfg.BLOCK_SIZE ≤ 2 ^ 16)
    (hits : List (Nat × List Nat)) (hm : hits.length < cfg.BLOCK_SIZE)
    (hb : ∀ x ∈ hits, x.1 < 2 ^ 31 ∧ x.2.length ≤ 8)
    (dec : Decoder) (it : PostingsListIterator) (a rest : List Nat)
    (hmem : dec.hitsDataPtr = a ++
      (tail_hits (fun i => (hits.getD i (0, [])).1) (fun i => (hits.getD i (0, [])).2.length)
        hits.length 0 0 ++ (hits_payloads hits ++ rest)))
    (hp : it.hdp = a.length) (hleft : it.hitsLeft = hits.length) :
    (∀ i < hits.length,
        (dec.refill_hits cfg it).hitsPositionDeltas i = (hits.getD i (0, [])).1 ∧
        (dec.refill_hits cfg it).hitsPayloadLengths i = (hits.getD i (0, [])).2.length) ∧
      (dec.refill_hits cfg it).bufferedHits = hits.length ∧
      (dec.refill_hits cfg it).hitsLeft = 0 ∧
      (dec.refill_hits cfg it).hitsIndex = 0 ∧
      (dec.refill_hits cfg it).payloadsIt ≤ (dec.refill_hits cfg it).payloadsEnd ∧
      (dec.hitsDataPtr.drop (dec.refill_hits cfg it).payloadsIt).take
        ((dec.refill_hits cfg it).payloadsEnd - (dec.refill_hits cfg it).payloadsIt) =
          hits_payloads hits := by
  have hlen8 : ∀ k, (hits.getD k (0, [])).2.length ≤ 8 := by
    intro k
    by_cases hk : k < hits.length
    · rw [List.getD_eq_getElem?_getD, List.getElem?_eq_getElem hk]
      exact (hb _ (List.getElem_mem _)).2
    · rw [List.getD_eq_getElem?_getD, List.getElem?_eq_none (by omega)]
      exact Nat.zero_le _
  have hbk : ∀ k, 0 ≤ k → k < 0 + hits.length →
      (hits.getD k (0, [])).1 < 2 ^ 31 ∧ (hits.getD k (0, [])).2.length < 256 := by
    intro k _ hk
    have hk2 : k < hits.length := by omega
    refine ⟨?_, lt_of_le_of_lt (hlen8 k) (by norm_num)⟩
    rw [List.getD_eq_getElem?_getD, List.getElem?_eq_getElem hk2]
    exact (hb _ (List.getElem_mem _)).1
  have hsum := payload_lengths_sum_le (fun i => (hits.getD i (0, [])).2.length) 8 0 hits.length
    hlen8
  obtain ⟨s1, s2, s3, _⟩ := refill_hits_tail_spec (fun i => (hits.getD i (0, [])).1)
    (fun i => (hits.getD i (0, [])).2.length) hits.length 0 0 0 a (hits_payloads hits ++ rest)
    it.hitsPositionDeltas it.hitsPayloadLengths hbk (by omega)
  rw [Nat.zero_add, hits_payloads_length] at s2
  have hnot : ¬ hits.length ≥ cfg.BLOCK_SIZE := by omega
  unfold Decoder.refill_hits
  simp only [hmem, hp, hleft, if_neg hnot]
  refine ⟨fun i hi => s3 i (Nat.zero_le _) (by omega), trivial, trivial, trivial,
    Nat.le_add_right _ _, ?_⟩
  rw [Nat.add_sub_cancel_left, s1, s2, ← List.append_assoc, ← List.length_append,
    List.drop_left, List.take_left]

set_option maxRecDepth 100000 in
theorem tail_hits_round_trip_witness :
    (∀ i < 3,
        (tail_hits_decoder.refill_hits (vbyte_config 4 true)
          tail_hits_decoder.new_iterator).hitsPositionDeltas i =
            ([(3, [1, 2]), (0, []), (4, [5])].getD i (0, [])).1 ∧
        (tail_hits_decoder.refill_hits (vbyte_config 4 true)
          tail_hits_decoder.new_iterator).hitsPayloadLengths i =
            ([(3, [1, 2]), (0, []), (4, [5])].getD i (0, [])).2.length) ∧
      (tail_hits_decoder.hitsDataPtr.drop
          (tail_hits_decoder.refill_hits (vbyte_config 4 true)
            tail_hits_decoder.new_iterator).payloadsIt).take
        ((tail_hits_decoder.refill_hits (vbyte_config 4 true)
            tail_hits_decoder.new_iterator).payloadsEnd -
          (tail_hits_decoder.refill_hits (vbyte_config 4 true)
            tail_hits_decoder.new_iterator).payloadsIt) = [1, 2, 5] :=
  ⟨(tail_hits_round_trip (vbyte_config 4 true) (by decide) [(3, [1, 2]), (0, []), (4, [5])]
      (by decide) (by decide) tail_hits_decoder tail_hits_decoder.new_iterator [9, 9] [8]
      rfl rfl rfl).1,
    (tail_hits_round_trip (vbyte_config 4 true) (by decide) [(3, [1, 2]), (0, []), (4, [5])]
      (by decide) (by decide) tail_hits_decoder tail_hits_decoder.new_iterator [9, 9] [8]
      rfl rfl rfl).2.2.2.2.2⟩

set_option maxRecDepth 100000 in
/-- C19 (counterexample). The single buffered hit with position delta `2^31` and no
payload is written by `end_term` as the byte 0, and `refill_hits` with `hitsLeft = 1`
reads the position delta 0 from it. -/
theorem tail_hit_block_loses_delta_high_bit :
    wide_hit_decoder.hitsDataPtr = [0] ∧
      (wide_hit_decoder.refill_hits (vbyte_config 4 true)
        wide_hit_decoder.new_iterator).hitsPositionDeltas 0 = 0 ∧
      (wide_hit_decoder.refill_hits (vbyte_config 4 true)
        wide_hit_decoder.new_iterator).bufferedHits = 1 := by
  refine ⟨by decide, by decide, by decide⟩

end Lucene

namespace Lucene

/-! ### Placeholder hits -/

/-- C20. Placeholder hits are ignored. `new_hit(0, empty payload)` returns the encoder as
it was: every field, `docFreqs`, `hitPosDeltas`, `hitPayloadSizes`, `payloadsBuf`,
`totalHits`, `sumHits`, `lastPosition` and the output buffers among them, is unchanged;
and the calls of `new_hit` for the hits of a document leave the same encoder whether the
placeholder hits among them are made or left out, so that the stored frequency does not
count them. -/
theorem placeholder_hit_ignored (cfg : Config) (e : Encoder) :
    e.new_hit cfg 0 [] = some e ∧
      ∀ (hs : List hit_input) (e0 : Encoder),
        Encoder.new_hits cfg e0 hs =
          Encoder.new_hits cfg e0 (hs.filter (fun h => !decide (h.pos = 0 ∧ h.payload = []))) := by
  refine ⟨new_hit_placeholder cfg e 0 [] ⟨rfl, rfl⟩, ?_⟩
  intro hs
  induction hs with
  | nil => intro e0; rfl
  | cons h hs ih =>
    intro e0
    by_cases hp : h.pos = 0 ∧ h.payload = []
    · rw [List.filter_cons_of_neg (by simp [hp]), Encoder.new_hits,
        new_hit_placeholder cfg e0 h.pos h.payload hp]
      exact ih e0
    · rw [List.filter_cons_of_pos (by simp [hp]), Encoder.new_hits, Encoder.new_hits]
      cases hn : e0.new_hit cfg h.pos h.payload with
      | none => rfl
      | some e1 => exact ih e1

end Lucene

/-! ## The opcode of a non-fusable binop -/

/-- C21 (the code at the failing input). The children of the OR of the query
`(apple AND banana) OR phone` compile to an AND-run and a term, which is not a fusable
combination; `compile` gives the node the opcode `logicaland_impl`, not
`logicalor_impl`, and the compiled tree is false on document 1, on which the query is
true. An AND of the same children compiles to `logicaland_impl` and a NOT to
`logicalnot_impl`. The same holds when the right child of a binop is compiled first,
with the ids the terms get in that order. -/
theorem compile_or_of_run_and_term_is_logicaland :
    compile false query_run_or_term [] =
        some (.logicaland_impl (.matchallterms_impl [1, 2]) (.matchterm_impl 3),
              [apple, banana, phone]) ∧
      compile false query_run_or_term [] ≠
        some (.logicalor_impl (.matchallterms_impl [1, 2]) (.matchterm_impl 3),
              [apple, banana, phone]) ∧
      ast_matches tiny_source 1 query_run_or_term = true ∧
      (eval (.logicaland_impl (.matchallterms_impl [1, 2]) (.matchterm_impl 3))
        ((initial_ctx tiny_source [apple, banana, phone] (fun _ => none)).reset 1)).1 = false ∧
      (eval (.logicalor_impl (.matchallterms_impl [1, 2]) (.matchterm_impl 3))
        ((initial_ctx tiny_source [apple, banana, phone] (fun _ => none)).reset 1)).1 = true ∧
      compile false (.BinOp .AND (.BinOp .OR (token_node apple 0) (token_node banana 1))
          (token_node phone 2)) [] =
        some (.logicaland_impl (.matchanyterms_impl [1, 2]) (.matchterm_impl 3),
              [apple, banana, phone]) ∧
      compile false (.BinOp .NOT (token_node apple 0) (token_node phone 1)) [] =
        some (.logicalnot_impl (.matchterm_impl 1) (.matchterm_impl 2), [apple, phone]) ∧
      compile true query_run_or_term [] =
        some (.logicaland_impl (.matchallterms_impl [3, 2]) (.matchterm_impl 1),
              [phone, banana, apple]) ∧
      compile true query_run_or_term [] ≠
        some (.logicalor_impl (.matchallterms_impl [3, 2]) (.matchterm_impl 1),
              [phone, banana, apple]) ∧
      (eval (.logicaland_impl (.matchallterms_impl [3, 2]) (.matchterm_impl 1))
        ((initial_ctx tiny_source [phone, banana, apple] (fun _ => none)).reset 1)).1 = false ∧
      (eval (.logicalor_impl (.matchallterms_impl [3, 2]) (.matchterm_impl 1))
        ((initial_ctx tiny_source [phone, banana, apple] (fun _ => none)).reset 1)).1 = true ∧
      compile true (.BinOp .AND (.BinOp .OR (token_node apple 0) (token_node banana 1))
          (token_node phone 2)) [] =
        some (.logicaland_impl (.matchanyterms_impl [3, 2]) (.matchterm_impl 1),
              [phone, banana, apple]) ∧
      compile true (.BinOp .NOT (token_node apple 0) (token_node phone 1)) [] =
        some (.logicalnot_impl (.matchterm_impl 2) (.matchterm_impl 1), [phone, apple]) := by
  refine ⟨by decide, by decide, by decide, by decide, by decide, by decide, by decide,
    by decide, by decide, by decide, by decide, by decide, by decide⟩

/-! ## The dictionary of term ids -/

theorem lookup_le_length (t : str8_t) : ∀ (dict : TermsDict), dict.lookup t ≤ dict.length := by
  intro dict
  induction dict with
  | nil => simp [TermsDict.lookup]
  | cons a ts ih =>
    simp only [TermsDict.lookup, List.length_cons]
    split
    · omega
    · split <;> omega

theorem lookup_ne_zero_iff (t : str8_t) : ∀ (dict : TermsDict), dict.lookup t ≠ 0 ↔ t ∈ dict := by
  intro dict
  induction dict with
  | nil => simp [TermsDict.lookup]
  | cons a ts ih =>
    simp only [TermsDict.lookup, List.mem_cons]
    by_cases hat : a = t
    · rw [if_pos hat]
      constructor
      · intro _; exact Or.inl hat.symm
      · intro _; omega
    · rw [if_neg hat]
      by_cases h0 : TermsDict.lookup ts t = 0
      · rw [if_pos h0]
        constructor
        · intro h; exact absurd rfl h
        · rintro (h | h)
          · exact absurd h.symm hat
          · exact absurd h0 (ih.2 h)
      · rw [if_neg h0]
        constructor
        · intro _; exact Or.inr (ih.1 h0)
        · intro _; omega

theorem lookup_cons (a : str8_t) (ts : TermsDict) (t : str8_t) :
    TermsDict.lookup (a :: ts) t =
      if a = t then 1 else if TermsDict.lookup ts t = 0 then 0 else TermsDict.lookup ts t + 1 := rfl

theorem resolve_terms_cons (t : str8_t) (ts : List str8_t) (dict : TermsDict) :
    resolve_terms (t :: ts) dict =
      ((resolve_term dict t).1 :: (resolve_terms ts (resolve_term dict t).2).1,
        (resolve_terms ts (resolve_term dict t).2).2) := rfl

theorem lookup_append_of_ne_zero (t : str8_t) (e : TermsDict) : ∀ (dict : TermsDict),
    dict.lookup t ≠ 0 → TermsDict.lookup (dict ++ e) t = dict.lookup t := by
  intro dict
  induction dict with
  | nil => intro h; simp [TermsDict.lookup] at h
  | cons a ts ih =>
    intro h
    rw [lookup_cons] at h
    rw [List.cons_append, lookup_cons, lookup_cons]
    by_cases hat : a = t
    · rw [if_pos hat, if_pos hat]
    · rw [if_neg hat] at h
      rw [if_neg hat, if_neg hat]
      by_cases h0 : TermsDict.lookup ts t = 0
      · rw [if_pos h0] at h
        exact absurd rfl h
      · rw [ih h0, if_neg h0]

theorem lookup_append_new (t : str8_t) : ∀ (dict : TermsDict),
    dict.lookup t = 0 → TermsDict.lookup (dict ++ [t]) t = dict.length + 1 := by
  intro dict
  induction dict with
  | nil => intro _; simp [TermsDict.lookup]
  | cons a ts ih =>
    intro h
    rw [lookup_cons] at h
    rw [List.cons_append, lookup_cons, List.length_cons]
    by_cases hat : a = t
    · rw [if_pos hat] at h
      omega
    · rw [if_neg hat] at h
      rw [if_neg hat]
      by_cases h0 : TermsDict.lookup ts t = 0
      · rw [ih h0]
        simp
      · rw [if_neg h0] at h
        omega

theorem lookup_get (dict : TermsDict) (hn : dict.Nodup) :
    ∀ (k : Nat) (hk : k < dict.length), dict.lookup (dict.get ⟨k, hk⟩) = k + 1 := by
  induction dict with
  | nil => intro k hk; simp at hk
  | cons a ts ih =>
    intro k hk
    rw [List.nodup_cons] at hn
    cases k with
    | zero => simp [TermsDict.lookup]
    | succ k =>
      have hk2 : k < ts.length := by simpa using hk
      have hmem : ts.get ⟨k, hk2⟩ ∈ ts := List.get_mem ts k hk2
      have hne : a ≠ ts.get ⟨k, hk2⟩ := fun h => hn.1 (h ▸ hmem)
      have e := ih hn.2 k hk2
      simp only [List.get_cons_succ, TermsDict.lookup]
      rw [if_neg hne, e]
      simp

theorem resolve_term_first (dict : TermsDict) (t : str8_t) :
    (resolve_term dict t).2.lookup t = (resolve_term dict t).1 ∧ (resolve_term dict t).1 ≠ 0 := by
  unfold resolve_term
  by_cases h : dict.lookup t = 0
  · rw [if_pos h]
    exact ⟨lookup_append_new t dict h, by simp⟩
  · rw [if_neg h]
    exact ⟨rfl, h⟩

theorem resolve_term_known (dict : TermsDict) (t : str8_t) (h : dict.lookup t ≠ 0) :
    resolve_term dict t = (dict.lookup t, dict) := by
  unfold resolve_term
  rw [if_neg h]

theorem resolve_term_new (dict : TermsDict) (t : str8_t) (h : dict.lookup t = 0) :
    resolve_term dict t = (dict.length + 1, dict ++ [t]) := by
  unfold resolve_term
  rw [if_pos h]

theorem resolve_term_extends (dict : TermsDict) (t : str8_t) :
    ∃ e, (resolve_term dict t).2 = dict ++ e := by
  unfold resolve_term
  by_cases h : dict.lookup t = 0
  · rw [if_pos h]; exact ⟨[t], rfl⟩
  · rw [if_neg h]; exact ⟨[], by simp⟩

theorem resolve_terms_extends : ∀ (ts : List str8_t) (dict : TermsDict),
    ∃ e, (resolve_terms ts dict).2 = dict ++ e := by
  intro ts
  induction ts with
  | nil => intro dict; exact ⟨[], by simp [resolve_terms]⟩
  | cons t ts ih =>
    intro dict
    obtain ⟨e1, h1⟩ := resolve_term_extends dict t
    obtain ⟨e2, h2⟩ := ih (resolve_term dict t).2
    refine ⟨e1 ++ e2, ?_⟩
    simp only [resolve_terms]
    rw [h2, h1, List.append_assoc]

theorem resolve_terms_length : ∀ (ts : List str8_t) (dict : TermsDict),
    (resolve_terms ts dict).1.length = ts.length := by
  intro ts
  induction ts with
  | nil => intro dict; rfl
  | cons t ts ih => intro dict; simp only [resolve_terms, List.length_cons, ih]

theorem resolve_terms_append : ∀ (a b : List str8_t) (dict : TermsDict),
    resolve_terms (a ++ b) dict =
      ((resolve_terms a dict).1 ++ (resolve_terms b (resolve_terms a dict).2).1,
        (resolve_terms b (resolve_terms a dict).2).2) := by
  intro a
  induction a with
  | nil => intro b dict; simp [resolve_terms]
  | cons t ts ih =>
    intro b dict
    rw [List.cons_append, resolve_terms_cons, resolve_terms_cons, ih]
    simp

theorem resolve_terms_ids : ∀ (ts : List str8_t) (dict : TermsDict),
    (resolve_terms ts dict).1 = ts.map (resolve_terms ts dict).2.lookup ∧
      ∀ id ∈ (resolve_terms ts dict).1, id ≠ 0 := by
  intro ts
  induction ts with
  | nil => intro dict; simp [resolve_terms]
  | cons t ts ih =>
    intro dict
    obtain ⟨h1, h2⟩ := ih (resolve_term dict t).2
    obtain ⟨e, he⟩ := resolve_terms_extends ts (resolve_term dict t).2
    obtain ⟨f1, f2⟩ := resolve_term_first dict t
    have hl : (resolve_terms ts (resolve_term dict t).2).2.lookup t = (resolve_term dict t).1 := by
      rw [he, lookup_append_of_ne_zero t e _ (by rw [f1]; exact f2), f1]
    simp only [resolve_terms, List.map_cons, List.mem_cons]
    refine ⟨?_, ?_⟩
    · rw [hl, ← h1]
    · rintro id (h | h)
      · rw [h]; exact f2
      · exact h2 id h

theorem resolve_terms_mem : ∀ (ts : List str8_t) (dict : TermsDict) (t : str8_t),
    t ∈ (resolve_terms ts dict).2 ↔ t ∈ dict ∨ t ∈ ts := by
  intro ts
  induction ts with
  | nil => intro dict t; simp [resolve_terms]
  | cons a ts ih =>
    intro dict t
    simp only [resolve_terms]
    rw [ih]
    by_cases h : dict.lookup a = 0
    · rw [resolve_term_new dict a h]
      simp only [List.mem_append, List.mem_singleton, List.mem_cons]
      tauto
    · rw [resolve_term_known dict a h]
      have ha : a ∈ dict := (lookup_ne_zero_iff a dict).1 h
      simp only [List.mem_cons]
      constructor
      · rintro (h1 | h1)
        · exact Or.inl h1
        · exact Or.inr (Or.inr h1)
      · rintro (h1 | h1 | h1)
        · exact Or.inl h1
        · exact Or.inl (h1 ▸ ha)
        · exact Or.inr h1

theorem resolve_terms_nodup : ∀ (ts : List str8_t) (dict : TermsDict), dict.Nodup →
    (resolve_terms ts dict).2.Nodup := by
  intro ts
  induction ts with
  | nil => intro dict h; exact h
  | cons a ts ih =>
    intro dict hn
    simp only [resolve_terms]
    apply ih
    by_cases h : dict.lookup a = 0
    · rw [resolve_term_new dict a h]
      have hna : a ∉ dict := fun hm => (lookup_ne_zero_iff a dict).2 hm h
      rw [List.nodup_append]
      refine ⟨hn, List.nodup_singleton a, ?_⟩
      intro x hx hx2
      rw [List.mem_singleton] at hx2
      exact hna (hx2 ▸ hx)
    · rw [resolve_term_known dict a h]
      exact hn

/-! ## Fusion of AND-joined and OR-joined tokens -/

theorem resolve_terms_ne_nil (ts : List str8_t) (dict : TermsDict) (h : ts ≠ []) :
    (resolve_terms ts dict).1 ≠ [] := by
  intro h2
  have := resolve_terms_length ts dict
  rw [h2] at this
  exact h (List.eq_nil_of_length_eq_zero this.symm)

theorem matchallterms_loop_cons (t : Nat) (rest : List Nat) (c : runtime_ctx) :
    matchallterms_loop (t :: rest) c =
      if (seek_term c t c.curDocID).1 then
        matchallterms_loop rest (capture_matched_term (seek_term c t c.curDocID).2 t)
      else (false, (seek_term c t c.curDocID).2) := rfl

theorem matchallterms_seeks_cons (t : Nat) (rest : List Nat) (c : runtime_ctx) :
    matchallterms_seeks (t :: rest) c =
      if (seek_term c t c.curDocID).1 then
        (t, c.curDocID) ::
          matchallterms_seeks rest (capture_matched_term (seek_term c t c.curDocID).2 t)
      else [(t, c.curDocID)] := rfl

theorem matchanyterms_loop_cons (t : Nat) (rest : List Nat) (res : Bool) (c : runtime_ctx) :
    matchanyterms_loop (t :: rest) res c =
      if (seek_term c t c.curDocID).1 then
        matchanyterms_loop rest true (capture_matched_term (seek_term c t c.curDocID).2 t)
      else matchanyterms_loop rest res (seek_term c t c.curDocID).2 := rfl

theorem matchanyterms_seeks_cons (t : Nat) (rest : List Nat) (c : runtime_ctx) :
    matchanyterms_seeks (t :: rest) c =
      (t, c.curDocID) ::
        matchanyterms_seeks rest
          (if (seek_term c t c.curDocID).1 then
            capture_matched_term (seek_term c t c.curDocID).2 t
           else (seek_term c t c.curDocID).2) := rfl

theorem matchallterms_loop_false (a : List Nat) : ∀ (c : runtime_ctx),
    (matchallterms_loop a c).1 = false →
      matchallterms_loop a c = (false, (matchallterms_loop a c).2) := by
  intro c h
  rw [← h]

theorem matchallterms_loop_append (a b : List Nat) : ∀ (c : runtime_ctx),
    matchallterms_loop (a ++ b) c =
      if (matchallterms_loop a c).1 then matchallterms_loop b (matchallterms_loop a c).2
      else (false, (matchallterms_loop a c).2) := by
  induction a with
  | nil => intro c; simp [matchallterms_loop]
  | cons t rest ih =>
    intro c
    rw [List.cons_append, matchallterms_loop_cons, matchallterms_loop_cons]
    by_cases h : (seek_term c t c.curDocID).1 = true
    · rw [if_pos h, if_pos h, ih]
    · rw [if_neg h, if_neg h]
      simp

theorem matchallterms_seeks_append (a b : List Nat) : ∀ (c : runtime_ctx),
    matchallterms_seeks (a ++ b) c =
      if (matchallterms_loop a c).1 then
        matchallterms_seeks a c ++ matchallterms_seeks b (matchallterms_loop a c).2
      else matchallterms_seeks a c := by
  induction a with
  | nil => intro c; simp [matchallterms_loop, matchallterms_seeks]
  | cons t rest ih =>
    intro c
    rw [List.cons_append, matchallterms_seeks_cons, matchallterms_seeks_cons,
      matchallterms_loop_cons]
    by_cases h : (seek_term c t c.curDocID).1 = true
    · rw [if_pos h, if_pos h, if_pos h, ih]
      split <;> simp
    · rw [if_neg h, if_neg h, if_neg h]
      simp

theorem matchanyterms_loop_state (t : Nat) (rest : List Nat) (res : Bool) (c : runtime_ctx) :
    (matchanyterms_loop (t :: rest) res c).2 =
      (matchanyterms_loop rest false
        (if (seek_term c t c.curDocID).1 then
          capture_matched_term (seek_term c t c.curDocID).2 t
         else (seek_term c t c.curDocID).2)).2 := by
  rw [matchanyterms_loop_cons]
  by_cases h : (seek_term c t c.curDocID).1 = true
  · rw [if_pos h, if_pos h, matchanyterms_loop_res]
  · rw [if_neg h, if_neg h, matchanyterms_loop_res]

theorem matchanyterms_seeks_append (a b : List Nat) : ∀ (c : runtime_ctx),
    matchanyterms_seeks (a ++ b) c =
      matchanyterms_seeks a c ++ matchanyterms_seeks b (matchanyterms_loop a false c).2 := by
  induction a with
  | nil => intro c; simp [matchanyterms_loop, matchanyterms_seeks]
  | cons t rest ih =>
    intro c
    rw [List.cons_append, matchanyterms_seeks_cons, matchanyterms_seeks_cons, ih,
      matchanyterms_loop_state, List.cons_append]

theorem matchallterms_seeks_length (run : List Nat) : ∀ (c : runtime_ctx),
    (matchallterms_seeks run c).length ≤ run.length := by
  induction run with
  | nil => intro c; exact le_refl _
  | cons t rest ih =>
    intro c
    rw [matchallterms_seeks_cons]
    by_cases h : (seek_term c t c.curDocID).1 = true
    · rw [if_pos h, List.length_cons, List.length_cons]
      exact Nat.succ_le_succ (ih _)
    · rw [if_neg h, List.length_cons, List.length_cons]
      exact Nat.succ_le_succ (Nat.zero_le _)

theorem matchanyterms_seeks_length (run : List Nat) : ∀ (c : runtime_ctx),
    (matchanyterms_seeks run c).length = run.length := by
  induction run with
  | nil => intro c; rfl
  | cons t rest ih =>
    intro c
    rw [matchanyterms_seeks_cons, List.length_cons, List.length_cons, ih]

theorem eval_and_term_tree : ∀ (e : exec_node) (c : runtime_ctx), and_term_tree e = true →
    eval e c = matchallterms_loop (fused_run e) c ∧
      eval_seeks e c = matchallterms_seeks (fused_run e) c := by
  intro e
  induction e with
  | matchterm_impl t =>
    intro c _
    constructor
    · simp only [eval, fused_run, matchallterms_loop]
    · simp only [eval_seeks, fused_run, matchallterms_seeks]
      split <;> rfl
  | logicaland_impl l r ihl ihr =>
    intro c h
    simp only [and_term_tree, Bool.and_eq_true] at h
    obtain ⟨el, sl⟩ := ihl c h.1
    obtain ⟨er, sr⟩ := ihr (eval l c).2 h.2
    constructor
    · simp only [eval, fused_run]
      rw [matchallterms_loop_append, er, el]
    · simp only [eval_seeks, fused_run]
      rw [matchallterms_seeks_append, sr, sl, el]
  | noop_impl => intro c h; exact absurd h (by simp [and_term_tree])
  | matchphrase_impl p => intro c h; exact absurd h (by simp [and_term_tree])
  | matchallterms_impl run => intro c h; exact absurd h (by simp [and_term_tree])
  | matchanyterms_impl run => intro c h; exact absurd h (by simp [and_term_tree])
  | unaryand_impl e _ => intro c h; exact absurd h (by simp [and_term_tree])
  | unarynot_impl e _ => intro c h; exact absurd h (by simp [and_term_tree])
  | consttrueexpr_impl e _ => intro c h; exact absurd h (by simp [and_term_tree])
  | logicalnot_impl l r _ _ => intro c h; exact absurd h (by simp [and_term_tree])
  | logicalor_impl l r _ _ => intro c h; exact absurd h (by simp [and_term_tree])

theorem eval_or_term_tree : ∀ (e : exec_node) (c : runtime_ctx), or_term_tree e = true →
    eval e c = matchanyterms_loop (fused_run e) false c ∧
      eval_seeks e c = matchanyterms_seeks (fused_run e) c := by
  intro e
  induction e with
  | matchterm_impl t =>
    intro c _
    constructor
    · simp only [eval, fused_run, matchanyterms_loop]
    · simp only [eval_seeks, fused_run, matchanyterms_seeks]
  | logicalor_impl l r ihl ihr =>
    intro c h
    simp only [or_term_tree, Bool.and_eq_true] at h
    obtain ⟨el, sl⟩ := ihl c h.1
    obtain ⟨er, sr⟩ := ihr (eval l c).2 h.2
    constructor
    · simp only [eval, fused_run]
      rw [matchanyterms_loop_append, matchanyterms_loop_res (fused_run r), er, el]
    · simp only [eval_seeks, fused_run]
      rw [matchanyterms_seeks_append, sr, sl, el]
  | noop_impl => intro c h; exact absurd h (by simp [or_term_tree])
  | matchphrase_impl p => intro c h; exact absurd h (by simp [or_term_tree])
  | matchallterms_impl run => intro c h; exact absurd h (by simp [or_term_tree])
  | matchanyterms_impl run => intro c h; exact absurd h (by simp [or_term_tree])
  | unaryand_impl e _ => intro c h; exact absurd h (by simp [or_term_tree])
  | unarynot_impl e _ => intro c h; exact absurd h (by simp [or_term_tree])
  | consttrueexpr_impl e _ => intro c h; exact absurd h (by simp [or_term_tree])
  | logicalnot_impl l r _ _ => intro c h; exact absurd h (by simp [or_term_tree])
  | logicaland_impl l r _ _ => intro c h; exact absurd h (by simp [or_term_tree])

/-- C23. Fused opcodes refine the unfused tree. For every tree `e` of `matchterm_impl`
leaves joined by `logicaland_impl` (with at most `UINT16_MAX` leaves, the size of a run
being a `uint16_t`) and every context, `matchallterms_impl` on the run of the leaves' ids
(left to right) returns the same boolean and leaves the same context (captured terms,
decoders and all) as the evaluation of `e`, and performs the same decoder seeks in the
same order; for every tree of `matchterm_impl` leaves joined by `logicalor_impl`, which
evaluates both sides, the same holds of `matchanyterms_impl`. -/
theorem fused_opcodes_refine_tree (e : exec_node) (c : runtime_ctx)
    (hsize : (fused_run e).length ≤ UINT16_MAX) :
    (and_term_tree e = true →
      eval (.matchallterms_impl (fused_run e)) c = eval e c ∧
        eval_seeks (.matchallterms_impl (fused_run e)) c = eval_seeks e c ∧
        (eval_seeks e c).length ≤ UINT16_MAX) ∧
    (or_term_tree e = true →
      eval (.matchanyterms_impl (fused_run e)) c = eval e c ∧
        eval_seeks (.matchanyterms_impl (fused_run e)) c = eval_seeks e c ∧
        (eval_seeks e c).length = (fused_run e).length ∧
        (eval_seeks e c).length ≤ UINT16_MAX) := by
  constructor
  · intro h
    obtain ⟨h1, h2⟩ := eval_and_term_tree e c h
    refine ⟨h1.symm, h2.symm, ?_⟩
    rw [h2]
    exact le_trans (matchallterms_seeks_length _ c) hsize
  · intro h
    obtain ⟨h1, h2⟩ := eval_or_term_tree e c h
    refine ⟨h1.symm, h2.symm, ?_, ?_⟩
    · rw [h2]; exact matchanyterms_seeks_length _ c
    · rw [h2, matchanyterms_seeks_length _ c]; exact hsize

set_option maxRecDepth 100000 in
/-- C23 (witness). On document 2 of the fixture, the run `[1, 2, 3]` against the trees
`(1 AND 2) AND 3` and `1 OR (2 OR 3)` of `matchterm_impl` nodes. -/
theorem fused_opcodes_refine_tree_witness :
    (eval (.matchallterms_impl [1, 2, 3]) (capture_fixture.reset 2) =
        eval (.logicaland_impl (.logicaland_impl (.matchterm_impl 1) (.matchterm_impl 2))
          (.matchterm_impl 3)) (capture_fixture.reset 2) ∧
      eval_seeks (.matchallterms_impl [1, 2, 3]) (capture_fixture.reset 2) =
        eval_seeks (.logicaland_impl (.logicaland_impl (.matchterm_impl 1) (.matchterm_impl 2))
          (.matchterm_impl 3)) (capture_fixture.reset 2)) ∧
    (eval (.matchanyterms_impl [1, 2, 3]) (capture_fixture.reset 2) =
        eval (.logicalor_impl (.matchterm_impl 1)
          (.logicalor_impl (.matchterm_impl 2) (.matchterm_impl 3))) (capture_fixture.reset 2) ∧
      eval_seeks (.matchanyterms_impl [1, 2, 3]) (capture_fixture.reset 2) =
        eval_seeks (.logicalor_impl (.matchterm_impl 1)
          (.logicalor_impl (.matchterm_impl 2) (.matchterm_impl 3)))
          (capture_fixture.reset 2)) ∧
    eval_seeks (.matchallterms_impl [1, 2, 3]) (capture_fixture.reset 2) = [(1, 2), (2, 2), (3, 2)] :=
  ⟨⟨((fused_opcodes_refine_tree
      (.logicaland_impl (.logicaland_impl (.matchterm_impl 1) (.matchterm_impl 2))
        (.matchterm_impl 3)) (capture_fixture.reset 2) (by decide)).1 (by decide)).1,
    ((fused_opcodes_refine_tree
      (.logicaland_impl (.logicaland_impl (.matchterm_impl 1) (.matchterm_impl 2))
        (.matchterm_impl 3)) (capture_fixture.reset 2) (by decide)).1 (by decide)).2.1⟩,
   ⟨((fused_opcodes_refine_tree
      (.logicalor_impl (.matchterm_impl 1)
        (.logicalor_impl (.matchterm_impl 2) (.matchterm_impl 3)))
      (capture_fixture.reset 2) (by decide)).2 (by decide)).1,
    ((fused_opcodes_refine_tree
      (.logicalor_impl (.matchterm_impl 1)
        (.logicalor_impl (.matchterm_impl 2) (.matchterm_impl 3)))
      (capture_fixture.reset 2) (by decide)).2 (by decide)).2.1⟩,
   by decide⟩

/-! ## Heuristic reordering -/

theorem reorder_binop (op : Operator) (l r : ast_node) :
    reorder (.BinOp op l r) =
      if op = .AND ∨ op = .STRICT_AND then
        if (reorder l).1.is_binop ∧ (reorder r).1.is_unary then
          (.BinOp op (reorder r).1 (reorder l).1, true)
        else (.BinOp op (reorder l).1 (reorder r).1, (reorder l).2 || (reorder r).2)
      else if op = .NOT then
        match (reorder l).1 with
        | .BinOp lop llhs lrhs =>
          if (reorder r).1.is_unary ∧ llhs.is_unary ∧ lrhs.is_binop ∧
              (lop = .AND ∨ lop = .STRICT_AND) then
            (.BinOp lop (.BinOp .NOT llhs (reorder r).1) lrhs, true)
          else (.BinOp op (reorder l).1 (reorder r).1, (reorder l).2 || (reorder r).2)
        | _ => (.BinOp op (reorder l).1 (reorder r).1, (reorder l).2 || (reorder r).2)
      else (.BinOp op (reorder l).1 (reorder r).1, (reorder l).2 || (reorder r).2) := by
  rw [reorder]

theorem reorder_leaf (n : ast_node) (h : n.is_binop = false) : reorder n = (n, false) := by
  cases n <;> first | rfl | exact absurd h (by simp [ast_node.is_binop])

theorem reorder_is_binop (n : ast_node) : (reorder n).1.is_binop = n.is_binop := by
  cases n with
  | BinOp op l r =>
    rw [reorder_binop]
    split
    · split <;> rfl
    · split
      · split
        · split <;> rfl
        · rfl
      · rfl
  | _ => rfl

theorem reorder_is_unary (n : ast_node) : (reorder n).1.is_unary = n.is_unary := by
  cases n with
  | BinOp op l r =>
    rw [reorder_binop]
    split
    · split <;> rfl
    · split
      · split
        · split <;> rfl
        · rfl
      · rfl
  | _ => rfl

theorem reorder_truth (v : ast_node → Bool) : ∀ (t : ast_node),
    ast_truth v (reorder t).1 = ast_truth v t := by
  intro t
  induction t with
  | BinOp op l r ihl ihr =>
    rw [reorder_binop]
    by_cases hand : op = .AND ∨ op = .STRICT_AND
    · rw [if_pos hand]
      by_cases hc : (reorder l).1.is_binop ∧ (reorder r).1.is_unary
      · rw [if_pos hc]
        rcases hand with h | h <;> subst h <;> simp only [ast_truth, ihl, ihr, Bool.and_comm]
      · rw [if_neg hc]
        rcases hand with h | h <;> subst h <;> simp only [ast_truth, ihl, ihr]
    · rw [if_neg hand]
      by_cases hnot : op = .NOT
      · subst hnot
        rw [if_pos rfl]
        have base : ast_truth v (.BinOp .NOT (reorder l).1 (reorder r).1) =
            ast_truth v (.BinOp .NOT l r) := by simp only [ast_truth, ihl, ihr]
        cases hl : (reorder l).1 with
        | BinOp lop llhs lrhs =>
          simp only []
          rw [hl] at base
          by_cases hc : (reorder r).1.is_unary ∧ llhs.is_unary ∧ lrhs.is_binop ∧
              (lop = .AND ∨ lop = .STRICT_AND)
          · rw [if_pos hc, ← base]
            rcases hc.2.2.2 with h | h <;> subst h <;> simp only [ast_truth] <;>
              cases ast_truth v llhs <;> cases ast_truth v lrhs <;>
              cases ast_truth v (reorder r).1 <;> rfl
          · rw [if_neg hc]
            exact base
        | Token p => simp only []; rw [hl] at base; exact base
        | Phrase p => simp only []; rw [hl] at base; exact base
        | UnaryOp o e => simp only []; rw [hl] at base; exact base
        | ConstTrueExpr e => simp only []; rw [hl] at base; exact base
        | ConstFalse => simp only []; rw [hl] at base; exact base
        | Dummy => simp only []; rw [hl] at base; exact base
      · rw [if_neg hnot]
        cases op with
        | OR => simp only [ast_truth, ihl, ihr]
        | NONE => simp only [ast_truth]
        | AND => exact absurd (Or.inl rfl) hand
        | STRICT_AND => exact absurd (Or.inr rfl) hand
        | NOT => exact absurd rfl hnot
  | Token p => rfl
  | Phrase p => rfl
  | UnaryOp op e _ => rfl
  | ConstTrueExpr e _ => rfl
  | ConstFalse => rfl
  | Dummy => rfl

theorem unary_not_binop (n : ast_node) (h : n.is_unary = true) : n.is_binop = false := by
  cases n <;> first | rfl | exact absurd h (by simp [ast_node.is_unary])

theorem binop_not_unary (n : ast_node) (h : n.is_binop = true) : n.is_unary = false := by
  cases n <;> first | rfl | exact absurd h (by simp [ast_node.is_binop])

theorem reordered_of_not_binop (n : ast_node) (h : n.is_binop = false) : reordered n = true := by
  cases n <;> first | rfl | exact absurd h (by simp [ast_node.is_binop])

theorem reorder_fires_not_of_not_binop (lhs rhs : ast_node) (h : lhs.is_binop = false) :
    reorder_fires .NOT lhs rhs = false := by
  cases lhs <;> first | rfl | exact absurd h (by simp [ast_node.is_binop])

theorem reordered_binop (op : Operator) (l r : ast_node) :
    reordered (.BinOp op l r) = (reordered l && reordered r && !reorder_fires op l r) := rfl

/-- A tree on which no rule fires is left as it is by `reorder`, with `dirty` unset. -/
theorem reorder_of_reordered : ∀ (n : ast_node), reordered n = true → reorder n = (n, false) := by
  intro n
  induction n with
  | BinOp op l r ihl ihr =>
    intro h
    rw [reordered_binop] at h
    simp only [Bool.and_eq_true, Bool.not_eq_true', Bool.not_eq_eq_eq_not, Bool.not_true] at h
    obtain ⟨⟨hl, hr⟩, hf⟩ := h
    rw [reorder_binop, ihl hl, ihr hr]
    unfold reorder_fires at hf
    by_cases hand : op = .AND ∨ op = .STRICT_AND
    · rw [if_pos hand] at hf ⊢
      have hc : ¬ (l.is_binop = true ∧ r.is_unary = true) := by
        intro hc
        rw [hc.1, hc.2] at hf
        exact absurd hf (by decide)
      rw [if_neg hc]
      rfl
    · rw [if_neg hand] at hf ⊢
      by_cases hnot : op = .NOT
      · rw [if_pos hnot] at hf ⊢
        cases l with
        | BinOp lop llhs lrhs =>
          simp only [] at hf ⊢
          have hc : ¬ (r.is_unary = true ∧ llhs.is_unary = true ∧ lrhs.is_binop = true ∧
              (lop = .AND ∨ lop = .STRICT_AND)) := by
            intro hc
            rw [hc.1, hc.2.1, hc.2.2.1, decide_eq_true hc.2.2.2] at hf
            exact absurd hf (by decide)
          rw [if_neg hc]
          rfl
        | Token p => rfl
        | Phrase p => rfl
        | UnaryOp o e => rfl
        | ConstTrueExpr e => rfl
        | ConstFalse => rfl
        | Dummy => rfl
      · rw [if_neg hnot]
        rfl
  | Token p => intro _; rfl
  | Phrase p => intro _; rfl
  | UnaryOp op e _ => intro _; rfl
  | ConstTrueExpr e _ => intro _; rfl
  | ConstFalse => intro _; rfl
  | Dummy => intro _; rfl

/-- One pass of `reorder` leaves a tree on which no rule fires. -/
theorem reordered_reorder : ∀ (n : ast_node), reordered (reorder n).1 = true := by
  intro n
  induction n with
  | BinOp op l r ihl ihr =>
    rw [reorder_binop]
    by_cases hand : op = .AND ∨ op = .STRICT_AND
    · rw [if_pos hand]
      by_cases hc : (reorder l).1.is_binop = true ∧ (reorder r).1.is_unary = true
      · rw [if_pos hc]
        show reordered (.BinOp op (reorder r).1 (reorder l).1) = true
        rw [reordered_binop, ihl, ihr]
        unfold reorder_fires
        rw [if_pos hand, unary_not_binop _ hc.2]
        rfl
      · rw [if_neg hc]
        show reordered (.BinOp op (reorder l).1 (reorder r).1) = true
        rw [reordered_binop, ihl, ihr]
        unfold reorder_fires
        rw [if_pos hand]
        cases h1 : (reorder l).1.is_binop
        · rfl
        · cases h2 : (reorder r).1.is_unary
          · rfl
          · exact absurd ⟨h1, h2⟩ hc
    · rw [if_neg hand]
      by_cases hnot : op = .NOT
      · subst hnot
        rw [if_pos rfl]
        have base : ∀ m, reordered m = true → reorder_fires .NOT m (reorder r).1 = false →
            reordered (.BinOp .NOT m (reorder r).1) = true := by
          intro m hm hf
          rw [reordered_binop, hm, ihr, hf]
          rfl
        cases hl : (reorder l).1 with
        | BinOp lop llhs lrhs =>
          simp only []
          rw [hl, reordered_binop] at ihl
          simp only [Bool.and_eq_true] at ihl
          by_cases hc : (reorder r).1.is_unary = true ∧ llhs.is_unary = true ∧
              lrhs.is_binop = true ∧ (lop = .AND ∨ lop = .STRICT_AND)
          · rw [if_pos hc]
            show reordered (.BinOp lop (.BinOp .NOT llhs (reorder r).1) lrhs) = true
            rw [reordered_binop, ihl.1.2,
              base llhs ihl.1.1 (reorder_fires_not_of_not_binop _ _ (unary_not_binop _ hc.2.1))]
            unfold reorder_fires
            rw [if_pos hc.2.2.2, binop_not_unary _ hc.2.2.1]
            rfl
          · rw [if_neg hc]
            apply base
            · rw [reordered_binop]
              simp only [Bool.and_eq_true]
              exact ihl
            · unfold reorder_fires
              rw [if_neg (by decide), if_pos rfl]
              simp only []
              cases h1 : (reorder r).1.is_unary
              · rfl
              · cases h2 : llhs.is_unary
                · rfl
                · cases h3 : lrhs.is_binop
                  · rfl
                  · by_cases h4 : lop = .AND ∨ lop = .STRICT_AND
                    · exact absurd ⟨h1, h2, h3, h4⟩ hc
                    · simp [h4]
        | Token p => simp only []; exact base _ rfl rfl
        | Phrase p => simp only []; exact base _ rfl rfl
        | UnaryOp o e => simp only []; exact base _ rfl rfl
        | ConstTrueExpr e => simp only []; exact base _ rfl rfl
        | ConstFalse => simp only []; exact base _ rfl rfl
        | Dummy => simp only []; exact base _ rfl rfl
      · rw [if_neg hnot]
        show reordered (.BinOp op (reorder l).1 (reorder r).1) = true
        rw [reordered_binop, ihl, ihr]
        unfold reorder_fires
        rw [if_neg hand, if_neg hnot]
        rfl
  | Token p => rfl
  | Phrase p => rfl
  | UnaryOp op e _ => rfl
  | ConstTrueExpr e _ => rfl
  | ConstFalse => rfl
  | Dummy => rfl

/-- The loop of `reorder_root` ends after at most two passes, with the tree of the first. -/
theorem reorder_root_loop_eq (fuel : Nat) (t : ast_node) :
    reorder_root_loop (fuel + 2) t = some (reorder t).1 := by
  have h2 : reorder (reorder t).1 = ((reorder t).1, false) :=
    reorder_of_reordered _ (reordered_reorder t)
  have step : ∀ (k : Nat) (n : ast_node), reorder_root_loop (k + 1) n =
      if (reorder n).2 then reorder_root_loop k (reorder n).1 else some (reorder n).1 :=
    fun _ _ => rfl
  rw [step]
  by_cases hd : (reorder t).2 = true
  · rw [if_pos hd, step, h2]
    rfl
  · rw [if_neg hd]

/-- C24. Heuristic reordering preserves truth value. For every query tree `t` and every
assignment `v` of truth values to its leaves, `reorder_root(t)` returns (its loop ends
within two passes) a tree with the same boolean value as `t`, on which a further pass
changes nothing. The NOT rule turns `((L AND R) NOT X)`, with `L` and `X` leaves and `R`
a binop, into exactly `((L NOT X) AND R)`, with `R` as its own reordering leaves it; the
AND rule only exchanges the two (reordered) operands or leaves them in place. -/
theorem reorder_preserves_truth (t : ast_node) (v : ast_node → Bool) (fuel : Nat)
    (hfuel : 2 ≤ fuel) :
    (∃ r, reorder_root_loop fuel t = some r ∧ ast_truth v r = ast_truth v t ∧
      reorder r = (r, false)) ∧
    (∀ lop L R X, t = .BinOp .NOT (.BinOp lop L R) X →
      lop = .AND ∨ lop = .STRICT_AND → L.is_unary = true → X.is_unary = true →
      R.is_binop = true →
      reorder t = (.BinOp lop (.BinOp .NOT L X) (reorder R).1, true)) ∧
    (∀ op L R, t = .BinOp op L R → op = .AND ∨ op = .STRICT_AND →
      (reorder t).1 = .BinOp op (reorder L).1 (reorder R).1 ∨
        (reorder t).1 = .BinOp op (reorder R).1 (reorder L).1) := by
  refine ⟨?_, ?_, ?_⟩
  · obtain ⟨k, rfl⟩ : ∃ k, fuel = k + 2 := ⟨fuel - 2, by omega⟩
    exact ⟨(reorder t).1, reorder_root_loop_eq k t, reorder_truth v t,
      reorder_of_reordered _ (reordered_reorder t)⟩
  · intro lop L R X ht hlop hL hX hR
    subst ht
    have eL : reorder L = (L, false) := reorder_leaf L (unary_not_binop L hL)
    have eX : reorder X = (X, false) := reorder_leaf X (unary_not_binop X hX)
    have hLb : ¬ ((reorder L).1.is_binop = true ∧ (reorder R).1.is_unary = true) := by
      rw [eL, unary_not_binop L hL]
      exact fun h => absurd h.1 (by decide)
    have inner : (reorder (.BinOp lop L R)).1 = .BinOp lop L (reorder R).1 := by
      rw [reorder_binop, if_pos hlop, if_neg hLb, eL]
    rw [reorder_binop, if_neg (by decide), if_pos rfl, inner, eX]
    simp only []
    rw [if_pos ⟨hX, hL, by rw [reorder_is_binop]; exact hR, hlop⟩]
  · intro op L R ht hop
    subst ht
    rw [reorder_binop, if_pos hop]
    by_cases hc : (reorder L).1.is_binop = true ∧ (reorder R).1.is_unary = true
    · rw [if_pos hc]; exact Or.inr rfl
    · rw [if_neg hc]; exact Or.inl rfl

/-- C24 (witness). The tree `(apple AND (banana OR phone)) NOT pear` becomes
`(apple NOT pear) AND (banana OR phone)` and keeps its value, true under the assignment
that makes `apple` and `phone` true. -/
theorem reorder_preserves_truth_witness :
    2 ≤ 2 ∧
    (∃ r, reorder_root_loop 2 query_not_over_and = some r ∧
      ast_truth leaf_assignment r = ast_truth leaf_assignment query_not_over_and ∧
      reorder r = (r, false)) ∧
    reorder query_not_over_and =
      (.BinOp .AND (.BinOp .NOT (token_node apple 0) (token_node pear 3))
        (reorder (.BinOp .OR (token_node banana 1) (token_node phone 2))).1, true) ∧
    ast_truth leaf_assignment query_not_over_and = true :=
  ⟨by decide,
   (reorder_preserves_truth query_not_over_and leaf_assignment 2 (by decide)).1,
   (reorder_preserves_truth query_not_over_and leaf_assignment 2 (by decide)).2.1
     .AND (token_node apple 0) (.BinOp .OR (token_node banana 1) (token_node phone 2))
     (token_node pear 3) rfl (Or.inl rfl) rfl rfl rfl,
   by decide⟩

namespace Lucene

/-! ## The skip-list search -/

theorem skiplist_search_loop_spec (sl : List skiplist_entry) (target : Nat)
    (hsorted : ∀ i j, i < j → j < sl.length →
      (sl.getD i default).lastDocID < (sl.getD j default).lastDocID) :
    ∀ (fuel data n : Nat), 1 ≤ n → n ≤ fuel + 1 → data + n ≤ sl.length →
      (∀ j, data + n ≤ j → j < sl.length → target ≤ (sl.getD j default).lastDocID) →
      (∀ j, skiplist_search_loop sl target fuel data n < j → j < sl.length →
          target ≤ (sl.getD j default).lastDocID) ∧
        (skiplist_search_loop sl target fuel data n = data ∨
          (sl.getD (skiplist_search_loop sl target fuel data n) default).lastDocID < target) := by
  intro fuel
  induction fuel with
  | zero =>
    intro data n hn hf _ hP
    have e : skiplist_search_loop sl target 0 data n = data := rfl
    rw [e]
    exact ⟨fun j hj hl => hP j (by omega) hl, Or.inl rfl⟩
  | succ fuel ih =>
    intro data n hn hf hlen hP
    rw [skiplist_search_loop]
    by_cases h : n / 2 = 0
    · rw [if_pos h]
      have hn1 : n = 1 := by omega
      exact ⟨fun j hj hl => hP j (by omega) hl, Or.inl rfl⟩
    · rw [if_neg h]
      have hhalf : n / 2 ≤ n := Nat.div_le_self n 2
      have hh2 : 2 * (n / 2) ≤ n := by omega
      have hn2 : 1 ≤ n - n / 2 := by omega
      have hf2 : n - n / 2 ≤ fuel + 1 := by omega
      by_cases hc : (sl.getD (data + n / 2) default).lastDocID < target
      · simp only [if_pos hc]
        obtain ⟨q1, q2⟩ := ih (data + n / 2) (n - n / 2) hn2 hf2 (by omega)
          (fun j hj hl => hP j (by omega) hl)
        refine ⟨q1, Or.inr ?_⟩
        rcases q2 with e | e
        · rw [e]; exact hc
        · exact e
      · simp only [if_neg hc]
        have hm : target ≤ (sl.getD (data + n / 2) default).lastDocID := by omega
        exact ih data (n - n / 2) hn2 hf2 (by omega) (by
          intro j hj hl
          by_cases hjm : j = data + n / 2
          · rw [hjm]; exact hm
          · have := hsorted (data + n / 2) j (by omega) hl
            omega)

/-- C25. Skip-list search. For every skip list sorted by strictly increasing `lastDocID`
(of at most `UINT32_MAX` entries, so that no index is the value `UINT32_MAX`), every
start index `skipListIdx` below its size and every target: `skiplist_search` returns
`UINT32_MAX` iff no entry at an index from `skipListIdx` on has a `lastDocID` below the
target, and otherwise returns the index of the largest such entry. -/
theorem skiplist_search_largest_below (dec : Decoder) (it : PostingsListIterator)
    (target : Nat)
    (hsorted : ∀ i j, i < j → j < dec.skiplist.length →
      (dec.skiplist.getD i default).lastDocID < (dec.skiplist.getD j default).lastDocID)
    (hidx : it.skipListIdx < dec.skiplist.length)
    (hsize : dec.skiplist.length ≤ UINT32_MAX) :
    (dec.skiplist_search it target = UINT32_MAX ↔
      ∀ j, it.skipListIdx ≤ j → j < dec.skiplist.length →
        ¬ (dec.skiplist.getD j default).lastDocID < target) ∧
    (dec.skiplist_search it target ≠ UINT32_MAX →
      it.skipListIdx ≤ dec.skiplist_search it target ∧
      dec.skiplist_search it target < dec.skiplist.length ∧
      (dec.skiplist.getD (dec.skiplist_search it target) default).lastDocID < target ∧
      ∀ j, it.skipListIdx ≤ j → j < dec.skiplist.length →
        (dec.skiplist.getD j default).lastDocID < target → j ≤ dec.skiplist_search it target) := by
  have hb := skiplist_search_loop_bounds dec.skiplist target
    (dec.skiplist.length - it.skipListIdx) it.skipListIdx
    (dec.skiplist.length - it.skipListIdx) (by omega)
  obtain ⟨q1, q2⟩ := skiplist_search_loop_spec dec.skiplist target hsorted
    (dec.skiplist.length - it.skipListIdx) it.skipListIdx
    (dec.skiplist.length - it.skipListIdx) (by omega) (by omega) (by omega)
    (fun j hj hl => absurd hl (by omega))
  have hdef : dec.skiplist_search it target =
      if target > (dec.skiplist.getD (skiplist_search_loop dec.skiplist target
          (dec.skiplist.length - it.skipListIdx) it.skipListIdx
          (dec.skiplist.length - it.skipListIdx)) default).lastDocID
      then skiplist_search_loop dec.skiplist target
          (dec.skiplist.length - it.skipListIdx) it.skipListIdx
          (dec.skiplist.length - it.skipListIdx)
      else UINT32_MAX := rfl
  generalize skiplist_search_loop dec.skiplist target
    (dec.skiplist.length - it.skipListIdx) it.skipListIdx
    (dec.skiplist.length - it.skipListIdx) = r at hb q1 q2 hdef
  have hr : r ≠ UINT32_MAX := by omega
  rw [hdef]
  by_cases hc : target > (dec.skiplist.getD r default).lastDocID
  · rw [if_pos hc]
    refine ⟨⟨fun h => absurd h hr, fun h => absurd hc (h r hb.1 (by omega))⟩, ?_⟩
    intro _
    refine ⟨hb.1, by omega, hc, ?_⟩
    intro j _ hl hlt
    by_contra hgt
    have := q1 j (by omega) hl
    omega
  · rw [if_neg hc]
    refine ⟨⟨?_, fun _ => rfl⟩, fun h => absurd rfl h⟩
    intro _ j hj hl hlt
    have hrd : r = it.skipListIdx := by
      rcases q2 with e | e
      · exact e
      · exact absurd e hc
    by_cases hjr : j = r
    · rw [hjr] at hlt; exact hc hlt
    · have := q1 j (by omega) hl
      omega

/-- C25 (witness). In the skip list with the last ids 10, 20, 30, 40, 50, searched from
index 1: the target 35 finds index 2, and the target 20 finds nothing. -/
theorem skiplist_search_largest_below_witness :
    skiplist_decoder.skiplist_search { skiplist_decoder.new_iterator with skipListIdx := 1 } 35
        = 2 ∧
      skiplist_decoder.skiplist_search
        { skiplist_decoder.new_iterator with skipListIdx := 1 } 20 = UINT32_MAX ∧
      ((skiplist_decoder.skiplist_search
          { skiplist_decoder.new_iterator with skipListIdx := 1 } 20 = UINT32_MAX ↔
        ∀ j, 1 ≤ j → j < skiplist_decoder.skiplist.length →
          ¬ (skiplist_decoder.skiplist.getD j default).lastDocID < 20)) :=
  ⟨by decide, by decide,
   (skiplist_search_largest_below skiplist_decoder
      { skiplist_decoder.new_iterator with skipListIdx := 1 } 20
      (by
        intro i j hij hj
        have hj5 : j < 5 := hj
        interval_cases j <;> interval_cases i <;> decide)
      (by decide) (by decide)).1⟩

end Lucene

/-! ## Candidate selection in the driver loop -/

theorem select_list_cons (c : runtime_ctx) (t : Nat) (rest : List Nat) (i docID : Nat)
    (toAdvance : List Nat) :
    select_list c (t :: rest) i docID toAdvance =
      if (c.decoders t).curDocument_id < docID then
        select_list c rest (i + 1) (c.decoders t).curDocument_id [i]
      else if (c.decoders t).curDocument_id = docID then
        select_list c rest (i + 1) docID (toAdvance ++ [i])
      else select_list c rest (i + 1) docID toAdvance := rfl

theorem filter_range_snoc (p : Nat → Bool) (n : Nat) :
    (List.range (n + 1)).filter p = (List.range n).filter p ++ (if p n then [n] else []) := by
  rw [List.range_succ, List.filter_append]
  by_cases h : p n = true
  · simp [h]
  · simp [h]

theorem select_list_spec (c : runtime_ctx) : ∀ (rest pre : List Nat) (docID : Nat)
    (toAdvance : List Nat),
    (∀ t ∈ pre, docID ≤ (c.decoders t).curDocument_id) →
    (∃ t ∈ pre, (c.decoders t).curDocument_id = docID) →
    toAdvance = (List.range pre.length).filter
      (fun k => decide ((c.decoders (pre.getD k 0)).curDocument_id = docID)) →
    (∀ t ∈ pre ++ rest,
      (select_list c rest pre.length docID toAdvance).1 ≤ (c.decoders t).curDocument_id) ∧
    (∃ t ∈ pre ++ rest, (c.decoders t).curDocument_id =
      (select_list c rest pre.length docID toAdvance).1) ∧
    (select_list c rest pre.length docID toAdvance).2 =
      (List.range (pre ++ rest).length).filter
        (fun k => decide ((c.decoders ((pre ++ rest).getD k 0)).curDocument_id =
          (select_list c rest pre.length docID toAdvance).1)) := by
  intro rest
  induction rest with
  | nil =>
    intro pre docID toAdvance hmin hex hadv
    simp only [select_list, List.append_nil]
    exact ⟨hmin, hex, hadv⟩
  | cons t rest ih =>
    intro pre docID toAdvance hmin hex hadv
    have hlen : (pre ++ [t]).length = pre.length + 1 := by simp
    have hget : ∀ k, k < pre.length → (pre ++ [t]).getD k 0 = pre.getD k 0 := by
      intro k hk
      rw [List.getD_append _ _ _ _ hk]
    have hlast : (pre ++ [t]).getD pre.length 0 = t := by
      rw [List.getD_append_right _ _ _ _ (le_refl _)]
      simp
    have happ : pre ++ t :: rest = (pre ++ [t]) ++ rest := by simp
    rw [select_list_cons, happ]
    by_cases h1 : (c.decoders t).curDocument_id < docID
    · rw [if_pos h1, ← hlen]
      apply ih
      · intro u hu
        rcases List.mem_append.1 hu with h | h
        · have := hmin u h; omega
        · rw [List.mem_singleton.1 h]
      · exact ⟨t, by simp, rfl⟩
      · rw [hlen, filter_range_snoc, hlast]
        have e : (List.range pre.length).filter
            (fun k => decide ((c.decoders ((pre ++ [t]).getD k 0)).curDocument_id =
              (c.decoders t).curDocument_id)) = [] := by
          rw [List.filter_eq_nil_iff]
          intro k hk
          rw [List.mem_range] at hk
          rw [hget k hk]
          have hm : pre.getD k 0 ∈ pre := by
            rw [List.getD_eq_getElem _ _ hk]
            exact List.getElem_mem hk
          have := hmin _ hm
          simp only [decide_eq_true_eq]
          omega
        rw [e]
        simp
    · rw [if_neg h1]
      by_cases h2 : (c.decoders t).curDocument_id = docID
      · rw [if_pos h2, ← hlen]
        apply ih
        · intro u hu
          rcases List.mem_append.1 hu with h | h
          · exact hmin u h
          · rw [List.mem_singleton.1 h]; omega
        · exact ⟨t, by simp, h2⟩
        · rw [hlen, filter_range_snoc, hlast, hadv]
          congr 1
          · apply List.filter_congr
            intro k hk
            rw [List.mem_range] at hk
            rw [hget k hk]
          · simp [h2]
      · rw [if_neg h2, ← hlen]
        apply ih
        · intro u hu
          rcases List.mem_append.1 hu with h | h
          · exact hmin u h
          · rw [List.mem_singleton.1 h]; omega
        · obtain ⟨u, hu, hue⟩ := hex
          exact ⟨u, List.mem_append_left _ hu, hue⟩
        · rw [hlen, filter_range_snoc, hlast, hadv]
          have e : (decide ((c.decoders t).curDocument_id = docID)) = false := by simp [h2]
          rw [e]
          simp only [Bool.false_eq_true, if_false, List.append_nil]
          apply List.filter_congr
          intro k hk
          rw [List.mem_range] at hk
          rw [hget k hk]

theorem select_leaders_cons (c : runtime_ctx) (t : Nat) (rest : List Nat) (i docID : Nat)
    (toAdvance : Nat → Nat) (toAdvanceCnt : Nat) :
    select_leaders c (t :: rest) i docID toAdvance toAdvanceCnt =
      if (c.decoders t).curDocument_id < docID then
        select_leaders c rest (i + 1) (c.decoders t).curDocument_id
          (Function.update toAdvance 0 (i % 2 ^ 16)) 1
      else if (c.decoders t).curDocument_id = docID then
        select_leaders c rest (i + 1) docID
          (Function.update toAdvance toAdvanceCnt (i % 2 ^ 16)) ((toAdvanceCnt + 1) % 2 ^ 8)
      else select_leaders c rest (i + 1) docID toAdvance toAdvanceCnt := rfl

theorem select_list_step (c : runtime_ctx) (t : Nat) (rest : List Nat) (i docID : Nat)
    (toAdvance : List Nat) :
    select_list c (t :: rest) i docID toAdvance =
      if (c.decoders t).curDocument_id < docID then
        select_list c rest (i + 1) (c.decoders t).curDocument_id [i]
      else if (c.decoders t).curDocument_id = docID then
        select_list c rest (i + 1) docID (toAdvance ++ [i])
      else select_list c rest (i + 1) docID toAdvance := rfl

/-- While the counter does not wrap (there are at most 255 leaders), the selection loop
computes the document and the entries of the loop with the entries kept as a list. -/
theorem select_leaders_eq_list (c : runtime_ctx) : ∀ (rest : List Nat) (i docID : Nat)
    (ta : List Nat) (a : Nat → Nat) (n : Nat),
    n = ta.length → (List.range n).map a = ta → 1 ≤ n → n ≤ i → i + rest.length ≤ 255 →
    (select_leaders c rest i docID a n).1 = (select_list c rest i docID ta).1 ∧
    1 ≤ (select_leaders c rest i docID a n).2.2 ∧
    (select_leaders c rest i docID a n).2.2 ≤ 255 ∧
    (List.range (select_leaders c rest i docID a n).2.2).map
      (select_leaders c rest i docID a n).2.1 = (select_list c rest i docID ta).2 := by
  intro rest
  induction rest with
  | nil =>
    intro i docID ta a n _ hmap h1 hi hb
    have hb1 : i + 0 ≤ 255 := hb
    exact ⟨rfl, h1, by show n ≤ 255; omega, hmap⟩
  | cons t rest ih =>
    intro i docID ta a n hn hmap h1 hi hb
    have hb1 : i + (rest.length + 1) ≤ 255 := hb
    have hmod : i % 2 ^ 16 = i := Nat.mod_eq_of_lt (by omega)
    rw [select_leaders_cons, select_list_step, hmod]
    by_cases hlt : (c.decoders t).curDocument_id < docID
    · rw [if_pos hlt, if_pos hlt]
      apply ih (i + 1) _ [i] _ 1 rfl _ (Nat.le_refl _) (by omega) (by omega)
      show [Function.update a 0 i 0] = [i]
      rw [Function.update_same]
    · rw [if_neg hlt, if_neg hlt]
      by_cases heq : (c.decoders t).curDocument_id = docID
      · rw [if_pos heq, if_pos heq]
        have hm : (n + 1) % 2 ^ 8 = n + 1 := Nat.mod_eq_of_lt (by omega)
        rw [hm]
        apply ih (i + 1) docID (ta ++ [i]) _ (n + 1) (by rw [List.length_append, hn]; rfl) _
          (by omega) (by omega) (by omega)
        rw [List.range_succ, List.map_append, ← hmap]
        congr 1
        · apply List.map_congr_left
          intro k hk
          rw [List.mem_range] at hk
          rw [Function.update_noteq (by omega)]
        · show [Function.update a n i n] = [i]
          rw [Function.update_same]
      · rw [if_neg heq, if_neg heq]
        exact ih (i + 1) docID ta a n hn hmap h1 (by omega) (by omega)

/-- A driver iteration with at most 255 leaders: the selected document and the indices
the do-while reads are those of the selection with the entries kept as a list, read from
the last to the first. -/
theorem select_round_eq_list (c : runtime_ctx) (t0 : Nat) (rest : List Nat)
    (hcnt : (t0 :: rest).length ≤ 255) :
    (select_round c t0 rest).1 = (select_list c rest 1 (c.decoders t0).curDocument_id [0]).1 ∧
    1 ≤ (select_round c t0 rest).2.2 ∧ (select_round c t0 rest).2.2 ≤ 255 ∧
    (List.range (select_round c t0 rest).2.2).map (select_round c t0 rest).2.1 =
      (select_list c rest 1 (c.decoders t0).curDocument_id [0]).2 ∧
    advance_order (select_round c t0 rest).2.1 (select_round c t0 rest).2.2 =
      (select_list c rest 1 (c.decoders t0).curDocument_id [0]).2.reverse := by
  have hl : rest.length + 1 ≤ 255 := hcnt
  obtain ⟨h1, h2, h3, h4⟩ := select_leaders_eq_list c rest 1 (c.decoders t0).curDocument_id [0]
    (fun _ => 0) 1 rfl rfl (Nat.le_refl _) (Nat.le_refl _) (by omega)
  refine ⟨h1, h2, h3, h4, ?_⟩
  unfold advance_order
  have hne : (select_round c t0 rest).2.2 ≠ 0 := by
    have : 1 ≤ (select_round c t0 rest).2.2 := h2
    omega
  rw [if_neg hne]
  exact congrArg List.reverse h4

/-- The document selected, the counter and the indices the do-while reads do not depend
on what the array `toAdvance` held before the iteration. -/
theorem select_leaders_any_array (c : runtime_ctx) : ∀ (rest : List Nat) (i docID : Nat)
    (a b : Nat → Nat) (n : Nat), n < 256 →
    ((∀ k, k < 256 → a k = b k) ∨ (1 ≤ n ∧ ∀ k, k < n → a k = b k)) →
    (select_leaders c rest i docID a n).1 = (select_leaders c rest i docID b n).1 ∧
    (select_leaders c rest i docID a n).2.2 = (select_leaders c rest i docID b n).2.2 ∧
    advance_order (select_leaders c rest i docID a n).2.1 (select_leaders c rest i docID a n).2.2 =
      advance_order (select_leaders c rest i docID b n).2.1
        (select_leaders c rest i docID b n).2.2 := by
  intro rest
  induction rest with
  | nil =>
    intro i docID a b n hn h
    refine ⟨rfl, rfl, ?_⟩
    show advance_order a n = advance_order b n
    unfold advance_order
    congr 1
    apply List.map_congr_left
    intro k hk
    rw [List.mem_range] at hk
    rcases h with h | ⟨h1, h⟩
    · apply h
      by_cases h0 : n = 0
      · rw [if_pos h0] at hk; exact hk
      · rw [if_neg h0] at hk; omega
    · rw [if_neg (by omega)] at hk
      exact h k hk
  | cons t rest ih =>
    intro i docID a b n hn h
    rw [select_leaders_cons, select_leaders_cons]
    by_cases hlt : (c.decoders t).curDocument_id < docID
    · rw [if_pos hlt, if_pos hlt]
      apply ih _ _ _ _ 1 (by omega)
      rcases h with h | ⟨_, h⟩
      · left
        intro k hk
        by_cases hk0 : k = 0
        · rw [hk0, Function.update_same, Function.update_same]
        · rw [Function.update_noteq hk0, Function.update_noteq hk0]
          exact h k hk
      · right
        refine ⟨Nat.le_refl _, ?_⟩
        intro k hk
        have hk0 : k = 0 := by omega
        rw [hk0, Function.update_same, Function.update_same]
    · rw [if_neg hlt, if_neg hlt]
      by_cases heq : (c.decoders t).curDocument_id = docID
      · rw [if_pos heq, if_pos heq]
        have hall : ∀ m, (∀ k, k < m → a k = b k) → ∀ k, k < m → k ≠ n →
            Function.update a n (i % 2 ^ 16) k = Function.update b n (i % 2 ^ 16) k := by
          intro m hm k hk hkn
          rw [Function.update_noteq hkn, Function.update_noteq hkn]
          exact hm k hk
        have hsame : Function.update a n (i % 2 ^ 16) n = Function.update b n (i % 2 ^ 16) n := by
          rw [Function.update_same, Function.update_same]
        apply ih _ _ _ _ _ (Nat.mod_lt _ (by decide))
        rcases h with h | ⟨h1, h⟩
        · left
          intro k hk
          by_cases hkn : k = n
          · rw [hkn]; exact hsame
          · exact hall 256 h k hk hkn
        · by_cases hw : n + 1 = 256
          · left
            intro k hk
            by_cases hkn : k = n
            · rw [hkn]; exact hsame
            · exact hall n h k (by omega) hkn
          · right
            have hm : (n + 1) % 256 = n + 1 := Nat.mod_eq_of_lt (by omega)
            rw [hm]
            refine ⟨by omega, ?_⟩
            intro k hk
            by_cases hkn : k = n
            · rw [hkn]; exact hsame
            · exact hall n h k (by omega) hkn
      · rw [if_neg heq, if_neg heq]
        exact ih _ _ a b n hn h

theorem select_round_any_array (c : runtime_ctx) (t0 : Nat) (rest : List Nat)
    (toAdvance : Nat → Nat) :
    (select_leaders c rest 1 (c.decoders t0).curDocument_id
        (Function.update toAdvance 0 0) 1).1 = (select_round c t0 rest).1 ∧
    (select_leaders c rest 1 (c.decoders t0).curDocument_id
        (Function.update toAdvance 0 0) 1).2.2 = (select_round c t0 rest).2.2 ∧
    advance_order
        (select_leaders c rest 1 (c.decoders t0).curDocument_id
          (Function.update toAdvance 0 0) 1).2.1
        (select_leaders c rest 1 (c.decoders t0).curDocument_id
          (Function.update toAdvance 0 0) 1).2.2 =
      advance_order (select_round c t0 rest).2.1 (select_round c t0 rest).2.2 := by
  apply select_leaders_any_array c rest 1 _ _ _ 1 (by decide)
  right
  refine ⟨Nat.le_refl _, ?_⟩
  intro k hk
  have hk0 : k = 0 := by omega
  rw [hk0, Function.update_same]

theorem advance_leaders_cons (idx : Nat) (rest : List Nat) (c : runtime_ctx)
    (leaders : List Nat) :
    advance_leaders (idx :: rest) c leaders =
      if ((c.decoders (leaders.getD idx 0)).next).1 then
        advance_leaders rest
          { c with decoders := (Function.update c.decoders (leaders.getD idx 0)
              ((c.decoders (leaders.getD idx 0)).next).2) } leaders
      else if leaders.length - 1 = 0 then
        ({ c with decoders := (Function.update c.decoders (leaders.getD idx 0)
              ((c.decoders (leaders.getD idx 0)).next).2) }, [], true)
      else
        advance_leaders rest
          { c with decoders := (Function.update c.decoders (leaders.getD idx 0)
              ((c.decoders (leaders.getD idx 0)).next).2) } (leaders.eraseIdx idx) := rfl

theorem getD_ne_of_nodup (leaders : List Nat) (hn : leaders.Nodup) (i j : Nat)
    (hi : i < leaders.length) (hj : j < leaders.length) (hij : i ≠ j) :
    leaders.getD i 0 ≠ leaders.getD j 0 := by
  rw [List.getD_eq_getElem _ _ hi, List.getD_eq_getElem _ _ hj]
  intro h
  exact hij ((hn.getElem_inj_iff).1 h)

theorem getD_eraseIdx_of_lt (leaders : List Nat) (i j : Nat) (h : j < i) :
    (leaders.eraseIdx i).getD j 0 = leaders.getD j 0 := by
  rw [List.getD_eq_getElem?_getD, List.getD_eq_getElem?_getD,
    List.getElem?_eraseIdx_of_lt _ _ _ h]

/-- The do-while that advances the leaders calls `next()` once on the decoder of each
leader whose index it was given, and on no other decoder. -/
theorem advance_leaders_decoders : ∀ (idxs : List Nat) (c : runtime_ctx) (leaders : List Nat),
    leaders.Nodup → idxs.Sorted (· > ·) → (∀ i ∈ idxs, i < leaders.length) →
    ∀ u, (advance_leaders idxs c leaders).1.decoders u =
      if u ∈ idxs.map (fun i => leaders.getD i 0) then ((c.decoders u).next).2
      else c.decoders u := by
  intro idxs
  induction idxs with
  | nil => intro c leaders _ _ _ u; simp [advance_leaders]
  | cons idx rest ih =>
    intro c leaders hn hs hlt u
    rw [List.sorted_cons] at hs
    obtain ⟨hgt, hs2⟩ := hs
    have hidx : idx < leaders.length := hlt idx (List.mem_cons_self _ _)
    have hrest : ∀ j ∈ rest, j < leaders.length := fun j hj => hlt j (List.mem_cons_of_mem _ hj)
    have hnot : leaders.getD idx 0 ∉ rest.map (fun i => leaders.getD i 0) := by
      intro hm
      obtain ⟨j, hj, hje⟩ := List.mem_map.1 hm
      have := hgt j hj
      exact getD_ne_of_nodup leaders hn j idx (hrest j hj) hidx (by omega) hje
    have key : ∀ (l2 : List Nat), l2.Nodup → (∀ j ∈ rest, j < l2.length) →
        (∀ j ∈ rest, l2.getD j 0 = leaders.getD j 0) →
        (advance_leaders rest
          { c with decoders := (Function.update c.decoders (leaders.getD idx 0)
              ((c.decoders (leaders.getD idx 0)).next).2) } l2).1.decoders u =
        if u ∈ (idx :: rest).map (fun i => leaders.getD i 0) then ((c.decoders u).next).2
        else c.decoders u := by
      intro l2 hn2 hl2 hsame
      rw [ih _ l2 hn2 hs2 hl2 u]
      have hmap : rest.map (fun i => l2.getD i 0) = rest.map (fun i => leaders.getD i 0) :=
        List.map_congr_left hsame
      rw [hmap, List.map_cons]
      by_cases hu : u = leaders.getD idx 0
      · have hnu : u ∉ rest.map (fun i => leaders.getD i 0) := by rw [hu]; exact hnot
        rw [if_neg hnu, if_pos (List.mem_cons.2 (Or.inl hu)), hu]
        simp
      · by_cases hur : u ∈ rest.map (fun i => leaders.getD i 0)
        · rw [if_pos hur, if_pos (List.mem_cons.2 (Or.inr hur))]
          simp [Function.update_noteq hu]
        · rw [if_neg hur, if_neg (fun h => (List.mem_cons.1 h).elim hu hur)]
          simp [Function.update_noteq hu]
    rw [advance_leaders_cons]
    by_cases h1 : ((c.decoders (leaders.getD idx 0)).next).1 = true
    · rw [if_pos h1]
      exact key leaders hn hrest (fun _ _ => rfl)
    · rw [if_neg h1]
      by_cases h2 : leaders.length - 1 = 0
      · rw [if_pos h2]
        have hr : rest = [] := by
          cases rest with
          | nil => rfl
          | cons j _ =>
            have := hgt j (List.mem_cons_self _ _)
            omega
        rw [hr]
        simp only [List.map_cons, List.map_nil, List.mem_singleton]
        by_cases hu : u = leaders.getD idx 0
        · rw [if_pos hu, hu]; simp
        · rw [if_neg hu]; simp [Function.update_noteq hu]
      · rw [if_neg h2]
        refine key (leaders.eraseIdx idx) (hn.eraseIdx idx) ?_ ?_
        · intro j hj
          have := hgt j hj
          rw [List.length_eraseIdx_of_lt hidx]
          omega
        · intro j hj
          exact getD_eraseIdx_of_lt leaders idx j (hgt j hj)

/-- The indices of `toAdvance`, read from the last to the first, are strictly decreasing
and below the number of leaders, and the leaders at them are the leaders standing at the
selected document. -/
theorem to_advance_reverse (c : runtime_ctx) (leaders : List Nat) (docID : Nat)
    (toAdvance : List Nat)
    (hadv : toAdvance = (List.range leaders.length).filter
      (fun i => decide ((c.decoders (leaders.getD i 0)).curDocument_id = docID))) :
    toAdvance.Sorted (· < ·) ∧ toAdvance.reverse.Sorted (· > ·) ∧
    (∀ i ∈ toAdvance.reverse, i < leaders.length) ∧
    (∀ u, u ∈ toAdvance.reverse.map (fun i => leaders.getD i 0) ↔
      (u ∈ leaders ∧ (c.decoders u).curDocument_id = docID)) := by
  have h1 : toAdvance.Sorted (· < ·) := by
    rw [hadv]
    exact (List.sorted_lt_range _).filter _
  refine ⟨h1, List.pairwise_reverse.2 h1, ?_, ?_⟩
  · intro i hi
    rw [List.mem_reverse, hadv] at hi
    exact List.mem_range.1 (List.mem_filter.1 hi).1
  · intro u
    constructor
    · intro h
      obtain ⟨i, hi, hie⟩ := List.mem_map.1 h
      rw [List.mem_reverse, hadv] at hi
      obtain ⟨hi1, hi2⟩ := List.mem_filter.1 hi
      have hil := List.mem_range.1 hi1
      rw [hie] at hi2
      refine ⟨?_, by simpa using hi2⟩
      rw [← hie, List.getD_eq_getElem _ _ hil]
      exact List.getElem_mem hil
    · rintro ⟨hu, hid⟩
      obtain ⟨i, hil, hie⟩ := List.getElem_of_mem hu
      refine List.mem_map.2 ⟨i, ?_, ?_⟩
      · rw [List.mem_reverse, hadv]
        refine List.mem_filter.2 ⟨List.mem_range.2 hil, ?_⟩
        rw [List.getD_eq_getElem _ _ hil, hie]
        simpa using hid
      · show leaders.getD i 0 = u
        rw [List.getD_eq_getElem _ _ hil, hie]

/-- Candidate selection with at most 255 leaders. In a driver iteration over the leaders
`t0 :: rest` (distinct terms, at most 255 of them, so that the 8-bit counter
`toAdvanceCnt` does not wrap), the selected `docID` is the minimum of `curDocument.id`
over the leader decoders, and `toAdvance[0 .. toAdvanceCnt)` holds exactly the indices of
the leaders whose current id is `docID`, each once, in increasing order. When the
masked-documents registry tests true for `docID`, the state is passed on untouched (no
reset, no evaluation, nothing offered to the filter), and the round still calls `next()`
on the decoder of every leader standing at `docID`, and on no other decoder. -/
theorem candidate_selection (root : exec_node) (masked : Nat → Bool) (filter : MatchesFilter)
    (s : driver_state) (t0 : Nat) (rest : List Nat) (fuel : Nat)
    (hl : s.leaders = t0 :: rest) (hn : s.leaders.Nodup) (hcnt : s.leaders.length ≤ 255) :
    (∀ t ∈ s.leaders, (select_round s.ctx t0 rest).1 ≤ (s.ctx.decoders t).curDocument_id) ∧
    (∃ t ∈ s.leaders, (s.ctx.decoders t).curDocument_id = (select_round s.ctx t0 rest).1) ∧
    (List.range (select_round s.ctx t0 rest).2.2).map (select_round s.ctx t0 rest).2.1 =
      (List.range s.leaders.length).filter
        (fun i => decide ((s.ctx.decoders (s.leaders.getD i 0)).curDocument_id =
          (select_round s.ctx t0 rest).1)) ∧
    1 ≤ (select_round s.ctx t0 rest).2.2 ∧ (select_round s.ctx t0 rest).2.2 ≤ 255 ∧
    (masked (select_round s.ctx t0 rest).1 = true →
      driver_consider root masked filter s (select_round s.ctx t0 rest).1 = s ∧
      (∀ u, (advance_leaders
            (advance_order (select_round s.ctx t0 rest).2.1 (select_round s.ctx t0 rest).2.2)
            s.ctx s.leaders).1.decoders u =
          if u ∈ s.leaders ∧ (s.ctx.decoders u).curDocument_id =
              (select_round s.ctx t0 rest).1
          then ((s.ctx.decoders u).next).2 else s.ctx.decoders u) ∧
      driver_loop root masked filter (fuel + 1) s =
        if (advance_leaders
            (advance_order (select_round s.ctx t0 rest).2.1 (select_round s.ctx t0 rest).2.2)
            s.ctx s.leaders).2.2
        then some { s with
          ctx := (advance_leaders
            (advance_order (select_round s.ctx t0 rest).2.1 (select_round s.ctx t0 rest).2.2)
            s.ctx s.leaders).1
          leaders := (advance_leaders
            (advance_order (select_round s.ctx t0 rest).2.1 (select_round s.ctx t0 rest).2.2)
            s.ctx s.leaders).2.1 }
        else driver_loop root masked filter fuel { s with
          ctx := (advance_leaders
            (advance_order (select_round s.ctx t0 rest).2.1 (select_round s.ctx t0 rest).2.2)
            s.ctx s.leaders).1
          leaders := (advance_leaders
            (advance_order (select_round s.ctx t0 rest).2.1 (select_round s.ctx t0 rest).2.2)
            s.ctx s.leaders).2.1 }) := by
  obtain ⟨e1, e2, e3, e4, e5⟩ := select_round_eq_list s.ctx t0 rest (by rw [← hl]; exact hcnt)
  have hsel := select_list_spec s.ctx rest [t0] (s.ctx.decoders t0).curDocument_id [0]
    (by intro t ht; rw [List.mem_singleton.1 ht])
    ⟨t0, List.mem_singleton.2 rfl, rfl⟩
    (by simp [List.range_succ])
  have e6 : [t0] ++ rest = s.leaders := by rw [hl]; rfl
  have e7 : [t0].length = 1 := rfl
  rw [e6, e7] at hsel
  obtain ⟨hmin, hex, hadv⟩ := hsel
  rw [← e1] at hmin hex hadv
  refine ⟨hmin, hex, by rw [e4]; exact hadv, e2, e3, ?_⟩
  intro hm
  have hcons : driver_consider root masked filter s (select_round s.ctx t0 rest).1 = s := by
    unfold driver_consider
    rw [if_pos hm]
  refine ⟨hcons, ?_, ?_⟩
  rotate_left
  · rw [driver_loop]
    simp only [hl]
    rw [hcons]
    simp only [hl]
  · intro u
    rw [e5]
    obtain ⟨_, hsorted, hlt, hiff⟩ := to_advance_reverse s.ctx s.leaders
      (select_round s.ctx t0 rest).1 _ hadv
    rw [advance_leaders_decoders _ s.ctx s.leaders hn hsorted hlt u]
    by_cases hc : u ∈ s.leaders ∧
        (s.ctx.decoders u).curDocument_id = (select_round s.ctx t0 rest).1
    · rw [if_pos ((hiff u).2 hc), if_pos hc]
    · rw [if_neg (fun h => hc ((hiff u).1 h)), if_neg hc]

set_option maxRecDepth 100000 in
/-- With the leaders `apple` (d1, d2), `banana` (d2, d3) and `phone` (d1, d3), the first
round selects document 1 and the leaders 0 and 2; document 1 being masked, the state is
passed on untouched. -/
theorem candidate_selection_witness :
    driver_fixture.leaders = 1 :: [2, 3] ∧ driver_fixture.leaders.Nodup ∧
    driver_fixture.leaders.length ≤ 255 ∧
    (List.range (select_round driver_fixture.ctx 1 [2, 3]).2.2).map
        (select_round driver_fixture.ctx 1 [2, 3]).2.1 =
      (List.range driver_fixture.leaders.length).filter
        (fun i => decide
          ((driver_fixture.ctx.decoders (driver_fixture.leaders.getD i 0)).curDocument_id =
            (select_round driver_fixture.ctx 1 [2, 3]).1)) ∧
    driver_consider .noop_impl (fun d => decide (d = 1)) (fun _ _ => .Continue) driver_fixture
        (select_round driver_fixture.ctx 1 [2, 3]).1 = driver_fixture ∧
    (select_round driver_fixture.ctx 1 [2, 3]).1 = 1 ∧
    (select_round driver_fixture.ctx 1 [2, 3]).2.2 = 2 ∧
    (List.range (select_round driver_fixture.ctx 1 [2, 3]).2.2).map
        (select_round driver_fixture.ctx 1 [2, 3]).2.1 = [0, 2] :=
  ⟨rfl, by decide, by decide,
   (candidate_selection .noop_impl (fun d => decide (d = 1)) (fun _ _ => .Continue)
      driver_fixture 1 [2, 3] 0 rfl (by decide) (by decide)).2.2.1,
   ((candidate_selection .noop_impl (fun d => decide (d = 1)) (fun _ _ => .Continue)
      driver_fixture 1 [2, 3] 0 rfl (by decide) (by decide)).2.2.2.2.2 (by decide)).1,
   by decide, by decide, by decide⟩

set_option maxRecDepth 1000000 in
/-- C26 (the code at the failing input). With 257 leaders, all standing on document 1,
the selection loop ends with `docID = 1`, `toAdvanceCnt = 1` and `toAdvance[0] = 256`:
the 8-bit counter went from 255 to 0 with the 256th entry, and the entry of the 257th
leader was written over the first. `toAdvance[0 .. toAdvanceCnt)` holds the one index
256, though each of the 257 leaders stands at `docID`. -/
theorem select_leaders_counter_wraps :
    crowded_fixture.leaders = 1 :: (List.range 256).map (fun i => i + 2) ∧
    crowded_fixture.leaders.length = 257 ∧ crowded_fixture.leaders.Nodup ∧
    (∀ t ∈ crowded_fixture.leaders, (crowded_fixture.ctx.decoders t).curDocument_id = 1) ∧
    (select_round crowded_fixture.ctx 1 ((List.range 256).map (fun i => i + 2))).1 = 1 ∧
    (select_round crowded_fixture.ctx 1 ((List.range 256).map (fun i => i + 2))).2.2 = 1 ∧
    (List.range
        (select_round crowded_fixture.ctx 1 ((List.range 256).map (fun i => i + 2))).2.2).map
      (select_round crowded_fixture.ctx 1 ((List.range 256).map (fun i => i + 2))).2.1 =
      [256] ∧
    (List.range crowded_fixture.leaders.length).filter
        (fun i => decide
          ((crowded_fixture.ctx.decoders (crowded_fixture.leaders.getD i 0)).curDocument_id =
            (select_round crowded_fixture.ctx 1
              ((List.range 256).map (fun i => i + 2))).1)) =
      List.range 257 := by
  refine ⟨by decide, by decide, by decide, by decide, by decide, by decide, by decide,
    by decide⟩

/-! ## The generation counter -/

/-- C27. Generation counter wraparound. For every runtime context (whose 16-bit
`curDocSeq` is at most `UINT16_MAX`), after `reset(did)` the counter `curDocSeq` is in
`[1, UINT16_MAX]`. When it was `UINT16_MAX` before the call, afterwards it is 1, each of
the `termsDict.size() + 1` slots of `curDocQueryTokensCaptured` is 0 and the `docSeq` of
each of the `capacity` hits buffers is 0, so no term counts as captured or materialized for
the new document: a materialization decodes. The context `exec_query` starts with has
`curDocSeq = UINT16_MAX`, so the first document takes this branch. -/
theorem reset_generation_wraparound (c : runtime_ctx) (did : Nat)
    (hseq : c.curDocSeq ≤ UINT16_MAX) :
    (1 ≤ (c.reset did).curDocSeq ∧ (c.reset did).curDocSeq ≤ UINT16_MAX) ∧
    (c.curDocSeq = UINT16_MAX →
      (c.reset did).curDocSeq = 1 ∧
      (∀ t, t < c.termsDictSize + 1 → (c.reset did).curDocQueryTokensCaptured t = 0) ∧
      (∀ i, i < c.capacity → ((c.reset did).termHits i).docSeq = 0) ∧
      (∀ t, t < c.termsDictSize + 1 →
        (c.reset did).curDocQueryTokensCaptured t ≠ (c.reset did).curDocSeq) ∧
      (∀ i, i < c.capacity →
        ((c.reset did).termHits i).docSeq ≠ (c.reset did).curDocSeq ∧
        materialize_term_hits (c.reset did) i = materialize_term_hits_impl (c.reset did) i) ∧
      (c.reset did).matchedTerms = []) ∧
    (c.curDocSeq ≠ UINT16_MAX → (c.reset did).curDocSeq = c.curDocSeq + 1) ∧
    (∀ (src : IndexSource) (dict : TermsDict) (oqti : Nat → Option query_term_instances),
      (initial_ctx src dict oqti).curDocSeq = UINT16_MAX ∧
      ((initial_ctx src dict oqti).reset did).curDocSeq = 1) := by
  refine ⟨?_, ?_, ?_, ?_⟩
  · unfold runtime_ctx.reset
    by_cases h : c.curDocSeq = UINT16_MAX
    · rw [if_pos h]
      show 1 ≤ 1 ∧ 1 ≤ UINT16_MAX
      exact ⟨le_refl _, by decide⟩
    · rw [if_neg h]
      show 1 ≤ c.curDocSeq + 1 ∧ c.curDocSeq + 1 ≤ UINT16_MAX
      omega
  · intro h
    have e : c.reset did =
        { c with
          curDocID := did
          docWordsSpace := c.docWordsSpace.reset did
          matchedTerms := []
          curDocQueryTokensCaptured := fun t =>
            if t < c.termsDictSize + 1 then 0 else c.curDocQueryTokensCaptured t
          termHits := fun i =>
            if i < c.capacity then { c.termHits i with docSeq := 0 } else c.termHits i
          curDocSeq := 1 } := by
      unfold runtime_ctx.reset
      rw [if_pos h]
    have hcap : ∀ t, t < c.termsDictSize + 1 → (c.reset did).curDocQueryTokensCaptured t = 0 := by
      intro t ht
      rw [e]
      exact if_pos ht
    have hhits : ∀ i, i < c.capacity → ((c.reset did).termHits i).docSeq = 0 := by
      intro i hi
      rw [e]
      show (if i < c.capacity then { c.termHits i with docSeq := 0 } else c.termHits i).docSeq = 0
      rw [if_pos hi]
    have hone : (c.reset did).curDocSeq = 1 := by rw [e]
    refine ⟨hone, hcap, hhits, ?_, ?_, by rw [e]⟩
    · intro t ht
      rw [hcap t ht, hone]
      decide
    · intro i hi
      have hne : ((c.reset did).termHits i).docSeq ≠ (c.reset did).curDocSeq := by
        rw [hhits i hi, hone]
        decide
      refine ⟨hne, ?_⟩
      unfold materialize_term_hits
      rw [if_pos hne]
  · intro h
    unfold runtime_ctx.reset
    rw [if_neg h]
  · intro src dict oqti
    exact ⟨rfl, rfl⟩

/-- C27 (witness). The fixture context, which `exec_query` starts with, has
`curDocSeq = UINT16_MAX`; after `reset(1)` the counter is 1 and the flags are clear. -/
theorem reset_generation_wraparound_witness :
    capture_fixture.curDocSeq ≤ UINT16_MAX ∧
    (1 ≤ (capture_fixture.reset 1).curDocSeq ∧ (capture_fixture.reset 1).curDocSeq ≤ UINT16_MAX) ∧
    ((capture_fixture.reset 1).curDocSeq = 1 ∧
      (∀ t, t < capture_fixture.termsDictSize + 1 →
        (capture_fixture.reset 1).curDocQueryTokensCaptured t = 0) ∧
      (∀ i, i < capture_fixture.capacity → ((capture_fixture.reset 1).termHits i).docSeq = 0) ∧
      (∀ t, t < capture_fixture.termsDictSize + 1 →
        (capture_fixture.reset 1).curDocQueryTokensCaptured t ≠
          (capture_fixture.reset 1).curDocSeq) ∧
      (∀ i, i < capture_fixture.capacity →
        ((capture_fixture.reset 1).termHits i).docSeq ≠ (capture_fixture.reset 1).curDocSeq ∧
        materialize_term_hits (capture_fixture.reset 1) i =
          materialize_term_hits_impl (capture_fixture.reset 1) i) ∧
      (capture_fixture.reset 1).matchedTerms = []) :=
  ⟨by decide,
   (reset_generation_wraparound capture_fixture 1 (by decide)).1,
   (reset_generation_wraparound capture_fixture 1 (by decide)).2.1 rfl⟩

/-! ## Session-local term ids -/

theorem resolve_terms_dict_length (ts : List str8_t) :
    (resolve_terms ts []).2.length = ts.dedup.length := by
  have hn := resolve_terms_nodup ts [] List.nodup_nil
  have hm : ∀ a, a ∈ (resolve_terms ts []).2 ↔ a ∈ ts.dedup := by
    intro a
    rw [resolve_terms_mem, List.mem_dedup]
    simp
  exact ((List.perm_ext_iff_of_nodup hn (List.nodup_dedup ts)).2 hm).length_eq

theorem resolve_terms_getD (ts : List str8_t) (dict : TermsDict) (i : Nat) (hi : i < ts.length) :
    (resolve_terms ts dict).1.getD i 0 = (resolve_terms ts dict).2.lookup (ts.getD i []) := by
  have h := (resolve_terms_ids ts dict).1
  have hl : i < (resolve_terms ts dict).1.length := by rw [resolve_terms_length]; exact hi
  rw [List.getD_eq_getElem _ _ hl, List.getD_eq_getElem _ _ hi]
  have : ∀ (l : List Nat) (hl2 : i < l.length), l = ts.map (resolve_terms ts dict).2.lookup →
      l[i] = (resolve_terms ts dict).2.lookup ts[i] := by
    intro l hl2 e
    subst e
    rw [List.getElem_map]
  exact this _ hl h

/-- C28. Session-local term ids are dense. For every sequence `ts` of `resolve_term` calls
from the empty dictionary on (with at most `UINT16_MAX` distinct terms, which is what the
16-bit id type can number): one id is handed out per call and none is 0, each fits 16
bits; a call for a term not resolved before gets the number of distinct terms resolved
before it plus one (the k-th distinct term gets id k); two calls get the same id iff they
are for the same term; and the set of the ids handed out is exactly
`[1, number of distinct terms]`, which is also the size of the dictionary. -/
theorem session_term_ids_dense (ts : List str8_t) (hbound : ts.dedup.length ≤ UINT16_MAX) :
    (resolve_terms ts []).1.length = ts.length ∧
    (∀ id ∈ (resolve_terms ts []).1, id ≠ 0 ∧ id ≤ UINT16_MAX) ∧
    (∀ i, i < ts.length → ts.getD i [] ∉ ts.take i →
      (resolve_terms ts []).1.getD i 0 = (ts.take i).dedup.length + 1) ∧
    (∀ i j, i < ts.length → j < ts.length →
      (ts.getD i [] = ts.getD j [] ↔
        (resolve_terms ts []).1.getD i 0 = (resolve_terms ts []).1.getD j 0)) ∧
    (∀ k, k ∈ (resolve_terms ts []).1 ↔ 1 ≤ k ∧ k ≤ ts.dedup.length) ∧
    (resolve_terms ts []).2.length = ts.dedup.length := by
  have hids := resolve_terms_ids ts []
  have hn := resolve_terms_nodup ts [] List.nodup_nil
  have hlen := resolve_terms_dict_length ts
  have hmem : ∀ a, a ∈ (resolve_terms ts []).2 ↔ a ∈ ts := by
    intro a
    rw [resolve_terms_mem]
    simp
  have hrange : ∀ k, k ∈ (resolve_terms ts []).1 ↔ 1 ≤ k ∧ k ≤ ts.dedup.length := by
    intro k
    rw [hids.1, List.mem_map]
    constructor
    · rintro ⟨t, ht, rfl⟩
      have h0 : (resolve_terms ts []).2.lookup t ≠ 0 :=
        (lookup_ne_zero_iff t _).2 ((hmem t).2 ht)
      have h1 := lookup_le_length t (resolve_terms ts []).2
      rw [hlen] at h1
      omega
    · rintro ⟨h1, h2⟩
      have hk : k - 1 < (resolve_terms ts []).2.length := by rw [hlen]; omega
      refine ⟨(resolve_terms ts []).2.get ⟨k - 1, hk⟩, ?_, ?_⟩
      · exact (hmem _).1 (List.get_mem _ _ _)
      · rw [lookup_get _ hn (k - 1) hk]
        omega
  refine ⟨resolve_terms_length ts [], ?_, ?_, ?_, hrange, hlen⟩
  · intro id hid
    have := (hrange id).1 hid
    exact ⟨hids.2 id hid, by omega⟩
  · intro i hi hnew
    have hsplit : ts = ts.take i ++ (ts.getD i [] :: ts.drop (i + 1)) := by
      rw [List.getD_eq_getElem _ _ hi, ← List.drop_eq_getElem_cons hi, List.take_append_drop]
    have hfresh : (resolve_terms (ts.take i) []).2.lookup (ts.getD i []) = 0 := by
      by_contra h
      have := (lookup_ne_zero_iff _ _).1 h
      rw [resolve_terms_mem] at this
      simp only [List.not_mem_nil, false_or] at this
      exact hnew this
    have hl1 : (resolve_terms (ts.take i) []).1.length = i := by
      rw [resolve_terms_length, List.length_take]
      omega
    have e0 : (resolve_terms ts []).1 =
        (resolve_terms (ts.take i ++ (ts.getD i [] :: ts.drop (i + 1))) []).1 :=
      congrArg (fun l => (resolve_terms l []).1) hsplit
    have e : (resolve_terms ts []).1 =
        (resolve_terms (ts.take i) []).1 ++
          (((resolve_terms (ts.take i) []).2.length + 1) ::
            (resolve_terms (ts.drop (i + 1))
              ((resolve_terms (ts.take i) []).2 ++ [ts.getD i []])).1) := by
      rw [e0, resolve_terms_append, resolve_terms_cons, resolve_term_new _ _ hfresh]
    rw [e, List.getD_append_right _ _ _ _ (by omega), hl1, Nat.sub_self,
      resolve_terms_dict_length]
    rfl
  · intro i j hi hj
    rw [resolve_terms_getD ts [] i hi, resolve_terms_getD ts [] j hj]
    constructor
    · intro h; rw [h]
    · intro h
      refine lookup_inj _ _ _ h ((lookup_ne_zero_iff _ _).2 ((hmem _).2 ?_))
      rw [List.getD_eq_getElem _ _ hi]
      exact List.getElem_mem hi

/-- C28 (witness). The calls for `apple`, `banana`, `apple`, `phone` hand out 1, 2, 1, 3. -/
theorem session_term_ids_dense_witness :
    [apple, banana, apple, phone].dedup.length ≤ UINT16_MAX ∧
    (∀ k, k ∈ (resolve_terms [apple, banana, apple, phone] []).1 ↔
      1 ≤ k ∧ k ≤ [apple, banana, apple, phone].dedup.length) ∧
    resolve_terms [apple, banana, apple, phone] [] = ([1, 2, 1, 3], [apple, banana, phone]) :=
  ⟨by decide, (session_term_ids_dense [apple, banana, apple, phone] (by decide)).2.2.2.2.1,
   by decide⟩

/-! ## Lazy materialization of hits -/

theorem materialize_filled (c : runtime_ctx) (t : Nat) :
    ((materialize_term_hits c t).termHits t).docSeq = (materialize_term_hits c t).curDocSeq := by
  unfold materialize_term_hits
  by_cases h : (c.termHits t).docSeq ≠ c.curDocSeq
  · rw [if_pos h]
    simp [materialize_term_hits_impl]
  · rw [if_neg h]
    exact not_not.1 h

theorem materialize_of_filled (c : runtime_ctx) (t : Nat)
    (h : (c.termHits t).docSeq = c.curDocSeq) : materialize_term_hits c t = c := by
  unfold materialize_term_hits
  rw [if_neg (not_not.2 h)]

theorem materialize_repeat_filled (t : Nat) : ∀ (n : Nat) (c : runtime_ctx),
    (c.termHits t).docSeq = c.curDocSeq → materialize_repeat t n c = (c, 0) := by
  intro n
  induction n with
  | zero => intro c _; rfl
  | succ n ih =>
    intro c h
    have e : materialize_repeat t (n + 1) c =
        ((materialize_repeat t n (materialize_term_hits c t)).1,
          (materialize_repeat t n (materialize_term_hits c t)).2 +
            (if (c.termHits t).docSeq ≠ c.curDocSeq then 1 else 0)) := rfl
    rw [e, materialize_of_filled c t h, ih c h, if_neg (not_not.2 h)]

/-- C29. Lazy, idempotent hit materialization. A call `materialize_term_hits(termID)`
with `termHits[termID].docSeq != curDocSeq` calls the decoder's `materialize_hits`: the
state after it is the state before with the buffer of the term stamped with `curDocSeq`
and holding the frequency and the hits the decoder wrote, and with the doc-words space
the decoder left; with `docSeq == curDocSeq` the call leaves the state as it is, nothing
being decoded, and the two cases are told apart by the state. Afterwards
`docSeq == curDocSeq`. A second call leaves the whole state unchanged, and of any number
`n + 1` of calls in a row only the first can decode. After a `reset` (the buffer being
one of the `capacity` buffers, its `docSeq` not ahead of the generation counter), exactly
one of them decodes: the state after them is the state after the `reset` with the
outputs of one call of the decoder's `materialize_hits` written. -/
theorem materialize_lazy_idempotent (c : runtime_ctx) (termID n did : Nat)
    (hcap : termID < c.capacity) (hwf : (c.termHits termID).docSeq ≤ c.curDocSeq) :
    ((c.termHits termID).docSeq ≠ c.curDocSeq →
      materialize_term_hits c termID =
        { c with
          termHits := Function.update c.termHits termID
            { docSeq := c.curDocSeq
              freq := (c.decoders termID).freq
              all := ((c.decoders termID).materialize_hits termID c.docWordsSpace).2 }
          docWordsSpace := ((c.decoders termID).materialize_hits termID c.docWordsSpace).1 }) ∧
    ((c.termHits termID).docSeq = c.curDocSeq → materialize_term_hits c termID = c) ∧
    (materialize_term_hits c termID = c ↔ (c.termHits termID).docSeq = c.curDocSeq) ∧
    ((materialize_term_hits c termID).termHits termID).docSeq =
      (materialize_term_hits c termID).curDocSeq ∧
    materialize_term_hits (materialize_term_hits c termID) termID =
      materialize_term_hits c termID ∧
    materialize_repeat termID (n + 1) c =
      (materialize_term_hits c termID,
        if (c.termHits termID).docSeq ≠ c.curDocSeq then 1 else 0) ∧
    materialize_repeat termID (n + 1) (c.reset did) =
      ({ c.reset did with
          termHits := Function.update (c.reset did).termHits termID
            { docSeq := (c.reset did).curDocSeq
              freq := ((c.reset did).decoders termID).freq
              all := (((c.reset did).decoders termID).materialize_hits termID
                (c.reset did).docWordsSpace).2 }
          docWordsSpace := (((c.reset did).decoders termID).materialize_hits termID
            (c.reset did).docWordsSpace).1 }, 1) := by
  have hstale : ∀ c2 : runtime_ctx, (c2.termHits termID).docSeq ≠ c2.curDocSeq →
      materialize_term_hits c2 termID =
        { c2 with
          termHits := Function.update c2.termHits termID
            { docSeq := c2.curDocSeq
              freq := (c2.decoders termID).freq
              all := ((c2.decoders termID).materialize_hits termID c2.docWordsSpace).2 }
          docWordsSpace :=
            ((c2.decoders termID).materialize_hits termID c2.docWordsSpace).1 } := by
    intro c2 h
    unfold materialize_term_hits
    rw [if_pos h]
    rfl
  have hrep : ∀ (c2 : runtime_ctx), materialize_repeat termID (n + 1) c2 =
      (materialize_term_hits c2 termID,
        if (c2.termHits termID).docSeq ≠ c2.curDocSeq then 1 else 0) := by
    intro c2
    have e : materialize_repeat termID (n + 1) c2 =
        ((materialize_repeat termID n (materialize_term_hits c2 termID)).1,
          (materialize_repeat termID n (materialize_term_hits c2 termID)).2 +
            (if (c2.termHits termID).docSeq ≠ c2.curDocSeq then 1 else 0)) := rfl
    rw [e, materialize_repeat_filled termID n _ (materialize_filled c2 termID)]
    simp
  refine ⟨hstale c, materialize_of_filled c termID, ?_, materialize_filled c termID,
    materialize_of_filled _ termID (materialize_filled c termID), hrep c, ?_⟩
  · constructor
    · intro h
      have := materialize_filled c termID
      rw [h] at this
      exact this
    · exact materialize_of_filled c termID
  · have hne : ((c.reset did).termHits termID).docSeq ≠ (c.reset did).curDocSeq := by
      unfold runtime_ctx.reset
      by_cases h : c.curDocSeq = UINT16_MAX
      · rw [if_pos h]
        show (if termID < c.capacity then { c.termHits termID with docSeq := 0 }
          else c.termHits termID).docSeq ≠ 1
        rw [if_pos hcap]
        show (0 : Nat) ≠ 1
        decide
      · rw [if_neg h]
        show (c.termHits termID).docSeq ≠ c.curDocSeq + 1
        omega
    rw [hrep, if_pos hne, hstale _ hne]

set_option maxRecDepth 100000 in
/-- C29 (witness). On document 2 of the fixture, three calls for `banana` decode once:
the buffer holds the hit of `banana` at position 2 and the doc-words space its one bit. -/
theorem materialize_lazy_idempotent_witness :
    2 < capture_fixture.capacity ∧
    (capture_fixture.termHits 2).docSeq ≤ capture_fixture.curDocSeq ∧
    materialize_repeat 2 (2 + 1) (capture_fixture.reset 2) =
      ({ capture_fixture.reset 2 with
          termHits := Function.update (capture_fixture.reset 2).termHits 2
            { docSeq := (capture_fixture.reset 2).curDocSeq
              freq := ((capture_fixture.reset 2).decoders 2).freq
              all := (((capture_fixture.reset 2).decoders 2).materialize_hits 2
                (capture_fixture.reset 2).docWordsSpace).2 }
          docWordsSpace := (((capture_fixture.reset 2).decoders 2).materialize_hits 2
            (capture_fixture.reset 2).docWordsSpace).1 }, 1) ∧
    (materialize_term_hits (capture_fixture.reset 2) 2 = capture_fixture.reset 2 ↔
      ((capture_fixture.reset 2).termHits 2).docSeq = (capture_fixture.reset 2).curDocSeq) ∧
    ((materialize_repeat 2 (2 + 1) (capture_fixture.reset 2)).1.termHits 2 =
      { docSeq := 1, freq := 1, all := [hit_at 2] }) ∧
    (materialize_repeat 2 (2 + 1) (capture_fixture.reset 2)).1.docWordsSpace =
      { bits := [(2, 2)] } ∧
    ((capture_fixture.reset 2).decoders 2).materialize_hits 2
      (capture_fixture.reset 2).docWordsSpace = ({ bits := [(2, 2)] }, [hit_at 2]) :=
  ⟨by decide, by decide,
   (materialize_lazy_idempotent capture_fixture 2 2 2 (by decide) (by decide)).2.2.2.2.2.2,
   (materialize_lazy_idempotent (capture_fixture.reset 2) 2 0 0 (by decide)
      (by decide)).2.2.1,
   by decide, by decide, by decide⟩

/-! ## The cost of a phrase of present terms -/

theorem token_cost_folds_iff_absent (src : IndexSource) (p : phrase) (updates : Bool)
    (dict : TermsDict)
    (hdocs : src.documents (src.resolve_term (p.terms.headD [])) < UINT32_MAX) :
    ((optimize_binops_impl src (.Token p) updates dict).cost = UINT32_MAX ↔
      src.documents (src.resolve_term (p.terms.headD [])) = 0) ∧
    (src.documents (src.resolve_term (p.terms.headD [])) = 0 →
      (optimize_binops_impl src (.Token p) updates dict).node = .ConstFalse ∧
      (optimize_binops_impl src (.Token p) updates dict).updates = true) ∧
    (src.documents (src.resolve_term (p.terms.headD [])) ≠ 0 →
      (optimize_binops_impl src (.Token p) updates dict).node = .Token p ∧
      (optimize_binops_impl src (.Token p) updates dict).updates = updates ∧
      (optimize_binops_impl src (.Token p) updates dict).cost =
        src.documents (src.resolve_term (p.terms.headD []))) := by
  have hid : (resolve_term dict (p.terms.headD [])).1 ≠ 0 := (resolve_term_first dict _).2
  have hcost : (token_eval_cost src dict (p.terms.headD [])).1 =
      if src.documents (src.resolve_term (p.terms.headD [])) = 0 then UINT32_MAX
      else src.documents (src.resolve_term (p.terms.headD [])) := by
    unfold token_eval_cost
    simp only []
    rw [if_neg hid]
    split <;> rfl
  have hopt : optimize_binops_impl src (.Token p) updates dict =
      if (token_eval_cost src dict (p.terms.headD [])).1 = UINT32_MAX then
        { node := .ConstFalse, updates := true,
          dict := (token_eval_cost src dict (p.terms.headD [])).2, cost := UINT32_MAX }
      else { node := .Token p, updates := updates,
             dict := (token_eval_cost src dict (p.terms.headD [])).2,
             cost := (token_eval_cost src dict (p.terms.headD [])).1 } := by
    rw [optimize_binops_impl]
  rw [hopt, hcost]
  by_cases h0 : src.documents (src.resolve_term (p.terms.headD [])) = 0
  · rw [if_pos h0, if_pos rfl]
    exact ⟨⟨fun _ => h0, fun _ => rfl⟩, fun _ => ⟨rfl, rfl⟩, fun h => absurd h0 h⟩
  · rw [if_neg h0, if_neg (by omega)]
    exact ⟨⟨fun h => absurd h (by show src.documents _ ≠ UINT32_MAX; omega), fun h => absurd h h0⟩,
      fun h => absurd h h0, fun _ => ⟨rfl, rfl, rfl⟩⟩

/-- C30 (the code at the failing input). In the source where `apple` is in 2147483648
documents and `banana` in 2147483647, both terms are present and a `Token` of either is
left as it is with its document count as cost; the cost of the phrase `"apple banana"`
is the sum of the two counts, which is `UINT32_MAX`, and the cost pass, taking it for the
mark of an absent term, sets the phrase to `ConstFalse` and sets `updates`. -/
theorem phrase_of_present_terms_folds_on_cost_sum :
    huge_source.documents (huge_source.resolve_term apple) = 2147483648 ∧
    huge_source.documents (huge_source.resolve_term banana) = 2147483647 ∧
    optimize_binops_impl huge_source (token_node apple 0) false [] =
      { node := token_node apple 0, updates := false, dict := [apple], cost := 2147483648 } ∧
    optimize_binops_impl huge_source (token_node banana 1) false [apple] =
      { node := token_node banana 1, updates := false, dict := [apple, banana],
        cost := 2147483647 } ∧
    phrase_eval_cost huge_source [] apple_banana = (UINT32_MAX, [apple, banana]) ∧
    optimize_binops_impl huge_source (.Phrase apple_banana) false [] =
      { node := .ConstFalse, updates := true, dict := [apple, banana], cost := UINT32_MAX } := by
  refine ⟨by decide, by decide, by decide, by decide, by decide, by decide⟩

/-! ## The cost pass on a binop -/

theorem optimize_binop_eq (src : IndexSource) (op : Operator) (lhs rhs : ast_node)
    (updates : Bool) (dict : TermsDict) :
    optimize_binops_impl src (.BinOp op lhs rhs) updates dict =
      if (optimize_binops_impl src lhs updates dict).cost = UINT32_MAX ∧
          (op = .AND ∨ op = .STRICT_AND) then
        { node := .ConstFalse, updates := true,
          dict := (optimize_binops_impl src lhs updates dict).dict, cost := UINT32_MAX }
      else
        if (optimize_binops_impl src rhs (optimize_binops_impl src lhs updates dict).updates
              (optimize_binops_impl src lhs updates dict).dict).cost = UINT32_MAX ∧
            (optimize_binops_impl src lhs updates dict).cost = UINT32_MAX ∧ op = .OR then
          { node := .ConstFalse, updates := true,
            dict := (optimize_binops_impl src rhs
              (optimize_binops_impl src lhs updates dict).updates
              (optimize_binops_impl src lhs updates dict).dict).dict,
            cost := UINT32_MAX }
        else
          { node :=
              if (optimize_binops_impl src rhs
                    (optimize_binops_impl src lhs updates dict).updates
                    (optimize_binops_impl src lhs updates dict).dict).cost <
                  (optimize_binops_impl src lhs updates dict).cost ∧ op ≠ .NOT then
                .BinOp op
                  (optimize_binops_impl src rhs
                    (optimize_binops_impl src lhs updates dict).updates
                    (optimize_binops_impl src lhs updates dict).dict).node
                  (optimize_binops_impl src lhs updates dict).node
              else
                .BinOp op (optimize_binops_impl src lhs updates dict).node
                  (optimize_binops_impl src rhs
                    (optimize_binops_impl src lhs updates dict).updates
                    (optimize_binops_impl src lhs updates dict).dict).node
            updates := (optimize_binops_impl src rhs
              (optimize_binops_impl src lhs updates dict).updates
              (optimize_binops_impl src lhs updates dict).dict).updates
            dict := (optimize_binops_impl src rhs
              (optimize_binops_impl src lhs updates dict).updates
              (optimize_binops_impl src lhs updates dict).dict).dict
            cost := ((optimize_binops_impl src lhs updates dict).cost +
              (optimize_binops_impl src rhs
                (optimize_binops_impl src lhs updates dict).updates
                (optimize_binops_impl src lhs updates dict).dict).cost) % 2 ^ 32 } := by
  rw [optimize_binops_impl]

theorem optimize_consttrue_eq (src : IndexSource) (e : ast_node) (updates : Bool)
    (dict : TermsDict) :
    optimize_binops_impl src (.ConstTrueExpr e) updates dict =
      if (optimize_binops_impl src e updates dict).cost = UINT32_MAX then
        { node := .Dummy, updates := true, dict := (optimize_binops_impl src e updates dict).dict,
          cost := 0 }
      else
        { node := .ConstTrueExpr (optimize_binops_impl src e updates dict).node,
          updates := (optimize_binops_impl src e updates dict).updates,
          dict := (optimize_binops_impl src e updates dict).dict,
          cost := UINT32_MAX - 1 } := by
  rw [optimize_binops_impl]

/-- C31 (amended claim). ConstFalse propagation in one cost pass. An AND / STRICT_AND binop
whose left child has cost `UINT32_MAX` is set to ConstFalse without a visit of its right
child, sets `updates` and reports cost `UINT32_MAX`; an OR binop both of whose children
have cost `UINT32_MAX` is set to ConstFalse, sets `updates` and reports `UINT32_MAX`; an
AND / STRICT_AND binop whose left child's cost is not `UINT32_MAX` is left a binop by the
pass, whatever the cost of its right child. -/
theorem constfalse_propagation (src : IndexSource) (op : Operator) (lhs rhs : ast_node)
    (updates : Bool) (dict : TermsDict) :
    ((op = .AND ∨ op = .STRICT_AND) →
      (optimize_binops_impl src lhs updates dict).cost = UINT32_MAX →
      optimize_binops_impl src (.BinOp op lhs rhs) updates dict =
        { node := .ConstFalse, updates := true,
          dict := (optimize_binops_impl src lhs updates dict).dict, cost := UINT32_MAX }) ∧
    (op = .OR →
      (optimize_binops_impl src lhs updates dict).cost = UINT32_MAX →
      (optimize_binops_impl src rhs (optimize_binops_impl src lhs updates dict).updates
        (optimize_binops_impl src lhs updates dict).dict).cost = UINT32_MAX →
      (optimize_binops_impl src (.BinOp op lhs rhs) updates dict).node = .ConstFalse ∧
      (optimize_binops_impl src (.BinOp op lhs rhs) updates dict).updates = true ∧
      (optimize_binops_impl src (.BinOp op lhs rhs) updates dict).cost = UINT32_MAX) ∧
    ((op = .AND ∨ op = .STRICT_AND) →
      (optimize_binops_impl src lhs updates dict).cost ≠ UINT32_MAX →
      (optimize_binops_impl src (.BinOp op lhs rhs) updates dict).node.is_binop = true) := by
  rw [optimize_binop_eq]
  generalize optimize_binops_impl src lhs updates dict = l
  generalize optimize_binops_impl src rhs l.updates l.dict = r
  refine ⟨?_, ?_, ?_⟩
  · intro hop hl
    rw [if_pos ⟨hl, hop⟩]
  · intro hop hl hr
    subst hop
    rw [if_neg (fun h => by rcases h.2 with h2 | h2 <;> exact absurd h2 (by decide)),
      if_pos ⟨hr, hl, rfl⟩]
    exact ⟨rfl, rfl, rfl⟩
  · intro hop hl
    rw [if_neg (fun h => hl h.1), if_neg (fun h => hl h.2.1)]
    show (if r.cost < l.cost ∧ op ≠ .NOT then ast_node.BinOp op r.node l.node
      else ast_node.BinOp op l.node r.node).is_binop = true
    split <;> rfl

/-- C31 (witness). On the three-document source, where `pear` is unknown: `pear AND apple`
is set to ConstFalse, `pear OR pear` is set to ConstFalse, and `apple AND banana` is left
a binop. -/
theorem constfalse_propagation_witness :
    optimize_binops_impl tiny_source (.BinOp .AND (token_node pear 0) (token_node apple 1))
        false [] =
      { node := .ConstFalse, updates := true,
        dict := (optimize_binops_impl tiny_source (token_node pear 0) false []).dict,
        cost := UINT32_MAX } ∧
    (optimize_binops_impl tiny_source (.BinOp .OR (token_node pear 0) (token_node pear 1))
        false []).node = .ConstFalse ∧
    (optimize_binops_impl tiny_source (.BinOp .AND (token_node apple 0) (token_node banana 1))
        false []).node.is_binop = true :=
  ⟨(constfalse_propagation tiny_source .AND (token_node pear 0) (token_node apple 1)
      false []).1 (Or.inl rfl) (by decide),
   ((constfalse_propagation tiny_source .OR (token_node pear 0) (token_node pear 1)
      false []).2.1 rfl (by decide) (by decide)).1,
   (constfalse_propagation tiny_source .AND (token_node apple 0) (token_node banana 1)
      false []).2.2 (Or.inl rfl) (by decide)⟩

/-- C31 (counterexample). In `apple AND pear` the right child `pear` has cost
`UINT32_MAX`; one cost pass sets the child to ConstFalse and leaves the AND a binop, which
reports the 32-bit sum of the two costs, 1. -/
theorem and_with_absent_rhs_is_left_a_binop :
    (optimize_binops_impl tiny_source (token_node apple 0) false []).cost = 2 ∧
    (optimize_binops_impl tiny_source (token_node pear 1) false [apple]).cost = UINT32_MAX ∧
    optimize_binops_impl tiny_source query_and_absent_rhs false [] =
      { node := .BinOp .AND (token_node apple 0) .ConstFalse, updates := true,
        dict := [apple, pear], cost := 1 } := by
  refine ⟨by decide, by decide, by decide⟩

/-- C32. Cost-based operand order. For every binop that the cost pass does not fold to
ConstFalse: when its operator is not NOT and the cost of its right child is below that of
its left child, the pass leaves it with the two (rewritten) children exchanged, and
otherwise with the children in place; the operands of a NOT are never exchanged; and a
binop whose operator is not NOT is left with a left operand whose cost is at most that of
its right operand. -/
theorem cost_based_operand_order (src : IndexSource) (op : Operator) (lhs rhs : ast_node)
    (updates : Bool) (dict : TermsDict)
    (hnf : (optimize_binops_impl src (.BinOp op lhs rhs) updates dict).node ≠ .ConstFalse) :
    (op ≠ .NOT ∧
        (optimize_binops_impl src rhs (optimize_binops_impl src lhs updates dict).updates
          (optimize_binops_impl src lhs updates dict).dict).cost <
        (optimize_binops_impl src lhs updates dict).cost →
      (optimize_binops_impl src (.BinOp op lhs rhs) updates dict).node =
        .BinOp op
          (optimize_binops_impl src rhs (optimize_binops_impl src lhs updates dict).updates
            (optimize_binops_impl src lhs updates dict).dict).node
          (optimize_binops_impl src lhs updates dict).node) ∧
    (¬ (op ≠ .NOT ∧
        (optimize_binops_impl src rhs (optimize_binops_impl src lhs updates dict).updates
          (optimize_binops_impl src lhs updates dict).dict).cost <
        (optimize_binops_impl src lhs updates dict).cost) →
      (optimize_binops_impl src (.BinOp op lhs rhs) updates dict).node =
        .BinOp op (optimize_binops_impl src lhs updates dict).node
          (optimize_binops_impl src rhs (optimize_binops_impl src lhs updates dict).updates
            (optimize_binops_impl src lhs updates dict).dict).node) ∧
    (op ≠ .NOT →
      ∃ a b ca cb, (optimize_binops_impl src (.BinOp op lhs rhs) updates dict).node =
          .BinOp op a b ∧ ca ≤ cb ∧
        ((a = (optimize_binops_impl src lhs updates dict).node ∧
            ca = (optimize_binops_impl src lhs updates dict).cost ∧
            b = (optimize_binops_impl src rhs (optimize_binops_impl src lhs updates dict).updates
              (optimize_binops_impl src lhs updates dict).dict).node ∧
            cb = (optimize_binops_impl src rhs
              (optimize_binops_impl src lhs updates dict).updates
              (optimize_binops_impl src lhs updates dict).dict).cost) ∨
          (a = (optimize_binops_impl src rhs (optimize_binops_impl src lhs updates dict).updates
              (optimize_binops_impl src lhs updates dict).dict).node ∧
            ca = (optimize_binops_impl src rhs
              (optimize_binops_impl src lhs updates dict).updates
              (optimize_binops_impl src lhs updates dict).dict).cost ∧
            b = (optimize_binops_impl src lhs updates dict).node ∧
            cb = (optimize_binops_impl src lhs updates dict).cost))) := by
  rw [optimize_binop_eq] at hnf ⊢
  generalize optimize_binops_impl src lhs updates dict = l at hnf ⊢
  generalize optimize_binops_impl src rhs l.updates l.dict = r at hnf ⊢
  have h1 : ¬ (l.cost = UINT32_MAX ∧ (op = .AND ∨ op = .STRICT_AND)) := by
    intro h
    rw [if_pos h] at hnf
    exact hnf rfl
  rw [if_neg h1] at hnf ⊢
  have h2 : ¬ (r.cost = UINT32_MAX ∧ l.cost = UINT32_MAX ∧ op = .OR) := by
    intro h
    rw [if_pos h] at hnf
    exact hnf rfl
  rw [if_neg h2]
  refine ⟨?_, ?_, ?_⟩
  · intro h
    show (if r.cost < l.cost ∧ op ≠ .NOT then ast_node.BinOp op r.node l.node
      else ast_node.BinOp op l.node r.node) = _
    rw [if_pos ⟨h.2, h.1⟩]
  · intro h
    show (if r.cost < l.cost ∧ op ≠ .NOT then ast_node.BinOp op r.node l.node
      else ast_node.BinOp op l.node r.node) = _
    rw [if_neg (fun h' => h ⟨h'.2, h'.1⟩)]
  · intro hop
    show ∃ a b ca cb, (if r.cost < l.cost ∧ op ≠ .NOT then ast_node.BinOp op r.node l.node
      else ast_node.BinOp op l.node r.node) = .BinOp op a b ∧ _
    by_cases hc : r.cost < l.cost
    · rw [if_pos ⟨hc, hop⟩]
      exact ⟨r.node, l.node, r.cost, l.cost, rfl, Nat.le_of_lt hc, Or.inr ⟨rfl, rfl, rfl, rfl⟩⟩
    · rw [if_neg (fun h' => hc h'.1)]
      exact ⟨l.node, r.node, l.cost, r.cost, rfl, Nat.le_of_not_lt hc,
        Or.inl ⟨rfl, rfl, rfl, rfl⟩⟩

/-- C32 (witness). On the source where `apple` is in 2147483648 documents and `banana` in
2147483647, the operands of `apple AND banana` are exchanged and those of
`apple NOT banana` are not. -/
theorem cost_based_operand_order_witness :
    (optimize_binops_impl huge_source (.BinOp .AND (token_node apple 0) (token_node banana 1))
        false []).node ≠ .ConstFalse ∧
    (optimize_binops_impl huge_source (.BinOp .AND (token_node apple 0) (token_node banana 1))
        false []).node =
      .BinOp .AND
        (optimize_binops_impl huge_source (token_node banana 1)
          (optimize_binops_impl huge_source (token_node apple 0) false []).updates
          (optimize_binops_impl huge_source (token_node apple 0) false []).dict).node
        (optimize_binops_impl huge_source (token_node apple 0) false []).node ∧
    (optimize_binops_impl huge_source (.BinOp .NOT (token_node apple 0) (token_node banana 1))
        false []).node =
      .BinOp .NOT (optimize_binops_impl huge_source (token_node apple 0) false []).node
        (optimize_binops_impl huge_source (token_node banana 1)
          (optimize_binops_impl huge_source (token_node apple 0) false []).updates
          (optimize_binops_impl huge_source (token_node apple 0) false []).dict).node ∧
    (optimize_binops_impl huge_source (.BinOp .AND (token_node apple 0) (token_node banana 1))
        false []).node = .BinOp .AND (token_node banana 1) (token_node apple 0) :=
  ⟨by decide,
   (cost_based_operand_order huge_source .AND (token_node apple 0) (token_node banana 1)
      false [] (by decide)).1 ⟨by decide, by decide⟩,
   (cost_based_operand_order huge_source .NOT (token_node apple 0) (token_node banana 1)
      false [] (by decide)).2.1 (fun h => h.1 rfl),
   by decide⟩

theorem phrase_eval_cost_loop_le (src : IndexSource) : ∀ (ts : List str8_t) (sum : Nat)
    (dict : TermsDict), sum ≤ UINT32_MAX →
    (phrase_eval_cost_loop src ts sum dict).1 ≤ UINT32_MAX := by
  intro ts
  induction ts with
  | nil => intro sum dict h; exact h
  | cons t rest ih =>
    intro sum dict _
    rw [phrase_eval_cost_loop]
    split
    · exact le_refl _
    · apply ih
      have : UINT32_MAX = 2 ^ 32 - 1 := rfl
      have := Nat.mod_lt (sum + (token_eval_cost src dict t).1) (show 0 < 2 ^ 32 by decide)
      omega

/-- The cost the pass reports fits 32 bits when the document counts of the source do. -/
theorem optimize_cost_le (src : IndexSource) (hdocs : ∀ i, src.documents i ≤ UINT32_MAX) :
    ∀ (n : ast_node) (updates : Bool) (dict : TermsDict),
      (optimize_binops_impl src n updates dict).cost ≤ UINT32_MAX := by
  have hmod : ∀ a : Nat, a % 2 ^ 32 ≤ UINT32_MAX := by
    intro a
    have : UINT32_MAX = 2 ^ 32 - 1 := rfl
    have := Nat.mod_lt a (show 0 < 2 ^ 32 by decide)
    omega
  intro n
  induction n with
  | Token p =>
    intro updates dict
    rw [optimize_binops_impl]
    split
    · exact le_refl _
    · show (token_eval_cost src dict (p.terms.headD [])).1 ≤ UINT32_MAX
      unfold token_eval_cost
      simp only []
      split
      · exact le_refl _
      · split
        · exact le_refl _
        · exact hdocs _
  | Phrase p =>
    intro updates dict
    rw [optimize_binops_impl]
    split
    · exact le_refl _
    · exact phrase_eval_cost_loop_le src p.terms 0 dict (Nat.zero_le _)
  | BinOp op lhs rhs _ _ =>
    intro updates dict
    rw [optimize_binop_eq]
    split
    · exact le_refl _
    · split
      · exact le_refl _
      · exact hmod _
  | ConstTrueExpr e _ =>
    intro updates dict
    rw [optimize_consttrue_eq]
    split
    · exact Nat.zero_le _
    · exact Nat.sub_le _ _
  | UnaryOp op e ih =>
    intro updates dict
    rw [optimize_binops_impl]
    split
    · exact le_refl _
    · exact ih updates dict
  | ConstFalse => intro updates dict; exact le_refl _
  | Dummy => intro updates dict; exact Nat.zero_le _

/-- The cost pass on a binop with a computable ConstTrueExpr as a child. For every binop
other than NOT whose right child is a ConstTrueExpr with a computable inner expression
(cost not `UINT32_MAX`) and whose left child's cost is not `UINT32_MAX`, the cost pass,
which gives the ConstTrueExpr the cost `UINT32_MAX - 1`, leaves the two children in
place; when the ConstTrueExpr is the left child, the pass exchanges the two children
exactly when the cost of the right child is below `UINT32_MAX - 1`. The document counts
of the source are 32-bit values. -/
theorem consttrue_stays_right (src : IndexSource) (op : Operator) (other e : ast_node)
    (updates : Bool) (dict : TermsDict) (hop : op ≠ .NOT)
    (hdocs : ∀ i, src.documents i ≤ UINT32_MAX) :
    ((optimize_binops_impl src other updates dict).cost ≠ UINT32_MAX →
      (optimize_binops_impl src e (optimize_binops_impl src other updates dict).updates
        (optimize_binops_impl src other updates dict).dict).cost ≠ UINT32_MAX →
      (optimize_binops_impl src (.BinOp op other (.ConstTrueExpr e)) updates dict).node =
        .BinOp op (optimize_binops_impl src other updates dict).node
          (.ConstTrueExpr
            (optimize_binops_impl src e (optimize_binops_impl src other updates dict).updates
              (optimize_binops_impl src other updates dict).dict).node)) ∧
    ((optimize_binops_impl src e updates dict).cost ≠ UINT32_MAX →
      ((optimize_binops_impl src other (optimize_binops_impl src e updates dict).updates
          (optimize_binops_impl src e updates dict).dict).cost < UINT32_MAX - 1 →
        (optimize_binops_impl src (.BinOp op (.ConstTrueExpr e) other) updates dict).node =
          .BinOp op
            (optimize_binops_impl src other (optimize_binops_impl src e updates dict).updates
              (optimize_binops_impl src e updates dict).dict).node
            (.ConstTrueExpr (optimize_binops_impl src e updates dict).node)) ∧
      (¬ (optimize_binops_impl src other (optimize_binops_impl src e updates dict).updates
          (optimize_binops_impl src e updates dict).dict).cost < UINT32_MAX - 1 →
        (optimize_binops_impl src (.BinOp op (.ConstTrueExpr e) other) updates dict).node =
          .BinOp op (.ConstTrueExpr (optimize_binops_impl src e updates dict).node)
            (optimize_binops_impl src other (optimize_binops_impl src e updates dict).updates
              (optimize_binops_impl src e updates dict).dict).node)) := by
  constructor
  · intro hl hin
    rw [optimize_binop_eq, if_neg (fun h => hl h.1), if_neg (fun h => hl h.2.1),
      optimize_consttrue_eq, if_neg hin]
    have hle := optimize_cost_le src hdocs other updates dict
    show (if UINT32_MAX - 1 < (optimize_binops_impl src other updates dict).cost ∧ op ≠ .NOT
      then _ else _) = _
    rw [if_neg (fun h => by
      have h1 := h.1
      have : UINT32_MAX = 4294967295 := rfl
      omega)]
  · intro hin
    have hc : optimize_binops_impl src (.ConstTrueExpr e) updates dict =
        { node := .ConstTrueExpr (optimize_binops_impl src e updates dict).node,
          updates := (optimize_binops_impl src e updates dict).updates,
          dict := (optimize_binops_impl src e updates dict).dict,
          cost := UINT32_MAX - 1 } := by
      rw [optimize_consttrue_eq, if_neg hin]
    rw [optimize_binop_eq, hc]
    have hne : UINT32_MAX - 1 ≠ UINT32_MAX := by decide
    have h1 : ¬ ((UINT32_MAX - 1 = UINT32_MAX) ∧ (op = .AND ∨ op = .STRICT_AND)) :=
      fun h => hne h.1
    constructor
    · intro hlt
      rw [if_neg h1, if_neg (fun h => hne h.2.1)]
      show (if _ < UINT32_MAX - 1 ∧ op ≠ .NOT then _ else _) = _
      rw [if_pos ⟨hlt, hop⟩]
    · intro hlt
      rw [if_neg h1, if_neg (fun h => hne h.2.1)]
      show (if _ < UINT32_MAX - 1 ∧ op ≠ .NOT then _ else _) = _
      rw [if_neg (fun h => hlt h.1)]

/-- On the three-document source, `banana AND <apple>` is left in place. -/
theorem consttrue_stays_right_witness :
    Operator.AND ≠ .NOT ∧ (∀ i, tiny_source.documents i ≤ UINT32_MAX) ∧
    (optimize_binops_impl tiny_source query_consttrue_rhs false []).node =
      .BinOp .AND (optimize_binops_impl tiny_source (token_node banana 0) false []).node
        (.ConstTrueExpr
          (optimize_binops_impl tiny_source (token_node apple 1)
            (optimize_binops_impl tiny_source (token_node banana 0) false []).updates
            (optimize_binops_impl tiny_source (token_node banana 0) false []).dict).node) ∧
    (optimize_binops_impl tiny_source query_consttrue_rhs false []).node =
      query_consttrue_rhs :=
  ⟨by decide,
   fun i => by
     show (if i = 1 ∨ i = 2 ∨ i = 3 then 2 else 0) ≤ UINT32_MAX
     split <;> decide,
   (consttrue_stays_right tiny_source .AND (token_node banana 0) (token_node apple 1) false []
      (by decide)
      (fun i => by
        show (if i = 1 ∨ i = 2 ∨ i = 3 then 2 else 0) ≤ UINT32_MAX
        split <;> decide)).1 (by decide) (by decide),
   by decide⟩

/-- C34 (the code at the failing input). In `<apple> AND banana` the ConstTrueExpr, whose
inner expression is computable, is the left child and gets the cost `UINT32_MAX - 1`,
which the comment at its `return` says is there so that the children of a binop are not
exchanged; the cost of `banana` is 2, below it, and the cost pass exchanges the two
children: the tree after the pass is `banana AND <apple>`. A ConstTrueExpr on the right is
exchanged as well when the left child is an absent term, whose cost is `UINT32_MAX`: the
tree `pear OR <apple>` becomes `<apple> OR ConstFalse`. -/
theorem consttrue_on_the_left_is_swapped :
    (optimize_binops_impl tiny_source (.ConstTrueExpr (token_node apple 0)) false []).cost =
      UINT32_MAX - 1 ∧
    (optimize_binops_impl tiny_source (token_node banana 1) false [apple]).cost = 2 ∧
    (optimize_binops_impl tiny_source query_consttrue_lhs false []).node =
      .BinOp .AND (token_node banana 1) (.ConstTrueExpr (token_node apple 0)) ∧
    (optimize_binops_impl tiny_source (token_node pear 0) false []).cost = UINT32_MAX ∧
    (optimize_binops_impl tiny_source query_absent_or_consttrue false []).node =
      .BinOp .OR (.ConstTrueExpr (token_node apple 1)) .ConstFalse := by
  refine ⟨by decide, by decide, by decide, by decide, by decide⟩

/-! ## Termination of the heuristic reordering -/

/-- C37. The loop of `reorder_root` terminates. For every query tree, the do-while loop
returns within two passes, the pass after the first changing nothing; on the returned tree
no rewrite fires (`reorder` leaves `dirty` unset and the tree as it is), and a further
`reorder_root` on it returns after a single pass with the same tree. -/
theorem reorder_root_terminates (t : ast_node) (fuel : Nat) :
    reorder_root_loop (fuel + 2) t = some (reorder t).1 ∧
    reorder (reorder t).1 = ((reorder t).1, false) ∧
    reorder_root_loop (fuel + 1) (reorder t).1 = some (reorder t).1 ∧
    (∀ r, reorder_root_loop (fuel + 2) t = some r →
      reorder_root_loop (fuel + 2) r = some r) := by
  have h2 : reorder (reorder t).1 = ((reorder t).1, false) :=
    reorder_of_reordered _ (reordered_reorder t)
  have step : ∀ (k : Nat) (n : ast_node), reorder_root_loop (k + 1) n =
      if (reorder n).2 then reorder_root_loop k (reorder n).1 else some (reorder n).1 :=
    fun _ _ => rfl
  refine ⟨reorder_root_loop_eq fuel t, h2, ?_, ?_⟩
  · rw [step, h2]
    rfl
  · intro r hr
    rw [reorder_root_loop_eq] at hr
    have e : r = (reorder t).1 := (Option.some.inj hr).symm
    rw [e, reorder_root_loop_eq, h2]

/-! ## Evaluation only seeks to the current document -/

theorem sought_refl (c : runtime_ctx) : sought c c := ⟨rfl, fun _ => Or.inl rfl⟩

theorem sought_trans (c c1 c2 : runtime_ctx) (h1 : sought c c1) (h2 : sought c1 c2) :
    sought c c2 := by
  refine ⟨h2.1.trans h1.1, ?_⟩
  intro u
  rcases h2.2 u with e2 | e2
  · rw [e2]; exact h1.2 u
  · rw [e2, h1.1]
    rcases h1.2 u with e1 | e1
    · rw [e1]; exact Or.inr rfl
    · rw [e1, seek_idem]; exact Or.inr rfl

theorem sought_of_same (c c1 : runtime_ctx) (h1 : c1.curDocID = c.curDocID)
    (h2 : c1.decoders = c.decoders) : sought c c1 :=
  ⟨h1, fun u => Or.inl (by rw [h2])⟩

theorem seek_term_sought (c : runtime_ctx) (t : Nat) :
    sought c (seek_term c t c.curDocID).2 := by
  refine ⟨rfl, ?_⟩
  intro u
  show Function.update c.decoders t ((c.decoders t).seek c.curDocID).2 u = _ ∨ _
  by_cases hu : u = t
  · rw [hu]
    exact Or.inr (Function.update_same _ _ _)
  · exact Or.inl (Function.update_noteq hu _ _)

theorem capture_sought (c : runtime_ctx) (t : Nat) : sought c (capture_matched_term c t) :=
  sought_of_same _ _ (capture_curDocID c t) (capture_decoders c t)

theorem materialize_sought (c : runtime_ctx) (t : Nat) :
    sought c (materialize_term_hits c t) := by
  unfold materialize_term_hits
  split
  · exact sought_of_same _ _ rfl rfl
  · exact sought_refl c

theorem foldl_capture_sought (l : List Nat) : ∀ (c : runtime_ctx),
    sought c (l.foldl capture_matched_term c) := by
  induction l with
  | nil => intro c; exact sought_refl c
  | cons t rest ih =>
    intro c
    exact sought_trans _ _ _ (capture_sought c t) (ih _)

theorem matchallterms_loop_sought (l : List Nat) : ∀ (c : runtime_ctx),
    sought c (matchallterms_loop l c).2 := by
  induction l with
  | nil => intro c; exact sought_refl c
  | cons t rest ih =>
    intro c
    rw [matchallterms_loop_cons]
    by_cases h : (seek_term c t c.curDocID).1 = true
    · rw [if_pos h]
      exact sought_trans _ _ _ (seek_term_sought c t)
        (sought_trans _ _ _ (capture_sought _ t) (ih _))
    · rw [if_neg h]
      exact seek_term_sought c t

theorem matchanyterms_loop_sought (l : List Nat) : ∀ (res : Bool) (c : runtime_ctx),
    sought c (matchanyterms_loop l res c).2 := by
  induction l with
  | nil => intro res c; exact sought_refl c
  | cons t rest ih =>
    intro res c
    rw [matchanyterms_loop_cons]
    by_cases h : (seek_term c t c.curDocID).1 = true
    · rw [if_pos h]
      exact sought_trans _ _ _ (seek_term_sought c t)
        (sought_trans _ _ _ (capture_sought _ t) (ih _ _))
    · rw [if_neg h]
      exact sought_trans _ _ _ (seek_term_sought c t) (ih _ _)

theorem matchphrase_seek_rest_sought (l : List Nat) : ∀ (c : runtime_ctx),
    sought c (matchphrase_seek_rest l c).2 := by
  induction l with
  | nil => intro c; exact sought_refl c
  | cons t rest ih =>
    intro c
    have e : matchphrase_seek_rest (t :: rest) c =
        if (seek_term c t c.curDocID).1 then
          matchphrase_seek_rest rest (materialize_term_hits (seek_term c t c.curDocID).2 t)
        else (false, (seek_term c t c.curDocID).2) := rfl
    rw [e]
    by_cases h : (seek_term c t c.curDocID).1 = true
    · rw [if_pos h]
      exact sought_trans _ _ _ (seek_term_sought c t)
        (sought_trans _ _ _ (materialize_sought _ t) (ih _))
    · rw [if_neg h]
      exact seek_term_sought c t

theorem matchphrase_sought (p : exec_phrase) (c : runtime_ctx) :
    sought c (matchphrase p c).2 := by
  unfold matchphrase
  cases hp : p.termIDs with
  | nil => exact sought_refl c
  | cons first rest =>
    simp only []
    have h1 := seek_term_sought c first
    have h2 := matchphrase_seek_rest_sought rest (seek_term c first c.curDocID).2
    have h12 := sought_trans _ _ _ h1 h2
    have h3 := materialize_sought (matchphrase_seek_rest rest (seek_term c first c.curDocID).2).2
      first
    have h123 := sought_trans _ _ _ h12 h3
    split
    · split
      · split
        · exact sought_trans _ _ _ h123 (foldl_capture_sought _ _)
        · exact h123
      · exact h12
    · exact h1

theorem eval_sought : ∀ (e : exec_node) (c : runtime_ctx), sought c (eval e c).2 := by
  intro e
  induction e with
  | noop_impl => intro c; exact sought_refl c
  | matchterm_impl t =>
    intro c
    simp only [eval]
    split
    · exact sought_trans _ _ _ (seek_term_sought c t) (capture_sought _ t)
    · exact seek_term_sought c t
  | matchphrase_impl p => intro c; exact matchphrase_sought p c
  | matchallterms_impl run => intro c; exact matchallterms_loop_sought run c
  | matchanyterms_impl run => intro c; exact matchanyterms_loop_sought run false c
  | unaryand_impl e ih => intro c; simp only [eval]; exact ih c
  | unarynot_impl e ih => intro c; simp only [eval]; exact ih c
  | consttrueexpr_impl e ih => intro c; simp only [eval]; exact ih c
  | logicaland_impl l r ihl ihr =>
    intro c
    simp only [eval]
    split
    · exact sought_trans _ _ _ (ihl c) (ihr _)
    · exact ihl c
  | logicalnot_impl l r ihl ihr =>
    intro c
    simp only [eval]
    split
    · exact sought_trans _ _ _ (ihl c) (ihr _)
    · exact ihl c
  | logicalor_impl l r ihl ihr =>
    intro c
    simp only [eval]
    exact sought_trans _ _ _ (ihl c) (ihr _)

theorem seek_of_le_cur (d : Decoder) (did : Nat) (h : did ≤ d.curDocument_id) :
    (d.seek did).2 = d := by
  cases d with
  | mk remaining =>
    cases remaining with
    | nil => simp [Decoder.seek]
    | cons p rest =>
      have hp : ¬ p.id < did := by
        have : did ≤ p.id := h
        omega
      simp [Decoder.seek, List.dropWhile_cons, hp]

theorem sought_decoder (c c1 : runtime_ctx) (h : sought c c1) (u : Nat)
    (hu : c.curDocID ≤ (c.decoders u).curDocument_id) : c1.decoders u = c.decoders u := by
  rcases h.2 u with e | e
  · exact e
  · rw [e, seek_of_le_cur _ _ hu]

theorem foldl_materialize_decoders (l : List matched_query_term) : ∀ (c : runtime_ctx),
    (l.foldl (fun c m => materialize_term_hits c m.queryTermInstances.termId) c).decoders =
      c.decoders := by
  induction l with
  | nil => intro c; rfl
  | cons m rest ih =>
    intro c
    rw [List.foldl_cons, ih]
    unfold materialize_term_hits
    split <;> rfl

/-- A round of the driver up to the advance of the leaders leaves the leaders as they are,
and leaves every decoder that stands at or after the selected document where it is. -/
theorem driver_consider_frame (root : exec_node) (masked : Nat → Bool) (filter : MatchesFilter)
    (s : driver_state) (docID : Nat) :
    (driver_consider root masked filter s docID).leaders = s.leaders ∧
    (∀ u, docID ≤ (s.ctx.decoders u).curDocument_id →
      (driver_consider root masked filter s docID).ctx.decoders u = s.ctx.decoders u) ∧
    (∃ extra, (driver_consider root masked filter s docID).considered = s.considered ++ extra ∧
      extra.Sublist [docID]) := by
  unfold driver_consider
  by_cases hm : masked docID = true
  · rw [if_pos hm]
    exact ⟨rfl, fun _ _ => rfl, [], by simp, by simp⟩
  · rw [if_neg hm]
    have hreset : (s.ctx.reset docID).curDocID = docID ∧
        (s.ctx.reset docID).decoders = s.ctx.decoders := by
      unfold runtime_ctx.reset
      split <;> exact ⟨rfl, rfl⟩
    have hs := eval_sought root (s.ctx.reset docID)
    have hdec : ∀ u, docID ≤ (s.ctx.decoders u).curDocument_id →
        (eval root (s.ctx.reset docID)).2.decoders u = s.ctx.decoders u := by
      intro u hu
      have := sought_decoder _ _ hs u (by rw [hreset.1, hreset.2]; exact hu)
      rw [this, hreset.2]
    simp only []
    split
    · refine ⟨rfl, ?_, [docID], rfl, List.Sublist.refl _⟩
      intro u hu
      exact (congrFun (foldl_materialize_decoders _ _) u).trans (hdec u hu)
    · exact ⟨rfl, hdec, [], by simp, by simp⟩

/-! ## The advance of the leaders -/

theorem advance_leaders_nil (c : runtime_ctx) (leaders : List Nat) :
    advance_leaders [] c leaders = (c, leaders, false) := rfl

theorem advance_leaders_in_bounds_cons (idx : Nat) (rest : List Nat) (c : runtime_ctx)
    (leaders : List Nat) :
    advance_leaders_in_bounds (idx :: rest) c leaders =
      (decide (idx < leaders.length) &&
        (if ((c.decoders (leaders.getD idx 0)).next).1 then
          advance_leaders_in_bounds rest
            { c with decoders := (Function.update c.decoders (leaders.getD idx 0)
                ((c.decoders (leaders.getD idx 0)).next).2) } leaders
         else if leaders.length - 1 = 0 then true
         else
          advance_leaders_in_bounds rest
            { c with decoders := (Function.update c.decoders (leaders.getD idx 0)
                ((c.decoders (leaders.getD idx 0)).next).2) } (leaders.eraseIdx idx))) := rfl

theorem eraseIdx_eq_filter (leaders : List Nat) (hn : leaders.Nodup) (idx : Nat)
    (hidx : idx < leaders.length) :
    leaders.eraseIdx idx = leaders.filter (fun u => u != leaders.getD idx 0) := by
  rw [List.getD_eq_getElem _ _ hidx, ← hn.erase_getElem idx hidx, hn.erase_eq_filter]

theorem leader_removed_cons_self (c : runtime_ctx) (leaders : List Nat) (idx : Nat)
    (rest : List Nat) :
    leader_removed c leaders (idx :: rest) (leaders.getD idx 0) =
      !((c.decoders (leaders.getD idx 0)).next).1 := by
  unfold leader_removed
  simp

theorem leader_removed_cons_other (c c1 : runtime_ctx) (leaders l2 : List Nat) (idx : Nat)
    (rest : List Nat) (u : Nat) (hu : u ≠ leaders.getD idx 0)
    (hdec : c1.decoders u = c.decoders u)
    (hsame : ∀ j ∈ rest, l2.getD j 0 = leaders.getD j 0) :
    leader_removed c1 l2 rest u = leader_removed c leaders (idx :: rest) u := by
  unfold leader_removed
  have hmap : rest.map (fun i => l2.getD i 0) = rest.map (fun i => leaders.getD i 0) :=
    List.map_congr_left hsame
  have hiff : u ∈ rest.map (fun i => leaders.getD i 0) ↔
      u ∈ leaders.getD idx 0 :: rest.map (fun i => leaders.getD i 0) :=
    ⟨List.mem_cons_of_mem _, fun h => (List.mem_cons.1 h).resolve_left hu⟩
  rw [hmap, hdec, List.map_cons, decide_eq_decide.2 hiff]

/-- The do-while that advances the leaders, on the indices of `toAdvance` from the last to
the first: the leaders it leaves are the leaders it was given without those it found
exhausted, in their order; it takes `goto l1` exactly when it leaves none; and each index
is below the number of leaders when it is used. -/
theorem advance_leaders_leaders : ∀ (idxs : List Nat) (c : runtime_ctx) (leaders : List Nat),
    leaders.Nodup → idxs.Sorted (· > ·) → (∀ i ∈ idxs, i < leaders.length) → leaders ≠ [] →
    (advance_leaders idxs c leaders).2.1 =
        leaders.filter (fun u => !leader_removed c leaders idxs u) ∧
      ((advance_leaders idxs c leaders).2.2 = true ↔
        (advance_leaders idxs c leaders).2.1 = []) ∧
      advance_leaders_in_bounds idxs c leaders = true := by
  intro idxs
  induction idxs with
  | nil =>
    intro c leaders _ _ _ hne
    rw [advance_leaders_nil]
    refine ⟨?_, ?_, rfl⟩
    · symm
      rw [List.filter_eq_self]
      intro u _
      simp [leader_removed]
    · constructor
      · intro h; exact Bool.noConfusion h
      · intro h; exact absurd h hne
  | cons idx rest ih =>
    intro c leaders hn hs hlt hne
    rw [List.sorted_cons] at hs
    obtain ⟨hgt, hs2⟩ := hs
    have hidx : idx < leaders.length := hlt idx (List.mem_cons_self _ _)
    have hrest : ∀ j ∈ rest, j < leaders.length := fun j hj => hlt j (List.mem_cons_of_mem _ hj)
    have hother : ∀ u, u ≠ leaders.getD idx 0 →
        (Function.update c.decoders (leaders.getD idx 0)
          ((c.decoders (leaders.getD idx 0)).next).2) u = c.decoders u :=
      fun u hu => Function.update_noteq hu _ _
    have hnotin : leaders.getD idx 0 ∉ rest.map (fun i => leaders.getD i 0) := by
      intro hm
      obtain ⟨j, hj, hje⟩ := List.mem_map.1 hm
      have := hgt j hj
      exact getD_ne_of_nodup leaders hn j idx (hrest j hj) hidx (by omega) hje
    rw [advance_leaders_cons, advance_leaders_in_bounds_cons, decide_eq_true hidx,
      Bool.true_and]
    by_cases h1 : ((c.decoders (leaders.getD idx 0)).next).1 = true
    · rw [if_pos h1, if_pos h1]
      obtain ⟨e1, e2, e3⟩ := ih
        { c with decoders := (Function.update c.decoders (leaders.getD idx 0)
            ((c.decoders (leaders.getD idx 0)).next).2) } leaders hn hs2 hrest hne
      refine ⟨?_, e2, e3⟩
      rw [e1]
      apply List.filter_congr
      intro u _
      by_cases hu : u = leaders.getD idx 0
      · rw [hu, leader_removed_cons_self, h1]
        unfold leader_removed
        rw [decide_eq_false hnotin]
        rfl
      · rw [leader_removed_cons_other c _ leaders leaders idx rest u hu (hother u hu)
          (fun _ _ => rfl)]
    · rw [if_neg h1, if_neg h1]
      have h1f : ((c.decoders (leaders.getD idx 0)).next).1 = false := by
        cases h : ((c.decoders (leaders.getD idx 0)).next).1
        · rfl
        · exact absurd h h1
      by_cases h2 : leaders.length - 1 = 0
      · rw [if_pos h2, if_pos h2]
        refine ⟨?_, ⟨fun _ => rfl, fun _ => rfl⟩, rfl⟩
        have hlen : leaders.length = 1 := by omega
        obtain ⟨x, hx⟩ := List.length_eq_one.1 hlen
        have hi0 : idx = 0 := by omega
        subst hi0
        show [] = _
        symm
        rw [List.filter_eq_nil_iff]
        intro u hu
        rw [hx, List.mem_singleton] at hu
        have hux : u = leaders.getD 0 0 := by rw [hu, hx]; rfl
        rw [hux, leader_removed_cons_self, h1f]
        decide
      · rw [if_neg h2, if_neg h2]
        have hlen2 : (leaders.eraseIdx idx).length = leaders.length - 1 :=
          List.length_eraseIdx_of_lt hidx
        have hne2 : leaders.eraseIdx idx ≠ [] := by
          intro h
          rw [h] at hlen2
          simp at hlen2
          omega
        have hsame : ∀ j ∈ rest, (leaders.eraseIdx idx).getD j 0 = leaders.getD j 0 :=
          fun j hj => getD_eraseIdx_of_lt leaders idx j (hgt j hj)
        obtain ⟨e1, e2, e3⟩ := ih
          { c with decoders := (Function.update c.decoders (leaders.getD idx 0)
              ((c.decoders (leaders.getD idx 0)).next).2) } (leaders.eraseIdx idx)
          (hn.eraseIdx idx) hs2
          (by
            intro j hj
            have := hgt j hj
            omega)
          hne2
        refine ⟨?_, e2, e3⟩
        rw [e1, eraseIdx_eq_filter leaders hn idx hidx, List.filter_filter]
        apply List.filter_congr
        intro u _
        by_cases hu : u = leaders.getD idx 0
        · rw [hu, leader_removed_cons_self, h1f]
          simp
        · have e := leader_removed_cons_other c
            { c with decoders := (Function.update c.decoders (leaders.getD idx 0)
              ((c.decoders (leaders.getD idx 0)).next).2) }
            leaders (leaders.filter (fun u => u != leaders.getD idx 0)) idx rest u hu
            (hother u hu)
            (by rw [← eraseIdx_eq_filter leaders hn idx hidx]; exact hsame)
          rw [e, show (u != leaders.getD idx 0) = true from bne_iff_ne.2 hu, Bool.and_true]

/-! ## One iteration of the driver loop -/

theorem driver_loop_round (root : exec_node) (masked : Nat → Bool) (filter : MatchesFilter)
    (fuel : Nat) (s : driver_state) (t0 : Nat) (rest : List Nat) (hl : s.leaders = t0 :: rest) :
    driver_loop root masked filter (fuel + 1) s =
      if (driver_round root masked filter s t0 rest).2.2 then
        some (driver_round root masked filter s t0 rest).2.1
      else driver_loop root masked filter fuel (driver_round root masked filter s t0 rest).2.1 := by
  rw [driver_loop]
  simp only [hl]
  rfl

theorem driver_selected_round (root : exec_node) (masked : Nat → Bool) (filter : MatchesFilter)
    (fuel : Nat) (s : driver_state) (t0 : Nat) (rest : List Nat) (hl : s.leaders = t0 :: rest) :
    driver_selected root masked filter (fuel + 1) s =
      if (driver_round root masked filter s t0 rest).2.2 then
        [(driver_round root masked filter s t0 rest).1]
      else (driver_round root masked filter s t0 rest).1 ::
        driver_selected root masked filter fuel (driver_round root masked filter s t0 rest).2.1 := by
  rw [driver_selected]
  simp only [hl]
  rfl

theorem select_list_of_state (s : driver_state) (t0 : Nat) (rest : List Nat)
    (hl : s.leaders = t0 :: rest) :
    (∀ t ∈ s.leaders,
      (select_list s.ctx rest 1 (s.ctx.decoders t0).curDocument_id [0]).1 ≤
        (s.ctx.decoders t).curDocument_id) ∧
    (∃ t ∈ s.leaders, (s.ctx.decoders t).curDocument_id =
      (select_list s.ctx rest 1 (s.ctx.decoders t0).curDocument_id [0]).1) ∧
    (select_list s.ctx rest 1 (s.ctx.decoders t0).curDocument_id [0]).2 =
      (List.range s.leaders.length).filter
        (fun i => decide ((s.ctx.decoders (s.leaders.getD i 0)).curDocument_id =
          (select_list s.ctx rest 1 (s.ctx.decoders t0).curDocument_id [0]).1)) := by
  have hsel := select_list_spec s.ctx rest [t0] (s.ctx.decoders t0).curDocument_id [0]
    (by intro t ht; rw [List.mem_singleton.1 ht])
    ⟨t0, List.mem_singleton.2 rfl, rfl⟩
    (by simp [List.range_succ])
  have e1 : [t0] ++ rest = s.leaders := by rw [hl]; rfl
  have e2 : [t0].length = 1 := rfl
  rw [e1, e2] at hsel
  exact hsel

theorem filter_map_sum_le (f g : Nat → Nat) (keep : Nat → Bool) : ∀ (l : List Nat),
    (∀ u ∈ l, keep u = true → g u ≤ f u) →
    ((l.filter keep).map g).sum ≤ (l.map f).sum := by
  intro l
  induction l with
  | nil => intro _; exact le_refl _
  | cons a l ih =>
    intro h
    have hl := ih (fun u hu => h u (List.mem_cons_of_mem _ hu))
    by_cases hk : keep a = true
    · rw [List.filter_cons_of_pos hk, List.map_cons, List.map_cons, List.sum_cons,
        List.sum_cons]
      have := h a (List.mem_cons_self _ _) hk
      omega
    · rw [List.filter_cons_of_neg hk, List.map_cons, List.sum_cons]
      omega

theorem filter_map_sum_lt (f g : Nat → Nat) (keep : Nat → Bool) : ∀ (l : List Nat),
    (∀ u ∈ l, keep u = true → g u ≤ f u) →
    (∃ u ∈ l, (keep u = false ∧ 0 < f u) ∨ (keep u = true ∧ g u < f u)) →
    ((l.filter keep).map g).sum < (l.map f).sum := by
  intro l
  induction l with
  | nil => intro _ h; obtain ⟨u, hu, _⟩ := h; exact absurd hu (List.not_mem_nil _)
  | cons a l ih =>
    intro h hex
    have hle := filter_map_sum_le f g keep l (fun u hu => h u (List.mem_cons_of_mem _ hu))
    obtain ⟨u, hu, hcase⟩ := hex
    rcases List.mem_cons.1 hu with hua | hul
    · subst hua
      rcases hcase with ⟨hk, hf⟩ | ⟨hk, hg⟩
      · rw [List.filter_cons_of_neg (by rw [hk]; exact Bool.false_ne_true), List.map_cons,
          List.sum_cons]
        omega
      · rw [List.filter_cons_of_pos hk, List.map_cons, List.map_cons, List.sum_cons,
          List.sum_cons]
        omega
    · have hlt := ih (fun v hv => h v (List.mem_cons_of_mem _ hv)) ⟨u, hul, hcase⟩
      by_cases hk : keep a = true
      · rw [List.filter_cons_of_pos hk, List.map_cons, List.map_cons, List.sum_cons,
          List.sum_cons]
        have := h a (List.mem_cons_self _ _) hk
        omega
      · rw [List.filter_cons_of_neg hk, List.map_cons, List.sum_cons]
        omega

theorem next_spec (d : Decoder) (hs : (d.remaining.map (fun p => p.id)).Sorted (· < ·)) :
    ((d.next).2.remaining.map (fun p => p.id)).Sorted (· < ·) ∧
    ((d.next).1 = true → d.curDocument_id < (d.next).2.curDocument_id ∧
      (d.next).2.remaining.length + 1 = d.remaining.length) ∧
    (d.next).2.remaining.length ≤ d.remaining.length := by
  cases d with
  | mk remaining =>
    cases remaining with
    | nil =>
      refine ⟨hs, ?_, le_refl _⟩
      intro h
      exact Bool.noConfusion h
    | cons p rest =>
      have hs2 : ((p :: rest).map (fun p => p.id)).Sorted (· < ·) := hs
      rw [List.map_cons, List.sorted_cons] at hs2
      refine ⟨hs2.2, ?_, Nat.le_succ _⟩
      intro h
      cases rest with
      | nil => exact Bool.noConfusion h
      | cons q rest2 =>
        refine ⟨?_, rfl⟩
        exact hs2.1 q.id (List.mem_map_of_mem _ (List.mem_cons_self _ _))

/-- One iteration of the driver loop under the invariant of the leaders: the document
selected is the least current id of the leaders; the leaders left are leaders of before,
in their order, still without duplicate and with increasing posting lists, and all stand
after the selected document; the document is offered to the filter at most once; the loop
ends exactly when no leader is left; a leader at the selected document is advanced, and
removed when exhausted; and the documents left to stream are fewer. -/
theorem driver_round_spec (root : exec_node) (masked : Nat → Bool) (filter : MatchesFilter)
    (s : driver_state) (t0 : Nat) (rest : List Nat) (hl : s.leaders = t0 :: rest)
    (hok : leaders_ok s) (hcnt : s.leaders.length ≤ 255) :
    (∀ t ∈ s.leaders,
      (driver_round root masked filter s t0 rest).1 ≤ (s.ctx.decoders t).curDocument_id) ∧
    leaders_ok (driver_round root masked filter s t0 rest).2.1 ∧
    (∀ u ∈ (driver_round root masked filter s t0 rest).2.1.leaders,
      (driver_round root masked filter s t0 rest).1 <
        ((driver_round root masked filter s t0 rest).2.1.ctx.decoders u).curDocument_id) ∧
    (driver_round root masked filter s t0 rest).2.1.leaders.Sublist s.leaders ∧
    (∃ extra, (driver_round root masked filter s t0 rest).2.1.considered =
        s.considered ++ extra ∧
      extra.Sublist [(driver_round root masked filter s t0 rest).1]) ∧
    ((driver_round root masked filter s t0 rest).2.2 = true ↔
      (driver_round root masked filter s t0 rest).2.1.leaders = []) ∧
    (∃ u ∈ s.leaders,
      (s.ctx.decoders u).curDocument_id = (driver_round root masked filter s t0 rest).1 ∧
      (driver_round root masked filter s t0 rest).2.1.ctx.decoders u =
        ((s.ctx.decoders u).next).2 ∧
      (u ∈ (driver_round root masked filter s t0 rest).2.1.leaders ↔
        ((s.ctx.decoders u).next).1 = true)) ∧
    leaders_left (driver_round root masked filter s t0 rest).2.1 < leaders_left s := by
  obtain ⟨hmin, hex, hadv⟩ := select_list_of_state s t0 rest hl
  obtain ⟨hcl, hcd, hcc⟩ := driver_consider_frame root masked filter s
    (select_list s.ctx rest 1 (s.ctx.decoders t0).curDocument_id [0]).1
  have hround : driver_round root masked filter s t0 rest =
      ((select_list s.ctx rest 1 (s.ctx.decoders t0).curDocument_id [0]).1,
       { driver_consider root masked filter s
           (select_list s.ctx rest 1 (s.ctx.decoders t0).curDocument_id [0]).1 with
         ctx := (advance_leaders
           (select_list s.ctx rest 1 (s.ctx.decoders t0).curDocument_id [0]).2.reverse
           (driver_consider root masked filter s
             (select_list s.ctx rest 1 (s.ctx.decoders t0).curDocument_id [0]).1).ctx
           (driver_consider root masked filter s
             (select_list s.ctx rest 1 (s.ctx.decoders t0).curDocument_id [0]).1).leaders).1
         leaders := (advance_leaders
           (select_list s.ctx rest 1 (s.ctx.decoders t0).curDocument_id [0]).2.reverse
           (driver_consider root masked filter s
             (select_list s.ctx rest 1 (s.ctx.decoders t0).curDocument_id [0]).1).ctx
           (driver_consider root masked filter s
             (select_list s.ctx rest 1 (s.ctx.decoders t0).curDocument_id [0]).1).leaders).2.1 },
       (advance_leaders
           (select_list s.ctx rest 1 (s.ctx.decoders t0).curDocument_id [0]).2.reverse
           (driver_consider root masked filter s
             (select_list s.ctx rest 1 (s.ctx.decoders t0).curDocument_id [0]).1).ctx
           (driver_consider root masked filter s
             (select_list s.ctx rest 1 (s.ctx.decoders t0).curDocument_id [0]).1).leaders).2.2) := by
    obtain ⟨e1, _, _, _, e5⟩ := select_round_eq_list s.ctx t0 rest (by rw [← hl]; exact hcnt)
    have h0 : driver_round root masked filter s t0 rest =
        ((select_round s.ctx t0 rest).1,
         { driver_consider root masked filter s (select_round s.ctx t0 rest).1 with
           ctx := (advance_leaders
             (advance_order (select_round s.ctx t0 rest).2.1 (select_round s.ctx t0 rest).2.2)
             (driver_consider root masked filter s (select_round s.ctx t0 rest).1).ctx
             (driver_consider root masked filter s (select_round s.ctx t0 rest).1).leaders).1
           leaders := (advance_leaders
             (advance_order (select_round s.ctx t0 rest).2.1 (select_round s.ctx t0 rest).2.2)
             (driver_consider root masked filter s (select_round s.ctx t0 rest).1).ctx
             (driver_consider root masked filter s
               (select_round s.ctx t0 rest).1).leaders).2.1 },
         (advance_leaders
             (advance_order (select_round s.ctx t0 rest).2.1 (select_round s.ctx t0 rest).2.2)
             (driver_consider root masked filter s (select_round s.ctx t0 rest).1).ctx
             (driver_consider root masked filter s
               (select_round s.ctx t0 rest).1).leaders).2.2) := rfl
    rw [h0, e5, e1]
  rw [hround]
  generalize select_list s.ctx rest 1 (s.ctx.decoders t0).curDocument_id [0] = sel
    at hmin hex hadv hcl hcd hcc
  generalize driver_consider root masked filter s sel.1 = s1 at hcl hcd hcc
  obtain ⟨_, hrs, hrlt, hrmem⟩ := to_advance_reverse s.ctx s.leaders sel.1 sel.2 hadv
  have hne : s.leaders ≠ [] := by rw [hl]; exact List.cons_ne_nil _ _
  rw [hcl]
  have hdec := advance_leaders_decoders sel.2.reverse s1.ctx s.leaders hok.1 hrs hrlt
  obtain ⟨hlead, hflag, _⟩ := advance_leaders_leaders sel.2.reverse s1.ctx s.leaders hok.1 hrs
    hrlt hne
  generalize advance_leaders sel.2.reverse s1.ctx s.leaders = a at hdec hlead hflag
  -- the decoder of a leader before the advance is the one the round started with
  have hsame : ∀ u ∈ s.leaders, s1.ctx.decoders u = s.ctx.decoders u :=
    fun u hu => hcd u (hmin u hu)
  have hdec2 : ∀ u ∈ s.leaders, a.1.decoders u =
      if (s.ctx.decoders u).curDocument_id = sel.1 then ((s.ctx.decoders u).next).2
      else s.ctx.decoders u := by
    intro u hu
    rw [hdec u, hsame u hu]
    by_cases hc : (s.ctx.decoders u).curDocument_id = sel.1
    · rw [if_pos ((hrmem u).2 ⟨hu, hc⟩), if_pos hc]
    · rw [if_neg (fun h => hc ((hrmem u).1 h).2), if_neg hc]
  have hkeep : ∀ u ∈ s.leaders, (u ∈ a.2.1 ↔
      ¬ ((s.ctx.decoders u).curDocument_id = sel.1 ∧ ((s.ctx.decoders u).next).1 = false)) := by
    intro u hu
    rw [hlead, List.mem_filter]
    unfold leader_removed
    rw [hsame u hu]
    constructor
    · rintro ⟨_, hk⟩ ⟨hc, hx⟩
      rw [decide_eq_true ((hrmem u).2 ⟨hu, hc⟩), hx] at hk
      exact Bool.noConfusion hk
    · intro h
      refine ⟨hu, ?_⟩
      by_cases hc : (s.ctx.decoders u).curDocument_id = sel.1
      · have hx : ((s.ctx.decoders u).next).1 = true := by
          cases hn : ((s.ctx.decoders u).next).1
          · exact absurd ⟨hc, hn⟩ h
          · rfl
        rw [hx]
        simp
      · rw [decide_eq_false (fun hm => hc ((hrmem u).1 hm).2)]
        rfl
  have hsub : a.2.1.Sublist s.leaders := by rw [hlead]; exact List.filter_sublist _
  have hmem_of : ∀ u ∈ a.2.1, u ∈ s.leaders := fun u hu => hsub.subset hu
  refine ⟨hmin, ⟨hok.1.sublist hsub, ?_⟩, ?_, hsub, hcc, hflag, ?_, ?_⟩
  · intro u hu
    show ((a.1.decoders u).remaining.map (fun p => p.id)).Sorted (· < ·)
    rw [hdec2 u (hmem_of u hu)]
    split
    · exact (next_spec _ (hok.2 u (hmem_of u hu))).1
    · exact hok.2 u (hmem_of u hu)
  · intro u hu
    show sel.1 < (a.1.decoders u).curDocument_id
    have hul := hmem_of u hu
    rw [hdec2 u hul]
    by_cases hc : (s.ctx.decoders u).curDocument_id = sel.1
    · rw [if_pos hc]
      have hx : ((s.ctx.decoders u).next).1 = true := by
        cases hn : ((s.ctx.decoders u).next).1
        · exact absurd ⟨hc, hn⟩ ((hkeep u hul).1 hu)
        · rfl
      have := ((next_spec _ (hok.2 u hul)).2.1 hx).1
      omega
    · rw [if_neg hc]
      have := hmin u hul
      omega
  · obtain ⟨u, hu, hue⟩ := hex
    refine ⟨u, hu, hue, ?_, ?_⟩
    · show a.1.decoders u = _
      rw [hdec2 u hu, if_pos hue]
    · show u ∈ a.2.1 ↔ _
      rw [hkeep u hu]
      constructor
      · intro h
        cases hn : ((s.ctx.decoders u).next).1
        · exact absurd ⟨hue, hn⟩ h
        · rfl
      · intro h hx
        rw [h] at hx
        exact Bool.noConfusion hx.2
  · show ((a.2.1).map (fun t => (a.1.decoders t).remaining.length + 1)).sum <
      (s.leaders.map (fun t => (s.ctx.decoders t).remaining.length + 1)).sum
    rw [hlead]
    apply filter_map_sum_lt
    · intro u hu _
      rw [hdec2 u hu]
      split
      · have := (next_spec _ (hok.2 u hu)).2.2
        omega
      · exact le_refl _
    · obtain ⟨u, hu, hue⟩ := hex
      refine ⟨u, hu, ?_⟩
      by_cases hx : ((s.ctx.decoders u).next).1 = true
      · right
        have hin : u ∈ a.2.1 := (hkeep u hu).2 (fun h => by rw [hx] at h; exact Bool.noConfusion h.2)
        rw [hlead, List.mem_filter] at hin
        refine ⟨hin.2, ?_⟩
        rw [hdec2 u hu, if_pos hue]
        have := ((next_spec _ (hok.2 u hu)).2.1 hx).2
        omega
      · left
        have hnin : u ∉ a.2.1 := fun h => (hkeep u hu).1 h ⟨hue, by
          cases hn : ((s.ctx.decoders u).next).1
          · rfl
          · exact absurd hn hx⟩
        rw [hlead, List.mem_filter] at hnin
        refine ⟨?_, Nat.succ_pos _⟩
        cases hk : (!leader_removed s1.ctx s.leaders sel.2.reverse u)
        · rfl
        · exact absurd ⟨hu, hk⟩ hnin

/-! ## Progress and order of the driver loop -/

theorem driver_selected_sorted (root : exec_node) (masked : Nat → Bool) (filter : MatchesFilter) :
    ∀ (fuel : Nat) (s : driver_state), leaders_ok s → s.leaders.length ≤ 255 →
    (∀ lb, (∀ t ∈ s.leaders, lb ≤ (s.ctx.decoders t).curDocument_id) →
      ∀ d ∈ driver_selected root masked filter fuel s, lb ≤ d) ∧
    (driver_selected root masked filter fuel s).Sorted (· < ·) := by
  intro fuel
  induction fuel with
  | zero =>
    intro s _ _
    exact ⟨fun _ _ d hd => absurd hd (List.not_mem_nil _), List.sorted_nil⟩
  | succ fuel ih =>
    intro s hok hcnt
    cases hl : s.leaders with
    | nil =>
      have e : driver_selected root masked filter (fuel + 1) s = [] := by
        rw [driver_selected]
        simp only [hl]
      rw [e]
      exact ⟨fun _ _ d hd => absurd hd (List.not_mem_nil _), List.sorted_nil⟩
    | cons t0 rest =>
      obtain ⟨_, hok2, hgt, hsub, _, _, ⟨u, hu, hue, _⟩, _⟩ :=
        driver_round_spec root masked filter s t0 rest hl hok hcnt
      rw [driver_selected_round root masked filter fuel s t0 rest hl]
      rw [hl] at hu
      by_cases hf : (driver_round root masked filter s t0 rest).2.2 = true
      · rw [if_pos hf]
        refine ⟨?_, List.sorted_singleton _⟩
        intro lb hlb d hd
        rw [List.mem_singleton.1 hd, ← hue]
        exact hlb u hu
      · rw [if_neg hf]
        obtain ⟨h1, h2⟩ := ih (driver_round root masked filter s t0 rest).2.1 hok2
          (le_trans hsub.length_le hcnt)
        have hall := h1 ((driver_round root masked filter s t0 rest).1 + 1)
          (fun t ht => hgt t ht)
        refine ⟨?_, List.sorted_cons.2 ⟨fun d hd => hall d hd, h2⟩⟩
        intro lb hlb d hd
        have hlb1 : lb ≤ (driver_round root masked filter s t0 rest).1 := by
          rw [← hue]; exact hlb u hu
        rcases List.mem_cons.1 hd with h | h
        · rw [h]; exact hlb1
        · have := hall d h
          omega

theorem driver_loop_considered (root : exec_node) (masked : Nat → Bool) (filter : MatchesFilter) :
    ∀ (fuel : Nat) (s s' : driver_state), leaders_ok s → s.leaders.length ≤ 255 →
    driver_loop root masked filter fuel s = some s' →
    ∃ extra, s'.considered = s.considered ++ extra ∧
      extra.Sublist (driver_selected root masked filter fuel s) := by
  intro fuel
  induction fuel with
  | zero =>
    intro s s' _ _ h
    rw [driver_loop] at h
    exact Option.noConfusion h
  | succ fuel ih =>
    intro s s' hok hcnt h
    cases hl : s.leaders with
    | nil =>
      rw [driver_loop] at h
      simp only [hl] at h
      exact Option.noConfusion h
    | cons t0 rest =>
      obtain ⟨_, hok2, _, hsub, ⟨e1, he1, hs1⟩, _, _, _⟩ :=
        driver_round_spec root masked filter s t0 rest hl hok hcnt
      rw [driver_loop_round root masked filter fuel s t0 rest hl] at h
      rw [driver_selected_round root masked filter fuel s t0 rest hl]
      by_cases hf : (driver_round root masked filter s t0 rest).2.2 = true
      · rw [if_pos hf] at h ⊢
        rw [← Option.some.inj h]
        exact ⟨e1, he1, hs1⟩
      · rw [if_neg hf] at h ⊢
        obtain ⟨e2, he2, hs2⟩ := ih _ s' hok2 (le_trans hsub.length_le hcnt) h
        refine ⟨e1 ++ e2, ?_, ?_⟩
        · rw [he2, he1, List.append_assoc]
        · exact List.Sublist.append hs1 hs2

theorem driver_loop_terminates (root : exec_node) (masked : Nat → Bool) (filter : MatchesFilter) :
    ∀ (n : Nat) (s : driver_state), leaders_ok s → s.leaders.length ≤ 255 →
    s.leaders ≠ [] → leaders_left s ≤ n →
    ∃ s', driver_loop root masked filter (n + 1) s = some s' := by
  intro n
  induction n with
  | zero =>
    intro s hok hcnt hne hle
    cases hl : s.leaders with
    | nil => exact absurd hl hne
    | cons t0 rest =>
      obtain ⟨_, _, _, _, _, _, _, hlt⟩ :=
        driver_round_spec root masked filter s t0 rest hl hok hcnt
      omega
  | succ n ih =>
    intro s hok hcnt hne hle
    cases hl : s.leaders with
    | nil => exact absurd hl hne
    | cons t0 rest =>
      obtain ⟨_, hok2, _, hsub, _, hflag, _, hlt⟩ :=
        driver_round_spec root masked filter s t0 rest hl hok hcnt
      rw [driver_loop_round root masked filter (n + 1) s t0 rest hl]
      by_cases hf : (driver_round root masked filter s t0 rest).2.2 = true
      · rw [if_pos hf]
        exact ⟨_, rfl⟩
      · rw [if_neg hf]
        exact ih _ hok2 (le_trans hsub.length_le hcnt) (fun h => hf (hflag.2 h)) (by omega)

/-- Driver progress and order with at most 255 leaders. Assume no term is a leader twice
and the posting list each leader decoder has to stream has strictly increasing ids, and
there are at most 255 leaders (so that the 8-bit counter `toAdvanceCnt` does not wrap).
Then the documents selected by the successive iterations of the driver loop are strictly
increasing; the documents offered to the filter are among them, in their order, so each
at most once; each iteration calls `next()` on the decoder of a leader standing at the
selected document, which stays a leader exactly when it is not exhausted, so that the
documents left to stream become fewer; and the loop ends within as many iterations as
there are such documents. -/
theorem driver_progress_and_order (root : exec_node) (masked : Nat → Bool)
    (filter : MatchesFilter) (s : driver_state) (fuel : Nat)
    (hok : leaders_ok s) (hne : s.leaders ≠ []) (hcnt : s.leaders.length ≤ 255) :
    (driver_selected root masked filter fuel s).Sorted (· < ·) ∧
    (∀ s', driver_loop root masked filter fuel s = some s' →
      ∃ extra, s'.considered = s.considered ++ extra ∧
        extra.Sublist (driver_selected root masked filter fuel s) ∧
        extra.Sorted (· < ·) ∧ extra.Nodup) ∧
    (∃ s', driver_loop root masked filter (leaders_left s + 1) s = some s') ∧
    (∀ t0 rest, s.leaders = t0 :: rest →
      (∃ u ∈ s.leaders,
        (s.ctx.decoders u).curDocument_id = (driver_round root masked filter s t0 rest).1 ∧
        (driver_round root masked filter s t0 rest).2.1.ctx.decoders u =
          ((s.ctx.decoders u).next).2 ∧
        (u ∈ (driver_round root masked filter s t0 rest).2.1.leaders ↔
          ((s.ctx.decoders u).next).1 = true)) ∧
      leaders_left (driver_round root masked filter s t0 rest).2.1 < leaders_left s ∧
      leaders_ok (driver_round root masked filter s t0 rest).2.1 ∧
      (driver_round root masked filter s t0 rest).2.1.leaders.length ≤ 255) := by
  have hsorted := (driver_selected_sorted root masked filter fuel s hok hcnt).2
  refine ⟨hsorted, ?_,
    driver_loop_terminates root masked filter _ s hok hcnt hne (le_refl _), ?_⟩
  · intro s' h
    obtain ⟨extra, he, hs⟩ := driver_loop_considered root masked filter fuel s s' hok hcnt h
    have hes : extra.Sorted (· < ·) := hsorted.sublist hs
    exact ⟨extra, he, hs, hes, hes.nodup⟩
  · intro t0 rest hl
    obtain ⟨_, hok2, _, hsub, _, _, hadv, hlt⟩ :=
      driver_round_spec root masked filter s t0 rest hl hok hcnt
    exact ⟨hadv, hlt, hok2, le_trans hsub.length_le hcnt⟩

set_option maxRecDepth 100000 in
/-- With the leaders `apple` (d1, d2), `banana` (d2, d3) and `phone` (d1, d3), the driver
selects the documents 1, 2, 3 and offers each once. -/
theorem driver_progress_and_order_witness :
    leaders_ok driver_fixture ∧ driver_fixture.leaders ≠ [] ∧
    driver_fixture.leaders.length ≤ 255 ∧
    (driver_selected (.matchterm_impl 1) (fun _ => false) (fun _ _ => .Continue) 8
      driver_fixture).Sorted (· < ·) ∧
    driver_selected (.matchterm_impl 1) (fun _ => false) (fun _ _ => .Continue) 8
      driver_fixture = [1, 2, 3] ∧
    (driver_loop (.matchterm_impl 1) (fun _ => false) (fun _ _ => .Continue) 8
      driver_fixture).map (fun s => s.considered) = some [1, 2] :=
  ⟨⟨by decide, by decide⟩, by decide, by decide,
   (driver_progress_and_order (.matchterm_impl 1) (fun _ => false) (fun _ _ => .Continue)
      driver_fixture 8 ⟨by decide, by decide⟩ (by decide) (by decide)).1,
   by decide, by decide⟩

set_option maxRecDepth 1000000 in
set_option maxHeartbeats 3000000 in
/-- C35 (the code at the failing input). With 257 distinct leaders, each with the
documents 1 and 2 to stream, the first iteration selects document 1 and, its 8-bit
counter having wrapped, advances one leader only, removing none; the second iteration
selects document 1 again. The documents selected are not strictly increasing, and
document 1 is evaluated and offered to the filter twice. -/
theorem driver_selects_a_document_twice :
    leaders_ok crowded_fixture ∧ crowded_fixture.leaders.length = 257 ∧
    driver_selected (.matchterm_impl 1) (fun _ => false) (fun _ _ => .Continue) 2
      crowded_fixture = [1, 1] ∧
    ¬ (driver_selected (.matchterm_impl 1) (fun _ => false) (fun _ _ => .Continue) 2
      crowded_fixture).Sorted (· < ·) ∧
    (driver_round (.matchterm_impl 1) (fun _ => false) (fun _ _ => .Continue) crowded_fixture 1
      ((List.range 256).map (fun i => i + 2))).2.1.leaders = crowded_fixture.leaders ∧
    (driver_round (.matchterm_impl 1) (fun _ => false) (fun _ _ => .Continue)
      (driver_round (.matchterm_impl 1) (fun _ => false) (fun _ _ => .Continue)
        crowded_fixture 1 ((List.range 256).map (fun i => i + 2))).2.1 1
      ((List.range 256).map (fun i => i + 2))).2.1.considered = [1, 1] := by
  have h1 : driver_selected (.matchterm_impl 1) (fun _ => false) (fun _ _ => .Continue) 2
      crowded_fixture = [1, 1] := by decide
  refine ⟨⟨by decide, by decide⟩, by decide, h1, ?_, by decide, by decide⟩
  rw [h1]
  decide

/-! ## Removal of exhausted leaders -/

/-- Leader removal is index-safe with at most 255 leaders. In a driver iteration over the
leaders `t0 :: rest` (distinct terms, at most 255 of them, so that the 8-bit counter
`toAdvanceCnt` does not wrap), `toAdvance[0 .. toAdvanceCnt)` holds leader indices in
strictly increasing order, and the do-while consumes it from its last element to its
first, on a context `c`. Removing the leader at an index leaves the leaders at the
smaller indices at their positions; each index is below `leaderDecodersCnt` when it is
used; `next()` is called once on the decoder of each leader that stood at `docID` and on
no other decoder; and the leaders left are the leaders of before without the exhausted
ones among them, in their order. -/
theorem leader_removal_index_safe (s : driver_state) (c : runtime_ctx) (t0 : Nat)
    (rest : List Nat) (hl : s.leaders = t0 :: rest) (hn : s.leaders.Nodup)
    (hcnt : s.leaders.length ≤ 255) :
    ((List.range (select_round s.ctx t0 rest).2.2).map
      (select_round s.ctx t0 rest).2.1).Sorted (· < ·) ∧
    (select_round s.ctx t0 rest).2.2 ≤ 255 ∧
    (∀ idx j, j < idx → (s.leaders.eraseIdx idx).getD j 0 = s.leaders.getD j 0) ∧
    advance_leaders_in_bounds
      (advance_order (select_round s.ctx t0 rest).2.1 (select_round s.ctx t0 rest).2.2)
      c s.leaders = true ∧
    (∀ u, (advance_leaders
          (advance_order (select_round s.ctx t0 rest).2.1 (select_round s.ctx t0 rest).2.2)
          c s.leaders).1.decoders u =
        if u ∈ s.leaders ∧ (s.ctx.decoders u).curDocument_id =
            (select_round s.ctx t0 rest).1
        then ((c.decoders u).next).2 else c.decoders u) ∧
    (advance_leaders
        (advance_order (select_round s.ctx t0 rest).2.1 (select_round s.ctx t0 rest).2.2)
        c s.leaders).2.1 =
      s.leaders.filter (fun u => !leader_removed c s.leaders
        (advance_order (select_round s.ctx t0 rest).2.1 (select_round s.ctx t0 rest).2.2) u) ∧
    (∀ u, leader_removed c s.leaders
        (advance_order (select_round s.ctx t0 rest).2.1 (select_round s.ctx t0 rest).2.2) u =
          true ↔
      (u ∈ s.leaders ∧ (s.ctx.decoders u).curDocument_id =
          (select_round s.ctx t0 rest).1) ∧
        ((c.decoders u).next).1 = false) ∧
    (advance_leaders
        (advance_order (select_round s.ctx t0 rest).2.1 (select_round s.ctx t0 rest).2.2)
        c s.leaders).2.1.Sublist s.leaders := by
  obtain ⟨e1, _, e3, e4, e5⟩ := select_round_eq_list s.ctx t0 rest (by rw [← hl]; exact hcnt)
  obtain ⟨_, _, hadv⟩ := select_list_of_state s t0 rest hl
  rw [e4, e5, e1]
  generalize select_list s.ctx rest 1 (s.ctx.decoders t0).curDocument_id [0] = sel at hadv
  obtain ⟨hs, hrs, hrlt, hrmem⟩ := to_advance_reverse s.ctx s.leaders sel.1 sel.2 hadv
  have hne : s.leaders ≠ [] := by rw [hl]; exact List.cons_ne_nil _ _
  obtain ⟨hlead, _, hib⟩ := advance_leaders_leaders sel.2.reverse c s.leaders hn hrs hrlt hne
  have hdec := advance_leaders_decoders sel.2.reverse c s.leaders hn hrs hrlt
  refine ⟨hs, e3, fun idx j h => getD_eraseIdx_of_lt s.leaders idx j h, hib, ?_, hlead, ?_,
    by rw [hlead]; exact List.filter_sublist _⟩
  · intro u
    rw [hdec u]
    by_cases hc : u ∈ s.leaders ∧ (s.ctx.decoders u).curDocument_id = sel.1
    · rw [if_pos ((hrmem u).2 hc), if_pos hc]
    · rw [if_neg (fun h => hc ((hrmem u).1 h)), if_neg hc]
  · intro u
    unfold leader_removed
    rw [Bool.and_eq_true, decide_eq_true_eq, hrmem u]
    constructor
    · rintro ⟨h1, h2⟩
      refine ⟨h1, ?_⟩
      cases hx : ((c.decoders u).next).1
      · rfl
      · rw [hx] at h2; exact Bool.noConfusion h2
    · rintro ⟨h1, h2⟩
      refine ⟨h1, ?_⟩
      rw [h2]
      rfl

set_option maxRecDepth 100000 in
/-- With the leaders `apple` (d1, d2), `banana` (d2, d3) and `phone` (d1, d3), the
indices used in the first round are in bounds and the leaders left are leaders of before;
in the second round, at document 2, `apple` is exhausted and removed, and the leaders
left are `banana` and `phone`. -/
theorem leader_removal_index_safe_witness :
    driver_fixture.leaders = 1 :: [2, 3] ∧ driver_fixture.leaders.Nodup ∧
    driver_fixture.leaders.length ≤ 255 ∧
    advance_leaders_in_bounds
      (advance_order (select_round driver_fixture.ctx 1 [2, 3]).2.1
        (select_round driver_fixture.ctx 1 [2, 3]).2.2)
      driver_fixture.ctx driver_fixture.leaders = true ∧
    (advance_leaders
        (advance_order (select_round driver_fixture.ctx 1 [2, 3]).2.1
          (select_round driver_fixture.ctx 1 [2, 3]).2.2)
        driver_fixture.ctx driver_fixture.leaders).2.1.Sublist driver_fixture.leaders ∧
    (driver_round (.matchterm_impl 1) (fun _ => false) (fun _ _ => .Continue)
      (driver_round (.matchterm_impl 1) (fun _ => false) (fun _ _ => .Continue)
        driver_fixture 1 [2, 3]).2.1 1 [2, 3]).2.1.leaders = [2, 3] :=
  ⟨rfl, by decide, by decide,
   (leader_removal_index_safe driver_fixture driver_fixture.ctx 1 [2, 3] rfl (by decide)
      (by decide)).2.2.2.1,
   (leader_removal_index_safe driver_fixture driver_fixture.ctx 1 [2, 3] rfl (by decide)
      (by decide)).2.2.2.2.2.2.2,
   by decide⟩

set_option maxRecDepth 1000000 in
/-- C36 (the code at the failing input). With 257 distinct leaders standing on
document 1 (a masked document, so that nothing is evaluated), the do-while that advances
the leaders reads the one index 256: `next()` is called on the decoder of the last
leader, which moves to document 2, and on no other decoder; the other 256 leaders, which
stood at `docID` too, are left on document 1, and no leader is removed. -/
theorem advance_leaves_leaders_behind :
    crowded_fixture.leaders.length = 257 ∧ crowded_fixture.leaders.Nodup ∧
    (∀ t ∈ crowded_fixture.leaders, (crowded_fixture.ctx.decoders t).curDocument_id = 1) ∧
    (driver_round .noop_impl (fun _ => true) (fun _ _ => .Continue) crowded_fixture 1
      ((List.range 256).map (fun i => i + 2))).1 = 1 ∧
    advance_order
      (select_round crowded_fixture.ctx 1 ((List.range 256).map (fun i => i + 2))).2.1
      (select_round crowded_fixture.ctx 1 ((List.range 256).map (fun i => i + 2))).2.2 =
      [256] ∧
    crowded_fixture.leaders.getD 256 0 = 257 ∧
    ((driver_round .noop_impl (fun _ => true) (fun _ _ => .Continue) crowded_fixture 1
      ((List.range 256).map (fun i => i + 2))).2.1.ctx.decoders 257).curDocument_id = 2 ∧
    (∀ t ∈ crowded_fixture.leaders, t ≠ 257 →
      (driver_round .noop_impl (fun _ => true) (fun _ _ => .Continue) crowded_fixture 1
        ((List.range 256).map (fun i => i + 2))).2.1.ctx.decoders t =
          crowded_fixture.ctx.decoders t) ∧
    (driver_round .noop_impl (fun _ => true) (fun _ _ => .Continue) crowded_fixture 1
      ((List.range 256).map (fun i => i + 2))).2.1.leaders = crowded_fixture.leaders := by
  refine ⟨by decide, by decide, by decide, by decide, by decide, by decide, by decide,
    by decide, by decide⟩

namespace Lucene

/-! ### The iterator after `materialize_hits` -/

/-- The inner loop of `materialize_hits` over `n` buffered hits moves the hits part of the
iterator `n` hits on. -/
theorem materialize_run_hits_ok (cfg : Config) (docs : List doc_input) (dec : Decoder)
    (v w : hits_view) (c n pos : Nat) (hv : hits_ok cfg docs dec v c)
    (hn : v.hitsIndex + n ≤ v.bufferedHits)
    (h1 : w.hdp = v.hdp) (h2 : w.hitsLeft = v.hitsLeft)
    (h3 : w.hitsIndex = (materialize_run dec.hitsDataPtr v.hitsPositionDeltas
      v.hitsPayloadLengths n v.hitsIndex pos v.payloadsIt).1)
    (h4 : w.bufferedHits = v.bufferedHits)
    (h5 : w.hitsPositionDeltas = v.hitsPositionDeltas)
    (h6 : w.hitsPayloadLengths = v.hitsPayloadLengths)
    (h7 : w.payloadsIt = (materialize_run dec.hitsDataPtr v.hitsPositionDeltas
      v.hitsPayloadLengths n v.hitsIndex pos v.payloadsIt).2.2.1) :
    hits_ok cfg docs dec w (c + n) := by
  rcases hv with ⟨g1, g2, g3⟩ | ⟨base, hc, hld⟩
  · have hz : n = 0 := by omega
    subst hz
    have e3 : w.hitsIndex = 0 := by rw [h3]; exact g2
    exact Or.inl ⟨⟨g1.c_le, g1.c_block, by rw [h1]; exact g1.hdp_eq,
      by rw [h2]; exact g1.hitsLeft_eq⟩, e3, by rw [h4]; exact g3⟩
  · have hbuf : v.bufferedHits ≤ cfg.BLOCK_SIZE := by
      have := hld.buffered_eq
      omega
    have hr := materialize_run_loaded cfg docs dec v.hitsPositionDeltas
      v.hitsPayloadLengths base v.bufferedHits hld.base_block hbuf hld.deltas_eq
      hld.lengths_eq n v.hitsIndex pos hn
    rw [← hld.payloadsIt_eq] at hr
    rw [hr] at h3 h7
    have e3 : w.hitsIndex = v.hitsIndex + n := h3
    refine Or.inr ⟨base, by rw [e3, hc, Nat.add_assoc], ?_⟩
    exact ⟨hld.base_block, hld.base_lt, by rw [e3, h4]; exact hn,
      by rw [h4]; exact hld.buffered_eq, by rw [h2, h4]; exact hld.hitsLeft_eq,
      fun i hi => by rw [h5]; exact hld.deltas_eq i (by rw [← h4]; exact hi),
      fun i hi => by rw [h6]; exact hld.lengths_eq i (by rw [← h4]; exact hi),
      by rw [h7, e3], by rw [h1]; exact hld.hdp_eq⟩

/-- The slow path of `materialize_hits` leaves the documents part and the queue of omitted
hits alone and moves the hits part `freq` hits on. -/
theorem materialize_slow_state (cfg : Config) (hok : cfg.codec_ok) (hB : 0 < cfg.BLOCK_SIZE)
    (hB16 : cfg.BLOCK_SIZE ≤ 2 ^ 16) (docs : List doc_input) (dec : Decoder)
    (hh : hits_layout cfg docs dec) :
    ∀ (fuel : Nat) (it : PostingsListIterator) (pos freq c : Nat),
      hits_ok cfg docs dec it.hits_view c → c + freq ≤ hits_total docs →
      ∀ (it1 : PostingsListIterator) (idx1 : Nat) (out : List term_hit),
        dec.materialize_slow cfg fuel it it.hitsIndex pos freq = some (it1, idx1, out) →
        it1.docs_view = it.docs_view ∧ it1.skippedHits = it.skippedHits ∧
          hits_ok cfg docs dec ({ it1 with hitsIndex := idx1 } : PostingsListIterator).hits_view
            (c + freq) := by
  intro fuel
  induction fuel with
  | zero =>
    intro it pos freq c _ _ it1 idx1 out h
    exact absurd h (by simp [Decoder.materialize_slow])
  | succ fuel ih =>
    intro it pos freq c hok1 hcf it1 idx1 out h
    obtain ⟨r, hr⟩ : ∃ r, r = materialize_run dec.hitsDataPtr it.hitsPositionDeltas
      it.hitsPayloadLengths (min (it.bufferedHits - it.hitsIndex) freq) it.hitsIndex pos
      it.payloadsIt := ⟨_, rfl⟩
    obtain ⟨Y, hY⟩ : ∃ Y, Y = dec.refill_hits cfg
      ({ it with payloadsIt := r.2.2.1, hitsIndex := r.1 } : PostingsListIterator) := ⟨_, rfl⟩
    have hstep : dec.materialize_slow cfg (fuel + 1) it it.hitsIndex pos freq =
        if freq - min (it.bufferedHits - it.hitsIndex) freq ≠ 0 then
          match dec.materialize_slow cfg fuel Y Y.hitsIndex r.2.1
            (freq - min (it.bufferedHits - it.hitsIndex) freq) with
          | none => none
          | some (it3, hitsIndex3, out3) => some (it3, hitsIndex3, r.2.2.2 ++ out3)
        else some (({ it with payloadsIt := r.2.2.1 } : PostingsListIterator), r.1, r.2.2.2) := by
      subst hr hY
      rfl
    rw [hstep] at h
    by_cases hmore : freq - min (it.bufferedHits - it.hitsIndex) freq ≠ 0
    · rw [if_pos hmore] at h
      have hmin : min (it.bufferedHits - it.hitsIndex) freq = it.bufferedHits - it.hitsIndex := by
        omega
      have hle : it.hitsIndex ≤ it.bufferedHits := by
        rcases hok1 with ⟨_, g2, g3⟩ | ⟨base, _, hld⟩
        · have e2 : it.hitsIndex = 0 := g2
          omega
        · exact hld.index_le
      have hg : at_hits_gap cfg docs dec
          ({ it with payloadsIt := r.2.2.1, hitsIndex := r.1 } : PostingsListIterator).hits_view
          (c + min (it.bufferedHits - it.hitsIndex) freq) := by
        rcases hok1 with ⟨g1, g2, g3⟩ | ⟨base, hc, hld⟩
        · have e3 : it.bufferedHits = 0 := g3
          have hz : min (it.bufferedHits - it.hitsIndex) freq = 0 := by omega
          rw [hz, Nat.add_zero]
          exact ⟨g1.c_le, g1.c_block, g1.hdp_eq, g1.hitsLeft_eq⟩
        · have hc1 : c = base + it.hitsIndex := hc
          have := loaded_end_gap cfg hB docs dec it.hits_view
            ({ it with payloadsIt := r.2.2.1, hitsIndex := r.1 } :
              PostingsListIterator).hits_view base hld rfl rfl
          have hb : it.hits_view.bufferedHits = it.bufferedHits := rfl
          rw [hb] at this
          have e : c + min (it.bufferedHits - it.hitsIndex) freq = base + it.bufferedHits := by
            omega
          rw [e]
          exact this
      obtain ⟨r1, r2, _⟩ := refill_hits_spec cfg hok hB hB16 docs dec hh _ _ hg
      rw [← hY] at r1 r2
      have hld2 := r2 (by omega)
      have hdv : Y.docs_view = it.docs_view := by
        rw [hY, refill_hits_docs_view]
        rfl
      have hsk : Y.skippedHits = it.skippedHits := by
        rw [hY, (refill_hits_counts cfg dec _).2.2.2]
      cases hm : dec.materialize_slow cfg fuel Y Y.hitsIndex r.2.1
          (freq - min (it.bufferedHits - it.hitsIndex) freq) with
      | none => rw [hm] at h; exact absurd h (by simp)
      | some q =>
        obtain ⟨it3, idx3, out3⟩ := q
        rw [hm] at h
        simp only [Option.some.injEq, Prod.mk.injEq] at h
        obtain ⟨a1, a2, _⟩ := h
        subst a1 a2
        obtain ⟨b1, b2, b3⟩ := ih Y r.2.1 (freq - min (it.bufferedHits - it.hitsIndex) freq)
          (c + min (it.bufferedHits - it.hitsIndex) freq)
          (Or.inr ⟨_, by rw [show Y.hits_view.hitsIndex = Y.hitsIndex from rfl, r1,
            Nat.add_zero], hld2⟩) (by omega) it3 idx3 out3 hm
        refine ⟨b1.trans hdv, b2.trans hsk, ?_⟩
        have e : c + min (it.bufferedHits - it.hitsIndex) freq +
            (freq - min (it.bufferedHits - it.hitsIndex) freq) = c + freq := by omega
        rw [e] at b3
        exact b3
    · rw [if_neg hmore] at h
      simp only [Option.some.injEq, Prod.mk.injEq] at h
      obtain ⟨a1, a2, _⟩ := h
      subst a1 a2
      have hmin : min (it.bufferedHits - it.hitsIndex) freq = freq := by omega
      rw [hmin] at hr
      have hle : it.hitsIndex + freq ≤ it.bufferedHits := by
        rcases hok1 with ⟨_, g2, g3⟩ | ⟨base, _, hld⟩
        · have e2 : it.hitsIndex = 0 := g2
          have e3 : it.bufferedHits = 0 := g3
          omega
        · have := hld.index_le
          have e : it.hits_view.hitsIndex = it.hitsIndex := rfl
          have e2 : it.hits_view.bufferedHits = it.bufferedHits := rfl
          omega
      refine ⟨rfl, rfl, ?_⟩
      exact materialize_run_hits_ok cfg docs dec it.hits_view _ c freq pos hok1 hle rfl rfl
        (congrArg (fun q => q.1) hr) rfl rfl rfl (congrArg (fun q => q.2.2.1) hr)

end Lucene

namespace Lucene

/-- On a document whose frequency entry is still in the block, `materialize_hits` writes
the hits of the document, zeroes the entry, leaves no hits queued and stands at the hits
of the next document. -/
theorem materialize_hits_state (cfg : Config) (hok : cfg.codec_ok) (hB : 0 < cfg.BLOCK_SIZE)
    (hB16 : cfg.BLOCK_SIZE ≤ 2 ^ 16) (docs : List doc_input) (dec : Decoder)
    (hl : chunk_layout cfg docs dec) (hh : hits_layout cfg docs dec)
    (it : PostingsListIterator) (k : Nat) (ho : on_doc cfg docs dec it.docs_view k)
    (hs : hits_state_ok cfg docs dec it (hits_before docs k)) :
    ∃ it1, dec.materialize_hits cfg it = some (it1, doc_hits cfg docs dec k) ∧
      it1.docs_view =
        { it.docs_view with docFreqs := Function.update it.docFreqs it.docsIndex 0 } ∧
      it1.skippedHits = 0 ∧
      hits_ok cfg docs dec it1.hits_view (hits_before docs (k + 1)) := by
  obtain ⟨it1, hm⟩ := materialize_hits_spec cfg hok hB hB16 docs dec hl hh it k ho hs
  refine ⟨it1, hm, ?_⟩
  obtain ⟨_, hfr⟩ := on_doc_cur cfg hB docs dec hl _ k ho
  have hfr1 : it.docFreqs it.docsIndex = doc_freq docs k := hfr
  have hcf : hits_before docs k + doc_freq docs k ≤ hits_total docs :=
    hits_before_mono docs (k + 1) docs.length ho.k_lt
  have hsucc : hits_before docs (k + 1) = hits_before docs k + doc_freq docs k := rfl
  obtain ⟨it0, e1, e2, e3, e4⟩ := skip_hits_state cfg hok hB hB16 docs dec hl hh it _ hs
  have d1 : it0.docsIndex = it.docsIndex := congrArg docs_view.docsIndex e4
  have d2 : it0.docFreqs = it.docFreqs := congrArg docs_view.docFreqs e4
  unfold Decoder.materialize_hits at hm
  simp only [e1, hfr1] at hm
  by_cases hfast : it0.hitsIndex + doc_freq docs k ≤ it0.bufferedHits
  · rw [if_pos hfast] at hm
    simp only [Option.some.injEq, Prod.mk.injEq] at hm
    obtain ⟨a1, _⟩ := hm
    subst a1
    refine ⟨?_, e3, ?_⟩
    · show ({ it0.docs_view with
        docFreqs := Function.update it0.docFreqs it0.docsIndex 0 } : docs_view) = _
      rw [e4, d1, d2]
    · rw [hsucc]
      exact materialize_run_hits_ok cfg docs dec it0.hits_view _ _ _ 0 e2 hfast rfl rfl rfl rfl
        rfl rfl rfl
  · rw [if_neg hfast] at hm
    cases hq : dec.materialize_slow cfg (2 * doc_freq docs k + 2) it0 it0.hitsIndex 0
        (doc_freq docs k) with
    | none => rw [hq] at hm; exact absurd hm (by simp)
    | some q =>
      obtain ⟨it2, idx2, out2⟩ := q
      rw [hq] at hm
      simp only [Option.some.injEq, Prod.mk.injEq] at hm
      obtain ⟨a1, _⟩ := hm
      subst a1
      obtain ⟨b1, b2, b3⟩ := materialize_slow_state cfg hok hB hB16 docs dec hh _ it0 0
        (doc_freq docs k) (hits_before docs k) e2 hcf it2 idx2 out2 hq
      have c1 : it2.docsIndex = it0.docsIndex := congrArg docs_view.docsIndex b1
      have c2 : it2.docFreqs = it0.docFreqs := congrArg docs_view.docFreqs b1
      refine ⟨?_, b2.trans e3, ?_⟩
      · show ({ it2.docs_view with
          docFreqs := Function.update it2.docFreqs it2.docsIndex 0 } : docs_view) = _
        rw [b1, e4, c1, c2, d1, d2]
      · rw [hsucc]
        exact b3

/-- The frequencies behind `docsIndex` do not matter for the position of an iterator. -/
theorem on_doc_of_freqs (cfg : Config) (docs : List doc_input) (dec : Decoder)
    (v : docs_view) (f : Nat → Nat) (k : Nat) (ho : on_doc cfg docs dec v k)
    (hf : ∀ i, v.docsIndex ≤ i → f i = v.docFreqs i) :
    on_doc cfg docs dec { v with docFreqs := f } k :=
  ⟨ho.k_lt, ho.docsIndex_eq, ho.bufferedDocs_eq, ho.deltas_eq,
    fun i hle hi => (hf i hle).trans (ho.freqs_eq i hle hi),
    ho.lastDocID_eq, ho.p_eq, ho.docsLeft_eq, ho.cur_eq, ho.freq_eq⟩

/-- Stepping over the document `k` inside its block after its hits were materialized leads
to the document `k + 1`. -/
theorem on_doc_succ_zeroed (cfg : Config) (hB : 0 < cfg.BLOCK_SIZE) (docs : List doc_input)
    (dec : Decoder) (hl : chunk_layout cfg docs dec) (v w : docs_view) (k : Nat)
    (ho : on_doc cfg docs dec v k) (hin : v.docsIndex + 1 < v.bufferedDocs)
    (h1 : w.lastDocID = (v.lastDocID + v.docDeltas v.docsIndex) % 2 ^ 32)
    (h2 : w.docsIndex = v.docsIndex + 1) (h3 : w.bufferedDocs = v.bufferedDocs)
    (h4 : w.docDeltas = v.docDeltas)
    (h5 : w.docFreqs = Function.update v.docFreqs v.docsIndex 0) (h6 : w.p = v.p)
    (h7 : w.docsLeft = v.docsLeft)
    (h8 : w.curDocument_id = (w.lastDocID + v.docDeltas (v.docsIndex + 1)) % 2 ^ 32)
    (h9 : w.freq = v.docFreqs (v.docsIndex + 1)) :
    on_doc cfg docs dec w (k + 1) := by
  have ho1 := on_doc_succ cfg hB docs dec hl v { w with docFreqs := v.docFreqs } k ho hin
    h1 h2 h3 h4 rfl h6 h7 h8 h9
  have ho2 := on_doc_of_freqs cfg docs dec _ w.docFreqs (k + 1) ho1 (fun i hle => by
    have hne : i ≠ v.docsIndex := by
      have : v.docsIndex + 1 ≤ i := by rw [← h2]; exact hle
      omega
    rw [h5, Function.update_noteq hne])
  exact ho2

end Lucene

namespace Lucene

/-- The call `next` on an iterator whose document `k` was materialized queues no hits and
leaves the hits part at the hits of the document `k + 1`. -/
theorem next_after_materialize (cfg : Config) (hok : cfg.codec_ok) (hB : 0 < cfg.BLOCK_SIZE)
    (hB16 : cfg.BLOCK_SIZE ≤ 2 ^ 16) (docs : List doc_input) (dec : Decoder)
    (hl : chunk_layout cfg docs dec) (hh : hits_layout cfg docs dec)
    (htail : tail_deltas_ok cfg docs) (it it1 : PostingsListIterator) (k : Nat)
    (ho : on_doc cfg docs dec it.docs_view k)
    (hv : it1.docs_view =
      { it.docs_view with docFreqs := Function.update it.docFreqs it.docsIndex 0 })
    (hsk : it1.skippedHits = 0)
    (hho : hits_ok cfg docs dec it1.hits_view (hits_before docs (k + 1))) :
    ∃ it2, dec.next cfg it1 = some it2 ∧ it2.skippedHits = 0 ∧
      ((k + 1 < docs.length ∧ on_doc cfg docs dec it2.docs_view (k + 1) ∧
          hits_state_ok cfg docs dec it2 (hits_before docs (k + 1)) ∧
          it2.skipListIdx = it1.skipListIdx) ∨
       (k + 1 = docs.length ∧ exhausted dec it2)) := by
  have q1 : it1.p = it.p := congrArg docs_view.p hv
  have q2 : it1.lastDocID = it.lastDocID := congrArg docs_view.lastDocID hv
  have q3 : it1.docsLeft = it.docsLeft := congrArg docs_view.docsLeft hv
  have q4 : it1.docsIndex = it.docsIndex := congrArg docs_view.docsIndex hv
  have q5 : it1.bufferedDocs = it.bufferedDocs := congrArg docs_view.bufferedDocs hv
  have q6 : it1.docDeltas = it.docDeltas := congrArg docs_view.docDeltas hv
  have q7 : it1.docFreqs = Function.update it.docFreqs it.docsIndex 0 :=
    congrArg docs_view.docFreqs hv
  have hz : (it1.skippedHits + it1.docFreqs it1.docsIndex) % 2 ^ 32 = 0 := by
    rw [hsk, q7, q4, Function.update_same]
    rfl
  have hle : hits_before docs (k + 1) ≤ hits_total docs :=
    hits_before_mono docs (k + 1) docs.length ho.k_lt
  have hnext : ∀ f : Nat → Nat, f (it.docsIndex + 1) =
      (Function.update f it.docsIndex 0) (it.docsIndex + 1) := fun f =>
    (Function.update_noteq (Nat.succ_ne_self _) _ _).symm
  by_cases hin : it1.docsIndex + 1 < it1.bufferedDocs
  · rw [next_eq_in_block cfg dec it1 hin]
    have ho1 : on_doc cfg docs dec ({ it1 with
        skippedHits := (it1.skippedHits + it1.docFreqs it1.docsIndex) % 2 ^ 32
        lastDocID := (it1.lastDocID + it1.docDeltas it1.docsIndex) % 2 ^ 32
        curDocument_id := ((it1.lastDocID + it1.docDeltas it1.docsIndex) % 2 ^ 32 +
          it1.docDeltas (it1.docsIndex + 1)) % 2 ^ 32
        freq := it1.docFreqs (it1.docsIndex + 1)
        docsIndex := it1.docsIndex + 1 } : PostingsListIterator).docs_view (k + 1) := by
      apply on_doc_succ_zeroed cfg hB docs dec hl it.docs_view _ k ho
        (by show it.docsIndex + 1 < it.bufferedDocs; rw [← q4, ← q5]; exact hin)
      · show (it1.lastDocID + it1.docDeltas it1.docsIndex) % 2 ^ 32 = _
        rw [q2, q6, q4]
        rfl
      · show it1.docsIndex + 1 = _
        rw [q4]
        rfl
      · exact q5
      · exact q6
      · exact q7
      · exact q1
      · exact q3
      · show ((it1.lastDocID + it1.docDeltas it1.docsIndex) % 2 ^ 32 +
          it1.docDeltas (it1.docsIndex + 1)) % 2 ^ 32 = _
        rw [q6, q4]
        rfl
      · show it1.docFreqs (it1.docsIndex + 1) = _
        rw [q7, q4]
        exact (hnext it.docFreqs).symm
    refine ⟨_, rfl, hz, Or.inl ⟨ho1.k_lt, ho1, ?_, rfl⟩⟩
    · refine ⟨hle, hits_before docs (k + 1), ?_, ?_⟩
      · show hits_before docs (k + 1) +
          (it1.skippedHits + it1.docFreqs it1.docsIndex) % 2 ^ 32 = _
        rw [hz]
        rfl
      · exact hits_ok_of_fields cfg docs dec it1.hits_view _ _ rfl rfl rfl rfl rfl rfl rfl hho
  · have hin0 : ¬ (it.docs_view.docsIndex + 1 < it.docs_view.bufferedDocs) := by
      show ¬ (it.docsIndex + 1 < it.bufferedDocs)
      rw [← q4, ← q5]
      exact hin
    have hg : at_gap cfg docs dec ({ it1 with
        skippedHits := (it1.skippedHits + it1.docFreqs it1.docsIndex) % 2 ^ 32
        lastDocID := (it1.lastDocID + it1.docDeltas it1.docsIndex) % 2 ^ 32
        docsIndex := it1.docsIndex + 1 } : PostingsListIterator).docs_view (k + 1) := by
      apply on_doc_gap cfg hB docs dec hl it.docs_view _ k ho hin0
      · show (it1.lastDocID + it1.docDeltas it1.docsIndex) % 2 ^ 32 = _
        rw [q2, q6, q4]
        rfl
      · exact q1
      · exact q3
    have hp := at_gap_p cfg docs dec hl _ (k + 1) hg
    by_cases hpe : it1.p = dec.chunkEnd
    · rw [next_eq_end cfg dec it1 hin hpe]
      exact ⟨_, rfl, hz, Or.inr ⟨hp.1 hpe, hpe, rfl,
        by show it1.bufferedDocs ≤ it1.docsIndex + 1; omega⟩⟩
    · have hm : k + 1 < docs.length := lt_of_le_of_ne hg.m_le (fun e => hpe (hp.2 e))
      have hsX : hits_state_ok cfg docs dec ({ it1 with
          skippedHits := (it1.skippedHits + it1.docFreqs it1.docsIndex) % 2 ^ 32
          lastDocID := (it1.lastDocID + it1.docDeltas it1.docsIndex) % 2 ^ 32
          docsIndex := it1.docsIndex + 1 } : PostingsListIterator)
          (hits_before docs (k + 1)) := by
        refine ⟨hle, hits_before docs (k + 1), ?_, ?_⟩
        · show hits_before docs (k + 1) +
            (it1.skippedHits + it1.docFreqs it1.docsIndex) % 2 ^ 32 = _
          rw [hz]
          rfl
        · exact hits_ok_of_fields cfg docs dec it1.hits_view _ _ rfl rfl rfl rfl rfl rfl rfl hho
      rw [next_eq_gap cfg dec it1 hin hpe]
      obtain ⟨it2, e1, e2, _, e4, e5⟩ := decode_next_block_gap cfg hok hB docs dec hl htail
        _ (k + 1) (hits_before docs (k + 1)) hg hm
        (hits_state_count cfg docs dec hl _ _ hsX)
      have e6 := decode_next_block_hits cfg hok hB hB16 docs dec hl hh _ it2 _ hsX e1
      rw [e1]
      obtain ⟨hcur, hfr⟩ := on_doc_cur cfg hB docs dec hl _ (k + 1) e2
      refine ⟨_, rfl, e4, Or.inl ⟨hm, ?_, ?_, e5⟩⟩
      · exact ⟨e2.k_lt, e2.docsIndex_eq, e2.bufferedDocs_eq, e2.deltas_eq, e2.freqs_eq,
          e2.lastDocID_eq, e2.p_eq, e2.docsLeft_eq, hcur, hfr⟩
      · exact hits_state_ok_of_view cfg docs dec _ it2 _ rfl e6

/-- The call `advance` on an iterator whose document `k` was materialized: a target up
to the id of `k` leaves the iterator alone, a larger one steps over `k` without queueing
hits and ends in the seek state of the target. -/
theorem advance_after_materialize (cfg : Config) (hok : cfg.codec_ok)
    (hB : 0 < cfg.BLOCK_SIZE) (hB16 : cfg.BLOCK_SIZE ≤ 2 ^ 16) (docs : List doc_input)
    (dec : Decoder) (hl : chunk_layout cfg docs dec) (hh : hits_layout cfg docs dec)
    (htail : tail_deltas_ok cfg docs) (it it1 : PostingsListIterator) (k : Nat)
    (ho : on_doc cfg docs dec it.docs_view k)
    (hv : it1.docs_view =
      { it.docs_view with docFreqs := Function.update it.docFreqs it.docsIndex 0 })
    (hsk : it1.skippedHits = 0)
    (hho : hits_ok cfg docs dec it1.hits_view (hits_before docs (k + 1)))
    (hidx : it1.skipListIdx ≤ dec.skiplist.length) (target fuel : Nat)
    (hfuel : (dec.skiplist.length + 1) * (2 * docs.length + 2) ≤ fuel) :
    ∃ r, dec.advance cfg fuel it1 target = some r ∧
      (advance_l10 target it1 it1.docsIndex).1.skippedHits = it1.skippedHits ∧
      (target ≤ doc_id docs k → r = it1) ∧
      (doc_id docs k < target → seek_state cfg docs dec target r) := by
  have q1 : it1.p = it.p := congrArg docs_view.p hv
  have q2 : it1.lastDocID = it.lastDocID := congrArg docs_view.lastDocID hv
  have q3 : it1.docsLeft = it.docsLeft := congrArg docs_view.docsLeft hv
  have q4 : it1.docsIndex = it.docsIndex := congrArg docs_view.docsIndex hv
  have q5 : it1.bufferedDocs = it.bufferedDocs := congrArg docs_view.bufferedDocs hv
  have q6 : it1.docDeltas = it.docDeltas := congrArg docs_view.docDeltas hv
  have q7 : it1.docFreqs = Function.update it.docFreqs it.docsIndex 0 :=
    congrArg docs_view.docFreqs hv
  have q8 : it1.curDocument_id = it.curDocument_id := congrArg docs_view.curDocument_id hv
  have hcur : it1.curDocument_id = doc_id docs k := q8.trans ho.cur_eq
  have hz : (it1.skippedHits + it1.docFreqs it1.docsIndex) % 2 ^ 32 = 0 := by
    rw [hsk, q7, q4, Function.update_same]
    rfl
  have hle : hits_before docs (k + 1) ≤ hits_total docs :=
    hits_before_mono docs (k + 1) docs.length ho.k_lt
  have hlt : it1.docsIndex < it1.bufferedDocs := by
    rw [q4, q5]
    exact on_doc_index_lt cfg hB docs dec _ k ho
  have hk := ho.k_lt
  have hmb : (dec.skiplist.length - it1.skipListIdx) * (2 * docs.length + 2) +
      2 * (docs.length - (k + 1)) + 3 < (dec.skiplist.length + 1) * (2 * docs.length + 2) := by
    have h1 : (dec.skiplist.length - it1.skipListIdx) * (2 * docs.length + 2) ≤
        dec.skiplist.length * (2 * docs.length + 2) :=
      Nat.mul_le_mul_right _ (Nat.sub_le _ _)
    rw [Nat.add_mul, Nat.one_mul]
    omega
  obtain ⟨f, rfl⟩ : ∃ f, fuel = f + 1 := ⟨fuel - 1, by omega⟩
  unfold Decoder.advance
  rw [advance_loop_eq_l10 cfg dec target f it1 _ _ (Nat.ne_of_lt hlt)]
  by_cases hT : target ≤ doc_id docs k
  · rw [advance_l10_done target it1 it1.docsIndex (by rw [hcur]; exact hT)]
    exact ⟨_, rfl, rfl, fun _ => rfl, fun h => absurd hT (by omega)⟩
  · have hT1 : doc_id docs k < target := by omega
    rw [advance_l10_step target it1 it1.docsIndex (by rw [hcur]; exact hT1)]
    obtain ⟨X, hX⟩ : ∃ X : PostingsListIterator, X = { it1 with
        skippedHits := (it1.skippedHits + it1.docFreqs it1.docsIndex) % 2 ^ 32
        lastDocID := (it1.lastDocID + it1.docDeltas it1.docsIndex) % 2 ^ 32
        curDocument_id := ((it1.lastDocID + it1.docDeltas it1.docsIndex) % 2 ^ 32 +
          it1.docDeltas (it1.docsIndex + 1)) % 2 ^ 32
        freq := it1.docFreqs (it1.docsIndex + 1) } := ⟨_, rfl⟩
    rw [← hX]
    show ∃ r, dec.advance_loop cfg target f X it1.bufferedDocs (it1.docsIndex + 1) = some r ∧
      X.skippedHits = it1.skippedHits ∧ (target ≤ doc_id docs k → r = it1) ∧
      (doc_id docs k < target → seek_state cfg docs dec target r)
    have hXs : X.skippedHits = it1.skippedHits := by
      rw [hX]
      show (it1.skippedHits + it1.docFreqs it1.docsIndex) % 2 ^ 32 = it1.skippedHits
      rw [hz, hsk]
    have hXi : X.skipListIdx ≤ dec.skiplist.length := by rw [hX]; exact hidx
    have hXb : it1.bufferedDocs = X.bufferedDocs := by rw [hX]
    have hsX : hits_state_ok cfg docs dec X (hits_before docs (k + 1)) := by
      refine ⟨hle, hits_before docs (k + 1), ?_, ?_⟩
      · rw [hXs, hsk]
        rfl
      · rw [hX]
        exact hits_ok_of_fields cfg docs dec it1.hits_view _ _ rfl rfl rfl rfl rfl rfl rfl hho
    have hcX := hits_state_count cfg docs dec hl X _ hsX
    have hbelow : ids_below docs target (k + 1) := fun j hj =>
      lt_of_le_of_lt (doc_id_mono docs docs.length hl.ids_sorted j k (by omega) hk) hT1
    have hfin : seek_result cfg docs dec target (k + 1)
          (dec.advance_loop cfg target f X it1.bufferedDocs (it1.docsIndex + 1)) →
        (∀ r k1, dec.advance_loop cfg target f X it1.bufferedDocs (it1.docsIndex + 1) = some r →
          on_doc cfg docs dec r.docs_view k1 →
          hits_state_ok cfg docs dec r (hits_before docs k1)) →
        ∃ r, dec.advance_loop cfg target f X it1.bufferedDocs (it1.docsIndex + 1) = some r ∧
          X.skippedHits = it1.skippedHits ∧ (target ≤ doc_id docs k → r = it1) ∧
          (doc_id docs k < target → seek_state cfg docs dec target r) := by
      intro hsr hhits
      obtain ⟨r, e1, _, e3⟩ := hsr
      refine ⟨r, e1, hXs, fun h => absurd h hT, fun _ => ?_⟩
      rcases e3 with ⟨k1, a1, _, a3, a4⟩ | ⟨a1, a2⟩
      · exact Or.inl ⟨k1, a1, hhits r k1 e1 a1, a3, a4 hbelow⟩
      · exact Or.inr ⟨a1, a2 hbelow⟩
    have hmul : (dec.skiplist.length - X.skipListIdx) * (2 * docs.length + 2) =
        (dec.skiplist.length - it1.skipListIdx) * (2 * docs.length + 2) := by rw [hX]
    by_cases hin : it1.docsIndex + 1 < it1.bufferedDocs
    · have hoX : on_doc cfg docs dec { X.docs_view with docsIndex := it1.docsIndex + 1 }
          (k + 1) := by
        apply on_doc_succ_zeroed cfg hB docs dec hl it.docs_view _ k ho
          (by show it.docsIndex + 1 < it.bufferedDocs; rw [← q4, ← q5]; exact hin)
        · show X.lastDocID = _
          rw [hX]
          show (it1.lastDocID + it1.docDeltas it1.docsIndex) % 2 ^ 32 = _
          rw [q2, q6, q4]
          rfl
        · show it1.docsIndex + 1 = _
          rw [q4]
          rfl
        · show X.bufferedDocs = _
          rw [← hXb]
          exact q5
        · show X.docDeltas = _
          rw [hX]
          exact q6
        · show X.docFreqs = _
          rw [hX]
          exact q7
        · show X.p = _
          rw [hX]
          exact q1
        · show X.docsLeft = _
          rw [hX]
          exact q3
        · show X.curDocument_id = (X.lastDocID + _) % 2 ^ 32
          rw [hX]
          show ((it1.lastDocID + it1.docDeltas it1.docsIndex) % 2 ^ 32 +
            it1.docDeltas (it1.docsIndex + 1)) % 2 ^ 32 = _
          rw [q6, q4]
          rfl
        · show X.freq = _
          rw [hX]
          show it1.docFreqs (it1.docsIndex + 1) = _
          rw [q7, q4]
          exact Function.update_noteq (Nat.succ_ne_self _) _ _
      exact hfin
        ((advance_loop_spec cfg hok hB docs dec hl htail target f).1 X it1.bufferedDocs
          (it1.docsIndex + 1) (k + 1) hXi hoX hXb hcX (by rw [hmul]; omega))
        (fun r k1 e1 a1 => (advance_loop_hits cfg hok hB hB16 docs dec hl hh htail target f).1
          X r it1.bufferedDocs (it1.docsIndex + 1) (k + 1) hXi hoX hXb hsX e1 k1 a1)
    · have hin0 : ¬ (it.docs_view.docsIndex + 1 < it.docs_view.bufferedDocs) := by
        show ¬ (it.docsIndex + 1 < it.bufferedDocs)
        rw [← q4, ← q5]
        exact hin
      have hg : at_gap cfg docs dec X.docs_view (k + 1) := by
        apply on_doc_gap cfg hB docs dec hl it.docs_view _ k ho hin0
        · show X.lastDocID = _
          rw [hX]
          show (it1.lastDocID + it1.docDeltas it1.docsIndex) % 2 ^ 32 = _
          rw [q2, q6, q4]
          rfl
        · show X.p = _
          rw [hX]
          exact q1
        · show X.docsLeft = _
          rw [hX]
          exact q3
      exact hfin
        ((advance_loop_spec cfg hok hB docs dec hl htail target f).2 X it1.bufferedDocs
          (it1.docsIndex + 1) (k + 1) hXi (by omega) hXb hg hcX (by rw [hmul]; omega))
        (fun r k1 e1 a1 => (advance_loop_hits cfg hok hB hB16 docs dec hl hh htail target f).2
          X r it1.bufferedDocs (it1.docsIndex + 1) (k + 1) hXi (by omega) hXb hg hsX e1 k1 a1)

end Lucene

namespace Lucene

theorem expected_run_length (cfg : Config) (docs : List doc_input) (dec : Decoder) :
    ∀ (n g pos : Nat), (expected_run cfg docs dec n g pos).length = n := by
  intro n
  induction n with
  | zero => intro g pos; rfl
  | succ n ih =>
    intro g pos
    rw [expected_run, List.length_cons, ih]

/-- The positions `materialize_hits` writes are the running sums of the position deltas,
kept in 16 bits. -/
theorem expected_run_pos (cfg : Config) (docs : List doc_input) (dec : Decoder) :
    ∀ (n g pos : Nat), (expected_run cfg docs dec n g pos).map (fun h => h.pos) =
      (List.range n).map (fun i => run_pos docs (i + 1) g pos) := by
  intro n
  induction n with
  | zero => intro g pos; rfl
  | succ n ih =>
    intro g pos
    rw [expected_run, List.map_cons, ih, List.range_succ_eq_map, List.map_cons, List.map_map]
    rfl

/-- C33. A term is written by the encoder and read by a decoder; the iterator stands on
the document `k` with the hits part consistent with the hits recorded before `k` (some
of them may be queued in `skippedHits`). Then `materialize_hits` returns: it writes the
hits of `k`, exactly `docFreqs[docsIndex]` many, whose positions are the running sums
(in 16 bits) of the position deltas of the hits of `k`; afterwards `docFreqs[docsIndex]`
is 0 and no hits are queued. A following `next` returns with `skippedHits` unchanged, and
on the next document a `materialize_hits` writes the hits of that document. A following
`advance` returns: the step over `k` leaves `skippedHits` unchanged, a target up to the
id of `k` leaves the iterator as it is, and for a larger target the iterator ends on the
first document whose id reaches the target, where `materialize_hits` writes the hits of
that document, or it is exhausted. -/
theorem materialized_hits_not_counted_again (cfg : Config) (hok : cfg.codec_ok)
    (hB : 0 < cfg.BLOCK_SIZE) (hB16 : cfg.BLOCK_SIZE ≤ 2 ^ 16) (hstep : 1 ≤ cfg.SKIPLIST_STEP)
    (e0 e : Encoder) (docs : List doc_input) (tctx : term_index_ctx)
    (hw : Encoder.write_term cfg e0 docs = some (e, tctx))
    (hsz : e.indexOut.length < 2 ^ 32) (hpsz : e.positionsOut.length < 2 ^ 32)
    (hhits : hits_before docs docs.length < 2 ^ 32)
    (hids : ∀ i < docs.length, doc_id docs i < 2 ^ 32) (hbuf : e0.payloadsBuf = [])
    (hpos : ∀ d ∈ docs, ∀ h ∈ d.hits, h.pos < 2 ^ 31) (htail : tail_deltas_ok cfg docs)
    (it : PostingsListIterator) (k : Nat)
    (hidx : it.skipListIdx ≤ (Decoder.init tctx e.indexOut e.positionsOut).skiplist.length)
    (ho : on_doc cfg docs (Decoder.init tctx e.indexOut e.positionsOut) it.docs_view k)
    (hs : hits_state_ok cfg docs (Decoder.init tctx e.indexOut e.positionsOut) it
      (hits_before docs k)) :
    ∃ it1,
      (Decoder.init tctx e.indexOut e.positionsOut).materialize_hits cfg it =
        some (it1, doc_hits cfg docs (Decoder.init tctx e.indexOut e.positionsOut) k) ∧
      (doc_hits cfg docs (Decoder.init tctx e.indexOut e.positionsOut) k).length =
        it.docFreqs it.docsIndex ∧
      (doc_hits cfg docs (Decoder.init tctx e.indexOut e.positionsOut) k).map (fun h => h.pos) =
        (List.range (it.docFreqs it.docsIndex)).map
          (fun i => run_pos docs (i + 1) (hits_before docs k) 0) ∧
      it1.docsIndex = it.docsIndex ∧ it1.docFreqs it1.docsIndex = 0 ∧ it1.skippedHits = 0 ∧
      (∃ it2, (Decoder.init tctx e.indexOut e.positionsOut).next cfg it1 = some it2 ∧
        it2.skippedHits = it1.skippedHits ∧
        (k + 1 < docs.length → it2.curDocument_id = doc_id docs (k + 1) ∧
          ∃ it3, (Decoder.init tctx e.indexOut e.positionsOut).materialize_hits cfg it2 =
            some (it3, doc_hits cfg docs (Decoder.init tctx e.indexOut e.positionsOut) (k + 1)))) ∧
      ∀ target fuel : Nat,
        ((Decoder.init tctx e.indexOut e.positionsOut).skiplist.length + 1) * (2 * docs.length + 2) ≤ fuel →
        ∃ r, (Decoder.init tctx e.indexOut e.positionsOut).advance cfg fuel it1 target = some r ∧
          (advance_l10 target it1 it1.docsIndex).1.skippedHits = it1.skippedHits ∧
          (target ≤ doc_id docs k → r = it1) ∧
          (doc_id docs k < target →
            (∃ k1, k1 < docs.length ∧ r.curDocument_id = doc_id docs k1 ∧
                target ≤ doc_id docs k1 ∧ (∀ j < k1, doc_id docs j < target) ∧
                ∃ r1, (Decoder.init tctx e.indexOut e.positionsOut).materialize_hits cfg r =
                  some (r1, doc_hits cfg docs (Decoder.init tctx e.indexOut e.positionsOut) k1)) ∨
              (r.curDocument_id = DocIDsEND ∧ ∀ j < docs.length, doc_id docs j < target)) := by
  have hl := write_term_layout cfg hB hB16 hstep e0 e docs tctx hw hsz hhits hids
    e.positionsOut
  have hh := write_term_hits_layout cfg hB hB16 hstep e0 e docs tctx hw hsz hpsz hhits hids
    hbuf hpos
  generalize Decoder.init tctx e.indexOut e.positionsOut = dec at hl hh hidx ho hs ⊢
  obtain ⟨_, hfr⟩ := on_doc_cur cfg hB docs dec hl _ k ho
  have hfr1 : it.docFreqs it.docsIndex = doc_freq docs k := hfr
  obtain ⟨it1, m1, m2, m3, m4⟩ := materialize_hits_state cfg hok hB hB16 docs dec hl hh it k
    ho hs
  have q4 : it1.docsIndex = it.docsIndex := congrArg docs_view.docsIndex m2
  have q7 : it1.docFreqs = Function.update it.docFreqs it.docsIndex 0 :=
    congrArg docs_view.docFreqs m2
  have q9 : it1.skipListIdx = it.skipListIdx := congrArg docs_view.skipListIdx m2
  refine ⟨it1, m1, ?_, ?_, q4, by rw [q7, q4, Function.update_same], m3, ?_, ?_⟩
  · rw [hfr1]
    exact expected_run_length cfg docs dec _ _ _
  · rw [hfr1]
    exact expected_run_pos cfg docs dec _ _ _
  · obtain ⟨it2, n1, n2, n3⟩ := next_after_materialize cfg hok hB hB16 docs dec hl hh htail
      it it1 k ho m2 m3 m4
    refine ⟨it2, n1, by rw [n2, m3], fun hk => ?_⟩
    rcases n3 with ⟨_, a1, a2, _⟩ | ⟨a1, _⟩
    · exact ⟨a1.cur_eq, materialize_hits_spec cfg hok hB hB16 docs dec hl hh it2 (k + 1) a1 a2⟩
    · omega
  · intro target fuel hfuel
    obtain ⟨r, b1, b2, b3, b4⟩ := advance_after_materialize cfg hok hB hB16 docs dec hl hh
      htail it it1 k ho m2 m3 m4 (by rw [q9]; exact hidx) target fuel hfuel
    refine ⟨r, b1, b2, b3, fun hT => ?_⟩
    rcases b4 hT with ⟨k1, c1, c2, c3, c4⟩ | ⟨c1, c2⟩
    · exact Or.inl ⟨k1, c1.k_lt, c1.cur_eq, c3, c4,
        materialize_hits_spec cfg hok hB hB16 docs dec hl hh r k1 c1 c2⟩
    · exact Or.inr ⟨c1.2.1, c2⟩

set_option maxRecDepth 100000 in
/-- C33 (witness). Five documents are written with blocks of two; `advance(8)` leaves a
new iterator on a document, and there the statement of C33 applies. -/
theorem materialized_hits_not_counted_again_witness :
    ∃ e tctx,
      Encoder.write_term (vbyte_config 2 true) (Encoder.fresh [] []) five_docs = some (e, tctx) ∧
      ∃ it k, (Decoder.init tctx e.indexOut e.positionsOut).advance (vbyte_config 2 true) 100
          (Decoder.init tctx e.indexOut e.positionsOut).new_iterator 8 = some it ∧
        on_doc (vbyte_config 2 true) five_docs (Decoder.init tctx e.indexOut e.positionsOut)
          it.docs_view k ∧
        hits_state_ok (vbyte_config 2 true) five_docs (Decoder.init tctx e.indexOut e.positionsOut)
          it (hits_before five_docs k) ∧
        ∃ it1,
          (Decoder.init tctx e.indexOut e.positionsOut).materialize_hits (vbyte_config 2 true) it =
            some (it1, doc_hits (vbyte_config 2 true) five_docs (Decoder.init tctx e.indexOut e.positionsOut) k) ∧
          (doc_hits (vbyte_config 2 true) five_docs (Decoder.init tctx e.indexOut e.positionsOut) k).length =
            it.docFreqs it.docsIndex ∧
          (doc_hits (vbyte_config 2 true) five_docs (Decoder.init tctx e.indexOut e.positionsOut) k).map (fun h => h.pos) =
            (List.range (it.docFreqs it.docsIndex)).map
              (fun i => run_pos five_docs (i + 1) (hits_before five_docs k) 0) ∧
          it1.docsIndex = it.docsIndex ∧ it1.docFreqs it1.docsIndex = 0 ∧ it1.skippedHits = 0 ∧
          (∃ it2, (Decoder.init tctx e.indexOut e.positionsOut).next (vbyte_config 2 true) it1 = some it2 ∧
            it2.skippedHits = it1.skippedHits ∧
            (k + 1 < five_docs.length → it2.curDocument_id = doc_id five_docs (k + 1) ∧
              ∃ it3, (Decoder.init tctx e.indexOut e.positionsOut).materialize_hits (vbyte_config 2 true) it2 =
                some (it3, doc_hits (vbyte_config 2 true) five_docs (Decoder.init tctx e.indexOut e.positionsOut) (k + 1)))) ∧
          ∀ target fuel : Nat,
            ((Decoder.init tctx e.indexOut e.positionsOut).skiplist.length + 1) * (2 * five_docs.length + 2) ≤ fuel →
            ∃ r, (Decoder.init tctx e.indexOut e.positionsOut).advance (vbyte_config 2 true) fuel it1 target = some r ∧
              (advance_l10 target it1 it1.docsIndex).1.skippedHits = it1.skippedHits ∧
              (target ≤ doc_id five_docs k → r = it1) ∧
              (doc_id five_docs k < target →
                (∃ k1, k1 < five_docs.length ∧ r.curDocument_id = doc_id five_docs k1 ∧
                    target ≤ doc_id five_docs k1 ∧ (∀ j < k1, doc_id five_docs j < target) ∧
                    ∃ r1, (Decoder.init tctx e.indexOut e.positionsOut).materialize_hits (vbyte_config 2 true) r =
                      some (r1, doc_hits (vbyte_config 2 true) five_docs (Decoder.init tctx e.indexOut e.positionsOut) k1)) ∨
                  (r.curDocument_id = DocIDsEND ∧ ∀ j < five_docs.length, doc_id five_docs j < target)) := by
  cases hw : Encoder.write_term (vbyte_config 2 true) (Encoder.fresh [] []) five_docs with
  | none =>
    have h1 : (Encoder.write_term (vbyte_config 2 true) (Encoder.fresh [] []) five_docs).isSome
        = true := by decide
    rw [hw] at h1
    exact absurd h1 (by decide)
  | some r =>
    obtain ⟨e, tctx⟩ := r
    have h1 : (Encoder.write_term (vbyte_config 2 true) (Encoder.fresh [] []) five_docs).map
        (fun r => r.1.indexOut.length) = some 72 := by decide
    have h2 : (Encoder.write_term (vbyte_config 2 true) (Encoder.fresh [] []) five_docs).map
        (fun r => (Decoder.init r.2 r.1.indexOut r.1.positionsOut).skiplist.length) = some 2 := by
      decide
    have h3 : (Encoder.write_term (vbyte_config 2 true) (Encoder.fresh [] []) five_docs).map
        (fun r => decide (r.1.positionsOut.length < 100)) = some true := by decide
    rw [hw] at h1 h2 h3
    have hlen : e.indexOut.length = 72 := by simpa using h1
    have hsl : (Decoder.init tctx e.indexOut e.positionsOut).skiplist.length = 2 := by
      simpa using h2
    have hpl : e.positionsOut.length < 100 := by simpa using h3
    have hsz : e.indexOut.length < 2 ^ 32 := by rw [hlen]; decide
    have hpsz : e.positionsOut.length < 2 ^ 32 := lt_trans hpl (by decide)
    have hl := write_term_layout (vbyte_config 2 true) (by decide) (by decide) (by decide)
      (Encoder.fresh [] []) e five_docs tctx hw hsz (by decide) (by decide) e.positionsOut
    have hh := write_term_hits_layout (vbyte_config 2 true) (by decide) (by decide) (by decide)
      (Encoder.fresh [] []) e five_docs tctx hw hsz hpsz (by decide) (by decide) rfl (by decide)
    obtain ⟨it, a1, a2, a3⟩ := advance_new_iterator_state (vbyte_config 2 true)
      (vbyte_config_codec_ok 2 true) (by decide) (by decide) five_docs _ hl hh
      tail_deltas_ok_five_docs 8 100 (by rw [hsl]; decide)
    rcases a3 with ⟨k, b1, b2, _, _⟩ | ⟨_, b2⟩
    · exact ⟨e, tctx, rfl, it, k, a1, b1, b2,
        materialized_hits_not_counted_again (vbyte_config 2 true)
          (vbyte_config_codec_ok 2 true) (by decide) (by decide) (by decide)
          (Encoder.fresh [] []) e five_docs tctx hw hsz hpsz (by decide) (by decide) rfl
          (by decide) tail_deltas_ok_five_docs it k a2 b1 b2⟩
    · exact absurd (b2 4 (by decide)) (by decide)

end Lucene

namespace Lucene

/-! ### The counts the encoder keeps -/

theorem sum_eq_sum_getD : ∀ l : List Nat,
    l.sum = ((List.range l.length).map (fun i => l.getD i 0)).sum := by
  intro l
  induction l with
  | nil => rfl
  | cons a l ih =>
    rw [List.length_cons, List.range_succ_eq_map, List.map_cons, List.map_map, List.sum_cons,
      List.sum_cons, ih]
    rfl

theorem hits_before_eq_sum (docs : List doc_input) : ∀ n,
    hits_before docs n = ((List.range n).map (doc_freq docs)).sum := by
  intro n
  induction n with
  | zero => rfl
  | succ n ih =>
    rw [hits_before, ih, List.range_succ, List.map_append, List.sum_append]
    simp

/-- The recorded hits of a list: the calls of `new_hit` that are not placeholders. -/
theorem hits_total_eq_sum (docs : List doc_input) :
    hits_total docs = (docs.map (fun d => (real_hits d).length)).sum := by
  unfold hits_total
  rw [hits_before_eq_sum, sum_eq_sum_getD (docs.map (fun d => (real_hits d).length)),
    List.length_map]
  rfl

/-- The counter `sumHits` after `end_term`. -/
theorem end_term_sumHits (cfg : Config) (e e2 : Encoder) (tctx : term_index_ctx)
    (he : e.end_term cfg = some (e2, tctx)) : e2.sumHits = e.sumHits + e.totalHits := by
  unfold Encoder.end_term at he
  simp only at he
  split at he
  · exact absurd he (by simp)
  · split at he
    · exact absurd he (by simp)
    · simp only [Option.some.injEq, Prod.mk.injEq] at he
      rw [← he.1]

end Lucene

namespace Lucene

/-- C38. For a call sequence `begin_term`, the documents of `docs` each as
`begin_document`, its `new_hit` calls and `end_document`, then `end_term`, that passes
every `require` (the recorded hits fitting the 32-bit counter): the `sumHits` patched
into the header at offset 4 of the chunk, and the counter itself, are the number of
recorded hits, which is the number of `new_hit` calls that are not placeholders and the
sum of the frequencies of the documents; `out->documents` is the number of documents; the
chunk holds `documents / BLOCK_SIZE` full document blocks and then the trailing layout of
the last `documents % BLOCK_SIZE` documents (deltas and the same frequencies); and
hits.data got `sumHits / BLOCK_SIZE` full hits blocks and then the trailing layout of the
last `sumHits % BLOCK_SIZE` hits with their payloads. -/
theorem encoder_accounting (cfg : Config) (hB : 0 < cfg.BLOCK_SIZE)
    (hstep : 1 ≤ cfg.SKIPLIST_STEP) (e0 e : Encoder) (docs : List doc_input)
    (tctx : term_index_ctx) (hw : Encoder.write_term cfg e0 docs = some (e, tctx))
    (hhits : hits_total docs < 2 ^ 32) (hbuf : e0.payloadsBuf = []) :
    tctx.offset = e0.indexOut.length ∧
      read_u32 e.indexOut (tctx.offset + 4) = hits_total docs ∧
      e.sumHits = hits_total docs ∧
      hits_total docs = (docs.map (fun d => (real_hits d).length)).sum ∧
      hits_total docs = ((List.range docs.length).map (doc_freq docs)).sum ∧
      tctx.documents = docs.length ∧
      (∃ psize sl, e.indexOut =
        e0.indexOut ++ header_bytes e0.positionsOut.length (hits_total docs) psize sl.length ++
          (blocks_bytes cfg docs (docs.length / cfg.BLOCK_SIZE) ++
            tail_documents cfg.ENCODE_FREQ1_DOCDELTA
              (fun i => doc_delta docs (docs.length / cfg.BLOCK_SIZE * cfg.BLOCK_SIZE + i))
              (fun i => doc_freq docs (docs.length / cfg.BLOCK_SIZE * cfg.BLOCK_SIZE + i))
              (docs.length % cfg.BLOCK_SIZE) 0) ++
          pack_skiplist sl) ∧
      e.positionsOut = e0.positionsOut ++
        (hits_blocks_bytes cfg docs (hits_total docs / cfg.BLOCK_SIZE) ++
          (tail_hits
              (fun i => hit_delta docs (hits_total docs / cfg.BLOCK_SIZE * cfg.BLOCK_SIZE + i))
              (fun i => hit_plen docs (hits_total docs / cfg.BLOCK_SIZE * cfg.BLOCK_SIZE + i))
              (hits_total docs % cfg.BLOCK_SIZE) 0 0 ++
            payloads_range docs (hits_total docs / cfg.BLOCK_SIZE * cfg.BLOCK_SIZE)
              (hits_total docs % cfg.BLOCK_SIZE))) := by
  unfold Encoder.write_term at hw
  cases hadd : Encoder.add_documents cfg (e0.begin_term cfg) docs with
  | none => rw [hadd] at hw; exact absurd hw (by simp)
  | some e1 =>
    rw [hadd] at hw
    have hinv0 := begin_term_inv cfg hstep e0.indexOut e0.positionsOut docs e0 rfl rfl
    have hinv := add_documents_inv cfg hB hstep e0.indexOut e0.positionsOut docs docs.length 0
      (e0.begin_term cfg) e1 (by omega) hinv0 (by simpa using hadd)
    have hh0 := begin_term_hits cfg e0.positionsOut docs e0 rfl hbuf
    have hh := add_documents_hits cfg hB hstep e0.indexOut e0.positionsOut docs docs.length 0
      (e0.begin_term cfg) e1 (by omega) hinv0 hh0 (by simpa using hadd)
    obtain ⟨sl, psize, h1, _, _, h4, h5, _, _, h8⟩ := end_term_spec cfg hB hstep
      e0.indexOut e0.positionsOut docs e1 e tctx hinv hw
    have htot : e1.totalHits = hits_total docs % cfg.BLOCK_SIZE := hinv.totalHits_eq
    have hsum : e1.sumHits = hits_total docs / cfg.BLOCK_SIZE * cfg.BLOCK_SIZE :=
      hinv.sumHits_eq
    refine ⟨h5, ?_, ?_, hits_total_eq_sum docs, hits_before_eq_sum docs docs.length, h4,
      ⟨psize, sl, h1⟩, ?_⟩
    · have := read_u32_at e0.indexOut (pack_u32 e0.positionsOut.length)
        (pack_u32 psize ++ pack_u16 sl.length)
        ((blocks_bytes cfg docs (docs.length / cfg.BLOCK_SIZE) ++
          tail_bytes cfg docs) ++ pack_skiplist sl) (hits_before docs docs.length)
        (e0.indexOut.length + 4) (by simp [pack_u32_length])
      have hidx2 : e.indexOut = e0.indexOut ++ (pack_u32 e0.positionsOut.length ++
          (pack_u32 (hits_before docs docs.length) ++ (pack_u32 psize ++ pack_u16 sl.length)) ++
          (blocks_bytes cfg docs (docs.length / cfg.BLOCK_SIZE) ++ tail_bytes cfg docs ++
          pack_skiplist sl)) := by
        rw [h1]; simp [header_bytes, List.append_assoc]
      rw [h5, hidx2, this]
      exact Nat.mod_eq_of_lt hhits
    · rw [end_term_sumHits cfg e1 e tctx hw, hsum, htot]
      exact div_mul_add_mod _ _
    · rw [h8]
      have hp := hh.positions_eq
      have hpl := hh.payloads_eq
      by_cases hz : e1.totalHits ≠ 0
      · rw [if_pos hz, hp, hpl, htot]
        rw [tail_hits_congr e1.hitPosDeltas e1.hitPayloadSizes
          (fun i => hit_delta docs (hits_total docs / cfg.BLOCK_SIZE * cfg.BLOCK_SIZE + i))
          (fun i => hit_plen docs (hits_total docs / cfg.BLOCK_SIZE * cfg.BLOCK_SIZE + i))
          (hits_total docs % cfg.BLOCK_SIZE) 0 0
          (fun k _ hk => ⟨hh.deltas_eq k (by simpa using hk), hh.sizes_eq k (by simpa using hk)⟩)]
        simp only [hits_total, List.append_assoc]
      · rw [if_neg hz, hp]
        have hz0 : hits_total docs % cfg.BLOCK_SIZE = 0 := by
          rw [← htot]; exact not_not.1 hz
        rw [hz0]
        simp [tail_hits, payloads_range, hits_total]

set_option maxRecDepth 100000 in
/-- C38 (witness). Five documents with nine hits, written with blocks of two. -/
theorem encoder_accounting_witness :
    ∃ e tctx,
      Encoder.write_term (vbyte_config 2 true) (Encoder.fresh [] []) five_docs = some (e, tctx) ∧
      hits_total five_docs = 9 ∧
      tctx.offset = (Encoder.fresh [] []).indexOut.length ∧
      read_u32 e.indexOut (tctx.offset + 4) = hits_total five_docs ∧
      e.sumHits = hits_total five_docs ∧
      hits_total five_docs = (five_docs.map (fun d => (real_hits d).length)).sum ∧
      hits_total five_docs = ((List.range five_docs.length).map (doc_freq five_docs)).sum ∧
      tctx.documents = five_docs.length ∧
      (∃ psize sl, e.indexOut =
        (Encoder.fresh [] []).indexOut ++
          header_bytes (Encoder.fresh [] []).positionsOut.length (hits_total five_docs) psize
            sl.length ++
          (blocks_bytes (vbyte_config 2 true) five_docs
              (five_docs.length / (vbyte_config 2 true).BLOCK_SIZE) ++
            tail_documents (vbyte_config 2 true).ENCODE_FREQ1_DOCDELTA
              (fun i => doc_delta five_docs (five_docs.length /
                (vbyte_config 2 true).BLOCK_SIZE * (vbyte_config 2 true).BLOCK_SIZE + i))
              (fun i => doc_freq five_docs (five_docs.length /
                (vbyte_config 2 true).BLOCK_SIZE * (vbyte_config 2 true).BLOCK_SIZE + i))
              (five_docs.length % (vbyte_config 2 true).BLOCK_SIZE) 0) ++
          pack_skiplist sl) ∧
      e.positionsOut = (Encoder.fresh [] []).positionsOut ++
        (hits_blocks_bytes (vbyte_config 2 true) five_docs
            (hits_total five_docs / (vbyte_config 2 true).BLOCK_SIZE) ++
          (tail_hits
              (fun i => hit_delta five_docs (hits_total five_docs /
                (vbyte_config 2 true).BLOCK_SIZE * (vbyte_config 2 true).BLOCK_SIZE + i))
              (fun i => hit_plen five_docs (hits_total five_docs /
                (vbyte_config 2 true).BLOCK_SIZE * (vbyte_config 2 true).BLOCK_SIZE + i))
              (hits_total five_docs % (vbyte_config 2 true).BLOCK_SIZE) 0 0 ++
            payloads_range five_docs (hits_total five_docs /
                (vbyte_config 2 true).BLOCK_SIZE * (vbyte_config 2 true).BLOCK_SIZE)
              (hits_total five_docs % (vbyte_config 2 true).BLOCK_SIZE))) := by
  cases hw : Encoder.write_term (vbyte_config 2 true) (Encoder.fresh [] []) five_docs with
  | none =>
    have h1 : (Encoder.write_term (vbyte_config 2 true) (Encoder.fresh [] []) five_docs).isSome
        = true := by decide
    rw [hw] at h1
    exact absurd h1 (by decide)
  | some r =>
    obtain ⟨e, tctx⟩ := r
    exact ⟨e, tctx, rfl, by decide,
      encoder_accounting (vbyte_config 2 true) (by decide) (by decide) (Encoder.fresh [] []) e
        five_docs tctx hw (by decide) rfl⟩

end Lucene

namespace Lucene

/-! ### The candidates of `IndexSession::merge` as iterators -/

theorem cand_refill_hits_iter (cfg : Config) (hB8 : cfg.BLOCK_SIZE ≤ 255) (dec : Decoder)
    (c : candidate) (hmem : c.hitsDataPtr = dec.hitsDataPtr)
    (hreq : c.hitsIndex = 0 ∨ c.hitsIndex = cfg.BLOCK_SIZE) :
    ∃ c1, c.refill_hits cfg = some c1 ∧ c1.iter = dec.refill_hits cfg c.iter ∧
      c1.maskedDocsReg = c.maskedDocsReg ∧ c1.indexPtr = c.indexPtr ∧
      c1.hitsDataPtr = c.hitsDataPtr := by
  have hb : cfg.BLOCK_SIZE % 2 ^ 16 = cfg.BLOCK_SIZE := Nat.mod_eq_of_lt (by omega)
  unfold candidate.refill_hits Decoder.refill_hits
  rw [if_neg (not_not.2 hreq)]
  by_cases h : c.hitsLeft ≥ cfg.BLOCK_SIZE
  · have h' : c.iter.hitsLeft ≥ cfg.BLOCK_SIZE := h
    rw [if_pos h, if_pos h']
    refine ⟨_, rfl, ?_, rfl, rfl, rfl⟩
    simp only [hb]
    rw [← hmem]
    rfl
  · have h' : ¬ c.iter.hitsLeft ≥ cfg.BLOCK_SIZE := h
    rw [if_neg h, if_neg h']
    refine ⟨_, rfl, ?_, rfl, rfl, rfl⟩
    have hl : c.hitsLeft % 2 ^ 16 = c.hitsLeft := Nat.mod_eq_of_lt (by omega)
    simp only [hl]
    rw [← hmem]
    rfl

theorem cand_refill_documents_iter (cfg : Config) (hB8 : cfg.BLOCK_SIZE ≤ 255) (dec : Decoder)
    (c : candidate) (hmem : c.indexPtr = dec.indexPtr) :
    (c.refill_documents cfg).iter = dec.refill_documents cfg c.iter ∧
      (c.refill_documents cfg).maskedDocsReg = c.maskedDocsReg ∧
      (c.refill_documents cfg).indexPtr = c.indexPtr ∧
      (c.refill_documents cfg).hitsDataPtr = c.hitsDataPtr := by
  have hb : cfg.BLOCK_SIZE % 2 ^ 8 = cfg.BLOCK_SIZE := Nat.mod_eq_of_lt (by omega)
  refine ⟨?_, ?_, ?_, ?_⟩
  · unfold candidate.refill_documents Decoder.refill_documents
    by_cases h : c.documentsLeft ≥ cfg.BLOCK_SIZE
    · have h' : c.iter.docsLeft ≥ cfg.BLOCK_SIZE := h
      simp only [if_pos h, if_pos h', hb]
      rw [← hmem]
      rfl
    · have h' : ¬ c.iter.docsLeft ≥ cfg.BLOCK_SIZE := h
      have hl : c.documentsLeft % 2 ^ 8 = c.documentsLeft := Nat.mod_eq_of_lt (by omega)
      simp only [if_neg h, if_neg h', hl]
      rw [← hmem]
      rfl
  · unfold candidate.refill_documents
    split <;> rfl
  · unfold candidate.refill_documents
    split <;> rfl
  · unfold candidate.refill_documents
    split <;> rfl

/-- The loop of `skip_ommitted_hits` drains the queued hits: it ends, and takes them from
the stream. -/
theorem cand_skip_loop_spec (cfg : Config) (hok : cfg.codec_ok) (hB : 0 < cfg.BLOCK_SIZE)
    (hB8 : cfg.BLOCK_SIZE ≤ 255) (docs : List doc_input) (dec : Decoder)
    (hh : hits_layout cfg docs dec) :
    ∀ (fuel : Nat) (c : candidate) (pos : Nat), c.hitsDataPtr = dec.hitsDataPtr →
      0 < c.skippedHits → c.skippedHits ≤ fuel → pos + c.skippedHits ≤ hits_total docs →
      hits_ok cfg docs dec c.iter.hits_view pos →
      ∃ c1, candidate.skip_loop cfg fuel c = some c1 ∧
        hits_ok cfg docs dec c1.iter.hits_view (pos + c.skippedHits) ∧
        c1.skippedHits = 0 ∧ c1.iter.docs_view = c.iter.docs_view ∧
        c1.maskedDocsReg = c.maskedDocsReg ∧ c1.indexPtr = c.indexPtr ∧
        c1.hitsDataPtr = c.hitsDataPtr := by
  have hB16 : cfg.BLOCK_SIZE ≤ 2 ^ 16 := by omega
  intro fuel
  induction fuel with
  | zero => intro c pos _ h1 h2; omega
  | succ fuel ih =>
    intro c pos hmem hpos hfuel hcr hok1
    have hload : ∃ x, (if c.hitsIndex = c.bufferedHits then c.refill_hits cfg else some c) =
          some x ∧
        (∃ base, pos = base + x.hitsIndex ∧ hits_loaded cfg docs dec x.iter.hits_view base) ∧
        x.hitsIndex < x.bufferedHits ∧ x.skippedHits = c.skippedHits ∧
        x.iter.docs_view = c.iter.docs_view ∧ x.maskedDocsReg = c.maskedDocsReg ∧
        x.indexPtr = c.indexPtr ∧ x.hitsDataPtr = c.hitsDataPtr := by
      by_cases he : c.hitsIndex = c.bufferedHits
      · rw [if_pos he]
        have hgap : at_hits_gap cfg docs dec c.iter.hits_view pos ∧
            (c.hitsIndex = 0 ∨ c.hitsIndex = cfg.BLOCK_SIZE) := by
          rcases hok1 with ⟨g1, g2, _⟩ | ⟨base, hc, hl⟩
          · exact ⟨g1, Or.inl g2⟩
          · have hi : c.iter.hits_view.hitsIndex = c.hitsIndex := rfl
            have hb : c.iter.hits_view.bufferedHits = c.bufferedHits := rfl
            have := loaded_end_gap cfg hB docs dec c.iter.hits_view c.iter.hits_view base hl
              rfl rfl
            have hbe := hl.buffered_eq
            rw [hb] at hbe
            rw [hi] at hc
            refine ⟨?_, Or.inr ?_⟩
            · rw [hb, ← he, ← hc] at this
              exact this
            · omega
        obtain ⟨c1, e1, e2, e3, e4, e5⟩ := cand_refill_hits_iter cfg hB8 dec c hmem hgap.2
        obtain ⟨r1, r2, _⟩ := refill_hits_spec cfg hok hB hB16 docs dec hh c.iter pos hgap.1
        rw [← e2] at r1 r2
        have hl := r2 (by omega)
        have hb : c1.bufferedHits = min cfg.BLOCK_SIZE (hits_total docs - pos) := hl.buffered_eq
        have r1' : c1.hitsIndex = 0 := r1
        refine ⟨c1, e1, ⟨pos, by rw [r1', Nat.add_zero], hl⟩, by omega, ?_, ?_, e3, e4, e5⟩
        · have := (refill_hits_counts cfg dec c.iter).2.2.2
          rw [← e2] at this
          exact this
        · rw [e2, refill_hits_docs_view]
      · rw [if_neg he]
        rcases hok1 with ⟨_, g2, g3⟩ | ⟨base, hc, hl⟩
        · have e2 : c.hitsIndex = 0 := g2
          have e3 : c.bufferedHits = 0 := g3
          omega
        · have hle : c.hitsIndex ≤ c.bufferedHits := hl.index_le
          exact ⟨c, rfl, ⟨base, hc, hl⟩, by omega, rfl, rfl, rfl, rfl, rfl⟩
    obtain ⟨x, hx, ⟨base, hc, hl⟩, hlt, hxs, hxd, hxm, hxi, hxh⟩ := hload
    rw [candidate.skip_loop, hx]
    simp only
    have hstep : min x.skippedHits (x.bufferedHits - x.hitsIndex) ≠ 0 := by omega
    rw [if_neg hstep]
    have hl2 := loaded_advance cfg docs dec x.iter.hits_view
      ({ x with
          payloadsIt := x.payloadsIt + payload_lengths_sum x.hitsPayloadLengths x.hitsIndex
            (min x.skippedHits (x.bufferedHits - x.hitsIndex))
          hitsIndex := x.hitsIndex + min x.skippedHits (x.bufferedHits - x.hitsIndex)
          skippedHits := x.skippedHits - min x.skippedHits (x.bufferedHits - x.hitsIndex) } :
        candidate).iter.hits_view base (min x.skippedHits (x.bufferedHits - x.hitsIndex)) hl
      (by show x.hitsIndex + _ ≤ x.bufferedHits; omega) rfl rfl rfl rfl rfl rfl rfl
    have hok2 : hits_ok cfg docs dec
        ({ x with
          payloadsIt := x.payloadsIt + payload_lengths_sum x.hitsPayloadLengths x.hitsIndex
            (min x.skippedHits (x.bufferedHits - x.hitsIndex))
          hitsIndex := x.hitsIndex + min x.skippedHits (x.bufferedHits - x.hitsIndex)
          skippedHits := x.skippedHits - min x.skippedHits (x.bufferedHits - x.hitsIndex) } :
          candidate).iter.hits_view
        (pos + min x.skippedHits (x.bufferedHits - x.hitsIndex)) :=
      Or.inr ⟨base, by show _ = base + (x.hitsIndex + _); omega, hl2⟩
    by_cases hd : x.skippedHits - min x.skippedHits (x.bufferedHits - x.hitsIndex) ≠ 0
    · rw [if_pos hd]
      obtain ⟨c1, f1, f2, f3, f4, f5, f6, f7⟩ := ih
        ({ x with
          payloadsIt := x.payloadsIt + payload_lengths_sum x.hitsPayloadLengths x.hitsIndex
            (min x.skippedHits (x.bufferedHits - x.hitsIndex))
          hitsIndex := x.hitsIndex + min x.skippedHits (x.bufferedHits - x.hitsIndex)
          skippedHits := x.skippedHits - min x.skippedHits (x.bufferedHits - x.hitsIndex) } :
          candidate)
        (pos + min x.skippedHits (x.bufferedHits - x.hitsIndex)) (hxh.trans hmem)
        (by show 0 < x.skippedHits - _; omega) (by show x.skippedHits - _ ≤ fuel; omega)
        (by show _ + (x.skippedHits - _) ≤ _; omega) hok2
      refine ⟨c1, f1, ?_, f3, f4.trans hxd, f5.trans hxm, f6.trans hxi, f7.trans hxh⟩
      have e : pos + min x.skippedHits (x.bufferedHits - x.hitsIndex) +
          (x.skippedHits - min x.skippedHits (x.bufferedHits - x.hitsIndex)) =
          pos + c.skippedHits := by omega
      have f2' : hits_ok cfg docs dec c1.iter.hits_view
          (pos + min x.skippedHits (x.bufferedHits - x.hitsIndex) +
            (x.skippedHits - min x.skippedHits (x.bufferedHits - x.hitsIndex))) := f2
      rw [e] at f2'
      exact f2'
    · rw [if_neg hd]
      refine ⟨_, rfl, ?_, not_not.1 hd, hxd, hxm, hxi, hxh⟩
      have e : pos + c.skippedHits = pos + min x.skippedHits (x.bufferedHits - x.hitsIndex) := by
        omega
      rw [e]
      exact hok2

/-- The call `skip_ommitted_hits` drains the queued hits. -/
theorem cand_skip_spec (cfg : Config) (hok : cfg.codec_ok) (hB : 0 < cfg.BLOCK_SIZE)
    (hB8 : cfg.BLOCK_SIZE ≤ 255) (docs : List doc_input) (dec : Decoder)
    (hh : hits_layout cfg docs dec) (c : candidate) (h : Nat)
    (hmem : c.hitsDataPtr = dec.hitsDataPtr)
    (hs : hits_state_ok cfg docs dec c.iter h) :
    ∃ c1, c.skip_ommitted_hits cfg = some c1 ∧ hits_ok cfg docs dec c1.iter.hits_view h ∧
      c1.skippedHits = 0 ∧ c1.iter.docs_view = c.iter.docs_view ∧
      c1.maskedDocsReg = c.maskedDocsReg ∧ c1.indexPtr = c.indexPtr ∧
      c1.hitsDataPtr = c.hitsDataPtr := by
  obtain ⟨hle, pos, hp, hok1⟩ := hs
  have hp' : pos + c.skippedHits = h := hp
  unfold candidate.skip_ommitted_hits
  by_cases hz : c.skippedHits = 0
  · rw [if_pos hz]
    refine ⟨c, rfl, ?_, hz, rfl, rfl, rfl, rfl⟩
    have : pos = h := by omega
    rw [← this]
    exact hok1
  · rw [if_neg hz]
    obtain ⟨c1, e1, e2, e3⟩ := cand_skip_loop_spec cfg hok hB hB8 docs dec hh c.skippedHits c
      pos hmem (by omega) (le_refl _) (by omega) hok1
    rw [hp'] at e2
    exact ⟨c1, e1, e2, e3⟩

end Lucene

namespace Lucene

/-! ### The payload bytes in hits.data -/

theorem payloads_range_split (docs : List doc_input) (s : Nat) : ∀ (n r : Nat), r < n →
    ∃ X, payloads_range docs s n = payloads_range docs s r ++ (hit_payload docs (s + r) ++ X) := by
  intro n
  induction n with
  | zero => intro r h; omega
  | succ n ih =>
    intro r h
    by_cases hr : r = n
    · subst hr
      exact ⟨[], by rw [payloads_range_succ, List.append_nil]⟩
    · obtain ⟨X, hX⟩ := ih r (by omega)
      exact ⟨X ++ hit_payload docs (s + n), by
        rw [payloads_range_succ, hX]; simp only [List.append_assoc]⟩

/-- The payload bytes of the `g`-th recorded hit stand at `pay_off g` in hits.data. -/
theorem hits_mem_payload (cfg : Config) (hB : 0 < cfg.BLOCK_SIZE) (docs : List doc_input)
    (dec : Decoder) (hh : hits_layout cfg docs dec) (g : Nat) (hg : g < hits_total docs) :
    (dec.hitsDataPtr.drop (pay_off cfg docs dec g)).take (hit_plen docs g) =
      hit_payload docs g := by
  obtain ⟨ppre, tl, hmem, hpre⟩ := hh.mem_eq
  have hgB := div_mul_add_mod g cfg.BLOCK_SIZE
  have hgr := Nat.mod_lt g hB
  have hHB := div_mul_add_mod (hits_total docs) cfg.BLOCK_SIZE
  have hle : g / cfg.BLOCK_SIZE ≤ hits_total docs / cfg.BLOCK_SIZE :=
    Nat.div_le_div_right (le_of_lt hg)
  have key : ∀ (P R : List Nat), dec.hitsDataPtr = P ++ (hit_payload docs g ++ R) →
      P.length = pay_off cfg docs dec g →
      (dec.hitsDataPtr.drop (pay_off cfg docs dec g)).take (hit_plen docs g) =
        hit_payload docs g := by
    intro P R h1 h2
    rw [h1, ← h2, List.drop_left]
    unfold hit_plen
    exact List.take_left _ _
  by_cases hb : g / cfg.BLOCK_SIZE < hits_total docs / cfg.BLOCK_SIZE
  · obtain ⟨rest, hrest⟩ := hits_blocks_bytes_split cfg docs (g / cfg.BLOCK_SIZE + 1) _ hb
    obtain ⟨X, hX⟩ := payloads_range_split docs (g / cfg.BLOCK_SIZE * cfg.BLOCK_SIZE)
      cfg.BLOCK_SIZE (g % cfg.BLOCK_SIZE) hgr
    rw [hgB] at hX
    apply key (ppre ++ (hits_blocks_bytes cfg docs (g / cfg.BLOCK_SIZE) ++
      (ints_encode cfg (fun i => hit_delta docs (g / cfg.BLOCK_SIZE * cfg.BLOCK_SIZE + i))
        cfg.BLOCK_SIZE ++
      (ints_encode cfg (fun i => hit_plen docs (g / cfg.BLOCK_SIZE * cfg.BLOCK_SIZE + i))
        cfg.BLOCK_SIZE ++
      (encode_varbyte32
        (payloads_range docs (g / cfg.BLOCK_SIZE * cfg.BLOCK_SIZE) cfg.BLOCK_SIZE).length ++
      payloads_range docs (g / cfg.BLOCK_SIZE * cfg.BLOCK_SIZE) (g % cfg.BLOCK_SIZE))))))
      (X ++ (rest ++ (hits_tail_bytes cfg docs ++ tl)))
    · rw [hmem, hrest]
      simp only [hits_blocks_bytes, hits_block_bytes, List.append_assoc]
      rw [hX]
      simp only [List.append_assoc]
    · unfold pay_off pay_start
      rw [if_pos hb]
      simp only [List.length_append, hits_start, hpre]
      omega
  · have hq : g / cfg.BLOCK_SIZE = hits_total docs / cfg.BLOCK_SIZE := by omega
    have hr : g % cfg.BLOCK_SIZE < hits_total docs % cfg.BLOCK_SIZE := by
      rw [← hq] at hHB
      omega
    obtain ⟨X, hX⟩ := payloads_range_split docs (g / cfg.BLOCK_SIZE * cfg.BLOCK_SIZE)
      (hits_total docs % cfg.BLOCK_SIZE) (g % cfg.BLOCK_SIZE) hr
    rw [hgB] at hX
    apply key (ppre ++ (hits_blocks_bytes cfg docs (g / cfg.BLOCK_SIZE) ++
      (hits_tail_head cfg docs ++
        payloads_range docs (g / cfg.BLOCK_SIZE * cfg.BLOCK_SIZE) (g % cfg.BLOCK_SIZE))))
      (X ++ tl)
    · rw [hmem]
      unfold hits_tail_bytes
      rw [← hq, hX]
      simp only [List.append_assoc]
    · unfold pay_off pay_start
      rw [if_neg hb, ← hq]
      simp only [List.length_append, hits_start, hpre]
      omega

theorem emitted_run_append (docs : List doc_input) :
    ∀ (a b g pos : Nat), emitted_run docs (a + b) g pos =
      emitted_run docs a g pos ++ emitted_run docs b (g + a) (run_pos docs a g pos) := by
  intro a
  induction a with
  | zero => intro b g pos; simp [emitted_run, run_pos]
  | succ a ih =>
    intro b g pos
    have e : a + 1 + b = (a + b) + 1 := by omega
    rw [e, emitted_run, emitted_run, run_pos, ih]
    have e2 : g + 1 + a = g + (a + 1) := by omega
    rw [e2]
    rfl

/-- The inner loop of `output_hits` over buffered hits of a decoded block. -/
theorem output_run_loaded (cfg : Config) (hB : 0 < cfg.BLOCK_SIZE)
    (docs : List doc_input) (dec : Decoder) (hh : hits_layout cfg docs dec)
    (δ σ : Nat → Nat) (base buffered : Nat)
    (hb : base % cfg.BLOCK_SIZE = 0) (hbuf : buffered ≤ cfg.BLOCK_SIZE)
    (htot : base + buffered ≤ hits_total docs)
    (hd : ∀ i < buffered, δ i = hit_delta docs (base + i))
    (hs : ∀ i < buffered, σ i = hit_plen docs (base + i)) :
    ∀ (n idx pos : Nat), idx + n ≤ buffered →
      output_run dec.hitsDataPtr δ σ n idx pos
        (pay_start cfg docs dec (base / cfg.BLOCK_SIZE) +
          (payloads_range docs base idx).length) =
      (idx + n, run_pos docs n (base + idx) pos,
        pay_start cfg docs dec (base / cfg.BLOCK_SIZE) +
          (payloads_range docs base (idx + n)).length,
        emitted_run docs n (base + idx) pos) := by
  intro n
  induction n with
  | zero => intro idx pos _; rfl
  | succ n ih =>
    intro idx pos hle
    have hidx : idx < buffered := by omega
    rw [output_run]
    have hnext : pay_start cfg docs dec (base / cfg.BLOCK_SIZE) +
        (payloads_range docs base idx).length + σ idx =
        pay_start cfg docs dec (base / cfg.BLOCK_SIZE) +
          (payloads_range docs base (idx + 1)).length := by
      rw [payloads_range_succ, List.length_append, hs idx hidx]
      unfold hit_plen
      omega
    have hpay := hits_mem_payload cfg hB docs dec hh (base + idx) (by omega)
    rw [pay_off_loaded cfg docs dec base idx hb (by omega)] at hpay
    rw [hnext, ih (idx + 1) _ (by omega), hd idx hidx, hs idx hidx, hpay]
    have e1 : idx + 1 + n = idx + (n + 1) := by omega
    have e2 : base + (idx + 1) = base + idx + 1 := by omega
    rw [e1, e2]
    rfl

end Lucene

namespace Lucene

/-! ### `output_hits` of a candidate -/

theorem same_docs_of_view (a b : candidate) (hv : a.iter.docs_view = b.iter.docs_view)
    (h1 : a.maskedDocsReg = b.maskedDocsReg) (h2 : a.indexPtr = b.indexPtr)
    (h3 : a.hitsDataPtr = b.hitsDataPtr) : same_docs a b ∧ a.docFreqs = b.docFreqs :=
  ⟨⟨congrArg docs_view.lastDocID hv, congrArg docs_view.docDeltas hv,
    congrArg docs_view.docsLeft hv, congrArg docs_view.p hv, congrArg docs_view.docsIndex hv,
    congrArg docs_view.bufferedDocs hv, h1, h2, h3⟩, congrArg docs_view.docFreqs hv⟩

theorem same_docs_refl (a : candidate) : same_docs a a :=
  ⟨rfl, rfl, rfl, rfl, rfl, rfl, rfl, rfl, rfl⟩

theorem same_docs_trans (a b c : candidate) (h1 : same_docs a b) (h2 : same_docs b c) :
    same_docs a c :=
  ⟨h1.1.trans h2.1, h1.2.trans h2.2, h1.3.trans h2.3, h1.4.trans h2.4, h1.5.trans h2.5,
    h1.6.trans h2.6, h1.7.trans h2.7, h1.8.trans h2.8, h1.9.trans h2.9⟩

/-- The inner loop of `output_hits` over `n` buffered hits hands the next `n` hits of the
stream to the encoder and moves the hits part `n` hits on. -/
theorem output_run_hits_ok (cfg : Config) (hB : 0 < cfg.BLOCK_SIZE) (docs : List doc_input)
    (dec : Decoder) (hh : hits_layout cfg docs dec) (v w : hits_view) (c n pos : Nat)
    (hv : hits_ok cfg docs dec v c) (hn : v.hitsIndex + n ≤ v.bufferedHits)
    (h1 : w.hdp = v.hdp) (h2 : w.hitsLeft = v.hitsLeft)
    (h3 : w.hitsIndex = (output_run dec.hitsDataPtr v.hitsPositionDeltas
      v.hitsPayloadLengths n v.hitsIndex pos v.payloadsIt).1)
    (h4 : w.bufferedHits = v.bufferedHits)
    (h5 : w.hitsPositionDeltas = v.hitsPositionDeltas)
    (h6 : w.hitsPayloadLengths = v.hitsPayloadLengths)
    (h7 : w.payloadsIt = (output_run dec.hitsDataPtr v.hitsPositionDeltas
      v.hitsPayloadLengths n v.hitsIndex pos v.payloadsIt).2.2.1) :
    hits_ok cfg docs dec w (c + n) ∧
      (output_run dec.hitsDataPtr v.hitsPositionDeltas v.hitsPayloadLengths n v.hitsIndex pos
        v.payloadsIt).2.2.2 = emitted_run docs n c pos ∧
      (output_run dec.hitsDataPtr v.hitsPositionDeltas v.hitsPayloadLengths n v.hitsIndex pos
        v.payloadsIt).2.1 = run_pos docs n c pos ∧
      w.hitsIndex = v.hitsIndex + n := by
  rcases hv with ⟨g1, g2, g3⟩ | ⟨base, hc, hld⟩
  · have hz : n = 0 := by omega
    subst hz
    have e3 : w.hitsIndex = 0 := by rw [h3]; exact g2
    refine ⟨Or.inl ⟨⟨g1.c_le, g1.c_block, by rw [h1]; exact g1.hdp_eq,
      by rw [h2]; exact g1.hitsLeft_eq⟩, e3, by rw [h4]; exact g3⟩, rfl, rfl, ?_⟩
    rw [e3, g2]
  · have hbe := hld.buffered_eq
    have hblt := hld.base_lt
    have hbuf : v.bufferedHits ≤ cfg.BLOCK_SIZE := by omega
    have hr := output_run_loaded cfg hB docs dec hh v.hitsPositionDeltas
      v.hitsPayloadLengths base v.bufferedHits hld.base_block hbuf (by omega) hld.deltas_eq
      hld.lengths_eq n v.hitsIndex pos hn
    rw [← hld.payloadsIt_eq, ← hc] at hr
    rw [hr] at h3 h7
    have e3 : w.hitsIndex = v.hitsIndex + n := h3
    refine ⟨Or.inr ⟨base, by rw [e3, hc, Nat.add_assoc], ?_⟩, by rw [hr], by rw [hr], e3⟩
    exact ⟨hld.base_block, hld.base_lt, by rw [e3, h4]; exact hn,
      by rw [h4]; exact hld.buffered_eq, by rw [h2, h4]; exact hld.hitsLeft_eq,
      fun i hi => by rw [h5]; exact hld.deltas_eq i (by rw [← h4]; exact hi),
      fun i hi => by rw [h6]; exact hld.lengths_eq i (by rw [← h4]; exact hi),
      by rw [h7, e3], by rw [h1]; exact hld.hdp_eq⟩

/-- The slow path of `output_hits`: with enough fuel it hands the next `freq` hits of the
stream to the encoder and moves the hits part `freq` hits on. -/
theorem cand_output_slow_spec (cfg : Config) (hok : cfg.codec_ok) (hB : 0 < cfg.BLOCK_SIZE)
    (hB8 : cfg.BLOCK_SIZE ≤ 255) (docs : List doc_input) (dec : Decoder)
    (hh : hits_layout cfg docs dec) :
    ∀ (fuel : Nat) (c : candidate) (pos freq cpos : Nat), c.hitsDataPtr = dec.hitsDataPtr →
      hits_ok cfg docs dec c.iter.hits_view cpos → cpos + freq ≤ hits_total docs →
      2 * freq + (if c.hitsIndex < c.bufferedHits then 0 else 1) < fuel →
      ∃ c1, candidate.output_slow cfg fuel c pos freq =
          some (c1, emitted_run docs freq cpos pos) ∧
        hits_ok cfg docs dec c1.iter.hits_view (cpos + freq) ∧
        c1.skippedHits = c.skippedHits ∧ same_docs c1 c ∧ c1.docFreqs = c.docFreqs := by
  have hB16 : cfg.BLOCK_SIZE ≤ 2 ^ 16 := by omega
  intro fuel
  induction fuel with
  | zero => intro c pos freq cpos _ _ _ h; omega
  | succ fuel ih =>
    intro c pos freq cpos hmem hok1 hcf hfuel
    have hle : c.hitsIndex ≤ c.bufferedHits := by
      rcases hok1 with ⟨_, g2, g3⟩ | ⟨base, _, hld⟩
      · have e2 : c.hitsIndex = 0 := g2
        omega
      · exact hld.index_le
    obtain ⟨r, hr⟩ : ∃ r, r = output_run c.hitsDataPtr c.hitsPositionDeltas
      c.hitsPayloadLengths (min (c.bufferedHits - c.hitsIndex) freq) c.hitsIndex pos
      c.payloadsIt := ⟨_, rfl⟩
    have hstep : candidate.output_slow cfg (fuel + 1) c pos freq =
        if freq - min (c.bufferedHits - c.hitsIndex) freq ≠ 0 then
          match ({ c with payloadsIt := r.2.2.1, hitsIndex := r.1 } : candidate).refill_hits
            cfg with
          | none => none
          | some c2 =>
            match candidate.output_slow cfg fuel c2 r.2.1
              (freq - min (c.bufferedHits - c.hitsIndex) freq) with
            | none => none
            | some (c3, out) => some (c3, r.2.2.2 ++ out)
        else some (({ c with payloadsIt := r.2.2.1, hitsIndex := r.1 } : candidate),
          r.2.2.2) := by
      subst hr
      rfl
    rw [hstep]
    have hr' : r = output_run dec.hitsDataPtr c.iter.hits_view.hitsPositionDeltas
        c.iter.hits_view.hitsPayloadLengths (min (c.bufferedHits - c.hitsIndex) freq)
        c.iter.hits_view.hitsIndex pos c.iter.hits_view.payloadsIt := by
      rw [hr, hmem]
      rfl
    obtain ⟨k1, k2, k3, k4⟩ := output_run_hits_ok cfg hB docs dec hh c.iter.hits_view
      ({ c with payloadsIt := r.2.2.1, hitsIndex := r.1 } : candidate).iter.hits_view cpos
      (min (c.bufferedHits - c.hitsIndex) freq) pos hok1
      (by show c.hitsIndex + _ ≤ c.bufferedHits; omega) rfl rfl
      (congrArg (fun q => q.1) hr') rfl rfl rfl (congrArg (fun q => q.2.2.1) hr')
    rw [← hr'] at k2 k3
    have k4' : r.1 = c.hitsIndex + min (c.bufferedHits - c.hitsIndex) freq := k4
    by_cases hmore : freq - min (c.bufferedHits - c.hitsIndex) freq ≠ 0
    · rw [if_pos hmore]
      have hmin : min (c.bufferedHits - c.hitsIndex) freq = c.bufferedHits - c.hitsIndex := by
        omega
      have hreq : r.1 = 0 ∨ r.1 = cfg.BLOCK_SIZE := by
        rcases hok1 with ⟨_, g2, g3⟩ | ⟨base, hc, hld⟩
        · have e2 : c.hitsIndex = 0 := g2
          have e3 : c.bufferedHits = 0 := g3
          left
          omega
        · right
          have hbe : c.bufferedHits = min cfg.BLOCK_SIZE (hits_total docs - base) :=
            hld.buffered_eq
          have hc1 : cpos = base + c.hitsIndex := hc
          omega
      have hgap : at_hits_gap cfg docs dec
          ({ c with payloadsIt := r.2.2.1, hitsIndex := r.1 } : candidate).iter.hits_view
          (cpos + min (c.bufferedHits - c.hitsIndex) freq) := by
        rcases k1 with ⟨g1, _, _⟩ | ⟨base, hc, hld⟩
        · exact g1
        · have := loaded_end_gap cfg hB docs dec _ _ base hld rfl rfl
          have hc1 : cpos + min (c.bufferedHits - c.hitsIndex) freq = base + r.1 := hc
          have hb : (({ c with payloadsIt := r.2.2.1, hitsIndex := r.1 } :
              candidate).iter.hits_view).bufferedHits = c.bufferedHits := rfl
          rw [hb] at this
          have e : cpos + min (c.bufferedHits - c.hitsIndex) freq = base + c.bufferedHits := by
            omega
          rw [e]
          exact this
      obtain ⟨c2, e1, e2, e3, e4, e5⟩ := cand_refill_hits_iter cfg hB8 dec
        ({ c with payloadsIt := r.2.2.1, hitsIndex := r.1 } : candidate) hmem hreq
      rw [e1]
      obtain ⟨r1, r2, _⟩ := refill_hits_spec cfg hok hB hB16 docs dec hh _ _ hgap
      rw [← e2] at r1 r2
      have hld2 := r2 (by omega)
      have r1' : c2.hitsIndex = 0 := r1
      have hb2 : c2.bufferedHits = min cfg.BLOCK_SIZE
          (hits_total docs - (cpos + min (c.bufferedHits - c.hitsIndex) freq)) :=
        hld2.buffered_eq
      have hdv : c2.iter.docs_view = c.iter.docs_view := by
        rw [e2, refill_hits_docs_view]
        rfl
      have hsk : c2.skippedHits = c.skippedHits := by
        have := (refill_hits_counts cfg dec
          ({ c with payloadsIt := r.2.2.1, hitsIndex := r.1 } : candidate).iter).2.2.2
        rw [← e2] at this
        exact this
      obtain ⟨c3, f1, f2, f3, f4, f5⟩ := ih c2 r.2.1
        (freq - min (c.bufferedHits - c.hitsIndex) freq)
        (cpos + min (c.bufferedHits - c.hitsIndex) freq) (e5.trans hmem)
        (Or.inr ⟨_, by rw [show c2.iter.hits_view.hitsIndex = c2.hitsIndex from rfl, r1',
          Nat.add_zero], hld2⟩) (by omega)
        (by
          have : c2.hitsIndex < c2.bufferedHits := by omega
          rw [if_pos this]
          split at hfuel <;> omega)
      dsimp only
      rw [f1]
      obtain ⟨s1, s2⟩ := same_docs_of_view c2 c hdv e3 e4 e5
      refine ⟨c3, ?_, ?_, f3.trans hsk, same_docs_trans _ _ _ f4 s1, f5.trans s2⟩
      · simp only [Option.some.injEq, Prod.mk.injEq, true_and]
        rw [k2, k3, ← emitted_run_append]
        congr 1
        omega
      · have e : cpos + min (c.bufferedHits - c.hitsIndex) freq +
            (freq - min (c.bufferedHits - c.hitsIndex) freq) = cpos + freq := by omega
        rw [e] at f2
        exact f2
    · rw [if_neg hmore]
      have hmin : min (c.bufferedHits - c.hitsIndex) freq = freq := by omega
      rw [hmin] at k1 k2
      exact ⟨_, by rw [k2], k1, rfl, ⟨rfl, rfl, rfl, rfl, rfl, rfl, rfl, rfl, rfl⟩, rfl⟩

end Lucene

namespace Lucene

/-! ### A candidate on a document of its posting list -/

theorem cand_current (cfg : Config) (docs : List doc_input) (dec : Decoder) (c : candidate)
    (k : Nat) (h : cand_ok cfg docs dec c k) : c.current = doc_id docs k :=
  h.2.2.1.cur_eq

theorem cand_index_lt (cfg : Config) (hB : 0 < cfg.BLOCK_SIZE) (docs : List doc_input)
    (dec : Decoder) (c : candidate) (k : Nat) (h : cand_ok cfg docs dec c k) :
    c.cur_block_i < c.cur_block_size ∧ c.cur_block_size ≤ cfg.BLOCK_SIZE := by
  have h1 := on_doc_index_lt cfg hB docs dec _ k h.2.2.1
  have h2 := h.2.2.1.bufferedDocs_eq
  have h3 : c.cur_block_size = min cfg.BLOCK_SIZE
      (docs.length - k / cfg.BLOCK_SIZE * cfg.BLOCK_SIZE) := h2
  exact ⟨h1, by omega⟩

/-- An iterator view on the document `k` gives a candidate on `k`. -/
theorem cand_ok_of_on_doc (cfg : Config) (hB : 0 < cfg.BLOCK_SIZE) (docs : List doc_input)
    (dec : Decoder) (hl : chunk_layout cfg docs dec) (c : candidate) (k : Nat)
    (h1 : c.indexPtr = dec.indexPtr) (h2 : c.hitsDataPtr = dec.hitsDataPtr)
    (ho : on_doc cfg docs dec c.iter.docs_view k)
    (hs : hits_state_ok cfg docs dec c.iter (hits_before docs k)) :
    cand_ok cfg docs dec c k ∧ c.docFreqs c.cur_block_i = doc_freq docs k := by
  obtain ⟨_, hfr⟩ := on_doc_cur cfg hB docs dec hl _ k ho
  have hfr1 : c.docFreqs c.cur_block_i = doc_freq docs k := hfr
  refine ⟨⟨h1, h2, ?_, hits_before docs k, by rw [hfr1]; rfl, hs⟩, hfr1⟩
  refine ⟨ho.k_lt, ho.docsIndex_eq, ho.bufferedDocs_eq, ho.deltas_eq, ?_, ho.lastDocID_eq,
    ho.p_eq, ho.docsLeft_eq, ho.cur_eq, rfl⟩
  intro i hle hi
  show Function.update c.docFreqs c.cur_block_i (doc_freq docs k) i = _
  rw [← hfr1, Function.update_eq_self]
  exact ho.freqs_eq i hle hi

/-- After its set-up a candidate stands on the first document of its posting list. -/
theorem merge_candidate_ok (cfg : Config) (hok : cfg.codec_ok) (hB : 0 < cfg.BLOCK_SIZE)
    (hB8 : cfg.BLOCK_SIZE ≤ 255) (docs : List doc_input) (c0 : candidate)
    (part : merge_participant) (hl : chunk_layout cfg docs part.decoder)
    (htail : tail_deltas_ok cfg docs) (hne : 0 < docs.length) :
    cand_ok cfg docs part.decoder (merge_candidate cfg c0 part) 0 ∧
      (merge_candidate cfg c0 part).docFreqs (merge_candidate cfg c0 part).cur_block_i =
        doc_freq docs 0 ∧
      (merge_candidate cfg c0 part).maskedDocsReg = part.maskedDocsReg := by
  obtain ⟨c, hc⟩ : ∃ c : candidate, c =
      { c0 with
        index_chunk_e :=
          if read_u16 part.indexPtr (part.tctx.offset + 12) ≠ 0 then
            part.tctx.offset + part.tctx.size -
              read_u16 part.indexPtr (part.tctx.offset + 12) * 22
          else part.tctx.offset + part.tctx.size
        maskedDocsReg := part.maskedDocsReg
        documentsLeft := part.tctx.documents
        lastDocID := 0
        skippedHits := 0
        hitsIndex := 0
        bufferedHits := 0
        payloadsIt := 0
        payloadsEnd := 0
        index_chunk_p := part.tctx.offset + 14
        positions_chunk_p := read_u32 part.indexPtr part.tctx.offset
        positions_chunk_e := read_u32 part.indexPtr part.tctx.offset +
          read_u32 part.indexPtr (part.tctx.offset + 8)
        hitsLeft := read_u32 part.indexPtr (part.tctx.offset + 4)
        indexPtr := part.indexPtr
        hitsDataPtr := part.hitsDataPtr } := ⟨_, rfl⟩
  have hm : merge_candidate cfg c0 part = c.refill_documents cfg := by
    rw [hc]
    rfl
  have hg0 := new_iterator_gap cfg docs part.decoder hl
  have hg : at_gap cfg docs part.decoder c.iter.docs_view 0 := by
    rw [hc]
    exact ⟨hg0.m_le, hg0.m_block, hg0.lastDocID_eq, hg0.p_eq, hg0.docsLeft_eq⟩
  have hs : hits_state_ok cfg docs part.decoder c.iter (hits_before docs 0) := by
    rw [hc]
    refine ⟨Nat.zero_le _, 0, rfl, Or.inl ⟨⟨Nat.zero_le _, Or.inl (Nat.zero_mod _), ?_, ?_⟩,
      rfl, rfl⟩⟩
    · show part.decoder.hitsBase = _
      by_cases h : 0 = hits_total docs
      · rw [if_pos h]
        have hm : hits_total docs % cfg.BLOCK_SIZE = 0 := by rw [← h]; exact Nat.zero_mod _
        rw [hits_end_eq_start cfg docs part.decoder hm, ← h, Nat.zero_div]
        simp [hits_start, hits_blocks_bytes]
      · rw [if_neg h, Nat.zero_div]
        simp [hits_start, hits_blocks_bytes]
    · show part.decoder.totalHits = _
      rw [hl.totalHits_eq]
      rfl
  have hi1 : c.indexPtr = part.decoder.indexPtr := by rw [hc]; rfl
  have hi2 : c.hitsDataPtr = part.decoder.hitsDataPtr := by rw [hc]; rfl
  have hmk : c.maskedDocsReg = part.maskedDocsReg := by rw [hc]
  obtain ⟨e1, e2, e3, e4⟩ := cand_refill_documents_iter cfg hB8 part.decoder c hi1
  have ho := refill_documents_spec cfg hok hB docs part.decoder hl htail c.iter 0 hg hne
  rw [← e1] at ho
  have hs2 : hits_state_ok cfg docs part.decoder (c.refill_documents cfg).iter
      (hits_before docs 0) := by
    apply hits_state_ok_of_view cfg docs part.decoder _ c.iter _ _ hs
    rw [e1, refill_documents_hits_view]
  rw [hm]
  obtain ⟨r1, r2⟩ := cand_ok_of_on_doc cfg hB docs part.decoder hl (c.refill_documents cfg) 0
    (e3.trans hi1) (e4.trans hi2) ho hs2
  exact ⟨r1, r2, e2.trans hmk⟩

/-- On a document whose hits were not handed over yet, `output_hits` returns: it calls
`new_hit` for the hits of the document and leaves the candidate on the document. -/
theorem cand_output_hits (cfg : Config) (hok : cfg.codec_ok) (hB : 0 < cfg.BLOCK_SIZE)
    (hB8 : cfg.BLOCK_SIZE ≤ 255) (docs : List doc_input) (dec : Decoder)
    (hh : hits_layout cfg docs dec) (c : candidate) (k : Nat)
    (hc : cand_ok cfg docs dec c k)
    (hf : c.docFreqs c.cur_block_i = doc_freq docs k) :
    ∃ c1, c.output_hits cfg =
        some (c1, emitted_run docs (doc_freq docs k) (hits_before docs k) 0) ∧
      cand_ok cfg docs dec c1 k ∧ c1.maskedDocsReg = c.maskedDocsReg ∧
      c1.current = c.current := by
  obtain ⟨hi1, hi2, ho, h, hh1, hs⟩ := hc
  have hsucc : hits_before docs (k + 1) = hits_before docs k + doc_freq docs k := rfl
  have hhk : h = hits_before docs k := by omega
  subst hhk
  have hcf : hits_before docs k + doc_freq docs k ≤ hits_total docs :=
    hits_before_mono docs (k + 1) docs.length ho.k_lt
  obtain ⟨c0, e1, e2, e3, e4, e5, e6, e7⟩ := cand_skip_spec cfg hok hB hB8 docs dec hh c _ hi2 hs
  obtain ⟨sd, sf⟩ := same_docs_of_view c0 c e4 e5 e6 e7
  have key : ∀ c2 : candidate, hits_ok cfg docs dec c2.iter.hits_view
        (hits_before docs k + doc_freq docs k) →
      c2.skippedHits = 0 → same_docs c2 c → c2.docFreqs = c.docFreqs →
      cand_ok cfg docs dec
          ({ c2 with docFreqs := Function.update c2.docFreqs c2.cur_block_i 0 } : candidate) k ∧
        ({ c2 with docFreqs := Function.update c2.docFreqs c2.cur_block_i 0 } :
          candidate).maskedDocsReg = c.maskedDocsReg ∧
        ({ c2 with docFreqs := Function.update c2.docFreqs c2.cur_block_i 0 } :
          candidate).current = c.current := by
    intro c2 g1 g2 g3 g4
    refine ⟨⟨g3.indexPtr_eq.trans hi1, g3.hitsDataPtr_eq.trans hi2, ?_, hits_before docs (k + 1),
      ?_, hcf, hits_before docs (k + 1), ?_, ?_⟩, g3.maskedDocsReg_eq, ?_⟩
    · refine ⟨ho.k_lt, ?_, ?_, ?_, ?_, ?_, ?_, ?_, ?_, rfl⟩
      · show c2.cur_block_i = _
        rw [g3.cur_block_i_eq]
        exact ho.docsIndex_eq
      · show c2.cur_block_size = _
        rw [g3.cur_block_size_eq]
        exact ho.bufferedDocs_eq
      · intro i hi
        show c2.docDeltas i = _
        rw [g3.docDeltas_eq]
        exact ho.deltas_eq i (by
          show i < c.cur_block_size
          rw [← g3.cur_block_size_eq]
          exact hi)
      · intro i hle hi
        show Function.update (Function.update c2.docFreqs c2.cur_block_i 0) c2.cur_block_i
          (doc_freq docs k) i = _
        rw [Function.update_idem, g4, g3.cur_block_i_eq]
        exact ho.freqs_eq i (by
          show c.cur_block_i ≤ i
          rw [← g3.cur_block_i_eq]
          exact hle) (by
          show i < c.cur_block_size
          rw [← g3.cur_block_size_eq]
          exact hi)
      · show c2.lastDocID = _
        rw [g3.lastDocID_eq]
        exact ho.lastDocID_eq
      · show c2.index_chunk_p = _
        rw [g3.index_chunk_p_eq]
        exact ho.p_eq
      · show c2.documentsLeft = _ - c2.cur_block_size
        rw [g3.documentsLeft_eq, g3.cur_block_size_eq]
        exact ho.docsLeft_eq
      · show (c2.lastDocID + c2.docDeltas c2.cur_block_i) % 2 ^ 32 = _
        rw [g3.lastDocID_eq, g3.docDeltas_eq, g3.cur_block_i_eq]
        exact ho.cur_eq
    · show hits_before docs (k + 1) + Function.update c2.docFreqs c2.cur_block_i 0
        c2.cur_block_i = _
      rw [Function.update_same]
      rfl
    · show hits_before docs (k + 1) + c2.skippedHits = _
      rw [g2]
      rfl
    · exact hits_ok_of_fields cfg docs dec c2.iter.hits_view _ _ rfl rfl rfl rfl rfl rfl rfl g1
    · show (c2.lastDocID + c2.docDeltas c2.cur_block_i) % 2 ^ 32 = _
      rw [g3.lastDocID_eq, g3.docDeltas_eq, g3.cur_block_i_eq]
      rfl
  unfold candidate.output_hits
  simp only [e1, hf]
  have hm0 : c0.hitsDataPtr = dec.hitsDataPtr := e7.trans hi2
  by_cases hfast : c0.hitsIndex + doc_freq docs k ≤ c0.bufferedHits
  · rw [if_pos hfast]
    obtain ⟨k1, k2, _, _⟩ := output_run_hits_ok cfg hB docs dec hh c0.iter.hits_view
      ({ c0 with
          payloadsIt := (output_run c0.hitsDataPtr c0.hitsPositionDeltas c0.hitsPayloadLengths
            (doc_freq docs k) c0.hitsIndex 0 c0.payloadsIt).2.2.1
          hitsIndex := (output_run c0.hitsDataPtr c0.hitsPositionDeltas c0.hitsPayloadLengths
            (doc_freq docs k) c0.hitsIndex 0 c0.payloadsIt).1 } : candidate).iter.hits_view
      (hits_before docs k) (doc_freq docs k) 0 e2 hfast rfl rfl
      (by rw [hm0]; rfl) rfl rfl rfl (by rw [hm0]; rfl)
    rw [← hm0] at k2
    have k2' : (output_run c0.hitsDataPtr c0.hitsPositionDeltas c0.hitsPayloadLengths
        (doc_freq docs k) c0.hitsIndex 0 c0.payloadsIt).2.2.2 =
        emitted_run docs (doc_freq docs k) (hits_before docs k) 0 := k2
    rw [k2']
    exact ⟨_, rfl, key _ k1 e3 ⟨sd.1, sd.2, sd.3, sd.4, sd.5, sd.6, sd.7, sd.8, sd.9⟩ sf⟩
  · rw [if_neg hfast]
    obtain ⟨c2, f1, f2, f3, f4, f5⟩ := cand_output_slow_spec cfg hok hB hB8 docs dec hh
      (2 * doc_freq docs k + 2) c0 0 (doc_freq docs k) (hits_before docs k) hm0 e2 hcf
      (by split <;> omega)
    rw [f1]
    exact ⟨_, rfl, key c2 f2 (f3.trans e3) (same_docs_trans _ _ _ f4 sd) (f5.trans sf)⟩

end Lucene

namespace Lucene

/-- The call `next` of a candidate on the document `k`: it answers whether there is a
document `k + 1`, and then stands on it, its hits not handed over. -/
theorem cand_next (cfg : Config) (hok : cfg.codec_ok) (hB : 0 < cfg.BLOCK_SIZE)
    (hB8 : cfg.BLOCK_SIZE ≤ 255) (docs : List doc_input) (dec : Decoder)
    (hl : chunk_layout cfg docs dec) (hh : hits_layout cfg docs dec)
    (htail : tail_deltas_ok cfg docs) (c : candidate) (k : Nat)
    (hc : cand_ok cfg docs dec c k) :
    ∃ b c1, c.next cfg = some (b, c1) ∧
      (k + 1 < docs.length → b = true ∧ cand_ok cfg docs dec c1 (k + 1) ∧
        c1.docFreqs c1.cur_block_i = doc_freq docs (k + 1) ∧
        c1.maskedDocsReg = c.maskedDocsReg) ∧
      (¬ k + 1 < docs.length → b = false) := by
  obtain ⟨hlt, hsz⟩ := cand_index_lt cfg hB docs dec c k hc
  obtain ⟨hi1, hi2, ho, h, hh1, hs⟩ := hc
  have hklt := ho.k_lt
  have hle1 : hits_before docs (k + 1) ≤ hits_total docs :=
    hits_before_mono docs (k + 1) docs.length hklt
  have h32 : hits_total docs < 2 ^ 32 := hl.totalHits_lt
  have hmod8 : (c.cur_block_i + 1) % 2 ^ 8 = c.cur_block_i + 1 := Nat.mod_eq_of_lt (by omega)
  obtain ⟨hle, pos, hp, hok1⟩ := hs
  have hp' : pos + c.skippedHits = h := hp
  have hsk : (c.skippedHits + c.docFreqs c.cur_block_i) % 2 ^ 32 =
      c.skippedHits + c.docFreqs c.cur_block_i := Nat.mod_eq_of_lt (by omega)
  obtain ⟨X, hX⟩ : ∃ X : candidate, X =
      { c with
        skippedHits := (c.skippedHits + c.docFreqs c.cur_block_i) % 2 ^ 32
        lastDocID := (c.lastDocID + c.docDeltas c.cur_block_i) % 2 ^ 32
        cur_block_i := (c.cur_block_i + 1) % 2 ^ 8 } := ⟨_, rfl⟩
  have hnext : c.next cfg =
      if X.cur_block_i = X.cur_block_size then
        if X.documentsLeft = 0 then some (false, X)
        else
          match X.skip_ommitted_hits cfg with
          | none => none
          | some c2 => some (true, c2.refill_documents cfg)
      else some (true, X) := by
    rw [hX]
    rfl
  have hXi : X.cur_block_i = c.cur_block_i + 1 := by rw [hX]; exact hmod8
  have hXs : X.cur_block_size = c.cur_block_size := by rw [hX]
  have hXl : X.lastDocID = (c.lastDocID + c.docDeltas c.cur_block_i) % 2 ^ 32 := by rw [hX]
  have hXd : X.docDeltas = c.docDeltas := by rw [hX]
  have hXf : X.docFreqs = c.docFreqs := by rw [hX]
  have hXp : X.index_chunk_p = c.index_chunk_p := by rw [hX]
  have hXn : X.documentsLeft = c.documentsLeft := by rw [hX]
  have hXm : X.maskedDocsReg = c.maskedDocsReg := by rw [hX]
  have hXh : X.hitsDataPtr = c.hitsDataPtr := by rw [hX]
  have hXx : X.indexPtr = c.indexPtr := by rw [hX]
  have hXsk : X.skippedHits = c.skippedHits + c.docFreqs c.cur_block_i := by
    rw [hX]
    exact hsk
  have hsX : hits_state_ok cfg docs dec X.iter (hits_before docs (k + 1)) := by
    refine ⟨hle1, pos, ?_, ?_⟩
    · show pos + X.skippedHits = _
      rw [hXsk]
      omega
    · rw [hX]
      exact hits_ok_of_fields cfg docs dec c.iter.hits_view _ _ rfl rfl rfl rfl rfl rfl rfl hok1
  rw [hnext]
  by_cases hin : c.cur_block_i + 1 < c.cur_block_size
  · rw [if_neg (by rw [hXi, hXs]; omega)]
    have ho1 := on_doc_succ cfg hB docs dec hl _
      ({ X.iter.docs_view with
          docFreqs := Function.update c.docFreqs c.cur_block_i (doc_freq docs k)
          freq := Function.update c.docFreqs c.cur_block_i (doc_freq docs k)
            (c.cur_block_i + 1) } : docs_view) k ho hin
      hXl hXi hXs hXd rfl hXp hXn
      (by
        show (X.lastDocID + X.docDeltas X.cur_block_i) % 2 ^ 32 = _
        rw [hXd, hXi]
        rfl) rfl
    have hfr : c.docFreqs (c.cur_block_i + 1) = doc_freq docs (k + 1) := by
      have := ho1.freq_eq
      have e : Function.update c.docFreqs c.cur_block_i (doc_freq docs k)
          (c.cur_block_i + 1) = doc_freq docs (k + 1) := this
      rw [Function.update_noteq (Nat.succ_ne_self _)] at e
      exact e
    have hfr2 : X.docFreqs X.cur_block_i = doc_freq docs (k + 1) := by
      rw [hXf, hXi]
      exact hfr
    refine ⟨true, X, rfl, fun hk => ⟨rfl, ⟨hXx.trans hi1, hXh.trans hi2, ?_,
      hits_before docs (k + 1), by rw [hfr2]; rfl, hsX⟩, hfr2, hXm⟩,
      fun hk => absurd ho1.k_lt hk⟩
    refine ⟨ho1.k_lt, ho1.docsIndex_eq, ho1.bufferedDocs_eq, ho1.deltas_eq, ?_,
      ho1.lastDocID_eq, ho1.p_eq, ho1.docsLeft_eq, ho1.cur_eq, rfl⟩
    intro i hle2 hi
    have hle3 : c.cur_block_i + 1 ≤ i := by
      have : X.cur_block_i ≤ i := hle2
      omega
    have := ho1.freqs_eq i hle2 hi
    have e : Function.update c.docFreqs c.cur_block_i (doc_freq docs k) i = _ := this
    rw [Function.update_noteq (by omega)] at e
    show Function.update X.docFreqs X.cur_block_i (doc_freq docs (k + 1)) i = _
    rw [← hfr2, Function.update_eq_self, hXf]
    exact e
  · rw [if_pos (by rw [hXi, hXs]; omega)]
    have hg : at_gap cfg docs dec X.iter.docs_view (k + 1) :=
      on_doc_gap cfg hB docs dec hl _ X.iter.docs_view k ho hin hXl hXp hXn
    have hdl : X.documentsLeft = docs.length - (k + 1) := hg.docsLeft_eq
    by_cases hz : X.documentsLeft = 0
    · rw [if_pos hz]
      exact ⟨false, X, rfl, fun hk => by omega, fun _ => rfl⟩
    · rw [if_neg hz]
      have hk1 : k + 1 < docs.length := by omega
      obtain ⟨c2, e1, e2, e3, e4, e5, e6, e7⟩ := cand_skip_spec cfg hok hB hB8 docs dec hh X _
        (hXh.trans hi2) hsX
      rw [e1]
      obtain ⟨r1, r2, r3, r4⟩ := cand_refill_documents_iter cfg hB8 dec c2
        (e6.trans (hXx.trans hi1))
      have hg2 : at_gap cfg docs dec c2.iter.docs_view (k + 1) := by
        rw [e4]
        exact hg
      have ho2 := refill_documents_spec cfg hok hB docs dec hl htail c2.iter (k + 1) hg2 hk1
      rw [← r1] at ho2
      have hs2 : hits_state_ok cfg docs dec (c2.refill_documents cfg).iter
          (hits_before docs (k + 1)) := by
        apply hits_state_ok_of_view cfg docs dec _ c2.iter _
          (by rw [r1, refill_documents_hits_view])
        exact ⟨hle1, hits_before docs (k + 1), by
          show _ + c2.skippedHits = _
          rw [e3]
          rfl, e2⟩
      obtain ⟨q1, q2⟩ := cand_ok_of_on_doc cfg hB docs dec hl (c2.refill_documents cfg) (k + 1)
        (r3.trans (e6.trans (hXx.trans hi1))) (r4.trans (e7.trans (hXh.trans hi2))) ho2 hs2
      exact ⟨true, _, rfl, fun _ => ⟨rfl, q1, q2, r2.trans (e5.trans hXm)⟩,
        fun hk => absurd hk1 hk⟩

end Lucene

namespace Lucene

/-! ### The hits handed to the encoder are the recorded hits -/

theorem emit_list_stored : ∀ (hs : List hit_input) (last : Nat),
    (∀ h ∈ hs, last ≤ h.pos) → (∀ h ∈ hs, h.pos < 2 ^ 16) →
    (hs.map (fun h => h.pos)).Sorted (· ≤ ·) →
    emit_list (stored_hits_of hs last) last = hs := by
  intro hs
  induction hs with
  | nil => intro _ _ _ _; rfl
  | cons h r ih =>
    intro last h1 h2 h3
    have hl := h1 h (List.mem_cons_self _ _)
    have hb := h2 h (List.mem_cons_self _ _)
    have e : (last + (h.pos - last)) % 2 ^ 16 = h.pos := by
      rw [Nat.add_sub_cancel' hl]
      exact Nat.mod_eq_of_lt hb
    rw [List.map_cons, List.sorted_cons] at h3
    show ({ pos := (last + (h.pos - last)) % 2 ^ 16, payload := h.payload } : hit_input) ::
      emit_list (stored_hits_of r h.pos) ((last + (h.pos - last)) % 2 ^ 16) = h :: r
    rw [e, ih h.pos (fun x hx => h3.1 _ (List.mem_map_of_mem _ hx))
      (fun x hx => h2 x (List.mem_cons_of_mem _ hx)) h3.2]

theorem emitted_run_emit_list (docs : List doc_input) (m : Nat) (hm : m < docs.length) :
    ∀ (n t pos : Nat), t + n ≤ (real_hits docs[m]).length →
      emitted_run docs n (hits_before docs m + t) pos =
        emit_list (((doc_stored docs[m]).drop t).take n) pos := by
  intro n
  induction n with
  | zero => intro t pos _; simp [emitted_run, emit_list]
  | succ n ih =>
    intro t pos h
    have ht : t < (doc_stored docs[m]).length := by rw [doc_stored_length]; omega
    have hg := stored_hits_getD (0, []) docs m t hm (by omega)
    have hd : (doc_stored docs[m]).drop t =
        (doc_stored docs[m])[t] :: (doc_stored docs[m]).drop (t + 1) :=
      List.drop_eq_getElem_cons ht
    have hget : (doc_stored docs[m]).getD t (0, []) = (doc_stored docs[m])[t] := by
      rw [List.getD_eq_getElem _ _ ht]
    rw [emitted_run, hd, List.take_succ_cons, emit_list]
    unfold hit_delta hit_payload
    rw [hg, hget, Nat.add_assoc, ih (t + 1) _ (by omega)]

/-- The calls of `new_hit` that `output_hits` makes for the document `m` are the recorded
hits of the document. -/
theorem emitted_run_doc (docs : List doc_input) (m : Nat) (hm : m < docs.length)
    (hlt : ∀ h ∈ real_hits docs[m], h.pos < 2 ^ 16)
    (hsorted : ((real_hits docs[m]).map (fun h => h.pos)).Sorted (· ≤ ·)) :
    emitted_run docs (doc_freq docs m) (hits_before docs m) 0 = real_hits docs[m] := by
  have h := emitted_run_emit_list docs m hm (real_hits docs[m]).length 0 0 (by omega)
  rw [Nat.add_zero] at h
  rw [doc_freq_getElem docs m hm, h, List.drop_zero, ← doc_stored_length, List.take_length]
  exact emit_list_stored _ 0 (fun _ _ => Nat.zero_le _) hlt hsorted

end Lucene

namespace Lucene

/-! ### The selection and the advance of a round of the merge -/

theorem merge_select_spec : ∀ (rest pre : List candidate) (did : Nat) (toAdvance : List Nat),
    (∀ c ∈ pre, did ≤ c.current) →
    (∃ c ∈ pre, c.current = did) →
    toAdvance = (List.range pre.length).filter
      (fun k => decide ((pre.map (fun c => c.current)).getD k 0 = did)) →
    (∀ c ∈ pre ++ rest, (merge_select rest pre.length did toAdvance).1 ≤ c.current) ∧
    (∃ c ∈ pre ++ rest, c.current = (merge_select rest pre.length did toAdvance).1) ∧
    (merge_select rest pre.length did toAdvance).2 =
      (List.range (pre ++ rest).length).filter
        (fun k => decide (((pre ++ rest).map (fun c => c.current)).getD k 0 =
          (merge_select rest pre.length did toAdvance).1)) := by
  intro rest
  induction rest with
  | nil =>
    intro pre did toAdvance hmin hex hadv
    simp only [merge_select, List.append_nil]
    exact ⟨hmin, hex, hadv⟩
  | cons t rest ih =>
    intro pre did toAdvance hmin hex hadv
    have hlen : (pre ++ [t]).length = pre.length + 1 := by simp
    have hget : ∀ k, k < pre.length →
        ((pre ++ [t]).map (fun c => c.current)).getD k 0 =
          (pre.map (fun c => c.current)).getD k 0 := by
      intro k hk
      rw [List.map_append, List.getD_append _ _ _ _ (by rw [List.length_map]; exact hk)]
    have hlast : ((pre ++ [t]).map (fun c => c.current)).getD pre.length 0 = t.current := by
      rw [List.map_append, List.getD_append_right _ _ _ _ (by rw [List.length_map])]
      simp
    have happ : pre ++ t :: rest = (pre ++ [t]) ++ rest := by simp
    have hmem : ∀ k, k < pre.length →
        ∃ c ∈ pre, (pre.map (fun c => c.current)).getD k 0 = c.current := by
      intro k hk
      refine ⟨pre[k], List.getElem_mem hk, ?_⟩
      rw [List.getD_eq_getElem _ _ (by rw [List.length_map]; exact hk)]
      simp
    have hstep : merge_select (t :: rest) pre.length did toAdvance =
        if t.current = did then merge_select rest (pre.length + 1) did (toAdvance ++ [pre.length])
        else if t.current < did then merge_select rest (pre.length + 1) t.current [pre.length]
        else merge_select rest (pre.length + 1) did toAdvance := rfl
    rw [hstep, happ]
    by_cases h2 : t.current = did
    · rw [if_pos h2, ← hlen]
      apply ih
      · intro u hu
        rcases List.mem_append.1 hu with h | h
        · exact hmin u h
        · rw [List.mem_singleton.1 h]; omega
      · exact ⟨t, by simp, h2⟩
      · rw [hlen, filter_range_snoc, hlast, hadv]
        congr 1
        · apply List.filter_congr
          intro k hk
          rw [List.mem_range] at hk
          rw [hget k hk]
        · simp [h2]
    · rw [if_neg h2]
      by_cases h1 : t.current < did
      · rw [if_pos h1, ← hlen]
        apply ih
        · intro u hu
          rcases List.mem_append.1 hu with h | h
          · have := hmin u h; omega
          · rw [List.mem_singleton.1 h]
        · exact ⟨t, by simp, rfl⟩
        · rw [hlen, filter_range_snoc, hlast]
          have e : (List.range pre.length).filter
              (fun k => decide (((pre ++ [t]).map (fun c => c.current)).getD k 0 =
                t.current)) = [] := by
            rw [List.filter_eq_nil_iff]
            intro k hk
            rw [List.mem_range] at hk
            rw [hget k hk]
            obtain ⟨c, hc, e⟩ := hmem k hk
            have := hmin _ hc
            simp only [decide_eq_true_eq]
            omega
          rw [e]
          simp
      · rw [if_neg h1, ← hlen]
        apply ih
        · intro u hu
          rcases List.mem_append.1 hu with h | h
          · exact hmin u h
          · rw [List.mem_singleton.1 h]; omega
        · obtain ⟨u, hu, e⟩ := hex
          exact ⟨u, by simp [hu], e⟩
        · rw [hlen, filter_range_snoc, hlast, hadv]
          have e : (if decide (t.current = did) = true then [pre.length] else []) = [] := by
            simp [h2]
          rw [e, List.append_nil]
          apply List.filter_congr
          intro k hk
          rw [List.mem_range] at hk
          rw [hget k hk]

/-- The first index that a filter of a range keeps. -/
theorem filter_range_head (p : Nat → Bool) : ∀ (m : Nat), (∃ j, j < m ∧ p j = true) →
    ∃ j t, j < m ∧ p j = true ∧ (∀ i, i < j → p i = false) ∧
      (List.range m).filter p = j :: t := by
  intro m
  induction m with
  | zero => intro ⟨j, hj, _⟩; omega
  | succ m ih =>
    intro ⟨j, hj, hpj⟩
    rw [filter_range_snoc]
    by_cases hex : ∃ j, j < m ∧ p j = true
    · obtain ⟨j1, t, h1, h2, h3, h4⟩ := ih hex
      exact ⟨j1, t ++ (if p m then [m] else []), by omega, h2, h3, by rw [h4]; rfl⟩
    · have hall : ∀ i, i < m → p i = false := by
        intro i hi
        by_contra hc
        exact hex ⟨i, hi, by simpa using hc⟩
      have hjm : j = m := by
        by_contra hc
        have := hall j (by omega)
        rw [this] at hpj
        exact Bool.noConfusion hpj
      subst hjm
      have e : (List.range j).filter p = [] := by
        rw [List.filter_eq_nil_iff]
        intro i hi
        rw [List.mem_range] at hi
        rw [hall i hi]
        exact Bool.false_ne_true
      refine ⟨j, [], by omega, hpj, hall, ?_⟩
      rw [e, hpj]
      rfl

theorem getElem?_mid {α : Type} (L : List α) (c : α) (R : List α) :
    (L ++ c :: R)[L.length]? = some c := by
  induction L with
  | nil => simp
  | cons a L ih => simpa using ih

theorem set_mid {α : Type} (L : List α) (c c1 : α) (R : List α) :
    (L ++ c :: R).set L.length c1 = L ++ c1 :: R := by
  induction L with
  | nil => rfl
  | cons a L ih => simp

theorem eraseIdx_mid {α : Type} (L : List α) (c : α) (R : List α) :
    (L ++ c :: R).eraseIdx L.length = L ++ R := by
  induction L with
  | nil => rfl
  | cons a L ih => simpa using ih

theorem place_of_cand (cfg : Config) (pl : List (merge_participant × List doc_input))
    (c : candidate) (a : Nat × Nat) (h : cand_on cfg pl c a) :
    ∃ x, pl[a.1]? = some x ∧ x ∈ pl ∧ a.2 < x.2.length ∧ place_id pl a = c.current ∧
      c.current = doc_id x.2 a.2 ∧ place_left pl a = x.2.length - a.2 := by
  obtain ⟨x, hx, hc, hm⟩ := h
  refine ⟨x, hx, List.getElem?_mem hx, hc.2.2.1.k_lt, ?_, cand_current cfg _ _ c _ hc, ?_⟩
  · unfold place_id
    rw [hx]
    exact (cand_current cfg _ _ c _ hc).symm
  · unfold place_left
    rw [hx]

end Lucene

namespace Lucene

theorem merge_advance_cons (cfg : Config) (idx : Nat) (rest : List Nat) (cs : List candidate) :
    merge_advance cfg (idx :: rest) cs =
      match cs[idx]? with
      | none => none
      | some c =>
        match c.next cfg with
        | none => none
        | some (true, c1) => merge_advance cfg rest (cs.set idx c1)
        | some (false, _) =>
          if cs.length - 1 = 0 then some ([], true)
          else merge_advance cfg rest (cs.eraseIdx idx) := rfl

/-- The advance of the candidates standing at `did`, from the last to the first: each
moves to the next document of its participant or is removed, the others are untouched,
and the loop is left exactly when no candidate remains. -/
theorem merge_advance_spec (cfg : Config) (hok : cfg.codec_ok) (hB : 0 < cfg.BLOCK_SIZE)
    (hB8 : cfg.BLOCK_SIZE ≤ 255) (pl : List (merge_participant × List doc_input))
    (hp : ∀ x ∈ pl, participant_ok cfg x.1 x.2) (did : Nat) :
    ∀ (ZL ZR : List (candidate × (Nat × Nat))),
      (∀ z ∈ ZL, cand_on cfg pl z.1 z.2 ∧ (z.1.current ≠ did → cand_fresh pl z.1 z.2)) →
      (∀ z ∈ ZR, cand_on cfg pl z.1 z.2 ∧ cand_fresh pl z.1 z.2) →
      ZL ++ ZR ≠ [] →
      ∃ Z1 done,
        merge_advance cfg
            ((List.range ZL.length).filter
              (fun k => decide ((ZL.map (fun z => z.1.current)).getD k 0 = did))).reverse
            ((ZL ++ ZR).map Prod.fst) = some (Z1.map Prod.fst, done) ∧
          Z1.map Prod.snd =
            (ZL.map Prod.snd).filterMap (place_next pl did) ++ ZR.map Prod.snd ∧
          (∀ z ∈ Z1, cand_on cfg pl z.1 z.2 ∧ cand_fresh pl z.1 z.2) ∧
          (done = true ↔ Z1 = []) := by
  intro ZL
  induction ZL using List.reverseRecOn with
  | nil =>
    intro ZR _ hR hne
    refine ⟨ZR, false, rfl, rfl, hR, ?_⟩
    constructor
    · intro h; exact Bool.noConfusion h
    · intro h; exact absurd (by rw [h]; rfl) hne
  | append_singleton ZL z ih =>
    intro ZR hL hR hne
    have hz := hL z (by simp)
    have hL1 : ∀ y ∈ ZL, cand_on cfg pl y.1 y.2 ∧
        (y.1.current ≠ did → cand_fresh pl y.1 y.2) := fun y hy => hL y (by simp [hy])
    obtain ⟨x, hx, hxm, hk, hpid, hcur, hleft⟩ := place_of_cand cfg pl z.1 z.2 hz.1
    have hlen : (ZL ++ [z]).length = ZL.length + 1 := by simp
    have hget : ∀ k, k < ZL.length →
        ((ZL ++ [z]).map (fun z => z.1.current)).getD k 0 =
          (ZL.map (fun z => z.1.current)).getD k 0 := by
      intro k hk
      rw [List.map_append, List.getD_append _ _ _ _ (by rw [List.length_map]; exact hk)]
    have hlast : ((ZL ++ [z]).map (fun z => z.1.current)).getD ZL.length 0 = z.1.current := by
      rw [List.map_append, List.getD_append_right _ _ _ _ (by rw [List.length_map])]
      simp
    have hfil : (List.range ZL.length).filter
          (fun k => decide (((ZL ++ [z]).map (fun z => z.1.current)).getD k 0 = did)) =
        (List.range ZL.length).filter
          (fun k => decide ((ZL.map (fun z => z.1.current)).getD k 0 = did)) := by
      apply List.filter_congr
      intro k hk
      rw [List.mem_range] at hk
      rw [hget k hk]
    have hcs : ((ZL ++ [z]) ++ ZR).map Prod.fst =
        ZL.map Prod.fst ++ z.1 :: ZR.map Prod.fst := by simp
    have hsnd : ((ZL ++ [z]).map Prod.snd).filterMap (place_next pl did) =
        (ZL.map Prod.snd).filterMap (place_next pl did) ++
          (match place_next pl did z.2 with | some b => [b] | none => []) := by
      rw [List.map_append, List.filterMap_append]
      congr 1
      show List.filterMap (place_next pl did) [z.2] = _
      rw [List.filterMap_cons]
      cases place_next pl did z.2 <;> rfl
    rw [hlen, filter_range_snoc, hlast, hfil, hsnd]
    by_cases hd : z.1.current = did
    · rw [show (if decide (z.1.current = did) = true then [ZL.length] else []) = [ZL.length] by
        simp [hd], List.reverse_append, List.reverse_singleton, List.singleton_append,
        merge_advance_cons, hcs]
      have hlm : (ZL.map Prod.fst).length = ZL.length := List.length_map _ _
      have hmid := getElem?_mid (ZL.map Prod.fst) z.1 (ZR.map Prod.fst)
      rw [hlm] at hmid
      rw [hmid]
      obtain ⟨x1, hx1, hc1, hm1⟩ := hz.1
      have hxx : x1 = x := by rw [hx] at hx1; exact (Option.some.inj hx1).symm
      subst hxx
      have hpx := hp x1 hxm
      obtain ⟨b, c1, hn, hyes, hno⟩ := cand_next cfg hok hB hB8 x1.2 x1.1.decoder
        hpx.layout hpx.hits hpx.tail z.1 z.2.2 hc1
      have hpn : place_next pl did z.2 =
          if 1 < x1.2.length - z.2.2 then some (z.2.1, z.2.2 + 1) else none := by
        unfold place_next
        rw [hpid, if_pos hd, hleft]
      by_cases hmore : z.2.2 + 1 < x1.2.length
      · obtain ⟨hb, hc2, hf2, hm2⟩ := hyes hmore
        subst hb
        have hgt : 1 < x1.2.length - z.2.2 := by omega
        rw [hpn, if_pos hgt]
        have hset := set_mid (ZL.map Prod.fst) z.1 c1 (ZR.map Prod.fst)
        rw [hlm] at hset
        simp only [hn]
        rw [hset]
        have hR1 : ∀ y ∈ (c1, (z.2.1, z.2.2 + 1)) :: ZR,
            cand_on cfg pl y.1 y.2 ∧ cand_fresh pl y.1 y.2 := by
          intro y hy
          rcases List.mem_cons.1 hy with h | h
          · subst h
            refine ⟨⟨x1, hx, hc2, hm2.trans hm1⟩, ?_⟩
            intro x2 hx2
            have e : x2 = x1 := by
              have hx3 : pl[z.2.1]? = some x2 := hx2
              rw [hx] at hx3
              exact (Option.some.inj hx3).symm
            subst e
            exact hf2
          · exact hR y h
        obtain ⟨Z1, done, h1, h2, h3, h4⟩ := ih ((c1, (z.2.1, z.2.2 + 1)) :: ZR) hL1 hR1
          (by simp)
        refine ⟨Z1, done, ?_, ?_, h3, h4⟩
        · rw [← h1]
          simp
        · rw [h2]
          simp
      · have hb := hno hmore
        subst hb
        have hgt : ¬ 1 < x1.2.length - z.2.2 := by omega
        rw [hpn, if_neg hgt]
        simp only [hn]
        by_cases hone : (ZL.map Prod.fst ++ z.1 :: ZR.map Prod.fst).length - 1 = 0
        · rw [if_pos hone]
          have hl0 : ZL = [] := by
            cases ZL with
            | nil => rfl
            | cons a t => simp at hone
          have hr0 : ZR = [] := by
            cases ZR with
            | nil => rfl
            | cons a t => simp at hone
          subst hl0
          subst hr0
          exact ⟨[], true, rfl, rfl, fun _ h => absurd h (List.not_mem_nil _), by simp⟩
        · rw [if_neg hone]
          have her := eraseIdx_mid (ZL.map Prod.fst) z.1 (ZR.map Prod.fst)
          rw [hlm] at her
          rw [her]
          have hne1 : ZL ++ ZR ≠ [] := by
            intro h
            apply hone
            have h1 := List.append_eq_nil.1 h
            rw [h1.1, h1.2]
            rfl
          obtain ⟨Z1, done, h1, h2, h3, h4⟩ := ih ZR hL1 hR hne1
          refine ⟨Z1, done, ?_, ?_, h3, h4⟩
          · rw [← h1]
            simp
          · rw [h2]
            simp
    · rw [show (if decide (z.1.current = did) = true then [ZL.length] else []) = [] by
        simp [hd], List.append_nil]
      have hpn : place_next pl did z.2 = some z.2 := by
        unfold place_next
        rw [hpid, if_neg hd]
      rw [hpn]
      have hR1 : ∀ y ∈ z :: ZR, cand_on cfg pl y.1 y.2 ∧ cand_fresh pl y.1 y.2 := by
        intro y hy
        rcases List.mem_cons.1 hy with h | h
        · subst h
          exact ⟨hz.1, hz.2 hd⟩
        · exact hR y h
      obtain ⟨Z1, done, h1, h2, h3, h4⟩ := ih (z :: ZR) hL1 hR1 (by simp)
      refine ⟨Z1, done, ?_, ?_, h3, h4⟩
      · rw [← h1]
        simp
      · rw [h2]
        simp

end Lucene

namespace Lucene

/-! ### The places of the candidates over a round -/

theorem mem_ids_iff (docs : List doc_input) (d : Nat) :
    d ∈ docs.map (fun o => o.id) ↔ ∃ k, k < docs.length ∧ doc_id docs k = d := by
  constructor
  · intro h
    obtain ⟨o, ho, e⟩ := List.mem_map.1 h
    obtain ⟨k, hk, e1⟩ := List.mem_iff_getElem.1 ho
    exact ⟨k, hk, by rw [doc_id_getElem docs k hk, e1, e]⟩
  · intro ⟨k, hk, e⟩
    rw [doc_id_getElem docs k hk] at e
    exact List.mem_map.2 ⟨docs[k], List.getElem_mem hk, e⟩

theorem doc_id_strict (docs : List doc_input)
    (h : ∀ i < docs.length, prev_id docs i < doc_id docs i) (k m : Nat) (hkm : k < m)
    (hm : m < docs.length) : doc_id docs k < doc_id docs m := by
  have h1 := h (k + 1) (by omega)
  rw [prev_id_succ] at h1
  have h2 := doc_id_mono docs docs.length (fun i hi => Nat.le_of_lt (h i hi)) (k + 1) m
    (by omega) hm
  omega

theorem place_id_eq (pl : List (merge_participant × List doc_input)) (a : Nat × Nat)
    (x : merge_participant × List doc_input) (hx : pl[a.1]? = some x) :
    place_id pl a = doc_id x.2 a.2 ∧ place_left pl a = x.2.length - a.2 := by
  unfold place_id place_left
  rw [hx]
  exact ⟨rfl, rfl⟩

theorem place_next_cases (pl : List (merge_participant × List doc_input)) (did : Nat)
    (b : Nat × Nat) :
    (place_id pl b ≠ did ∧ place_next pl did b = some b) ∨
    (place_id pl b = did ∧ 1 < place_left pl b ∧ place_next pl did b = some (b.1, b.2 + 1)) ∨
    (place_id pl b = did ∧ ¬ 1 < place_left pl b ∧ place_next pl did b = none) := by
  unfold place_next
  by_cases h : place_id pl b = did
  · by_cases h1 : 1 < place_left pl b
    · exact Or.inr (Or.inl ⟨h, h1, by rw [if_pos h, if_pos h1]⟩)
    · exact Or.inr (Or.inr ⟨h, h1, by rw [if_pos h, if_neg h1]⟩)
  · exact Or.inl ⟨h, by rw [if_neg h]⟩

theorem place_next_fst (pl : List (merge_participant × List doc_input)) (did : Nat)
    (b c : Nat × Nat) (h : place_next pl did b = some c) : c.1 = b.1 := by
  rcases place_next_cases pl did b with ⟨_, e⟩ | ⟨_, _, e⟩ | ⟨_, _, e⟩
  · rw [e] at h; rw [← Option.some.inj h]
  · rw [e] at h; rw [← Option.some.inj h]
  · rw [e] at h; exact Option.noConfusion h

theorem places_next_sublist (pl : List (merge_participant × List doc_input)) (did : Nat) :
    ∀ A : List (Nat × Nat),
      ((A.filterMap (place_next pl did)).map Prod.fst).Sublist (A.map Prod.fst) := by
  intro A
  induction A with
  | nil => exact List.Sublist.slnil
  | cons b A ih =>
    rw [List.filterMap_cons]
    cases h : place_next pl did b with
    | none => exact List.Sublist.cons _ ih
    | some c =>
      show ((c :: A.filterMap (place_next pl did)).map Prod.fst).Sublist _
      rw [List.map_cons, List.map_cons, place_next_fst pl did b c h]
      exact List.Sublist.cons₂ _ ih

theorem places_fst_inj : ∀ (A : List (Nat × Nat)), (A.map Prod.fst).Pairwise (· < ·) →
    ∀ b ∈ A, ∀ c ∈ A, b.1 = c.1 → b = c := by
  intro A
  induction A with
  | nil => intro _ b hb; exact absurd hb (List.not_mem_nil _)
  | cons a A ih =>
    intro hs b hb c hc e
    rw [List.map_cons, List.pairwise_cons] at hs
    rcases List.mem_cons.1 hb with h1 | h1 <;> rcases List.mem_cons.1 hc with h2 | h2
    · rw [h1, h2]
    · have := hs.1 c.1 (List.mem_map_of_mem _ h2)
      rw [h1] at e
      omega
    · have := hs.1 b.1 (List.mem_map_of_mem _ h1)
      rw [h2] at e
      omega
    · exact ih hs.2 b h1 c h2 e

theorem places_left_next_le (pl : List (merge_participant × List doc_input)) (did : Nat) :
    ∀ A : List (Nat × Nat),
      places_left pl (A.filterMap (place_next pl did)) ≤ places_left pl A := by
  intro A
  induction A with
  | nil => exact Nat.le_refl _
  | cons b A ih =>
    have hc : places_left pl (b :: A) = place_left pl b + places_left pl A := by
      unfold places_left
      rw [List.map_cons, List.sum_cons]
    rw [List.filterMap_cons, hc]
    rcases place_next_cases pl did b with ⟨_, e⟩ | ⟨_, h1, e⟩ | ⟨_, _, e⟩
    · rw [e]
      show places_left pl (b :: _) ≤ _
      unfold places_left at ih ⊢
      rw [List.map_cons, List.sum_cons]
      omega
    · rw [e]
      show places_left pl ((b.1, b.2 + 1) :: _) ≤ _
      have h2 : place_left pl (b.1, b.2 + 1) ≤ place_left pl b := by
        unfold place_left
        show (match pl[b.1]? with | some x => x.2.length - (b.2 + 1) | none => 0) ≤ _
        cases pl[b.1]? with
        | none => exact Nat.le_refl _
        | some x => show x.2.length - (b.2 + 1) ≤ x.2.length - b.2; omega
      unfold places_left at ih ⊢
      rw [List.map_cons, List.sum_cons]
      omega
    · rw [e]
      show places_left pl (List.filterMap (place_next pl did) A) ≤ _
      omega

theorem places_left_next_lt (pl : List (merge_participant × List doc_input)) (did : Nat)
    (a : Nat × Nat) (ha : place_id pl a = did) (hpos : 0 < place_left pl a) :
    ∀ A : List (Nat × Nat), a ∈ A →
      places_left pl (A.filterMap (place_next pl did)) < places_left pl A := by
  intro A
  induction A with
  | nil => intro h; exact absurd h (List.not_mem_nil _)
  | cons b A ih =>
    intro hmem
    have hc : places_left pl (b :: A) = place_left pl b + places_left pl A := by
      unfold places_left
      rw [List.map_cons, List.sum_cons]
    have hle := places_left_next_le pl did A
    rw [List.filterMap_cons, hc]
    have h2 : place_left pl (b.1, b.2 + 1) < place_left pl b ∨ place_left pl b = 0 := by
      unfold place_left
      show (match pl[b.1]? with | some x => x.2.length - (b.2 + 1) | none => 0) <
        (match pl[b.1]? with | some x => x.2.length - b.2 | none => 0) ∨ _
      cases pl[b.1]? with
      | none => exact Or.inr rfl
      | some x =>
        show x.2.length - (b.2 + 1) < x.2.length - b.2 ∨ x.2.length - b.2 = 0
        omega
    have hcons : ∀ c l, places_left pl (c :: l) = place_left pl c + places_left pl l := by
      intro c l
      unfold places_left
      rw [List.map_cons, List.sum_cons]
    rcases List.mem_cons.1 hmem with hab | hin
    · subst hab
      rcases place_next_cases pl did a with ⟨hne, _⟩ | ⟨_, h1, e⟩ | ⟨_, _, e⟩
      · exact absurd ha hne
      · rw [e]
        show places_left pl ((a.1, a.2 + 1) :: _) < _
        rw [hcons]
        omega
      · rw [e]
        show places_left pl (List.filterMap (place_next pl did) A) < _
        omega
    · have hlt := ih hin
      rcases place_next_cases pl did b with ⟨_, e⟩ | ⟨_, h1, e⟩ | ⟨_, _, e⟩
      · rw [e]
        show places_left pl (b :: _) < _
        rw [hcons]
        omega
      · rw [e]
        show places_left pl ((b.1, b.2 + 1) :: _) < _
        rw [hcons]
        omega
      · rw [e]
        show places_left pl (List.filterMap (place_next pl did) A) < _
        omega

/-- One round over the places: the id selected is above `prev`, no participant holds an
id between the two, the first place at the selected id belongs to the lowest-index
participant holding it, and the places after the round are again in order. -/
theorem places_round (pl : List (merge_participant × List doc_input))
    (hinc : ∀ x ∈ pl, ∀ i < x.2.length, prev_id x.2 i < doc_id x.2 i) (prev did : Nat)
    (A1 A2 : List (Nat × Nat)) (a : Nat × Nat)
    (hok : places_ok pl prev (A1 ++ a :: A2))
    (hmin : ∀ b ∈ A1 ++ a :: A2, did ≤ place_id pl b)
    (h1 : ∀ b ∈ A1, place_id pl b ≠ did) (ha : place_id pl a = did) :
    prev < did ∧
      places_ok pl did ((A1 ++ a :: A2).filterMap (place_next pl did)) ∧
      lowest_holder pl did a.1 ∧
      (∀ d, prev < d → d < did → ∀ x ∈ pl, d ∉ x.2.map (fun o => o.id)) ∧
      (∀ d, prev < d → d ≤ did → ∀ i, lowest_holder pl d i → d = did ∧ i = a.1) := by
  obtain ⟨A, hA⟩ : ∃ A, A = A1 ++ a :: A2 := ⟨_, rfl⟩
  rw [← hA] at hok hmin ⊢
  have haA : a ∈ A := by rw [hA]; simp
  obtain ⟨xa, hxa, hka, hbefa, hpa⟩ := hok.alive a haA
  have hida := (place_id_eq pl a xa hxa).1
  have hlt : prev < did := by rw [← ha, hida]; exact hpa
  -- a participant holding an id in (prev, did] is at a place of that id
  have hold : ∀ d, prev < d → d ≤ did → ∀ i x, pl[i]? = some x →
      d ∈ x.2.map (fun o => o.id) → d = did ∧ ∃ b ∈ A, b.1 = i ∧ place_id pl b = did := by
    intro d hd1 hd2 i x hx hd
    obtain ⟨k, hk, e⟩ := (mem_ids_iff x.2 d).1 hd
    by_cases hi : i ∈ A.map Prod.fst
    · obtain ⟨b, hb, hbi⟩ := List.mem_map.1 hi
      obtain ⟨xb, hxb, hkb, hbef, hpb⟩ := hok.alive b hb
      have hxx : xb = x := by rw [hbi, hx] at hxb; exact (Option.some.inj hxb).symm
      subst hxx
      have hidb := (place_id_eq pl b xb hxb).1
      have hmb := hmin b hb
      have hxm := List.getElem?_mem hx
      rcases Nat.lt_trichotomy k b.2 with h | h | h
      · have := hbef k h; omega
      · subst h
        exact ⟨by omega, b, hb, hbi, by omega⟩
      · have := doc_id_strict xb.2 (hinc xb hxm) b.2 k h hk
        omega
    · have := hok.dead i x hx hi k hk
      omega
  refine ⟨hlt, ⟨?_, ?_, ?_⟩, ⟨⟨xa, hxa, ?_⟩, ?_⟩, ?_, ?_⟩
  · exact List.Pairwise.sublist (places_next_sublist pl did A) hok.sorted
  · intro c hc
    obtain ⟨b, hb, hbc⟩ := List.mem_filterMap.1 hc
    obtain ⟨xb, hxb, hkb, hbef, hpb⟩ := hok.alive b hb
    have hidb := place_id_eq pl b xb hxb
    have hmb := hmin b hb
    have hxm := List.getElem?_mem hxb
    rcases place_next_cases pl did b with ⟨hne, e⟩ | ⟨he, hl, e⟩ | ⟨_, _, e⟩
    · rw [e] at hbc
      rw [← Option.some.inj hbc]
      refine ⟨xb, hxb, hkb, ?_, by omega⟩
      intro k hk
      have := hbef k hk
      omega
    · rw [e] at hbc
      rw [← Option.some.inj hbc]
      have hl1 : b.2 + 1 < xb.2.length := by rw [hidb.2] at hl; omega
      refine ⟨xb, hxb, hl1, ?_, ?_⟩
      · intro k hk
        rcases Nat.lt_or_ge k b.2 with h | h
        · have := hbef k h; omega
        · have hkb2 : k = b.2 := by
            have : k < b.2 + 1 := hk
            omega
          rw [hkb2]
          omega
      · have := doc_id_strict xb.2 (hinc xb hxm) b.2 (b.2 + 1) (by omega) hl1
        show did < doc_id xb.2 (b.2 + 1)
        omega
    · rw [e] at hbc
      exact Option.noConfusion hbc
  · intro i x hx hi k hk
    by_cases hiA : i ∈ A.map Prod.fst
    · obtain ⟨b, hb, hbi⟩ := List.mem_map.1 hiA
      obtain ⟨xb, hxb, hkb, hbef, hpb⟩ := hok.alive b hb
      have hxx : xb = x := by rw [hbi, hx] at hxb; exact (Option.some.inj hxb).symm
      subst hxx
      have hidb := place_id_eq pl b xb hxb
      rcases place_next_cases pl did b with ⟨hne, e⟩ | ⟨he, hl, e⟩ | ⟨he, hl, e⟩
      · exact absurd (List.mem_map.2 ⟨b, List.mem_filterMap.2 ⟨b, hb, e⟩, hbi⟩) hi
      · exact absurd (List.mem_map.2 ⟨(b.1, b.2 + 1), List.mem_filterMap.2 ⟨b, hb, e⟩, hbi⟩) hi
      · rw [hidb.2] at hl
        rcases Nat.lt_or_ge k b.2 with h | h
        · have := hbef k h; omega
        · have hkb2 : k = b.2 := by omega
          rw [hkb2]
          omega
    · have := hok.dead i x hx hiA k hk
      omega
  · exact (mem_ids_iff xa.2 did).2 ⟨a.2, hka, by omega⟩
  · intro j y hj hy hd
    obtain ⟨_, b, hb, hbj, hbd⟩ := hold did hlt (Nat.le_refl _) j y hy hd
    rw [hA] at hb
    have hs := hok.sorted
    rw [hA, List.map_append, List.map_cons, List.pairwise_append, List.pairwise_cons] at hs
    rcases List.mem_append.1 hb with h | h
    · exact h1 b h hbd
    · rcases List.mem_cons.1 h with h | h
      · rw [h] at hbj; omega
      · have := hs.2.1.1 b.1 (List.mem_map_of_mem _ h)
        omega
  · intro d hd1 hd2 x hx hd
    obtain ⟨i, hi⟩ := List.mem_iff_getElem?.1 hx
    have := (hold d hd1 (Nat.le_of_lt hd2) i x hi hd).1
    omega
  · intro d hd1 hd2 i hlow
    obtain ⟨⟨x, hx, hd⟩, hlowest⟩ := hlow
    obtain ⟨hdd, b, hb, hbi, hbd⟩ := hold d hd1 hd2 i x hx hd
    refine ⟨hdd, ?_⟩
    subst hdd
    -- both `i` and `a.1` hold `d`; each is the lowest
    by_contra hne
    rcases Nat.lt_or_gt_of_ne hne with h | h
    · -- i < a.1: the place of i is before a, so its id is not d
      rw [hA] at hb
      have hs := hok.sorted
      rw [hA, List.map_append, List.map_cons, List.pairwise_append, List.pairwise_cons] at hs
      rcases List.mem_append.1 hb with h2 | h2
      · exact h1 b h2 hbd
      · rcases List.mem_cons.1 h2 with h2 | h2
        · rw [h2] at hbi; omega
        · have := hs.2.1.1 b.1 (List.mem_map_of_mem _ h2)
          omega
    · exact hlowest a.1 xa h hxa ((mem_ids_iff xa.2 d).2 ⟨a.2, hka, by omega⟩)

end Lucene

namespace Lucene

/-- The selection of a round, over candidates paired with their places: the id selected
is the least current id, and the first candidate standing at it is the head of
`toAdvance`. -/
theorem merge_select_first (z0 : candidate × (Nat × Nat)) (Zr : List (candidate × (Nat × Nat))) :
    ∃ ZA z ZB t, z0 :: Zr = ZA ++ z :: ZB ∧
      (∀ y ∈ z0 :: Zr, (merge_select (Zr.map Prod.fst) 1 z0.1.current [0]).1 ≤ y.1.current) ∧
      (∀ y ∈ ZA, y.1.current ≠ (merge_select (Zr.map Prod.fst) 1 z0.1.current [0]).1) ∧
      z.1.current = (merge_select (Zr.map Prod.fst) 1 z0.1.current [0]).1 ∧
      (merge_select (Zr.map Prod.fst) 1 z0.1.current [0]).2 = ZA.length :: t ∧
      (merge_select (Zr.map Prod.fst) 1 z0.1.current [0]).2 =
        (List.range (z0 :: Zr).length).filter
          (fun k => decide (((z0 :: Zr).map (fun z => z.1.current)).getD k 0 =
            (merge_select (Zr.map Prod.fst) 1 z0.1.current [0]).1)) := by
  obtain ⟨Z, hZ⟩ : ∃ Z, Z = z0 :: Zr := ⟨_, rfl⟩
  have hspec := merge_select_spec (Zr.map Prod.fst) [z0.1] z0.1.current [0]
    (fun c hc => by rw [List.mem_singleton.1 hc])
    ⟨z0.1, List.mem_singleton.2 rfl, rfl⟩ (by simp [List.range_succ])
  obtain ⟨sel, hsel⟩ : ∃ sel, sel = merge_select (Zr.map Prod.fst) 1 z0.1.current [0] :=
    ⟨_, rfl⟩
  have hl1 : ([z0.1] : List candidate).length = 1 := rfl
  rw [hl1, ← hsel] at hspec
  rw [← hsel, ← hZ]
  have hcs : [z0.1] ++ Zr.map Prod.fst = Z.map Prod.fst := by rw [hZ]; rfl
  rw [hcs] at hspec
  obtain ⟨hmin, ⟨c, hc, hcd⟩, hta⟩ := hspec
  have hmm : (Z.map Prod.fst).map (fun c => c.current) = Z.map (fun z => z.1.current) := by
    rw [List.map_map]
    rfl
  rw [hmm, List.length_map] at hta
  have hgetD : ∀ k (hk : k < Z.length),
      (Z.map (fun z => z.1.current)).getD k 0 = (Z[k]).1.current := by
    intro k hk
    rw [List.getD_eq_getElem _ _ (by rw [List.length_map]; exact hk), List.getElem_map]
  obtain ⟨y, hy, hyc⟩ := List.mem_map.1 hc
  obtain ⟨j0, hj0, hj0e⟩ := List.mem_iff_getElem.1 hy
  obtain ⟨j, t, hj, hpj, hbefore, hfil⟩ := filter_range_head
    (fun k => decide ((Z.map (fun z => z.1.current)).getD k 0 = sel.1)) Z.length
    ⟨j0, hj0, by
      simp only [decide_eq_true_eq]
      rw [hgetD j0 hj0, hj0e, hyc, hcd]⟩
  refine ⟨Z.take j, Z[j], Z.drop (j + 1), t, ?_, ?_, ?_, ?_, ?_, hta⟩
  · rw [← List.drop_eq_getElem_cons hj, List.take_append_drop]
  · intro y hy
    exact hmin y.1 (List.mem_map_of_mem _ hy)
  · intro y hy
    obtain ⟨i, hi, hie⟩ := List.mem_iff_getElem.1 hy
    have hij : i < j := by
      rw [List.length_take] at hi
      omega
    have hb := hbefore i hij
    simp only [decide_eq_false_iff_not] at hb
    rw [hgetD i (by omega)] at hb
    rw [← hie, List.getElem_take]
    exact hb
  · simp only [decide_eq_true_eq] at hpj
    rw [hgetD j hj] at hpj
    exact hpj
  · rw [hta, hfil, List.length_take, Nat.min_eq_left (Nat.le_of_lt hj)]

end Lucene

namespace Lucene

/-- One round of the main loop keeps the invariant, leaves the loop exactly when no
candidate remains, and passes at least one document. -/
theorem merge_round_spec (cfg : Config) (hok : cfg.codec_ok) (hB : 0 < cfg.BLOCK_SIZE)
    (hB8 : cfg.BLOCK_SIZE ≤ 255) (pl : List (merge_participant × List doc_input))
    (hp : ∀ x ∈ pl, participant_ok cfg x.1 x.2) (s : merge_state)
    (Z : List (candidate × (Nat × Nat))) (hinv : merge_inv cfg pl s Z) (hne : Z ≠ []) :
    ∃ s1 done Z1, merge_round cfg s = some (s1, done) ∧ merge_inv cfg pl s1 Z1 ∧
      (done = true ↔ Z1 = []) ∧
      places_left pl (Z1.map Prod.snd) < places_left pl (Z.map Prod.snd) := by
  obtain ⟨cs, prev, out⟩ := s
  obtain ⟨hcands, hon, hplaces, hsorted, hle, hiff, hhits⟩ := hinv
  have hcs0 : cs = Z.map Prod.fst := hcands
  subst hcs0
  have hplaces0 : places_ok pl prev (Z.map Prod.snd) := hplaces
  have hsorted0 : (out.map (fun o => o.id)).Pairwise (· < ·) := hsorted
  have hle0 : ∀ o ∈ out, o.id ≤ prev := hle
  have hiff0 : ∀ d, d ≤ prev → (d ∈ out.map (fun o => o.id) ↔
      ∃ i x, lowest_holder pl d i ∧ pl[i]? = some x ∧ x.1.maskedDocsReg d = false) := hiff
  have hhits0 : ∀ o ∈ out, ∀ i x, lowest_holder pl o.id i → pl[i]? = some x →
      ∀ y ∈ x.2, y.id = o.id → o.hits = real_hits y := hhits
  clear hplaces hsorted hle hiff hhits hcands
  cases Z with
  | nil => exact absurd rfl hne
  | cons z0 Zr =>
  obtain ⟨ZA, z, ZB, t, hsplit, hmin, hbefore, hzc, hhead, hta⟩ := merge_select_first z0 Zr
  obtain ⟨sel, hsel⟩ : ∃ sel, sel = merge_select (Zr.map Prod.fst) 1 z0.1.current [0] :=
    ⟨_, rfl⟩
  rw [← hsel] at hmin hbefore hzc hhead hta
  have hstep : merge_round cfg ⟨(z0 :: Zr).map Prod.fst, prev, out⟩ =
      if ¬ (sel.1 > prev) then none
      else
        match ((z0 :: Zr).map Prod.fst)[sel.2.headD 0]? with
        | none => none
        | some c =>
          match (if c.maskedDocsReg sel.1 = false then
                  match c.output_hits cfg with
                  | none => none
                  | some (c1, hits) =>
                    some (((z0 :: Zr).map Prod.fst).set (sel.2.headD 0) c1,
                      out ++ [({ id := sel.1, hits := hits } : doc_input)])
                 else some ((z0 :: Zr).map Prod.fst, out)) with
          | none => none
          | some (cs1, out1) =>
            match merge_advance cfg sel.2.reverse cs1 with
            | none => none
            | some (cs2, done) =>
              some ({ candidates := cs2, prev := sel.1, out := out1 }, done) := by
    subst hsel
    rfl
  have hinc : ∀ x ∈ pl, ∀ i < x.2.length, prev_id x.2 i < doc_id x.2 i :=
    fun x hx => (hp x hx).ids_increasing
  have hzmem : z ∈ z0 :: Zr := by rw [hsplit]; simp
  have hA : (z0 :: Zr).map Prod.snd = ZA.map Prod.snd ++ z.2 :: ZB.map Prod.snd := by
    rw [hsplit]; simp
  have hcs : (z0 :: Zr).map Prod.fst = ZA.map Prod.fst ++ z.1 :: ZB.map Prod.fst := by
    rw [hsplit]; simp
  have hpc : ∀ y ∈ z0 :: Zr, place_id pl y.2 = y.1.current := by
    intro y hy
    obtain ⟨_, _, _, _, h, _⟩ := place_of_cand cfg pl y.1 y.2 (hon y hy).1
    exact h
  obtain ⟨hlt, hplaces1, hlow, hbetween, huniq⟩ := places_round pl hinc prev sel.1
    (ZA.map Prod.snd) (ZB.map Prod.snd) z.2 (by rw [← hA]; exact hplaces0)
    (by
      rw [← hA]
      intro b hb
      obtain ⟨y, hy, e⟩ := List.mem_map.1 hb
      rw [← e, hpc y hy]
      exact hmin y hy)
    (by
      intro b hb
      obtain ⟨y, hy, e⟩ := List.mem_map.1 hb
      rw [← e, hpc y (by rw [hsplit]; simp [hy])]
      exact hbefore y hy)
    (by rw [hpc z hzmem]; exact hzc)
  rw [← hA] at hplaces1
  obtain ⟨xz, hxz, hxm, hk, hpid, hcur, hleft⟩ := place_of_cand cfg pl z.1 z.2 (hon z hzmem).1
  obtain ⟨xz1, hxz1, hcz, hmz⟩ := (hon z hzmem).1
  have hxx : xz1 = xz := by rw [hxz] at hxz1; exact (Option.some.inj hxz1).symm
  subst hxx
  have hfresh := (hon z hzmem).2 xz1 hxz
  have hpz := hp xz1 hxm
  have hlm : (ZA.map Prod.fst).length = ZA.length := List.length_map _ _
  have hhd : sel.2.headD 0 = ZA.length := by rw [hhead]; rfl
  have hmid := getElem?_mid (ZA.map Prod.fst) z.1 (ZB.map Prod.fst)
  rw [hlm] at hmid
  -- what is left after the output: the advance and the invariant
  have key : ∀ (c1 : candidate) (out1 : List doc_input), cand_on cfg pl c1 z.2 →
      c1.current = z.1.current →
      ((xz1.1.maskedDocsReg sel.1 = true ∧ out1 = out) ∨
        (xz1.1.maskedDocsReg sel.1 = false ∧
          out1 = out ++ [({ id := sel.1, hits := real_hits xz1.2[z.2.2] } : doc_input)])) →
      ∃ Z1 done, merge_advance cfg sel.2.reverse (ZA.map Prod.fst ++ c1 :: ZB.map Prod.fst) =
          some (Z1.map Prod.fst, done) ∧
        merge_inv cfg pl ⟨Z1.map Prod.fst, sel.1, out1⟩ Z1 ∧ (done = true ↔ Z1 = []) ∧
        places_left pl (Z1.map Prod.snd) < places_left pl ((z0 :: Zr).map Prod.snd) := by
    intro c1 out1 hc1 hcur1 hout
    have hZm : ∀ y ∈ ZA ++ (c1, z.2) :: ZB, cand_on cfg pl y.1 y.2 ∧
        (y.1.current ≠ sel.1 → cand_fresh pl y.1 y.2) := by
      intro y hy
      rcases List.mem_append.1 hy with h | h
      · have := hon y (by rw [hsplit]; simp [h])
        exact ⟨this.1, fun _ => this.2⟩
      · rcases List.mem_cons.1 h with h | h
        · subst h
          exact ⟨hc1, fun hne => absurd (hcur1.trans hzc) hne⟩
        · have := hon y (by rw [hsplit]; simp [h])
          exact ⟨this.1, fun _ => this.2⟩
    obtain ⟨Z1, done, hadv, hsnd, hon1, hdone⟩ := merge_advance_spec cfg hok hB hB8 pl hp sel.1
      (ZA ++ (c1, z.2) :: ZB) [] hZm (fun _ h => absurd h (List.not_mem_nil _)) (by simp)
    have hlenm : (ZA ++ (c1, z.2) :: ZB).length = (z0 :: Zr).length := by
      rw [hsplit]; simp
    have hcurm : (ZA ++ (c1, z.2) :: ZB).map (fun z => z.1.current) =
        (z0 :: Zr).map (fun z => z.1.current) := by
      rw [hsplit]; simp [hcur1]
    have hsndm : (ZA ++ (c1, z.2) :: ZB).map Prod.snd = (z0 :: Zr).map Prod.snd := by
      rw [hsplit]; simp
    rw [hlenm, hcurm, ← hta, List.append_nil] at hadv
    rw [hsndm] at hsnd
    have hsnd1 : Z1.map Prod.snd = ((z0 :: Zr).map Prod.snd).filterMap (place_next pl sel.1) := by
      rw [hsnd]; simp
    have hadv1 : merge_advance cfg sel.2.reverse (ZA.map Prod.fst ++ c1 :: ZB.map Prod.fst) =
        some (Z1.map Prod.fst, done) := by
      rw [← hadv]
      congr 1
      simp
    have hnotin : ∀ d, prev < d → d ∉ out.map (fun o => o.id) := by
      intro d hd hin
      obtain ⟨o, ho, e⟩ := List.mem_map.1 hin
      have := hle0 o ho
      have e1 : o.id = d := e
      omega
    refine ⟨Z1, done, hadv1, ⟨rfl, hon1, ?_, ?_, ?_, ?_, ?_⟩, hdone, ?_⟩
    · show places_ok pl sel.1 (Z1.map Prod.snd)
      rw [hsnd1]
      exact hplaces1
    · show (out1.map (fun o => o.id)).Pairwise (· < ·)
      rcases hout with ⟨_, e⟩ | ⟨_, e⟩
      · rw [e]; exact hsorted0
      · rw [e, List.map_append, List.pairwise_append]
        refine ⟨hsorted0, List.pairwise_singleton _ _, ?_⟩
        intro a ha b hb
        obtain ⟨o, ho, e1⟩ := List.mem_map.1 ha
        have := hle0 o ho
        have e2 : o.id = a := e1
        have e3 : b = sel.1 := by simpa using hb
        omega
    · show ∀ o ∈ out1, o.id ≤ sel.1
      intro o ho
      rcases hout with ⟨_, e⟩ | ⟨_, e⟩
      · rw [e] at ho
        have := hle0 o ho
        omega
      · rw [e] at ho
        rcases List.mem_append.1 ho with h | h
        · have := hle0 o h
          omega
        · rw [List.mem_singleton.1 h]
    · show ∀ d, d ≤ sel.1 → (d ∈ out1.map (fun o => o.id) ↔
        ∃ i x, lowest_holder pl d i ∧ pl[i]? = some x ∧ x.1.maskedDocsReg d = false)
      intro d hd
      by_cases hdp : d ≤ prev
      · have hold := hiff0 d hdp
        rcases hout with ⟨_, e⟩ | ⟨_, e⟩
        · rw [e]; exact hold
        · rw [e, List.map_append, List.mem_append]
          constructor
          · intro h
            rcases h with h | h
            · exact hold.1 h
            · have e3 : d = sel.1 := by simpa using h
              omega
          · intro h
            exact Or.inl (hold.2 h)
      · have hdp1 : prev < d := by omega
        constructor
        · intro h
          rcases hout with ⟨_, e⟩ | ⟨hm, e⟩
          · rw [e] at h
            exact absurd h (hnotin d hdp1)
          · rw [e, List.map_append, List.mem_append] at h
            rcases h with h | h
            · exact absurd h (hnotin d hdp1)
            · have e3 : d = sel.1 := by simpa using h
              rw [e3]
              exact ⟨z.2.1, xz1, hlow, hxz, hm⟩
        · intro ⟨i, x, hl, hx, hm⟩
          obtain ⟨e1, e2⟩ := huniq d hdp1 hd i hl
          subst e1
          subst e2
          have hxx : x = xz1 := by rw [hxz] at hx; exact (Option.some.inj hx).symm
          subst hxx
          rcases hout with ⟨hm1, _⟩ | ⟨_, e⟩
          · rw [hm] at hm1
            exact Bool.noConfusion hm1
          · rw [e, List.map_append, List.mem_append]
            exact Or.inr (by simp)
    · show ∀ o ∈ out1, ∀ i x, lowest_holder pl o.id i → pl[i]? = some x →
        ∀ y ∈ x.2, y.id = o.id → o.hits = real_hits y
      intro o ho i x hl hx y hy hyid
      have hnew : o = ({ id := sel.1, hits := real_hits xz1.2[z.2.2] } : doc_input) →
          o.hits = real_hits y := by
        intro e
        subst e
        obtain ⟨_, e2⟩ := huniq sel.1 hlt (Nat.le_refl _) i hl
        subst e2
        have hxx : x = xz1 := by rw [hxz] at hx; exact (Option.some.inj hx).symm
        subst hxx
        obtain ⟨m, hm, hme⟩ := List.mem_iff_getElem.1 hy
        have hidm : doc_id x.2 m = doc_id x.2 z.2.2 := by
          rw [doc_id_getElem x.2 m hm, hme, ← hcur, hzc]
          exact hyid
        have hmk : m = z.2.2 := by
          rcases Nat.lt_trichotomy m z.2.2 with h | h | h
          · have := doc_id_strict x.2 (hinc x hxm) m z.2.2 h hk
            omega
          · exact h
          · have := doc_id_strict x.2 (hinc x hxm) z.2.2 m h hm
            omega
        subst hmk
        rw [← hme]
      rcases hout with ⟨_, e⟩ | ⟨_, e⟩
      · rw [e] at ho
        exact hhits0 o ho i x hl hx y hy hyid
      · rw [e] at ho
        rcases List.mem_append.1 ho with h | h
        · exact hhits0 o h i x hl hx y hy hyid
        · exact hnew (List.mem_singleton.1 h)
    · rw [hsnd1]
      apply places_left_next_lt pl sel.1 z.2 (by rw [hpid]; exact hzc) (by rw [hleft]; omega)
      exact List.mem_map_of_mem _ hzmem
  rw [hstep, if_neg (not_not.2 hlt), hhd, hcs, hmid]
  dsimp only
  by_cases hm : z.1.maskedDocsReg sel.1 = false
  · rw [if_pos hm]
    obtain ⟨c1, hout, hc1, hm1, hcur1⟩ := cand_output_hits cfg hok hB hB8 xz1.2 xz1.1.decoder
      hpz.hits z.1 z.2.2 hcz hfresh
    have hmem : xz1.2[z.2.2] ∈ xz1.2 := List.getElem_mem hk
    rw [emitted_run_doc xz1.2 z.2.2 hk (hpz.positions_lt _ hmem)
      (hpz.positions_sorted _ hmem)] at hout
    rw [hout]
    dsimp only
    have hset := set_mid (ZA.map Prod.fst) z.1 c1 (ZB.map Prod.fst)
    rw [hlm] at hset
    rw [hset]
    obtain ⟨Z1, done, hadv, hinv1, hdone, hmeas⟩ := key c1 _ ⟨xz1, hxz, hc1, hm1.trans hmz⟩ hcur1
      (Or.inr ⟨by rw [← hmz]; exact hm, rfl⟩)
    rw [hadv]
    exact ⟨_, done, Z1, rfl, hinv1, hdone, hmeas⟩
  · rw [if_neg hm]
    dsimp only
    obtain ⟨Z1, done, hadv, hinv1, hdone, hmeas⟩ := key z.1 out (hon z hzmem).1 rfl
      (Or.inl ⟨by rw [← hmz]; simpa using hm, rfl⟩)
    rw [hadv]
    exact ⟨_, done, Z1, rfl, hinv1, hdone, hmeas⟩

end Lucene

namespace Lucene

/-! ### The main loop of the merge -/

theorem doc_id_pos (docs : List doc_input)
    (h : ∀ i < docs.length, prev_id docs i < doc_id docs i) (k : Nat) (hk : k < docs.length) :
    0 < doc_id docs k := by
  have := h k hk
  omega

theorem merge_places_fst (cfg : Config) (c0 : candidate)
    (pl : List (merge_participant × List doc_input)) :
    (merge_places cfg c0 pl).map Prod.fst = (pl.map Prod.fst).map (merge_candidate cfg c0) := by
  unfold merge_places
  rw [List.map_map, List.map_map]
  have h : pl = pl.enum.map Prod.snd := (List.enum_map_snd pl).symm
  conv_rhs => rw [h]
  rw [List.map_map]
  rfl

theorem merge_places_mem (cfg : Config) (c0 : candidate)
    (pl : List (merge_participant × List doc_input)) (z : candidate × (Nat × Nat))
    (hz : z ∈ merge_places cfg c0 pl) :
    ∃ x, pl[z.2.1]? = some x ∧ z.2.2 = 0 ∧ z.1 = merge_candidate cfg c0 x.1 := by
  unfold merge_places at hz
  obtain ⟨p, hp, e⟩ := List.mem_map.1 hz
  have hp1 : (p.1, p.2) ∈ pl.enum := hp
  rw [List.mk_mem_enum_iff_getElem?] at hp1
  rw [← e]
  exact ⟨p.2, hp1, rfl, rfl⟩

theorem merge_places_left (cfg : Config) (c0 : candidate)
    (pl : List (merge_participant × List doc_input)) :
    places_left pl ((merge_places cfg c0 pl).map Prod.snd) =
      (pl.map (fun x => x.2.length)).sum := by
  unfold places_left merge_places
  rw [List.map_map, List.map_map]
  have h : pl.map (fun x => x.2.length) = pl.enum.map (fun p => p.2.2.length) := by
    conv_lhs => rw [← List.enum_map_snd pl]
    rw [List.map_map]
    rfl
  rw [h]
  congr 1
  apply List.map_congr_left
  intro p hp
  have hp1 : (p.1, p.2) ∈ pl.enum := hp
  rw [List.mk_mem_enum_iff_getElem?] at hp1
  show place_left pl (p.1, 0) = p.2.2.length
  unfold place_left
  rw [hp1]
  rfl

/-- The invariant holds when the main loop starts. -/
theorem merge_start_inv (cfg : Config) (hok : cfg.codec_ok) (hB : 0 < cfg.BLOCK_SIZE)
    (hB8 : cfg.BLOCK_SIZE ≤ 255) (pl : List (merge_participant × List doc_input))
    (hp : ∀ x ∈ pl, participant_ok cfg x.1 x.2) (c0 : candidate) :
    merge_inv cfg pl (merge_start cfg c0 (pl.map Prod.fst)) (merge_places cfg c0 pl) := by
  have hlen : ∀ x ∈ pl, 0 < x.2.length := by
    intro x hx
    have := (hp x hx).nonempty
    exact List.length_pos.2 this
  refine ⟨(merge_places_fst cfg c0 pl).symm, ?_, ⟨?_, ?_, ?_⟩, List.Pairwise.nil, ?_, ?_, ?_⟩
  · intro z hz
    obtain ⟨x, hx, hz0, hz1⟩ := merge_places_mem cfg c0 pl z hz
    have hxm := List.getElem?_mem hx
    have hpx := hp x hxm
    obtain ⟨h1, h2, h3⟩ := merge_candidate_ok cfg hok hB hB8 x.2 c0 x.1 hpx.layout hpx.tail
      (hlen x hxm)
    rw [hz1]
    refine ⟨⟨x, hx, by rw [hz0]; exact h1, h3⟩, ?_⟩
    intro x1 hx1
    have hxx : x1 = x := by rw [hx] at hx1; exact (Option.some.inj hx1).symm
    subst hxx
    rw [hz0]
    exact h2
  · have h : ((merge_places cfg c0 pl).map Prod.snd).map Prod.fst = List.range pl.length := by
      unfold merge_places
      rw [List.map_map, List.map_map, ← List.enum_map_fst]
      rfl
    rw [h]
    exact List.pairwise_lt_range _
  · intro a ha
    obtain ⟨z, hz, e⟩ := List.mem_map.1 ha
    obtain ⟨x, hx, hz0, _⟩ := merge_places_mem cfg c0 pl z hz
    have hxm := List.getElem?_mem hx
    rw [← e]
    refine ⟨x, hx, by rw [hz0]; exact hlen x hxm, ?_, ?_⟩
    · intro k hk
      rw [hz0] at hk
      exact absurd hk (Nat.not_lt_zero _)
    · exact doc_id_pos x.2 (hp x hxm).ids_increasing _ (by rw [hz0]; exact hlen x hxm)
  · intro i x hx hi
    exfalso
    apply hi
    have h : ((merge_places cfg c0 pl).map Prod.snd).map Prod.fst = List.range pl.length := by
      unfold merge_places
      rw [List.map_map, List.map_map, ← List.enum_map_fst]
      rfl
    rw [h, List.mem_range]
    exact (List.getElem?_eq_some.1 hx).1
  · intro o ho
    exact absurd ho (List.not_mem_nil _)
  · intro d hd
    constructor
    · intro h
      exact absurd h (List.not_mem_nil _)
    · intro ⟨i, x, ⟨⟨x1, hx1, hd1⟩, _⟩, hx, _⟩
      exfalso
      obtain ⟨k, hk, e⟩ := (mem_ids_iff x1.2 d).1 hd1
      have := doc_id_pos x1.2 (hp x1 (List.getElem?_mem hx1)).ids_increasing k hk
      have hd0 : d ≤ 0 := hd
      omega
  · intro o ho
    exact absurd ho (List.not_mem_nil _)

/-- With a round for every document of the participants the main loop ends, on a state
in which the invariant holds and no candidate is left. -/
theorem merge_loop_spec (cfg : Config) (hok : cfg.codec_ok) (hB : 0 < cfg.BLOCK_SIZE)
    (hB8 : cfg.BLOCK_SIZE ≤ 255) (pl : List (merge_participant × List doc_input))
    (hp : ∀ x ∈ pl, participant_ok cfg x.1 x.2) :
    ∀ (fuel : Nat) (s : merge_state) (Z : List (candidate × (Nat × Nat))),
      merge_inv cfg pl s Z → Z ≠ [] → places_left pl (Z.map Prod.snd) ≤ fuel →
      ∃ s1, merge_loop cfg fuel s = some s1.out ∧ merge_inv cfg pl s1 [] := by
  intro fuel
  induction fuel with
  | zero =>
    intro s Z hinv hne hf
    obtain ⟨_, _, _, _, _, _, hlt⟩ := merge_round_spec cfg hok hB hB8 pl hp s Z hinv hne
    omega
  | succ fuel ih =>
    intro s Z hinv hne hf
    obtain ⟨s1, done, Z1, hr, hinv1, hdone, hlt⟩ :=
      merge_round_spec cfg hok hB hB8 pl hp s Z hinv hne
    have hstep : merge_loop cfg (fuel + 1) s =
        match merge_round cfg s with
        | none => none
        | some (s1, true) => some s1.out
        | some (s1, false) => merge_loop cfg fuel s1 := rfl
    rw [hstep, hr]
    cases done with
    | true =>
      have hz : Z1 = [] := hdone.1 rfl
      rw [hz] at hinv1
      exact ⟨s1, rfl, hinv1⟩
    | false =>
      have hz : Z1 ≠ [] := fun h => Bool.noConfusion (hdone.2 h)
      exact ih s1 Z1 hinv1 hz (by omega)

/-- The invariant holds after any number of rounds that did not leave the loop. -/
theorem merge_rounds_inv (cfg : Config) (hok : cfg.codec_ok) (hB : 0 < cfg.BLOCK_SIZE)
    (hB8 : cfg.BLOCK_SIZE ≤ 255) (pl : List (merge_participant × List doc_input))
    (hp : ∀ x ∈ pl, participant_ok cfg x.1 x.2) :
    ∀ (n : Nat) (s : merge_state) (Z : List (candidate × (Nat × Nat))),
      merge_inv cfg pl s Z → ∀ s1, merge_rounds cfg n s = some s1 →
      ∃ Z1, merge_inv cfg pl s1 Z1 := by
  intro n
  induction n with
  | zero =>
    intro s Z hinv s1 h
    have e : s = s1 := Option.some.inj h
    rw [← e]
    exact ⟨Z, hinv⟩
  | succ n ih =>
    intro s Z hinv s1 h
    have hstep : merge_rounds cfg (n + 1) s =
        match merge_round cfg s with
        | some (s1, false) => merge_rounds cfg n s1
        | _ => none := rfl
    rw [hstep] at h
    by_cases hne : Z = []
    · exfalso
      have hc : s.candidates = [] := by rw [hinv.cands, hne]; rfl
      have hr : merge_round cfg s = none := by
        unfold merge_round
        rw [hc]
      rw [hr] at h
      exact Option.noConfusion h
    · obtain ⟨s2, done, Z2, hr, hinv2, _, _⟩ :=
        merge_round_spec cfg hok hB hB8 pl hp s Z hinv hne
      rw [hr] at h
      cases done with
      | true => exact Option.noConfusion h
      | false => exact ih s2 Z2 hinv2 s1 h

end Lucene

namespace Lucene

/-- C39. Merge of posting lists: for participants (fewer than 2^16, at least one) each
holding a non-empty posting list with strictly increasing ids, laid out as the decoder
reads it, with blocks of at most 255 documents and sorted 16-bit hit positions,
`IndexSession::merge` returns once it has a round for every document; it calls
`begin_document` with strictly increasing ids, so that no id is emitted twice; an id is
emitted iff the lowest-index participant holding it does not mask it; the hits emitted
for it are the recorded hits (positions and payloads) of that participant's document;
and after every round each candidate left stands above the id of the round. -/
theorem merge_posting_lists (cfg : Config) (hok : cfg.codec_ok) (hB : 0 < cfg.BLOCK_SIZE)
    (hB8 : cfg.BLOCK_SIZE ≤ 255) (pl : List (merge_participant × List doc_input))
    (hne : pl ≠ []) (hcnt : pl.length < 2 ^ 16)
    (hp : ∀ x ∈ pl, participant_ok cfg x.1 x.2) (c0 : candidate) (fuel : Nat)
    (hfuel : (pl.map (fun x => x.2.length)).sum ≤ fuel) :
    ∃ out, IndexSession.merge cfg fuel c0 (pl.map Prod.fst) = some out ∧
      (out.map (fun o => o.id)).Pairwise (· < ·) ∧
      (out.map (fun o => o.id)).Nodup ∧
      (∀ d, d ∈ out.map (fun o => o.id) ↔
        ∃ i x, lowest_holder pl d i ∧ pl[i]? = some x ∧ x.1.maskedDocsReg d = false) ∧
      (∀ o ∈ out, ∀ i x, lowest_holder pl o.id i → pl[i]? = some x →
        ∀ y ∈ x.2, y.id = o.id → o.hits = real_hits y) ∧
      (∀ n s, merge_rounds cfg n (merge_start cfg c0 (pl.map Prod.fst)) = some s →
        ∀ c ∈ s.candidates, s.prev < c.current) := by
  have _hcnt := hcnt
  have hinv := merge_start_inv cfg hok hB hB8 pl hp c0
  have hZ : merge_places cfg c0 pl ≠ [] := by
    intro h
    apply hne
    have := congrArg List.length h
    unfold merge_places at this
    rw [List.length_map, List.enum_length] at this
    exact List.length_eq_zero.1 this
  obtain ⟨s1, hloop, hinv1⟩ := merge_loop_spec cfg hok hB hB8 pl hp fuel _ _ hinv hZ
    (by rw [merge_places_left]; exact hfuel)
  have hall : ∀ i (x : merge_participant × List doc_input), pl[i]? = some x →
      ∀ k, k < x.2.length → doc_id x.2 k ≤ s1.prev :=
    fun i x hx k hk => hinv1.places.dead i x hx (List.not_mem_nil _) k hk
  refine ⟨s1.out, hloop, hinv1.out_sorted, ?_, ?_, hinv1.out_hits, ?_⟩
  · exact List.Pairwise.imp (fun h => Nat.ne_of_lt h) hinv1.out_sorted
  · intro d
    by_cases hd : d ≤ s1.prev
    · exact hinv1.out_iff d hd
    · constructor
      · intro h
        obtain ⟨o, ho, e⟩ := List.mem_map.1 h
        have := hinv1.out_le o ho
        have e1 : o.id = d := e
        omega
      · intro ⟨i, x, ⟨⟨x1, hx1, hd1⟩, _⟩, _, _⟩
        obtain ⟨k, hk, e⟩ := (mem_ids_iff x1.2 d).1 hd1
        have := hall i x1 hx1 k hk
        omega
  · intro n s hs c hc
    obtain ⟨Z1, hinv2⟩ := merge_rounds_inv cfg hok hB hB8 pl hp n _ _ hinv s hs
    rw [hinv2.cands] at hc
    obtain ⟨z, hz, e⟩ := List.mem_map.1 hc
    obtain ⟨x, hx, _, _, _, hcur, _⟩ := place_of_cand cfg pl z.1 z.2 (hinv2.on_places z hz).1
    obtain ⟨x1, hx1, _, _, hgt⟩ := hinv2.places.alive z.2 (List.mem_map_of_mem _ hz)
    have hxx : x1 = x := by rw [hx] at hx1; exact (Option.some.inj hx1).symm
    subst hxx
    rw [← e, hcur]
    exact hgt

set_option maxRecDepth 100000 in
/-- C39 (witness). Two participants hold the five documents written with blocks of two;
the first masks the id 7. -/
theorem merge_posting_lists_witness :
    ∃ e tctx,
      Encoder.write_term (vbyte_config 2 true) (Encoder.fresh [] []) five_docs = some (e, tctx) ∧
      ∃ pl : List (merge_participant × List doc_input),
        pl = [(({ tctx := tctx, indexPtr := e.indexOut, hitsDataPtr := e.positionsOut,
                  maskedDocsReg := fun d => decide (d = 7) } : merge_participant), five_docs),
              (({ tctx := tctx, indexPtr := e.indexOut, hitsDataPtr := e.positionsOut,
                  maskedDocsReg := fun _ => false } : merge_participant), five_docs)] ∧
        (∀ x ∈ pl, participant_ok (vbyte_config 2 true) x.1 x.2) ∧
        (pl.map (fun x => x.2.length)).sum ≤ 10 ∧
        ∀ c0 : candidate,
          ∃ out, IndexSession.merge (vbyte_config 2 true) 10 c0 (pl.map Prod.fst) = some out ∧
            (out.map (fun o => o.id)).Pairwise (· < ·) ∧
            (out.map (fun o => o.id)).Nodup ∧
            (∀ d, d ∈ out.map (fun o => o.id) ↔
              ∃ i x, lowest_holder pl d i ∧ pl[i]? = some x ∧ x.1.maskedDocsReg d = false) ∧
            (∀ o ∈ out, ∀ i x, lowest_holder pl o.id i → pl[i]? = some x →
              ∀ y ∈ x.2, y.id = o.id → o.hits = real_hits y) ∧
            (∀ n s, merge_rounds (vbyte_config 2 true) n
                (merge_start (vbyte_config 2 true) c0 (pl.map Prod.fst)) = some s →
              ∀ c ∈ s.candidates, s.prev < c.current) := by
  cases hw : Encoder.write_term (vbyte_config 2 true) (Encoder.fresh [] []) five_docs with
  | none =>
    have h1 : (Encoder.write_term (vbyte_config 2 true) (Encoder.fresh [] []) five_docs).isSome
        = true := by decide
    rw [hw] at h1
    exact absurd h1 (by decide)
  | some r =>
    obtain ⟨e, tctx⟩ := r
    have h1 : (Encoder.write_term (vbyte_config 2 true) (Encoder.fresh [] []) five_docs).map
        (fun r => r.1.indexOut.length) = some 72 := by decide
    have h3 : (Encoder.write_term (vbyte_config 2 true) (Encoder.fresh [] []) five_docs).map
        (fun r => decide (r.1.positionsOut.length < 100)) = some true := by decide
    rw [hw] at h1 h3
    have hlen : e.indexOut.length = 72 := by simpa using h1
    have hpl : e.positionsOut.length < 100 := by simpa using h3
    have hsz : e.indexOut.length < 2 ^ 32 := by rw [hlen]; decide
    have hpsz : e.positionsOut.length < 2 ^ 32 := lt_trans hpl (by decide)
    have hl := write_term_layout (vbyte_config 2 true) (by decide) (by decide) (by decide)
      (Encoder.fresh [] []) e five_docs tctx hw hsz (by decide) (by decide) e.positionsOut
    have hh := write_term_hits_layout (vbyte_config 2 true) (by decide) (by decide) (by decide)
      (Encoder.fresh [] []) e five_docs tctx hw hsz hpsz (by decide) (by decide) rfl (by decide)
    have hs := write_term_sorted (vbyte_config 2 true) (by decide) (by decide)
      (Encoder.fresh [] []) e five_docs tctx hw
    have hpart : ∀ m : Nat → Bool, participant_ok (vbyte_config 2 true)
        ({ tctx := tctx, indexPtr := e.indexOut, hitsDataPtr := e.positionsOut,
           maskedDocsReg := m } : merge_participant) five_docs :=
      fun m => ⟨hl, hh, tail_deltas_ok_five_docs, by decide, hs, by decide, by decide⟩
    have key : ∀ pl : List (merge_participant × List doc_input),
        (∀ x ∈ pl, participant_ok (vbyte_config 2 true) x.1 x.2) → pl ≠ [] →
        pl.length < 2 ^ 16 → (pl.map (fun x => x.2.length)).sum ≤ 10 →
        (∀ x ∈ pl, participant_ok (vbyte_config 2 true) x.1 x.2) ∧
        (pl.map (fun x => x.2.length)).sum ≤ 10 ∧
        ∀ c0 : candidate,
          ∃ out, IndexSession.merge (vbyte_config 2 true) 10 c0 (pl.map Prod.fst) = some out ∧
            (out.map (fun o => o.id)).Pairwise (· < ·) ∧
            (out.map (fun o => o.id)).Nodup ∧
            (∀ d, d ∈ out.map (fun o => o.id) ↔
              ∃ i x, lowest_holder pl d i ∧ pl[i]? = some x ∧ x.1.maskedDocsReg d = false) ∧
            (∀ o ∈ out, ∀ i x, lowest_holder pl o.id i → pl[i]? = some x →
              ∀ y ∈ x.2, y.id = o.id → o.hits = real_hits y) ∧
            (∀ n s, merge_rounds (vbyte_config 2 true) n
                (merge_start (vbyte_config 2 true) c0 (pl.map Prod.fst)) = some s →
              ∀ c ∈ s.candidates, s.prev < c.current) :=
      fun pl hp hne hcnt hsum => ⟨hp, hsum, fun c0 =>
        merge_posting_lists (vbyte_config 2 true) (vbyte_config_codec_ok 2 true) (by decide)
          (by decide) pl hne hcnt hp c0 10 hsum⟩
    refine ⟨e, tctx, rfl, _, rfl, key _ ?_ (by simp) (by show (2 : Nat) < 2 ^ 16; decide)
      (by show five_docs.length + (five_docs.length + 0) ≤ 10; decide)⟩
    intro x hx
    rcases List.mem_cons.1 hx with h | h
    · rw [h]; exact hpart _
    · rw [List.mem_singleton.1 h]; exact hpart _

end Lucene

end Trinity
